import Mathlib

/-!
SSD-assisted hybrid memory (src/mongo/util/hmem): a shallow embedding.

The development follows the source files one by one: bitmap.h, the page
allocation table, the page stats table, and the tiers (ranges of virtual
addresses, page cache, RAM cache, flash cache, fault handler).  C++ objects
become structures, member functions become functions that take the object and
return the new object next to the result, and a failed `assert` (the process
aborts) is the result `none`.  `uint64_t` values are natural numbers.  In the two
tables the sizes that occur (at most `2^24` flash pages) keep every
intermediate value far below `2^64`, so that nothing wraps around; elsewhere a
conversion to a narrower type is written as a remainder.
-/

namespace Hmem

/-! ## bitmap.h -/

/-- The C library function `ffsll` on a 64-bit word: scanning helper, looks at
bit `k`, then `k+1`, ... for at most `fuel` bits. -/
def ffsllAux (x : Nat) : Nat → Nat → Nat
  | 0, _ => 0
  | fuel + 1, k => if x.testBit k then k + 1 else ffsllAux x fuel (k + 1)

/-- The C library function `ffsll`: one plus the index of the least significant
set bit of a 64-bit word, and 0 for the word 0. -/
def ffsll (x : Nat) : Nat := ffsllAux x 64 0

/-- Reading `map[i]` of a word array (0 outside the array, which no loop of the
source reaches). -/
def wordAt (l : List Nat) (i : Nat) : Nat := l.getD i 0

/-- `Bitmap<N>`: the member `map`, an array of `(N + 63) / 64` 64-bit words. -/
structure Bitmap (N : Nat) where
  map : List Nat
  deriving DecidableEq, Repr

namespace Bitmap

variable {N : Nat}

/-- The complement `~(1ULL << k)` of a single bit inside a 64-bit word. -/
def notBit (k : Nat) : Nat := (2 ^ 64 - 1) - (1 <<< k)

/-- `Bitmap::set_all`: `memset` of the whole array with `0xff`. -/
def set_all (_b : Bitmap N) : Bitmap N :=
  ⟨List.replicate ((N + 63) / 64) (2 ^ 64 - 1)⟩

/-- `Bitmap::clear_all`: `memset` of the whole array with 0. -/
def clear_all (_b : Bitmap N) : Bitmap N :=
  ⟨List.replicate ((N + 63) / 64) 0⟩

/-- The body of `Bitmap::get` after its assertion: the test
`map[(pos - 1) / 64] & (1ULL << ((pos - 1) % 64))`. -/
def getRaw (b : Bitmap N) (pos : Nat) : Nat :=
  if (wordAt b.map ((pos - 1) / 64)) &&& (1 <<< ((pos - 1) % 64)) ≠ 0 then 1 else 0

/-- `Bitmap::get`; `none` is the failed assertion `pos > 0 && pos <= N`. -/
def get (b : Bitmap N) (pos : Nat) : Option Nat :=
  if 0 < pos ∧ pos ≤ N then some (b.getRaw pos) else none

/-- The body of `Bitmap::set` after its assertion. -/
def setRaw (b : Bitmap N) (pos : Nat) : Bitmap N :=
  ⟨b.map.set ((pos - 1) / 64)
    ((wordAt b.map ((pos - 1) / 64)) ||| (1 <<< ((pos - 1) % 64)))⟩

/-- `Bitmap::set`; `none` is the failed assertion `pos > 0 && pos <= N`. -/
def set (b : Bitmap N) (pos : Nat) : Option (Bitmap N) :=
  if 0 < pos ∧ pos ≤ N then some (b.setRaw pos) else none

/-- The body of `Bitmap::clear` after its assertion. -/
def clearRaw (b : Bitmap N) (pos : Nat) : Bitmap N :=
  ⟨b.map.set ((pos - 1) / 64)
    ((wordAt b.map ((pos - 1) / 64)) &&& notBit ((pos - 1) % 64))⟩

/-- `Bitmap::clear`; `none` is the failed assertion `pos > 0 && pos <= N`. -/
def clear (b : Bitmap N) (pos : Nat) : Option (Bitmap N) :=
  if 0 < pos ∧ pos ≤ N then some (b.clearRaw pos) else none

/-- `Bitmap::number_of_set_bits`: the loop `for i = 1 .. N` counting the
positions with `get(i) == 1` (every `i` of the loop passes the assertion). -/
def number_of_set_bits (b : Bitmap N) : Nat :=
  (List.range N).countP (fun i => b.getRaw (i + 1) == 1)

/-- `Bitmap::number_of_clear_bits`. -/
def number_of_clear_bits (b : Bitmap N) : Nat :=
  (List.range N).countP (fun i => b.getRaw (i + 1) == 0)

/-- The loop of `Bitmap::ffs(bool toggle)`: `todo` words remain, `i` is the
index of the current word.  The result is the returned position and the
bitmap after the call. -/
def ffsLoop (b : Bitmap N) (toggle : Bool) : Nat → Nat → Nat × Bitmap N
  | 0, _ => (0, b)
  | todo + 1, i =>
    let pos := ffsll (wordAt b.map i)
    if pos > 0 then
      let retval := i * 64 + pos
      if retval > N then (0, b)
      else
        (retval,
          if toggle then ⟨b.map.set i ((wordAt b.map i) &&& notBit (pos - 1))⟩ else b)
    else ffsLoop b toggle todo (i + 1)

/-- `Bitmap::ffs(bool toggle)`. -/
def ffs (b : Bitmap N) (toggle : Bool) : Nat × Bitmap N :=
  ffsLoop b toggle ((N + 63) / 64) 0

/-- `Bitmap::ffs()`, which is `ffs(false)`. -/
def ffs0 (b : Bitmap N) : Nat × Bitmap N := b.ffs false

end Bitmap


/-! ## page_allocation_table.h, page_allocation_table.cc

A node's `entries_` pointer designates a slice of the shared array
`all_pat_entries_`; the slices of different nodes are disjoint, so every node
carries its own slice as a list.  The parallel output vectors
`child_indices` / `child_free_pages` of `GetPages`, which are always pushed
together, are one list of pairs. -/

/-- The constant `BITMAP_BITS` of hybrid_memory_const.h. -/
def BITMAP_BITS : Nat := 12

/-- The number of pages of one leaf bitmap, `1 << BITMAP_BITS`. -/
def PAGES_PER_BITMAP : Nat := 1 <<< BITMAP_BITS

/-- A leaf of the page allocation table, `Bitmap<(1ULL << BITMAP_BITS)>`. -/
abbrev LeafBitmap : Type := Bitmap 4096

/-- `struct PageAllocationTableNode`. -/
structure PageAllocationTableNode where
  number_free_pages_ : Nat
  number_used_pages_ : Nat
  number_total_pages_ : Nat
  entries_ : List Nat
  number_entries_ : Nat
  deriving DecidableEq, Repr

namespace PageAllocationTableNode

/-- The default constructor (`entries_` is NULL; `number_entries_`, which the
source leaves uninitialised, is 0). -/
def new : PageAllocationTableNode :=
  { number_free_pages_ := 0, number_used_pages_ := 0, number_total_pages_ := 0,
    entries_ := [], number_entries_ := 0 }

/-- The loop of `PageAllocationTableNode::Init` that fills `entries_`: `todo`
entries remain, `remain_pages` pages are not yet distributed.  Entries the loop
does not reach keep the (here: zero) content of the fresh array. -/
def initEntries (max_per_entry_pages : Nat) : Nat → Nat → List Nat
  | 0, _ => []
  | todo + 1, remain_pages =>
    if remain_pages > 0 then
      min max_per_entry_pages remain_pages ::
        initEntries max_per_entry_pages todo
          (remain_pages - min max_per_entry_pages remain_pages)
    else List.replicate (todo + 1) 0

/-- `PageAllocationTableNode::Init`; `none` is a failed assertion. -/
def Init (number_entries max_per_entry_pages total_pages : Nat) :
    Option PageAllocationTableNode :=
  if max_per_entry_pages * (number_entries - 1) < total_pages ∧
      total_pages ≤ max_per_entry_pages * number_entries then
    some
      { entries_ := initEntries max_per_entry_pages number_entries total_pages,
        number_entries_ := number_entries,
        number_free_pages_ := total_pages,
        number_total_pages_ := total_pages,
        number_used_pages_ := 0 }
  else none

/-- Step 1 of `GetPages`: the first child `i` with `entries_[i] >= wanted`. -/
def findFirst (entries : List Nat) (wanted : Nat) : Nat → Nat → Option Nat
  | 0, _ => none
  | todo + 1, i =>
    if wordAt entries i ≥ wanted then some i else findFirst entries wanted todo (i + 1)

/-- Step 2 of `GetPages`: collect pages from consecutive children.  The result
is the pushed (child index, pages taken) pairs, the entries after the loop and
the value of `remain_wanted_pages` after the loop. -/
def gather : Nat → Nat → Nat → List Nat → List (Nat × Nat) × List Nat × Nat
  | 0, _, remain, entries => ([], entries, remain)
  | todo + 1, i, remain, entries =>
    if remain > 0 then
      if wordAt entries i > 0 then
        let get_pages := min (wordAt entries i) remain
        let r := gather todo (i + 1) (remain - get_pages)
          (entries.set i (wordAt entries i - get_pages))
        ((i, get_pages) :: r.1, r.2.1, r.2.2)
      else gather todo (i + 1) remain entries
    else ([], entries, remain)

/-- `PageAllocationTableNode::GetPages`: the Boolean result, the pairs pushed to
`child_indices` / `child_free_pages`, and the node afterwards. -/
def GetPages (nd : PageAllocationTableNode) (free_pages_wanted : Nat) :
    Option (Bool × List (Nat × Nat) × PageAllocationTableNode) :=
  if free_pages_wanted = 0 then some (true, [], nd)
  else if free_pages_wanted > nd.number_free_pages_ then some (false, [], nd)
  else
    match findFirst nd.entries_ free_pages_wanted nd.number_entries_ 0 with
    | some i =>
      some (true, [(i, free_pages_wanted)],
        { nd with
          entries_ := nd.entries_.set i (wordAt nd.entries_ i - free_pages_wanted),
          number_free_pages_ := nd.number_free_pages_ - free_pages_wanted,
          number_used_pages_ := nd.number_used_pages_ + free_pages_wanted })
    | none =>
      let r := gather nd.number_entries_ 0 free_pages_wanted nd.entries_
      if r.2.2 = 0 then
        some (true, r.1,
          { nd with
            entries_ := r.2.1,
            number_free_pages_ := nd.number_free_pages_ - free_pages_wanted,
            number_used_pages_ := nd.number_used_pages_ + free_pages_wanted })
      else none

/-- `PageAllocationTableNode::ReleasePages`; `none` is a failed assertion. -/
def ReleasePages (nd : PageAllocationTableNode) (child_index free_pages : Nat) :
    Option PageAllocationTableNode :=
  if child_index < nd.number_entries_ then
    let nd1 : PageAllocationTableNode :=
      { nd with
        entries_ := nd.entries_.set child_index (wordAt nd.entries_ child_index + free_pages),
        number_free_pages_ := nd.number_free_pages_ + free_pages,
        number_used_pages_ := nd.number_used_pages_ - free_pages }
    if nd1.number_free_pages_ + nd1.number_used_pages_ = nd1.number_total_pages_ then
      some nd1
    else none
  else none

end PageAllocationTableNode

/-- `class PageAllocationTable` (the name and the entry pool pointer left out). -/
structure PageAllocationTable where
  ready_ : Bool
  pgd_bits_ : Nat
  pmd_bits_ : Nat
  bitmap_bits_ : Nat
  pgd_mask_ : Nat
  pmd_mask_ : Nat
  bitmap_mask_ : Nat
  levels_ : Nat
  pgd_ : PageAllocationTableNode
  pmds_ : List PageAllocationTableNode
  number_pmd_nodes_ : Nat
  bitmaps_ : List LeafBitmap
  number_bitmaps_ : Nat
  number_all_pat_entries_ : Nat
  total_pages_ : Nat
  used_pages_ : Nat
  free_pages_ : Nat
  deriving DecidableEq, Repr

namespace PageAllocationTable

/-- The loop `for (i = total_pages - 1; i > 0; i >>= 1) ++total_bits` of `Init`
(`fuel` bounds the number of iterations; `total_pages` itself is enough). -/
def countBits : Nat → Nat → Nat
  | 0, _ => 0
  | fuel + 1, i => if i > 0 then countBits fuel (i >>> 1) + 1 else 0

/-- The loop of `Init` that clears the trailing positions `i, i+1, ...` of the
last bitmap (`todo` positions remain). -/
def clearFrom : Nat → Nat → LeafBitmap → Option LeafBitmap
  | 0, _, bm => some bm
  | todo + 1, i, bm =>
    match bm.clear i with
    | some bm1 => clearFrom todo (i + 1) bm1
    | none => none

/-- The leaf bitmaps that `Init` builds: all ones, the positions of the last
bitmap that stand for no page cleared. -/
def initBitmaps (total_pages : Nat) : Option (List LeafBitmap) :=
  let number_bitmaps := (total_pages + PAGES_PER_BITMAP - 1) / PAGES_PER_BITMAP
  let all : List LeafBitmap :=
    List.replicate number_bitmaps (Bitmap.set_all (⟨[]⟩ : LeafBitmap))
  if total_pages % PAGES_PER_BITMAP ≠ 0 then
    match all[number_bitmaps - 1]? with
    | some bm =>
      match clearFrom (PAGES_PER_BITMAP - total_pages % PAGES_PER_BITMAP)
          (total_pages % PAGES_PER_BITMAP + 1) bm with
      | some bm1 => some (all.set (number_bitmaps - 1) bm1)
      | none => none
    | none => none
  else some all

/-- The loop of `Init` that initialises the PMD nodes. -/
def initPmds (entries_per_pmd_node pages_per_bitmap : Nat) :
    Nat → Nat → Nat → Option (List PageAllocationTableNode)
  | 0, _, _ => some []
  | todo + 1, remain_entries, remain_pages =>
    let entries_in_this_pmd_node := min remain_entries entries_per_pmd_node
    let pages_in_this_pmd_node :=
      min remain_pages (entries_per_pmd_node * pages_per_bitmap)
    match PageAllocationTableNode.Init entries_in_this_pmd_node pages_per_bitmap
        pages_in_this_pmd_node with
    | some nd =>
      match initPmds entries_per_pmd_node pages_per_bitmap todo
          (remain_entries - entries_in_this_pmd_node)
          (remain_pages - pages_in_this_pmd_node) with
      | some rest => some (nd :: rest)
      | none => none
    | none => none

/-- The number of set bits of `bitmaps_[i]` (0 outside the array). -/
def bitmapCount (bms : List LeafBitmap) (i : Nat) : Nat :=
  match bms[i]? with
  | some bm => bm.number_of_set_bits
  | none => 0

/-- The field of `pmds_[i]` selected by `f` (0 outside the array). -/
def pmdField (f : PageAllocationTableNode → Nat) (pmds : List PageAllocationTableNode)
    (i : Nat) : Nat :=
  match pmds[i]? with
  | some nd => f nd
  | none => 0

/-- The inner loop of the PMD part of `SanityCheck`: the sum of the set bits of
the bitmaps `start_bitmap + j`, `j < 2^pmd_bits_`, that exist. -/
def pmdBitmapSum (t : PageAllocationTable) (i : Nat) : Nat :=
  (((List.range (1 <<< t.pmd_bits_)).filter
      (fun j => decide (j + (i <<< t.pmd_bits_) < t.number_bitmaps_))).map
    (fun j => bitmapCount t.bitmaps_ (j + (i <<< t.pmd_bits_)))).sum

/-- `PageAllocationTable::SanityCheck`; `none` is a failed assertion (also an
access outside `bitmaps_` or `pmds_`). -/
def SanityCheck (t : PageAllocationTable) : Option Bool :=
  if ¬ t.levels_ ≤ 3 then none
  else if t.levels_ = 1 then some true
  else if t.levels_ = 2 then
    if t.number_bitmaps_ = t.pgd_.number_entries_ ∧
        (List.range t.number_bitmaps_).all
          (fun i => decide (i < t.bitmaps_.length) &&
            decide (bitmapCount t.bitmaps_ i = wordAt t.pgd_.entries_ i)) = true ∧
        ((List.range t.number_bitmaps_).map (bitmapCount t.bitmaps_)).sum =
          t.pgd_.number_free_pages_ then
      some true
    else none
  else
    if t.pgd_.number_entries_ = t.number_pmd_nodes_ ∧
        (List.range t.pgd_.number_entries_).all
          (fun i => decide (i < t.pmds_.length) &&
            decide (wordAt t.pgd_.entries_ i =
              pmdField (·.number_free_pages_) t.pmds_ i)) = true ∧
        ((List.range t.pgd_.number_entries_).map
            (pmdField (·.number_free_pages_) t.pmds_)).sum =
          t.pgd_.number_free_pages_ ∧
        ((List.range t.pgd_.number_entries_).map
            (pmdField (·.number_used_pages_) t.pmds_)).sum =
          t.pgd_.number_used_pages_ ∧
        ((List.range t.pgd_.number_entries_).map
            (pmdField (·.number_total_pages_) t.pmds_)).sum =
          t.pgd_.number_total_pages_ ∧
        (List.range t.number_pmd_nodes_).all
          (fun i => decide (i < t.pmds_.length) &&
            decide (pmdField (·.number_free_pages_) t.pmds_ i = pmdBitmapSum t i)) = true then
      some true
    else none

/-- The value of `total_bits` in `Init`. -/
def totalBits (total_pages : Nat) : Nat := countBits total_pages (total_pages - 1)

/-- The value `Init` gives to `levels_`. -/
def levelsOf (total_pages : Nat) : Nat :=
  if totalBits total_pages ≤ BITMAP_BITS then 1
  else if totalBits total_pages ≤ BITMAP_BITS + 4 then 2 else 3

/-- The value `Init` gives to `bitmap_bits_`. -/
def bitmapBitsOf (total_pages : Nat) : Nat :=
  if totalBits total_pages ≤ BITMAP_BITS then totalBits total_pages else BITMAP_BITS

/-- The value `Init` gives to `pgd_bits_`. -/
def pgdBitsOf (total_pages : Nat) : Nat :=
  if totalBits total_pages ≤ BITMAP_BITS then 0
  else if totalBits total_pages ≤ BITMAP_BITS + 4 then totalBits total_pages - BITMAP_BITS
  else (totalBits total_pages - BITMAP_BITS) / 2

/-- The value `Init` gives to `pmd_bits_`. -/
def pmdBitsOf (total_pages : Nat) : Nat :=
  if totalBits total_pages ≤ BITMAP_BITS + 4 then 0
  else totalBits total_pages - pgdBitsOf total_pages - bitmapBitsOf total_pages

/-- The value `Init` gives to `number_bitmaps_`. -/
def numberBitmapsOf (total_pages : Nat) : Nat :=
  (total_pages + PAGES_PER_BITMAP - 1) / PAGES_PER_BITMAP

/-- The value of `entries_per_pmd_node` in the three-level branch of `Init`. -/
def entriesPerPmdOf (total_pages : Nat) : Nat := 1 <<< pmdBitsOf total_pages

/-- The value the three-level branch of `Init` gives to `number_pmd_nodes_`. -/
def numberPmdNodesOf (total_pages : Nat) : Nat :=
  (numberBitmapsOf total_pages + (entriesPerPmdOf total_pages - 1)) /
    entriesPerPmdOf total_pages

/-- `PageAllocationTable::Init`; `none` is a failed assertion. -/
def Init (total_pages : Nat) : Option PageAllocationTable :=
  if total_pages = 0 then none
  else
    let levels := levelsOf total_pages
    let pages_per_bitmap := PAGES_PER_BITMAP
    let number_bitmaps := numberBitmapsOf total_pages
    match initBitmaps total_pages with
    | none => none
    | some bitmaps =>
      let t0 : PageAllocationTable :=
        { ready_ := false,
          pgd_bits_ := pgdBitsOf total_pages,
          pmd_bits_ := pmdBitsOf total_pages,
          bitmap_bits_ := bitmapBitsOf total_pages,
          pgd_mask_ := (1 <<< pgdBitsOf total_pages) - 1,
          pmd_mask_ := (1 <<< pmdBitsOf total_pages) - 1,
          bitmap_mask_ := (1 <<< bitmapBitsOf total_pages) - 1,
          levels_ := levels, pgd_ := PageAllocationTableNode.new, pmds_ := [],
          number_pmd_nodes_ := 0, bitmaps_ := bitmaps, number_bitmaps_ := number_bitmaps,
          number_all_pat_entries_ := 0,
          total_pages_ := 0, used_pages_ := 0, free_pages_ := 0 }
      let t1 : Option PageAllocationTable :=
        if levels = 1 then
          if 0 < bitmaps.length ∧ bitmapCount bitmaps 0 = total_pages then some t0 else none
        else if levels = 2 then
          match PageAllocationTableNode.Init number_bitmaps pages_per_bitmap total_pages with
          | none => none
          | some pgd =>
            if (List.range number_bitmaps).all
                (fun i => decide (i < bitmaps.length) &&
                  decide (wordAt pgd.entries_ i = bitmapCount bitmaps i)) = true then
              some { t0 with number_all_pat_entries_ := number_bitmaps, pgd_ := pgd }
            else none
        else
          let entries_per_pmd_node := entriesPerPmdOf total_pages
          let number_pmd_nodes := numberPmdNodesOf total_pages
          match PageAllocationTableNode.Init number_pmd_nodes
              (entries_per_pmd_node * pages_per_bitmap) total_pages with
          | none => none
          | some pgd =>
            match initPmds entries_per_pmd_node pages_per_bitmap number_pmd_nodes
                number_bitmaps total_pages with
            | none => none
            | some pmds =>
              some { t0 with
                number_pmd_nodes_ := number_pmd_nodes,
                number_all_pat_entries_ := number_bitmaps + number_pmd_nodes,
                pgd_ := pgd, pmds_ := pmds }
      match t1 with
      | none => none
      | some t2 =>
        match SanityCheck t2 with
        | none => none
        | some _ =>
          if ((List.range number_bitmaps).map (bitmapCount bitmaps)).sum = total_pages then
            some { t2 with
              total_pages_ := total_pages, used_pages_ := 0, free_pages_ := total_pages,
              ready_ := true }
          else none

/-- The inner loop of `AllocatePages` on one bitmap: `ffs(true)` is called
`count` times and `mk page_number` is pushed for each result; `none` is the
failed assertion `page_number > 0`. -/
def takePages (mk : Nat → Nat) : Nat → LeafBitmap → Option (List Nat × LeafBitmap)
  | 0, bm => some ([], bm)
  | count + 1, bm =>
    if (bm.ffs true).1 > 0 then
      match takePages mk count (bm.ffs true).2 with
      | some r => some (mk (bm.ffs true).1 :: r.1, r.2)
      | none => none
    else none

/-- The loop of `AllocatePages` over the (bitmap index, pages) pairs that
`GetPages` returned for a node whose children are bitmaps; `first_bitmap` is the
index of the bitmap of child 0 and `mk j` builds the page number of bitmap `j`
of the node. -/
def takeFromBitmaps (first_bitmap : Nat) (mk : Nat → Nat → Nat) :
    List (Nat × Nat) → List LeafBitmap → Option (List Nat × List LeafBitmap)
  | [], bms => some ([], bms)
  | (j, count) :: rest, bms =>
    match bms[first_bitmap ||| j]? with
    | none => none
    | some bm =>
      match takePages (mk j) count bm with
      | none => none
      | some r =>
        match takeFromBitmaps first_bitmap mk rest (bms.set (first_bitmap ||| j) r.2) with
        | none => none
        | some r2 => some (r.1 ++ r2.1, r2.2)

/-- The outer loop of the three-level branch of `AllocatePages` over the
(PMD index, pages) pairs returned by `pgd_.GetPages`. -/
def takeFromPmds (pmd_bits bitmap_bits : Nat) :
    List (Nat × Nat) → List PageAllocationTableNode → List LeafBitmap →
      Option (List Nat × List PageAllocationTableNode × List LeafBitmap)
  | [], pmds, bms => some ([], pmds, bms)
  | (pmd_index, free_pages_from_pmd) :: rest, pmds, bms =>
    match pmds[pmd_index]? with
    | none => none
    | some nd =>
      match nd.GetPages free_pages_from_pmd with
      | some (true, plan, nd1) =>
        match takeFromBitmaps (pmd_index <<< pmd_bits)
            (fun j page_number =>
              (pmd_index <<< (pmd_bits + bitmap_bits)) ||| (j <<< bitmap_bits) |||
                (page_number - 1))
            plan bms with
        | none => none
        | some r =>
          match takeFromPmds pmd_bits bitmap_bits rest (pmds.set pmd_index nd1) r.2 with
          | none => none
          | some r2 => some (r.1 ++ r2.1, r2.2.1, r2.2.2)
      | _ => none

/-- `PageAllocationTable::AllocatePages`.  `pages` is the content of the output
vector before the call; the result is the returned Boolean, the vector and the
table after the call, and `none` is a failed assertion. -/
def AllocatePages (t : PageAllocationTable) (number_of_pages : Nat) (pages : List Nat) :
    Option (Bool × List Nat × PageAllocationTable) :=
  if t.free_pages_ < number_of_pages then some (false, pages, t)
  else
    let r : Option (List Nat × PageAllocationTable) :=
      if t.levels_ = 1 then
        match t.bitmaps_[0]? with
        | none => none
        | some bm =>
          match takePages (fun page_number => page_number - 1) number_of_pages bm with
          | none => none
          | some r => some (r.1, { t with bitmaps_ := t.bitmaps_.set 0 r.2 })
      else if t.levels_ = 2 then
        match t.pgd_.GetPages number_of_pages with
        | some (true, plan, pgd1) =>
          match takeFromBitmaps 0
              (fun j page_number => (j <<< t.bitmap_bits_) ||| (page_number - 1))
              plan t.bitmaps_ with
          | none => none
          | some r => some (r.1, { t with pgd_ := pgd1, bitmaps_ := r.2 })
        | _ => none
      else
        match t.pgd_.GetPages number_of_pages with
        | some (true, plan, pgd1) =>
          match takeFromPmds t.pmd_bits_ t.bitmap_bits_ plan t.pmds_ t.bitmaps_ with
          | none => none
          | some r => some (r.1, { t with pgd_ := pgd1, pmds_ := r.2.1, bitmaps_ := r.2.2 })
        | _ => none
    match r with
    | none => none
    | some (out, t1) =>
      some (decide (out.length = number_of_pages), out,
        { t1 with
          free_pages_ := t1.free_pages_ - number_of_pages,
          used_pages_ := t1.used_pages_ + number_of_pages })

/-- `PageAllocationTable::AllocateOnePage`.  `page` is the content of the output
cell before the call; the result is the returned Boolean, the cell and the table
after the call. -/
def AllocateOnePage (t : PageAllocationTable) (page : Nat) :
    Option (Bool × Nat × PageAllocationTable) :=
  if t.free_pages_ = 0 then some (false, page, t)
  else
    match t.AllocatePages 1 [] with
    | none => none
    | some (true, pages, t1) =>
      match pages[0]? with
      | some p => some (true, p, t1)
      | none => none
    | some (false, _, t1) => some (false, page, t1)

/-- `PageAllocationTable::FreePage`; `none` is a failed assertion. -/
def FreePage (t : PageAllocationTable) (page : Nat) : Option PageAllocationTable :=
  if ¬ page < t.total_pages_ then none
  else
    let offset_in_bitmap := page &&& t.bitmap_mask_
    let r : Option PageAllocationTable :=
      if t.levels_ = 1 then
        match t.bitmaps_[0]? with
        | none => none
        | some bm =>
          if bm.get (offset_in_bitmap + 1) = some 0 then
            match bm.set (offset_in_bitmap + 1) with
            | some bm1 => some { t with bitmaps_ := t.bitmaps_.set 0 bm1 }
            | none => none
          else none
      else if t.levels_ = 2 then
        let bitmap_index := page >>> t.bitmap_bits_
        match t.bitmaps_[bitmap_index]? with
        | none => none
        | some bm =>
          if bm.get (offset_in_bitmap + 1) = some 0 then
            match bm.set (offset_in_bitmap + 1) with
            | some bm1 =>
              match t.pgd_.ReleasePages bitmap_index 1 with
              | some pgd1 =>
                some { t with bitmaps_ := t.bitmaps_.set bitmap_index bm1, pgd_ := pgd1 }
              | none => none
            | none => none
          else none
      else
        let offset_in_pgd_node := (page >>> (t.bitmap_bits_ + t.pmd_bits_)) &&& t.pgd_mask_
        let offset_in_pmd_node := (page >>> t.bitmap_bits_) &&& t.pmd_mask_
        let bitmap_index := page >>> t.bitmap_bits_
        match t.bitmaps_[bitmap_index]? with
        | none => none
        | some bm =>
          if bm.get (offset_in_bitmap + 1) = some 0 then
            match bm.set (offset_in_bitmap + 1) with
            | some bm1 =>
              match t.pmds_[offset_in_pgd_node]? with
              | none => none
              | some nd =>
                match nd.ReleasePages offset_in_pmd_node 1 with
                | none => none
                | some nd1 =>
                  match t.pgd_.ReleasePages offset_in_pgd_node 1 with
                  | none => none
                  | some pgd1 =>
                    some { t with
                      bitmaps_ := t.bitmaps_.set bitmap_index bm1,
                      pmds_ := t.pmds_.set offset_in_pgd_node nd1,
                      pgd_ := pgd1 }
            | none => none
          else none
    match r with
    | none => none
    | some t1 =>
      some { t1 with free_pages_ := t1.free_pages_ + 1, used_pages_ := t1.used_pages_ - 1 }

/-- `PageAllocationTable::IsPageFree`; `none` is a failed assertion. -/
def IsPageFree (t : PageAllocationTable) (page : Nat) : Option Bool :=
  if ¬ page < t.total_pages_ then none
  else
    let offset_in_bitmap := page &&& t.bitmap_mask_
    let bitmap_index := if t.levels_ = 1 then 0 else page >>> t.bitmap_bits_
    match t.bitmaps_[bitmap_index]? with
    | none => none
    | some bm =>
      match bm.get (offset_in_bitmap + 1) with
      | some v => some (decide (v = 1))
      | none => none

/-- The test loop `for (i = 0; i < n; i++) assert(pat.AllocateOnePage(pages + i) == true)`
of page_allocation_table_test.cc: the pages obtained and the table afterwards. -/
def allocateEach : Nat → PageAllocationTable → Option (List Nat × PageAllocationTable)
  | 0, t => some ([], t)
  | n + 1, t =>
    match t.AllocateOnePage 0 with
    | some (true, p, t1) =>
      match allocateEach n t1 with
      | some r => some (p :: r.1, r.2)
      | none => none
    | _ => none

/-- The test loop `for (i = 0; i < n; i++) pat.FreePage(pages[i])`. -/
def freeEach : List Nat → PageAllocationTable → Option PageAllocationTable
  | [], t => some t
  | p :: ps, t =>
    match t.FreePage p with
    | some t1 => freeEach ps t1
    | none => none

end PageAllocationTable

/-! ### Vocabulary for stating properties of the page allocation table -/

/-- A bitmap value as the C++ object holds it: an array of `(N + 63) / 64`
words of 64 bits. -/
def Bitmap.WF {N : Nat} (b : Bitmap N) : Prop :=
  b.map.length = (N + 63) / 64 ∧ ∀ w ∈ b.map, w < 2 ^ 64

namespace PageAllocationTable

/-- The bit that stands for flash page `p`: position `p % 4096 + 1` of leaf
bitmap `p / 4096` (0 when there is no such bitmap). -/
def slotBit (bms : List LeafBitmap) (p : Nat) : Nat :=
  match bms[p / 4096]? with
  | some bm => bm.getRaw (p % 4096 + 1)
  | none => 0

/-- The states of a table over `N` pages that are reachable from `Init(N)` by
`AllocatePages`, `AllocateOnePage` and `FreePage` calls that return (a call that
trips an assertion, such as `FreePage` on a page that is not allocated, ends
the run). -/
inductive Reachable (N : Nat) : PageAllocationTable → Prop
  | init {t} : Init N = some t → Reachable N t
  | allocate {t t1} (n : Nat) (pages : List Nat) (b : Bool) (out : List Nat) :
      Reachable N t → t.AllocatePages n pages = some (b, out, t1) → Reachable N t1
  | allocateOne {t t1} (page : Nat) (b : Bool) (p : Nat) :
      Reachable N t → t.AllocateOnePage page = some (b, p, t1) → Reachable N t1
  | free {t t1} (page : Nat) :
      Reachable N t → t.FreePage page = some t1 → Reachable N t1

/-- A run of successful allocation calls (`AllocatePages` or `AllocateOnePage`
returning true) from `t` to `t1`, with the list of all pages handed out. -/
inductive AllocRun : PageAllocationTable → List Nat → PageAllocationTable → Prop
  | nil (t) : AllocRun t [] t
  | pages {t t1 t2} (n : Nat) (pages0 out got : List Nat) :
      t.AllocatePages n pages0 = some (true, out, t1) → AllocRun t1 got t2 →
      AllocRun t (out ++ got) t2
  | one {t t1 t2} (page0 p : Nat) (got : List Nat) :
      t.AllocateOnePage page0 = some (true, p, t1) → AllocRun t1 got t2 →
      AllocRun t (p :: got) t2

/-- A node whose children are the `len` leaf bitmaps `first, first + 1, ...`:
what `SanityCheck` compares, entry by entry. -/
structure NodeOver (nd : PageAllocationTableNode) (bms : List LeafBitmap)
    (first len tot : Nat) : Prop where
  number_entries : nd.number_entries_ = len
  length_entries : nd.entries_.length = len
  entry : ∀ j, j < len → wordAt nd.entries_ j = bitmapCount bms (first + j)
  free : nd.number_free_pages_ = nd.entries_.sum
  total : nd.number_total_pages_ = tot
  used : nd.number_used_pages_ + nd.number_free_pages_ = tot

/-- The well-formed tables over `N` pages: the layout fields as `Init` computes
them, the leaf bitmaps as C++ objects with no bit set for a page `p >= N`, and
every counter equal to the number of set bits it summarises. -/
structure Inv (N : Nat) (t : PageAllocationTable) : Prop where
  pos : 0 < N
  ready : t.ready_ = true
  levels : t.levels_ = levelsOf N
  pgd_bits : t.pgd_bits_ = pgdBitsOf N
  pmd_bits : t.pmd_bits_ = pmdBitsOf N
  bitmap_bits : t.bitmap_bits_ = bitmapBitsOf N
  pgd_mask : t.pgd_mask_ = (1 <<< pgdBitsOf N) - 1
  pmd_mask : t.pmd_mask_ = (1 <<< pmdBitsOf N) - 1
  bitmap_mask : t.bitmap_mask_ = (1 <<< bitmapBitsOf N) - 1
  number_bitmaps : t.number_bitmaps_ = numberBitmapsOf N
  number_pmd_nodes : t.number_pmd_nodes_ = if levelsOf N = 3 then numberPmdNodesOf N else 0
  number_all : t.number_all_pat_entries_ =
    if levelsOf N = 1 then 0
    else if levelsOf N = 2 then numberBitmapsOf N
    else numberBitmapsOf N + numberPmdNodesOf N
  total_pages : t.total_pages_ = N
  bitmaps_length : t.bitmaps_.length = numberBitmapsOf N
  bitmaps_wf : ∀ bm ∈ t.bitmaps_, bm.WF
  beyond : ∀ p, N ≤ p → slotBit t.bitmaps_ p = 0
  free : t.free_pages_ = (t.bitmaps_.map Bitmap.number_of_set_bits).sum
  used : t.used_pages_ + t.free_pages_ = N
  level1 : levelsOf N = 1 → t.pgd_ = PageAllocationTableNode.new ∧ t.pmds_ = []
  level2 : levelsOf N = 2 →
    NodeOver t.pgd_ t.bitmaps_ 0 (numberBitmapsOf N) N ∧ t.pmds_ = [] ∧
      t.pgd_.number_free_pages_ = t.free_pages_
  level3 : levelsOf N = 3 →
    t.pmds_.length = numberPmdNodesOf N ∧
    (∀ i, i < numberPmdNodesOf N → ∃ nd, t.pmds_[i]? = some nd ∧
      NodeOver nd t.bitmaps_ (i * entriesPerPmdOf N)
        (min (entriesPerPmdOf N) (numberBitmapsOf N - i * entriesPerPmdOf N))
        (min (entriesPerPmdOf N * 4096) (N - i * (entriesPerPmdOf N * 4096)))) ∧
    t.pgd_.number_entries_ = numberPmdNodesOf N ∧
    t.pgd_.entries_.length = numberPmdNodesOf N ∧
    (∀ i, i < numberPmdNodesOf N →
      wordAt t.pgd_.entries_ i = pmdField (·.number_free_pages_) t.pmds_ i) ∧
    t.pgd_.number_free_pages_ = t.pgd_.entries_.sum ∧
    t.pgd_.number_total_pages_ = N ∧
    t.pgd_.number_used_pages_ + t.pgd_.number_free_pages_ = N ∧
    t.pgd_.number_free_pages_ = t.free_pages_

/-- The entries of a node after the pairs of `plan` were taken from it one
after the other. -/
def applyPlan : List Nat → List (Nat × Nat) → List Nat
  | e, [] => e
  | e, (i, c) :: rest => applyPlan (e.set i (wordAt e i - c)) rest

/-- Every pair of `plan` names a child of the node and takes no more pages than
the child has left at that moment. -/
def PlanOK : List Nat → List (Nat × Nat) → Prop
  | _, [] => True
  | e, (i, c) :: rest =>
    i < e.length ∧ c ≤ wordAt e i ∧ PlanOK (e.set i (wordAt e i - c)) rest

/-- The pages `ps` were taken out of the bitmaps `bms`, giving `bms1`: the
pages are pairwise distinct, each was free, and afterwards exactly they are no
longer free. -/
structure Took (bms : List LeafBitmap) (ps : List Nat) (bms1 : List LeafBitmap) : Prop where
  length_eq : bms1.length = bms.length
  wf : (∀ bm ∈ bms, bm.WF) → ∀ bm ∈ bms1, bm.WF
  nodup : ps.Nodup
  was_free : ∀ p ∈ ps, slotBit bms p = 1
  now : ∀ p, slotBit bms1 p = if p ∈ ps then 0 else slotBit bms p

end PageAllocationTable

/-! ## page_stats_table.h, page_stats_table.cc

The page stats table keeps one access counter of 8 bits per flash page
(`pte_entries_`) and one counter of 16 bits per PTE node and per PMD node
(`pgd_pmd_entries_`).  A node does not own its counters: `entries_` points into
one of the two arrays, and is kept here as the offset of `entries_[0]` in that
array.  `w` is the width in bits of the template parameter `T`. -/

/-- A finite `double` that is not negative (IEEE 754 binary64, as on x86-64):
the value `mantissa * 2 ^ exponent`, with `2 ^ 52 ≤ mantissa < 2 ^ 53` unless
the value is 0.  The numbers of this file are quotients and products of
unsigned integers below `2 ^ 64`, which lie in the normal range. -/
structure Binary64 where
  mantissa : Nat
  exponent : Int
  deriving DecidableEq, Repr

namespace Binary64

/-- The loop that halves `n` until it is below 2; `fuel` bounds the number of
iterations. -/
def log2Loop : Nat → Nat → Nat
  | 0, _ => 0
  | fuel + 1, n => if n < 2 then 0 else log2Loop fuel (n / 2) + 1

/-- The position of the highest bit of `n`. -/
def log2 (n : Nat) : Nat := log2Loop n n

/-- The integer nearest to `p / q`, the even one of the two when `p / q` lies
halfway between them (the rounding mode of the processor by default). -/
def roundQuotient (p q : Nat) : Nat :=
  if 2 * (p % q) < q then p / q
  else if 2 * (p % q) > q then p / q + 1
  else if (p / q) % 2 = 0 then p / q
  else p / q + 1

/-- The `double` nearest to `p / q * 2 ^ e`, for `q > 0`: the quotient is scaled
by the power `2 ^ s` that brings it into `[2 ^ 52, 2 ^ 53)` and is then rounded
to an integer. -/
def round (p q : Nat) (e : Int) : Binary64 :=
  if p = 0 then { mantissa := 0, exponent := 0 }
  else
    let s0 : Int := 53 - ((log2 p : Int) - (log2 q : Int))
    let num0 := if 0 ≤ s0 then p * 2 ^ s0.toNat else p
    let den0 := if 0 ≤ s0 then q else q * 2 ^ (-s0).toNat
    let s : Int := if num0 < 2 ^ 53 * den0 then s0 else s0 - 1
    let num := if 0 ≤ s then p * 2 ^ s.toNat else p
    let den := if 0 ≤ s then q else q * 2 ^ (-s).toNat
    let m := roundQuotient num den
    if m = 2 ^ 53 then { mantissa := 2 ^ 52, exponent := e - s + 1 }
    else { mantissa := m, exponent := e - s }

/-- The conversion `(double)n` of an unsigned integer. -/
def ofNat (n : Nat) : Binary64 := round n 1 0

/-- The quotient `a / b` of two `double`s, for `b` other than 0. -/
def div (a b : Binary64) : Binary64 :=
  round a.mantissa b.mantissa (a.exponent - b.exponent)

/-- The product `a * b` of two `double`s. -/
def mul (a b : Binary64) : Binary64 :=
  round (a.mantissa * b.mantissa) 1 (a.exponent + b.exponent)

/-- The conversion `(uint64_t)a`, which drops the fraction. -/
def toUInt64 (a : Binary64) : Nat :=
  if 0 ≤ a.exponent then a.mantissa * 2 ^ a.exponent.toNat
  else a.mantissa / 2 ^ (-a.exponent).toNat

end Binary64

structure PageStatsTableNode where
  entries_ : Nat
  number_entries_ : Nat
  entry_value_limit_ : Nat
  last_entry_needs_compensation_ : Bool
  last_entry_compensation_ : Binary64
  deriving DecidableEq, Repr

namespace PageStatsTableNode

/-- The constructor `PageStatsTableNode()`. -/
def new : PageStatsTableNode :=
  { entries_ := 0, number_entries_ := 0, entry_value_limit_ := 0,
    last_entry_needs_compensation_ := false,
    last_entry_compensation_ := Binary64.ofNat 1 }

/-- `PageStatsTableNode<T>::Init` on a node made by the constructor. -/
def Init (w entries number_entries : Nat) : PageStatsTableNode :=
  { new with
    entries_ := entries, number_entries_ := number_entries,
    entry_value_limit_ := (1 <<< w) - 1 }

/-- The loop of `ShiftRight`: `entries_[i] >>= 1` for `i = k, k+1, ...`
(`todo` entries remain). -/
def shiftLoop (nd : PageStatsTableNode) : Nat → Nat → List Nat → List Nat
  | 0, _, arr => arr
  | todo + 1, i, arr =>
    shiftLoop nd todo (i + 1) (arr.set (nd.entries_ + i) (wordAt arr (nd.entries_ + i) >>> 1))

/-- `PageStatsTableNode<T>::ShiftRight`: every entry of the node is shifted by
one bit, whatever `bits` is. -/
def ShiftRight (nd : PageStatsTableNode) (arr : List Nat) (_bits : Nat) : List Nat :=
  shiftLoop nd nd.number_entries_ 0 arr

/-- The loop `while ((uint64_t)entries_[index] + delta > entry_value_limit_)
ShiftRight(1)` of `Increase`; `fuel` bounds the number of iterations. -/
def increaseLoop (nd : PageStatsTableNode) (index delta : Nat) : Nat → List Nat → List Nat
  | 0, arr => arr
  | fuel + 1, arr =>
    if wordAt arr (nd.entries_ + index) + delta > nd.entry_value_limit_ then
      increaseLoop nd index delta fuel (nd.ShiftRight arr 1)
    else arr

/-- `PageStatsTableNode<T>::Increase` on the array `arr` that `entries_` points
into; `delta` is the argument after its conversion to `T`.  `none` is a failed
assertion or an access outside the array.  An entry of `w` bits is 0 after `w`
shifts, so that `w + 1` iterations are enough for the loop. -/
def Increase (w : Nat) (nd : PageStatsTableNode) (arr : List Nat) (index delta : Nat) :
    Option (List Nat) :=
  if index < nd.number_entries_ ∧ delta ≤ nd.entry_value_limit_ ∧
      nd.entries_ + nd.number_entries_ ≤ arr.length then
    let arr1 := increaseLoop nd index delta (w + 1) arr
    some (arr1.set (nd.entries_ + index) ((wordAt arr1 (nd.entries_ + index) + delta) % 2 ^ w))
  else none

/-- `PageStatsTableNode<T>::GetValue`; `none` is a failed assertion or an
access outside the array. -/
def GetValue (nd : PageStatsTableNode) (arr : List Nat) (index : Nat) : Option Nat :=
  if index < nd.number_entries_ then arr[nd.entries_ + index]? else none

/-- `PageStatsTableNode<T>::GetMinEntryIndex`.  The product
`last_entry_compensation_ * last_entry_value` is the product of two `double`s,
the second one converted from `uint64_t`, and is converted back to `uint64_t`.
`none` is an access outside the array. -/
def GetMinEntryIndex (nd : PageStatsTableNode) (arr : List Nat) : Option Nat :=
  if nd.number_entries_ = 1 then some 0
  else if nd.number_entries_ = 0 ∨ ¬ nd.entries_ + nd.number_entries_ ≤ arr.length then none
  else
    let r := (List.range (nd.number_entries_ - 1)).foldl
      (fun (acc : Nat × Nat) i =>
        if acc.1 > wordAt arr (nd.entries_ + i) then (wordAt arr (nd.entries_ + i), i) else acc)
      (nd.entry_value_limit_, 0)
    let last := wordAt arr (nd.entries_ + (nd.number_entries_ - 1))
    let last_entry_value :=
      if nd.last_entry_needs_compensation_ then
        min nd.entry_value_limit_
          (Binary64.mul nd.last_entry_compensation_ (Binary64.ofNat last)).toUInt64
      else last
    if r.1 > last_entry_value then some (nd.number_entries_ - 1) else some r.2

/-- The place that a call of `std::sort` gives to the pair `e` relative to the
pair `x`: before it when `sort_entries(e, x)` holds.  The order of two pairs of
equal value is the choice of the library, which `ties` describes: the pair
whose index comes first in `ties` goes first (an index that is not in `ties`
counts as the end of `ties`), and two pairs that `ties` does not separate keep
their order. -/
def entryBefore (ties : List Nat) (e x : Nat × Nat) : Bool :=
  decide (e.1 < x.1) ||
    (decide (e.1 = x.1) && decide (ties.indexOf e.2 ≤ ties.indexOf x.2))

/-- Insertion of a pair into a sorted list of pairs, in front of the first pair
that it goes before. -/
def insertEntry (ties : List Nat) (e : Nat × Nat) : List (Nat × Nat) → List (Nat × Nat)
  | [] => [e]
  | x :: rest =>
    if entryBefore ties e x then e :: x :: rest else x :: insertEntry ties e rest

/-- The call `std::sort(compare_entries_.begin(), compare_entries_.end(),
sort_entries)`: the pairs in ascending order of entry value.  `sort_entries`
compares the values only, and `std::sort` is not a stable sort: the order in
which it leaves pairs of equal value depends on the implementation of the
library.  That order is the argument `ties`, a list of indexes; every order
that a sort can produce is the result for some `ties`, and with `ties = []`
pairs of equal value stay in the order of their indexes (which is the result
of a sort by insertion). -/
def sortEntries (ties : List Nat) (l : List (Nat × Nat)) : List (Nat × Nat) :=
  l.foldr (insertEntry ties) []

/-- `PageStatsTableNode<T>::GetSmallestEntryPositions`; `ties` is the order
that the call of `std::sort` gives to entries of equal value.  `none` is a
failed assertion or an access outside the array. -/
def GetSmallestEntryPositions (nd : PageStatsTableNode) (arr : List Nat)
    (entries_wanted : Nat) (ties : List Nat) : Option (List Nat) :=
  if entries_wanted ≤ nd.number_entries_ ∧ nd.entries_ + nd.number_entries_ ≤ arr.length then
    let compare_entries :=
      (List.range nd.number_entries_).map (fun i => (wordAt arr (nd.entries_ + i), i))
    some (((sortEntries ties compare_entries).take entries_wanted).map (·.2))
  else none

end PageStatsTableNode

/-- The constant `PTE_BITS`. -/
def PTE_BITS : Nat := 12

structure PageStatsTable where
  pgd_pmd_entries_ : List Nat
  pte_entries_ : List Nat
  ready_ : Bool
  pgd_bits_ : Nat
  pmd_bits_ : Nat
  pte_bits_ : Nat
  pgd_mask_ : Nat
  pmd_mask_ : Nat
  pte_mask_ : Nat
  pgd_ : PageStatsTableNode
  pmds_ : List PageStatsTableNode
  number_pmd_nodes_ : Nat
  number_pgd_pmd_entries_ : Nat
  ptes_ : List PageStatsTableNode
  number_pte_nodes_ : Nat
  total_pages_ : Nat
  name_ : String
  /-- Not a member of the class: for each coming call of `std::sort`, the order
  that the library will give to entries of equal value (see `sortEntries`);
  when the list is used up, entries of equal value stay in index order. -/
  sort_ties_ : List (List Nat) := []
  deriving DecidableEq, Repr

namespace PageStatsTable

/-- The two loops of `Init` that hand out consecutive pieces of an array to the
nodes of one level: `begin_entry` is the offset of the next piece and
`remain_entries` the number of entries not handed out yet. -/
def initNodes (w entries_per_node : Nat) : Nat → Nat → Nat → List PageStatsTableNode
  | 0, _, _ => []
  | todo + 1, begin_entry, remain_entries =>
    let node_entry_number := min remain_entries entries_per_node
    PageStatsTableNode.Init w begin_entry node_entry_number ::
      initNodes w entries_per_node todo (begin_entry + node_entry_number)
        (remain_entries - node_entry_number)

/-- The value `Init` gives to `pmd_bits_`. -/
def pmdBitsOf (total_pages : Nat) : Nat :=
  if PageAllocationTable.totalBits total_pages > PTE_BITS then
    (PageAllocationTable.totalBits total_pages - PTE_BITS) / 2
  else 0

/-- The value `Init` gives to `pgd_bits_`. -/
def pgdBitsOf (total_pages : Nat) : Nat :=
  if PageAllocationTable.totalBits total_pages > PTE_BITS then
    PageAllocationTable.totalBits total_pages - pmdBitsOf total_pages - PTE_BITS
  else 0

/-- The value `Init` gives to `number_pte_nodes_`. -/
def numberPteNodesOf (total_pages : Nat) : Nat :=
  (total_pages + (1 <<< PTE_BITS) - 1) / (1 <<< PTE_BITS)

/-- The value `Init` gives to `number_pmd_nodes_`. -/
def numberPmdNodesOf (total_pages : Nat) : Nat :=
  (numberPteNodesOf total_pages + (1 <<< pmdBitsOf total_pages) - 1) /
    (1 <<< pmdBitsOf total_pages)

/-- Node `i` of `nodes` with the two compensation fields set (the list is
unchanged when there is no such node). -/
def setCompensation (nodes : List PageStatsTableNode) (i : Nat) (c : Binary64) :
    List PageStatsTableNode :=
  match nodes[i]? with
  | some nd =>
    nodes.set i { nd with last_entry_needs_compensation_ := true, last_entry_compensation_ := c }
  | none => nodes

/-- `PageStatsTable::Init` on a table made by the constructor (so that
`ready_ == false` holds); `none` is the failed assertion `total_pages > 0`.
The loop that counts `total_bits` is the one of `PageAllocationTable::Init`. -/
def Init (name : String) (total_pages : Nat) : Option PageStatsTable :=
  if total_pages = 0 then none
  else
    let pte_bits := PTE_BITS
    let pmd_bits := pmdBitsOf total_pages
    let pgd_bits := pgdBitsOf total_pages
    let entries_per_pte_node := 1 <<< pte_bits
    let number_pte_nodes := numberPteNodesOf total_pages
    let ptes := initNodes 8 entries_per_pte_node number_pte_nodes 0 total_pages
    let entries_per_pmd_node := 1 <<< pmd_bits
    let number_pmd_nodes := numberPmdNodesOf total_pages
    let number_pgd_pmd_entries := number_pmd_nodes + number_pte_nodes
    let pgd := PageStatsTableNode.Init 16 0 number_pmd_nodes
    let pmds := initNodes 16 entries_per_pmd_node number_pmd_nodes number_pmd_nodes
      number_pte_nodes
    let pmds1 :=
      if total_pages % entries_per_pte_node ≠ 0 then
        setCompensation pmds (number_pmd_nodes - 1)
          (Binary64.div (Binary64.ofNat entries_per_pte_node)
            (Binary64.ofNat (total_pages % entries_per_pte_node)))
      else pmds
    let total_pages_per_full_pmd_node := 1 <<< (pte_bits + pmd_bits)
    let pgd1 :=
      if total_pages % total_pages_per_full_pmd_node ≠ 0 then
        { pgd with
          last_entry_needs_compensation_ := true,
          last_entry_compensation_ :=
            Binary64.div (Binary64.ofNat total_pages_per_full_pmd_node)
              (Binary64.ofNat (total_pages % total_pages_per_full_pmd_node)) }
      else pgd
    some
      { pgd_pmd_entries_ := List.replicate number_pgd_pmd_entries 0,
        pte_entries_ := List.replicate total_pages 0,
        ready_ := true,
        pgd_bits_ := pgd_bits, pmd_bits_ := pmd_bits, pte_bits_ := pte_bits,
        pgd_mask_ := (1 <<< pgd_bits) - 1, pmd_mask_ := (1 <<< pmd_bits) - 1,
        pte_mask_ := (1 <<< pte_bits) - 1,
        pgd_ := pgd1, pmds_ := pmds1, number_pmd_nodes_ := number_pmd_nodes,
        number_pgd_pmd_entries_ := number_pgd_pmd_entries,
        ptes_ := ptes, number_pte_nodes_ := number_pte_nodes,
        total_pages_ := total_pages, name_ := name, sort_ties_ := [] }

/-- `PageStatsTable::IncreaseAccessCount`; `delta` is a `uint32_t` and is
converted to the entry type of each node (`uint8_t` for a PTE node, `uint16_t`
for a PMD node and for the PGD).  `none` is a failed assertion or an access
outside `ptes_` or `pmds_`. -/
def IncreaseAccessCount (t : PageStatsTable) (page_number delta : Nat) :
    Option PageStatsTable :=
  if ¬ page_number < t.total_pages_ then none
  else
    let pte_node_number := page_number >>> t.pte_bits_
    let offset_in_pte_node := page_number &&& t.pte_mask_
    match t.ptes_[pte_node_number]? with
    | none => none
    | some pte =>
      match pte.Increase 8 t.pte_entries_ offset_in_pte_node (delta % 2 ^ 8) with
      | none => none
      | some pte_entries =>
        let pmd_node_number := page_number >>> (t.pte_bits_ + t.pmd_bits_)
        let offset_in_pmd_node := (page_number >>> t.pte_bits_) &&& t.pmd_mask_
        match t.pmds_[pmd_node_number]? with
        | none => none
        | some pmd =>
          match pmd.Increase 16 t.pgd_pmd_entries_ offset_in_pmd_node (delta % 2 ^ 16) with
          | none => none
          | some entries1 =>
            match t.pgd_.Increase 16 entries1 pmd_node_number (delta % 2 ^ 16) with
            | none => none
            | some entries2 =>
              some { t with pte_entries_ := pte_entries, pgd_pmd_entries_ := entries2 }

/-- `PageStatsTable::AccessCount`; `none` is a failed assertion. -/
def AccessCount (t : PageStatsTable) (page_number : Nat) : Option Nat :=
  if page_number ≥ t.total_pages_ then none
  else
    match t.ptes_[page_number >>> t.pte_bits_]? with
    | none => none
    | some pte => pte.GetValue t.pte_entries_ (page_number &&& t.pte_mask_)

/-- `PageStatsTable::PMDAccessCount`; `none` is a failed assertion. -/
def PMDAccessCount (t : PageStatsTable) (page_number : Nat) : Option Nat :=
  if ¬ page_number < t.total_pages_ then none
  else
    match t.pmds_[page_number >>> (t.pte_bits_ + t.pmd_bits_)]? with
    | none => none
    | some pmd =>
      pmd.GetValue t.pgd_pmd_entries_ ((page_number >>> t.pte_bits_) &&& t.pmd_mask_)

/-- `PageStatsTable::PGDAccessCount`; `none` is a failed assertion. -/
def PGDAccessCount (t : PageStatsTable) (page_number : Nat) : Option Nat :=
  if ¬ page_number < t.total_pages_ then none
  else t.pgd_.GetValue t.pgd_pmd_entries_ (page_number >>> (t.pte_bits_ + t.pmd_bits_))

/-- The loop of `FindPagesWithMinCount` over the positions that
`GetSmallestEntryPositions` returned: each becomes a page number and the three
counters of the page grow by one. -/
def findPagesLoop (t : PageStatsTable) (pmd_node_number relative_pte_node_number
    pte_node_number : Nat) (pte pmd : PageStatsTableNode) :
    List Nat → List Nat → List Nat → Option (List Nat × List Nat × List Nat)
  | [], pte_entries, entries => some ([], pte_entries, entries)
  | pos :: rest, pte_entries, entries =>
    match pte.Increase 8 pte_entries pos 1 with
    | none => none
    | some pte_entries1 =>
      match pmd.Increase 16 entries relative_pte_node_number 1 with
      | none => none
      | some entries1 =>
        match t.pgd_.Increase 16 entries1 pmd_node_number 1 with
        | none => none
        | some entries2 =>
          match findPagesLoop t pmd_node_number relative_pte_node_number pte_node_number
              pte pmd rest pte_entries1 entries2 with
          | none => none
          | some r =>
            some (((pmd_node_number <<< (t.pmd_bits_ + t.pte_bits_)) |||
              (pte_node_number <<< t.pte_bits_) ||| pos) :: r.1, r.2.1, r.2.2)

/-- `PageStatsTable::FindPagesWithMinCount`: the returned count, the vector
`pages` and the table after the call; `none` is a failed assertion or an access
outside `pmds_` or `ptes_`.  The call of `std::sort` takes the first item of
`sort_ties_`. -/
def FindPagesWithMinCount (t : PageStatsTable) (pages_wanted : Nat) :
    Option (Nat × List Nat × PageStatsTable) :=
  if ¬ pages_wanted ≤ 1 <<< t.pte_bits_ then none
  else
    match t.pgd_.GetMinEntryIndex t.pgd_pmd_entries_ with
    | none => none
    | some pmd_node_number =>
      match t.pmds_[pmd_node_number]? with
      | none => none
      | some pmd =>
        match pmd.GetMinEntryIndex t.pgd_pmd_entries_ with
        | none => none
        | some relative_pte_node_number =>
          let pte_node_number := (pmd_node_number <<< t.pmd_bits_) ||| relative_pte_node_number
          match t.ptes_[pte_node_number]? with
          | none => none
          | some pte =>
            match pte.GetSmallestEntryPositions t.pte_entries_ pages_wanted
                (t.sort_ties_.headD []) with
            | none => none
            | some positions =>
              if positions.length = pages_wanted then
                match findPagesLoop t pmd_node_number relative_pte_node_number
                    pte_node_number pte pmd positions t.pte_entries_ t.pgd_pmd_entries_ with
                | none => none
                | some r =>
                  some (pages_wanted, r.1,
                    { t with pte_entries_ := r.2.1, pgd_pmd_entries_ := r.2.2,
                             sort_ties_ := t.sort_ties_.tail })
              else none

/-- A table over `N` pages as any sequence of calls leaves it: the table that
`Init` returned, with some content in the two arrays of counters (no member
function changes another field, or the size of an array), and with any choice
of the library for the coming sorts. -/
def OfInit (N : Nat) (t : PageStatsTable) : Prop :=
  ∃ name t0, Init name N = some t0 ∧
    t = { t0 with pte_entries_ := t.pte_entries_, pgd_pmd_entries_ := t.pgd_pmd_entries_,
                  sort_ties_ := t.sort_ties_ } ∧
    t.pte_entries_.length = t0.pte_entries_.length ∧
    t.pgd_pmd_entries_.length = t0.pgd_pmd_entries_.length

end PageStatsTable

/-! ## The tiers: vaddr_range, page_cache, ram_cache, flash_cache, hybrid_memory_lib

The state of the process is one record, `System`.  What the code reaches
through a pointer is named here by its place in that record: a virtual page by
its address, a V2H record by the id of its range and its index in `v2h_map_`,
an item of a free-list by its index in `all_objects_`.  The content of a page of
4096 bytes (of memory, of an item buffer, of a file) is one value of type `Nat`,
since the code moves whole pages only.

What the code does not own is part of the record as well: the protection and
the content of the pages of a range (`memory`), and the files (`disk`).  Every
`pread`, `pwrite`, `mprotect`, `madvise`, `mlock` and allocation succeeds, except
a `pread` beyond the end of a file.  In every function `none` is a failed
assertion, `_exit`, or an access that the C++ program cannot survive.  The
statistics counters, the names and the mutex are left out. -/

/-- The constant `PAGE_BITS`. -/
def PAGE_BITS : Nat := 12

/-- The constant `PAGE_SIZE`. -/
def PAGE_SIZE : Nat := 1 <<< PAGE_BITS

/-- The constant `VADDRESS_CHUNK_BITS`. -/
def VADDRESS_CHUNK_BITS : Nat := 4

/-- The constant `MAX_VIRTUAL_ADDRESS_RANGES`. -/
def MAX_VIRTUAL_ADDRESS_RANGES : Nat := 1024

/-- The constant `INVALID_VADDRESS_RANGE_ID`. -/
def INVALID_VADDRESS_RANGE_ID : Nat := 0xff

/-- The protection `PROT_NONE`. -/
def PROT_NONE : Nat := 0

/-- The protection `PROT_READ`. -/
def PROT_READ : Nat := 1

/-- The protection `PROT_WRITE` (on x86 a page that may be written may be
read). -/
def PROT_WRITE : Nat := 2

/-- `RoundUpToPageSize` (utils.cc), on 64 bits. -/
def RoundUpToPageSize (size : Nat) : Nat :=
  (size + PAGE_SIZE - 1) % 2 ^ 64 / PAGE_SIZE * PAGE_SIZE

/-- `IsValidVAddressRangeId`. -/
def IsValidVAddressRangeId (vaddress_range_id : Nat) : Bool :=
  decide (vaddress_range_id < INVALID_VADDRESS_RANGE_ID)

/-- The record `V2HMapMetadata`: seven fields of one bit and the flash page of
24 bits. -/
structure V2HMapMetadata where
  exist_page_cache : Bool
  exist_ram_cache : Bool
  exist_flash_cache : Bool
  exist_hdd_file : Bool
  dirty_page_cache : Bool
  dirty_ram_cache : Bool
  dirty_flash_cache : Bool
  flash_page_offset : Nat
  deriving DecidableEq, Repr

/-- A V2H record after `memset(v2h_map_, 0, ...)`. -/
def V2HMapMetadata.zero : V2HMapMetadata :=
  { exist_page_cache := false, exist_ram_cache := false, exist_flash_cache := false,
    exist_hdd_file := false, dirty_page_cache := false, dirty_ram_cache := false,
    dirty_flash_cache := false, flash_page_offset := 0 }

/-- The record `F2VMapItem`: 8 bits of range id, 24 bits of page offset. -/
structure F2VMapItem where
  vaddress_range_id : Nat
  vaddress_page_offset : Nat
  deriving DecidableEq, Repr

/-- One page of the memory of a range: its protection and its content. -/
structure VPage where
  prot : Nat
  data : Nat
  deriving DecidableEq, Repr

/-- A file: its size in bytes and its content, one cell per 4096 bytes. -/
structure HddFile where
  st_size : Nat
  content : List Nat
  deriving DecidableEq, Repr

/-- `pread(fd, buf, PAGE_SIZE, page << PAGE_BITS)`: the page, or `none` when the
file ends before the end of the page. -/
def HddFile.pread (f : HddFile) (page : Nat) : Option Nat :=
  if (page + 1) * PAGE_SIZE ≤ f.st_size then some (wordAt f.content page) else none

/-- `pwrite(fd, buf, PAGE_SIZE, page << PAGE_BITS)`: the file grows when the
page ends beyond its end. -/
def HddFile.pwrite (f : HddFile) (page data : Nat) : HddFile :=
  let content := f.content ++ List.replicate (page + 1 - f.content.length) 0
  { st_size := max f.st_size ((page + 1) * PAGE_SIZE), content := content.set page data }

/-- `ftruncate(fd, size)` to a size that is not smaller. -/
def HddFile.extend (f : HddFile) (size : Nat) : HddFile :=
  { st_size := size,
    content := f.content ++
      List.replicate ((size + PAGE_SIZE - 1) / PAGE_SIZE - f.content.length) 0 }

structure VAddressRange where
  vaddress_range_id_ : Nat
  is_active_ : Bool
  address_ : Nat
  size_ : Nat
  number_pages_ : Nat
  has_backing_hdd_file_ : Bool
  hdd_file_offset_ : Nat
  v2h_map_ : List V2HMapMetadata
  v2h_map_size_ : Nat
  hdd_file_fd_ : Int
  /-- The pages `address_ .. address_ + size_` of the process. -/
  memory : List VPage
  deriving DecidableEq, Repr

namespace VAddressRange

/-- The constructor `VAddressRange()`. -/
def new : VAddressRange :=
  { vaddress_range_id_ := 0, is_active_ := false, address_ := 0, size_ := 0,
    number_pages_ := 0, has_backing_hdd_file_ := false, hdd_file_offset_ := 0,
    v2h_map_ := [], v2h_map_size_ := 0, hdd_file_fd_ := -1, memory := [] }

/-- `VAddressRange::Init(size)`.  `address` is the block that `posix_memalign`
returns; its pages read as 0.  The result is the returned Boolean and the
range. -/
def Init (r : VAddressRange) (address size : Nat) : Option (Bool × VAddressRange) :=
  if r.is_active_ then none
  else if RoundUpToPageSize size < PAGE_SIZE then
    some (false, { r with size_ := RoundUpToPageSize size })
  else
    let size_ := RoundUpToPageSize size
    let number_pages := size_ >>> PAGE_BITS
    some (true,
      { r with
        size_ := size_, address_ := address,
        memory := List.replicate number_pages { prot := PROT_NONE, data := 0 },
        number_pages_ := number_pages, v2h_map_size_ := number_pages,
        v2h_map_ := List.replicate number_pages V2HMapMetadata.zero,
        has_backing_hdd_file_ := false, is_active_ := true })

/-- The loop `for (i = 0; i < n; ++i) v2h_map_[i].exist_hdd_file = 1`. -/
def markHddFile (n : Nat) (m : List V2HMapMetadata) : List V2HMapMetadata :=
  (List.range m.length).map (fun i =>
    match m[i]? with
    | some v => if i < n then { v with exist_hdd_file := true } else v
    | none => V2HMapMetadata.zero)

/-- `VAddressRange::Init(size, hdd_filename, hdd_file_offset)`.  The file is
named by its index `file` in `disk`, and `open` returns `file + 3`.  The result
is the returned Boolean, the range and the disk (`ftruncate` may extend the
file). -/
def InitFile (r : VAddressRange) (disk : List HddFile) (address size file hdd_file_offset : Nat) :
    Option (Bool × VAddressRange × List HddFile) :=
  if r.is_active_ then none
  else if hdd_file_offset % PAGE_SIZE ≠ 0 then none
  else
    match disk[file]? with
    | none => some (false, r, disk)
    | some f =>
      let hddfile_old_size := f.st_size
      let should_truncate := decide (hdd_file_offset + size > hddfile_old_size)
      let hddfile_new_size := hdd_file_offset + size
      match r.Init address size with
      | none => none
      | some (false, r1) => some (false, r1, disk)
      | some (true, r1) =>
        let disk1 := if should_truncate then disk.set file (f.extend hddfile_new_size) else disk
        let r2 :=
          { r1 with
            hdd_file_fd_ := (file : Int) + 3, hdd_file_offset_ := hdd_file_offset,
            has_backing_hdd_file_ := true }
        let r3 :=
          if hddfile_old_size > hdd_file_offset then
            { r2 with
              v2h_map_ := markHddFile
                (min ((hddfile_old_size - hdd_file_offset + PAGE_SIZE - 1) / PAGE_SIZE)
                  r2.number_pages_) r2.v2h_map_ }
          else r2
        some (true, { r3 with is_active_ := true }, disk1)

/-- `VAddressRange::GetV2HMapMetadata`: the index of the record in
`v2h_map_`. -/
def GetV2HMapMetadata (r : VAddressRange) (address_offset : Nat) : Option Nat :=
  if address_offset ≥ r.size_ then none else some (address_offset >>> PAGE_BITS)

/-- `VAddressRange::GetPageOffset`, on 64 bits. -/
def GetPageOffset (r : VAddressRange) (page : Nat) : Nat :=
  ((page + 2 ^ 64 - r.address_) % 2 ^ 64) >>> PAGE_BITS

/-- `VAddressRange::Release`: the memory and the V2H table are freed and the
file is closed. -/
def Release (r : VAddressRange) : VAddressRange :=
  if r.is_active_ then
    { r with
      address_ := 0, memory := [], is_active_ := false, has_backing_hdd_file_ := false,
      v2h_map_ := [] }
  else r

end VAddressRange

/-- The object `vaddr_range_group`.  The AVL tree holds one node for each
active range and is kept as the list of the ids of these ranges. -/
structure VAddressRangeGroup where
  vaddr_range_bitmap_ : List Bool
  vaddr_range_list_ : List VAddressRange
  total_vaddr_ranges_ : Nat
  free_vaddr_ranges_ : Nat
  inuse_vaddr_ranges_ : Nat
  tree_ : List Nat
  deriving DecidableEq, Repr

/-- `FreeList<T>`: the cells `list_[0 .. available_objects_ - 1]`, each the
index of an object in `all_objects_`. -/
structure FreeList where
  list_ : List Nat
  total_objects_ : Nat
  deriving DecidableEq, Repr

namespace FreeList

/-- `FreeList<T>::Init`. -/
def Init (total_objects : Nat) : FreeList :=
  { list_ := List.range total_objects, total_objects_ := total_objects }

/-- `FreeList<T>::New`: `list_[--available_objects_]`, or NULL. -/
def New (fl : FreeList) : Option Nat × FreeList :=
  match fl.list_.getLast? with
  | none => (none, fl)
  | some x => (some x, { fl with list_ := fl.list_.dropLast })

/-- `FreeList<T>::Free`: `list_[available_objects_++] = x`. -/
def Free (fl : FreeList) (x : Nat) : FreeList :=
  { fl with list_ := fl.list_ ++ [x] }

end FreeList

/-- The record `PageCacheItem`; `v2hmap` names the V2H record by range id and
index. -/
structure PageCacheItem where
  page : Nat
  size : Nat
  vaddr_range_id : Nat
  v2hmap : Nat × Nat
  deriving DecidableEq, Repr

structure PageCache where
  ready_ : Bool
  queue_ : List Nat
  item_list_ : FreeList
  /-- The array `all_objects_` of `item_list_`. -/
  items : List PageCacheItem
  max_cache_size_ : Nat
  deriving DecidableEq, Repr

/-- The record `RAMCacheItem`; `hash_key` is 0 for NULL, and `data` is the
content of the buffer that the field points to.  The links of the LRU list and
of the hash chain are kept in `RAMCache`. -/
structure RAMCacheItem where
  hash_key : Nat
  v2hmap : Option (Nat × Nat)
  vaddress_range_id : Nat
  data : Nat
  deriving DecidableEq, Repr

/-- `HashTable<RAMCacheItem>`.  The chains of all buckets are kept as one list
of items, the newest first; which bucket a key falls in (`hash(key) %
number_buckets_`) makes no difference to what `Lookup`, `Insert` and `Remove`
return as long as there is a bucket. -/
structure HashTable where
  ready_ : Bool
  number_buckets_ : Nat
  number_objects_ : Nat
  chain : List Nat
  deriving DecidableEq, Repr

structure RAMCache where
  ready_ : Bool
  /-- `LRUList<RAMCacheItem>` from `head()` to `tail()`. -/
  lru_list_ : List Nat
  hash_table_ : HashTable
  free_list_ : FreeList
  /-- The array `all_objects_` of `free_list_`. -/
  items : List RAMCacheItem
  max_cache_size_ : Nat
  deriving DecidableEq, Repr

structure FlashCache where
  ready_ : Bool
  /-- The content of the file that `flash_fd_` is open on, one cell per page. -/
  flash_file : List Nat
  flash_file_size_ : Nat
  page_allocate_table_ : PageAllocationTable
  page_stats_table_ : PageStatsTable
  f2v_map_ : List F2VMapItem
  total_flash_pages_ : Nat
  /-- The number of buffers in `aux_buffer_list_`. -/
  aux_buffer_list_ : Nat
  deriving DecidableEq, Repr

structure HybridMemory where
  ready_ : Bool
  asyncio_enabled_ : Bool
  hmem_instance_id_ : Nat
  page_buffer_size_ : Nat
  ram_buffer_size_ : Nat
  ssd_buffer_size_ : Nat
  page_cache_ : PageCache
  ram_cache_ : RAMCache
  flash_cache_ : FlashCache
  deriving DecidableEq, Repr

/-- The objects `hmem_group` and `vaddr_range_group` of hybrid_memory_lib.cc,
and the files. -/
structure System where
  number_hmem_instances_ : Nat
  hmem_instances_ : List HybridMemory
  vaddr_range_group : VAddressRangeGroup
  disk : List HddFile
  deriving DecidableEq, Repr

namespace System

/-- The V2H record that a pointer names. -/
def v2h (s : System) (ref : Nat × Nat) : Option V2HMapMetadata :=
  match s.vaddr_range_group.vaddr_range_list_[ref.1]? with
  | some r => r.v2h_map_[ref.2]?
  | none => none

/-- A write through a pointer to a V2H record. -/
def setV2h (s : System) (ref : Nat × Nat) (f : V2HMapMetadata → V2HMapMetadata) :
    Option System :=
  match s.vaddr_range_group.vaddr_range_list_[ref.1]? with
  | some r =>
    match r.v2h_map_[ref.2]? with
    | some v =>
      some { s with
        vaddr_range_group := { s.vaddr_range_group with
          vaddr_range_list_ := s.vaddr_range_group.vaddr_range_list_.set ref.1
            { r with v2h_map_ := r.v2h_map_.set ref.2 (f v) } } }
    | none => none
  | none => none

/-- The active range that holds the page at `address`, and the index of the
page in it. -/
def findPage (s : System) (address : Nat) : Option (VAddressRange × Nat) :=
  match s.vaddr_range_group.vaddr_range_list_.find?
      (fun r => r.is_active_ && decide (r.address_ ≤ address) &&
        decide (address < r.address_ + r.size_)) with
  | some r => some (r, (address - r.address_) >>> PAGE_BITS)
  | none => none

/-- A change of the page of memory at `address`. -/
def setPage (s : System) (address : Nat) (f : VPage → VPage) : Option System :=
  match s.findPage address with
  | some (r, i) =>
    match r.memory[i]? with
    | some pg =>
      some { s with
        vaddr_range_group := { s.vaddr_range_group with
          vaddr_range_list_ := s.vaddr_range_group.vaddr_range_list_.set r.vaddress_range_id_
            { r with memory := r.memory.set i (f pg) } } }
    | none => none
  | none => none

/-- `mprotect(page, PAGE_SIZE, prot)`. -/
def mprotect (s : System) (page prot : Nat) : Option System :=
  s.setPage page (fun pg => { pg with prot := prot })

/-- `madvise(page, PAGE_SIZE, MADV_DONTNEED)`: the page reads as 0 from now
on. -/
def madvise (s : System) (page : Nat) : Option System :=
  s.setPage page (fun pg => { pg with data := 0 })

/-- The content of the page of memory at `address`, as `memcpy` and `pwrite`
read it inside the library; the page must be readable. -/
def readPage (s : System) (address : Nat) : Option Nat :=
  match s.findPage address with
  | some (r, i) =>
    match r.memory[i]? with
    | some pg => if pg.prot = PROT_NONE then none else some pg.data
    | none => none
  | none => none

/-- A page of memory filled by `memcpy` or `pread` inside the library; the page
must be writable. -/
def fillPage (s : System) (address data : Nat) : Option System :=
  match s.findPage address with
  | some (r, i) =>
    match r.memory[i]? with
    | some pg => if pg.prot = PROT_WRITE then s.setPage address (fun p => { p with data := data })
      else none
    | none => none
  | none => none

/-- The instance `hmem_instances_[h]`. -/
def hmem (s : System) (h : Nat) : Option HybridMemory := s.hmem_instances_[h]?

/-- A change of `hmem_instances_[h]`. -/
def setHmem (s : System) (h : Nat) (hm : HybridMemory) : System :=
  { s with hmem_instances_ := s.hmem_instances_.set h hm }

/-- `VAddressRangeGroup::VAddressRangeFromId`. -/
def VAddressRangeFromId (s : System) (vaddress_range_id : Nat) : Option VAddressRange :=
  if vaddress_range_id < s.vaddr_range_group.total_vaddr_ranges_ then
    s.vaddr_range_group.vaddr_range_list_[vaddress_range_id]?
  else none

/-- `GetPageOffsetInVAddressRange` (hybrid_memory_lib.cc). -/
def GetPageOffsetInVAddressRange (s : System) (vaddress_range_id page : Nat) : Option Nat :=
  match s.VAddressRangeFromId vaddress_range_id with
  | some r => some (r.GetPageOffset page)
  | none => none

/-- `GetV2HMap` (hybrid_memory_lib.cc): the pointer to the record. -/
def GetV2HMap (s : System) (vaddress_range_id page_offset : Nat) : Option (Nat × Nat) :=
  match s.VAddressRangeFromId vaddress_range_id with
  | some r =>
    match r.GetV2HMapMetadata ((page_offset <<< PAGE_BITS) % 2 ^ 64) with
    | some i => some (vaddress_range_id, i)
    | none => none
  | none => none

/-- The file that the descriptor `fd` is open on. -/
def fileOf (s : System) (fd : Int) : Option (Nat × HddFile) :=
  if fd ≥ 3 then
    match s.disk[(fd - 3).toNat]? with
    | some f => some ((fd - 3).toNat, f)
    | none => none
  else none

end System

/-- An assertion: `none` when it fails. -/
def check (b : Bool) : Option Unit := if b then some () else none

namespace RAMCache

/-- `HashTable::Lookup(key)` on `hash_table_`: `none` is the division by
`number_buckets_ = 0`, `some none` is NULL. -/
def Lookup (rc : RAMCache) (key : Nat) : Option (Option Nat) :=
  if rc.hash_table_.number_buckets_ = 0 then none
  else
    some (rc.hash_table_.chain.find? (fun i =>
      match rc.items[i]? with
      | some it => it.hash_key == key
      | none => false))

/-- `HashTable::Insert(obj)` on `hash_table_`. -/
def Insert (rc : RAMCache) (obj : Nat) : Option (Bool × RAMCache) := do
  let it ← rc.items[obj]?
  match ← rc.Lookup it.hash_key with
  | some _ => some (false, rc)
  | none =>
    some (true,
      { rc with
        hash_table_ := { rc.hash_table_ with
          chain := obj :: rc.hash_table_.chain,
          number_objects_ := rc.hash_table_.number_objects_ + 1 } })

/-- `HashTable::Remove(key)` on `hash_table_`: the object found, or NULL. -/
def hashRemove (rc : RAMCache) (key : Nat) : Option (Option Nat × RAMCache) := do
  match ← rc.Lookup key with
  | none => some (none, rc)
  | some obj =>
    some (some obj,
      { rc with hash_table_ := { rc.hash_table_ with chain := rc.hash_table_.chain.erase obj } })

/-- `LRUList::Link(x)` on `lru_list_`. -/
def Link (rc : RAMCache) (x : Nat) : RAMCache :=
  { rc with lru_list_ := x :: rc.lru_list_ }

/-- `LRUList::Unlink(x)` on `lru_list_`; `none` is the failed assertion
`number_objects_ > 0`, or an `x` that is not linked. -/
def Unlink (rc : RAMCache) (x : Nat) : Option RAMCache :=
  if x ∈ rc.lru_list_ then some { rc with lru_list_ := rc.lru_list_.erase x } else none

/-- `LRUList::Update(x)` on `lru_list_`. -/
def Update (rc : RAMCache) (x : Nat) : Option RAMCache := do
  let rc1 ← rc.Unlink x
  some (rc1.Link x)

/-- `RAMCache::Init`. -/
def Init (max_cache_size : Nat) : Option RAMCache :=
  let max_cache_size_ := RoundUpToPageSize max_cache_size
  if max_cache_size_ > 0 then
    let number_pages := max_cache_size_ >>> PAGE_BITS
    let hash_buckets := number_pages * 3 / 4
    some
      { ready_ := true, lru_list_ := [],
        hash_table_ :=
          { ready_ := true, number_buckets_ := hash_buckets, number_objects_ := 0, chain := [] },
        free_list_ := FreeList.Init number_pages,
        items := List.replicate number_pages
          { hash_key := 0, v2hmap := none, vaddress_range_id := 0, data := 0 },
        max_cache_size_ := max_cache_size_ }
  else none

/-- `RAMCache::GetItem`: the item (never NULL when the call returns, since
`lru_list_.Update(NULL)` does not return). -/
def GetItem (rc : RAMCache) (virtual_address : Nat) : Option (Nat × RAMCache) := do
  check (virtual_address % PAGE_SIZE == 0)
  match ← rc.Lookup virtual_address with
  | none => none
  | some item =>
    let it ← rc.items[item]?
    check (it.hash_key == virtual_address)
    let rc1 ← rc.Update item
    some (item, rc1)

end RAMCache

namespace FlashCache

/-- `FlashCache::Init`; `total_flash_pages` zero-filled pages make the flash
file. -/
def Init (max_flash_size : Nat) : Option FlashCache :=
  let total_flash_pages := RoundUpToPageSize max_flash_size / PAGE_SIZE
  match PageAllocationTable.Init total_flash_pages with
  | none => none
  | some pat =>
    match PageStatsTable.Init "pg-stats-table" total_flash_pages with
    | none => none
    | some pst =>
      some
        { ready_ := true,
          flash_file := List.replicate total_flash_pages 0,
          flash_file_size_ := total_flash_pages * PAGE_SIZE,
          page_allocate_table_ := pat, page_stats_table_ := pst,
          f2v_map_ := List.replicate total_flash_pages
            { vaddress_range_id := INVALID_VADDRESS_RANGE_ID, vaddress_page_offset := 0 },
          total_flash_pages_ := total_flash_pages,
          aux_buffer_list_ := 1 <<< VADDRESS_CHUNK_BITS }

/-- One turn of the loop of `FlashCache::MigrateToHDD`, for the flash page
`flash_page_number`, on the synchronous path. -/
def migrateOne (s : System) (h : Nat) (flash_page_number : Nat) : Option System := do
  let hm ← s.hmem h
  let fc := hm.flash_cache_
  let f2vmap ← fc.f2v_map_[flash_page_number]?
  let vaddress_range ← s.VAddressRangeFromId f2vmap.vaddress_range_id
  let vaddress_page_number := f2vmap.vaddress_page_offset
  let idx ← vaddress_range.GetV2HMapMetadata (vaddress_page_number <<< PAGE_BITS)
  let v2hmap := (f2vmap.vaddress_range_id, idx)
  let v ← s.v2h v2hmap
  let virtual_page_address := vaddress_range.address_ + (vaddress_page_number <<< PAGE_BITS)
  let hdd_file_offset := (vaddress_page_number <<< PAGE_BITS) + vaddress_range.hdd_file_offset_
  if v.dirty_page_cache then
    check v.exist_page_cache
    some s
  else if v.dirty_ram_cache then
    check v.exist_ram_cache
    let (item, rc1) ← hm.ram_cache_.GetItem virtual_page_address
    let it ← rc1.items[item]?
    check (it.hash_key == virtual_page_address)
    check (it.v2hmap == some v2hmap)
    some (s.setHmem h { hm with ram_cache_ := rc1 })
  else if v.dirty_flash_cache then
    check v.exist_flash_cache
    check (decide (fc.aux_buffer_list_ > 0))
    let data_buffer ← fc.flash_file[flash_page_number]?
    let (file, f) ← s.fileOf vaddress_range.hdd_file_fd_
    let s1 := { s with disk := s.disk.set file (f.pwrite (hdd_file_offset / PAGE_SIZE) data_buffer) }
    s1.setV2h v2hmap (fun v =>
      { v with dirty_flash_cache := false, exist_flash_cache := false, exist_hdd_file := true })
  else some s

/-- The loop of `FlashCache::MigrateToHDD`. -/
def migrateLoop (h : Nat) : List Nat → System → Option System
  | [], s => some s
  | p :: rest, s =>
    match migrateOne s h p with
    | some s1 => migrateLoop h rest s1
    | none => none

/-- `FlashCache::MigrateToHDD`, on the synchronous path (`asyncio_enabled_` is
false). -/
def MigrateToHDD (s : System) (h : Nat) (flash_pages_writeto_hdd : List Nat) :
    Option (Nat × System) := do
  check (decide (flash_pages_writeto_hdd.length > 0))
  let s1 ← migrateLoop h flash_pages_writeto_hdd s
  some (flash_pages_writeto_hdd.length, s1)

/-- The first loop of `FlashCache::EvictItems`: the flash pages to write to
their files. -/
def collectDirty (s : System) (h : Nat) : List Nat → Option (List Nat)
  | [] => some []
  | flash_page_number :: rest => do
    let hm ← s.hmem h
    let f2vmap ← hm.flash_cache_.f2v_map_[flash_page_number]?
    check (IsValidVAddressRangeId f2vmap.vaddress_range_id)
    let vaddress_range ← s.VAddressRangeFromId f2vmap.vaddress_range_id
    let idx ← vaddress_range.GetV2HMapMetadata (f2vmap.vaddress_page_offset <<< PAGE_BITS)
    let v ← s.v2h (f2vmap.vaddress_range_id, idx)
    let more ← collectDirty s h rest
    if v.dirty_flash_cache && decide (vaddress_range.hdd_file_fd_ > 0) then
      some (flash_page_number :: more)
    else some more

/-- The second loop of `FlashCache::EvictItems`: the flash pages are freed. -/
def freeLoop (h : Nat) : List Nat → System → Option System
  | [], s => some s
  | flash_page_number :: rest, s =>
    match (do
      let hm ← s.hmem h
      let fc := hm.flash_cache_
      let is_free ← fc.page_allocate_table_.IsPageFree flash_page_number
      check (!is_free)
      let f2vmap ← fc.f2v_map_[flash_page_number]?
      check (IsValidVAddressRangeId f2vmap.vaddress_range_id)
      let pat ← fc.page_allocate_table_.FreePage flash_page_number
      let vaddress_range ← s.VAddressRangeFromId f2vmap.vaddress_range_id
      let idx ← vaddress_range.GetV2HMapMetadata (f2vmap.vaddress_page_offset <<< PAGE_BITS)
      let s1 ← s.setV2h (f2vmap.vaddress_range_id, idx) (fun v =>
        { v with dirty_flash_cache := false, exist_flash_cache := false })
      let hm1 ← s1.hmem h
      some (s1.setHmem h { hm1 with
        flash_cache_ := { hm1.flash_cache_ with
          page_allocate_table_ := pat,
          f2v_map_ := hm1.flash_cache_.f2v_map_.set flash_page_number
            { vaddress_range_id := INVALID_VADDRESS_RANGE_ID, vaddress_page_offset := 0 } } })) with
    | some s1 => freeLoop h rest s1
    | none => none

/-- `FlashCache::EvictItems`. -/
def EvictItems (s : System) (h : Nat) (pages_to_evict : Nat) : Option (Nat × System) := do
  let hm ← s.hmem h
  let (evicted_pages, pages, pst) ←
    hm.flash_cache_.page_stats_table_.FindPagesWithMinCount pages_to_evict
  check (decide (evicted_pages > 0))
  let s0 := s.setHmem h { hm with flash_cache_ := { hm.flash_cache_ with page_stats_table_ := pst } }
  let flash_pages_writeto_hdd ← collectDirty s0 h pages
  let s1 ←
    if flash_pages_writeto_hdd.length > 0 then
      (MigrateToHDD s0 h flash_pages_writeto_hdd).map (·.2)
    else some s0
  let s2 ← freeLoop h pages s1
  some (evicted_pages, s2)

/-- `FlashCache::AddPage`; `data` is the content of the buffer that `page`
points to. -/
def AddPage (s : System) (h : Nat) (data obj_size : Nat) (is_dirty : Bool) (v2hmap : Nat × Nat)
    (vaddress_range_id virtual_page_address : Nat) : Option (Bool × System) := do
  check (IsValidVAddressRangeId vaddress_range_id)
  check (obj_size == PAGE_SIZE)
  let vaddress_page_offset ← s.GetPageOffsetInVAddressRange vaddress_range_id virtual_page_address
  let v2h_map ← s.GetV2HMap vaddress_range_id vaddress_page_offset
  check (v2hmap == v2h_map)
  let v ← s.v2h v2hmap
  let hm ← s.hmem h
  let (flash_page_number, s1) ←
    if v.exist_flash_cache then do
      check (decide (v.flash_page_offset < hm.flash_cache_.total_flash_pages_))
      let f2vmap ← hm.flash_cache_.f2v_map_[v.flash_page_offset]?
      check (f2vmap.vaddress_page_offset == vaddress_page_offset)
      check (f2vmap.vaddress_range_id == vaddress_range_id)
      some (v.flash_page_offset, s)
    else do
      let (ok, p, s1) ←
        match ← hm.flash_cache_.page_allocate_table_.AllocateOnePage 0 with
        | (true, p, pat) =>
          some (true, p,
            s.setHmem h { hm with flash_cache_ := { hm.flash_cache_ with page_allocate_table_ := pat } })
        | (false, _, _) => do
          let (_, s1) ← EvictItems s h 16
          let hm1 ← s1.hmem h
          let (ok, p, pat) ← hm1.flash_cache_.page_allocate_table_.AllocateOnePage 0
          some (ok, p,
            s1.setHmem h { hm1 with
              flash_cache_ := { hm1.flash_cache_ with page_allocate_table_ := pat } })
      check ok
      let hm1 ← s1.hmem h
      let f2vmap ← hm1.flash_cache_.f2v_map_[p]?
      check (!IsValidVAddressRangeId f2vmap.vaddress_range_id)
      some (p, s1)
  let hm1 ← s1.hmem h
  let fc := hm1.flash_cache_
  let v1 ← s1.v2h v2hmap
  check (decide (flash_page_number < fc.flash_file.length))
  let flash_file :=
    if !v1.exist_flash_cache || is_dirty then fc.flash_file.set flash_page_number data
    else fc.flash_file
  let f2v_map := fc.f2v_map_.set flash_page_number
    { vaddress_page_offset := vaddress_page_offset % 2 ^ 24,
      vaddress_range_id := vaddress_range_id % 2 ^ 8 }
  let pst ← fc.page_stats_table_.IncreaseAccessCount flash_page_number 1
  let s2 := s1.setHmem h { hm1 with
    flash_cache_ := { fc with flash_file := flash_file, f2v_map_ := f2v_map,
                              page_stats_table_ := pst } }
  let s3 ← s2.setV2h v2hmap (fun v =>
    { v with exist_flash_cache := true, dirty_flash_cache := is_dirty,
             flash_page_offset := flash_page_number % 2 ^ 24 })
  some (true, s3)

/-- `FlashCache::LoadPage`; `data` is the address of the page to fill. -/
def LoadPage (s : System) (h : Nat) (data obj_size flash_page_number vaddress_range_id
    vaddress_page_offset : Nat) : Option (Bool × System) := do
  let hm ← s.hmem h
  let fc := hm.flash_cache_
  let f2vmap ← fc.f2v_map_[flash_page_number]?
  check (f2vmap.vaddress_range_id == vaddress_range_id)
  check (f2vmap.vaddress_page_offset == vaddress_page_offset)
  check (data % 512 == 0)
  check (obj_size == PAGE_SIZE)
  let d ← fc.flash_file[flash_page_number]?
  let s1 ← s.fillPage data d
  let pst ← fc.page_stats_table_.IncreaseAccessCount flash_page_number 1
  let hm1 ← s1.hmem h
  some (true, s1.setHmem h { hm1 with
    flash_cache_ := { hm1.flash_cache_ with page_stats_table_ := pst } })

/-- `FlashCache::LoadFromHDDFile` with `read_ahead = false`. -/
def LoadFromHDDFile (s : System) (vaddr_range : VAddressRange) (page : Nat) :
    Option (Bool × System) := do
  let hdd_file_offset := page - vaddr_range.address_ + vaddr_range.hdd_file_offset_
  match s.fileOf vaddr_range.hdd_file_fd_ with
  | none => some (false, s)
  | some (_, f) =>
    match f.pread (hdd_file_offset / PAGE_SIZE) with
    | none => some (false, s)
    | some d =>
      let s1 ← s.fillPage page d
      some (true, s1)

end FlashCache

namespace RAMCache

/-- The first loop of `RAMCache::EvictItems`: the walk from `lru_list_.tail()`
along `lru_prev` that collects up to 16 items whose page is not in the page
cache. -/
def scanLru (s : System) (rc : RAMCache) : List Nat → List Nat → Option (List Nat)
  | [], found => some found
  | item :: rest, found =>
    if found.length < 16 then do
      let it ← rc.items[item]?
      let v2hmap ← it.v2hmap
      let v ← s.v2h v2hmap
      check v.exist_ram_cache
      scanLru s rc rest (if v.exist_page_cache then found else found ++ [item])
    else some found

/-- The second loop of `RAMCache::EvictItems`. -/
def evictLoop (h : Nat) : List Nat → System → Option System
  | [], s => some s
  | item :: rest, s =>
    match (do
      let hm ← s.hmem h
      let it ← hm.ram_cache_.items[item]?
      let v2hmap ← it.v2hmap
      let v ← s.v2h v2hmap
      let s1 ←
        if !v.exist_flash_cache || v.dirty_ram_cache then
          (FlashCache.AddPage s h it.data PAGE_SIZE v.dirty_ram_cache v2hmap
            it.vaddress_range_id it.hash_key).map (·.2)
        else some s
      let hm1 ← s1.hmem h
      let rc1 ← hm1.ram_cache_.Unlink item
      let (_, rc2) ← rc1.hashRemove it.hash_key
      let s2 ← (s1.setHmem h { hm1 with ram_cache_ := rc2 }).setV2h v2hmap (fun v =>
        { v with exist_ram_cache := false, dirty_ram_cache := false })
      let hm2 ← s2.hmem h
      let rc3 := hm2.ram_cache_
      let it3 ← rc3.items[item]?
      some (s2.setHmem h { hm2 with
        ram_cache_ := { rc3 with
          items := rc3.items.set item { it3 with v2hmap := none, hash_key := 0 },
          free_list_ := rc3.free_list_.Free item } })) with
    | some s1 => evictLoop h rest s1
    | none => none

/-- `RAMCache::EvictItems`. -/
def EvictItems (s : System) (h : Nat) : Option (Nat × System) := do
  let hm ← s.hmem h
  let items ← scanLru s hm.ram_cache_ hm.ram_cache_.lru_list_.reverse []
  let s1 ← evictLoop h items s
  some (items.length, s1)

/-- The loop `item = free_list_.New(); while (!item) ...` of
`RAMCache::AddPage`: the item, or NULL when `EvictItems` returned 0.  A turn of
the loop that evicts frees an item, so that `fuel = 2` is enough. -/
def newItem (h : Nat) : Nat → System → Option (Option Nat × System)
  | 0, _ => none
  | fuel + 1, s =>
    match s.hmem h with
    | none => none
    | some hm =>
      match hm.ram_cache_.free_list_.New with
      | (some item, fl) =>
        some (some item, s.setHmem h { hm with ram_cache_ := { hm.ram_cache_ with free_list_ := fl } })
      | (none, _) =>
        match EvictItems s h with
        | none => none
        | some (n, s1) => if n = 0 then some (none, s1) else newItem h fuel s1

/-- `RAMCache::AddPage`. -/
def AddPage (s : System) (h : Nat) (page obj_size : Nat) (is_dirty : Bool) (v2hmap : Nat × Nat)
    (vaddress_range_id : Nat) : Option (Bool × System) := do
  check (page % PAGE_SIZE == 0)
  check (decide (obj_size ≤ PAGE_SIZE))
  let hm ← s.hmem h
  match ← hm.ram_cache_.Lookup page with
  | some item =>
    let it ← hm.ram_cache_.items[item]?
    check (it.v2hmap == some v2hmap)
    check (it.hash_key == page)
    let v ← s.v2h v2hmap
    check v.exist_ram_cache
    let s1 ←
      if is_dirty then do
        let d ← s.readPage page
        let s1 := s.setHmem h { hm with
          ram_cache_ := { hm.ram_cache_ with
            items := hm.ram_cache_.items.set item { it with data := d } } }
        s1.setV2h v2hmap (fun v => { v with dirty_ram_cache := true })
      else some s
    let hm1 ← s1.hmem h
    let rc1 ← hm1.ram_cache_.Update item
    some (true, s1.setHmem h { hm1 with ram_cache_ := rc1 })
  | none =>
    match ← newItem h 2 s with
    | (none, s1) => some (false, s1)
    | (some item, s1) =>
      let d ← s1.readPage page
      let hm1 ← s1.hmem h
      let it ← hm1.ram_cache_.items[item]?
      let rc1 := { hm1.ram_cache_ with
        items := hm1.ram_cache_.items.set item
          { it with data := d, hash_key := page,
                    vaddress_range_id := vaddress_range_id % 2 ^ 16, v2hmap := some v2hmap } }
      let s2 ← (s1.setHmem h { hm1 with ram_cache_ := rc1 }).setV2h v2hmap (fun v =>
        { v with exist_ram_cache := true, dirty_ram_cache := is_dirty })
      let hm2 ← s2.hmem h
      let (_, rc2) ← hm2.ram_cache_.Insert item
      some (true, s2.setHmem h { hm2 with ram_cache_ := rc2.Link item })

/-- `RAMCache::Remove`. -/
def Remove (s : System) (h : Nat) (ram_cache_item : Nat) : Option System := do
  let hm ← s.hmem h
  let it ← hm.ram_cache_.items[ram_cache_item]?
  let rc1 ← hm.ram_cache_.Unlink ram_cache_item
  let (_, rc2) ← rc1.hashRemove it.hash_key
  let v2hmap ← it.v2hmap
  let s2 ← (s.setHmem h { hm with ram_cache_ := rc2 }).setV2h v2hmap (fun v =>
    { v with exist_ram_cache := false, dirty_ram_cache := false })
  let hm2 ← s2.hmem h
  let rc3 := hm2.ram_cache_
  let it3 ← rc3.items[ram_cache_item]?
  some (s2.setHmem h { hm2 with
    ram_cache_ := { rc3 with
      items := rc3.items.set ram_cache_item { it3 with v2hmap := none, hash_key := 0 },
      free_list_ := rc3.free_list_.Free ram_cache_item } })

end RAMCache

namespace PageCache

/-- `PageCache::Init`. -/
def Init (max_cache_size : Nat) : Option PageCache :=
  let max_cache_size_ := RoundUpToPageSize max_cache_size
  if max_cache_size_ > 0 then
    some
      { ready_ := false, queue_ := [],
        item_list_ := FreeList.Init (max_cache_size_ >>> PAGE_BITS),
        items := List.replicate (max_cache_size_ >>> PAGE_BITS)
          { page := 0, size := 0, vaddr_range_id := 0, v2hmap := (0, 0) },
        max_cache_size_ := max_cache_size_ }
  else none

/-- The loop of `PageCache::EvictItems`; `todo` is `to_release - released`.
The value that `RAMCache::AddPage` returns is not looked at. -/
def evictLoop (h : Nat) : Nat → Nat → System → Option (Nat × System)
  | 0, released, s => some (released, s)
  | todo + 1, released, s =>
    match s.hmem h with
    | none => none
    | some hm =>
      match hm.page_cache_.queue_ with
      | [] => some (released, s)
      | front :: rest =>
        match (do
          let olditem ← hm.page_cache_.items[front]?
          let s1 := s.setHmem h { hm with page_cache_ := { hm.page_cache_ with queue_ := rest } }
          let v ← s1.v2h olditem.v2hmap
          let (_, s2) ← RAMCache.AddPage s1 h olditem.page olditem.size v.dirty_page_cache
            olditem.v2hmap olditem.vaddr_range_id
          let s3 ← s2.setV2h olditem.v2hmap (fun v =>
            { v with exist_page_cache := false, dirty_page_cache := false })
          let s4 ← s3.madvise olditem.page
          let s5 ← s4.mprotect olditem.page PROT_NONE
          let hm5 ← s5.hmem h
          some (s5.setHmem h { hm5 with
            page_cache_ := { hm5.page_cache_ with
              item_list_ := hm5.page_cache_.item_list_.Free front } })) with
        | some s1 => evictLoop h todo (released + 1) s1
        | none => none

/-- `PageCache::EvictItems`. -/
def EvictItems (s : System) (h : Nat) : Option (Nat × System) :=
  evictLoop h 10 0 s

/-- `PageCache::AddPage`. -/
def AddPage (s : System) (h : Nat) (page size : Nat) (is_dirty : Bool) (v2hmap : Nat × Nat)
    (vaddr_range_id : Nat) : Option (Bool × System) := do
  let hm ← s.hmem h
  let (item, s1) ←
    match hm.page_cache_.item_list_.New with
    | (some item, fl) =>
      some (item, s.setHmem h { hm with page_cache_ := { hm.page_cache_ with item_list_ := fl } })
    | (none, _) => do
      let (released, s1) ← EvictItems s h
      check (decide (released > 0))
      let hm1 ← s1.hmem h
      match hm1.page_cache_.item_list_.New with
      | (some item, fl) =>
        some (item,
          s1.setHmem h { hm1 with page_cache_ := { hm1.page_cache_ with item_list_ := fl } })
      | (none, _) => none
  let hm1 ← s1.hmem h
  check (decide (item < hm1.page_cache_.items.length))
  let pc := { hm1.page_cache_ with
    items := hm1.page_cache_.items.set item
      { page := page, size := size, vaddr_range_id := vaddr_range_id, v2hmap := v2hmap } }
  let s2 ← (s1.setHmem h { hm1 with page_cache_ := pc }).setV2h v2hmap (fun v =>
    { v with exist_page_cache := true, dirty_page_cache := is_dirty })
  let hm2 ← s2.hmem h
  some (true, s2.setHmem h { hm2 with
    page_cache_ := { hm2.page_cache_ with queue_ := hm2.page_cache_.queue_ ++ [item] } })

end PageCache

namespace HybridMemory

/-- `HybridMemory::Init`.  `asyncio_manager_.Init` is taken to fail, so that
`asyncio_enabled_` is false and `MigrateToHDD` takes its synchronous path.  The
flash cache gets `ssd_buffer_size` as passed, not the rounded
`ssd_buffer_size_`. -/
def Init (page_buffer_size ram_buffer_size ssd_buffer_size hmem_intance_id : Nat) :
    Option HybridMemory :=
  let ssd_buffer_size_ := ((ssd_buffer_size >>> 20) <<< 20) % 2 ^ 64
  if ssd_buffer_size_ > 0 then
    match PageCache.Init page_buffer_size with
    | none => none
    | some page_cache =>
      match RAMCache.Init ram_buffer_size with
      | none => none
      | some ram_cache =>
        match FlashCache.Init ssd_buffer_size with
        | none => none
        | some flash_cache =>
          some
            { ready_ := true, asyncio_enabled_ := false, hmem_instance_id_ := hmem_intance_id,
              page_buffer_size_ := page_buffer_size, ram_buffer_size_ := ram_buffer_size,
              ssd_buffer_size_ := ssd_buffer_size_,
              page_cache_ := page_cache, ram_cache_ := ram_cache, flash_cache_ := flash_cache }
  else none

end HybridMemory

namespace VAddressRangeGroup

/-- `VAddressRangeGroup::Init`. -/
def Init : VAddressRangeGroup :=
  { vaddr_range_list_ := (List.range MAX_VIRTUAL_ADDRESS_RANGES).map
      (fun i => { VAddressRange.new with vaddress_range_id_ := i }),
    total_vaddr_ranges_ := INVALID_VADDRESS_RANGE_ID,
    free_vaddr_ranges_ := INVALID_VADDRESS_RANGE_ID,
    inuse_vaddr_ranges_ := 0,
    vaddr_range_bitmap_ := List.replicate MAX_VIRTUAL_ADDRESS_RANGES true,
    tree_ := [] }

/-- `VAddressRangeGroup::FindVAddressRange`: `FindNode` on the tree gives the
range whose addresses include `address`. -/
def FindVAddressRange (g : VAddressRangeGroup) (address : Nat) : Option VAddressRange :=
  match g.tree_.find? (fun id =>
      match g.vaddr_range_list_[id]? with
      | some r => decide (r.address_ ≤ address) && decide (address < r.address_ + r.size_)
      | none => false) with
  | some id => g.vaddr_range_list_[id]?
  | none => none

/-- The first `i < total_vaddr_ranges_` with `vaddr_range_bitmap_[i] == 1`. -/
def firstFree (g : VAddressRangeGroup) : Option Nat :=
  (List.range g.total_vaddr_ranges_).find? (fun i => g.vaddr_range_bitmap_[i]? == some true)

end VAddressRangeGroup

namespace System

/-- The loop of `HybridMemoryGroup::Init` over the instances `i, i + 1, ...`
(`todo` instances remain). -/
def initInstances (page_buffer_size ram_buffer_size ssd_buffer_size number_hmem_instances : Nat) :
    Nat → Nat → Option (List HybridMemory)
  | 0, _ => some []
  | todo + 1, i =>
    match HybridMemory.Init (page_buffer_size / number_hmem_instances)
        (ram_buffer_size / number_hmem_instances) (ssd_buffer_size / number_hmem_instances) i with
    | none => none
    | some hm =>
      match initInstances page_buffer_size ram_buffer_size ssd_buffer_size
          number_hmem_instances todo (i + 1) with
      | none => none
      | some rest => some (hm :: rest)

/-- `HybridMemoryGroup::Init` and `VAddressRangeGroup::Init`, as
`InitHybridMemory` calls them; `disk` holds the files of the process. -/
def InitHybridMemory (disk : List HddFile) (page_buffer_size ram_buffer_size ssd_buffer_size
    number_hmem_instance : Nat) : Option System :=
  if number_hmem_instance ≤ 128 then
    match initInstances page_buffer_size ram_buffer_size ssd_buffer_size number_hmem_instance
        number_hmem_instance 0 with
    | none => none
    | some instances =>
      some
        { number_hmem_instances_ := number_hmem_instance, hmem_instances_ := instances,
          vaddr_range_group := VAddressRangeGroup.Init, disk := disk }
  else none

/-- `hmem_map`: `VAddressRangeGroup::AllocateVAddressRange(size, hdd_filename,
hdd_file_offset)`; the result is the address of the range. -/
def hmem_map (s : System) (address size file hdd_file_offset : Nat) : Option (Nat × System) := do
  let g := s.vaddr_range_group
  check (decide (g.free_vaddr_ranges_ ≠ 0))
  let i ← g.firstFree
  let r ← g.vaddr_range_list_[i]?
  let (ok, r1, disk) ← r.InitFile s.disk address size file hdd_file_offset
  check ok
  some (r1.address_,
    { s with
      disk := disk,
      vaddr_range_group := { g with
        vaddr_range_list_ := g.vaddr_range_list_.set i r1,
        vaddr_range_bitmap_ := g.vaddr_range_bitmap_.set i false,
        free_vaddr_ranges_ := g.free_vaddr_ranges_ - 1,
        inuse_vaddr_ranges_ := g.inuse_vaddr_ranges_ + 1,
        tree_ := g.tree_ ++ [i] } })

/-- `hmem_alloc`: `VAddressRangeGroup::AllocateVAddressRange(size)`, for memory
without a file; `address` is the block that `posix_memalign` returns, and the
result is the address of the range. -/
def hmem_alloc (s : System) (address size : Nat) : Option (Nat × System) := do
  let g := s.vaddr_range_group
  check (decide (g.free_vaddr_ranges_ ≠ 0))
  let i ← g.firstFree
  let r ← g.vaddr_range_list_[i]?
  let (ok, r1) ← r.Init address size
  check ok
  some (r1.address_,
    { s with
      vaddr_range_group := { g with
        vaddr_range_list_ := g.vaddr_range_list_.set i r1,
        vaddr_range_bitmap_ := g.vaddr_range_bitmap_.set i false,
        free_vaddr_ranges_ := g.free_vaddr_ranges_ - 1,
        inuse_vaddr_ranges_ := g.inuse_vaddr_ranges_ + 1,
        tree_ := g.tree_ ++ [i] } })

/-- `hmem_free`: `VAddressRangeGroup::ReleaseVAddressRange` on the range that
holds `address`. -/
def hmem_free (s : System) (address : Nat) : Option System :=
  let g := s.vaddr_range_group
  match g.FindVAddressRange address with
  | none => some s
  | some vaddr_range =>
    match g.FindVAddressRange vaddr_range.address_ with
    | none => some s
    | some node =>
      if node.vaddress_range_id_ = vaddr_range.vaddress_range_id_ ∧ g.inuse_vaddr_ranges_ > 0 then
        some { s with
          vaddr_range_group := { g with
            vaddr_range_list_ :=
              g.vaddr_range_list_.set vaddr_range.vaddress_range_id_ vaddr_range.Release,
            tree_ := g.tree_.erase vaddr_range.vaddress_range_id_,
            vaddr_range_bitmap_ := g.vaddr_range_bitmap_.set vaddr_range.vaddress_range_id_ true,
            free_vaddr_ranges_ := g.free_vaddr_ranges_ + 1,
            inuse_vaddr_ranges_ := g.inuse_vaddr_ranges_ - 1 } }
      else none

/-- `HybridMemoryGroup::GetHybridMemory`: the index of the instance, after its
conversion to `uint32_t`; `none` is the division by
`number_hmem_instances_ = 0`. -/
def GetHybridMemory (s : System) (offset_address : Nat) : Option Nat :=
  if s.number_hmem_instances_ = 0 then none
  else some (((offset_address >>> PAGE_BITS) >>> VADDRESS_CHUNK_BITS) %
    s.number_hmem_instances_ % 2 ^ 32)

/-- `LoadDataFromHybridMemory`. -/
def LoadDataFromHybridMemory (s : System) (h : Nat) (fault_page : Nat)
    (vaddr_range : VAddressRange) (v2hmap : Nat × Nat) : Option (Bool × System) := do
  let v ← s.v2h v2hmap
  check (!v.exist_page_cache)
  if v.exist_ram_cache then
    let hm ← s.hmem h
    let (ram_cache_item, rc1) ← hm.ram_cache_.GetItem fault_page
    let it ← rc1.items[ram_cache_item]?
    let s1 ← (s.setHmem h { hm with ram_cache_ := rc1 }).fillPage fault_page it.data
    some (true, s1)
  else if v.exist_flash_cache then
    match ← FlashCache.LoadPage s h fault_page PAGE_SIZE v.flash_page_offset
        vaddr_range.vaddress_range_id_ ((fault_page - vaddr_range.address_) >>> PAGE_BITS) with
    | (false, _) => none
    | (true, s1) => some (true, s1)
  else if v.exist_hdd_file then
    check (decide (vaddr_range.hdd_file_fd_ > 0))
    match ← FlashCache.LoadFromHDDFile s vaddr_range fault_page with
    | (false, _) => none
    | (true, s1) => some (true, s1)
  else some (false, s)

/-- `SigSegvAction`; `rwerror` is true for a write fault. -/
def SigSegvAction (s : System) (fault_address : Nat) (rwerror : Bool) : Option System := do
  check (fault_address != 0)
  let fault_page := fault_address / PAGE_SIZE * PAGE_SIZE
  let vaddr_range ← s.vaddr_range_group.FindVAddressRange fault_page
  let h ← s.GetHybridMemory (fault_address - vaddr_range.address_)
  let idx ← vaddr_range.GetV2HMapMetadata (fault_address - vaddr_range.address_)
  let v2hmap := (vaddr_range.vaddress_range_id_, idx)
  let v ← s.v2h v2hmap
  let prot_size := PAGE_SIZE
  if v.exist_page_cache then
    if !rwerror then some s
    else do
      let s1 ← s.mprotect fault_page PROT_WRITE
      s1.setV2h v2hmap (fun v => { v with dirty_page_cache := true })
  else do
    let s1 ← s.mprotect fault_page PROT_WRITE
    let (_, s2) ← LoadDataFromHybridMemory s1 h fault_page vaddr_range v2hmap
    let s3 ← if !rwerror then s2.mprotect fault_page PROT_READ else some s2
    let (_, s4) ← PageCache.AddPage s3 h fault_page prot_size rwerror v2hmap
      vaddr_range.vaddress_range_id_
    some s4

/-- The protection of the page of memory at `address`. -/
def protOf (s : System) (address : Nat) : Option Nat :=
  match s.findPage address with
  | some (r, i) => (r.memory[i]?).map (·.prot)
  | none => none

/-- A load instruction of the program at `address`: while the page may not be
read the processor raises SIGSEGV, `SigSegvAction` runs and the instruction is
tried again (`fuel` times at most).  The result is the content read. -/
def load : Nat → System → Nat → Option (Nat × System)
  | 0, _, _ => none
  | fuel + 1, s, address =>
    match s.findPage address with
    | none => none
    | some (r, i) =>
      match r.memory[i]? with
      | none => none
      | some pg =>
        if pg.prot = PROT_NONE then
          match s.SigSegvAction address false with
          | some s1 => load fuel s1 address
          | none => none
        else some (pg.data, s)

/-- A store instruction of the program that gives the page at `address` the
content `data`: while the page may not be written the processor raises SIGSEGV,
`SigSegvAction` runs and the instruction is tried again (`fuel` times at
most). -/
def store : Nat → System → Nat → Nat → Option System
  | 0, _, _, _ => none
  | fuel + 1, s, address, data =>
    match s.findPage address with
    | none => none
    | some (r, i) =>
      match r.memory[i]? with
      | none => none
      | some pg =>
        if pg.prot = PROT_WRITE then s.setPage address (fun p => { p with data := data })
        else
          match s.SigSegvAction address true with
          | some s1 => store fuel s1 address data
          | none => none

end System

/-- An access of the program to a page: a read, or a write of new content. -/
inductive Access where
  | read (address : Nat)
  | write (address data : Nat)
  deriving DecidableEq, Repr

namespace System

/-- A sequence of accesses of the program; the result is what the reads
returned, in order, and the state at the end. -/
def run : List Access → System → Option (List Nat × System)
  | [], s => some ([], s)
  | Access.read address :: rest, s =>
    match s.load 3 address with
    | none => none
    | some (d, s1) =>
      match run rest s1 with
      | none => none
      | some (ds, s2) => some (d :: ds, s2)
  | Access.write address data :: rest, s =>
    match s.store 3 address data with
    | none => none
    | some s1 => run rest s1

end System

/-! ## hash_table.h

`HashTable<T>` links objects of the class `T` through their field `hash_next`.
The objects live outside the table: `mem` is the memory that holds them, and a
pointer to an object is its index in `mem` (`none` is NULL).  The function
`hash` of hash.h is an argument: `hash key key_size` is what it returns for the
`key_size` bytes of the pointer `key`.  The statistics counters of the table
(`number_lookups_`, `number_collisions_`, ...) and its name are left out. -/

namespace Containers

/-- The fields of an object that `HashTable<T>` uses. -/
structure HashObject where
  hash_next : Option Nat
  hash_key : Nat
  deriving DecidableEq, Repr

structure HashTable where
  ready_ : Bool
  buckets_ : List (Option Nat)
  number_buckets_ : Nat
  number_objects_ : Nat
  deriving DecidableEq, Repr

/-- A place that holds a pointer to an object (a value of type `T**`): a cell
of `buckets_`, or the field `hash_next` of an object. -/
inductive ObjPos where
  | bucket (idx : Nat)
  | next (obj : Nat)
  deriving DecidableEq, Repr

namespace HashTable

/-- The constructor `HashTable()`. -/
def new : HashTable :=
  { ready_ := false, buckets_ := [], number_buckets_ := 0, number_objects_ := 0 }

/-- `HashTable<T>::Init`. -/
def Init (_t : HashTable) (number_buckets : Nat) : Bool × HashTable :=
  (true,
    { ready_ := true, buckets_ := List.replicate number_buckets none,
      number_buckets_ := number_buckets, number_objects_ := 0 })

/-- `HashTable<T>::GetNumberObjects`. -/
def GetNumberObjects (t : HashTable) : Nat := t.number_objects_

/-- `HashTable<T>::GetNumberBuckets`. -/
def GetNumberBuckets (t : HashTable) : Nat := t.number_buckets_

/-- The index `hash_value % number_buckets_` of the bucket of `key`, with
`hash_value` and the index of 32 bits; `none` is the division by 0. -/
def bucketIdx (hash : Nat → Nat → Nat) (t : HashTable) (key key_size : Nat) : Option Nat :=
  if t.number_buckets_ = 0 then none
  else some ((hash key key_size % 2 ^ 32) % t.number_buckets_ % 2 ^ 32)

/-- The loop `while (obj) { if (obj->hash_key == key) break; obj =
obj->hash_next; }` of `Lookup`.  `none` is an access through a pointer that is
not in `mem`, or a loop that does not end (`fuel` is spent). -/
def lookupLoop (mem : List HashObject) (key : Nat) : Nat → Option Nat → Option (Option Nat)
  | 0, _ => none
  | _ + 1, none => some none
  | fuel + 1, some obj =>
    match mem[obj]? with
    | none => none
    | some o => if o.hash_key = key then some (some obj) else lookupLoop mem key fuel o.hash_next

/-- `HashTable<T>::Lookup`: the object, or NULL.  A chain that ends holds no
object twice, so that it is walked in at most `mem.length + 1` steps. -/
def Lookup (hash : Nat → Nat → Nat) (t : HashTable) (mem : List HashObject)
    (key key_size : Nat) : Option (Option Nat) :=
  match bucketIdx hash t key key_size with
  | none => none
  | some bucket_idx =>
    match t.buckets_[bucket_idx]? with
    | none => none
    | some obj => lookupLoop mem key (mem.length + 1) obj

/-- `HashTable<T>::Insert`: the returned Boolean, the table and the memory. -/
def Insert (hash : Nat → Nat → Nat) (t : HashTable) (mem : List HashObject)
    (obj key_size : Nat) : Option (Bool × HashTable × List HashObject) :=
  match mem[obj]? with
  | none => none
  | some o =>
    match Lookup hash t mem o.hash_key key_size with
    | none => none
    | some (some _) => some (false, t, mem)
    | some none =>
      match bucketIdx hash t o.hash_key key_size with
      | none => none
      | some bucket_idx =>
        match t.buckets_[bucket_idx]? with
        | none => none
        | some head =>
          some (true,
            { t with
              buckets_ := t.buckets_.set bucket_idx (some obj),
              number_objects_ := (t.number_objects_ + 1) % 2 ^ 64 },
            mem.set obj { o with hash_next := head })

/-- The pointer `*pos`. -/
def deref (t : HashTable) (mem : List HashObject) : ObjPos → Option (Option Nat)
  | ObjPos.bucket idx => t.buckets_[idx]?
  | ObjPos.next obj =>
    match mem[obj]? with
    | none => none
    | some o => some o.hash_next

/-- The assignment `*pos = value`. -/
def assign (t : HashTable) (mem : List HashObject) (value : Option Nat) :
    ObjPos → Option (HashTable × List HashObject)
  | ObjPos.bucket idx =>
    if idx < t.buckets_.length then some ({ t with buckets_ := t.buckets_.set idx value }, mem)
    else none
  | ObjPos.next obj =>
    match mem[obj]? with
    | none => none
    | some o => some (t, mem.set obj { o with hash_next := value })

/-- The loop `while (*obj && (*obj)->hash_key != key) obj =
&((*obj)->hash_next);` of `FindPrevObjPos`. -/
def findPrevLoop (t : HashTable) (mem : List HashObject) (key : Nat) :
    Nat → ObjPos → Option ObjPos
  | 0, _ => none
  | fuel + 1, pos =>
    match deref t mem pos with
    | none => none
    | some none => some pos
    | some (some obj) =>
      match mem[obj]? with
      | none => none
      | some o =>
        if o.hash_key ≠ key then findPrevLoop t mem key fuel (ObjPos.next obj) else some pos

/-- `HashTable<T>::FindPrevObjPos`. -/
def FindPrevObjPos (hash : Nat → Nat → Nat) (t : HashTable) (mem : List HashObject)
    (key key_size : Nat) : Option ObjPos :=
  match bucketIdx hash t key key_size with
  | none => none
  | some bucket_idx => findPrevLoop t mem key (mem.length + 1) (ObjPos.bucket bucket_idx)

/-- The statements of `Remove` after the call of `FindPrevObjPos`, with
`prev_obj_pos` what that call returned. -/
def unlinkAt (t : HashTable) (mem : List HashObject) (prev_obj_pos : ObjPos) :
    Option (Option Nat × HashTable × List HashObject) :=
  match deref t mem prev_obj_pos with
  | none => none
  | some none => some (none, t, mem)
  | some (some target_obj) =>
    match mem[target_obj]? with
    | none => none
    | some o =>
      let next_obj := o.hash_next
      match assign t mem next_obj prev_obj_pos with
      | none => none
      | some (t1, mem1) =>
        match mem1[target_obj]? with
        | none => none
        | some o1 => some (some target_obj, t1, mem1.set target_obj { o1 with hash_next := none })

/-- `HashTable<T>::Remove`: the returned object (or NULL), the table and the
memory. -/
def Remove (hash : Nat → Nat → Nat) (t : HashTable) (mem : List HashObject)
    (key key_size : Nat) : Option (Option Nat × HashTable × List HashObject) :=
  match FindPrevObjPos hash t mem key key_size with
  | none => none
  | some prev_obj_pos => unlinkAt t mem prev_obj_pos

/-- The objects from `head` on are those of `chain`, in this order, and the last
of them has `hash_next == NULL`. -/
def IsChain (mem : List HashObject) : Option Nat → List Nat → Prop
  | head, [] => head = none
  | head, obj :: rest =>
    head = some obj ∧
      match mem[obj]? with
      | none => False
      | some o => IsChain mem o.hash_next rest

/-- The key of the object `obj` (0 when there is no such object). -/
def keyOf (mem : List HashObject) (obj : Nat) : Nat :=
  match mem[obj]? with
  | some o => o.hash_key
  | none => 0

/-- A well-formed table: `chain i` is the chain of bucket `i`, it holds objects
whose keys fall in this bucket, and no two of them have the same key.  `Init`
makes such a table, and `Insert` and `Remove` keep it so. -/
def WF (hash : Nat → Nat → Nat) (key_size : Nat) (t : HashTable) (mem : List HashObject)
    (chain : Nat → List Nat) : Prop :=
  0 < t.number_buckets_ ∧ t.buckets_.length = t.number_buckets_ ∧
  ∀ i, i < t.number_buckets_ →
    ∃ head, t.buckets_[i]? = some head ∧ IsChain mem head (chain i) ∧
      (∀ obj ∈ chain i, bucketIdx hash t (keyOf mem obj) key_size = some i) ∧
      ((chain i).map (keyOf mem)).Nodup

/-- The object `obj` is stored in the table whose chains are `chain`. -/
def Stored (t : HashTable) (chain : Nat → List Nat) (obj : Nat) : Prop :=
  ∃ i, i < t.number_buckets_ ∧ obj ∈ chain i

end HashTable

end Containers

/-! ## free_list.h

`FreeList<T>` hands out the objects of its array `all_objects_`; a pointer to
`all_objects_[i]` is the index `i`.  The payload of the objects
(`objects_data_`) is left out. -/

namespace Containers

structure FreeList where
  ready_ : Bool
  /-- The array `list_` of `total_objects_` pointers. -/
  list_ : List Nat
  total_objects_ : Nat
  available_objects_ : Nat
  deriving DecidableEq, Repr

namespace FreeList

/-- The constructor `FreeList()`. -/
def new : FreeList :=
  { ready_ := false, list_ := [], total_objects_ := 0, available_objects_ := 0 }

/-- `FreeList<T>::Init`.  `none` is the failed assertion `ready_ == false`, or
the loop `for (uint32_t i = 0; i < total_objects_; ++i)` that does not end
when `total_objects_` does not fit in 32 bits. -/
def Init (fl : FreeList) (total_objects : Nat) : Option (Bool × FreeList) :=
  if fl.ready_ then none
  else if total_objects ≥ 2 ^ 32 then none
  else
    some (true,
      { ready_ := true, list_ := List.range total_objects, total_objects_ := total_objects,
        available_objects_ := total_objects })

/-- `FreeList<T>::New`: the object, or NULL; `none` is an access outside
`list_`. -/
def New (fl : FreeList) : Option (Option Nat × FreeList) :=
  if fl.available_objects_ = 0 then some (none, fl)
  else
    match fl.list_[fl.available_objects_ - 1]? with
    | none => none
    | some x => some (some x, { fl with available_objects_ := fl.available_objects_ - 1 })

/-- `FreeList<T>::Free`; `none` is a write outside `list_`. -/
def Free (fl : FreeList) (x : Nat) : Option FreeList :=
  if fl.available_objects_ < fl.list_.length then
    some { fl with
      list_ := fl.list_.set fl.available_objects_ x,
      available_objects_ := fl.available_objects_ + 1 }
  else none

/-- `FreeList<T>::AvailObjects`. -/
def AvailObjects (fl : FreeList) : Nat := fl.available_objects_

/-- `FreeList<T>::TotalObjects`. -/
def TotalObjects (fl : FreeList) : Nat := fl.total_objects_

/-- `n` calls of `New` in a row: the objects returned, and the list after the
calls. -/
def newLoop : Nat → FreeList → Option (List (Option Nat) × FreeList)
  | 0, fl => some ([], fl)
  | n + 1, fl =>
    match fl.New with
    | none => none
    | some (x, fl1) =>
      match newLoop n fl1 with
      | none => none
      | some (xs, fl2) => some (x :: xs, fl2)

/-- A pool of `N` objects of which those of `out` are handed out: the cells
`list_[0 .. available_objects_ - 1]` and `out` hold each object of the pool
once.  `Init` makes such a pool with nothing handed out; `New`, and `Free` of an
object that is handed out, keep it so. -/
def Pool (N : Nat) (fl : FreeList) (out : List Nat) : Prop :=
  fl.total_objects_ = N ∧ fl.list_.length = N ∧ fl.available_objects_ ≤ N ∧
    (fl.list_.take fl.available_objects_ ++ out).Perm (List.range N)

end FreeList

/-! ## lru_list.h

`LRUList<T>` links objects of the class `T` through their fields `lru_prev` and
`lru_next`; `mem` is the memory that holds the objects, and a pointer to an
object is its index in `mem`. -/

/-- The fields of an object that `LRUList<T>` uses. -/
structure LRUObject where
  lru_prev : Option Nat
  lru_next : Option Nat
  deriving DecidableEq, Repr

structure LRUList where
  head_ : Option Nat
  tail_ : Option Nat
  number_objects_ : Nat
  deriving DecidableEq, Repr

namespace LRUList

/-- The constructor `LRUList()`. -/
def new : LRUList := { head_ := none, tail_ := none, number_objects_ := 0 }

/-- `LRUList<T>::head`. -/
def head (l : LRUList) : Option Nat := l.head_

/-- `LRUList<T>::tail`. -/
def tail (l : LRUList) : Option Nat := l.tail_

/-- `LRUList<T>::GetNumberObjects`. -/
def GetNumberObjects (l : LRUList) : Nat := l.number_objects_

/-- The assignment `x->lru_prev = v`; `none` when `x` is not an object of
`mem`. -/
def setPrev (mem : List LRUObject) (x : Nat) (v : Option Nat) : Option (List LRUObject) :=
  match mem[x]? with
  | none => none
  | some o => some (mem.set x { o with lru_prev := v })

/-- The assignment `x->lru_next = v`. -/
def setNext (mem : List LRUObject) (x : Nat) (v : Option Nat) : Option (List LRUObject) :=
  match mem[x]? with
  | none => none
  | some o => some (mem.set x { o with lru_next := v })

/-- `LRUList<T>::Link`; `none` is a failed assertion or an access through a
pointer that is not in `mem`. -/
def Link (l : LRUList) (mem : List LRUObject) (x : Nat) : Option (LRUList × List LRUObject) :=
  match l.head_ with
  | some h =>
    match setPrev mem x none with
    | none => none
    | some mem1 =>
      match setNext mem1 x (some h) with
      | none => none
      | some mem2 =>
        match setPrev mem2 h (some x) with
        | none => none
        | some mem3 =>
          some ({ l with head_ := some x, number_objects_ := (l.number_objects_ + 1) % 2 ^ 64 },
            mem3)
  | none =>
    if l.tail_ = none then
      match setNext mem x none with
      | none => none
      | some mem1 =>
        match setPrev mem1 x none with
        | none => none
        | some mem2 =>
          some ({ head_ := some x, tail_ := some x,
                  number_objects_ := (l.number_objects_ + 1) % 2 ^ 64 }, mem2)
    else none

/-- `LRUList<T>::Unlink`; `none` is the failed assertion `number_objects_ > 0`
or an access through a pointer that is not in `mem`. -/
def Unlink (l : LRUList) (mem : List LRUObject) (x : Nat) : Option (LRUList × List LRUObject) :=
  if l.number_objects_ = 0 then none
  else
    match mem[x]? with
    | none => none
    | some o =>
      match o.lru_prev, o.lru_next with
      | some prev, some next =>
        match setNext mem prev (some next) with
        | none => none
        | some mem1 =>
          match setPrev mem1 next (some prev) with
          | none => none
          | some mem2 => some ({ l with number_objects_ := l.number_objects_ - 1 }, mem2)
      | some prev, none =>
        match setNext mem prev none with
        | none => none
        | some mem1 =>
          some ({ l with tail_ := some prev, number_objects_ := l.number_objects_ - 1 }, mem1)
      | none, some next =>
        match setPrev mem next none with
        | none => none
        | some mem1 =>
          some ({ l with head_ := some next, number_objects_ := l.number_objects_ - 1 }, mem1)
      | none, none =>
        some ({ head_ := none, tail_ := none, number_objects_ := l.number_objects_ - 1 }, mem)

/-- `LRUList<T>::Update`. -/
def Update (l : LRUList) (mem : List LRUObject) (x : Nat) : Option (LRUList × List LRUObject) :=
  match Unlink l mem x with
  | none => none
  | some (l1, mem1) => Link l1 mem1 x

/-- The objects from `start` on along `lru_next`, as `DumpLRU` of the test
prints them; `none` is a walk that does not end within `fuel` steps or leaves
`mem`. -/
def walkNext (mem : List LRUObject) : Nat → Option Nat → Option (List Nat)
  | 0, _ => none
  | _ + 1, none => some []
  | fuel + 1, some x =>
    match mem[x]? with
    | none => none
    | some o =>
      match walkNext mem fuel o.lru_next with
      | none => none
      | some rest => some (x :: rest)

/-- The objects from `start` on along `lru_prev`. -/
def walkPrev (mem : List LRUObject) : Nat → Option Nat → Option (List Nat)
  | 0, _ => none
  | _ + 1, none => some []
  | fuel + 1, some x =>
    match mem[x]? with
    | none => none
    | some o =>
      match walkPrev mem fuel o.lru_prev with
      | none => none
      | some rest => some (x :: rest)

/-- The sequence of the list from `head()` along `lru_next`. -/
def toList (l : LRUList) (mem : List LRUObject) : Option (List Nat) :=
  walkNext mem (mem.length + 1) l.head_

/-- The sequence of the list from `tail()` along `lru_prev`. -/
def toListBackward (l : LRUList) (mem : List LRUObject) : Option (List Nat) :=
  walkPrev mem (mem.length + 1) l.tail_

/-- The first object of `l`, or `nxt` when `l` is empty. -/
def headOr (l : List Nat) (nxt : Option Nat) : Option Nat :=
  match l with
  | [] => nxt
  | y :: _ => some y

/-- The last object of `l`, or `prev` when `l` is empty. -/
def lastOr : List Nat → Option Nat → Option Nat
  | [], prev => prev
  | y :: rest, _ => lastOr rest (some y)

/-- The objects of `seq` are linked one to the next: the first has `lru_prev ==
prev` and each other one has the one before it as `lru_prev`; the last has
`lru_next == nxt` and each other one has the one after it as `lru_next`. -/
def Linked (mem : List LRUObject) : Option Nat → List Nat → Option Nat → Prop
  | _, [], _ => True
  | prev, x :: rest, nxt =>
    mem[x]? = some { lru_prev := prev, lru_next := headOr rest nxt } ∧
      Linked mem (some x) rest nxt

/-- The list holds the objects of `seq`, from the most recent to the least
recent. -/
def IsLru (l : LRUList) (mem : List LRUObject) (seq : List Nat) : Prop :=
  l.head_ = seq.head? ∧ l.tail_ = seq.getLast? ∧ l.number_objects_ = seq.length ∧
    seq.Nodup ∧ Linked mem none seq none

end LRUList

end Containers

/-! ## avl.h, avl.cc

The nodes that can be reached from the root of an `AVLTree` form a tree in
which every node has one place; `AVLNode` is this tree as a value, with `empty`
for the null pointer.  A node is a field of the `VAddressRange` that it is
embedded in, so that the pointer `embedding_object` (here the index of the
range in `vaddr_range_list_`) tells which node it is.

`avl_insert` and `avl_delete` keep in the array `stack` the places
(`AVLNode**`) of the nodes on the path from the root.  An entry of `stack` is
kept here as the node at that place without its child on the path
(`AVLPlace`); the list of entries has the deepest entry first. -/

/-- The constant `MAXHEIGHT`, the size of `stack`. -/
def MAXHEIGHT : Nat := 41

inductive AVLNode where
  | empty : AVLNode
  | node (left right : AVLNode) (height address len embedding_object : Nat) : AVLNode
  deriving DecidableEq, Repr

/-- An entry of `stack`: the node at the place that the entry names, without
its child on the path.  `goes_left` says that the path goes on through the
field `left`; `other` is the other child. -/
structure AVLPlace where
  goes_left : Bool
  other : AVLNode
  height : Nat
  address : Nat
  len : Nat
  embedding_object : Nat
  deriving DecidableEq, Repr

structure AVLTree where
  tree : AVLNode
  num_nodes : Int
  deriving DecidableEq, Repr

namespace AVLNode

/-- The macro `heightof`. -/
def heightof : AVLNode → Nat
  | empty => 0
  | node _ _ height _ _ _ => height

end AVLNode

namespace AVLPlace

/-- The node at the place, with `child` as its child on the path. -/
def plug (p : AVLPlace) (child : AVLNode) : AVLNode :=
  if p.goes_left then AVLNode.node child p.other p.height p.address p.len p.embedding_object
  else AVLNode.node p.other child p.height p.address p.len p.embedding_object

end AVLPlace

namespace AVLNode

/-- The tree whose path `stack` ends in `child`. -/
def plugAll : List AVLPlace → AVLNode → AVLNode
  | [], child => child
  | p :: rest, child => plugAll rest (p.plug child)

/-- One turn of the loop of `avl_rebalance`, for `node = *nodeplace`: the node
that `*nodeplace` holds after the turn, and whether the loop is left by
`break`.  `none` is an access through a null pointer. -/
def rebalanceNode : AVLNode → Option (AVLNode × Bool)
  | empty => none
  | node nodeleft noderight height address len obj =>
    let heightleft := heightof nodeleft
    let heightright := heightof noderight
    if heightright + 1 < heightleft then
      match nodeleft with
      | empty => none
      | node nodeleftleft nodeleftright _ laddress llen lobj =>
        let heightleftright := heightof nodeleftright
        if heightof nodeleftleft ≥ heightleftright then
          some (node nodeleftleft
            (node nodeleftright noderight (1 + heightleftright) address len obj)
            (1 + (1 + heightleftright)) laddress llen lobj, false)
        else
          match nodeleftright with
          | empty => none
          | node lrleft lrright _ lraddress lrlen lrobj =>
            some (node (node nodeleftleft lrleft heightleftright laddress llen lobj)
              (node lrright noderight heightleftright address len obj)
              heightleft lraddress lrlen lrobj, false)
    else if heightleft + 1 < heightright then
      match noderight with
      | empty => none
      | node noderightleft noderightright _ raddress rlen robj =>
        let heightrightleft := heightof noderightleft
        if heightof noderightright ≥ heightrightleft then
          some (node (node nodeleft noderightleft (1 + heightrightleft) address len obj)
            noderightright (1 + (1 + heightrightleft)) raddress rlen robj, false)
        else
          match noderightleft with
          | empty => none
          | node rlleft rlright _ rladdress rllen rlobj =>
            some (node (node nodeleft rlleft heightrightleft address len obj)
              (node rlright noderightright heightrightleft raddress rlen robj)
              heightright rladdress rllen rlobj, false)
    else
      let h := (if heightleft < heightright then heightright else heightleft) + 1
      if h = height then some (node nodeleft noderight height address len obj, true)
      else some (node nodeleft noderight h address len obj, false)

/-- `avl_rebalance(nodeplaces_ptr, count)` with the `count` entries `stack`
below `nodeplaces_ptr`, when the place below the deepest entry holds `child`:
the tree after the call. -/
def avl_rebalance : List AVLPlace → AVLNode → Option AVLNode
  | [], child => some child
  | p :: rest, child =>
    match rebalanceNode (p.plug child) with
    | none => none
    | some (nd, true) => some (plugAll rest nd)
    | some (nd, false) => avl_rebalance rest nd

/-- The first loop of `avl_insert`: the entries of `stack` when it ends.
`none` is a write beyond the end of `stack`. -/
def insertPath (key : Nat) : AVLNode → List AVLPlace → Option (List AVLPlace)
  | empty, stack => some stack
  | node left right height address len obj, stack =>
    if stack.length ≥ MAXHEIGHT then none
    else if key < address then
      insertPath key left
        ({ goes_left := true, other := right, height := height, address := address,
           len := len, embedding_object := obj } :: stack)
    else
      insertPath key right
        ({ goes_left := false, other := left, height := height, address := address,
           len := len, embedding_object := obj } :: stack)

/-- `avl_insert(new_node, tree)` for the node with the fields `address`, `len`
and `embedding_object`. -/
def avl_insert (address len obj : Nat) (tree : AVLNode) : Option AVLNode :=
  match insertPath address tree [] with
  | none => none
  | some stack => avl_rebalance stack (node empty empty 1 address len obj)

/-- The first loop of `avl_delete`.  `none` is a write beyond the end of
`stack` or `abort()`; `some none` is a key that is not found; otherwise the
fields `left`, `right` and `height` of `node_to_delete` and the entries of
`stack` above its own. -/
def deletePath (key obj : Nat) :
    AVLNode → List AVLPlace → Option (Option (AVLNode × AVLNode × Nat × List AVLPlace))
  | empty, _ => some none
  | node left right height address len o, stack =>
    if stack.length ≥ MAXHEIGHT then none
    else if key = address then
      if o ≠ obj then none else some (some (left, right, height, stack))
    else if key < address then
      deletePath key obj left
        ({ goes_left := true, other := right, height := height, address := address,
           len := len, embedding_object := o } :: stack)
    else
      deletePath key obj right
        ({ goes_left := false, other := left, height := height, address := address,
           len := len, embedding_object := o } :: stack)

/-- The second loop of `avl_delete`, from `node_to_delete->left` along `right`
to the node that has no right child: the fields of that node, its left child
and the entries pushed.  `stack_count` is the number of entries in `stack`. -/
def maxPath : AVLNode → Nat → List AVLPlace →
    Option ((Nat × Nat × Nat) × AVLNode × List AVLPlace)
  | empty, _, _ => none
  | node left right height address len obj, stack_count, pushed =>
    match right with
    | empty => some ((address, len, obj), left, pushed)
    | node _ _ _ _ _ _ =>
      if stack_count ≥ MAXHEIGHT then none
      else
        maxPath right (stack_count + 1)
          ({ goes_left := false, other := left, height := height, address := address,
             len := len, embedding_object := obj } :: pushed)

/-- `avl_delete(node_to_delete, tree)` for the node with the fields `address`
and `embedding_object`. -/
def avl_delete (address obj : Nat) (tree : AVLNode) : Option AVLNode :=
  match deletePath address obj tree [] with
  | none => none
  | some none => some tree
  | some (some (left, right, height, stack)) =>
    match left with
    | empty => avl_rebalance stack right
    | node _ _ _ _ _ _ =>
      if stack.length + 1 ≥ MAXHEIGHT then none
      else
        match maxPath left (stack.length + 1) [] with
        | none => none
        | some ((a, l, o), child, pushed) =>
          avl_rebalance
            (pushed ++
              { goes_left := true, other := right, height := height, address := a, len := l,
                embedding_object := o } :: stack)
            child

/-- The loop of `FindNode`: the fields `address`, `len` and `embedding_object`
of the node found. -/
def findNode : AVLNode → Nat → Option (Nat × Nat × Nat)
  | empty, _ => none
  | node left right _ address len obj, key =>
    if key < address then findNode left key
    else if key ≥ (address + len) % 2 ^ 64 then findNode right key
    else some (address, len, obj)

/-- The nodes of the tree from left to right, each with its fields `address`,
`len` and `embedding_object`. -/
def toList : AVLNode → List (Nat × Nat × Nat)
  | empty => []
  | node left right _ address len obj => toList left ++ (address, len, obj) :: toList right

/-- The number of nodes on the longest path from the root. -/
def depth : AVLNode → Nat
  | empty => 0
  | node left right _ _ _ _ => max (depth left) (depth right) + 1

/-- An AVL tree: every node holds its depth in `height`, and the depths of its
two children differ by at most one. -/
def IsAvl : AVLNode → Prop
  | empty => True
  | node left right height _ _ _ =>
    IsAvl left ∧ IsAvl right ∧ height = max (depth left) (depth right) + 1 ∧
      depth left ≤ depth right + 1 ∧ depth right ≤ depth left + 1

/-- The ranges of the nodes, from left to right, lie one behind the other. -/
def Ordered (tree : AVLNode) : Prop :=
  (toList tree).Pairwise (fun a b => a.1 + a.2.1 ≤ b.1)

/-- The nodes of the tree that lie to the left of the place below the deepest
entry of `stack`. -/
def beforeAll : List AVLPlace → List (Nat × Nat × Nat)
  | [] => []
  | p :: rest =>
    beforeAll rest ++
      (if p.goes_left then [] else toList p.other ++ [(p.address, p.len, p.embedding_object)])

/-- The nodes of the tree that lie to the right of the place below the deepest
entry of `stack`. -/
def afterAll : List AVLPlace → List (Nat × Nat × Nat)
  | [] => []
  | p :: rest =>
    (if p.goes_left then (p.address, p.len, p.embedding_object) :: toList p.other else []) ++
      afterAll rest

/-- The entries of `stack` are those of a path in an AVL tree whose place below
the deepest entry held a subtree of depth `h`: each node on the path holds in
`height` the depth that it had with this subtree. -/
def PathOK : List AVLPlace → Nat → Prop
  | [], _ => True
  | p :: rest, h =>
    IsAvl p.other ∧ h ≤ depth p.other + 1 ∧ depth p.other ≤ h + 1 ∧
      p.height = max h (depth p.other) + 1 ∧ PathOK rest p.height

/-- The depth that the node at the first entry of `stack` (the last of the
list) had, when the place below the deepest entry held a subtree of depth
`h`. -/
def pathHeight : List AVLPlace → Nat → Nat
  | [], h => h
  | p :: rest, _ => pathHeight rest p.height

end AVLNode

/-- `InitAVL`. -/
def InitAVL : AVLTree := { tree := AVLNode.empty, num_nodes := 0 }

/-- `InsertNode` for a node (not a null pointer) with the fields `address`,
`len` and `embedding_object`: the returned value and the tree. -/
def InsertNode (avl : AVLTree) (address len obj : Nat) : Option (Int × AVLTree) :=
  if len < 1 then some (-1, avl)
  else
    match AVLNode.avl_insert address len obj avl.tree with
    | none => none
    | some tree => some (avl.num_nodes + 1, { tree := tree, num_nodes := avl.num_nodes + 1 })

/-- `DeleteNode` for a node (not a null pointer) with the fields `address` and
`embedding_object`. -/
def DeleteNode (avl : AVLTree) (address obj : Nat) : Option AVLTree :=
  match AVLNode.avl_delete address obj avl.tree with
  | none => none
  | some tree => some { tree := tree, num_nodes := avl.num_nodes - 1 }

/-- `FindNode`. -/
def FindNode (avl : AVLTree) (key : Nat) : Option (Nat × Nat × Nat) :=
  AVLNode.findNode avl.tree key
/-! ## vaddr_range.cc: the group of ranges with its AVL tree

`VAddressRangeGroup` above keeps the tree of the group as the list of the ids
of its nodes.  Here the group is kept with the tree of avl.cc: the node of a
range is the node of `tree_` whose `embedding_object` is the index of the range
in `vaddr_range_list_`, and a pointer to a range is this index. -/

namespace Registry

/-- The class `VAddressRangeGroup`. -/
structure VAddressRangeGroup where
  vaddr_range_bitmap_ : List Bool
  vaddr_range_list_ : List VAddressRange
  total_vaddr_ranges_ : Nat
  free_vaddr_ranges_ : Nat
  inuse_vaddr_ranges_ : Int
  tree_ : AVLTree
  deriving DecidableEq, Repr

namespace VAddressRangeGroup

/-- The constructor `VAddressRangeGroup()`. -/
def new : VAddressRangeGroup :=
  { vaddr_range_bitmap_ := List.replicate MAX_VIRTUAL_ADDRESS_RANGES false,
    vaddr_range_list_ := [], total_vaddr_ranges_ := 0, free_vaddr_ranges_ := 0,
    inuse_vaddr_ranges_ := 0, tree_ := InitAVL }

/-- `VAddressRangeGroup::Init`: the returned Boolean and the group. -/
def Init (g : VAddressRangeGroup) : Bool × VAddressRangeGroup :=
  (true,
    { g with
      vaddr_range_list_ := (List.range MAX_VIRTUAL_ADDRESS_RANGES).map
        (fun i => { VAddressRange.new with vaddress_range_id_ := i }),
      total_vaddr_ranges_ := INVALID_VADDRESS_RANGE_ID,
      free_vaddr_ranges_ := INVALID_VADDRESS_RANGE_ID,
      inuse_vaddr_ranges_ := 0,
      vaddr_range_bitmap_ := List.replicate MAX_VIRTUAL_ADDRESS_RANGES true })

/-- `GetTotalVAddressRangeNumber`. -/
def GetTotalVAddressRangeNumber (g : VAddressRangeGroup) : Nat := g.total_vaddr_ranges_

/-- `GetFreeVAddressRangeNumber`. -/
def GetFreeVAddressRangeNumber (g : VAddressRangeGroup) : Nat := g.free_vaddr_ranges_

/-- The loop `for (i = 0; i < total_vaddr_ranges_; ++i)` of
`AllocateVAddressRange` up to its `if`: the first `i` with
`vaddr_range_bitmap_[i] == 1`. -/
def firstFree (g : VAddressRangeGroup) : Option Nat :=
  (List.range g.total_vaddr_ranges_).find? (fun i => g.vaddr_range_bitmap_[i]? == some true)

/-- The statements of `AllocateVAddressRange`, in both overloads, that follow
the call of `Init` on `vaddr_range_list_[i]`, which has left the range `r1`:
the returned pointer and the group.  `none` is a failed assertion. -/
def linkRange (g : VAddressRangeGroup) (i : Nat) (r1 : VAddressRange) :
    Option (Option Nat × VAddressRangeGroup) :=
  let free_vaddr_ranges := (g.free_vaddr_ranges_ + 2 ^ 32 - 1) % 2 ^ 32
  let inuse_vaddr_ranges := g.inuse_vaddr_ranges_ + 1
  match InsertNode g.tree_ r1.address_ r1.size_ i with
  | none => none
  | some (ret, tree) =>
    if ret ≠ inuse_vaddr_ranges then none
    else
      some (some i,
        { g with
          vaddr_range_list_ := g.vaddr_range_list_.set i r1,
          vaddr_range_bitmap_ := g.vaddr_range_bitmap_.set i false,
          free_vaddr_ranges_ := free_vaddr_ranges,
          inuse_vaddr_ranges_ := inuse_vaddr_ranges,
          tree_ := tree })

/-- `VAddressRangeGroup::AllocateVAddressRange(size)`: the returned pointer
and the group.  `address` is the block that `posix_memalign` returns in
`VAddressRange::Init`; `none` is a failed assertion. -/
def AllocateVAddressRange (g : VAddressRangeGroup) (address size : Nat) :
    Option (Option Nat × VAddressRangeGroup) :=
  if g.free_vaddr_ranges_ = 0 then some (none, g)
  else if ¬ g.vaddr_range_bitmap_.any id then none
  else
    match g.firstFree with
    | none => some (none, g)
    | some i =>
      match g.vaddr_range_list_[i]? with
      | none => none
      | some r =>
        match r.Init address size with
        | some (true, r1) => g.linkRange i r1
        | _ => none

/-- `VAddressRangeGroup::AllocateVAddressRange(size, hdd_filename,
hdd_file_offset)`: the returned pointer, the group and the disk. -/
def AllocateVAddressRangeFile (g : VAddressRangeGroup) (disk : List HddFile)
    (address size file hdd_file_offset : Nat) :
    Option (Option Nat × VAddressRangeGroup × List HddFile) :=
  if g.free_vaddr_ranges_ = 0 then some (none, g, disk)
  else if ¬ g.vaddr_range_bitmap_.any id then none
  else
    match g.firstFree with
    | none => some (none, g, disk)
    | some i =>
      match g.vaddr_range_list_[i]? with
      | none => none
      | some r =>
        match r.InitFile disk address size file hdd_file_offset with
        | some (true, r1, disk1) =>
          match g.linkRange i r1 with
          | none => none
          | some (p, g1) => some (p, g1, disk1)
        | _ => none

/-- `VAddressRangeGroup::ReleaseVAddressRange` for the range
`vaddr_range_list_[vaddr_range]`: the returned Boolean and the group.  `none`
is a failed assertion or an access out of bounds. -/
def ReleaseVAddressRange (g : VAddressRangeGroup) (vaddr_range : Nat) :
    Option (Bool × VAddressRangeGroup) :=
  match g.vaddr_range_list_[vaddr_range]? with
  | none => none
  | some r =>
    match FindNode g.tree_ r.address_ with
    | none => some (false, g)
    | some (address, _, embedding_object) =>
      if embedding_object ≠ vaddr_range then none
      else if g.inuse_vaddr_ranges_ ≤ 0 then none
      else
        match DeleteNode g.tree_ address vaddr_range with
        | none => none
        | some tree =>
          if r.vaddress_range_id_ ≥ MAX_VIRTUAL_ADDRESS_RANGES then none
          else
            some (true,
              { g with
                vaddr_range_list_ := g.vaddr_range_list_.set vaddr_range r.Release,
                tree_ := tree,
                vaddr_range_bitmap_ := g.vaddr_range_bitmap_.set r.vaddress_range_id_ true,
                free_vaddr_ranges_ := (g.free_vaddr_ranges_ + 1) % 2 ^ 32,
                inuse_vaddr_ranges_ := g.inuse_vaddr_ranges_ - 1 })

/-- `VAddressRangeGroup::FindVAddressRange`: the range found, or NULL. -/
def FindVAddressRange (g : VAddressRangeGroup) (address : Nat) : Option Nat :=
  match FindNode g.tree_ address with
  | none => none
  | some (_, _, embedding_object) => some embedding_object

/-- The number of ranges of the group that are active. -/
def activeCount (g : VAddressRangeGroup) : Nat :=
  g.vaddr_range_list_.countP (fun r => r.is_active_)

/-- The block `[address, address + RoundUpToPageSize size)` is one that
`posix_memalign` can return: it is not at 0, it ends below `2^64`, and it
meets no block of an active range. -/
def Fresh (g : VAddressRangeGroup) (address size : Nat) : Prop :=
  0 < address ∧ address + RoundUpToPageSize size < 2 ^ 64 ∧
    ∀ r ∈ g.vaddr_range_list_, r.is_active_ = true →
      r.address_ + r.size_ ≤ address ∨ address + RoundUpToPageSize size ≤ r.address_

/-- The states of a group after `Init` and any calls of
`AllocateVAddressRange` (both overloads) and `ReleaseVAddressRange` that
return, when `posix_memalign` returns fresh blocks. -/
inductive Reachable : VAddressRangeGroup → Prop
  | init : Reachable (Init new).2
  | allocate (g g1 : VAddressRangeGroup) (address size : Nat) (p : Option Nat) :
      Reachable g → Fresh g address size →
      g.AllocateVAddressRange address size = some (p, g1) → Reachable g1
  | allocateFile (g g1 : VAddressRangeGroup) (disk disk1 : List HddFile)
      (address size file hdd_file_offset : Nat) (p : Option Nat) :
      Reachable g → Fresh g address size →
      g.AllocateVAddressRangeFile disk address size file hdd_file_offset = some (p, g1, disk1) →
      Reachable g1
  | release (g g1 : VAddressRangeGroup) (vaddr_range : Nat) (b : Bool) :
      Reachable g → g.ReleaseVAddressRange vaddr_range = some (b, g1) → Reachable g1

/-- The facts that hold of a group in every state that can be reached. -/
structure Inv (g : VAddressRangeGroup) : Prop where
  list_length : g.vaddr_range_list_.length = MAX_VIRTUAL_ADDRESS_RANGES
  bitmap_length : g.vaddr_range_bitmap_.length = MAX_VIRTUAL_ADDRESS_RANGES
  total : g.total_vaddr_ranges_ = INVALID_VADDRESS_RANGE_ID
  ids : ∀ i r, g.vaddr_range_list_[i]? = some r →
    r.vaddress_range_id_ = i ∧ g.vaddr_range_bitmap_[i]? = some (!r.is_active_) ∧
      (r.is_active_ = true → i < INVALID_VADDRESS_RANGE_ID ∧ 1 ≤ r.size_ ∧ 0 < r.address_ ∧
        r.address_ + r.size_ < 2 ^ 64)
  free : g.free_vaddr_ranges_ + g.activeCount = INVALID_VADDRESS_RANGE_ID
  inuse : g.inuse_vaddr_ranges_ = g.activeCount
  num_nodes : g.tree_.num_nodes = g.activeCount
  tree_length : (AVLNode.toList g.tree_.tree).length = g.activeCount
  isAvl : AVLNode.IsAvl g.tree_.tree
  ordered : AVLNode.Ordered g.tree_.tree
  nodes : ∀ e, e ∈ AVLNode.toList g.tree_.tree ↔
    ∃ r, g.vaddr_range_list_[e.2.2]? = some r ∧ r.is_active_ = true ∧ r.address_ = e.1 ∧
      r.size_ = e.2.1

end VAddressRangeGroup

end Registry

/-! ## The interior counters of the page stats table as sums -/

namespace PageStatsTable

/-- The sum of the leaf counters of the pages of the table that `keep`
selects. -/
def sumCounts (t : PageStatsTable) (keep : Nat → Bool) : Nat :=
  (((List.range t.total_pages_).filter keep).map (fun q => wordAt t.pte_entries_ q)).sum

/-- What the class comment of `PageStatsTable` says of the interior counters:
for every page, the PMD entry that encloses it (`PMDAccessCount`) is the sum of
the leaf counters of the pages of the same PTE node, and the PGD entry that
encloses it (`PGDAccessCount`) is the sum of the leaf counters of the pages of
the same PMD node. -/
def EntriesAreSums (t : PageStatsTable) : Prop :=
  ∀ p, p < t.total_pages_ →
    t.PMDAccessCount p =
      some (t.sumCounts (fun q => q >>> t.pte_bits_ == p >>> t.pte_bits_)) ∧
    t.PGDAccessCount p =
      some (t.sumCounts (fun q =>
        q >>> (t.pte_bits_ + t.pmd_bits_) == p >>> (t.pte_bits_ + t.pmd_bits_)))

/-- The tables over `N` pages that calls of `IncreaseAccessCount` and of
`FindPagesWithMinCount` lead to from `Init` when no call finds a counter at its
limit, so that `ShiftRight` never runs: each `IncreaseAccessCount(p, delta)` has
`delta ≤ 255` and leaves the three counters of `p` within their limits, and
each `FindPagesWithMinCount(k)` finds every leaf counter below 255 and every
interior counter at `65535 - k` at most. -/
inductive NoDecayReachable (N : Nat) : PageStatsTable → Prop
  | init (name : String) (t : PageStatsTable) (h : Init name N = some t) : NoDecayReachable N t
  | increase (t t1 : PageStatsTable) (p delta a m g : Nat) (h : NoDecayReachable N t)
      (hd : delta ≤ 255) (ha : t.AccessCount p = some a) (hm : t.PMDAccessCount p = some m)
      (hg : t.PGDAccessCount p = some g) (h1 : a + delta ≤ 255) (h2 : m + delta ≤ 65535)
      (h3 : g + delta ≤ 65535) (hs : t.IncreaseAccessCount p delta = some t1) :
      NoDecayReachable N t1
  | find (t t1 : PageStatsTable) (k n : Nat) (pages : List Nat) (h : NoDecayReachable N t)
      (h1 : ∀ i, wordAt t.pte_entries_ i + 1 ≤ 255)
      (h2 : ∀ i, wordAt t.pgd_pmd_entries_ i + k ≤ 65535)
      (hs : t.FindPagesWithMinCount k = some (n, pages, t1)) : NoDecayReachable N t1

/-- The table that `Init("pg-stats-table", 3)` returns, with the content `pe`
of the leaf counters and `en` of the interior counters. -/
def table3 (pe en : List Nat) : PageStatsTable :=
  { pgd_pmd_entries_ := en, pte_entries_ := pe, ready_ := true,
    pgd_bits_ := 0, pmd_bits_ := 0, pte_bits_ := 12, pgd_mask_ := 0, pmd_mask_ := 0,
    pte_mask_ := 4095,
    pgd_ := { entries_ := 0, number_entries_ := 1, entry_value_limit_ := 65535,
              last_entry_needs_compensation_ := true,
              last_entry_compensation_ :=
                    Binary64.div (Binary64.ofNat 4096) (Binary64.ofNat 3) },
    pmds_ := [{ entries_ := 1, number_entries_ := 1, entry_value_limit_ := 65535,
                last_entry_needs_compensation_ := true,
                last_entry_compensation_ :=
                    Binary64.div (Binary64.ofNat 4096) (Binary64.ofNat 3) }],
    number_pmd_nodes_ := 1, number_pgd_pmd_entries_ := 2,
    ptes_ := [{ entries_ := 0, number_entries_ := 3, entry_value_limit_ := 255,
                last_entry_needs_compensation_ := false,
                last_entry_compensation_ := Binary64.ofNat 1 }],
    number_pte_nodes_ := 1, total_pages_ := 3, name_ := "pg-stats-table" }

end PageStatsTable

/-! ## Vocabulary for stating properties of the tiers -/

/-- A relation between two cells of an array: both are there and related, or
both are outside the array. -/
def OptRel {α : Type} (R : α → α → Prop) : Option α → Option α → Prop
  | some a, some b => R a b
  | none, none => True
  | _, _ => False

namespace V2HMapMetadata

/-- P2 of the specification for one record: the dirty flag of a tier is set
only when the page is in that tier. -/
def DirtyOK (v : V2HMapMetadata) : Prop :=
  (v.dirty_page_cache = true → v.exist_page_cache = true) ∧
    (v.dirty_ram_cache = true → v.exist_ram_cache = true) ∧
    (v.dirty_flash_cache = true → v.exist_flash_cache = true)

end V2HMapMetadata

namespace VAddressRange

/-- What a call into the tiers may change of a range: the content of its V2H
records, as `R` allows, and the protection and content of its pages. -/
def Rel (R : V2HMapMetadata → V2HMapMetadata → Prop) (r r1 : VAddressRange) : Prop :=
  r1 = { r with v2h_map_ := r1.v2h_map_, memory := r1.memory } ∧
    r1.memory.length = r.memory.length ∧
    ∀ j : Nat, OptRel R r.v2h_map_[j]? r1.v2h_map_[j]?

end VAddressRange

namespace System

/-- Every range of the group has its index in `vaddr_range_list_` as
identifier, as `VAddressRangeGroup::Init` sets it. -/
def WellIndexed (s : System) : Prop :=
  ∀ (i : Nat) (r : VAddressRange),
    s.vaddr_range_group.vaddr_range_list_[i]? = some r → r.vaddress_range_id_ = i

/-- What a call into the tiers leaves of the state: the number of tiers, each
tier up to `H`, the group of ranges apart from the records and the pages of
each range, and each V2H record up to `R`.  (Nothing is said of the files.) -/
structure Frame (R : V2HMapMetadata → V2HMapMetadata → Prop)
    (H : HybridMemory → HybridMemory → Prop) (s s1 : System) : Prop where
  number : s1.number_hmem_instances_ = s.number_hmem_instances_
  tiers : ∀ k : Nat, OptRel H s.hmem_instances_[k]? s1.hmem_instances_[k]?
  group : s1.vaddr_range_group =
    { s.vaddr_range_group with vaddr_range_list_ := s1.vaddr_range_group.vaddr_range_list_ }
  ranges : ∀ i : Nat, OptRel (VAddressRange.Rel R) s.vaddr_range_group.vaddr_range_list_[i]?
    s1.vaddr_range_group.vaddr_range_list_[i]?

/-- The writes of the flash cache: `R` relates a record to what
`FlashCache::AddPage`, `FlashCache::EvictItems` and `FlashCache::MigrateToHDD`
make of it, and `H` relates a tier to itself after a change of its flash cache
or a move of an item to the head of the LRU list of its RAM cache. -/
structure FlashOK (R : V2HMapMetadata → V2HMapMetadata → Prop)
    (H : HybridMemory → HybridMemory → Prop) : Prop where
  r_refl : ∀ v, R v v
  r_trans : ∀ a b c, R a b → R b c → R a c
  h_refl : ∀ hm, H hm hm
  h_trans : ∀ a b c, H a b → H b c → H a c
  r_flash_add : ∀ (v : V2HMapMetadata) (b : Bool) (n : Nat),
    R v { v with exist_flash_cache := true, dirty_flash_cache := b, flash_page_offset := n }
  r_flash_clear : ∀ (v : V2HMapMetadata),
    R v { v with dirty_flash_cache := false, exist_flash_cache := false }
  r_migrate : ∀ (v : V2HMapMetadata),
    R v { v with dirty_flash_cache := false, exist_flash_cache := false, exist_hdd_file := true }
  h_flash : ∀ (hm : HybridMemory) (fc : FlashCache), H hm { hm with flash_cache_ := fc }
  h_lru : ∀ (hm : HybridMemory) (x : Nat) (rc1 : RAMCache), hm.ram_cache_.Update x = some rc1 →
    H hm { hm with ram_cache_ := rc1 }

/-- The writes of the RAM cache and of the flash cache. -/
structure RamOK (R : V2HMapMetadata → V2HMapMetadata → Prop)
    (H : HybridMemory → HybridMemory → Prop) extends FlashOK R H : Prop where
  r_ram_add : ∀ (v : V2HMapMetadata) (b : Bool),
    R v { v with exist_ram_cache := true, dirty_ram_cache := b }
  r_ram_clear : ∀ (v : V2HMapMetadata),
    R v { v with exist_ram_cache := false, dirty_ram_cache := false }
  r_ram_dirty : ∀ (v : V2HMapMetadata), v.exist_ram_cache = true →
    R v { v with dirty_ram_cache := true }
  h_ram : ∀ (hm : HybridMemory) (rc : RAMCache), H hm { hm with ram_cache_ := rc }

/-- The writes of the fault handler and of the three caches. -/
structure PageOK (R : V2HMapMetadata → V2HMapMetadata → Prop)
    (H : HybridMemory → HybridMemory → Prop) extends RamOK R H : Prop where
  r_page_add : ∀ (v : V2HMapMetadata) (b : Bool),
    R v { v with exist_page_cache := true, dirty_page_cache := b }
  r_page_clear : ∀ (v : V2HMapMetadata),
    R v { v with exist_page_cache := false, dirty_page_cache := false }
  r_page_dirty : ∀ (v : V2HMapMetadata), v.exist_page_cache = true →
    R v { v with dirty_page_cache := true }
  h_page : ∀ (hm : HybridMemory) (pc : PageCache), H hm { hm with page_cache_ := pc }

end System

namespace System

/-- One call of the fault handler or of an operation of the three caches, with
any arguments, that returns.  `sortTies` is not a call: it is the choice of the
library for the order of equal entries in the coming sorts of the page stats
table of a flash cache. -/
inductive TierStep : System → System → Prop
  | fault (s s1 : System) (fault_address : Nat) (rwerror : Bool) :
    s.SigSegvAction fault_address rwerror = some s1 → TierStep s s1
  | pageAdd (s s1 : System) (h page size : Nat) (is_dirty : Bool) (v2hmap : Nat × Nat)
    (vaddr_range_id : Nat) (b : Bool) :
    PageCache.AddPage s h page size is_dirty v2hmap vaddr_range_id = some (b, s1) → TierStep s s1
  | pageEvict (s s1 : System) (h n : Nat) :
    PageCache.EvictItems s h = some (n, s1) → TierStep s s1
  | ramAdd (s s1 : System) (h page obj_size : Nat) (is_dirty : Bool) (v2hmap : Nat × Nat)
    (vaddress_range_id : Nat) (b : Bool) :
    RAMCache.AddPage s h page obj_size is_dirty v2hmap vaddress_range_id = some (b, s1) →
    TierStep s s1
  | ramRemove (s s1 : System) (h ram_cache_item : Nat) :
    RAMCache.Remove s h ram_cache_item = some s1 → TierStep s s1
  | ramEvict (s s1 : System) (h n : Nat) :
    RAMCache.EvictItems s h = some (n, s1) → TierStep s s1
  | flashAdd (s s1 : System) (h data obj_size : Nat) (is_dirty : Bool) (v2hmap : Nat × Nat)
    (vaddress_range_id vaddress_page_offset : Nat) (b : Bool) :
    FlashCache.AddPage s h data obj_size is_dirty v2hmap vaddress_range_id
      vaddress_page_offset = some (b, s1) → TierStep s s1
  | flashEvict (s s1 : System) (h pages_to_evict n : Nat) :
    FlashCache.EvictItems s h pages_to_evict = some (n, s1) → TierStep s s1
  | migrate (s s1 : System) (h : Nat) (flash_pages_writeto_hdd : List Nat) (n : Nat) :
    FlashCache.MigrateToHDD s h flash_pages_writeto_hdd = some (n, s1) → TierStep s s1
  | sortTies (s s1 : System) (h : Nat) (hm : HybridMemory) (ties : List (List Nat)) :
    s.hmem h = some hm →
    s1 = s.setHmem h { hm with flash_cache_ := { hm.flash_cache_ with
      page_stats_table_ := { hm.flash_cache_.page_stats_table_ with sort_ties_ := ties } } } →
    TierStep s s1

/-- The states that the library reaches: `InitHybridMemory`, then calls of
`hmem_map`, which gives every page of the new range a zeroed V2H record (with
`exist_hdd_file` for the pages that the file holds), and calls of the fault
handler and of the operations of the caches. -/
inductive TierReachable : System → Prop
  | init (disk : List HddFile) (page_buffer_size ram_buffer_size ssd_buffer_size
      number_hmem_instance : Nat) (s : System) :
    InitHybridMemory disk page_buffer_size ram_buffer_size ssd_buffer_size
      number_hmem_instance = some s → TierReachable s
  | map (s s1 : System) (address size file hdd_file_offset a : Nat) :
    TierReachable s → s.hmem_map address size file hdd_file_offset = some (a, s1) →
    TierReachable s1
  | step (s s1 : System) : TierReachable s → TierStep s s1 → TierReachable s1

/-- The counters `found_pages` and `unfound_pages` of hybrid_memory_lib.cc. -/
structure FaultCounters where
  found_pages : Nat
  unfound_pages : Nat
  deriving DecidableEq, Repr

/-- The statement of `SigSegvAction` that counts the fault, given what
`LoadDataFromHybridMemory` returned; the counters are of 64 bits. -/
def FaultCounters.count (c : FaultCounters) (loaded : Bool) : FaultCounters :=
  if loaded == false then { c with unfound_pages := (c.unfound_pages + 1) % 2 ^ 64 }
  else { c with found_pages := (c.found_pages + 1) % 2 ^ 64 }

end System

namespace PageCache

/-- The body of the loop of `PageCache::EvictItems` for the entry `front` at
the head of the queue `front :: rest` of the tier `hm`. -/
def evictTurn (h front : Nat) (rest : List Nat) (s : System) (hm : HybridMemory) :
    Option System := do
  let olditem ← hm.page_cache_.items[front]?
  let s1 := s.setHmem h { hm with page_cache_ := { hm.page_cache_ with queue_ := rest } }
  let v ← s1.v2h olditem.v2hmap
  let (_, s2) ← RAMCache.AddPage s1 h olditem.page olditem.size v.dirty_page_cache
    olditem.v2hmap olditem.vaddr_range_id
  let s3 ← s2.setV2h olditem.v2hmap (fun v =>
    { v with exist_page_cache := false, dirty_page_cache := false })
  let s4 ← s3.madvise olditem.page
  let s5 ← s4.mprotect olditem.page PROT_NONE
  let hm5 ← s5.hmem h
  some (s5.setHmem h { hm5 with
    page_cache_ := { hm5.page_cache_ with
      item_list_ := hm5.page_cache_.item_list_.Free front } })

end PageCache

namespace HybridMemory

/-- Two states of a tier with the same size of page cache and as many entries
in the queue and in the free list of the page cache, taken together. -/
def SameCount (hm hm1 : HybridMemory) : Prop :=
  hm1.page_cache_.queue_.length + hm1.page_cache_.item_list_.list_.length =
      hm.page_cache_.queue_.length + hm.page_cache_.item_list_.list_.length ∧
    hm1.page_cache_.max_cache_size_ = hm.page_cache_.max_cache_size_ ∧
    hm1.page_buffer_size_ = hm.page_buffer_size_

end HybridMemory

namespace System

end System

namespace RAMCache

/-- Two states of a RAM cache that differ in the order of the LRU list at
most. -/
def SameItems (rc rc1 : RAMCache) : Prop :=
  rc1 = { rc with lru_list_ := rc1.lru_list_ }

end RAMCache

/-! ## The eviction of the flash cache

What `FlashCache::EvictItems` may change, as a relation `R` between the old and
the new value of a V2H record and a relation `H` between the old and the new
state of a tier. -/

namespace System

end System

/-! ## The structure of the RAM cache -/

/-! ## The structure of the RAM cache

P4 of the specification, and what the statements that remove an entry make of a
RAM cache. -/

namespace RAMCache

/-- P4 of the specification for one RAM cache: the entries of the hash table
are the entries of the LRU list and the items that are not in the free list,
without repetition, and no two entries of the hash table have the same key. -/
structure WellFormed (rc : RAMCache) : Prop where
  lru_nodup : rc.lru_list_.Nodup
  chain_nodup : rc.hash_table_.chain.Nodup
  chain_lru : ∀ i, i ∈ rc.hash_table_.chain ↔ i ∈ rc.lru_list_
  free_nodup : rc.free_list_.list_.Nodup
  free_lru : ∀ i, i ∈ rc.free_list_.list_ ↔ i < rc.items.length ∧ i ∉ rc.lru_list_
  lru_bound : ∀ i, i ∈ rc.lru_list_ → i < rc.items.length
  keys : ∀ (i j : Nat) (it jt : RAMCacheItem), i ∈ rc.hash_table_.chain →
    j ∈ rc.hash_table_.chain → rc.items[i]? = some it → rc.items[j]? = some jt →
    it.hash_key = jt.hash_key → i = j

/-- Two states of a RAM cache with the same entries, the LRU list of one being
a reordering of the LRU list of the other. -/
def SameLru (rc rc1 : RAMCache) : Prop :=
  rc1 = { rc with lru_list_ := rc1.lru_list_ } ∧ rc1.lru_list_.Perm rc.lru_list_

/-- The RAM cache after the statements of `RAMCache::Remove`, which are also
the end of a turn of the second loop of `RAMCache::EvictItems`, for the entry
`item` with the content `it`: the entry is unlinked from the LRU list, taken
out of the hash table, cleared and put on the free list. -/
def release (rc : RAMCache) (item : Nat) (it : RAMCacheItem) : RAMCache :=
  { rc with
    lru_list_ := rc.lru_list_.erase item,
    hash_table_ := { rc.hash_table_ with chain := rc.hash_table_.chain.erase item },
    items := rc.items.set item { it with v2hmap := none, hash_key := 0 },
    free_list_ := rc.free_list_.Free item }

/-- One turn of the second loop of `RAMCache::EvictItems`, for the entry
`item`. -/
def evictTurn (h item : Nat) (s : System) : Option System := do
  let hm ← s.hmem h
  let it ← hm.ram_cache_.items[item]?
  let v2hmap ← it.v2hmap
  let v ← s.v2h v2hmap
  let s1 ←
    if !v.exist_flash_cache || v.dirty_ram_cache then
      (FlashCache.AddPage s h it.data PAGE_SIZE v.dirty_ram_cache v2hmap
        it.vaddress_range_id it.hash_key).map (·.2)
    else some s
  let hm1 ← s1.hmem h
  let rc1 ← hm1.ram_cache_.Unlink item
  let (_, rc2) ← rc1.hashRemove it.hash_key
  let s2 ← (s1.setHmem h { hm1 with ram_cache_ := rc2 }).setV2h v2hmap (fun v =>
    { v with exist_ram_cache := false, dirty_ram_cache := false })
  let hm2 ← s2.hmem h
  let rc3 := hm2.ram_cache_
  let it3 ← rc3.items[item]?
  some (s2.setHmem h { hm2 with
    ram_cache_ := { rc3 with
      items := rc3.items.set item { it3 with v2hmap := none, hash_key := 0 },
      free_list_ := rc3.free_list_.Free item } })

/-- Whether the record of the entry `item` has `exist_page_cache == 0`, as the
first loop of `RAMCache::EvictItems` reads it. -/
def notInPageCache (s : System) (rc : RAMCache) (item : Nat) : Bool :=
  match rc.items[item]? with
  | some it =>
    match it.v2hmap with
    | some v2hmap =>
      match s.v2h v2hmap with
      | some v => !v.exist_page_cache
      | none => false
    | none => false
  | none => false

/-- A RAM cache after evictions: the entries of the hash table of `rc1` are
entries of the hash table of `rc`, with the same content. -/
def Shrunk (rc rc1 : RAMCache) : Prop :=
  rc1.hash_table_.number_buckets_ = rc.hash_table_.number_buckets_ ∧
    ∀ i, i ∈ rc1.hash_table_.chain → i ∈ rc.hash_table_.chain ∧ rc1.items[i]? = rc.items[i]?

end RAMCache

namespace System

/-- P4 of the specification for the RAM cache of every tier. -/
def RamWellFormed (s : System) : Prop :=
  ∀ (h : Nat) (hm : HybridMemory), s.hmem h = some hm → hm.ram_cache_.WellFormed

end System

namespace HybridMemory

/-- Two states of a tier with the same page cache and the same RAM cache up to
the order of its LRU list. -/
def SameUpper (hm hm1 : HybridMemory) : Prop :=
  hm1.page_cache_ = hm.page_cache_ ∧ hm.ram_cache_.SameLru hm1.ram_cache_

/-- Two states of a tier, the second with a RAM cache that has the structure of
P4 if the first has. -/
def RamKept (hm hm1 : HybridMemory) : Prop :=
  hm.ram_cache_.WellFormed → hm1.ram_cache_.WellFormed

end HybridMemory

namespace V2HMapMetadata

/-- Two values of a record with the same flags of the page cache and of the RAM
cache. -/
def SameUpper (v v1 : V2HMapMetadata) : Prop :=
  v1.exist_page_cache = v.exist_page_cache ∧ v1.dirty_page_cache = v.dirty_page_cache ∧
    v1.exist_ram_cache = v.exist_ram_cache ∧ v1.dirty_ram_cache = v.dirty_ram_cache

/-- Any two values of a record. -/
def AnyChange (_ _ : V2HMapMetadata) : Prop := True

/-- Two values of a record with the same flags of the page cache, the second
with the flags of the RAM cache as in the first or both cleared. -/
def RamDropped (v v1 : V2HMapMetadata) : Prop :=
  v1.exist_page_cache = v.exist_page_cache ∧ v1.dirty_page_cache = v.dirty_page_cache ∧
    ((v1.exist_ram_cache = v.exist_ram_cache ∧ v1.dirty_ram_cache = v.dirty_ram_cache) ∨
      (v1.exist_ram_cache = false ∧ v1.dirty_ram_cache = false))

end V2HMapMetadata

/-! ## The entries of the caches and the records of their pages -/

/-! ## The entries of the caches and the records of their pages

P4 of the specification with the flags of the records, for the states that the
library reaches when the caches get the arguments that the library gives
them. -/

namespace V2HMapMetadata

/-- Two values of a record with the same `exist_ram_cache`. -/
def SameRam (v v1 : V2HMapMetadata) : Prop :=
  v1.exist_ram_cache = v.exist_ram_cache

end V2HMapMetadata

namespace RAMCache

/-- The RAM cache after the statements of `RAMCache::AddPage` for a page that
the hash table has not: the last item of the free list is taken, gets the
content `new`, and enters the hash table and the head of the LRU list. -/
def enter (rc : RAMCache) (item : Nat) (new : RAMCacheItem) : RAMCache :=
  { rc with
    lru_list_ := item :: rc.lru_list_,
    hash_table_ := { rc.hash_table_ with
      chain := item :: rc.hash_table_.chain,
      number_objects_ := rc.hash_table_.number_objects_ + 1 },
    free_list_ := { rc.free_list_ with list_ := rc.free_list_.list_.dropLast },
    items := rc.items.set item new }

end RAMCache

namespace HybridMemory

/-- Two states of a tier with the same RAM cache up to the order of its LRU
list. -/
def SameRam (hm hm1 : HybridMemory) : Prop := hm.ram_cache_.SameLru hm1.ram_cache_

/-- Two states of a tier, the second with the items of the page cache of the
first and with entries of the queue of the first in its queue. -/
def PageKept (hm hm1 : HybridMemory) : Prop :=
  hm1.page_cache_.items = hm.page_cache_.items ∧
    ∀ x, x ∈ hm1.page_cache_.queue_ → x ∈ hm.page_cache_.queue_

end HybridMemory

namespace System

/-- The arguments that the library gives to a cache for one page: `v2hmap`
points to the record of the page at `page` in its range, and `h` is the tier
that `GetHybridMemory` gives for the offset of the page in the range. -/
def OwnRecord (s : System) (h page : Nat) (v2hmap : Nat × Nat) : Prop :=
  ∃ r, s.vaddr_range_group.vaddr_range_list_[v2hmap.1]? = some r ∧
    page = r.address_ + v2hmap.2 * PAGE_SIZE ∧
    s.GetHybridMemory (v2hmap.2 * PAGE_SIZE) = some h

/-- Every entry of the LRU list of a RAM cache holds a page with its own
record, in the tier of the page, and the record has `exist_ram_cache`. -/
def RamEntries (s : System) : Prop :=
  ∀ (h : Nat) (hm : HybridMemory) (i : Nat), s.hmem h = some hm →
    i ∈ hm.ram_cache_.lru_list_ →
    ∃ (it : RAMCacheItem) (ref : Nat × Nat) (v : V2HMapMetadata),
      hm.ram_cache_.items[i]? = some it ∧ it.v2hmap = some ref ∧
      s.OwnRecord h it.hash_key ref ∧ s.v2h ref = some v ∧ v.exist_ram_cache = true

/-- Every record with `exist_ram_cache` is the record of an entry of the LRU
list of a RAM cache. -/
def RamComplete (s : System) : Prop :=
  ∀ (ref : Nat × Nat) (v : V2HMapMetadata), s.v2h ref = some v → v.exist_ram_cache = true →
    ∃ (h : Nat) (hm : HybridMemory) (i : Nat) (it : RAMCacheItem), s.hmem h = some hm ∧
      i ∈ hm.ram_cache_.lru_list_ ∧ hm.ram_cache_.items[i]? = some it ∧ it.v2hmap = some ref

/-- Every entry of the queue of a page cache holds a page with its own record,
in the tier of the page. -/
def PageEntries (s : System) : Prop :=
  ∀ (h : Nat) (hm : HybridMemory) (front : Nat), s.hmem h = some hm →
    front ∈ hm.page_cache_.queue_ →
    ∃ (olditem : PageCacheItem) (v : V2HMapMetadata),
      hm.page_cache_.items[front]? = some olditem ∧
      s.OwnRecord h olditem.page olditem.v2hmap ∧ s.v2h olditem.v2hmap = some v

/-- Every range starts at the start of a page. -/
def Aligned (s : System) : Prop :=
  ∀ (i : Nat) (r : VAddressRange), s.vaddr_range_group.vaddr_range_list_[i]? = some r →
    r.address_ % PAGE_SIZE = 0

/-- A range that is not active has no records. -/
def InactiveEmpty (s : System) : Prop :=
  ∀ (i : Nat) (r : VAddressRange), s.vaddr_range_group.vaddr_range_list_[i]? = some r →
    r.is_active_ = false → r.v2h_map_ = []

/-- The RAM caches agree with the records: P4 of the specification for every
tier, every entry with its own record and `exist_ram_cache`, and every record
with `exist_ram_cache` in an entry. -/
structure RamConsistent (s : System) : Prop where
  wellIndexed : s.WellIndexed
  wellFormed : s.RamWellFormed
  entries : s.RamEntries
  complete : s.RamComplete
  aligned : s.Aligned
  inactive : s.InactiveEmpty

/-- The states that the library reaches when the caches get the arguments that
the library gives them: `InitHybridMemory`, calls of `hmem_map` for memory that
starts at the start of a page, calls of the fault handler, calls of
`RAMCache::AddPage` for a page with its own record and tier, and calls of
`PageCache::EvictItems`, `RAMCache::GetItem`, `RAMCache::Remove`,
`RAMCache::EvictItems` and `FlashCache::EvictItems`.  `sortTies` is not a call:
it is the choice of the library for the order of equal entries in the coming
sorts of the page stats table of a flash cache. -/
inductive CallReachable : System → Prop
  | init (disk : List HddFile) (page_buffer_size ram_buffer_size ssd_buffer_size
      number_hmem_instance : Nat) (s : System) :
    InitHybridMemory disk page_buffer_size ram_buffer_size ssd_buffer_size
      number_hmem_instance = some s → CallReachable s
  | map (s s1 : System) (address size file hdd_file_offset a : Nat) :
    CallReachable s → address % PAGE_SIZE = 0 →
    s.hmem_map address size file hdd_file_offset = some (a, s1) → CallReachable s1
  | fault (s s1 : System) (fault_address : Nat) (rwerror : Bool) :
    CallReachable s → s.SigSegvAction fault_address rwerror = some s1 → CallReachable s1
  | pageEvict (s s1 : System) (h n : Nat) :
    CallReachable s → PageCache.EvictItems s h = some (n, s1) → CallReachable s1
  | ramAdd (s s1 : System) (h page obj_size : Nat) (is_dirty : Bool) (v2hmap : Nat × Nat)
    (vaddress_range_id : Nat) (b : Bool) :
    CallReachable s → s.OwnRecord h page v2hmap →
    RAMCache.AddPage s h page obj_size is_dirty v2hmap vaddress_range_id = some (b, s1) →
    CallReachable s1
  | ramGet (s : System) (h : Nat) (hm : HybridMemory) (virtual_address item : Nat)
    (rc1 : RAMCache) :
    CallReachable s → s.hmem h = some hm →
    hm.ram_cache_.GetItem virtual_address = some (item, rc1) →
    CallReachable (s.setHmem h { hm with ram_cache_ := rc1 })
  | ramRemove (s s1 : System) (h ram_cache_item : Nat) :
    CallReachable s → RAMCache.Remove s h ram_cache_item = some s1 → CallReachable s1
  | ramEvict (s s1 : System) (h n : Nat) :
    CallReachable s → RAMCache.EvictItems s h = some (n, s1) → CallReachable s1
  | flashEvict (s s1 : System) (h pages_to_evict n : Nat) :
    CallReachable s → FlashCache.EvictItems s h pages_to_evict = some (n, s1) →
    CallReachable s1
  | sortTies (s : System) (h : Nat) (hm : HybridMemory) (ties : List (List Nat)) :
    CallReachable s → s.hmem h = some hm →
    CallReachable (s.setHmem h { hm with flash_cache_ := { hm.flash_cache_ with
      page_stats_table_ := { hm.flash_cache_.page_stats_table_ with sort_ties_ := ties } } })

end System

/-! # Theorems -/

/-! ## bitmap.h -/

theorem ffsllAux_spec (x : Nat) : ∀ (fuel k : Nat),
    (ffsllAux x fuel k = 0 ∧ ∀ j, k ≤ j → j < k + fuel → x.testBit j = false) ∨
    (k < ffsllAux x fuel k ∧ ffsllAux x fuel k ≤ k + fuel ∧
      x.testBit (ffsllAux x fuel k - 1) = true ∧
      ∀ j, k ≤ j → j < ffsllAux x fuel k - 1 → x.testBit j = false) := by
  intro fuel
  induction fuel with
  | zero =>
    intro k
    left
    refine ⟨rfl, ?_⟩
    intro j h1 h2
    omega
  | succ n ih =>
    intro k
    by_cases hb : x.testBit k = true
    · right
      simp only [ffsllAux, hb, if_true]
      refine ⟨by omega, by omega, by simpa using hb, ?_⟩
      intro j h1 h2
      omega
    · have hb' : x.testBit k = false := by simpa using hb
      simp only [ffsllAux, hb', Bool.false_eq_true, if_false]
      rcases ih (k + 1) with ⟨h0, hall⟩ | ⟨h1, h2, h3, h4⟩
      · left
        refine ⟨h0, ?_⟩
        intro j hj1 hj2
        by_cases hjk : j = k
        · subst hjk; exact hb'
        · exact hall j (by omega) (by omega)
      · right
        refine ⟨by omega, by omega, h3, ?_⟩
        intro j hj1 hj2
        by_cases hjk : j = k
        · subst hjk; exact hb'
        · exact h4 j (by omega) hj2

theorem ffsll_spec (x : Nat) :
    (ffsll x = 0 ∧ ∀ j, j < 64 → x.testBit j = false) ∨
    (0 < ffsll x ∧ ffsll x ≤ 64 ∧ x.testBit (ffsll x - 1) = true ∧
      ∀ j, j < ffsll x - 1 → x.testBit j = false) := by
  unfold ffsll
  rcases ffsllAux_spec x 64 0 with ⟨h0, hall⟩ | ⟨h1, h2, h3, h4⟩
  · left
    exact ⟨h0, fun j hj => hall j (Nat.zero_le _) (by omega)⟩
  · right
    exact ⟨h1, by omega, h3, fun j hj => h4 j (Nat.zero_le _) hj⟩

theorem and_one_shiftLeft_ne_zero (w k : Nat) :
    (w &&& (1 <<< k) ≠ 0) ↔ w.testBit k = true := by
  rw [Nat.one_shiftLeft, Nat.and_two_pow]
  cases h : w.testBit k
  · simp
  · simp

theorem testBit_notBit (k j : Nat) (hk : k < 64) :
    (Bitmap.notBit k).testBit j = (decide (j < 64) && !decide (k = j)) := by
  unfold Bitmap.notBit
  rw [Nat.one_shiftLeft]
  have h : 2 ^ k < 2 ^ 64 := Nat.pow_lt_pow_right (by decide) hk
  have e : 2 ^ 64 - 1 - 2 ^ k = 2 ^ 64 - (2 ^ k + 1) := by omega
  rw [e, Nat.testBit_two_pow_sub_succ h, Nat.testBit_two_pow]

theorem wordAt_set_eq (l : List Nat) (i v : Nat) (h : i < l.length) :
    wordAt (l.set i v) i = v := by
  simp [wordAt, List.getD_eq_getElem?_getD, List.getElem?_set, h]

theorem wordAt_set_ne (l : List Nat) (i j v : Nat) (h : i ≠ j) :
    wordAt (l.set i v) j = wordAt l j := by
  simp [wordAt, List.getD_eq_getElem?_getD, List.getElem?_set, h]

theorem wordAt_of_length_le (l : List Nat) (i : Nat) (h : l.length ≤ i) :
    wordAt l i = 0 := by
  simp [wordAt, List.getD_eq_getElem?_getD, List.getElem?_eq_none h]

theorem set_of_length_le (l : List Nat) (i v : Nat) (h : l.length ≤ i) :
    l.set i v = l := by
  apply List.ext_getElem?
  intro j
  rw [List.getElem?_set]
  by_cases hij : i = j
  · subst hij
    simp [List.getElem?_eq_none h, Nat.not_lt.2 h]
  · simp [hij]

namespace Bitmap
variable {N : Nat}

theorem getRaw_eq (b : Bitmap N) (pos : Nat) :
    b.getRaw pos =
      if (wordAt b.map ((pos - 1) / 64)).testBit ((pos - 1) % 64) then 1 else 0 := by
  unfold getRaw
  by_cases h : (wordAt b.map ((pos - 1) / 64)).testBit ((pos - 1) % 64) = true
  · rw [if_pos ((and_one_shiftLeft_ne_zero _ _).2 h), if_pos h]
  · rw [if_neg (fun hh => h ((and_one_shiftLeft_ne_zero _ _).1 hh)), if_neg h]

theorem getRaw_zero_or_one (b : Bitmap N) (pos : Nat) :
    b.getRaw pos = 0 ∨ b.getRaw pos = 1 := by
  rw [getRaw_eq]; split <;> simp

theorem getRaw_clearRaw (b : Bitmap N) (p q : Nat) (hp : 1 ≤ p) (hq : 1 ≤ q) :
    (b.clearRaw p).getRaw q = if q = p then 0 else b.getRaw q := by
  have hk : (p - 1) % 64 < 64 := Nat.mod_lt _ (by decide)
  have hk2 : (q - 1) % 64 < 64 := Nat.mod_lt _ (by decide)
  by_cases hl : (p - 1) / 64 < b.map.length
  · by_cases hw : (p - 1) / 64 = (q - 1) / 64
    · rw [getRaw_eq, getRaw_eq]
      simp only [clearRaw]
      simp only [← hw, wordAt_set_eq _ _ _ hl, Nat.testBit_and, testBit_notBit _ _ hk]
      by_cases hqp : q = p
      · subst hqp
        simp
      · have hne : (p - 1) % 64 ≠ (q - 1) % 64 := by omega
        simp [hqp, hne, hk2]
    · have hqp : q ≠ p := by
        intro h; subst h; exact hw rfl
      rw [getRaw_eq, getRaw_eq]
      simp only [clearRaw]
      simp only [wordAt_set_ne _ _ _ _ hw, if_neg hqp]
  · have hsame : b.clearRaw p = b := by
      simp only [clearRaw]
      rw [set_of_length_le _ _ _ (by omega)]
    rw [hsame]
    by_cases hqp : q = p
    · subst hqp
      rw [if_pos rfl, getRaw_eq, wordAt_of_length_le _ _ (by omega)]
      simp
    · rw [if_neg hqp]

theorem getRaw_setRaw (b : Bitmap N) (p q : Nat) (hp : 1 ≤ p) (hq : 1 ≤ q)
    (hl : (p - 1) / 64 < b.map.length) :
    (b.setRaw p).getRaw q = if q = p then 1 else b.getRaw q := by
  by_cases hw : (p - 1) / 64 = (q - 1) / 64
  · rw [getRaw_eq, getRaw_eq]
    simp only [setRaw]
    simp only [← hw, wordAt_set_eq _ _ _ hl, Nat.testBit_or, Nat.one_shiftLeft,
      Nat.testBit_two_pow]
    by_cases hqp : q = p
    · subst hqp
      simp
    · have hne : (p - 1) % 64 ≠ (q - 1) % 64 := by omega
      simp [hqp, hne]
  · have hqp : q ≠ p := by
      intro h; subst h; exact hw rfl
    rw [getRaw_eq, getRaw_eq]
    simp only [setRaw]
    simp only [wordAt_set_ne _ _ _ _ hw, if_neg hqp]

/-- What the loop of `ffs` computes, started at word `i` with `todo` words left. -/
theorem ffsLoop_spec (b : Bitmap N) (toggle : Bool) : ∀ (todo i : Nat),
    ((b.ffsLoop toggle todo i).1 = 0 ∧ (b.ffsLoop toggle todo i).2 = b ∧
      ∀ q, i * 64 < q → q ≤ N → q ≤ (i + todo) * 64 → b.getRaw q = 0) ∨
    (i * 64 < (b.ffsLoop toggle todo i).1 ∧ (b.ffsLoop toggle todo i).1 ≤ N ∧
      (b.ffsLoop toggle todo i).1 ≤ (i + todo) * 64 ∧
      b.getRaw (b.ffsLoop toggle todo i).1 = 1 ∧
      (∀ q, i * 64 < q → q < (b.ffsLoop toggle todo i).1 → b.getRaw q = 0) ∧
      (b.ffsLoop toggle todo i).2 =
        if toggle then b.clearRaw (b.ffsLoop toggle todo i).1 else b) := by
  intro todo
  induction todo with
  | zero =>
    intro i
    left
    refine ⟨rfl, rfl, ?_⟩
    intro q h1 _ h3
    omega
  | succ n ih =>
    intro i
    rcases ffsll_spec (wordAt b.map i) with ⟨h0, hall⟩ | ⟨h1, h2, h3, h4⟩
    · -- the word is zero: go on with the next word
      have hstep : b.ffsLoop toggle (n + 1) i = b.ffsLoop toggle n (i + 1) := by
        simp only [ffsLoop, h0, gt_iff_lt, Nat.lt_irrefl, if_false]
      rw [hstep]
      have hword : ∀ q, i * 64 < q → q ≤ (i + 1) * 64 → b.getRaw q = 0 := by
        intro q hq1 hq2
        rw [getRaw_eq]
        have e1 : (q - 1) / 64 = i := by omega
        rw [e1, hall _ (Nat.mod_lt _ (by decide))]
        simp
      rcases ih (i + 1) with ⟨a1, a2, a3⟩ | ⟨c1, c2, c3, c4, c5, c6⟩
      · left
        refine ⟨a1, a2, ?_⟩
        intro q hq1 hq2 hq3
        by_cases hle : q ≤ (i + 1) * 64
        · exact hword q hq1 hle
        · exact a3 q (by omega) hq2 (by omega)
      · right
        refine ⟨by omega, c2, by omega, c4, ?_, c6⟩
        intro q hq1 hq2
        by_cases hle : q ≤ (i + 1) * 64
        · exact hword q hq1 hle
        · exact c5 q (by omega) hq2
    · -- the word has a set bit
      have hbelow : ∀ q, i * 64 < q → q < i * 64 + ffsll (wordAt b.map i) →
          b.getRaw q = 0 := by
        intro q hq1 hq2
        rw [getRaw_eq]
        have e1 : (q - 1) / 64 = i := by omega
        rw [e1, h4 _ (by omega)]
        simp
      by_cases hN : i * 64 + ffsll (wordAt b.map i) > N
      · left
        have hstep : b.ffsLoop toggle (n + 1) i = (0, b) := by
          simp only [ffsLoop, gt_iff_lt, h1, if_true, hN]
        rw [hstep]
        refine ⟨rfl, rfl, ?_⟩
        intro q hq1 hq2 _
        exact hbelow q hq1 (by omega)
      · right
        have hstep : b.ffsLoop toggle (n + 1) i =
            (i * 64 + ffsll (wordAt b.map i),
              if toggle then
                ⟨b.map.set i ((wordAt b.map i) &&& notBit (ffsll (wordAt b.map i) - 1))⟩
              else b) := by
          simp only [ffsLoop, gt_iff_lt, h1, if_true]
          rw [if_neg hN]
        rw [hstep]
        have e1 : (i * 64 + ffsll (wordAt b.map i) - 1) / 64 = i := by omega
        have e2 : (i * 64 + ffsll (wordAt b.map i) - 1) % 64 =
            ffsll (wordAt b.map i) - 1 := by omega
        refine ⟨?_, ?_, ?_, ?_, hbelow, ?_⟩
        · show i * 64 < i * 64 + ffsll (wordAt b.map i)
          omega
        · show i * 64 + ffsll (wordAt b.map i) ≤ N
          omega
        · show i * 64 + ffsll (wordAt b.map i) ≤ (i + (n + 1)) * 64
          omega
        · show b.getRaw (i * 64 + ffsll (wordAt b.map i)) = 1
          rw [getRaw_eq, e1, e2, h3]
          simp
        · simp only [clearRaw, e1, e2]

/-- The result of `ffs(toggle)` in terms of the raw bit test. -/
theorem ffs_spec (b : Bitmap N) (toggle : Bool) :
    ((b.ffs toggle).1 = 0 ∧ (b.ffs toggle).2 = b ∧
      ∀ q, 1 ≤ q → q ≤ N → b.getRaw q = 0) ∨
    (1 ≤ (b.ffs toggle).1 ∧ (b.ffs toggle).1 ≤ N ∧
      b.getRaw (b.ffs toggle).1 = 1 ∧
      (∀ q, 1 ≤ q → q < (b.ffs toggle).1 → b.getRaw q = 0) ∧
      (b.ffs toggle).2 = if toggle then b.clearRaw (b.ffs toggle).1 else b) := by
  unfold ffs
  rcases ffsLoop_spec b toggle ((N + 63) / 64) 0 with ⟨a1, a2, a3⟩ | ⟨c1, c2, _, c4, c5, c6⟩
  · left
    exact ⟨a1, a2, fun q h1 h2 => a3 q (by omega) h2 (by omega)⟩
  · right
    exact ⟨by omega, c2, c4, fun q h1 h2 => c5 q (by omega) h2, c6⟩

theorem get_of_range (b : Bitmap N) (q : Nat) (h1 : 1 ≤ q) (h2 : q ≤ N) :
    b.get q = some (b.getRaw q) := by
  unfold get
  rw [if_pos ⟨h1, h2⟩]

theorem ffs_fst_toggle (b : Bitmap N) (t1 t2 : Bool) : (b.ffs t1).1 = (b.ffs t2).1 := by
  rcases ffs_spec b t1 with ⟨a1, _, a3⟩ | ⟨c1, c2, c3, c4, _⟩
  · rcases ffs_spec b t2 with ⟨d1, _, _⟩ | ⟨e1, e2, e3, _, _⟩
    · rw [a1, d1]
    · have := a3 _ e1 e2
      omega
  · rcases ffs_spec b t2 with ⟨_, _, d3⟩ | ⟨e1, e2, e3, e4, _⟩
    · have := d3 _ c1 c2
      omega
    · by_contra hne
      rcases Nat.lt_or_gt_of_ne hne with h | h
      · have := e4 _ c1 h
        omega
      · have := c4 _ e1 h
        omega

end Bitmap

/-- C9: `Bitmap<N>::ffs(toggle)` returns the smallest position `p` in `1..N`
whose bit is 1 (`get(p) = 1`), or 0 when no bit in `1..N` is set.  With
`toggle = false`, and for the no-argument `ffs()`, the bitmap is left unchanged;
with `toggle = true` and `p > 0` exactly bit `p` is cleared and every other bit
(also a storage bit beyond `N`) keeps its value, and with `p = 0` nothing
changes. -/
theorem C9_bitmap_ffs (N : Nat) (b : Bitmap N) (toggle : Bool) :
    (((b.ffs toggle).1 = 0 ∧ ∀ q, 1 ≤ q → q ≤ N → b.get q = some 0) ∨
      (1 ≤ (b.ffs toggle).1 ∧ (b.ffs toggle).1 ≤ N ∧
        b.get (b.ffs toggle).1 = some 1 ∧
        ∀ q, 1 ≤ q → q < (b.ffs toggle).1 → b.get q = some 0)) ∧
    (b.ffs false).2 = b ∧
    b.ffs0 = ((b.ffs toggle).1, b) ∧
    (b.ffs true).1 = (b.ffs toggle).1 ∧
    ((b.ffs true).1 = 0 → (b.ffs true).2 = b) ∧
    (1 ≤ (b.ffs true).1 → (b.ffs true).2.get (b.ffs true).1 = some 0) ∧
    (∀ q, 1 ≤ q → q ≠ (b.ffs true).1 →
      (b.ffs true).2.getRaw q = b.getRaw q ∧ (b.ffs true).2.get q = b.get q) := by
  have hfalse : (b.ffs false).2 = b := by
    rcases Bitmap.ffs_spec b false with ⟨_, a2, _⟩ | ⟨_, _, _, _, c5⟩
    · exact a2
    · simpa using c5
  have hbits : ∀ q, 1 ≤ q → q ≠ (b.ffs true).1 →
      (b.ffs true).2.getRaw q = b.getRaw q := by
    intro q hq hne
    rcases Bitmap.ffs_spec b true with ⟨_, a2, _⟩ | ⟨c1, _, _, _, c5⟩
    · rw [a2]
    · rw [c5, if_pos rfl, Bitmap.getRaw_clearRaw _ _ _ c1 hq, if_neg hne]
  refine ⟨?_, hfalse, ?_, Bitmap.ffs_fst_toggle b _ _, ?_, ?_, ?_⟩
  · rcases Bitmap.ffs_spec b toggle with ⟨a1, _, a3⟩ | ⟨c1, c2, c3, c4, _⟩
    · left
      refine ⟨a1, fun q h1 h2 => ?_⟩
      rw [Bitmap.get_of_range _ _ h1 h2, a3 q h1 h2]
    · right
      refine ⟨c1, c2, ?_, fun q h1 h2 => ?_⟩
      · rw [Bitmap.get_of_range _ _ c1 c2, c3]
      · rw [Bitmap.get_of_range _ _ h1 (by omega), c4 q h1 h2]
  · show b.ffs false = _
    rw [Prod.ext_iff]
    exact ⟨Bitmap.ffs_fst_toggle b _ _, hfalse⟩
  · intro h0
    rcases Bitmap.ffs_spec b true with ⟨_, a2, _⟩ | ⟨c1, _, _, _, _⟩
    · exact a2
    · omega
  · intro h1
    rcases Bitmap.ffs_spec b true with ⟨a1, _, _⟩ | ⟨c1, c2, _, _, c5⟩
    · omega
    · rw [Bitmap.get_of_range _ _ c1 c2, c5, if_pos rfl,
        Bitmap.getRaw_clearRaw _ _ _ c1 c1, if_pos rfl]
  · intro q hq hne
    refine ⟨hbits q hq hne, ?_⟩
    unfold Bitmap.get
    rw [hbits q hq hne]

/-! ## Leaf bitmaps: counting and well-formedness -/

theorem countP_range_flip (f g : Nat → Bool) (n k : Nat) (hk : k < n)
    (hf : f k = false) (hg : g k = true) (h : ∀ i, i ≠ k → f i = g i) :
    (List.range n).countP g = (List.range n).countP f + 1 := by
  induction n with
  | zero => omega
  | succ m ih =>
    rw [List.range_succ, List.countP_append, List.countP_append]
    by_cases hkm : k = m
    · subst hkm
      have hsame : (List.range k).countP g = (List.range k).countP f := by
        apply List.countP_congr
        intro x hx
        have hxk : x ≠ k := by
          have := List.mem_range.1 hx
          omega
        rw [h x hxk]
      rw [hsame]
      simp [List.countP_cons, hf, hg]
    · have hlt : k < m := by omega
      rw [ih hlt]
      have hm : f m = g m := h m (fun e => hkm e.symm)
      simp [List.countP_cons, hm]
      omega

theorem countP_range_lt (n r : Nat) (hr : r ≤ n) :
    (List.range n).countP (fun i => decide (i < r)) = r := by
  induction n with
  | zero =>
    have : r = 0 := by omega
    subst this
    rfl
  | succ m ih =>
    rw [List.range_succ, List.countP_append]
    by_cases hrm : r ≤ m
    · rw [ih hrm]
      have : ¬ m < r := by omega
      simp [List.countP_cons, this]
    · have hr' : r = m + 1 := by omega
      subst hr'
      have hall : (List.range m).countP (fun i => decide (i < m + 1)) = m := by
        have := (@List.countP_eq_length Nat (List.range m)
          (fun i => decide (i < m + 1))).2 (by
            intro a ha
            have := List.mem_range.1 ha
            simpa using (by omega : a < m + 1))
        simpa using this
      rw [hall]
      simp [List.countP_cons]

namespace Bitmap
variable {N : Nat}

theorem number_of_set_bits_congr (b1 b2 : Bitmap N)
    (h : ∀ q, 1 ≤ q → q ≤ N → b1.getRaw q = b2.getRaw q) :
    b1.number_of_set_bits = b2.number_of_set_bits := by
  unfold number_of_set_bits
  apply List.countP_congr
  intro x hx
  have := List.mem_range.1 hx
  rw [h (x + 1) (by omega) (by omega)]

theorem number_of_set_bits_flip (b1 b2 : Bitmap N) (p : Nat) (hp1 : 1 ≤ p) (hp2 : p ≤ N)
    (h0 : b1.getRaw p = 0) (h1 : b2.getRaw p = 1)
    (h : ∀ q, 1 ≤ q → q ≠ p → b1.getRaw q = b2.getRaw q) :
    b2.number_of_set_bits = b1.number_of_set_bits + 1 := by
  unfold number_of_set_bits
  apply countP_range_flip _ _ N (p - 1) (by omega)
  · have e : p - 1 + 1 = p := by omega
    simp [e, h0]
  · have e : p - 1 + 1 = p := by omega
    simp [e, h1]
  · intro i hi
    have : b1.getRaw (i + 1) = b2.getRaw (i + 1) := h (i + 1) (by omega) (by omega)
    simp [this]

theorem number_of_set_bits_eq_zero (b : Bitmap N)
    (h : ∀ q, 1 ≤ q → q ≤ N → b.getRaw q = 0) : b.number_of_set_bits = 0 := by
  unfold number_of_set_bits
  rw [List.countP_eq_zero]
  intro a ha
  have := List.mem_range.1 ha
  simp [h (a + 1) (by omega) (by omega)]

theorem number_of_set_bits_le (b : Bitmap N) : b.number_of_set_bits ≤ N := by
  unfold number_of_set_bits
  have := @List.countP_le_length Nat (fun i => b.getRaw (i + 1) == 1) (List.range N)
  simpa using this

theorem number_of_set_bits_prefix (b : Bitmap N) (r : Nat) (hr : r ≤ N)
    (h1 : ∀ q, 1 ≤ q → q ≤ r → b.getRaw q = 1)
    (h0 : ∀ q, r < q → q ≤ N → b.getRaw q = 0) : b.number_of_set_bits = r := by
  unfold number_of_set_bits
  rw [← countP_range_lt N r hr]
  apply List.countP_congr
  intro x hx
  have hxN := List.mem_range.1 hx
  by_cases hxr : x < r
  · simp [h1 (x + 1) (by omega) (by omega), hxr]
  · simp [h0 (x + 1) (by omega) (by omega), hxr]

theorem WF_setRaw (b : Bitmap N) (p : Nat) (h : b.WF) : (b.setRaw p).WF := by
  obtain ⟨hl, hw⟩ := h
  refine ⟨by simp [setRaw, hl], ?_⟩
  intro w hmem
  rcases List.mem_or_eq_of_mem_set hmem with h1 | h1
  · exact hw w h1
  · subst h1
    have hk : (p - 1) % 64 < 64 := Nat.mod_lt _ (by decide)
    apply Nat.lt_pow_two_of_testBit
    intro i hi
    rw [Nat.testBit_or, Nat.one_shiftLeft, Nat.testBit_two_pow]
    have h64 : wordAt b.map ((p - 1) / 64) < 2 ^ 64 := by
      by_cases hlen : (p - 1) / 64 < b.map.length
      · have : wordAt b.map ((p - 1) / 64) ∈ b.map := by
          unfold wordAt
          rw [List.getD_eq_getElem _ _ hlen]
          exact List.getElem_mem _
        exact hw _ this
      · rw [wordAt_of_length_le _ _ (by omega)]
        exact Nat.pos_pow_of_pos _ (by decide)
    have e1 : (wordAt b.map ((p - 1) / 64)).testBit i = false :=
      Nat.testBit_lt_two_pow (lt_of_lt_of_le h64 (Nat.pow_le_pow_right (by decide) hi))
    have e2 : (p - 1) % 64 ≠ i := by omega
    simp [e1, e2]

theorem WF_clearRaw (b : Bitmap N) (p : Nat) (h : b.WF) : (b.clearRaw p).WF := by
  obtain ⟨hl, hw⟩ := h
  refine ⟨by simp [clearRaw, hl], ?_⟩
  intro w hmem
  rcases List.mem_or_eq_of_mem_set hmem with h1 | h1
  · exact hw w h1
  · subst h1
    have hk : (p - 1) % 64 < 64 := Nat.mod_lt _ (by decide)
    apply Nat.lt_pow_two_of_testBit
    intro i hi
    rw [Nat.testBit_and, testBit_notBit _ _ hk]
    have : ¬ i < 64 := by omega
    simp [this]

/-- Two bitmap objects with the same bits are the same object. -/
theorem ext_of_getRaw (b1 b2 : Bitmap N) (h1 : b1.WF) (h2 : b2.WF)
    (h : ∀ q, 1 ≤ q → q ≤ 64 * ((N + 63) / 64) → b1.getRaw q = b2.getRaw q) : b1 = b2 := by
  obtain ⟨l1, w1⟩ := h1
  obtain ⟨l2, w2⟩ := h2
  cases b1 with
  | mk m1 =>
  cases b2 with
  | mk m2 =>
  simp only at l1 l2 w1 w2
  congr 1
  apply List.ext_getElem (by rw [l1, l2])
  intro i hi1 hi2
  apply Nat.eq_of_testBit_eq
  intro k
  by_cases hk : k < 64
  · have hq := h (i * 64 + k + 1) (by omega) (by omega)
    rw [getRaw_eq, getRaw_eq] at hq
    have e1 : (i * 64 + k + 1 - 1) / 64 = i := by omega
    have e2 : (i * 64 + k + 1 - 1) % 64 = k := by omega
    simp only [e1, e2] at hq
    have a1 : wordAt m1 i = m1[i] := by
      unfold wordAt; exact List.getD_eq_getElem _ _ hi1
    have a2 : wordAt m2 i = m2[i] := by
      unfold wordAt; exact List.getD_eq_getElem _ _ hi2
    rw [a1, a2] at hq
    cases hb1 : m1[i].testBit k <;> cases hb2 : m2[i].testBit k <;> simp [hb1, hb2] at hq ⊢
  · have b1 : m1[i] < 2 ^ 64 := w1 _ (List.getElem_mem _)
    have b2 : m2[i] < 2 ^ 64 := w2 _ (List.getElem_mem _)
    rw [Nat.testBit_lt_two_pow (lt_of_lt_of_le b1 (Nat.pow_le_pow_right (by decide) (by omega))),
      Nat.testBit_lt_two_pow (lt_of_lt_of_le b2 (Nat.pow_le_pow_right (by decide) (by omega)))]

end Bitmap

/-! ## Pages and the bits that stand for them -/

theorem list_set_eq_self {α : Type} (l : List α) (k : Nat) (a : α) (h : l[k]? = some a) :
    l.set k a = l := by
  apply List.ext_getElem?
  intro j
  rw [List.getElem?_set]
  by_cases hkj : k = j
  · subst hkj
    have hlt : k < l.length := by
      rcases List.getElem?_eq_some.1 h with ⟨hl, _⟩
      exact hl
    simp [hlt, h]
  · simp [hkj]

theorem lt_length_of_getElem? {α : Type} (l : List α) (k : Nat) (a : α) (h : l[k]? = some a) :
    k < l.length := by
  rcases List.getElem?_eq_some.1 h with ⟨hl, _⟩
  exact hl

theorem mem_of_getElem? {α : Type} (l : List α) (k : Nat) (a : α) (h : l[k]? = some a) :
    a ∈ l := List.mem_iff_getElem?.2 ⟨k, h⟩

namespace PageAllocationTable

theorem slotBit_set (bms : List LeafBitmap) (k : Nat) (bm1 : LeafBitmap) (p : Nat)
    (hk : k < bms.length) :
    slotBit (bms.set k bm1) p =
      if p / 4096 = k then bm1.getRaw (p % 4096 + 1) else slotBit bms p := by
  unfold slotBit
  rw [List.getElem?_set]
  by_cases h : k = p / 4096
  · subst h
    simp [hk]
  · have h2 : ¬ p / 4096 = k := fun e => h e.symm
    simp [h, h2]

theorem slotBit_of_getElem? (bms : List LeafBitmap) (k : Nat) (bm : LeafBitmap)
    (h : bms[k]? = some bm) (q : Nat) (hq1 : 1 ≤ q) (hq2 : q ≤ 4096) :
    slotBit bms (k * 4096 + (q - 1)) = bm.getRaw q := by
  unfold slotBit
  have e1 : (k * 4096 + (q - 1)) / 4096 = k := by omega
  have e2 : (k * 4096 + (q - 1)) % 4096 + 1 = q := by omega
  rw [e1, h]
  simp only [e2]

theorem bitmapCount_of_getElem? (bms : List LeafBitmap) (k : Nat) (bm : LeafBitmap)
    (h : bms[k]? = some bm) : bitmapCount bms k = bm.number_of_set_bits := by
  unfold bitmapCount
  rw [h]

theorem bitmapCount_set_ne (bms : List LeafBitmap) (k i : Nat) (bm1 : LeafBitmap)
    (h : k ≠ i) : bitmapCount (bms.set k bm1) i = bitmapCount bms i := by
  unfold bitmapCount
  rw [List.getElem?_set_ne h]

theorem Took.refl (bms : List LeafBitmap) : Took bms [] bms :=
  { length_eq := rfl
    wf := fun h => h
    nodup := List.nodup_nil
    was_free := by intro p hp; simp at hp
    now := by intro p; simp }

theorem Took.trans {a b c : List LeafBitmap} {ps qs : List Nat}
    (h1 : Took a ps b) (h2 : Took b qs c) : Took a (ps ++ qs) c :=
  { length_eq := by rw [h2.length_eq, h1.length_eq]
    wf := fun h => h2.wf (h1.wf h)
    nodup := by
      rw [List.nodup_append]
      refine ⟨h1.nodup, h2.nodup, ?_⟩
      intro p hp hq
      have e1 := h2.was_free p hq
      rw [h1.now p, if_pos hp] at e1
      omega
    was_free := by
      intro p hp
      rcases List.mem_append.1 hp with h | h
      · exact h1.was_free p h
      · have e1 := h2.was_free p h
        rw [h1.now p] at e1
        by_cases hps : p ∈ ps
        · rw [if_pos hps] at e1
          omega
        · rw [if_neg hps] at e1
          exact e1
    now := by
      intro p
      rw [h2.now p, h1.now p]
      by_cases hq : p ∈ qs
      · simp [hq]
      · by_cases hp : p ∈ ps
        · simp [hp]
        · simp [hp, hq] }

theorem Took.single (bms : List LeafBitmap) (k : Nat) (bm : LeafBitmap) (q : Nat)
    (h : bms[k]? = some bm) (hq1 : 1 ≤ q) (hq2 : q ≤ 4096) (hset : bm.getRaw q = 1) :
    Took bms [k * 4096 + (q - 1)] (bms.set k (bm.clearRaw q)) :=
  { length_eq := by simp
    wf := by
      intro hall b hb
      rcases List.mem_or_eq_of_mem_set hb with h1 | h1
      · exact hall b h1
      · rw [h1]
        exact Bitmap.WF_clearRaw _ _ (hall bm (mem_of_getElem? _ _ _ h))
    nodup := by simp
    was_free := by
      intro p hp
      simp only [List.mem_singleton] at hp
      rw [hp, slotBit_of_getElem? bms k bm h q hq1 hq2, hset]
    now := by
      intro p
      rw [slotBit_set _ _ _ _ (lt_length_of_getElem? _ _ _ h)]
      by_cases hk : p / 4096 = k
      · rw [if_pos hk, Bitmap.getRaw_clearRaw _ _ _ hq1 (by omega)]
        have hs : slotBit bms p = bm.getRaw (p % 4096 + 1) := by
          unfold slotBit
          rw [hk, h]
        by_cases hpq : p % 4096 + 1 = q
        · have : p = k * 4096 + (q - 1) := by omega
          rw [if_pos hpq, if_pos (List.mem_singleton.2 this)]
        · have : p ≠ k * 4096 + (q - 1) := by omega
          rw [if_neg hpq, if_neg (fun e => this (List.mem_singleton.1 e)), hs]
      · have : p ≠ k * 4096 + (q - 1) := by
          intro e
          apply hk
          rw [e]
          omega
        rw [if_neg hk, if_neg (fun e => this (List.mem_singleton.1 e))] }

/-- The inner loop of `AllocatePages` on bitmap `k`: it cannot fail while the
bitmap has enough set bits, and takes that many distinct free pages. -/
theorem takePages_spec (k : Nat) (mk : Nat → Nat)
    (hmk : ∀ q, 1 ≤ q → q ≤ 4096 → mk q = k * 4096 + (q - 1)) :
    ∀ (c : Nat) (bms : List LeafBitmap) (bm : LeafBitmap), bms[k]? = some bm → bm.WF →
      c ≤ bm.number_of_set_bits →
      ∃ ps bm1, takePages mk c bm = some (ps, bm1) ∧ bm1.WF ∧
        bm1.number_of_set_bits + c = bm.number_of_set_bits ∧ ps.length = c ∧
        Took bms ps (bms.set k bm1) := by
  intro c
  induction c with
  | zero =>
    intro bms bm h hwf _
    refine ⟨[], bm, rfl, hwf, by omega, rfl, ?_⟩
    rw [list_set_eq_self _ _ _ h]
    exact Took.refl bms
  | succ n ih =>
    intro bms bm h hwf hc
    rcases Bitmap.ffs_spec bm true with ⟨_, _, a3⟩ | ⟨c1, c2, c3, _, c5⟩
    · have := Bitmap.number_of_set_bits_eq_zero bm a3
      omega
    · rw [if_pos rfl] at c5
      have hcount : bm.number_of_set_bits = (bm.ffs true).2.number_of_set_bits + 1 := by
        apply Bitmap.number_of_set_bits_flip _ _ (bm.ffs true).1 c1 c2
        · rw [c5, Bitmap.getRaw_clearRaw _ _ _ c1 c1, if_pos rfl]
        · exact c3
        · intro q hq hne
          rw [c5, Bitmap.getRaw_clearRaw _ _ _ c1 hq, if_neg hne]
      have hklt := lt_length_of_getElem? _ _ _ h
      have hwf1 : (bm.ffs true).2.WF := by
        rw [c5]; exact Bitmap.WF_clearRaw _ _ hwf
      obtain ⟨ps, bm1, e1, e2, e3, e4, e5⟩ :=
        ih (bms.set k (bm.ffs true).2) (bm.ffs true).2
          (List.getElem?_set_self hklt) hwf1 (by omega)
      refine ⟨mk (bm.ffs true).1 :: ps, bm1, ?_, e2, by omega, by simp [e4], ?_⟩
      · have hpos : (bm.ffs true).1 > 0 := by omega
        simp only [takePages, hpos, if_true, e1]
      · rw [List.set_set] at e5
        have hs := Took.single bms k bm (bm.ffs true).1 h c1 c2 c3
        rw [← c5] at hs
        have := Took.trans hs e5
        rw [hmk _ c1 c2]
        simpa using this

end PageAllocationTable

/-! ## `PageAllocationTableNode::GetPages` and the loops over its result -/

theorem wordAt_eq_getElem (l : List Nat) (i : Nat) (h : i < l.length) : wordAt l i = l[i] := by
  unfold wordAt
  exact List.getD_eq_getElem _ _ h

theorem sum_set_wordAt : ∀ (l : List Nat) (j v : Nat), j < l.length →
    (l.set j v).sum + wordAt l j = l.sum + v := by
  intro l
  induction l with
  | nil => intro j v h; simp at h
  | cons a t ih =>
    intro j v h
    cases j with
    | zero => simp [wordAt]; omega
    | succ n =>
      have hn : n < t.length := by simpa using h
      have := ih n v hn
      simp only [List.set_cons_succ, List.sum_cons]
      have e : wordAt (a :: t) (n + 1) = wordAt t n := by simp [wordAt]
      rw [e]
      omega

theorem wordAt_le_sum (l : List Nat) (j : Nat) : wordAt l j ≤ l.sum := by
  by_cases h : j < l.length
  · have := sum_set_wordAt l j 0 h
    omega
  · rw [wordAt_of_length_le _ _ (by omega)]
    exact Nat.zero_le _

namespace PageAllocationTable

theorem applyPlan_length : ∀ (plan : List (Nat × Nat)) (e : List Nat),
    (applyPlan e plan).length = e.length := by
  intro plan
  induction plan with
  | nil => intro e; rfl
  | cons hd rest ih =>
    intro e
    obtain ⟨i, c⟩ := hd
    simp only [applyPlan]
    rw [ih, List.length_set]

theorem applyPlan_sum : ∀ (plan : List (Nat × Nat)) (e : List Nat), PlanOK e plan →
    (applyPlan e plan).sum + (plan.map Prod.snd).sum = e.sum := by
  intro plan
  induction plan with
  | nil => intro e _; simp [applyPlan]
  | cons hd rest ih =>
    intro e h
    obtain ⟨i, c⟩ := hd
    obtain ⟨h1, h2, h3⟩ := h
    simp only [applyPlan, List.map_cons, List.sum_cons]
    have := ih _ h3
    have := sum_set_wordAt e i (wordAt e i - c) h1
    omega

end PageAllocationTable

namespace PageAllocationTableNode
open PageAllocationTable

theorem findFirst_spec (e : List Nat) (w : Nat) : ∀ (todo i k : Nat),
    findFirst e w todo i = some k → i ≤ k ∧ k < i + todo ∧ w ≤ wordAt e k := by
  intro todo
  induction todo with
  | zero => intro i k h; simp [findFirst] at h
  | succ n ih =>
    intro i k h
    by_cases hw : wordAt e i ≥ w
    · simp only [findFirst, hw, if_true, Option.some.injEq] at h
      subst h
      exact ⟨Nat.le_refl _, by omega, hw⟩
    · simp only [findFirst, hw, if_false] at h
      have := ih (i + 1) k h
      omega

theorem gather_spec : ∀ (todo i remain : Nat) (e : List Nat),
    remain ≤ (e.drop i).sum → e.length ≤ i + todo →
    PlanOK e (gather todo i remain e).1 ∧
      (gather todo i remain e).2.1 = applyPlan e (gather todo i remain e).1 ∧
      (gather todo i remain e).2.2 = 0 ∧
      ((gather todo i remain e).1.map Prod.snd).sum = remain := by
  intro todo
  induction todo with
  | zero =>
    intro i remain e h1 h2
    rw [List.drop_eq_nil_of_le (by omega)] at h1
    have : remain = 0 := by simpa using h1
    subst this
    simp [gather, PlanOK, applyPlan]
  | succ n ih =>
    intro i remain e h1 h2
    by_cases hr : remain > 0
    · have hi : i < e.length := by
        by_contra hge
        rw [List.drop_eq_nil_of_le (by omega)] at h1
        simp at h1
        omega
      rw [List.drop_eq_getElem_cons hi, List.sum_cons, ← wordAt_eq_getElem e i hi] at h1
      by_cases he : wordAt e i > 0
      · have hdrop : ((e.set i (wordAt e i - min (wordAt e i) remain)).drop (i + 1)) =
            e.drop (i + 1) := List.drop_set_of_lt _ _ (by omega)
        obtain ⟨a1, a2, a3, a4⟩ := ih (i + 1) (remain - min (wordAt e i) remain)
          (e.set i (wordAt e i - min (wordAt e i) remain))
          (by rw [hdrop]; omega) (by rw [List.length_set]; omega)
        simp only [gather, hr, he, if_true]
        refine ⟨⟨hi, Nat.min_le_left _ _, a1⟩, ?_, a3, ?_⟩
        · simp only [applyPlan]
          exact a2
        · simp only [List.map_cons, List.sum_cons]
          rw [a4]
          have := Nat.min_le_right (wordAt e i) remain
          omega
      · obtain ⟨a1, a2, a3, a4⟩ := ih (i + 1) remain e (by omega) (by omega)
        simp only [gather, hr, he, if_true, if_false]
        exact ⟨a1, a2, a3, a4⟩
    · have : remain = 0 := by omega
      subst this
      simp [gather, PlanOK, applyPlan]

/-- `GetPages` on a node whose free count is the sum of its entries: for a
request that the node can serve the call returns true. -/
theorem GetPages_spec (nd : PageAllocationTableNode) (want : Nat)
    (hn : nd.number_entries_ = nd.entries_.length)
    (hf : nd.number_free_pages_ = nd.entries_.sum) (hw : want ≤ nd.number_free_pages_) :
    ∃ plan, nd.GetPages want = some (true, plan,
        { nd with
          entries_ := applyPlan nd.entries_ plan,
          number_free_pages_ := nd.number_free_pages_ - want,
          number_used_pages_ := nd.number_used_pages_ + want }) ∧
      PlanOK nd.entries_ plan ∧ (plan.map Prod.snd).sum = want := by
  by_cases h0 : want = 0
  · subst h0
    refine ⟨[], ?_, trivial, rfl⟩
    simp [GetPages, applyPlan]
  · have hgt : ¬ want > nd.number_free_pages_ := by omega
    cases hff : findFirst nd.entries_ want nd.number_entries_ 0 with
    | some k =>
      obtain ⟨_, k2, k3⟩ := findFirst_spec _ _ _ _ _ hff
      refine ⟨[(k, want)], ?_, ⟨by omega, k3, trivial⟩, by simp⟩
      simp only [GetPages, h0, hgt, if_false, hff, applyPlan]
    | none =>
      obtain ⟨a1, a2, a3, a4⟩ := gather_spec nd.number_entries_ 0 want nd.entries_
        (by simpa [← hf] using hw) (by omega)
      refine ⟨(gather nd.number_entries_ 0 want nd.entries_).1, ?_, a1, a4⟩
      simp only [GetPages, h0, hgt, if_false, hff, a3, if_true, a2]

end PageAllocationTableNode

namespace PageAllocationTable

theorem sum_counts_set (bms : List LeafBitmap) (k : Nat) (bm bm1 : LeafBitmap)
    (h : bms[k]? = some bm) :
    ((bms.set k bm1).map Bitmap.number_of_set_bits).sum + bm.number_of_set_bits =
      (bms.map Bitmap.number_of_set_bits).sum + bm1.number_of_set_bits := by
  rw [List.map_set]
  have hk := lt_length_of_getElem? _ _ _ h
  have hw : wordAt (bms.map Bitmap.number_of_set_bits) k = bm.number_of_set_bits := by
    rw [wordAt_eq_getElem _ _ (by simpa using hk)]
    rcases List.getElem?_eq_some.1 h with ⟨hl, e⟩
    simp [e]
  have := sum_set_wordAt (bms.map Bitmap.number_of_set_bits) k bm1.number_of_set_bits
    (by simpa using hk)
  omega

theorem getElem?_of_lt {α : Type} (l : List α) (k : Nat) (h : k < l.length) :
    ∃ a, l[k]? = some a := ⟨l[k], List.getElem?_eq_getElem h⟩

/-- The loop of `AllocatePages` over the pairs that `GetPages` returned for a
node whose children are the bitmaps `f, f + 1, ..., f + len - 1` with set-bit
counts `cs`. -/
theorem takeFromBitmaps_spec (f : Nat) (mk : Nat → Nat → Nat) (len : Nat)
    (hor : ∀ j, j < len → f ||| j = f + j)
    (hmk : ∀ j q, j < len → 1 ≤ q → q ≤ 4096 → mk j q = (f + j) * 4096 + (q - 1)) :
    ∀ (plan : List (Nat × Nat)) (cs : List Nat) (bms : List LeafBitmap),
      cs.length = len → PlanOK cs plan → (∀ bm ∈ bms, bm.WF) →
      (∀ j, j < len → ∃ bm, bms[f + j]? = some bm ∧ bm.number_of_set_bits = wordAt cs j) →
      ∃ ps bms1, takeFromBitmaps f mk plan bms = some (ps, bms1) ∧ Took bms ps bms1 ∧
        ps.length = (plan.map Prod.snd).sum ∧
        (∀ j, j < len → ∃ bm, bms1[f + j]? = some bm ∧
          bm.number_of_set_bits = wordAt (applyPlan cs plan) j) ∧
        (∀ i, (i < f ∨ f + len ≤ i) → bms1[i]? = bms[i]?) ∧
        (bms1.map Bitmap.number_of_set_bits).sum + (plan.map Prod.snd).sum =
          (bms.map Bitmap.number_of_set_bits).sum := by
  intro plan
  induction plan with
  | nil =>
    intro cs bms _ _ _ hc
    exact ⟨[], bms, rfl, Took.refl bms, rfl, hc, fun _ _ => rfl, by simp⟩
  | cons hd rest ih =>
    intro cs bms hlen hplan hwf hc
    obtain ⟨j, c⟩ := hd
    obtain ⟨h1, h2, h3⟩ := hplan
    have hj : j < len := by omega
    obtain ⟨bm, hbm, hcount⟩ := hc j hj
    obtain ⟨ps, bm1, e1, e2, e3, e4, e5⟩ :=
      takePages_spec (f + j) (mk j) (fun q q1 q2 => hmk j q hj q1 q2) c bms bm hbm
        (hwf bm (mem_of_getElem? _ _ _ hbm)) (by omega)
    have hklt := lt_length_of_getElem? _ _ _ hbm
    obtain ⟨qs, bms2, g1, g2, g3, g4, g5, g6⟩ :=
      ih (cs.set j (wordAt cs j - c)) (bms.set (f + j) bm1)
        (by rw [List.length_set]; exact hlen) h3 (e5.wf hwf)
        (by
          intro j2 hj2
          by_cases hjj : j = j2
          · subst hjj
            refine ⟨bm1, List.getElem?_set_self hklt, ?_⟩
            rw [wordAt_set_eq _ _ _ h1]
            omega
          · obtain ⟨b, hb1, hb2⟩ := hc j2 hj2
            refine ⟨b, ?_, ?_⟩
            · rw [List.getElem?_set_ne (by omega)]
              exact hb1
            · rw [wordAt_set_ne _ _ _ _ hjj]
              exact hb2)
    refine ⟨ps ++ qs, bms2, ?_, Took.trans e5 g2, ?_, ?_, ?_, ?_⟩
    · simp only [takeFromBitmaps, hor j hj, hbm, e1, g1]
    · simp only [List.length_append, List.map_cons, List.sum_cons]
      omega
    · intro j2 hj2
      simpa [applyPlan] using g4 j2 hj2
    · intro i hi
      rw [g5 i hi, List.getElem?_set_ne (by omega)]
    · have := sum_counts_set bms (f + j) bm bm1 hbm
      simp only [List.map_cons, List.sum_cons]
      omega

end PageAllocationTable


/-! ## The layout that `PageAllocationTable::Init` chooses -/

namespace PageAllocationTable

theorem PAGES_PER_BITMAP_eq : PAGES_PER_BITMAP = 4096 := by decide

theorem BITMAP_BITS_eq : BITMAP_BITS = 12 := rfl

theorem countBits_spec : ∀ (fuel i : Nat), i ≤ fuel →
    i < 2 ^ countBits fuel i ∧ (0 < i → 2 ^ (countBits fuel i - 1) ≤ i) := by
  intro fuel
  induction fuel with
  | zero =>
    intro i hi
    have : i = 0 := by omega
    subst this
    simp [countBits]
  | succ n ih =>
    intro i hi
    by_cases h0 : i > 0
    · simp only [countBits, h0, if_true, Nat.add_sub_cancel]
      rw [Nat.shiftRight_eq_div_pow, Nat.pow_one]
      obtain ⟨a1, a2⟩ := ih (i / 2) (by omega)
      refine ⟨?_, fun _ => ?_⟩
      · rw [Nat.pow_succ]
        omega
      · by_cases h2 : 0 < i / 2
        · have := a2 h2
          have hc : 0 < countBits n (i / 2) := by
            by_contra hc
            have : countBits n (i / 2) = 0 := by omega
            rw [this] at a1
            simp at a1
            omega
          have e : countBits n (i / 2) = (countBits n (i / 2) - 1) + 1 := by omega
          rw [e, Nat.pow_succ]
          omega
        · have : i / 2 = 0 := by omega
          rw [this]
          have hz : countBits n 0 = 0 := by
            cases n <;> simp [countBits]
          rw [hz]
          simp
          omega
    · have : i = 0 := by omega
      subst this
      simp [countBits]

theorem le_two_pow_totalBits (N : Nat) (hN : 0 < N) : N ≤ 2 ^ totalBits N := by
  have := (countBits_spec N (N - 1) (by omega)).1
  unfold totalBits
  omega

theorem two_pow_totalBits_lt (N : Nat) (h : 0 < totalBits N) : 2 ^ (totalBits N - 1) < N := by
  unfold totalBits at *
  have hpos : 0 < N - 1 := by
    by_contra hc
    have e : N - 1 = 0 := by omega
    rw [e] at h
    have hz : countBits N 0 = 0 := by
      cases N <;> simp [countBits]
    omega
  have := (countBits_spec N (N - 1) (by omega)).2 hpos
  omega

theorem levelsOf_cases (N : Nat) : levelsOf N = 1 ∨ levelsOf N = 2 ∨ levelsOf N = 3 := by
  unfold levelsOf
  split
  · left; rfl
  · split
    · right; left; rfl
    · right; right; rfl

theorem level1_facts (N : Nat) (hN : 0 < N) (h : levelsOf N = 1) :
    N ≤ 4096 ∧ numberBitmapsOf N = 1 ∧ bitmapBitsOf N = totalBits N ∧
      N ≤ 2 ^ totalBits N := by
  have htb : totalBits N ≤ 12 := by
    unfold levelsOf at h
    simp only [BITMAP_BITS_eq] at h
    split at h
    · assumption
    · split at h <;> omega
  have h1 := le_two_pow_totalBits N hN
  have h2 : 2 ^ totalBits N ≤ 2 ^ 12 := Nat.pow_le_pow_right (by decide) htb
  have h3 : N ≤ 4096 := by
    have : (2 : Nat) ^ 12 = 4096 := by norm_num
    omega
  refine ⟨h3, ?_, ?_, h1⟩
  · unfold numberBitmapsOf
    rw [PAGES_PER_BITMAP_eq]
    omega
  · unfold bitmapBitsOf
    simp [BITMAP_BITS_eq, htb]

theorem not_level1_facts (N : Nat) (h : levelsOf N ≠ 1) :
    4096 < N ∧ bitmapBitsOf N = 12 ∧ 12 < totalBits N := by
  have htb : ¬ totalBits N ≤ 12 := by
    intro hc
    apply h
    unfold levelsOf
    simp [BITMAP_BITS_eq, hc]
  have := two_pow_totalBits_lt N (by omega)
  have h2 : 2 ^ 12 ≤ 2 ^ (totalBits N - 1) := Nat.pow_le_pow_right (by decide) (by omega)
  have : (2 : Nat) ^ 12 = 4096 := by norm_num
  refine ⟨by omega, ?_, by omega⟩
  unfold bitmapBitsOf
  simp [BITMAP_BITS_eq, htb]

theorem numberBitmapsOf_spec (N : Nat) :
    4096 * (numberBitmapsOf N - 1) < N ∨ N = 0 := by
  unfold numberBitmapsOf
  rw [PAGES_PER_BITMAP_eq]
  omega

theorem numberBitmapsOf_bounds (N : Nat) (hN : 0 < N) :
    0 < numberBitmapsOf N ∧ 4096 * (numberBitmapsOf N - 1) < N ∧
      N ≤ 4096 * numberBitmapsOf N := by
  unfold numberBitmapsOf
  rw [PAGES_PER_BITMAP_eq]
  omega

theorem level2_facts (N : Nat) (h : levelsOf N = 2) :
    pmdBitsOf N = 0 ∧ bitmapBitsOf N = 12 := by
  have h1 := not_level1_facts N (by omega)
  refine ⟨?_, h1.2.1⟩
  unfold levelsOf at h
  unfold pmdBitsOf
  simp only [BITMAP_BITS_eq] at h ⊢
  split at h
  · omega
  · split at h
    · rename_i h2
      simp [h2]
    · omega

theorem level3_facts (N : Nat) (h : levelsOf N = 3) :
    totalBits N = pgdBitsOf N + pmdBitsOf N + 12 ∧ bitmapBitsOf N = 12 ∧ 16 < totalBits N := by
  have h1 := not_level1_facts N (by omega)
  have htb : ¬ totalBits N ≤ 16 := by
    intro hc
    unfold levelsOf at h
    simp only [BITMAP_BITS_eq] at h
    split at h
    · omega
    · omega
  have hnot12 : ¬ totalBits N ≤ 12 := by omega
  refine ⟨?_, h1.2.1, by omega⟩
  have e1 : pgdBitsOf N = (totalBits N - 12) / 2 := by
    unfold pgdBitsOf
    simp [BITMAP_BITS_eq, htb, hnot12]
  have e2 : pmdBitsOf N = totalBits N - pgdBitsOf N - 12 := by
    unfold pmdBitsOf
    simp [BITMAP_BITS_eq, htb, h1.2.1]
  omega

theorem entriesPerPmdOf_eq (N : Nat) : entriesPerPmdOf N = 2 ^ pmdBitsOf N := by
  unfold entriesPerPmdOf
  rw [Nat.one_shiftLeft]

theorem entriesPerPmdOf_pos (N : Nat) : 0 < entriesPerPmdOf N := by
  rw [entriesPerPmdOf_eq]
  exact Nat.two_pow_pos _

theorem shiftLeft_or_of_lt (a k b : Nat) (h : b < 2 ^ k) : (a <<< k) ||| b = a * 2 ^ k + b := by
  rw [Nat.shiftLeft_eq, Nat.mul_comm a, Nat.mul_add_lt_is_or h]

theorem and_mask_eq_mod (p k : Nat) : p &&& ((1 <<< k) - 1) = p % 2 ^ k := by
  rw [Nat.one_shiftLeft, Nat.and_pow_two_sub_one_eq_mod]

theorem and_mask_level1 (N p : Nat) (hN : 0 < N) (h : levelsOf N = 1) (hp : p < N) :
    p &&& ((1 <<< bitmapBitsOf N) - 1) = p := by
  obtain ⟨_, _, e, hle⟩ := level1_facts N hN h
  rw [and_mask_eq_mod, e]
  exact Nat.mod_eq_of_lt (by omega)

theorem and_mask_not_level1 (N p : Nat) (h : levelsOf N ≠ 1) :
    p &&& ((1 <<< bitmapBitsOf N) - 1) = p % 4096 := by
  rw [and_mask_eq_mod, (not_level1_facts N h).2.1]
  norm_num

theorem shiftRight_not_level1 (N p : Nat) (h : levelsOf N ≠ 1) :
    p >>> bitmapBitsOf N = p / 4096 := by
  rw [(not_level1_facts N h).2.1, Nat.shiftRight_eq_div_pow]

theorem pmd_offset_eq (N p : Nat) (h : levelsOf N = 3) :
    (p >>> bitmapBitsOf N) &&& ((1 <<< pmdBitsOf N) - 1) = p / 4096 % entriesPerPmdOf N := by
  rw [shiftRight_not_level1 N p (by omega), and_mask_eq_mod, entriesPerPmdOf_eq]

theorem pgd_offset_eq (N p : Nat) (hN : 0 < N) (h : levelsOf N = 3) (hp : p < N) :
    (p >>> (bitmapBitsOf N + pmdBitsOf N)) &&& ((1 <<< pgdBitsOf N) - 1) =
      p / 4096 / entriesPerPmdOf N := by
  obtain ⟨e1, e2, _⟩ := level3_facts N h
  rw [and_mask_eq_mod, e2, Nat.shiftRight_eq_div_pow, Nat.pow_add, entriesPerPmdOf_eq,
    Nat.div_div_eq_div_mul]
  apply Nat.mod_eq_of_lt
  have h1 := le_two_pow_totalBits N hN
  rw [e1, Nat.pow_add, Nat.pow_add] at h1
  apply Nat.div_lt_of_lt_mul
  calc p < N := hp
    _ ≤ 2 ^ pgdBitsOf N * 2 ^ pmdBitsOf N * 2 ^ 12 := h1
    _ = 2 ^ 12 * 2 ^ pmdBitsOf N * 2 ^ pgdBitsOf N := by ring

theorem level2_page_eq (N j q : Nat) (h : levelsOf N = 2) (hq1 : 1 ≤ q) (hq2 : q ≤ 4096) :
    (j <<< bitmapBitsOf N) ||| (q - 1) = (0 + j) * 4096 + (q - 1) := by
  rw [(level2_facts N h).2, shiftLeft_or_of_lt _ _ _ (by norm_num; omega)]
  norm_num

theorem level3_bitmap_index_eq (N i j : Nat) (hj : j < entriesPerPmdOf N) :
    (i <<< pmdBitsOf N) ||| j = i <<< pmdBitsOf N + j := by
  rw [entriesPerPmdOf_eq] at hj
  rw [shiftLeft_or_of_lt _ _ _ hj, Nat.shiftLeft_eq]

theorem level3_first_eq (N i : Nat) : i <<< pmdBitsOf N = i * entriesPerPmdOf N := by
  rw [Nat.shiftLeft_eq, entriesPerPmdOf_eq]

theorem level3_page_eq (N i j q : Nat) (h : levelsOf N = 3) (hj : j < entriesPerPmdOf N)
    (hq1 : 1 ≤ q) (hq2 : q ≤ 4096) :
    (i <<< (pmdBitsOf N + bitmapBitsOf N)) ||| (j <<< bitmapBitsOf N) ||| (q - 1) =
      (i <<< pmdBitsOf N + j) * 4096 + (q - 1) := by
  obtain ⟨_, e2, _⟩ := level3_facts N h
  rw [entriesPerPmdOf_eq] at hj
  have hlow : (j <<< 12) ||| (q - 1) = j * 2 ^ 12 + (q - 1) :=
    shiftLeft_or_of_lt _ _ _ (by norm_num; omega)
  have hlt : j * 2 ^ 12 + (q - 1) < 2 ^ (pmdBitsOf N + 12) := by
    rw [Nat.pow_add]
    have : (2 : Nat) ^ 12 = 4096 := by norm_num
    rw [this]
    have : (j + 1) * 4096 ≤ 2 ^ pmdBitsOf N * 4096 := Nat.mul_le_mul_right _ hj
    omega
  rw [e2, Nat.or_assoc, hlow, shiftLeft_or_of_lt _ _ _ hlt, Nat.shiftLeft_eq, Nat.pow_add]
  have : (2 : Nat) ^ 12 = 4096 := by norm_num
  rw [this]
  ring

end PageAllocationTable


/-! ## Counting set bits against the number of pages -/

theorem sum_range_min (m T : Nat) : ∀ n : Nat,
    ((List.range n).map (fun i => min m (T - i * m))).sum = min T (n * m) := by
  intro n
  induction n with
  | zero => simp
  | succ k ih =>
    rw [List.sum_range_succ, ih, Nat.succ_mul]
    omega

theorem sum_add_one_le_of_pointwise : ∀ (l : List Nat) (g : Nat → Nat),
    (∀ j, j < l.length → wordAt l j ≤ g j) → ∀ j0, j0 < l.length → wordAt l j0 + 1 ≤ g j0 →
    l.sum + 1 ≤ ((List.range l.length).map g).sum := by
  intro l
  induction l using List.reverseRecOn with
  | nil => intro g _ j0 h; simp at h
  | append_singleton t a ih =>
    intro g hall j0 hj0 hlt
    have hlen : (t ++ [a]).length = t.length + 1 := by simp
    rw [hlen, List.sum_range_succ, List.sum_append]
    have hw : ∀ j, j < t.length → wordAt (t ++ [a]) j = wordAt t j := by
      intro j hj
      simp [wordAt, List.getD_eq_getElem?_getD, List.getElem?_append_left hj]
    have hlast : wordAt (t ++ [a]) t.length = a := by
      simp [wordAt, List.getD_eq_getElem?_getD]
    have hsum : t.sum ≤ ((List.range t.length).map g).sum := by
      clear hlt hj0 j0
      have : ∀ (u : List Nat) (g : Nat → Nat), (∀ j, j < u.length → wordAt u j ≤ g j) →
          u.sum ≤ ((List.range u.length).map g).sum := by
        intro u
        induction u using List.reverseRecOn with
        | nil => intro g _; simp
        | append_singleton u b ihu =>
          intro g hg
          have hlen2 : (u ++ [b]).length = u.length + 1 := by simp
          rw [hlen2, List.sum_range_succ, List.sum_append]
          have h1 := ihu g (by
            intro j hj
            have := hg j (by rw [hlen2]; omega)
            rwa [show wordAt (u ++ [b]) j = wordAt u j by
              simp [wordAt, List.getD_eq_getElem?_getD, List.getElem?_append_left hj]] at this)
          have h2 := hg u.length (by rw [hlen2]; omega)
          rw [show wordAt (u ++ [b]) u.length = b by
            simp [wordAt, List.getD_eq_getElem?_getD]] at h2
          simp only [List.sum_cons, List.sum_nil, Nat.add_zero]
          omega
      exact this t g (by
        intro j hj
        have := hall j (by rw [hlen]; omega)
        rwa [hw j hj] at this)
    have ha := hall t.length (by rw [hlen]; omega)
    rw [hlast] at ha
    simp only [List.sum_cons, List.sum_nil, Nat.add_zero]
    by_cases hj : j0 < t.length
    · have := ih g (by
        intro j hj
        have := hall j (by rw [hlen]; omega)
        rwa [hw j hj] at this) j0 hj (by rwa [hw j0 hj] at hlt)
      omega
    · have e : j0 = t.length := by rw [hlen] at hj0; omega
      subst e
      rw [hlast] at hlt
      omega

theorem list_eq_map_range (l : List Nat) (g : Nat → Nat)
    (h : ∀ j, j < l.length → wordAt l j = g j) : l = (List.range l.length).map g := by
  apply List.ext_getElem (by simp)
  intro n h1 h2
  rw [← wordAt_eq_getElem l n h1, h n h1]
  simp

namespace Bitmap
variable {N : Nat}

theorem number_of_set_bits_le_of_beyond (b : Bitmap N) (r : Nat) (hr : r ≤ N)
    (h0 : ∀ q, r < q → q ≤ N → b.getRaw q = 0) : b.number_of_set_bits ≤ r := by
  unfold number_of_set_bits
  rw [← countP_range_lt N r hr]
  apply List.countP_mono_left
  intro x hx hp
  have hxN := List.mem_range.1 hx
  by_cases hxr : x < r
  · simpa using hxr
  · have := h0 (x + 1) (by omega) (by omega)
    simp [this] at hp

theorem number_of_set_bits_lt_of_clear (b : Bitmap N) (hwf : b.WF) (r q0 : Nat) (hr : r ≤ N)
    (h0 : ∀ q, r < q → q ≤ N → b.getRaw q = 0) (h1 : 1 ≤ q0) (h2 : q0 ≤ r)
    (hc : b.getRaw q0 = 0) : b.number_of_set_bits + 1 ≤ r := by
  have hl : (q0 - 1) / 64 < b.map.length := by
    rw [hwf.1]
    omega
  have hflip : (b.setRaw q0).number_of_set_bits = b.number_of_set_bits + 1 := by
    apply number_of_set_bits_flip b (b.setRaw q0) q0 h1 (by omega) hc
    · rw [getRaw_setRaw _ _ _ h1 h1 hl, if_pos rfl]
    · intro q hq hne
      rw [getRaw_setRaw _ _ _ h1 hq hl, if_neg hne]
  have := number_of_set_bits_le_of_beyond (b.setRaw q0) r hr (by
    intro q hq1 hq2
    rw [getRaw_setRaw _ _ _ h1 (by omega) hl, if_neg (by omega)]
    exact h0 q hq1 hq2)
  omega

end Bitmap

/-! ## The invariant of the page allocation table -/

namespace PageAllocationTable

/-- A node that summarises pages of which one is not free has a free count
below its page count. -/
theorem NodeOver.node_free_lt {nd : PageAllocationTableNode} {bms : List LeafBitmap}
    {f len tot : Nat} (h : NodeOver nd bms f len tot)
    (ht2 : tot ≤ len * 4096)
    (hex : ∀ j, j < len → ∃ bm, bms[f + j]? = some bm ∧ bm.WF)
    (hbeyond : ∀ p, f * 4096 + tot ≤ p → p < (f + len) * 4096 → slotBit bms p = 0)
    (p0 : Nat) (hp1 : f * 4096 ≤ p0) (hp2 : p0 < f * 4096 + tot) (hclear : slotBit bms p0 = 0) :
    nd.number_free_pages_ + 1 ≤ tot := by
  have hj0 : p0 / 4096 - f < len := by omega
  have hbound : ∀ j, j < nd.entries_.length →
      wordAt nd.entries_ j ≤ min 4096 (tot - j * 4096) := by
    intro j hj
    rw [h.length_entries] at hj
    obtain ⟨bm, hbm, _⟩ := hex j hj
    rw [h.entry j hj, bitmapCount_of_getElem? _ _ _ hbm]
    apply Bitmap.number_of_set_bits_le_of_beyond bm _ (Nat.min_le_left _ _)
    intro q hq1 hq2
    rw [← slotBit_of_getElem? bms (f + j) bm hbm q (by omega) hq2]
    apply hbeyond <;> omega
  have hstrict : wordAt nd.entries_ (p0 / 4096 - f) + 1 ≤
      min 4096 (tot - (p0 / 4096 - f) * 4096) := by
    obtain ⟨bm, hbm, hwf⟩ := hex _ hj0
    rw [h.entry _ hj0, bitmapCount_of_getElem? _ _ _ hbm]
    have hidx : f + (p0 / 4096 - f) = p0 / 4096 := by omega
    apply Bitmap.number_of_set_bits_lt_of_clear bm hwf _ (p0 % 4096 + 1)
      (Nat.min_le_left _ _)
    · intro q hq1 hq2
      rw [← slotBit_of_getElem? bms _ bm hbm q (by omega) hq2]
      apply hbeyond <;> omega
    · omega
    · omega
    · have := slotBit_of_getElem? bms _ bm hbm (p0 % 4096 + 1) (by omega) (by omega)
      rw [hidx] at this
      have e : p0 / 4096 * 4096 + (p0 % 4096 + 1 - 1) = p0 := by omega
      rw [e] at this
      rw [← this]
      exact hclear
  have := sum_add_one_le_of_pointwise nd.entries_ _ hbound (p0 / 4096 - f)
    (by rw [h.length_entries]; exact hj0) hstrict
  rw [h.length_entries, sum_range_min] at this
  rw [h.free]
  omega

theorem Inv.of_change {N : Nat} {t : PageAllocationTable} (h : Inv N t)
    (bms1 : List LeafBitmap) (pgd1 : PageAllocationTableNode)
    (pmds1 : List PageAllocationTableNode) (free1 used1 : Nat)
    (hlen : bms1.length = t.bitmaps_.length) (hwf : ∀ bm ∈ bms1, bm.WF)
    (hbeyond : ∀ p, N ≤ p → slotBit bms1 p = 0)
    (hfree : free1 = (bms1.map Bitmap.number_of_set_bits).sum) (hused : used1 + free1 = N)
    (h1 : levelsOf N = 1 → pgd1 = PageAllocationTableNode.new ∧ pmds1 = [])
    (h2 : levelsOf N = 2 →
      NodeOver pgd1 bms1 0 (numberBitmapsOf N) N ∧ pmds1 = [] ∧
        pgd1.number_free_pages_ = free1)
    (h3 : levelsOf N = 3 →
      pmds1.length = numberPmdNodesOf N ∧
      (∀ i, i < numberPmdNodesOf N → ∃ nd, pmds1[i]? = some nd ∧
        NodeOver nd bms1 (i * entriesPerPmdOf N)
          (min (entriesPerPmdOf N) (numberBitmapsOf N - i * entriesPerPmdOf N))
          (min (entriesPerPmdOf N * 4096) (N - i * (entriesPerPmdOf N * 4096)))) ∧
      pgd1.number_entries_ = numberPmdNodesOf N ∧
      pgd1.entries_.length = numberPmdNodesOf N ∧
      (∀ i, i < numberPmdNodesOf N →
        wordAt pgd1.entries_ i = pmdField (·.number_free_pages_) pmds1 i) ∧
      pgd1.number_free_pages_ = pgd1.entries_.sum ∧
      pgd1.number_total_pages_ = N ∧
      pgd1.number_used_pages_ + pgd1.number_free_pages_ = N ∧
      pgd1.number_free_pages_ = free1) :
    Inv N { t with bitmaps_ := bms1, pgd_ := pgd1, pmds_ := pmds1, free_pages_ := free1,
                   used_pages_ := used1 } :=
  { pos := h.pos, ready := h.ready, levels := h.levels, pgd_bits := h.pgd_bits,
    pmd_bits := h.pmd_bits, bitmap_bits := h.bitmap_bits, pgd_mask := h.pgd_mask,
    pmd_mask := h.pmd_mask, bitmap_mask := h.bitmap_mask, number_bitmaps := h.number_bitmaps,
    number_pmd_nodes := h.number_pmd_nodes, number_all := h.number_all,
    total_pages := h.total_pages,
    bitmaps_length := by rw [← h.bitmaps_length]; exact hlen
    bitmaps_wf := hwf, beyond := hbeyond, free := hfree, used := hused,
    level1 := h1, level2 := h2, level3 := h3 }

end PageAllocationTable

namespace PageAllocationTable

theorem Inv.bitmap_at {N : Nat} {t : PageAllocationTable} (h : Inv N t) (p : Nat)
    (hp : p < N) :
    ∃ bm, t.bitmaps_[p / 4096]? = some bm ∧ bm.WF ∧
      slotBit t.bitmaps_ p = bm.getRaw (p % 4096 + 1) := by
  have hb := numberBitmapsOf_bounds N h.pos
  obtain ⟨bm, hbm⟩ := getElem?_of_lt t.bitmaps_ (p / 4096) (by rw [h.bitmaps_length]; omega)
  refine ⟨bm, hbm, h.bitmaps_wf bm (mem_of_getElem? _ _ _ hbm), ?_⟩
  unfold slotBit
  rw [hbm]

theorem slotBit_set_page (bms : List LeafBitmap) (p : Nat) (bm : LeafBitmap)
    (h : bms[p / 4096]? = some bm) (hwf : bm.WF) (q : Nat) :
    slotBit (bms.set (p / 4096) (bm.setRaw (p % 4096 + 1))) q =
      if q = p then 1 else slotBit bms q := by
  have hl : (p % 4096 + 1 - 1) / 64 < bm.map.length := by
    rw [hwf.1]
    omega
  rw [slotBit_set _ _ _ _ (lt_length_of_getElem? _ _ _ h)]
  by_cases hk : q / 4096 = p / 4096
  · rw [if_pos hk, Bitmap.getRaw_setRaw _ _ _ (by omega) (by omega) hl]
    have hs : slotBit bms q = bm.getRaw (q % 4096 + 1) := by
      unfold slotBit
      rw [hk, h]
    by_cases hqp : q = p
    · subst hqp
      simp
    · have : q % 4096 + 1 ≠ p % 4096 + 1 := by omega
      rw [if_neg this, if_neg hqp, hs]
  · have : q ≠ p := by
      intro e
      apply hk
      rw [e]
    rw [if_neg hk, if_neg this]

theorem count_setRaw_page (bm : LeafBitmap) (hwf : bm.WF) (q : Nat) (h1 : 1 ≤ q)
    (h2 : q ≤ 4096) (hc : bm.getRaw q = 0) :
    (bm.setRaw q).number_of_set_bits = bm.number_of_set_bits + 1 := by
  have hl : (q - 1) / 64 < bm.map.length := by
    rw [hwf.1]
    omega
  apply Bitmap.number_of_set_bits_flip bm (bm.setRaw q) q h1 h2 hc
  · rw [Bitmap.getRaw_setRaw _ _ _ h1 h1 hl, if_pos rfl]
  · intro r hr hne
    rw [Bitmap.getRaw_setRaw _ _ _ h1 hr hl, if_neg hne]

theorem pmdField_of_getElem? (f : PageAllocationTableNode → Nat)
    (pmds : List PageAllocationTableNode) (i : Nat) (nd : PageAllocationTableNode)
    (h : pmds[i]? = some nd) : pmdField f pmds i = f nd := by
  unfold pmdField
  rw [h]

theorem ceil_div_bounds (a b : Nat) (hb : 0 < b) :
    a ≤ (a + (b - 1)) / b * b ∧ (0 < a → ((a + (b - 1)) / b - 1) * b < a) ∧
      (0 < a → 0 < (a + (b - 1)) / b) := by
  have h1 := Nat.div_add_mod (a + (b - 1)) b
  have h2 := Nat.mod_lt (a + (b - 1)) hb
  rw [Nat.mul_comm] at h1
  refine ⟨by omega, ?_, ?_⟩
  · intro ha
    rw [Nat.sub_mul]
    omega
  · intro ha
    exact Nat.div_pos (by omega) hb

/-- The three-level layout: the PMD node of a page and its bounds. -/
theorem level3_node_facts (N : Nat) (hN : 0 < N) (p : Nat) (hp : p < N) :
    p / 4096 / entriesPerPmdOf N < numberPmdNodesOf N ∧
    p / 4096 % entriesPerPmdOf N <
      min (entriesPerPmdOf N)
        (numberBitmapsOf N - p / 4096 / entriesPerPmdOf N * entriesPerPmdOf N) ∧
    p / 4096 / entriesPerPmdOf N * entriesPerPmdOf N + p / 4096 % entriesPerPmdOf N =
      p / 4096 := by
  have hb := numberBitmapsOf_bounds N hN
  have hE := entriesPerPmdOf_pos N
  have hk : p / 4096 < numberBitmapsOf N := by omega
  have hdm := Nat.div_add_mod (p / 4096) (entriesPerPmdOf N)
  rw [Nat.mul_comm] at hdm
  have hmod := Nat.mod_lt (p / 4096) hE
  obtain ⟨c1, _, _⟩ := ceil_div_bounds (numberBitmapsOf N) (entriesPerPmdOf N) hE
  refine ⟨?_, ?_, hdm⟩
  · unfold numberPmdNodesOf
    rw [Nat.div_lt_iff_lt_mul hE]
    omega
  · omega

/-- The bounds of PMD node `i` in the three-level layout. -/
theorem level3_node_shape (N : Nat) (hN : 0 < N) (i : Nat) :
    min (entriesPerPmdOf N * 4096) (N - i * (entriesPerPmdOf N * 4096)) ≤
      min (entriesPerPmdOf N) (numberBitmapsOf N - i * entriesPerPmdOf N) * 4096 ∧
    (∀ p, N ≤ p ∨ ¬ (i * entriesPerPmdOf N * 4096 +
        min (entriesPerPmdOf N * 4096) (N - i * (entriesPerPmdOf N * 4096)) ≤ p ∧
      p < (i * entriesPerPmdOf N +
        min (entriesPerPmdOf N) (numberBitmapsOf N - i * entriesPerPmdOf N)) * 4096)) := by
  have hb := numberBitmapsOf_bounds N hN
  have e : i * (entriesPerPmdOf N * 4096) = i * entriesPerPmdOf N * 4096 := by ring
  constructor
  · omega
  · intro p
    omega

theorem Inv.free_lt {N : Nat} {t : PageAllocationTable} (h : Inv N t) (p : Nat)
    (hp : p < N) (hc : slotBit t.bitmaps_ p = 0) : t.free_pages_ + 1 ≤ N := by
  have hb := numberBitmapsOf_bounds N h.pos
  rcases levelsOf_cases N with h1 | h2 | h3
  · -- one level: the only bitmap
    obtain ⟨a1, a2, _, _⟩ := level1_facts N h.pos h1
    obtain ⟨bm, hbm, hwf, hs⟩ := h.bitmap_at p hp
    have hp0 : p / 4096 = 0 := by omega
    rw [hp0] at hbm
    have hlist : t.bitmaps_ = [bm] := by
      apply List.ext_getElem?
      intro n
      cases n with
      | zero => simpa using hbm
      | succ m =>
        rw [List.getElem?_eq_none (by rw [h.bitmaps_length, a2]; omega)]
        simp
    rw [h.free, hlist]
    simp only [List.map_cons, List.map_nil, List.sum_cons, List.sum_nil, Nat.add_zero]
    apply Bitmap.number_of_set_bits_lt_of_clear bm hwf N (p % 4096 + 1) a1
    · intro q hq1 hq2
      have := slotBit_of_getElem? t.bitmaps_ 0 bm hbm q (by omega) hq2
      rw [← this]
      apply h.beyond
      omega
    · omega
    · omega
    · rw [← hs]; exact hc
  · -- two levels: the PGD node over all bitmaps
    obtain ⟨hn, _, hfree⟩ := h.level2 h2
    rw [← hfree]
    apply hn.node_free_lt (by omega) _ _ p (by omega) (by omega) hc
    · intro j hj
      obtain ⟨bm, hbm⟩ := getElem?_of_lt t.bitmaps_ (0 + j) (by rw [h.bitmaps_length]; omega)
      exact ⟨bm, hbm, h.bitmaps_wf bm (mem_of_getElem? _ _ _ hbm)⟩
    · intro q hq1 _
      apply h.beyond
      omega
  · -- three levels: the PMD node of the page, then the PGD node
    obtain ⟨b1, b2, b3, b4, b5, b6, b7, b8, b9⟩ := h.level3 h3
    obtain ⟨c1, c2, c3⟩ := level3_node_facts N h.pos p hp
    have hE := entriesPerPmdOf_pos N
    obtain ⟨nd, hnd, hover⟩ := b2 _ c1
    obtain ⟨s1, s2⟩ := level3_node_shape N h.pos (p / 4096 / entriesPerPmdOf N)
    have e : p / 4096 / entriesPerPmdOf N * (entriesPerPmdOf N * 4096) =
        p / 4096 / entriesPerPmdOf N * entriesPerPmdOf N * 4096 := by ring
    have hnode : nd.number_free_pages_ + 1 ≤
        min (entriesPerPmdOf N * 4096)
          (N - p / 4096 / entriesPerPmdOf N * (entriesPerPmdOf N * 4096)) := by
      apply hover.node_free_lt s1 _ _ p (by omega) (by omega) hc
      · intro j hj
        obtain ⟨bm, hbm⟩ := getElem?_of_lt t.bitmaps_
          (p / 4096 / entriesPerPmdOf N * entriesPerPmdOf N + j)
          (by rw [h.bitmaps_length]; omega)
        exact ⟨bm, hbm, h.bitmaps_wf bm (mem_of_getElem? _ _ _ hbm)⟩
      · intro q hq1 hq2
        apply h.beyond
        rcases s2 q with hq | hq
        · exact hq
        · exact absurd ⟨hq1, hq2⟩ hq
    rw [← b9, b6]
    have := sum_add_one_le_of_pointwise t.pgd_.entries_
      (fun i => min (entriesPerPmdOf N * 4096) (N - i * (entriesPerPmdOf N * 4096)))
      (by
        intro j hj
        rw [b4] at hj
        obtain ⟨nd2, hnd2, hover2⟩ := b2 j hj
        rw [b5 j hj, pmdField_of_getElem? _ _ _ _ hnd2]
        have := hover2.used
        show nd2.number_free_pages_ ≤
          min (entriesPerPmdOf N * 4096) (N - j * (entriesPerPmdOf N * 4096))
        omega)
      (p / 4096 / entriesPerPmdOf N) (by rw [b4]; exact c1)
      (by
        rw [b5 _ c1, pmdField_of_getElem? _ _ _ _ hnd]
        exact hnode)
    rw [b4, sum_range_min] at this
    omega

end PageAllocationTable

/-! ## `PageAllocationTable::FreePage` -/

namespace PageAllocationTable

theorem NodeOver.other {nd : PageAllocationTableNode} {bms : List LeafBitmap}
    {f len tot : Nat} (h : NodeOver nd bms f len tot) (k : Nat) (bm1 : LeafBitmap)
    (hk : k < f ∨ f + len ≤ k) : NodeOver nd (bms.set k bm1) f len tot :=
  { number_entries := h.number_entries
    length_entries := h.length_entries
    entry := by
      intro j hj
      rw [h.entry j hj, bitmapCount_set_ne _ _ _ _ (by omega)]
    free := h.free
    total := h.total
    used := h.used }

theorem NodeOver.release {nd : PageAllocationTableNode} {bms : List LeafBitmap}
    {f len tot : Nat} (h : NodeOver nd bms f len tot) (j : Nat) (hj : j < len)
    (bm bm1 : LeafBitmap) (hbm : bms[f + j]? = some bm)
    (hcount : bm1.number_of_set_bits = bm.number_of_set_bits + 1)
    (hlt : nd.number_free_pages_ + 1 ≤ tot) :
    nd.ReleasePages j 1 = some
        { nd with
          entries_ := nd.entries_.set j (wordAt nd.entries_ j + 1),
          number_free_pages_ := nd.number_free_pages_ + 1,
          number_used_pages_ := nd.number_used_pages_ - 1 } ∧
      NodeOver
        { nd with
          entries_ := nd.entries_.set j (wordAt nd.entries_ j + 1),
          number_free_pages_ := nd.number_free_pages_ + 1,
          number_used_pages_ := nd.number_used_pages_ - 1 }
        (bms.set (f + j) bm1) f len tot := by
  have hu := h.used
  have ht := h.total
  constructor
  · have c1 : j < nd.number_entries_ := by rw [h.number_entries]; exact hj
    have c2 : nd.number_free_pages_ + 1 + (nd.number_used_pages_ - 1) =
        nd.number_total_pages_ := by omega
    simp only [PageAllocationTableNode.ReleasePages, c1, if_true, c2]
  · refine
      { number_entries := h.number_entries
        length_entries := by simp [h.length_entries]
        entry := ?_
        free := ?_
        total := h.total
        used := ?_ }
    · intro j2 hj2
      by_cases hjj : j = j2
      · subst hjj
        show wordAt (nd.entries_.set j (wordAt nd.entries_ j + 1)) j = _
        rw [wordAt_set_eq _ _ _ (by rw [h.length_entries]; exact hj), h.entry j hj,
          bitmapCount_of_getElem? _ _ _ hbm,
          bitmapCount_of_getElem? _ _ _
            (List.getElem?_set_self (lt_length_of_getElem? _ _ _ hbm)), hcount]
      · show wordAt (nd.entries_.set j (wordAt nd.entries_ j + 1)) j2 = _
        rw [wordAt_set_ne _ _ _ _ hjj, h.entry j2 hj2, bitmapCount_set_ne _ _ _ _ (by omega)]
    · show nd.number_free_pages_ + 1 = (nd.entries_.set j (wordAt nd.entries_ j + 1)).sum
      have := sum_set_wordAt nd.entries_ j (wordAt nd.entries_ j + 1)
        (by rw [h.length_entries]; exact hj)
      have := h.free
      omega
    · show nd.number_used_pages_ - 1 + (nd.number_free_pages_ + 1) = tot
      omega

theorem mul_block_disjoint (i i2 j len E : Nat) (hne : i ≠ i2) (hj : j < E) (hlen : len ≤ E) :
    i * E + j < i2 * E ∨ i2 * E + len ≤ i * E + j := by
  rcases Nat.lt_or_gt_of_ne hne with h | h
  · left
    have : (i + 1) * E ≤ i2 * E := Nat.mul_le_mul_right _ h
    rw [Nat.succ_mul] at this
    omega
  · right
    have : (i2 + 1) * E ≤ i * E := Nat.mul_le_mul_right _ h
    rw [Nat.succ_mul] at this
    omega

/-- `FreePage` on an allocated page of a well-formed table: the call returns,
the table stays well-formed and exactly the bit of the page is set. -/
theorem free_spec {N : Nat} {t : PageAllocationTable} (h : Inv N t) (p : Nat)
    (hp : p < N) (hc : slotBit t.bitmaps_ p = 0) :
    ∃ t1 bm, t.bitmaps_[p / 4096]? = some bm ∧ t.FreePage p = some t1 ∧ Inv N t1 ∧
      t1.bitmaps_ = t.bitmaps_.set (p / 4096) (bm.setRaw (p % 4096 + 1)) ∧
      t1.free_pages_ = t.free_pages_ + 1 := by
  have hb := numberBitmapsOf_bounds N h.pos
  obtain ⟨bm, hbm, hwf, hs⟩ := h.bitmap_at p hp
  have hflt := h.free_lt p hp hc
  have hused := h.used
  have hget : bm.get (p % 4096 + 1) = some 0 := by
    rw [Bitmap.get_of_range _ _ (by omega) (by omega), ← hs, hc]
  have hset : bm.set (p % 4096 + 1) = some (bm.setRaw (p % 4096 + 1)) := by
    unfold Bitmap.set
    rw [if_pos ⟨by omega, by omega⟩]
  have hcount := count_setRaw_page bm hwf (p % 4096 + 1) (by omega) (by omega)
    (by rw [← hs]; exact hc)
  have hwf1 : ∀ b ∈ t.bitmaps_.set (p / 4096) (bm.setRaw (p % 4096 + 1)), b.WF := by
    intro b hb
    rcases List.mem_or_eq_of_mem_set hb with h1 | h1
    · exact h.bitmaps_wf b h1
    · rw [h1]; exact Bitmap.WF_setRaw _ _ hwf
  have hbeyond1 : ∀ q, N ≤ q →
      slotBit (t.bitmaps_.set (p / 4096) (bm.setRaw (p % 4096 + 1))) q = 0 := by
    intro q hq
    rw [slotBit_set_page _ _ _ hbm hwf, if_neg (by omega)]
    exact h.beyond q hq
  have hfree1 : t.free_pages_ + 1 =
      ((t.bitmaps_.set (p / 4096) (bm.setRaw (p % 4096 + 1))).map
        Bitmap.number_of_set_bits).sum := by
    have := sum_counts_set t.bitmaps_ (p / 4096) bm (bm.setRaw (p % 4096 + 1)) hbm
    have := h.free
    omega
  rcases levelsOf_cases N with h1 | h2 | h3
  · obtain ⟨a1, a2, _, _⟩ := level1_facts N h.pos h1
    have hp0 : p / 4096 = 0 := by omega
    have hpm : p % 4096 = p := by omega
    refine ⟨_, bm, hbm, ?_, h.of_change _ t.pgd_ t.pmds_ (t.free_pages_ + 1)
      (t.used_pages_ - 1) (by simp) hwf1 hbeyond1 hfree1 (by omega) (fun _ => h.level1 h1)
      (fun hh => by omega) (fun hh => by omega), rfl, rfl⟩
    rw [hp0] at hbm
    rw [hpm] at hget hset
    have hlt : p < t.total_pages_ := by rw [h.total_pages]; exact hp
    simp only [FreePage, hlt, not_true, if_false, h.levels, h1, if_true, h.bitmap_mask,
      and_mask_level1 N p h.pos h1 hp, hbm, hget, hset, hp0, hpm]
  · -- two levels
    obtain ⟨hn, hpm, hfree⟩ := h.level2 h2
    have hne1 : levelsOf N ≠ 1 := by omega
    have hbm0 : t.bitmaps_[0 + p / 4096]? = some bm := by rw [Nat.zero_add]; exact hbm
    obtain ⟨r1, r2⟩ := hn.release (p / 4096) (by omega) bm (bm.setRaw (p % 4096 + 1)) hbm0
      hcount (by rw [hfree]; exact hflt)
    rw [Nat.zero_add] at r2
    refine ⟨_, bm, hbm, ?_, h.of_change _ _ t.pmds_ (t.free_pages_ + 1)
      (t.used_pages_ - 1) (by simp) hwf1 hbeyond1 hfree1 (by omega) (fun hh => by omega)
      (fun _ => ⟨r2, hpm, by show t.pgd_.number_free_pages_ + 1 = _; rw [hfree]⟩)
      (fun hh => by omega), rfl, rfl⟩
    have hlt : p < t.total_pages_ := by rw [h.total_pages]; exact hp
    have hl1 : ¬ (2 = 1) := by decide
    simp only [FreePage, hlt, not_true, if_false, h.levels, h2, hl1, if_true, h.bitmap_mask,
      and_mask_not_level1 N p hne1, h.bitmap_bits, shiftRight_not_level1 N p hne1,
      hbm, hget, hset, r1]
  · -- three levels
    obtain ⟨b1, b2, b3, b4, b5, b6, b7, b8, b9⟩ := h.level3 h3
    obtain ⟨c1, c2, c3⟩ := level3_node_facts N h.pos p hp
    have hne1 : levelsOf N ≠ 1 := by omega
    obtain ⟨nd, hnd, hover⟩ := b2 _ c1
    have hbm3 : t.bitmaps_[p / 4096 / entriesPerPmdOf N * entriesPerPmdOf N +
        p / 4096 % entriesPerPmdOf N]? = some bm := by rw [c3]; exact hbm
    -- the PMD node of the page has room for one more free page
    obtain ⟨s1, s2⟩ := level3_node_shape N h.pos (p / 4096 / entriesPerPmdOf N)
    have e : p / 4096 / entriesPerPmdOf N * (entriesPerPmdOf N * 4096) =
        p / 4096 / entriesPerPmdOf N * entriesPerPmdOf N * 4096 := by ring
    have hnode : nd.number_free_pages_ + 1 ≤
        min (entriesPerPmdOf N * 4096)
          (N - p / 4096 / entriesPerPmdOf N * (entriesPerPmdOf N * 4096)) := by
      apply hover.node_free_lt s1 _ _ p (by omega) (by omega) hc
      · intro j hj
        obtain ⟨bm2, hbm2⟩ := getElem?_of_lt t.bitmaps_
          (p / 4096 / entriesPerPmdOf N * entriesPerPmdOf N + j)
          (by rw [h.bitmaps_length]; omega)
        exact ⟨bm2, hbm2, h.bitmaps_wf bm2 (mem_of_getElem? _ _ _ hbm2)⟩
      · intro q hq1 hq2
        apply h.beyond
        rcases s2 q with hq | hq
        · exact hq
        · exact absurd ⟨hq1, hq2⟩ hq
    obtain ⟨r1, r2⟩ := hover.release (p / 4096 % entriesPerPmdOf N) c2 bm
      (bm.setRaw (p % 4096 + 1)) hbm3 hcount hnode
    rw [c3] at r2
    have hi : p / 4096 / entriesPerPmdOf N < t.pgd_.number_entries_ := by rw [b3]; exact c1
    have hpgd : t.pgd_.number_free_pages_ + 1 + (t.pgd_.number_used_pages_ - 1) =
        t.pgd_.number_total_pages_ := by omega
    have hilen : p / 4096 / entriesPerPmdOf N < t.pmds_.length := by rw [b1]; exact c1
    refine ⟨_, bm, hbm, ?_, h.of_change _
      { t.pgd_ with
        entries_ := t.pgd_.entries_.set (p / 4096 / entriesPerPmdOf N)
          (wordAt t.pgd_.entries_ (p / 4096 / entriesPerPmdOf N) + 1),
        number_free_pages_ := t.pgd_.number_free_pages_ + 1,
        number_used_pages_ := t.pgd_.number_used_pages_ - 1 }
      (t.pmds_.set (p / 4096 / entriesPerPmdOf N)
        { nd with
          entries_ := nd.entries_.set (p / 4096 % entriesPerPmdOf N)
            (wordAt nd.entries_ (p / 4096 % entriesPerPmdOf N) + 1),
          number_free_pages_ := nd.number_free_pages_ + 1,
          number_used_pages_ := nd.number_used_pages_ - 1 })
      (t.free_pages_ + 1)
      (t.used_pages_ - 1) (by simp) hwf1 hbeyond1 hfree1 (by omega) (fun hh => by omega)
      (fun hh => by omega) (fun _ => ⟨by simp [b1], ?_, b3, by simp [b4], ?_, ?_, b7, ?_, ?_⟩),
      rfl, rfl⟩
    · have hlt : p < t.total_pages_ := by rw [h.total_pages]; exact hp
      have hl1 : ¬ (3 = 1) := by decide
      have hl2 : ¬ (3 = 2) := by decide
      have hpmdoff : (p / 4096) &&& ((1 <<< pmdBitsOf N) - 1) = p / 4096 % entriesPerPmdOf N := by
        rw [and_mask_eq_mod, entriesPerPmdOf_eq]
      have hrel : t.pgd_.ReleasePages (p / 4096 / entriesPerPmdOf N) 1 = some
          { t.pgd_ with
            entries_ := t.pgd_.entries_.set (p / 4096 / entriesPerPmdOf N)
              (wordAt t.pgd_.entries_ (p / 4096 / entriesPerPmdOf N) + 1),
            number_free_pages_ := t.pgd_.number_free_pages_ + 1,
            number_used_pages_ := t.pgd_.number_used_pages_ - 1 } := by
        simp only [PageAllocationTableNode.ReleasePages, hi, if_true, hpgd]
      simp only [FreePage, hlt, not_true, if_false, h.levels, h3, hl1, hl2, h.bitmap_mask,
        and_mask_not_level1 N p hne1, h.bitmap_bits, h.pmd_bits, h.pgd_mask, h.pmd_mask,
        pgd_offset_eq N p h.pos h3 hp,
        shiftRight_not_level1 N p hne1, hpmdoff, hbm, hget, hset, hnd, r1, hrel, if_true]
    · intro i2 hi2
      by_cases hii : p / 4096 / entriesPerPmdOf N = i2
      · subst hii
        exact ⟨_, List.getElem?_set_self hilen, r2⟩
      · obtain ⟨nd2, hnd2, hover2⟩ := b2 i2 hi2
        refine ⟨nd2, by rw [List.getElem?_set_ne hii]; exact hnd2, ?_⟩
        apply hover2.other
        have := mul_block_disjoint (p / 4096 / entriesPerPmdOf N) i2
          (p / 4096 % entriesPerPmdOf N)
          (min (entriesPerPmdOf N) (numberBitmapsOf N - i2 * entriesPerPmdOf N))
          (entriesPerPmdOf N) hii (by omega) (Nat.min_le_left _ _)
        omega
    · intro i2 hi2
      by_cases hii : p / 4096 / entriesPerPmdOf N = i2
      · subst hii
        show wordAt (t.pgd_.entries_.set _ _) _ = _
        rw [wordAt_set_eq _ _ _ (by rw [b4]; exact c1),
          pmdField_of_getElem? _ _ _ _ (List.getElem?_set_self hilen), b5 _ c1,
          pmdField_of_getElem? _ _ _ _ hnd]
      · show wordAt (t.pgd_.entries_.set _ _) _ = _
        rw [wordAt_set_ne _ _ _ _ hii, b5 i2 hi2]
        unfold pmdField
        rw [List.getElem?_set_ne hii]
    · show t.pgd_.number_free_pages_ + 1 = (t.pgd_.entries_.set _ _).sum
      have := sum_set_wordAt t.pgd_.entries_ (p / 4096 / entriesPerPmdOf N)
        (wordAt t.pgd_.entries_ (p / 4096 / entriesPerPmdOf N) + 1) (by rw [b4]; exact c1)
      omega
    · show t.pgd_.number_used_pages_ - 1 + (t.pgd_.number_free_pages_ + 1) = N
      omega
    · show t.pgd_.number_free_pages_ + 1 = t.free_pages_ + 1
      omega

/-- `FreePage` returns only for a page of the table that is allocated. -/
theorem free_pre {N : Nat} {t t1 : PageAllocationTable} (h : Inv N t) (p : Nat)
    (e : t.FreePage p = some t1) : p < N ∧ slotBit t.bitmaps_ p = 0 := by
  by_cases hp : p < N
  · refine ⟨hp, ?_⟩
    by_contra hc
    have hb := numberBitmapsOf_bounds N h.pos
    obtain ⟨bm, hbm, hwf, hs⟩ := h.bitmap_at p hp
    have hget : ¬ bm.get (p % 4096 + 1) = some 0 := by
      rw [Bitmap.get_of_range _ _ (by omega) (by omega), ← hs]
      intro hh
      exact hc (Option.some.inj hh)
    have hlt : p < t.total_pages_ := by rw [h.total_pages]; exact hp
    rcases levelsOf_cases N with h1 | h2 | h3
    · obtain ⟨a1, a2, _, _⟩ := level1_facts N h.pos h1
      have hp0 : p / 4096 = 0 := by omega
      have hpm : p % 4096 = p := by omega
      rw [hp0] at hbm
      rw [hpm] at hget
      simp only [FreePage, hlt, not_true, if_false, h.levels, h1, if_true, h.bitmap_mask,
        and_mask_level1 N p h.pos h1 hp, hbm, hget] at e
      exact Option.noConfusion e
    · have hne1 : levelsOf N ≠ 1 := by omega
      have hl1 : ¬ (2 = 1) := by decide
      simp only [FreePage, hlt, not_true, if_false, h.levels, h2, hl1, if_true, h.bitmap_mask,
        and_mask_not_level1 N p hne1, h.bitmap_bits, shiftRight_not_level1 N p hne1,
        hbm, hget] at e
      exact Option.noConfusion e
    · have hne1 : levelsOf N ≠ 1 := by omega
      have hl1 : ¬ (3 = 1) := by decide
      have hl2 : ¬ (3 = 2) := by decide
      simp only [FreePage, hlt, not_true, if_false, h.levels, h3, hl1, hl2, h.bitmap_mask,
        and_mask_not_level1 N p hne1, h.bitmap_bits,
        shiftRight_not_level1 N p hne1, hbm, hget] at e
      exact Option.noConfusion e
  · have hlt : ¬ p < t.total_pages_ := by rw [h.total_pages]; exact hp
    simp only [FreePage, hlt, not_false_eq_true, if_true] at e
    exact Option.noConfusion e

end PageAllocationTable

/-! ## `PageAllocationTable::AllocatePages` -/

namespace PageAllocationTable

theorem NodeOver.congr_bitmaps {nd : PageAllocationTableNode} {bms bms1 : List LeafBitmap}
    {f len tot : Nat} (h : NodeOver nd bms f len tot)
    (hsame : ∀ j, j < len → bms1[f + j]? = bms[f + j]?) : NodeOver nd bms1 f len tot :=
  { number_entries := h.number_entries
    length_entries := h.length_entries
    entry := by
      intro j hj
      rw [h.entry j hj]
      unfold bitmapCount
      rw [hsame j hj]
    free := h.free
    total := h.total
    used := h.used }

theorem wordAt_map_free (pmds : List PageAllocationTableNode) (i : Nat) :
    wordAt (pmds.map (·.number_free_pages_)) i = pmdField (·.number_free_pages_) pmds i := by
  unfold wordAt pmdField
  rw [List.getD_eq_getElem?_getD, List.getElem?_map]
  cases pmds[i]? <;> rfl

/-- What a node looks like after a successful `GetPages` followed by the loop
over its bitmaps. -/
theorem NodeOver.after_take {nd : PageAllocationTableNode} {bms bms1 : List LeafBitmap}
    {f len tot : Nat} (h : NodeOver nd bms f len tot) (plan : List (Nat × Nat)) (c : Nat)
    (hplan : PlanOK nd.entries_ plan) (hsum : (plan.map Prod.snd).sum = c)
    (hcounts : ∀ j, j < len → ∃ bm, bms1[f + j]? = some bm ∧
      bm.number_of_set_bits = wordAt (applyPlan nd.entries_ plan) j) :
    NodeOver
      { nd with
        entries_ := applyPlan nd.entries_ plan,
        number_free_pages_ := nd.number_free_pages_ - c,
        number_used_pages_ := nd.number_used_pages_ + c }
      bms1 f len tot := by
  have hs := applyPlan_sum plan nd.entries_ hplan
  have hf := h.free
  have hu := h.used
  refine
    { number_entries := h.number_entries
      length_entries := by
        show (applyPlan nd.entries_ plan).length = len
        rw [applyPlan_length, h.length_entries]
      entry := ?_
      free := ?_
      total := h.total
      used := ?_ }
  · intro j hj
    obtain ⟨bm, hbm, hc⟩ := hcounts j hj
    show wordAt (applyPlan nd.entries_ plan) j = _
    rw [bitmapCount_of_getElem? _ _ _ hbm, hc]
  · show nd.number_free_pages_ - c = (applyPlan nd.entries_ plan).sum
    omega
  · show nd.number_used_pages_ + c + (nd.number_free_pages_ - c) = tot
    omega

theorem NodeOver.counts {nd : PageAllocationTableNode} {bms : List LeafBitmap}
    {f len tot : Nat} (h : NodeOver nd bms f len tot) (hlen : f + len ≤ bms.length) :
    ∀ j, j < len → ∃ bm, bms[f + j]? = some bm ∧
      bm.number_of_set_bits = wordAt nd.entries_ j := by
  intro j hj
  obtain ⟨bm, hbm⟩ := getElem?_of_lt bms (f + j) (by omega)
  refine ⟨bm, hbm, ?_⟩
  rw [h.entry j hj, bitmapCount_of_getElem? _ _ _ hbm]

/-- The bitmaps of PMD node `i` lie inside the bitmap array. -/
theorem level3_node_inside (N i : Nat) :
    i * entriesPerPmdOf N +
      min (entriesPerPmdOf N) (numberBitmapsOf N - i * entriesPerPmdOf N) ≤ numberBitmapsOf N ∨
    min (entriesPerPmdOf N) (numberBitmapsOf N - i * entriesPerPmdOf N) = 0 := by
  omega

/-- The outer loop of the three-level branch of `AllocatePages`. -/
theorem takeFromPmds_spec (N : Nat) (h3 : levelsOf N = 3) :
    ∀ (plan : List (Nat × Nat)) (pmds : List PageAllocationTableNode)
      (bms : List LeafBitmap),
      pmds.length = numberPmdNodesOf N → bms.length = numberBitmapsOf N →
      (∀ bm ∈ bms, bm.WF) →
      (∀ i, i < numberPmdNodesOf N → ∃ nd, pmds[i]? = some nd ∧
        NodeOver nd bms (i * entriesPerPmdOf N)
          (min (entriesPerPmdOf N) (numberBitmapsOf N - i * entriesPerPmdOf N))
          (min (entriesPerPmdOf N * 4096) (N - i * (entriesPerPmdOf N * 4096)))) →
      PlanOK (pmds.map (·.number_free_pages_)) plan →
      ∃ ps pmds1 bms1,
        takeFromPmds (pmdBitsOf N) (bitmapBitsOf N) plan pmds bms = some (ps, pmds1, bms1) ∧
        Took bms ps bms1 ∧ ps.length = (plan.map Prod.snd).sum ∧
        pmds1.length = numberPmdNodesOf N ∧
        (∀ i, i < numberPmdNodesOf N → ∃ nd, pmds1[i]? = some nd ∧
          NodeOver nd bms1 (i * entriesPerPmdOf N)
            (min (entriesPerPmdOf N) (numberBitmapsOf N - i * entriesPerPmdOf N))
            (min (entriesPerPmdOf N * 4096) (N - i * (entriesPerPmdOf N * 4096)))) ∧
        pmds1.map (·.number_free_pages_) = applyPlan (pmds.map (·.number_free_pages_)) plan ∧
        (bms1.map Bitmap.number_of_set_bits).sum + (plan.map Prod.snd).sum =
          (bms.map Bitmap.number_of_set_bits).sum := by
  intro plan
  induction plan with
  | nil =>
    intro pmds bms hl1 _ _ hnodes _
    exact ⟨[], pmds, bms, rfl, Took.refl bms, rfl, hl1, hnodes, rfl, by simp⟩
  | cons hd rest ih =>
    intro pmds bms hl1 hl2 hwf hnodes hplan
    obtain ⟨i, c⟩ := hd
    obtain ⟨p1, p2, p3⟩ := hplan
    have hi : i < numberPmdNodesOf N := by
      rw [← hl1]
      simpa using p1
    obtain ⟨nd, hnd, hover⟩ := hnodes i hi
    have hfree_i : wordAt (pmds.map (·.number_free_pages_)) i = nd.number_free_pages_ := by
      rw [wordAt_map_free, pmdField_of_getElem? _ _ _ _ hnd]
    rw [hfree_i] at p2 p3
    obtain ⟨plan_i, g1, g2, g3⟩ := PageAllocationTableNode.GetPages_spec nd c
      (by rw [hover.number_entries, hover.length_entries]) hover.free p2
    have hinside : i * entriesPerPmdOf N +
        min (entriesPerPmdOf N) (numberBitmapsOf N - i * entriesPerPmdOf N) ≤ bms.length ∨
        min (entriesPerPmdOf N) (numberBitmapsOf N - i * entriesPerPmdOf N) = 0 := by
      rw [hl2]
      exact level3_node_inside N i
    have hcs : ∀ j, j < min (entriesPerPmdOf N) (numberBitmapsOf N - i * entriesPerPmdOf N) →
        ∃ bm, bms[i <<< pmdBitsOf N + j]? = some bm ∧
          bm.number_of_set_bits = wordAt nd.entries_ j := by
      intro j hj
      rw [level3_first_eq]
      rcases hinside with hin | hin
      · exact hover.counts hin j hj
      · omega
    obtain ⟨ps, bms1, e1, e2, e3, e4, e5, e6⟩ :=
      takeFromBitmaps_spec (i <<< pmdBitsOf N)
        (fun j page_number =>
          (i <<< (pmdBitsOf N + bitmapBitsOf N)) ||| (j <<< bitmapBitsOf N) |||
            (page_number - 1))
        (min (entriesPerPmdOf N) (numberBitmapsOf N - i * entriesPerPmdOf N))
        (fun j hj => level3_bitmap_index_eq N i j (by omega))
        (fun j q hj hq1 hq2 => level3_page_eq N i j q h3 (by omega) hq1 hq2)
        plan_i nd.entries_ bms hover.length_entries g2 hwf hcs
    rw [level3_first_eq] at e4 e5
    have hover1 := @NodeOver.after_take _ _ bms1 _ _ _ hover plan_i c g2 g3 e4
    have hilen : i < pmds.length := by rw [hl1]; exact hi
    obtain ⟨qs, pmds2, bms2, f1, f2, f3, f4, f5, f6, f7⟩ :=
      ih (pmds.set i
          { nd with
            entries_ := applyPlan nd.entries_ plan_i,
            number_free_pages_ := nd.number_free_pages_ - c,
            number_used_pages_ := nd.number_used_pages_ + c })
        bms1 (by rw [List.length_set]; exact hl1) (by rw [e2.length_eq]; exact hl2)
        (e2.wf hwf)
        (by
          intro i2 hi2
          by_cases hii : i = i2
          · subst hii
            exact ⟨_, List.getElem?_set_self hilen, hover1⟩
          · obtain ⟨nd2, hnd2, hover2⟩ := hnodes i2 hi2
            refine ⟨nd2, by rw [List.getElem?_set_ne hii]; exact hnd2, ?_⟩
            apply hover2.congr_bitmaps
            intro j hj
            apply e5
            have := mul_block_disjoint i2 i j
              (min (entriesPerPmdOf N) (numberBitmapsOf N - i * entriesPerPmdOf N))
              (entriesPerPmdOf N) (fun e => hii e.symm) (by omega) (Nat.min_le_left _ _)
            omega)
        (by
          rw [List.map_set]
          exact p3)
    refine ⟨ps ++ qs, pmds2, bms2, ?_, Took.trans e2 f2, ?_, f4, f5, ?_, ?_⟩
    · simp only [takeFromPmds, hnd, g1, e1, f1]
    · simp only [List.length_append, List.map_cons, List.sum_cons]
      omega
    · rw [f6, List.map_set]
      simp only [applyPlan, hfree_i]
    · simp only [List.map_cons, List.sum_cons]
      omega

theorem Took.beyond {bms bms1 : List LeafBitmap} {ps : List Nat} (h : Took bms ps bms1)
    (N : Nat) (hb : ∀ p, N ≤ p → slotBit bms p = 0) : ∀ p, N ≤ p → slotBit bms1 p = 0 := by
  intro p hp
  rw [h.now p]
  split
  · rfl
  · exact hb p hp

/-- `AllocatePages` on a well-formed table with enough free pages: the call
returns true, the table stays well-formed, and the pages handed out are
distinct pages that were free. -/
theorem allocate_spec {N : Nat} {t : PageAllocationTable} (h : Inv N t) (want : Nat)
    (pages : List Nat) (hw : want ≤ t.free_pages_) :
    ∃ out t1, t.AllocatePages want pages = some (true, out, t1) ∧ Inv N t1 ∧
      Took t.bitmaps_ out t1.bitmaps_ ∧ out.length = want ∧
      t1.free_pages_ + want = t.free_pages_ ∧ t1.used_pages_ = t.used_pages_ + want := by
  have hb := numberBitmapsOf_bounds N h.pos
  have hnot : ¬ t.free_pages_ < want := by omega
  have hused := h.used
  have hfree := h.free
  rcases levelsOf_cases N with h1 | h2 | h3
  · -- one level
    obtain ⟨a1, a2, _, _⟩ := level1_facts N h.pos h1
    obtain ⟨bm, hbm⟩ := getElem?_of_lt t.bitmaps_ 0 (by rw [h.bitmaps_length]; omega)
    have hlist : t.bitmaps_ = [bm] := by
      apply List.ext_getElem?
      intro n
      cases n with
      | zero => simpa using hbm
      | succ m =>
        rw [List.getElem?_eq_none (by rw [h.bitmaps_length, a2]; omega)]
        simp
    have hcnt : t.free_pages_ = bm.number_of_set_bits := by
      rw [hfree, hlist]
      simp
    obtain ⟨ps, bm1, e1, e2, e3, e4, e5⟩ :=
      takePages_spec 0 (fun page_number => page_number - 1)
        (fun q _ _ => by simp) want t.bitmaps_ bm hbm
        (h.bitmaps_wf bm (mem_of_getElem? _ _ _ hbm)) (by omega)
    have hsum := sum_counts_set t.bitmaps_ 0 bm bm1 hbm
    refine ⟨ps, _, ?_, h.of_change (t.bitmaps_.set 0 bm1) t.pgd_ t.pmds_
      (t.free_pages_ - want) (t.used_pages_ + want) e5.length_eq (e5.wf h.bitmaps_wf)
      (e5.beyond N h.beyond) (by omega) (by omega) (fun _ => h.level1 h1)
      (fun hh => by omega) (fun hh => by omega), e5, e4, ?_, rfl⟩
    · simp only [AllocatePages, hnot, if_false, h.levels, h1, if_true, hbm, e1, e4,
        decide_True]
    · show t.free_pages_ - want + want = t.free_pages_
      omega
  · -- two levels
    obtain ⟨hn, hpm, hpf⟩ := h.level2 h2
    obtain ⟨plan, g1, g2, g3⟩ := PageAllocationTableNode.GetPages_spec t.pgd_ want
      (by rw [hn.number_entries, hn.length_entries]) hn.free (by omega)
    obtain ⟨ps, bms1, e1, e2, e3, e4, e5, e6⟩ :=
      takeFromBitmaps_spec 0
        (fun j page_number => (j <<< bitmapBitsOf N) ||| (page_number - 1))
        (numberBitmapsOf N)
        (fun j _ => by simp)
        (fun j q _ hq1 hq2 => level2_page_eq N j q h2 hq1 hq2)
        plan t.pgd_.entries_ t.bitmaps_ hn.length_entries g2 h.bitmaps_wf
        (hn.counts (by rw [h.bitmaps_length]; omega))
    have hover1 := @NodeOver.after_take _ _ bms1 _ _ _ hn plan want g2 g3 e4
    refine ⟨ps, _, ?_, h.of_change bms1 _ t.pmds_
      (t.free_pages_ - want) (t.used_pages_ + want) e2.length_eq (e2.wf h.bitmaps_wf)
      (e2.beyond N h.beyond) (by omega) (by omega) (fun hh => by omega)
      (fun _ => ⟨hover1, hpm, by show t.pgd_.number_free_pages_ - want = _; rw [hpf]⟩)
      (fun hh => by omega), e2, by omega, ?_, rfl⟩
    · have hl1 : ¬ (2 = 1) := by decide
      have hlen : ps.length = want := by omega
      simp only [AllocatePages, hnot, if_false, h.levels, h2, hl1, if_true, g1,
        h.bitmap_bits, e1, hlen, decide_True]
    · show t.free_pages_ - want + want = t.free_pages_
      omega
  · -- three levels
    obtain ⟨b1, b2, b3, b4, b5, b6, b7, b8, b9⟩ := h.level3 h3
    have hentries : t.pgd_.entries_ = t.pmds_.map (·.number_free_pages_) := by
      apply List.ext_getElem (by simp [b4, b1])
      intro n hn1 hn2
      rw [← wordAt_eq_getElem _ _ hn1, ← wordAt_eq_getElem _ _ hn2, wordAt_map_free,
        b5 n (by rw [← b4]; exact hn1)]
    obtain ⟨plan, g1, g2, g3⟩ := PageAllocationTableNode.GetPages_spec t.pgd_ want
      (by rw [b3, b4]) b6 (by omega)
    obtain ⟨ps, pmds1, bms1, e1, e2, e3, e4, e5, e6, e7⟩ :=
      takeFromPmds_spec N h3 plan t.pmds_ t.bitmaps_ b1 h.bitmaps_length h.bitmaps_wf b2
        (by rw [← hentries]; exact g2)
    have hs := applyPlan_sum plan t.pgd_.entries_ g2
    refine ⟨ps, _, ?_, h.of_change bms1
      { t.pgd_ with
        entries_ := applyPlan t.pgd_.entries_ plan,
        number_free_pages_ := t.pgd_.number_free_pages_ - want,
        number_used_pages_ := t.pgd_.number_used_pages_ + want }
      pmds1
      (t.free_pages_ - want) (t.used_pages_ + want) e2.length_eq (e2.wf h.bitmaps_wf)
      (e2.beyond N h.beyond) (by omega) (by omega) (fun hh => by omega)
      (fun hh => by omega)
      (fun _ => ⟨e4, e5, b3, ?_, ?_, ?_, b7, ?_, ?_⟩), e2, by omega, ?_, rfl⟩
    · have hl1 : ¬ (3 = 1) := by decide
      have hl2 : ¬ (3 = 2) := by decide
      have hlen : ps.length = want := by omega
      simp only [AllocatePages, hnot, if_false, h.levels, h3, hl1, hl2, g1,
        h.bitmap_bits, h.pmd_bits, e1, hlen, decide_True]
    · show (applyPlan t.pgd_.entries_ plan).length = _
      rw [applyPlan_length, b4]
    · intro i hi
      show wordAt (applyPlan t.pgd_.entries_ plan) i = _
      rw [hentries, ← e6, wordAt_map_free]
    · show t.pgd_.number_free_pages_ - want = (applyPlan t.pgd_.entries_ plan).sum
      omega
    · show t.pgd_.number_used_pages_ + want + (t.pgd_.number_free_pages_ - want) = N
      omega
    · show t.pgd_.number_free_pages_ - want = t.free_pages_ - want
      omega
    · show t.free_pages_ - want + want = t.free_pages_
      omega

end PageAllocationTable

/-! ## The parts of `PageAllocationTable::Init` -/


namespace Bitmap

theorem set_all_WF (b : LeafBitmap) : (set_all b).WF := by
  refine ⟨by simp [set_all], ?_⟩
  intro w hw
  have := List.eq_of_mem_replicate hw
  subst this
  norm_num

theorem getRaw_set_all (b : LeafBitmap) (q : Nat) (h1 : 1 ≤ q) (h2 : q ≤ 4096) :
    (set_all b).getRaw q = 1 := by
  rw [getRaw_eq]
  have hw : wordAt (set_all b).map ((q - 1) / 64) = 2 ^ 64 - 1 := by
    unfold wordAt set_all
    rw [List.getD_eq_getElem?_getD, List.getElem?_replicate]
    have : (q - 1) / 64 < (4096 + 63) / 64 := by omega
    simp [this]
  rw [hw, Nat.testBit_two_pow_sub_one]
  have : (q - 1) % 64 < 64 := Nat.mod_lt _ (by decide)
  simp [this]

end Bitmap

namespace PageAllocationTable

theorem clearFrom_spec : ∀ (todo i : Nat) (bm : LeafBitmap), 1 ≤ i → i + todo ≤ 4097 →
    ∃ bm1, clearFrom todo i bm = some bm1 ∧ (bm.WF → bm1.WF) ∧
      ∀ q, 1 ≤ q → bm1.getRaw q = if i ≤ q ∧ q < i + todo then 0 else bm.getRaw q := by
  intro todo
  induction todo with
  | zero =>
    intro i bm _ _
    refine ⟨bm, rfl, fun h => h, ?_⟩
    intro q _
    rw [if_neg (by omega)]
  | succ n ih =>
    intro i bm h1 h2
    obtain ⟨bm1, e1, e2, e3⟩ := ih (i + 1) (bm.clearRaw i) (by omega) (by omega)
    refine ⟨bm1, ?_, fun h => e2 (Bitmap.WF_clearRaw _ _ h), ?_⟩
    · have hc : bm.clear i = some (bm.clearRaw i) := by
        unfold Bitmap.clear
        rw [if_pos ⟨by omega, by omega⟩]
      simp only [clearFrom, hc, e1]
    · intro q hq
      rw [e3 q hq, Bitmap.getRaw_clearRaw _ _ _ h1 hq]
      by_cases hqi : q = i
      · subst hqi
        simp
      · by_cases hr : i + 1 ≤ q ∧ q < i + 1 + n
        · rw [if_pos hr, if_pos (by omega)]
        · rw [if_neg hr, if_neg hqi, if_neg (by omega)]

/-- The leaf bitmaps that `Init` builds: exactly the bits of the pages `p < N`
are set. -/
theorem initBitmaps_spec (N : Nat) (hN : 0 < N) :
    ∃ bms, initBitmaps N = some bms ∧ bms.length = numberBitmapsOf N ∧
      (∀ bm ∈ bms, bm.WF) ∧ ∀ p, slotBit bms p = if p < N then 1 else 0 := by
  have hb := numberBitmapsOf_bounds N hN
  have hall_get : ∀ k, k < numberBitmapsOf N →
      (List.replicate (numberBitmapsOf N) (Bitmap.set_all (⟨[]⟩ : LeafBitmap)))[k]? =
        some (Bitmap.set_all (⟨[]⟩ : LeafBitmap)) := by
    intro k hk
    rw [List.getElem?_replicate, if_pos hk]
  have hall_slot : ∀ p,
      slotBit (List.replicate (numberBitmapsOf N) (Bitmap.set_all (⟨[]⟩ : LeafBitmap))) p =
        if p / 4096 < numberBitmapsOf N then 1 else 0 := by
    intro p
    unfold slotBit
    rw [List.getElem?_replicate]
    by_cases hk : p / 4096 < numberBitmapsOf N
    · simp only [hk, if_true]
      exact Bitmap.getRaw_set_all _ _ (by omega) (by omega)
    · simp only [hk, if_false]
  have hall_wf : ∀ bm ∈ List.replicate (numberBitmapsOf N) (Bitmap.set_all (⟨[]⟩ : LeafBitmap)),
      bm.WF := by
    intro bm hbm
    rw [List.eq_of_mem_replicate hbm]
    exact Bitmap.set_all_WF _
  by_cases hr : N % 4096 = 0
  · refine ⟨List.replicate (numberBitmapsOf N) (Bitmap.set_all (⟨[]⟩ : LeafBitmap)), ?_,
      by simp, hall_wf, ?_⟩
    · simp only [initBitmaps, PAGES_PER_BITMAP_eq, hr, ne_eq, not_true, if_false]
      rfl
    · intro p
      rw [hall_slot]
      by_cases hp : p < N
      · rw [if_pos hp, if_pos (by omega)]
      · rw [if_neg hp, if_neg (by omega)]
  · obtain ⟨bm1, c1, c2, c3⟩ := clearFrom_spec (4096 - N % 4096) (N % 4096 + 1)
      (Bitmap.set_all (⟨[]⟩ : LeafBitmap)) (by omega) (by omega)
    have hlast := hall_get (numberBitmapsOf N - 1) (by omega)
    refine ⟨(List.replicate (numberBitmapsOf N) (Bitmap.set_all (⟨[]⟩ : LeafBitmap))).set
      (numberBitmapsOf N - 1) bm1, ?_, by simp, ?_, ?_⟩
    · simp only [initBitmaps, PAGES_PER_BITMAP_eq, hr, ne_eq, not_false_eq_true, if_true]
      have e : (N + 4096 - 1) / 4096 = numberBitmapsOf N := by
        unfold numberBitmapsOf
        rw [PAGES_PER_BITMAP_eq]
      simp only [e, hlast, c1]
    · intro bm hbm
      rcases List.mem_or_eq_of_mem_set hbm with h1 | h1
      · exact hall_wf bm h1
      · rw [h1]
        exact c2 (Bitmap.set_all_WF _)
    · intro p
      rw [slotBit_set _ _ _ _ (by simp; omega)]
      by_cases hk : p / 4096 = numberBitmapsOf N - 1
      · rw [if_pos hk, c3 _ (by omega)]
        by_cases hp : p < N
        · rw [if_pos hp, if_neg (by omega)]
          exact Bitmap.getRaw_set_all _ _ (by omega) (by omega)
        · rw [if_neg hp, if_pos (by omega)]
      · rw [if_neg hk, hall_slot]
        by_cases hp : p < N
        · rw [if_pos hp, if_pos (by omega)]
        · rw [if_neg hp, if_neg (by omega)]

/-- The number of set bits of a bitmap whose set bits are exactly those of the
pages below `N`. -/
theorem bitmapCount_of_full (bms : List LeafBitmap) (N : Nat)
    (hs : ∀ p, slotBit bms p = if p < N then 1 else 0) (i : Nat) (hi : i < bms.length) :
    bitmapCount bms i = min 4096 (N - i * 4096) := by
  obtain ⟨bm, hbm⟩ := getElem?_of_lt bms i hi
  rw [bitmapCount_of_getElem? _ _ _ hbm]
  apply Bitmap.number_of_set_bits_prefix bm _ (Nat.min_le_left _ _)
  · intro q h1 h2
    rw [← slotBit_of_getElem? bms i bm hbm q h1 (by omega), hs, if_pos (by omega)]
  · intro q h1 h2
    rw [← slotBit_of_getElem? bms i bm hbm q (by omega) h2, hs, if_neg (by omega)]

end PageAllocationTable

namespace PageAllocationTableNode

theorem initEntries_spec (m : Nat) : ∀ (todo remain : Nat),
    (initEntries m todo remain).length = todo ∧
      ∀ j, j < todo → wordAt (initEntries m todo remain) j = min m (remain - j * m) := by
  intro todo
  induction todo with
  | zero =>
    intro remain
    exact ⟨rfl, fun j hj => by omega⟩
  | succ n ih =>
    intro remain
    by_cases hr : remain > 0
    · obtain ⟨a1, a2⟩ := ih (remain - min m remain)
      simp only [initEntries, hr, if_true]
      refine ⟨by simp [a1], ?_⟩
      intro j hj
      cases j with
      | zero => simp [wordAt]
      | succ k =>
        have e : wordAt (min m remain :: initEntries m n (remain - min m remain)) (k + 1) =
            wordAt (initEntries m n (remain - min m remain)) k := by
          simp [wordAt]
        rw [e, a2 k (by omega), Nat.succ_mul]
        omega
    · have h0 : remain = 0 := by omega
      subst h0
      simp only [initEntries, gt_iff_lt, Nat.lt_irrefl, if_false]
      refine ⟨by simp, ?_⟩
      intro j hj
      have : wordAt (List.replicate (n + 1) 0) j = 0 := by
        unfold wordAt
        rw [List.getD_eq_getElem?_getD, List.getElem?_replicate]
        simp [hj]
      rw [this]
      simp

theorem initEntries_sum (m todo remain : Nat) :
    (initEntries m todo remain).sum = min remain (todo * m) := by
  obtain ⟨a1, a2⟩ := initEntries_spec m todo remain
  have := list_eq_map_range (initEntries m todo remain) (fun j => min m (remain - j * m))
    (by rw [a1]; exact a2)
  rw [this, a1, sum_range_min]

end PageAllocationTableNode

/-! ## `PageAllocationTable::SanityCheck` -/


theorem filter_range_lt (a b : Nat) : ∀ n : Nat,
    (List.range n).filter (fun j => decide (j + a < b)) = List.range (min n (b - a)) := by
  intro n
  induction n with
  | zero => simp
  | succ k ih =>
    rw [List.range_succ, List.filter_append, ih]
    by_cases hk : k + a < b
    · have e : min (k + 1) (b - a) = min k (b - a) + 1 := by omega
      have e2 : min k (b - a) = k := by omega
      rw [e, List.range_succ, e2]
      simp [hk]
    · have e : min (k + 1) (b - a) = min k (b - a) := by omega
      rw [e]
      simp [hk]

namespace PageAllocationTable

theorem sum_pmdField_total (N : Nat) (hN : 0 < N) (pmds : List PageAllocationTableNode)
    (f : PageAllocationTableNode → Nat)
    (hf : ∀ i, i < numberPmdNodesOf N → pmdField f pmds i =
      min (entriesPerPmdOf N * 4096) (N - i * (entriesPerPmdOf N * 4096))) :
    ((List.range (numberPmdNodesOf N)).map (pmdField f pmds)).sum = N := by
  have hb := numberBitmapsOf_bounds N hN
  obtain ⟨c1, _, _⟩ := ceil_div_bounds (numberBitmapsOf N) (entriesPerPmdOf N)
    (entriesPerPmdOf_pos N)
  have e : (List.range (numberPmdNodesOf N)).map (pmdField f pmds) =
      (List.range (numberPmdNodesOf N)).map
        (fun i => min (entriesPerPmdOf N * 4096) (N - i * (entriesPerPmdOf N * 4096))) := by
    apply List.map_congr_left
    intro i hi
    exact hf i (List.mem_range.1 hi)
  rw [e, sum_range_min]
  have e2 : numberPmdNodesOf N * (entriesPerPmdOf N * 4096) =
      numberPmdNodesOf N * entriesPerPmdOf N * 4096 := by ring
  unfold numberPmdNodesOf at *
  omega

/-- `SanityCheck` passes on every well-formed table. -/
theorem sanity_of_inv {N : Nat} {t : PageAllocationTable} (h : Inv N t) :
    SanityCheck t = some true := by
  have hb := numberBitmapsOf_bounds N h.pos
  unfold SanityCheck
  rcases levelsOf_cases N with h1 | h2 | h3
  · have hl : ¬ ¬ t.levels_ ≤ 3 := by rw [h.levels, h1]; decide
    rw [if_neg hl, if_pos (by rw [h.levels, h1])]
  · have hl : ¬ ¬ t.levels_ ≤ 3 := by rw [h.levels, h2]; decide
    obtain ⟨hn, _, hpf⟩ := h.level2 h2
    rw [if_neg hl, if_neg (by rw [h.levels, h2]; decide), if_pos (by rw [h.levels, h2])]
    have hentries := list_eq_map_range t.pgd_.entries_ (fun j => bitmapCount t.bitmaps_ (0 + j))
      (by rw [hn.length_entries]; exact hn.entry)
    rw [if_pos]
    refine ⟨by rw [h.number_bitmaps, hn.number_entries], ?_, ?_⟩
    · rw [List.all_eq_true]
      intro i hi
      have hi' := List.mem_range.1 hi
      rw [h.number_bitmaps] at hi'
      have := hn.entry i hi'
      rw [Nat.zero_add] at this
      simp [h.bitmaps_length, hi', this]
    · rw [hn.free, hentries, hn.length_entries, h.number_bitmaps]
      simp
  · have hl : ¬ ¬ t.levels_ ≤ 3 := by rw [h.levels, h3]; decide
    obtain ⟨b1, b2, b3, b4, b5, b6, b7, b8, b9⟩ := h.level3 h3
    rw [if_neg hl, if_neg (by rw [h.levels, h3]; decide), if_neg (by rw [h.levels, h3]; decide)]
    have hnp : t.number_pmd_nodes_ = numberPmdNodesOf N := by
      rw [h.number_pmd_nodes, if_pos h3]
    have hentries := list_eq_map_range t.pgd_.entries_
      (pmdField (·.number_free_pages_) t.pmds_) (by rw [b4]; exact b5)
    have htotal : ∀ i, i < numberPmdNodesOf N →
        pmdField (·.number_total_pages_) t.pmds_ i =
          min (entriesPerPmdOf N * 4096) (N - i * (entriesPerPmdOf N * 4096)) := by
      intro i hi
      obtain ⟨nd, hnd, hover⟩ := b2 i hi
      rw [pmdField_of_getElem? _ _ _ _ hnd, hover.total]
    have hsumfree : ((List.range (numberPmdNodesOf N)).map
        (pmdField (·.number_free_pages_) t.pmds_)).sum = t.pgd_.number_free_pages_ := by
      rw [b6]
      conv_rhs => rw [hentries, b4]
    have hsumtotal := sum_pmdField_total N h.pos t.pmds_ (·.number_total_pages_) htotal
    have hsumboth : ((List.range (numberPmdNodesOf N)).map
        (pmdField (·.number_used_pages_) t.pmds_)).sum +
        ((List.range (numberPmdNodesOf N)).map
          (pmdField (·.number_free_pages_) t.pmds_)).sum = N := by
      have hpt : (List.range (numberPmdNodesOf N)).map
          (fun i => pmdField (·.number_used_pages_) t.pmds_ i +
            pmdField (·.number_free_pages_) t.pmds_ i) =
          (List.range (numberPmdNodesOf N)).map (pmdField (·.number_total_pages_) t.pmds_) := by
        apply List.map_congr_left
        intro i hi
        obtain ⟨nd, hnd, hover⟩ := b2 i (List.mem_range.1 hi)
        rw [pmdField_of_getElem? _ _ _ _ hnd, pmdField_of_getElem? _ _ _ _ hnd,
          pmdField_of_getElem? _ _ _ _ hnd, hover.used, hover.total]
      rw [← List.sum_map_add, hpt, hsumtotal]
    rw [if_pos]
    refine ⟨by rw [b3, hnp], ?_, ?_, ?_, ?_, ?_⟩
    · rw [List.all_eq_true]
      intro i hi
      have hi' := List.mem_range.1 hi
      rw [b3] at hi'
      simp [b1, hi', b5 i hi']
    · rw [b3]
      exact hsumfree
    · rw [b3]
      omega
    · rw [b3, b7]
      exact hsumtotal
    · rw [List.all_eq_true]
      intro i hi
      have hi' := List.mem_range.1 hi
      rw [hnp] at hi'
      obtain ⟨nd, hnd, hover⟩ := b2 i hi'
      have hsum : pmdBitmapSum t i = nd.number_free_pages_ := by
        unfold pmdBitmapSum
        have efold : (1 <<< pmdBitsOf N) = entriesPerPmdOf N := rfl
        rw [h.pmd_bits, h.number_bitmaps, level3_first_eq, efold,
          filter_range_lt, hover.free]
        have := list_eq_map_range nd.entries_
          (fun j => bitmapCount t.bitmaps_ (i * entriesPerPmdOf N + j))
          (by rw [hover.length_entries]; exact hover.entry)
        conv_rhs => rw [this, hover.length_entries]
        congr 1
        apply List.map_congr_left
        intro j _
        rw [Nat.add_comm]
      simp [b1, hi', pmdField_of_getElem? _ _ _ _ hnd, hsum]

end PageAllocationTable

/-! ## The nodes and bitmaps built by Init -/

namespace PageAllocationTableNode

theorem Init_eq (n m tot : Nat) (h1 : m * (n - 1) < tot) (h2 : tot ≤ m * n) :
    Init n m tot = some
      { entries_ := initEntries m n tot, number_entries_ := n, number_free_pages_ := tot,
        number_total_pages_ := tot, number_used_pages_ := 0 } := by
  unfold Init
  rw [if_pos ⟨h1, h2⟩]

end PageAllocationTableNode

namespace PageAllocationTable

/-- The assertions of `PageAllocationTableNode::Init` hold for PMD node `i`. -/
theorem level3_node_assert (N : Nat) (hN : 0 < N) (i : Nat) (hi : i < numberPmdNodesOf N) :
    4096 * (min (entriesPerPmdOf N) (numberBitmapsOf N - i * entriesPerPmdOf N) - 1) <
        min (entriesPerPmdOf N * 4096) (N - i * (entriesPerPmdOf N * 4096)) ∧
      min (entriesPerPmdOf N * 4096) (N - i * (entriesPerPmdOf N * 4096)) ≤
        4096 * min (entriesPerPmdOf N) (numberBitmapsOf N - i * entriesPerPmdOf N) := by
  have hb := numberBitmapsOf_bounds N hN
  have hE := entriesPerPmdOf_pos N
  obtain ⟨c1, c2, c3⟩ := ceil_div_bounds (numberBitmapsOf N) (entriesPerPmdOf N) hE
  have c2' := c2 hb.1
  have hiE : i * entriesPerPmdOf N ≤
      ((numberBitmapsOf N + (entriesPerPmdOf N - 1)) / entriesPerPmdOf N - 1) *
        entriesPerPmdOf N := by
    apply Nat.mul_le_mul_right
    unfold numberPmdNodesOf at hi
    omega
  have e : i * (entriesPerPmdOf N * 4096) = i * entriesPerPmdOf N * 4096 := by ring
  omega

theorem initPmds_spec (N : Nat) (hN : 0 < N) : ∀ (todo k : Nat),
    k + todo ≤ numberPmdNodesOf N →
    ∃ pmds, initPmds (entriesPerPmdOf N) 4096 todo (numberBitmapsOf N - k * entriesPerPmdOf N)
        (N - k * (entriesPerPmdOf N * 4096)) = some pmds ∧
      pmds.length = todo ∧
      ∀ i, i < todo → pmds[i]? = some
        { entries_ := PageAllocationTableNode.initEntries 4096
            (min (entriesPerPmdOf N) (numberBitmapsOf N - (k + i) * entriesPerPmdOf N))
            (min (entriesPerPmdOf N * 4096) (N - (k + i) * (entriesPerPmdOf N * 4096))),
          number_entries_ :=
            min (entriesPerPmdOf N) (numberBitmapsOf N - (k + i) * entriesPerPmdOf N),
          number_free_pages_ :=
            min (entriesPerPmdOf N * 4096) (N - (k + i) * (entriesPerPmdOf N * 4096)),
          number_total_pages_ :=
            min (entriesPerPmdOf N * 4096) (N - (k + i) * (entriesPerPmdOf N * 4096)),
          number_used_pages_ := 0 } := by
  intro todo
  induction todo with
  | zero =>
    intro k _
    exact ⟨[], rfl, rfl, fun i hi => by omega⟩
  | succ n ih =>
    intro k hk
    obtain ⟨a1, a2⟩ := level3_node_assert N hN k (by omega)
    obtain ⟨rest, r1, r2, r3⟩ := ih (k + 1) (by omega)
    have e1 : min (numberBitmapsOf N - k * entriesPerPmdOf N) (entriesPerPmdOf N) =
        min (entriesPerPmdOf N) (numberBitmapsOf N - k * entriesPerPmdOf N) := Nat.min_comm _ _
    have e2 : min (N - k * (entriesPerPmdOf N * 4096)) (entriesPerPmdOf N * 4096) =
        min (entriesPerPmdOf N * 4096) (N - k * (entriesPerPmdOf N * 4096)) := Nat.min_comm _ _
    have e3 : numberBitmapsOf N - k * entriesPerPmdOf N -
        min (entriesPerPmdOf N) (numberBitmapsOf N - k * entriesPerPmdOf N) =
        numberBitmapsOf N - (k + 1) * entriesPerPmdOf N := by
      rw [Nat.succ_mul]
      omega
    have e4 : N - k * (entriesPerPmdOf N * 4096) -
        min (entriesPerPmdOf N * 4096) (N - k * (entriesPerPmdOf N * 4096)) =
        N - (k + 1) * (entriesPerPmdOf N * 4096) := by
      rw [Nat.succ_mul]
      omega
    refine ⟨({
          entries_ := PageAllocationTableNode.initEntries 4096
            (min (entriesPerPmdOf N) (numberBitmapsOf N - k * entriesPerPmdOf N))
            (min (entriesPerPmdOf N * 4096) (N - k * (entriesPerPmdOf N * 4096))),
          number_entries_ :=
            min (entriesPerPmdOf N) (numberBitmapsOf N - k * entriesPerPmdOf N),
          number_free_pages_ :=
            min (entriesPerPmdOf N * 4096) (N - k * (entriesPerPmdOf N * 4096)),
          number_total_pages_ :=
            min (entriesPerPmdOf N * 4096) (N - k * (entriesPerPmdOf N * 4096)),
          number_used_pages_ := 0 } : PageAllocationTableNode) :: rest, ?_, by simp [r2], ?_⟩
    · simp only [initPmds, e1, e2, PageAllocationTableNode.Init_eq _ _ _ a1 a2, e3, e4, r1]
    · intro i hi
      cases i with
      | zero => simp
      | succ j =>
        have := r3 j (by omega)
        have e5 : k + 1 + j = k + (j + 1) := by omega
        rw [e5] at this
        simpa using this

theorem map_counts_eq (bms : List LeafBitmap) :
    bms.map Bitmap.number_of_set_bits = (List.range bms.length).map (bitmapCount bms) := by
  have := list_eq_map_range (bms.map Bitmap.number_of_set_bits) (bitmapCount bms) (by
    intro j hj
    rw [List.length_map] at hj
    obtain ⟨bm, hbm⟩ := getElem?_of_lt bms j hj
    rw [bitmapCount_of_getElem? _ _ _ hbm]
    unfold wordAt
    rw [List.getD_eq_getElem?_getD, List.getElem?_map, hbm]
    simp only [Option.map_some', Option.getD_some])
  rw [List.length_map] at this
  exact this

theorem sum_counts_full (bms : List LeafBitmap) (N : Nat) (hN : 0 < N)
    (hlen : bms.length = numberBitmapsOf N)
    (hs : ∀ p, slotBit bms p = if p < N then 1 else 0) :
    ((List.range (numberBitmapsOf N)).map (bitmapCount bms)).sum = N := by
  have hb := numberBitmapsOf_bounds N hN
  have : (List.range (numberBitmapsOf N)).map (bitmapCount bms) =
      (List.range (numberBitmapsOf N)).map (fun i => min 4096 (N - i * 4096)) := by
    apply List.map_congr_left
    intro i hi
    exact bitmapCount_of_full bms N hs i (by rw [hlen]; exact List.mem_range.1 hi)
  rw [this, sum_range_min]
  omega

/-- The table that `Init` returns is well formed as soon as its nodes are. -/
theorem inv_of_init (N : Nat) (hN : 0 < N) (bms : List LeafBitmap)
    (hlen : bms.length = numberBitmapsOf N) (hwf : ∀ bm ∈ bms, bm.WF)
    (hs : ∀ p, slotBit bms p = if p < N then 1 else 0)
    (pgd : PageAllocationTableNode) (pmds : List PageAllocationTableNode) (npmd nall : Nat)
    (hnp : npmd = if levelsOf N = 3 then numberPmdNodesOf N else 0)
    (hna : nall = if levelsOf N = 1 then 0
      else if levelsOf N = 2 then numberBitmapsOf N
      else numberBitmapsOf N + numberPmdNodesOf N)
    (h1 : levelsOf N = 1 → pgd = PageAllocationTableNode.new ∧ pmds = [])
    (h2 : levelsOf N = 2 →
      NodeOver pgd bms 0 (numberBitmapsOf N) N ∧ pmds = [] ∧ pgd.number_free_pages_ = N)
    (h3 : levelsOf N = 3 →
      pmds.length = numberPmdNodesOf N ∧
      (∀ i, i < numberPmdNodesOf N → ∃ nd, pmds[i]? = some nd ∧
        NodeOver nd bms (i * entriesPerPmdOf N)
          (min (entriesPerPmdOf N) (numberBitmapsOf N - i * entriesPerPmdOf N))
          (min (entriesPerPmdOf N * 4096) (N - i * (entriesPerPmdOf N * 4096)))) ∧
      pgd.number_entries_ = numberPmdNodesOf N ∧
      pgd.entries_.length = numberPmdNodesOf N ∧
      (∀ i, i < numberPmdNodesOf N →
        wordAt pgd.entries_ i = pmdField (·.number_free_pages_) pmds i) ∧
      pgd.number_free_pages_ = pgd.entries_.sum ∧
      pgd.number_total_pages_ = N ∧
      pgd.number_used_pages_ + pgd.number_free_pages_ = N ∧
      pgd.number_free_pages_ = N) :
    Inv N
      { ready_ := true, pgd_bits_ := pgdBitsOf N, pmd_bits_ := pmdBitsOf N,
        bitmap_bits_ := bitmapBitsOf N, pgd_mask_ := (1 <<< pgdBitsOf N) - 1,
        pmd_mask_ := (1 <<< pmdBitsOf N) - 1, bitmap_mask_ := (1 <<< bitmapBitsOf N) - 1,
        levels_ := levelsOf N, pgd_ := pgd, pmds_ := pmds, number_pmd_nodes_ := npmd,
        bitmaps_ := bms, number_bitmaps_ := numberBitmapsOf N,
        number_all_pat_entries_ := nall, total_pages_ := N, used_pages_ := 0,
        free_pages_ := N } where
  pos := hN
  ready := rfl
  levels := rfl
  pgd_bits := rfl
  pmd_bits := rfl
  bitmap_bits := rfl
  pgd_mask := rfl
  pmd_mask := rfl
  bitmap_mask := rfl
  number_bitmaps := rfl
  number_pmd_nodes := hnp
  number_all := hna
  total_pages := rfl
  bitmaps_length := hlen
  bitmaps_wf := hwf
  beyond := fun p hp => by
    show slotBit bms p = 0
    rw [hs, if_neg (by omega)]
  free := by
    show N = (bms.map Bitmap.number_of_set_bits).sum
    rw [map_counts_eq, hlen, sum_counts_full bms N hN hlen hs]
  used := by
    show 0 + N = N
    omega
  level1 := h1
  level2 := h2
  level3 := h3

end PageAllocationTable

/-! ## Init returns a well-formed table -/

namespace PageAllocationTable

theorem match_sanity (t2 tf : PageAllocationTable) (h : SanityCheck t2 = some true) :
    (match SanityCheck t2 with
      | none => none
      | some _ => some tf) = some tf := by
  rw [h]

/-- `Init(N)` returns for every `N > 0`, and the table it returns is well
formed and has every page free. -/
theorem init_spec (N : Nat) (hN : 0 < N) :
    ∃ t, Init N = some t ∧ Inv N t ∧ (∀ p, slotBit t.bitmaps_ p = if p < N then 1 else 0) ∧
      t.free_pages_ = N ∧ t.used_pages_ = 0 := by
  obtain ⟨bms, b1, b2, b3, b4⟩ := initBitmaps_spec N hN
  have hb := numberBitmapsOf_bounds N hN
  have hsum := sum_counts_full bms N hN b2 b4
  rcases levelsOf_cases N with h1 | h2 | h3
  · have hinv := inv_of_init N hN bms b2 b3 b4 PageAllocationTableNode.new [] 0 0
      (by rw [if_neg (by omega)]) (by rw [if_pos h1]) (fun _ => ⟨rfl, rfl⟩)
      (fun h => by omega) (fun h => by omega)
    refine ⟨_, ?_, hinv, b4, rfl, rfl⟩
    have hs := sanity_of_inv hinv
    have f1 := level1_facts N hN h1
    have hc : 0 < bms.length ∧ bitmapCount bms 0 = N := by
      refine ⟨by omega, ?_⟩
      rw [bitmapCount_of_full bms N b4 0 (by omega)]
      omega
    unfold Init
    simp only [Nat.pos_iff_ne_zero.1 hN, if_false, b1, eq_true h1, if_true, hc, and_self, hsum]
    exact match_sanity _ _ hs
  · have hl1 : ¬ levelsOf N = 1 := by omega
    obtain ⟨e1, e2⟩ := PageAllocationTableNode.initEntries_spec 4096 (numberBitmapsOf N) N
    have hover : NodeOver
        { entries_ := PageAllocationTableNode.initEntries 4096 (numberBitmapsOf N) N,
          number_entries_ := numberBitmapsOf N, number_free_pages_ := N,
          number_total_pages_ := N, number_used_pages_ := 0 }
        bms 0 (numberBitmapsOf N) N := by
      refine ⟨rfl, e1, ?_, ?_, rfl, ?_⟩
      · intro j hj
        rw [Nat.zero_add, bitmapCount_of_full bms N b4 j (by omega)]
        exact e2 j hj
      · show N = (PageAllocationTableNode.initEntries 4096 (numberBitmapsOf N) N).sum
        rw [PageAllocationTableNode.initEntries_sum]
        omega
      · show 0 + N = N
        omega
    have hinv := inv_of_init N hN bms b2 b3 b4 _ [] 0 (numberBitmapsOf N)
      (by rw [if_neg (by omega)]) (by rw [if_neg hl1, if_pos h2]) (fun h => by omega)
      (fun _ => ⟨hover, rfl, rfl⟩) (fun h => by omega)
    refine ⟨_, ?_, hinv, b4, rfl, rfl⟩
    have hs := sanity_of_inv hinv
    have hall : (List.range (numberBitmapsOf N)).all
        (fun i => decide (i < bms.length) &&
          decide (wordAt (PageAllocationTableNode.initEntries 4096 (numberBitmapsOf N) N) i =
            bitmapCount bms i)) = true := by
      rw [List.all_eq_true]
      intro i hi
      have hi' := List.mem_range.1 hi
      have := hover.entry i hi'
      rw [Nat.zero_add] at this
      simp [b2, hi', this]
    unfold Init
    simp only [Nat.pos_iff_ne_zero.1 hN, if_false, b1, eq_false hl1, eq_true h2, if_true,
      PAGES_PER_BITMAP_eq, PageAllocationTableNode.Init_eq _ _ _ hb.2.1 hb.2.2, hall, hsum]
    exact match_sanity _ _ hs
  · have hl1 : ¬ levelsOf N = 1 := by omega
    have hl2 : ¬ levelsOf N = 2 := by omega
    have hE := entriesPerPmdOf_pos N
    obtain ⟨c1, c2, c3⟩ := ceil_div_bounds (numberBitmapsOf N) (entriesPerPmdOf N) hE
    have c2' := c2 hb.1
    have hnp : numberPmdNodesOf N =
        (numberBitmapsOf N + (entriesPerPmdOf N - 1)) / entriesPerPmdOf N := rfl
    rw [← hnp] at c1 c2'
    have a1 : entriesPerPmdOf N * 4096 * (numberPmdNodesOf N - 1) < N := by
      have e : entriesPerPmdOf N * 4096 * (numberPmdNodesOf N - 1) =
          4096 * ((numberPmdNodesOf N - 1) * entriesPerPmdOf N) := by ring
      omega
    have a2 : N ≤ entriesPerPmdOf N * 4096 * numberPmdNodesOf N := by
      have e : entriesPerPmdOf N * 4096 * numberPmdNodesOf N =
          4096 * (numberPmdNodesOf N * entriesPerPmdOf N) := by ring
      omega
    obtain ⟨pmds, p1, p2, p3⟩ := initPmds_spec N hN (numberPmdNodesOf N) 0 (by omega)
    simp only [Nat.zero_mul, Nat.sub_zero, Nat.zero_add] at p1 p3
    obtain ⟨e1, e2⟩ := PageAllocationTableNode.initEntries_spec (entriesPerPmdOf N * 4096)
      (numberPmdNodesOf N) N
    have hfield : ∀ i, i < numberPmdNodesOf N →
        pmdField (·.number_free_pages_) pmds i =
          min (entriesPerPmdOf N * 4096) (N - i * (entriesPerPmdOf N * 4096)) := by
      intro i hi
      rw [pmdField_of_getElem? _ _ _ _ (p3 i hi)]
    have hinv := inv_of_init N hN bms b2 b3 b4
      { entries_ := PageAllocationTableNode.initEntries (entriesPerPmdOf N * 4096)
          (numberPmdNodesOf N) N,
        number_entries_ := numberPmdNodesOf N, number_free_pages_ := N,
        number_total_pages_ := N, number_used_pages_ := 0 }
      pmds (numberPmdNodesOf N) (numberBitmapsOf N + numberPmdNodesOf N)
      (by rw [if_pos h3]) (by rw [if_neg hl1, if_neg hl2]) (fun h => by omega)
      (fun h => by omega)
      (fun _ => by
        refine ⟨p2, ?_, rfl, e1, ?_, ?_, rfl, ?_, rfl⟩
        · intro i hi
          refine ⟨_, p3 i hi, rfl, ?_, ?_, ?_, rfl, ?_⟩
          · exact (PageAllocationTableNode.initEntries_spec _ _ _).1
          · intro j hj
            rw [(PageAllocationTableNode.initEntries_spec _ _ _).2 j hj,
              bitmapCount_of_full bms N b4 _ (by omega)]
            have e : (i * entriesPerPmdOf N + j) * 4096 =
                i * (entriesPerPmdOf N * 4096) + j * 4096 := by ring
            omega
          · show min (entriesPerPmdOf N * 4096) (N - i * (entriesPerPmdOf N * 4096)) = _
            rw [PageAllocationTableNode.initEntries_sum]
            have := (level3_node_shape N hN i).1
            omega
          · show 0 + min (entriesPerPmdOf N * 4096) (N - i * (entriesPerPmdOf N * 4096)) = _
            omega
        · intro i hi
          rw [hfield i hi]
          exact e2 i hi
        · show N = (PageAllocationTableNode.initEntries (entriesPerPmdOf N * 4096)
            (numberPmdNodesOf N) N).sum
          rw [PageAllocationTableNode.initEntries_sum]
          have e : numberPmdNodesOf N * (entriesPerPmdOf N * 4096) =
              entriesPerPmdOf N * 4096 * numberPmdNodesOf N := by ring
          omega
        · show 0 + N = N
          omega)
    refine ⟨_, ?_, hinv, b4, rfl, rfl⟩
    have hs := sanity_of_inv hinv
    unfold Init
    simp only [Nat.pos_iff_ne_zero.1 hN, if_false, b1, eq_false hl1, eq_false hl2, if_true,
      PAGES_PER_BITMAP_eq, PageAllocationTableNode.Init_eq _ _ _ a1 a2, p1, hsum]
    exact match_sanity _ _ hs

end PageAllocationTable

/-! ## Reachable tables are well formed -/

namespace PageAllocationTable

theorem init_some {N : Nat} {t : PageAllocationTable} (e : Init N = some t) :
    0 < N ∧ Inv N t ∧ (∀ p, slotBit t.bitmaps_ p = if p < N then 1 else 0) ∧
      t.free_pages_ = N ∧ t.used_pages_ = 0 := by
  have hN : 0 < N := by
    rcases Nat.eq_zero_or_pos N with h0 | h0
    · subst h0
      simp [Init] at e
    · exact h0
  obtain ⟨t0, e0, r⟩ := init_spec N hN
  rw [e] at e0
  cases e0
  exact ⟨hN, r⟩

/-- The two ways `AllocatePages` returns on a well-formed table. -/
theorem allocate_cases {N : Nat} {t t1 : PageAllocationTable} (h : Inv N t) (n : Nat)
    (pages out : List Nat) (b : Bool) (e : t.AllocatePages n pages = some (b, out, t1)) :
    (t.free_pages_ < n ∧ b = false ∧ out = pages ∧ t1 = t) ∨
      (n ≤ t.free_pages_ ∧ b = true ∧ Inv N t1 ∧ Took t.bitmaps_ out t1.bitmaps_ ∧
        out.length = n ∧ t1.free_pages_ + n = t.free_pages_ ∧
        t1.used_pages_ = t.used_pages_ + n) := by
  by_cases hlt : t.free_pages_ < n
  · left
    unfold AllocatePages at e
    rw [if_pos hlt] at e
    cases e
    exact ⟨hlt, rfl, rfl, rfl⟩
  · right
    obtain ⟨out0, t0, e0, r⟩ := allocate_spec h n pages (by omega)
    rw [e] at e0
    cases e0
    exact ⟨by omega, rfl, r⟩

/-- `AllocateOnePage` on a well-formed table with a free page. -/
theorem allocateOne_spec {N : Nat} {t : PageAllocationTable} (h : Inv N t) (page : Nat)
    (hf : 0 < t.free_pages_) :
    ∃ p t1, t.AllocateOnePage page = some (true, p, t1) ∧
      t.AllocatePages 1 [] = some (true, [p], t1) ∧ Inv N t1 ∧
      Took t.bitmaps_ [p] t1.bitmaps_ ∧ t1.free_pages_ + 1 = t.free_pages_ ∧
      t1.used_pages_ = t.used_pages_ + 1 := by
  obtain ⟨out, t1, e, r1, r2, r3, r4, r5⟩ := allocate_spec h 1 [] (by omega)
  obtain ⟨p, hp⟩ := List.length_eq_one.1 r3
  subst hp
  refine ⟨p, t1, ?_, e, r1, r2, r4, r5⟩
  unfold AllocateOnePage
  rw [if_neg (by omega), e]
  rfl

/-- The two ways `AllocateOnePage` returns on a well-formed table. -/
theorem allocateOne_cases {N : Nat} {t t1 : PageAllocationTable} (h : Inv N t)
    (page p : Nat) (b : Bool) (e : t.AllocateOnePage page = some (b, p, t1)) :
    (t.free_pages_ = 0 ∧ b = false ∧ p = page ∧ t1 = t) ∨
      (0 < t.free_pages_ ∧ b = true ∧ Inv N t1 ∧ Took t.bitmaps_ [p] t1.bitmaps_ ∧
        t1.free_pages_ + 1 = t.free_pages_ ∧ t1.used_pages_ = t.used_pages_ + 1) := by
  by_cases h0 : t.free_pages_ = 0
  · left
    unfold AllocateOnePage at e
    rw [if_pos h0] at e
    cases e
    exact ⟨h0, rfl, rfl, rfl⟩
  · right
    obtain ⟨p0, t0, e0, _, r⟩ := allocateOne_spec h page (by omega)
    rw [e] at e0
    cases e0
    exact ⟨by omega, rfl, r⟩

/-- Every reachable table is well formed. -/
theorem inv_of_reachable {N : Nat} {t : PageAllocationTable} (h : Reachable N t) : Inv N t := by
  induction h with
  | init e => exact (init_some e).2.1
  | allocate n pages b out _ e ih =>
    rcases allocate_cases ih n pages out b e with ⟨_, _, _, r⟩ | ⟨_, _, r, _⟩
    · rw [r]
      exact ih
    · exact r
  | allocateOne page b p _ e ih =>
    rcases allocateOne_cases ih page p b e with ⟨_, _, _, r⟩ | ⟨_, _, r, _⟩
    · rw [r]
      exact ih
    · exact r
  | free page _ e ih =>
    obtain ⟨hp, hc⟩ := free_pre ih page e
    obtain ⟨t2, bm, _, e2, r, _⟩ := free_spec ih page hp hc
    rw [e] at e2
    cases e2
    exact r

/-- `IsPageFree` reads the bit of the page. -/
theorem isPageFree_spec {N : Nat} {t : PageAllocationTable} (h : Inv N t) (p : Nat)
    (hp : p < N) : t.IsPageFree p = some (decide (slotBit t.bitmaps_ p = 1)) := by
  have hb := numberBitmapsOf_bounds N h.pos
  obtain ⟨bm, hbm, hwf, hs⟩ := h.bitmap_at p hp
  have hlt : p < t.total_pages_ := by rw [h.total_pages]; exact hp
  have hget : bm.get (p % 4096 + 1) = some (bm.getRaw (p % 4096 + 1)) :=
    Bitmap.get_of_range _ _ (by omega) (by omega)
  unfold IsPageFree
  rw [if_neg (by omega)]
  rcases levelsOf_cases N with h1 | h23
  · obtain ⟨a1, a2, a3, a4⟩ := level1_facts N h.pos h1
    have hp0 : p / 4096 = 0 := by omega
    rw [hp0] at hbm
    have hoff : p &&& t.bitmap_mask_ = p % 4096 := by
      rw [h.bitmap_mask, and_mask_level1 N p h.pos h1 hp]
      omega
    simp only [h.levels, h1, if_true, hbm, hoff, hget, hs]
  · have hl1 : ¬ levelsOf N = 1 := by omega
    obtain ⟨f1, f2, f3⟩ := not_level1_facts N hl1
    have hoff : p &&& t.bitmap_mask_ = p % 4096 := by
      rw [h.bitmap_mask, and_mask_not_level1 N p hl1]
    have hidx : p >>> t.bitmap_bits_ = p / 4096 := by
      rw [h.bitmap_bits, shiftRight_not_level1 N p hl1]
    simp only [h.levels, hl1, if_false, hidx, hbm, hoff, hget, hs]

end PageAllocationTable

/-! ## Runs of allocations and of frees -/

namespace PageAllocationTable

/-- A run of successful allocations keeps the table well formed and hands out
distinct pages that were free. -/
theorem allocRun_spec {N : Nat} {t t1 : PageAllocationTable} {ps : List Nat}
    (hrun : AllocRun t ps t1) : Inv N t → Inv N t1 ∧ Took t.bitmaps_ ps t1.bitmaps_ := by
  induction hrun with
  | nil t => exact fun h => ⟨h, Took.refl _⟩
  | pages n pages0 out got e _ ih =>
    intro h
    rcases allocate_cases h n pages0 out true e with ⟨_, hb, _⟩ | ⟨_, _, r1, r2, _⟩
    · cases hb
    · obtain ⟨i1, i2⟩ := ih r1
      exact ⟨i1, r2.trans i2⟩
  | one page0 p got e _ ih =>
    intro h
    rcases allocateOne_cases h page0 p true e with ⟨_, hb, _⟩ | ⟨_, _, r1, r2, _⟩
    · cases hb
    · obtain ⟨i1, i2⟩ := ih r1
      exact ⟨i1, r2.trans i2⟩

/-- Lists of bitmap objects with the same page bits are the same. -/
theorem bitmaps_ext (bms1 bms2 : List LeafBitmap) (hlen : bms1.length = bms2.length)
    (hwf1 : ∀ bm ∈ bms1, bm.WF) (hwf2 : ∀ bm ∈ bms2, bm.WF)
    (hs : ∀ p, slotBit bms1 p = slotBit bms2 p) : bms1 = bms2 := by
  apply List.ext_getElem hlen
  intro i h1 h2
  have g1 : bms1[i]? = some bms1[i] := List.getElem?_eq_getElem h1
  have g2 : bms2[i]? = some bms2[i] := List.getElem?_eq_getElem h2
  apply Bitmap.ext_of_getRaw _ _ (hwf1 _ (List.getElem_mem h1)) (hwf2 _ (List.getElem_mem h2))
  intro q hq1 hq2
  have hq3 : q ≤ 4096 := by omega
  rw [← slotBit_of_getElem? bms1 i _ g1 q hq1 hq3, ← slotBit_of_getElem? bms2 i _ g2 q hq1 hq3]
  exact hs _

/-- A node is determined by what its entries summarise. -/
theorem node_ext (nd1 nd2 : PageAllocationTableNode) (len tot : Nat) (g : Nat → Nat)
    (a1 : nd1.number_entries_ = len) (a2 : nd1.entries_.length = len)
    (a3 : ∀ j, j < len → wordAt nd1.entries_ j = g j)
    (a4 : nd1.number_free_pages_ = nd1.entries_.sum) (a5 : nd1.number_total_pages_ = tot)
    (a6 : nd1.number_used_pages_ + nd1.number_free_pages_ = tot)
    (b1 : nd2.number_entries_ = len) (b2 : nd2.entries_.length = len)
    (b3 : ∀ j, j < len → wordAt nd2.entries_ j = g j)
    (b4 : nd2.number_free_pages_ = nd2.entries_.sum) (b5 : nd2.number_total_pages_ = tot)
    (b6 : nd2.number_used_pages_ + nd2.number_free_pages_ = tot) : nd1 = nd2 := by
  have e1 := list_eq_map_range nd1.entries_ g (by rw [a2]; exact a3)
  have e2 := list_eq_map_range nd2.entries_ g (by rw [b2]; exact b3)
  rw [a2] at e1
  rw [b2] at e2
  have he : nd1.entries_ = nd2.entries_ := by rw [e1, e2]
  have hf : nd1.number_free_pages_ = nd2.number_free_pages_ := by rw [a4, b4, he]
  cases nd1
  cases nd2
  simp only at a1 a5 a6 b1 b5 b6 he hf
  simp only [PageAllocationTableNode.mk.injEq]
  refine ⟨hf, by omega, by omega, he, by omega⟩

theorem NodeOver.node_unique {nd1 nd2 : PageAllocationTableNode} {bms : List LeafBitmap}
    {f len tot : Nat} (h1 : NodeOver nd1 bms f len tot) (h2 : NodeOver nd2 bms f len tot) :
    nd1 = nd2 :=
  node_ext nd1 nd2 len tot (fun j => bitmapCount bms (f + j)) h1.number_entries
    h1.length_entries h1.entry h1.free h1.total h1.used h2.number_entries h2.length_entries
    h2.entry h2.free h2.total h2.used

/-- A well-formed table is determined by the bits of its pages. -/
theorem Inv.table_unique {N : Nat} {t1 t2 : PageAllocationTable} (h1 : Inv N t1) (h2 : Inv N t2)
    (hs : ∀ p, slotBit t1.bitmaps_ p = slotBit t2.bitmaps_ p) : t1 = t2 := by
  have hbm : t1.bitmaps_ = t2.bitmaps_ :=
    bitmaps_ext _ _ (by rw [h1.bitmaps_length, h2.bitmaps_length]) h1.bitmaps_wf
      h2.bitmaps_wf hs
  have hfree : t1.free_pages_ = t2.free_pages_ := by rw [h1.free, h2.free, hbm]
  have hused : t1.used_pages_ = t2.used_pages_ := by
    have := h1.used
    have := h2.used
    omega
  have hnodes : t1.pgd_ = t2.pgd_ ∧ t1.pmds_ = t2.pmds_ := by
    rcases levelsOf_cases N with l1 | l2 | l3
    · obtain ⟨a1, a2⟩ := h1.level1 l1
      obtain ⟨b1, b2⟩ := h2.level1 l1
      exact ⟨by rw [a1, b1], by rw [a2, b2]⟩
    · obtain ⟨a1, a2, _⟩ := h1.level2 l2
      obtain ⟨b1, b2, _⟩ := h2.level2 l2
      rw [hbm] at a1
      exact ⟨a1.node_unique b1, by rw [a2, b2]⟩
    · obtain ⟨a1, a2, a3, a4, a5, a6, a7, a8, a9⟩ := h1.level3 l3
      obtain ⟨b1, b2, b3, b4, b5, b6, b7, b8, b9⟩ := h2.level3 l3
      have hpmds : t1.pmds_ = t2.pmds_ := by
        apply List.ext_getElem (by rw [a1, b1])
        intro i i1 i2
        obtain ⟨n1, g1, o1⟩ := a2 i (by omega)
        obtain ⟨n2, g2, o2⟩ := b2 i (by omega)
        rw [hbm] at o1
        rw [List.getElem?_eq_getElem i1] at g1
        rw [List.getElem?_eq_getElem i2] at g2
        cases g1
        cases g2
        exact o1.node_unique o2
      refine ⟨?_, hpmds⟩
      rw [hpmds] at a5
      exact node_ext _ _ _ N _ a3 a4 a5 a6 a7 a8 b3 b4 b5 b6 b7 b8
  have e1 := h1.ready.trans h2.ready.symm
  have e2 := h1.pgd_bits.trans h2.pgd_bits.symm
  have e3 := h1.pmd_bits.trans h2.pmd_bits.symm
  have e4 := h1.bitmap_bits.trans h2.bitmap_bits.symm
  have e5 := h1.pgd_mask.trans h2.pgd_mask.symm
  have e6 := h1.pmd_mask.trans h2.pmd_mask.symm
  have e7 := h1.bitmap_mask.trans h2.bitmap_mask.symm
  have e8 := h1.levels.trans h2.levels.symm
  have e9 := h1.number_pmd_nodes.trans h2.number_pmd_nodes.symm
  have e10 := h1.number_bitmaps.trans h2.number_bitmaps.symm
  have e11 := h1.number_all.trans h2.number_all.symm
  have e12 := h1.total_pages.trans h2.total_pages.symm
  cases t1
  cases t2
  simp only at hbm hfree hused hnodes e1 e2 e3 e4 e5 e6 e7 e8 e9 e10 e11 e12
  simp only [PageAllocationTable.mk.injEq]
  exact ⟨e1, e2, e3, e4, e5, e6, e7, e8, hnodes.1, hnodes.2, e9, hbm, e10, e11, e12, hused,
    hfree⟩

/-- Freeing distinct allocated pages one after the other. -/
theorem freeEach_spec {N : Nat} : ∀ (qs : List Nat) (t : PageAllocationTable), Inv N t →
    qs.Nodup → (∀ q ∈ qs, q < N ∧ slotBit t.bitmaps_ q = 0) →
    ∃ t1, freeEach qs t = some t1 ∧ Inv N t1 ∧
      (∀ p, slotBit t1.bitmaps_ p = if p ∈ qs then 1 else slotBit t.bitmaps_ p) ∧
      t1.free_pages_ = t.free_pages_ + qs.length := by
  intro qs
  induction qs with
  | nil =>
    intro t h _ _
    exact ⟨t, rfl, h, fun p => by simp, rfl⟩
  | cons q rest ih =>
    intro t h hnd hall
    obtain ⟨hq, hc⟩ := hall q (List.mem_cons_self _ _)
    obtain ⟨t1, bm, g, e, r1, r2, r3⟩ := free_spec h q hq hc
    have hwf := h.bitmaps_wf bm (mem_of_getElem? _ _ _ g)
    have hslot : ∀ p, slotBit t1.bitmaps_ p = if p = q then 1 else slotBit t.bitmaps_ p := by
      intro p
      rw [r2]
      exact slotBit_set_page _ _ _ g hwf p
    rw [List.nodup_cons] at hnd
    obtain ⟨t2, e2, s1, s2, s3⟩ := ih t1 r1 hnd.2 (by
      intro q1 hq1
      refine ⟨(hall q1 (List.mem_cons_of_mem _ hq1)).1, ?_⟩
      rw [hslot, if_neg (by rintro rfl; exact hnd.1 hq1)]
      exact (hall q1 (List.mem_cons_of_mem _ hq1)).2)
    refine ⟨t2, ?_, s1, ?_, ?_⟩
    · simp only [freeEach, e, e2]
    · intro p
      rw [s2, hslot]
      by_cases hp : p = q
      · subst hp
        simp
      · simp [hp]
    · rw [s3, r3, List.length_cons]
      omega

end PageAllocationTable

/-! ## The allocation loop of the tests -/

namespace PageAllocationTable

/-- The free-page counter of PMD node `i` is the sum that `SanityCheck` forms
over the bitmaps of the node. -/
theorem pmdBitmapSum_eq {N : Nat} {t : PageAllocationTable} (h : Inv N t) (i : Nat)
    (nd : PageAllocationTableNode)
    (hover : NodeOver nd t.bitmaps_ (i * entriesPerPmdOf N)
      (min (entriesPerPmdOf N) (numberBitmapsOf N - i * entriesPerPmdOf N))
      (min (entriesPerPmdOf N * 4096) (N - i * (entriesPerPmdOf N * 4096)))) :
    pmdBitmapSum t i = nd.number_free_pages_ := by
  unfold pmdBitmapSum
  have efold : (1 <<< pmdBitsOf N) = entriesPerPmdOf N := rfl
  rw [h.pmd_bits, h.number_bitmaps, level3_first_eq, efold, filter_range_lt, hover.free]
  have := list_eq_map_range nd.entries_
    (fun j => bitmapCount t.bitmaps_ (i * entriesPerPmdOf N + j))
    (by rw [hover.length_entries]; exact hover.entry)
  conv_rhs => rw [this, hover.length_entries]
  congr 1
  apply List.map_congr_left
  intro j _
  rw [Nat.add_comm]

/-- The loop of `AllocateOnePage` calls of the tests, on a well-formed table
with enough free pages. -/
theorem allocateEach_spec {N : Nat} : ∀ (n : Nat) (t : PageAllocationTable), Inv N t →
    n ≤ t.free_pages_ →
    ∃ ps t1, allocateEach n t = some (ps, t1) ∧ Inv N t1 ∧ Took t.bitmaps_ ps t1.bitmaps_ ∧
      ps.length = n ∧ t1.free_pages_ + n = t.free_pages_ := by
  intro n
  induction n with
  | zero =>
    intro t h _
    exact ⟨[], t, rfl, h, Took.refl _, rfl, rfl⟩
  | succ k ih =>
    intro t h hle
    obtain ⟨p, t1, e, _, r1, r2, r3, _⟩ := allocateOne_spec h 0 (by omega)
    obtain ⟨ps, t2, e2, s1, s2, s3, s4⟩ := ih t1 r1 (by omega)
    refine ⟨p :: ps, t2, ?_, s1, r2.trans s2, by simp [s3], by omega⟩
    simp only [allocateEach, e, e2]

/-- A list of `N` distinct numbers below `N` is a permutation of `0 .. N-1`. -/
theorem perm_range_of_nodup (ps : List Nat) (N : Nat) (hnd : ps.Nodup)
    (hlt : ∀ p ∈ ps, p < N) (hlen : ps.length = N) : ps.Perm (List.range N) := by
  apply (List.subperm_of_subset hnd ?_).perm_of_length_le
  · rw [List.length_range, hlen]
  · intro p hp
    exact List.mem_range.2 (hlt p hp)

end PageAllocationTable

/-! ## Claims about the page allocation table -/

namespace PageAllocationTable

/-- C3: in every state `t` reachable from `Init(N)` by `AllocatePages`,
`AllocateOnePage` and `FreePage` calls that return, `N >= 1`,
`used_pages_ + free_pages_ = N`, `free_pages_` is the number of set bits over all
leaf bitmaps, every pgd entry and every pmd entry equals the number of set bits
of the bitmaps of the subtree it summarises, and `SanityCheck` passes all its
assertions and returns true. -/
theorem C3_pat_accounting (N : Nat) (t : PageAllocationTable) (h : Reachable N t) :
    1 ≤ N ∧ t.total_pages_ = N ∧
    t.used_pages_ + t.free_pages_ = N ∧
    t.free_pages_ = (t.bitmaps_.map Bitmap.number_of_set_bits).sum ∧
    (t.levels_ = 2 → t.pgd_.number_free_pages_ = t.free_pages_ ∧
      ∀ i, i < t.number_bitmaps_ → wordAt t.pgd_.entries_ i = bitmapCount t.bitmaps_ i) ∧
    (t.levels_ = 3 → t.pgd_.number_free_pages_ = t.free_pages_ ∧
      ∀ i, i < t.number_pmd_nodes_ → ∃ nd, t.pmds_[i]? = some nd ∧
        wordAt t.pgd_.entries_ i = pmdBitmapSum t i ∧
        nd.number_free_pages_ = pmdBitmapSum t i ∧
        ∀ j, j < nd.number_entries_ →
          wordAt nd.entries_ j = bitmapCount t.bitmaps_ ((i <<< t.pmd_bits_) + j)) ∧
    SanityCheck t = some true := by
  have inv := inv_of_reachable h
  refine ⟨inv.pos, inv.total_pages, inv.used, inv.free, ?_, ?_, sanity_of_inv inv⟩
  · intro h2
    rw [inv.levels] at h2
    obtain ⟨a1, _, a3⟩ := inv.level2 h2
    refine ⟨a3, ?_⟩
    intro i hi
    rw [inv.number_bitmaps] at hi
    have := a1.entry i hi
    rw [Nat.zero_add] at this
    exact this
  · intro h3
    rw [inv.levels] at h3
    obtain ⟨b1, b2, b3, b4, b5, b6, b7, b8, b9⟩ := inv.level3 h3
    refine ⟨b9, ?_⟩
    intro i hi
    rw [inv.number_pmd_nodes, if_pos h3] at hi
    obtain ⟨nd, hnd, hover⟩ := b2 i hi
    have hsum := pmdBitmapSum_eq inv i nd hover
    refine ⟨nd, hnd, ?_, hsum.symm, ?_⟩
    · rw [b5 i hi, pmdField_of_getElem? _ _ _ _ hnd, hsum]
    · intro j hj
      rw [hover.number_entries] at hj
      rw [inv.pmd_bits, level3_first_eq]
      exact hover.entry j hj

theorem C3_pat_accounting_witness :
    ∃ t, Init 70000 = some t ∧ t.used_pages_ + t.free_pages_ = 70000 ∧
      SanityCheck t = some true := by
  obtain ⟨t, e, _⟩ := init_spec 70000 (by decide)
  have r := C3_pat_accounting 70000 t (Reachable.init e)
  exact ⟨t, e, r.2.2.1, r.2.2.2.2.2.2⟩

/-- C4: in a reachable table over `N` pages (one, two or three levels) and for
every `want <= free_pages_`, `AllocatePages(want, out)` returns true; `out` then
holds exactly `want` pairwise distinct page numbers, each below `N`, each free
(`IsPageFree`) before the call and not free after it; no other page changes
status, `free_pages_` decreases by exactly `want` and `used_pages_` increases by
`want`. -/
theorem C4_pat_allocate (N : Nat) (t : PageAllocationTable) (want : Nat) (pages : List Nat)
    (h : Reachable N t) (hw : want ≤ t.free_pages_) :
    (t.levels_ = 1 ∨ t.levels_ = 2 ∨ t.levels_ = 3) ∧
    ∃ out t1, t.AllocatePages want pages = some (true, out, t1) ∧
      out.length = want ∧ out.Nodup ∧
      (∀ p ∈ out, p < N ∧ t.IsPageFree p = some true ∧ t1.IsPageFree p = some false) ∧
      (∀ p, p < N → p ∉ out → t1.IsPageFree p = t.IsPageFree p) ∧
      (∀ p, p ∉ out → slotBit t1.bitmaps_ p = slotBit t.bitmaps_ p) ∧
      t1.free_pages_ + want = t.free_pages_ ∧ t1.used_pages_ = t.used_pages_ + want := by
  have inv := inv_of_reachable h
  refine ⟨by rw [inv.levels]; exact levelsOf_cases N, ?_⟩
  obtain ⟨out, t1, e, inv1, tk, r3, r4, r5⟩ := allocate_spec inv want pages hw
  refine ⟨out, t1, e, r3, tk.nodup, ?_, ?_, ?_, r4, r5⟩
  · intro p hp
    have hfree := tk.was_free p hp
    have hlt : p < N := by
      by_contra hc
      have := inv.beyond p (by omega)
      omega
    have hnow := tk.now p
    rw [if_pos hp] at hnow
    refine ⟨hlt, ?_, ?_⟩
    · rw [isPageFree_spec inv p hlt, hfree]
      rfl
    · rw [isPageFree_spec inv1 p hlt, hnow]
      rfl
  · intro p hlt hp
    have hnow := tk.now p
    rw [if_neg hp] at hnow
    rw [isPageFree_spec inv p hlt, isPageFree_spec inv1 p hlt, hnow]
  · intro p hp
    have hnow := tk.now p
    rw [if_neg hp] at hnow
    exact hnow

theorem C4_pat_allocate_witness :
    ∃ t out t1, Init 70000 = some t ∧ t.AllocatePages 5000 [] = some (true, out, t1) ∧
      out.length = 5000 ∧ out.Nodup ∧ t1.free_pages_ + 5000 = t.free_pages_ := by
  obtain ⟨t, e, _, _, hf, _⟩ := init_spec 70000 (by decide)
  obtain ⟨_, out, t1, r1, r2, r3, _, _, _, r7, _⟩ :=
    C4_pat_allocate 70000 t 5000 [] (Reachable.init e) (by rw [hf]; decide)
  exact ⟨t, out, t1, e, r1, r2, r3, r7⟩

/-- C5: in a reachable table, `AllocatePages(want, out)` returns, and it returns
false if and only if `want > free_pages_`; `AllocateOnePage` returns, and it
returns false if and only if `free_pages_ = 0`; on failure the whole table
(bitmaps, pgd and pmd nodes, used and free counters) and the output argument
are unchanged. -/
theorem C5_pat_allocate_failure (N : Nat) (t : PageAllocationTable) (want : Nat)
    (pages : List Nat) (page : Nat) (h : Reachable N t) :
    (∃ b out t1, t.AllocatePages want pages = some (b, out, t1) ∧
      (b = false ↔ t.free_pages_ < want) ∧ (b = false → t1 = t ∧ out = pages)) ∧
    (∃ b p t1, t.AllocateOnePage page = some (b, p, t1) ∧
      (b = false ↔ t.free_pages_ = 0) ∧ (b = false → t1 = t ∧ p = page)) := by
  have inv := inv_of_reachable h
  constructor
  · by_cases hlt : t.free_pages_ < want
    · refine ⟨false, pages, t, ?_, by simp [hlt], fun _ => ⟨rfl, rfl⟩⟩
      unfold AllocatePages
      rw [if_pos hlt]
    · obtain ⟨out, t1, e, _⟩ := allocate_spec inv want pages (by omega)
      exact ⟨true, out, t1, e, by simp [hlt], fun hb => by cases hb⟩
  · by_cases h0 : t.free_pages_ = 0
    · refine ⟨false, page, t, ?_, by simp [h0], fun _ => ⟨rfl, rfl⟩⟩
      unfold AllocateOnePage
      rw [if_pos h0]
    · obtain ⟨p, t1, e, _⟩ := allocateOne_spec inv page (by omega)
      exact ⟨true, p, t1, e, by simp [h0], fun hb => by cases hb⟩

theorem C5_pat_allocate_failure_witness :
    ∃ t, Init 17 = some t ∧ t.AllocatePages 18 [7] = some (false, [7], t) := by
  obtain ⟨t, e, _, _, hf, _⟩ := init_spec 17 (by decide)
  obtain ⟨⟨b, out, t1, r1, r2, r3⟩, _⟩ := C5_pat_allocate_failure 17 t 18 [7] 0 (Reachable.init e)
  have hb : b = false := r2.2 (by rw [hf]; decide)
  obtain ⟨r4, r5⟩ := r3 hb
  rw [hb, r4, r5] at r1
  exact ⟨t, e, r1⟩

/-- C6: for every `N >= 1` (one, two or three levels), `Init(N)` returns a
table on which `N` successive `AllocateOnePage` calls all return true, the pages
they return are a permutation of `0 .. N-1`, and the next `AllocateOnePage` call
returns false. -/
theorem C6_pat_exhaustion (N : Nat) (hN : 1 ≤ N) :
    ∃ t0 ps t1, Init N = some t0 ∧ allocateEach N t0 = some (ps, t1) ∧
      ps.Perm (List.range N) ∧
      ∀ page, t1.AllocateOnePage page = some (false, page, t1) := by
  obtain ⟨t0, e, inv, hs, hf, _⟩ := init_spec N hN
  obtain ⟨ps, t1, e1, inv1, tk, r1, r2⟩ := allocateEach_spec N t0 inv (by omega)
  refine ⟨t0, ps, t1, e, e1, ?_, ?_⟩
  · apply perm_range_of_nodup ps N tk.nodup _ r1
    intro p hp
    have := tk.was_free p hp
    rw [hs] at this
    by_contra hc
    rw [if_neg hc] at this
    omega
  · intro page
    unfold AllocateOnePage
    rw [if_pos (by omega)]

theorem C6_pat_exhaustion_witness :
    ∃ t0 ps t1, Init 17 = some t0 ∧ allocateEach 17 t0 = some (ps, t1) ∧
      ps.Perm (List.range 17) ∧
      ∀ page, t1.AllocateOnePage page = some (false, page, t1) :=
  C6_pat_exhaustion 17 (by decide)

/-- C7: after any run of successful allocations (`AllocatePages` and
`AllocateOnePage` calls returning true) from the table `t0` that `Init(N)`
returns, calling `FreePage` on every page handed out, in any order `qs`, returns
every time and ends in exactly `t0` (same bitmaps, same pgd and pmd nodes,
`free_pages_ = N`, `used_pages_ = 0`), so that the same allocations run
again. -/
theorem C7_pat_free_restores (N : Nat) (t0 t1 : PageAllocationTable) (ps qs : List Nat)
    (h0 : Init N = some t0) (hrun : AllocRun t0 ps t1) (hperm : qs.Perm ps) :
    t0.free_pages_ = N ∧ t0.used_pages_ = 0 ∧
    ∃ t2, freeEach qs t1 = some t2 ∧ t2 = t0 ∧ AllocRun t2 ps t1 := by
  obtain ⟨_, inv, hs, hf, hu⟩ := init_some h0
  obtain ⟨inv1, tk⟩ := allocRun_spec hrun inv
  have hnd : qs.Nodup := hperm.nodup_iff.2 tk.nodup
  obtain ⟨t2, e2, inv2, s2, _⟩ := freeEach_spec qs t1 inv1 hnd (by
    intro q hq
    have hq1 : q ∈ ps := hperm.mem_iff.1 hq
    have hfree := tk.was_free q hq1
    have hnow := tk.now q
    rw [if_pos hq1] at hnow
    refine ⟨?_, hnow⟩
    by_contra hc
    have := inv.beyond q (by omega)
    omega)
  have heq : t2 = t0 := by
    apply Inv.table_unique inv2 inv
    intro p
    rw [s2, tk.now]
    by_cases hp : p ∈ ps
    · rw [if_pos (hperm.mem_iff.2 hp), tk.was_free p hp]
    · rw [if_neg (fun hq => hp (hperm.mem_iff.1 hq)), if_neg hp]
  refine ⟨hf, hu, t2, e2, heq, ?_⟩
  rw [heq]
  exact hrun

theorem C7_pat_free_restores_witness :
    ∃ t0 t1 p q, Init 70000 = some t0 ∧ t0.AllocatePages 2 [] = some (true, [p, q], t1) ∧
      freeEach [q, p] t1 = some t0 := by
  obtain ⟨t0, e, inv, _, hf, _⟩ := init_spec 70000 (by decide)
  obtain ⟨out, t1, e1, _, _, hlen, _⟩ := allocate_spec inv 2 [] (by rw [hf]; decide)
  obtain ⟨p, q, hpq⟩ := List.length_eq_two.1 hlen
  subst hpq
  have hrun : AllocRun t0 ([p, q] ++ []) t1 := AllocRun.pages 2 [] [p, q] [] e1 (AllocRun.nil t1)
  obtain ⟨_, _, t2, r1, r2, _⟩ :=
    C7_pat_free_restores 70000 t0 t1 ([p, q] ++ []) [q, p] e hrun (List.Perm.swap p q [])
  rw [r2] at r1
  exact ⟨t0, t1, p, q, e, e1, r1⟩

/-- C8: for every `N >= 1`, `Init(N)` returns a table `t0` in which
`IsPageFree(p)` holds for every `p < N`, every bit of a leaf bitmap (so of the
last one) that stands for a page number `>= N` is clear, `free_pages_ = N` and
`used_pages_ = 0`; and in every table reachable from `Init(N)` by
`AllocatePages`, `AllocateOnePage` and `FreePage` no bit of a page number
`>= N` is set. -/
theorem C8_pat_initial_state (N : Nat) (hN : 1 ≤ N) :
    ∃ t0, Init N = some t0 ∧
      (∀ p, p < N → t0.IsPageFree p = some true) ∧
      (∀ p, N ≤ p → slotBit t0.bitmaps_ p = 0) ∧
      (∀ bm, t0.bitmaps_[numberBitmapsOf N - 1]? = some bm →
        ∀ q, 1 ≤ q → q ≤ 4096 → N ≤ (numberBitmapsOf N - 1) * 4096 + (q - 1) →
          bm.get q = some 0) ∧
      t0.free_pages_ = N ∧ t0.used_pages_ = 0 ∧
      ∀ t, Reachable N t → ∀ p, N ≤ p → slotBit t.bitmaps_ p = 0 := by
  obtain ⟨t0, e, inv, hs, hf, hu⟩ := init_spec N hN
  refine ⟨t0, e, ?_, inv.beyond, ?_, hf, hu, fun t ht => (inv_of_reachable ht).beyond⟩
  · intro p hp
    rw [isPageFree_spec inv p hp, hs, if_pos hp]
    rfl
  · intro bm hbm q hq1 hq2 hq
    rw [Bitmap.get_of_range _ _ hq1 hq2, ← slotBit_of_getElem? _ _ _ hbm q hq1 hq2,
      inv.beyond _ hq]

theorem C8_pat_initial_state_witness :
    ∃ t0, Init 4100 = some t0 ∧
      (∀ p, p < 4100 → t0.IsPageFree p = some true) ∧
      (∀ p, 4100 ≤ p → slotBit t0.bitmaps_ p = 0) ∧
      (∀ bm, t0.bitmaps_[numberBitmapsOf 4100 - 1]? = some bm →
        ∀ q, 1 ≤ q → q ≤ 4096 → 4100 ≤ (numberBitmapsOf 4100 - 1) * 4096 + (q - 1) →
          bm.get q = some 0) ∧
      t0.free_pages_ = 4100 ∧ t0.used_pages_ = 0 ∧
      ∀ t, Reachable 4100 t → ∀ p, 4100 ≤ p → slotBit t.bitmaps_ p = 0 :=
  C8_pat_initial_state 4100 (by decide)

end PageAllocationTable

/-! ## Nodes of the page stats table -/

namespace PageStatsTableNode

/-- `Increase` when the entry does not overflow: no shift, the entry grows by
`delta`. -/
theorem Increase_of_le (w : Nat) (nd : PageStatsTableNode) (arr : List Nat) (index delta : Nat)
    (hlim : nd.entry_value_limit_ = 2 ^ w - 1) (hi : index < nd.number_entries_)
    (hlen : nd.entries_ + nd.number_entries_ ≤ arr.length)
    (hle : wordAt arr (nd.entries_ + index) + delta ≤ 2 ^ w - 1) :
    nd.Increase w arr index delta =
      some (arr.set (nd.entries_ + index) (wordAt arr (nd.entries_ + index) + delta)) := by
  have hpos : 0 < 2 ^ w := Nat.two_pow_pos w
  have hd : delta ≤ nd.entry_value_limit_ := by rw [hlim]; omega
  have hloop : increaseLoop nd index delta (w + 1) arr = arr := by
    simp only [increaseLoop]
    rw [if_neg (by rw [hlim]; omega)]
  unfold Increase
  rw [if_pos ⟨hi, hd, hlen⟩]
  simp only [hloop]
  rw [Nat.mod_eq_of_lt (by omega)]

theorem GetValue_of_lt (nd : PageStatsTableNode) (arr : List Nat) (index : Nat)
    (hi : index < nd.number_entries_) : nd.GetValue arr index = arr[nd.entries_ + index]? := by
  unfold GetValue
  rw [if_pos hi]

end PageStatsTableNode

namespace PageStatsTable

theorem initNodes_spec (w per : Nat) : ∀ (todo begin_entry remain : Nat),
    (initNodes w per todo begin_entry remain).length = todo ∧
      ∀ i, i < todo → (initNodes w per todo begin_entry remain)[i]? =
        some (PageStatsTableNode.Init w (begin_entry + min remain (i * per))
          (min (remain - i * per) per)) := by
  intro todo
  induction todo with
  | zero =>
    intro b r
    exact ⟨rfl, fun i hi => by omega⟩
  | succ n ih =>
    intro b r
    obtain ⟨l, g⟩ := ih (b + min r per) (r - min r per)
    refine ⟨by simp [initNodes, l], ?_⟩
    intro i hi
    cases i with
    | zero => simp [initNodes]
    | succ j =>
      have e1 : b + min r per + min (r - min r per) (j * per) = b + min r ((j + 1) * per) := by
        rw [Nat.succ_mul]
        omega
      have e2 : min (r - min r per - j * per) per = min (r - (j + 1) * per) per := by
        rw [Nat.succ_mul]
        omega
      simp only [initNodes, List.getElem?_cons_succ]
      rw [g j (by omega), e1, e2]

/-- Setting the compensation fields of a node leaves the place and the size of
every node as they are. -/
theorem setCompensation_getElem? (nodes : List PageStatsTableNode) (i : Nat) (c : Binary64)
    (k : Nat) (nd : PageStatsTableNode) (h : nodes[k]? = some nd) :
    ∃ nd1, (setCompensation nodes i c)[k]? = some nd1 ∧ nd1.entries_ = nd.entries_ ∧
      nd1.number_entries_ = nd.number_entries_ ∧
      nd1.entry_value_limit_ = nd.entry_value_limit_ := by
  unfold setCompensation
  cases hi : nodes[i]? with
  | none => exact ⟨nd, h, rfl, rfl, rfl⟩
  | some ndi =>
    simp only
    by_cases hk : i = k
    · subst hk
      rw [h] at hi
      cases hi
      have hlt := lt_length_of_getElem? _ _ _ h
      exact ⟨{ nd with last_entry_needs_compensation_ := true, last_entry_compensation_ := c },
        by rw [List.getElem?_set_self hlt], rfl, rfl, rfl⟩
    · refine ⟨nd, by rw [List.getElem?_set_ne hk]; exact h, rfl, rfl, rfl⟩

end PageStatsTable

/-! ## Layout of the page stats table -/

namespace PageStatsTable

theorem PTE_BITS_eq : PTE_BITS = 12 := rfl

theorem numberPteNodesOf_bounds (N : Nat) (hN : 0 < N) :
    0 < numberPteNodesOf N ∧ 4096 * (numberPteNodesOf N - 1) < N ∧
      N ≤ 4096 * numberPteNodesOf N := by
  unfold numberPteNodesOf
  have e : (1 <<< PTE_BITS) = 4096 := rfl
  rw [e]
  omega

theorem numberPmdNodesOf_bounds (N : Nat) (hN : 0 < N) :
    numberPteNodesOf N ≤ numberPmdNodesOf N * (1 <<< pmdBitsOf N) ∧
      (numberPmdNodesOf N - 1) * (1 <<< pmdBitsOf N) < numberPteNodesOf N ∧
      0 < numberPmdNodesOf N := by
  have hE : 0 < 1 <<< pmdBitsOf N := by
    rw [Nat.one_shiftLeft]
    exact Nat.two_pow_pos _
  have hb := numberPteNodesOf_bounds N hN
  obtain ⟨c1, c2, c3⟩ := PageAllocationTable.ceil_div_bounds (numberPteNodesOf N)
    (1 <<< pmdBitsOf N) hE
  have e : numberPmdNodesOf N =
      (numberPteNodesOf N + ((1 <<< pmdBitsOf N) - 1)) / (1 <<< pmdBitsOf N) := by
    unfold numberPmdNodesOf
    congr 1
    omega
  rw [e]
  exact ⟨c1, c2 hb.1, c3 hb.1⟩

/-- Where the counters of page `p` are: entry `p % 4096` of PTE node `p / 4096`,
entry `p / 4096 % E` of PMD node `p / 4096 / E`, and entry `p / 4096 / E` of the
PGD, for `E = 2^pmd_bits_`. -/
theorem page_index_facts (N p : Nat) (hp : p < N) :
    p / 4096 < numberPteNodesOf N ∧
    min N (p / 4096 * 4096) = p / 4096 * 4096 ∧
    p % 4096 < min (N - p / 4096 * 4096) 4096 ∧
    p / 4096 / (1 <<< pmdBitsOf N) < numberPmdNodesOf N ∧
    min (numberPteNodesOf N) (p / 4096 / (1 <<< pmdBitsOf N) * (1 <<< pmdBitsOf N)) =
      p / 4096 / (1 <<< pmdBitsOf N) * (1 <<< pmdBitsOf N) ∧
    p / 4096 % (1 <<< pmdBitsOf N) <
      min (numberPteNodesOf N - p / 4096 / (1 <<< pmdBitsOf N) * (1 <<< pmdBitsOf N))
        (1 <<< pmdBitsOf N) ∧
    p / 4096 / (1 <<< pmdBitsOf N) * (1 <<< pmdBitsOf N) + p / 4096 % (1 <<< pmdBitsOf N) =
      p / 4096 := by
  have hN : 0 < N := by omega
  have hb := numberPteNodesOf_bounds N hN
  obtain ⟨d1, d2, d3⟩ := numberPmdNodesOf_bounds N hN
  have hE : 0 < 1 <<< pmdBitsOf N := by
    rw [Nat.one_shiftLeft]
    exact Nat.two_pow_pos _
  have hK : p / 4096 < numberPteNodesOf N := by omega
  have hk : p / 4096 / (1 <<< pmdBitsOf N) < numberPmdNodesOf N := by
    rw [Nat.div_lt_iff_lt_mul hE]
    omega
  have hdm := Nat.div_add_mod (p / 4096) (1 <<< pmdBitsOf N)
  rw [Nat.mul_comm] at hdm
  have hm := Nat.mod_lt (p / 4096) hE
  refine ⟨hK, by omega, by omega, hk, by omega, by omega, hdm⟩

/-- The fields of a table over `N` pages that no call changes. -/
theorem ofInit_facts {N : Nat} {t : PageStatsTable} (h : OfInit N t) :
    0 < N ∧ t.total_pages_ = N ∧ t.pte_bits_ = 12 ∧ t.pmd_bits_ = pmdBitsOf N ∧
    t.pte_mask_ = (1 <<< 12) - 1 ∧ t.pmd_mask_ = (1 <<< pmdBitsOf N) - 1 ∧
    t.pte_entries_.length = N ∧
    t.pgd_pmd_entries_.length = numberPmdNodesOf N + numberPteNodesOf N ∧
    (∀ i, i < numberPteNodesOf N → ∃ nd, t.ptes_[i]? = some nd ∧
      nd.entries_ = min N (i * 4096) ∧ nd.number_entries_ = min (N - i * 4096) 4096 ∧
      nd.entry_value_limit_ = 2 ^ 8 - 1) ∧
    (∀ i, i < numberPmdNodesOf N → ∃ nd, t.pmds_[i]? = some nd ∧
      nd.entries_ = numberPmdNodesOf N + min (numberPteNodesOf N) (i * (1 <<< pmdBitsOf N)) ∧
      nd.number_entries_ =
        min (numberPteNodesOf N - i * (1 <<< pmdBitsOf N)) (1 <<< pmdBitsOf N) ∧
      nd.entry_value_limit_ = 2 ^ 16 - 1) ∧
    t.pgd_.entries_ = 0 ∧ t.pgd_.number_entries_ = numberPmdNodesOf N ∧
    t.pgd_.entry_value_limit_ = 2 ^ 16 - 1 := by
  obtain ⟨name, t0, e, ht, l1, l2⟩ := h
  have hN : 0 < N := by
    rcases Nat.eq_zero_or_pos N with h0 | h0
    · subst h0
      simp [Init] at e
    · exact h0
  unfold Init at e
  rw [if_neg (by omega)] at e
  simp only [Option.some.injEq] at e
  subst e
  simp only [List.length_replicate] at l1 l2
  have e4096 : (1 <<< PTE_BITS) = 4096 := rfl
  obtain ⟨p1, p2⟩ := initNodes_spec 8 4096 (numberPteNodesOf N) 0 N
  obtain ⟨q1, q2⟩ := initNodes_spec 16 (1 <<< pmdBitsOf N) (numberPmdNodesOf N)
    (numberPmdNodesOf N) (numberPteNodesOf N)
  refine ⟨hN, congrArg (·.total_pages_) ht, congrArg (·.pte_bits_) ht,
    congrArg (·.pmd_bits_) ht, congrArg (·.pte_mask_) ht, congrArg (·.pmd_mask_) ht, l1, l2,
    ?_, ?_, ?_⟩
  · intro i hi
    have hpt : t.ptes_ = initNodes 8 4096 (numberPteNodesOf N) 0 N := congrArg (·.ptes_) ht
    rw [hpt, p2 i hi]
    exact ⟨_, rfl, by simp [PageStatsTableNode.Init], rfl, rfl⟩
  · intro i hi
    have hpm : t.pmds_ =
        if N % 4096 ≠ 0 then
          setCompensation (initNodes 16 (1 <<< pmdBitsOf N) (numberPmdNodesOf N)
            (numberPmdNodesOf N) (numberPteNodesOf N)) (numberPmdNodesOf N - 1)
            (Binary64.div (Binary64.ofNat 4096) (Binary64.ofNat (N % 4096)))
        else initNodes 16 (1 <<< pmdBitsOf N) (numberPmdNodesOf N) (numberPmdNodesOf N)
          (numberPteNodesOf N) := congrArg (·.pmds_) ht
    rw [hpm]
    split
    · obtain ⟨nd1, g1, g2, g3, g4⟩ := setCompensation_getElem? _ (numberPmdNodesOf N - 1)
        (Binary64.div (Binary64.ofNat 4096) (Binary64.ofNat (N % 4096))) i _ (q2 i hi)
      exact ⟨nd1, g1, g2, g3, g4⟩
    · rw [q2 i hi]
      exact ⟨_, rfl, rfl, rfl, rfl⟩
  · have hpg : t.pgd_ =
        if N % (1 <<< (PTE_BITS + pmdBitsOf N)) ≠ 0 then
          { PageStatsTableNode.Init 16 0 (numberPmdNodesOf N) with
            last_entry_needs_compensation_ := true,
            last_entry_compensation_ :=
              Binary64.div (Binary64.ofNat (1 <<< (PTE_BITS + pmdBitsOf N)))
                (Binary64.ofNat (N % (1 <<< (PTE_BITS + pmdBitsOf N)))) }
        else PageStatsTableNode.Init 16 0 (numberPmdNodesOf N) := congrArg (·.pgd_) ht
    rw [hpg]
    split
    · exact ⟨rfl, rfl, rfl⟩
    · exact ⟨rfl, rfl, rfl⟩

end PageStatsTable

/-! ## IncreaseAccessCount without overflow -/

namespace PageStatsTable

theorem shift_facts (N p : Nat) :
    p >>> 12 = p / 4096 ∧ p &&& ((1 <<< 12) - 1) = p % 4096 ∧
    p >>> (12 + pmdBitsOf N) = p / 4096 / (1 <<< pmdBitsOf N) ∧
    (p >>> 12) &&& ((1 <<< pmdBitsOf N) - 1) = p / 4096 % (1 <<< pmdBitsOf N) := by
  have e1 : p >>> 12 = p / 4096 := by
    rw [Nat.shiftRight_eq_div_pow]
  refine ⟨e1, ?_, ?_, ?_⟩
  · rw [PageAllocationTable.and_mask_eq_mod]
    norm_num
  · rw [Nat.shiftRight_add, e1, Nat.shiftRight_eq_div_pow, Nat.one_shiftLeft]
  · rw [e1, PageAllocationTable.and_mask_eq_mod, Nat.one_shiftLeft]

/-- `AccessCount(p)` reads `pte_entries_[p]`. -/
theorem accessCount_eq {N : Nat} {t : PageStatsTable} (h : OfInit N t) (p : Nat) (hp : p < N) :
    t.AccessCount p = t.pte_entries_[p]? := by
  obtain ⟨_, f1, f2, f3, f4, f5, f6, f7, f8, f9, f10, f11, f12⟩ := ofInit_facts h
  obtain ⟨s1, s2, s3, s4⟩ := shift_facts N p
  obtain ⟨i1, i2, i3, i4, i5, i6, i7⟩ := page_index_facts N p hp
  obtain ⟨nd, g1, g2, g3, g4⟩ := f8 _ i1
  unfold AccessCount
  rw [if_neg (by omega), f2, s1, g1, f4, s2]
  simp only
  rw [PageStatsTableNode.GetValue_of_lt _ _ _ (by rw [g3]; exact i3), g2, i2]
  congr 1
  omega

/-- `PMDAccessCount(p)` reads the entry of PTE node `p / 4096`. -/
theorem pmdAccessCount_eq {N : Nat} {t : PageStatsTable} (h : OfInit N t) (p : Nat)
    (hp : p < N) :
    t.PMDAccessCount p = t.pgd_pmd_entries_[numberPmdNodesOf N + p / 4096]? := by
  obtain ⟨_, f1, f2, f3, f4, f5, f6, f7, f8, f9, f10, f11, f12⟩ := ofInit_facts h
  obtain ⟨s1, s2, s3, s4⟩ := shift_facts N p
  obtain ⟨i1, i2, i3, i4, i5, i6, i7⟩ := page_index_facts N p hp
  obtain ⟨nd, g1, g2, g3, g4⟩ := f9 _ i4
  unfold PMDAccessCount
  rw [if_neg (by omega), f2, f3, s3, g1, f5, s4]
  simp only
  rw [PageStatsTableNode.GetValue_of_lt _ _ _ (by rw [g3]; exact i6), g2, i5]
  congr 1
  omega

/-- `PGDAccessCount(p)` reads the entry of PMD node `p / 4096 / 2^pmd_bits_`. -/
theorem pgdAccessCount_eq {N : Nat} {t : PageStatsTable} (h : OfInit N t) (p : Nat)
    (hp : p < N) :
    t.PGDAccessCount p = t.pgd_pmd_entries_[p / 4096 / (1 <<< pmdBitsOf N)]? := by
  obtain ⟨_, f1, f2, f3, f4, f5, f6, f7, f8, f9, f10, f11, f12⟩ := ofInit_facts h
  obtain ⟨s1, s2, s3, s4⟩ := shift_facts N p
  obtain ⟨i1, i2, i3, i4, i5, i6, i7⟩ := page_index_facts N p hp
  unfold PGDAccessCount
  rw [if_neg (by omega), f2, f3, s3,
    PageStatsTableNode.GetValue_of_lt _ _ _ (by rw [f11]; exact i4), f10, Nat.zero_add]

/-- New content of the two arrays of counters gives a table over `N` pages
again. -/
theorem ofInit_update {N : Nat} {t : PageStatsTable} (h : OfInit N t) (a b : List Nat)
    (ha : a.length = t.pte_entries_.length) (hb : b.length = t.pgd_pmd_entries_.length) :
    OfInit N { t with pte_entries_ := a, pgd_pmd_entries_ := b } := by
  obtain ⟨name, t0, e, ht, l1, l2⟩ := h
  refine ⟨name, t0, e, ?_, by rw [← l1]; exact ha, by rw [← l2]; exact hb⟩
  cases t
  cases t0
  simp only [PageStatsTable.mk.injEq] at ht ⊢
  simp only [true_and] at ht ⊢
  exact ht

/-- Another choice of the library for the coming sorts gives a table over `N`
pages again. -/
theorem ofInit_ties {N : Nat} {t : PageStatsTable} (h : OfInit N t) (l : List (List Nat)) :
    OfInit N { t with sort_ties_ := l } := by
  obtain ⟨name, t0, e, ht, l1, l2⟩ := h
  refine ⟨name, t0, e, ?_, l1, l2⟩
  cases t
  cases t0
  simp only [PageStatsTable.mk.injEq] at ht ⊢
  simp only [true_and, and_true] at ht ⊢
  exact ht

/-- `IncreaseAccessCount` when none of the three counters overflows. -/
theorem increase_eq {N : Nat} {t : PageStatsTable} (h : OfInit N t) (p delta a m g : Nat)
    (hp : p < N) (hd : delta ≤ 255)
    (ha : t.pte_entries_[p]? = some a)
    (hm : t.pgd_pmd_entries_[numberPmdNodesOf N + p / 4096]? = some m)
    (hg : t.pgd_pmd_entries_[p / 4096 / (1 <<< pmdBitsOf N)]? = some g)
    (h1 : a + delta ≤ 255) (h2 : m + delta ≤ 65535) (h3 : g + delta ≤ 65535) :
    t.IncreaseAccessCount p delta = some
      { t with
        pte_entries_ := t.pte_entries_.set p (a + delta),
        pgd_pmd_entries_ :=
          (t.pgd_pmd_entries_.set (numberPmdNodesOf N + p / 4096) (m + delta)).set
            (p / 4096 / (1 <<< pmdBitsOf N)) (g + delta) } := by
  obtain ⟨_, f1, f2, f3, f4, f5, f6, f7, f8, f9, f10, f11, f12⟩ := ofInit_facts h
  obtain ⟨s1, s2, s3, s4⟩ := shift_facts N p
  obtain ⟨i1, i2, i3, i4, i5, i6, i7⟩ := page_index_facts N p hp
  obtain ⟨pte, g1, g2, g3, g4⟩ := f8 _ i1
  obtain ⟨pmd, k1, k2, k3, k4⟩ := f9 _ i4
  have hd8 : delta % 2 ^ 8 = delta := Nat.mod_eq_of_lt (by omega)
  have hd16 : delta % 2 ^ 16 = delta := Nat.mod_eq_of_lt (by omega)
  have hpte : pte.entries_ + p % 4096 = p := by
    rw [g2, i2]
    omega
  have hpmd : pmd.entries_ + p / 4096 % (1 <<< pmdBitsOf N) = numberPmdNodesOf N + p / 4096 := by
    rw [k2, i5]
    omega
  have wa : wordAt t.pte_entries_ p = a := by
    unfold wordAt
    rw [List.getD_eq_getElem?_getD, ha]
    rfl
  have wm : wordAt t.pgd_pmd_entries_ (numberPmdNodesOf N + p / 4096) = m := by
    unfold wordAt
    rw [List.getD_eq_getElem?_getD, hm]
    rfl
  have hne : numberPmdNodesOf N + p / 4096 ≠ p / 4096 / (1 <<< pmdBitsOf N) := by omega
  have wg : wordAt (t.pgd_pmd_entries_.set (numberPmdNodesOf N + p / 4096) (m + delta))
      (p / 4096 / (1 <<< pmdBitsOf N)) = g := by
    unfold wordAt
    rw [List.getD_eq_getElem?_getD, List.getElem?_set_ne hne, hg]
    rfl
  have inc1 : pte.Increase 8 t.pte_entries_ (p % 4096) delta =
      some (t.pte_entries_.set p (a + delta)) := by
    rw [PageStatsTableNode.Increase_of_le 8 pte _ _ _ g4 (by rw [g3]; exact i3)
      (by rw [g2, g3, f6, i2]; omega) (by rw [hpte, wa]; omega), hpte, wa]
  have inc2 : pmd.Increase 16 t.pgd_pmd_entries_ (p / 4096 % (1 <<< pmdBitsOf N)) delta =
      some (t.pgd_pmd_entries_.set (numberPmdNodesOf N + p / 4096) (m + delta)) := by
    rw [PageStatsTableNode.Increase_of_le 16 pmd _ _ _ k4 (by rw [k3]; exact i6)
      (by rw [k2, k3, f7, i5]; omega) (by rw [hpmd, wm]; omega), hpmd, wm]
  have inc3 : t.pgd_.Increase 16
      (t.pgd_pmd_entries_.set (numberPmdNodesOf N + p / 4096) (m + delta))
      (p / 4096 / (1 <<< pmdBitsOf N)) delta =
      some ((t.pgd_pmd_entries_.set (numberPmdNodesOf N + p / 4096) (m + delta)).set
        (p / 4096 / (1 <<< pmdBitsOf N)) (g + delta)) := by
    rw [PageStatsTableNode.Increase_of_le 16 t.pgd_ _ _ _ f12 (by rw [f11]; exact i4)
      (by rw [f10, f11, List.length_set, f7]; omega)
      (by rw [f10, Nat.zero_add, wg]; omega), f10, Nat.zero_add, wg]
  have s5 : (p / 4096) &&& ((1 <<< pmdBitsOf N) - 1) = p / 4096 % (1 <<< pmdBitsOf N) := by
    rw [PageAllocationTable.and_mask_eq_mod, Nat.one_shiftLeft]
  unfold IncreaseAccessCount
  rw [if_neg (by omega)]
  simp only [f2, f3, f4, f5, s1, s2, s3, s5, g1, k1, hd8, hd16, inc1, inc2, inc3]

end PageStatsTable

/-! ## Claim about the page stats table -/

namespace PageStatsTable

theorem ofInit_number_pmd_nodes {N : Nat} {t : PageStatsTable} (h : OfInit N t) :
    t.number_pmd_nodes_ = numberPmdNodesOf N := by
  obtain ⟨name, t0, e, ht, _, _⟩ := h
  have hN : 0 < N := by
    rcases Nat.eq_zero_or_pos N with h0 | h0
    · subst h0
      simp [Init] at e
    · exact h0
  unfold Init at e
  rw [if_neg (by omega)] at e
  simp only [Option.some.injEq] at e
  subst e
  exact congrArg (·.number_pmd_nodes_) ht

/-- C10: in a page stats table over `N` pages (the table `Init` returned, with
any content of its counters), for a page `p < N` and a `delta` in `1..255` such
that the leaf counter of `p` plus `delta` is at most 255 and the PMD entry and
the PGD entry that enclose `p` plus `delta` are at most 65535,
`IncreaseAccessCount(p, delta)` returns and raises `AccessCount(p)`,
`PMDAccessCount(p)` and `PGDAccessCount(p)` by exactly `delta` each; the leaf
counter of every other page, the PMD entry of every other PTE node and the PGD
entry of every other PMD node are unchanged, as is every other cell of the two
arrays of counters. -/
theorem C10_pst_increase (N : Nat) (t : PageStatsTable) (p delta a m g : Nat)
    (h : OfInit N t) (hp : p < N) (_hd1 : 1 ≤ delta) (hd2 : delta ≤ 255)
    (ha : t.AccessCount p = some a) (hm : t.PMDAccessCount p = some m)
    (hg : t.PGDAccessCount p = some g)
    (h1 : a + delta ≤ 255) (h2 : m + delta ≤ 65535) (h3 : g + delta ≤ 65535) :
    ∃ t1, t.IncreaseAccessCount p delta = some t1 ∧ OfInit N t1 ∧
      t1.AccessCount p = some (a + delta) ∧
      t1.PMDAccessCount p = some (m + delta) ∧
      t1.PGDAccessCount p = some (g + delta) ∧
      (∀ q, q < N → q ≠ p → t1.AccessCount q = t.AccessCount q) ∧
      (∀ q, q < N → q >>> t.pte_bits_ ≠ p >>> t.pte_bits_ →
        t1.PMDAccessCount q = t.PMDAccessCount q) ∧
      (∀ q, q < N → q >>> (t.pte_bits_ + t.pmd_bits_) ≠ p >>> (t.pte_bits_ + t.pmd_bits_) →
        t1.PGDAccessCount q = t.PGDAccessCount q) ∧
      (∀ i, i ≠ p → t1.pte_entries_[i]? = t.pte_entries_[i]?) ∧
      (∀ i, i ≠ t.number_pmd_nodes_ + (p >>> t.pte_bits_) →
        i ≠ p >>> (t.pte_bits_ + t.pmd_bits_) →
        t1.pgd_pmd_entries_[i]? = t.pgd_pmd_entries_[i]?) := by
  obtain ⟨_, f1, f2, f3, f4, f5, f6, f7, _⟩ := ofInit_facts h
  have fn := ofInit_number_pmd_nodes h
  obtain ⟨i1, i2, i3, i4, i5, i6, i7⟩ := page_index_facts N p hp
  rw [accessCount_eq h p hp] at ha
  rw [pmdAccessCount_eq h p hp] at hm
  rw [pgdAccessCount_eq h p hp] at hg
  have hne : numberPmdNodesOf N + p / 4096 ≠ p / 4096 / (1 <<< pmdBitsOf N) := by omega
  have e := increase_eq h p delta a m g hp hd2 ha hm hg h1 h2 h3
  have h1' := ofInit_update h (t.pte_entries_.set p (a + delta))
    ((t.pgd_pmd_entries_.set (numberPmdNodesOf N + p / 4096) (m + delta)).set
      (p / 4096 / (1 <<< pmdBitsOf N)) (g + delta)) (by simp) (by simp)
  refine ⟨_, e, h1', ?_, ?_, ?_, ?_, ?_, ?_, ?_, ?_⟩
  · rw [accessCount_eq h1' p hp]
    exact List.getElem?_set_self (by omega)
  · rw [pmdAccessCount_eq h1' p hp]
    show ((t.pgd_pmd_entries_.set (numberPmdNodesOf N + p / 4096) (m + delta)).set
      (p / 4096 / (1 <<< pmdBitsOf N)) (g + delta))[numberPmdNodesOf N + p / 4096]? = _
    rw [List.getElem?_set_ne (Ne.symm hne)]
    exact List.getElem?_set_self (by omega)
  · rw [pgdAccessCount_eq h1' p hp]
    exact List.getElem?_set_self (by rw [List.length_set]; omega)
  · intro q hq hqp
    rw [accessCount_eq h1' q hq, accessCount_eq h q hq]
    exact List.getElem?_set_ne (Ne.symm hqp)
  · intro q hq hqp
    rw [f2, (shift_facts N q).1, (shift_facts N p).1] at hqp
    obtain ⟨j1, j2, j3, j4, j5, j6, j7⟩ := page_index_facts N q hq
    rw [pmdAccessCount_eq h1' q hq, pmdAccessCount_eq h q hq]
    show ((t.pgd_pmd_entries_.set (numberPmdNodesOf N + p / 4096) (m + delta)).set
      (p / 4096 / (1 <<< pmdBitsOf N)) (g + delta))[numberPmdNodesOf N + q / 4096]? = _
    rw [List.getElem?_set_ne (by omega), List.getElem?_set_ne (by omega)]
  · intro q hq hqp
    rw [f2, f3, (shift_facts N q).2.2.1, (shift_facts N p).2.2.1] at hqp
    obtain ⟨j1, j2, j3, j4, j5, j6, j7⟩ := page_index_facts N q hq
    rw [pgdAccessCount_eq h1' q hq, pgdAccessCount_eq h q hq]
    show ((t.pgd_pmd_entries_.set (numberPmdNodesOf N + p / 4096) (m + delta)).set
      (p / 4096 / (1 <<< pmdBitsOf N)) (g + delta))[q / 4096 / (1 <<< pmdBitsOf N)]? = _
    rw [List.getElem?_set_ne (Ne.symm hqp), List.getElem?_set_ne (by omega)]
  · intro i hi
    exact List.getElem?_set_ne (Ne.symm hi)
  · intro i hi1 hi2
    rw [fn, f2, (shift_facts N p).1] at hi1
    rw [f2, f3, (shift_facts N p).2.2.1] at hi2
    show ((t.pgd_pmd_entries_.set (numberPmdNodesOf N + p / 4096) (m + delta)).set
      (p / 4096 / (1 <<< pmdBitsOf N)) (g + delta))[i]? = _
    rw [List.getElem?_set_ne (Ne.symm hi2), List.getElem?_set_ne (Ne.symm hi1)]

theorem C10_pst_increase_witness :
    ∃ t t1, Init "pst" 3 = some t ∧ t.IncreaseAccessCount 2 200 = some t1 ∧
      t1.AccessCount 2 = some 200 ∧ t1.PMDAccessCount 2 = some 200 ∧
      t1.PGDAccessCount 2 = some 200 ∧ t1.AccessCount 1 = some 0 := by
  have e : Init "pst" 3 = some
      { pgd_pmd_entries_ := [0, 0], pte_entries_ := [0, 0, 0], ready_ := true,
        pgd_bits_ := 0, pmd_bits_ := 0, pte_bits_ := 12, pgd_mask_ := 0, pmd_mask_ := 0,
        pte_mask_ := 4095,
        pgd_ := { entries_ := 0, number_entries_ := 1, entry_value_limit_ := 65535,
                  last_entry_needs_compensation_ := true,
                  last_entry_compensation_ :=
                    Binary64.div (Binary64.ofNat 4096) (Binary64.ofNat 3) },
        pmds_ := [{ entries_ := 1, number_entries_ := 1, entry_value_limit_ := 65535,
                    last_entry_needs_compensation_ := true,
                    last_entry_compensation_ :=
                    Binary64.div (Binary64.ofNat 4096) (Binary64.ofNat 3) }],
        number_pmd_nodes_ := 1, number_pgd_pmd_entries_ := 2,
        ptes_ := [{ entries_ := 0, number_entries_ := 3, entry_value_limit_ := 255,
                    last_entry_needs_compensation_ := false,
                    last_entry_compensation_ := Binary64.ofNat 1 }],
        number_pte_nodes_ := 1, total_pages_ := 3, name_ := "pst" } := by decide
  obtain ⟨t1, r1, _, r3, r4, r5, r6, _⟩ :=
    C10_pst_increase 3 _ 2 200 0 0 0 ⟨"pst", _, e, rfl, rfl, rfl⟩ (by decide) (by decide)
      (by decide) (by decide) (by decide) (by decide) (by decide) (by decide) (by decide)
  have r7 := r6 1 (by decide) (by decide)
  exact ⟨_, t1, e, r1, r3, r4, r5, r7.trans (by decide)⟩

end PageStatsTable

/-! ## The flash table of 256 pages -/

namespace PageAllocationTable

theorem word_256 (j : Nat) :
    wordAt (List.replicate 4 (2 ^ 64 - 1) ++ List.replicate 60 0) j =
      if j < 4 then 2 ^ 64 - 1 else 0 := by
  unfold wordAt
  rw [List.getD_eq_getElem?_getD]
  by_cases h4 : j < 4
  · rw [List.getElem?_append_left (by rw [List.length_replicate]; exact h4),
      List.getElem?_replicate, if_pos h4, if_pos h4]
    rfl
  · rw [List.getElem?_append_right (by rw [List.length_replicate]; omega),
      List.getElem?_replicate, if_neg h4]
    split <;> rfl

/-- The bits of the one bitmap of a table over 256 pages. -/
theorem slotBit_256 (p : Nat) :
    slotBit [(⟨List.replicate 4 (2 ^ 64 - 1) ++ List.replicate 60 0⟩ : LeafBitmap)] p =
      if p < 256 then 1 else 0 := by
  unfold slotBit
  by_cases hp : p < 4096
  · have h0 : p / 4096 = 0 := by omega
    have hm : p % 4096 + 1 - 1 = p := by omega
    have hget : [(⟨List.replicate 4 (2 ^ 64 - 1) ++ List.replicate 60 0⟩ : LeafBitmap)][0]? =
        some ⟨List.replicate 4 (2 ^ 64 - 1) ++ List.replicate 60 0⟩ := rfl
    rw [h0, hget]
    show Bitmap.getRaw _ _ = _
    rw [Bitmap.getRaw_eq, hm, word_256]
    by_cases h4 : p / 64 < 4
    · rw [if_pos h4, Nat.testBit_two_pow_sub_one]
      have : p % 64 < 64 := Nat.mod_lt _ (by decide)
      rw [if_pos (by simpa using this), if_pos (by omega)]
    · rw [if_neg h4, Nat.zero_testBit, if_neg (by decide), if_neg (by omega)]
  · have h1 : 1 ≤ p / 4096 := by omega
    have : [(⟨List.replicate 4 (2 ^ 64 - 1) ++ List.replicate 60 0⟩ : LeafBitmap)][p / 4096]? =
        none := by
      rw [List.getElem?_eq_none]
      exact h1
    rw [this]
    show 0 = _
    rw [if_neg (by omega)]

/-- The table that `Init(256)` returns. -/
theorem Init_256 :
    Init 256 = some
      { ready_ := true, pgd_bits_ := 0, pmd_bits_ := 0, bitmap_bits_ := 8, pgd_mask_ := 0,
        pmd_mask_ := 0, bitmap_mask_ := 255, levels_ := 1,
        pgd_ := PageAllocationTableNode.new, pmds_ := [], number_pmd_nodes_ := 0,
        bitmaps_ := [⟨List.replicate 4 (2 ^ 64 - 1) ++ List.replicate 60 0⟩],
        number_bitmaps_ := 1, number_all_pat_entries_ := 0, total_pages_ := 256,
        used_pages_ := 0, free_pages_ := 256 } := by
  obtain ⟨t, e, inv, hs, hf, hu⟩ := init_spec 256 (by decide)
  rw [e]
  apply congrArg some
  have hl : levelsOf 256 = 1 := by decide
  have hbm : t.bitmaps_ = [(⟨List.replicate 4 (2 ^ 64 - 1) ++ List.replicate 60 0⟩ : LeafBitmap)] := by
    apply bitmaps_ext _ _ (by rw [inv.bitmaps_length]; decide) inv.bitmaps_wf
    · intro bm hbm
      rw [List.mem_singleton] at hbm
      subst hbm
      refine ⟨by decide, ?_⟩
      intro w hw
      simp only [List.mem_append, List.mem_replicate] at hw
      rcases hw with ⟨_, h⟩ | ⟨_, h⟩
      · rw [h]
        decide
      · rw [h]
        decide
    · intro p
      rw [hs, slotBit_256]
  obtain ⟨g1, g2⟩ := inv.level1 hl
  have e1 := inv.ready
  have e2 := inv.pgd_bits
  have e3 := inv.pmd_bits
  have e4 := inv.bitmap_bits
  have e5 := inv.pgd_mask
  have e6 := inv.pmd_mask
  have e7 := inv.bitmap_mask
  have e8 := inv.levels
  have e9 := inv.number_pmd_nodes
  have e10 := inv.number_bitmaps
  have e11 := inv.number_all
  have e12 := inv.total_pages
  have c1 : pgdBitsOf 256 = 0 := by decide
  have c2 : pmdBitsOf 256 = 0 := by decide
  have c3 : bitmapBitsOf 256 = 8 := by decide
  have c4 : numberBitmapsOf 256 = 1 := by decide
  rw [c1] at e2 e5
  rw [c2] at e3 e6
  rw [c3] at e4 e7
  rw [c4] at e10
  rw [hl] at e8 e9 e11
  cases t
  simp only at hbm hf hu g1 g2 e1 e2 e3 e4 e5 e6 e7 e8 e9 e10 e11 e12
  simp only [PageAllocationTable.mk.injEq]
  refine ⟨e1, e2, e3, e4, e5, e6, e7, e8, g1, g2, ?_, hbm, e10, ?_, e12, hu, hf⟩
  · simpa using e9
  · simpa using e11

end PageAllocationTable

/-! ## The tiers: initialisation, release, and two runs -/

namespace System

/-- `FlashCache::Init` once the page allocation table is known. -/
theorem flashInit_of (m n : Nat) (pat : PageAllocationTable)
    (hn : RoundUpToPageSize m / PAGE_SIZE = n) (hp : PageAllocationTable.Init n = some pat) :
    FlashCache.Init m =
      (PageStatsTable.Init "pg-stats-table" n).bind (fun pst => some
        { ready_ := true,
          flash_file := List.replicate n 0,
          flash_file_size_ := n * PAGE_SIZE,
          page_allocate_table_ := pat,
          page_stats_table_ := pst,
          f2v_map_ := List.replicate n
            { vaddress_range_id := INVALID_VADDRESS_RANGE_ID, vaddress_page_offset := 0 },
          total_flash_pages_ := n,
          aux_buffer_list_ := 1 <<< VADDRESS_CHUNK_BITS }) := by
  subst hn
  unfold FlashCache.Init
  simp only [hp]
  cases PageStatsTable.Init "pg-stats-table" (RoundUpToPageSize m / PAGE_SIZE) <;> rfl

/-- `InitHybridMemory` for one instance. -/
theorem init_of (disk : List HddFile) (p r m : Nat) (hm : ((m >>> 20) <<< 20) % 2 ^ 64 > 0) :
    InitHybridMemory disk p r m 1 =
      (PageCache.Init p).bind (fun pc => (RAMCache.Init r).bind (fun rc =>
        (FlashCache.Init m).bind (fun fc => some
          { number_hmem_instances_ := 1,
            hmem_instances_ :=
              [{ ready_ := true, asyncio_enabled_ := false, hmem_instance_id_ := 0,
                 page_buffer_size_ := p, ram_buffer_size_ := r,
                 ssd_buffer_size_ := ((m >>> 20) <<< 20) % 2 ^ 64,
                 page_cache_ := pc, ram_cache_ := rc, flash_cache_ := fc }],
            vaddr_range_group := VAddressRangeGroup.Init, disk := disk }))) := by
  unfold InitHybridMemory
  rw [if_pos (by decide)]
  simp only [initInstances, Nat.div_one, HybridMemory.Init, hm, if_true]
  cases PageCache.Init p <;> cases RAMCache.Init r <;> cases FlashCache.Init m <;> rfl

/-- `hmem_free` changes the range group only. -/
theorem hmem_free_frame (s s1 : System) (address : Nat) (h : s.hmem_free address = some s1) :
    s1.disk = s.disk ∧ s1.hmem_instances_ = s.hmem_instances_ := by
  unfold hmem_free at h
  simp only at h
  split at h
  · cases h
    exact ⟨rfl, rfl⟩
  · split at h
    · cases h
      exact ⟨rfl, rfl⟩
    · split at h
      · cases h
        exact ⟨rfl, rfl⟩
      · cases h

set_option maxRecDepth 100000 in
/-- C1: the read-through property fails.  One tier with a page cache of 3
pages, a RAM cache of 2 pages and a flash cache of 256 pages serves a range of
8 pages mapped on a file whose pages hold 100 .. 107.  The program writes 1 .. 7
to the pages 0 .. 6, reads the pages 4 and 5, reads page 7 and reads page 6:
the four reads return 5, 6, 107 and 106, that is, the read of page 6 returns
the initial content of the file and not the 7 written last.  (When page 7
faults, `PageCache::EvictItems` hands page 6 to `RAMCache::AddPage`, which
returns false since both items of the RAM cache belong to pages that are in the
page cache; the result is not looked at and the page is discarded.) -/
theorem C1_read_through_lost_write :
    ((InitHybridMemory
        [{ st_size := 8 * 4096, content := [100, 101, 102, 103, 104, 105, 106, 107] }]
        (3 * 4096) (2 * 4096) (1 <<< 20) 1).bind (fun s0 =>
      (s0.hmem_map 65536 (8 * 4096) 0 0).bind (fun r =>
        (run [Access.write 65536 1, Access.write (65536 + 4096) 2,
              Access.write (65536 + 2 * 4096) 3, Access.write (65536 + 3 * 4096) 4,
              Access.write (65536 + 4 * 4096) 5, Access.write (65536 + 5 * 4096) 6,
              Access.write (65536 + 6 * 4096) 7, Access.read (65536 + 4 * 4096),
              Access.read (65536 + 5 * 4096), Access.read (65536 + 7 * 4096),
              Access.read (65536 + 6 * 4096)] r.2).map (·.1)))) =
      some [5, 6, 107, 106] := by
  rw [init_of _ _ _ _ (by decide),
    flashInit_of (1 <<< 20) 256 _ (by decide) PageAllocationTable.Init_256]
  decide!

set_option maxRecDepth 100000 in
/-- C2: the write-back property fails.  In the system of one tier with a page
cache of 3 pages, a RAM cache of 2 pages and a flash cache of 256 pages, over a
range of 8 pages mapped on a file whose pages hold 100 .. 107, the program
writes 1 .. 4 to the pages 0 .. 3.  Page 0 is then in the flash cache only
(flash page 0, which holds the 1 written) and is dirty there; after `hmem_free`
of the range the file still holds 100 .. 107. -/
theorem C2_release_without_write_back :
    ((InitHybridMemory
        [{ st_size := 8 * 4096, content := [100, 101, 102, 103, 104, 105, 106, 107] }]
        (3 * 4096) (2 * 4096) (1 <<< 20) 1).bind (fun s0 =>
      (s0.hmem_map 65536 (8 * 4096) 0 0).bind (fun r =>
        (run [Access.write 65536 1, Access.write (65536 + 4096) 2,
              Access.write (65536 + 2 * 4096) 3, Access.write (65536 + 3 * 4096) 4] r.2).bind
          (fun q => (q.2.hmem_free 65536).map (fun s3 =>
            (q.2.v2h (0, 0),
             (q.2.hmem 0).map (fun hm => hm.flash_cache_.flash_file.take 2),
             s3.disk)))))) =
      some
        (some { exist_page_cache := false, exist_ram_cache := false, exist_flash_cache := true,
                exist_hdd_file := true, dirty_page_cache := false, dirty_ram_cache := false,
                dirty_flash_cache := true, flash_page_offset := 0 },
         some [1, 2],
         [{ st_size := 8 * 4096, content := [100, 101, 102, 103, 104, 105, 106, 107] }]) := by
  rw [init_of _ _ _ _ (by decide),
    flashInit_of (1 <<< 20) 256 _ (by decide) PageAllocationTable.Init_256]
  decide!

/-- C2, as the code has it: `hmem_free` (`ReleaseVAddressRange`, `Release`)
writes nothing.  Whenever the call returns, every file is what it was before
the call, and so are the three caches of every tier; the bytes of a page that
was dirty in the flash cache stay in the flash file. -/
theorem C2_release_writes_nothing (s s1 : System) (address : Nat)
    (h : s.hmem_free address = some s1) :
    s1.disk = s.disk ∧ s1.hmem_instances_ = s.hmem_instances_ :=
  hmem_free_frame s s1 address h

theorem C2_release_writes_nothing_witness :
    ∃ s1 : System,
      System.hmem_free
        { number_hmem_instances_ := 0, hmem_instances_ := [],
          vaddr_range_group :=
            { vaddr_range_bitmap_ := [false],
              vaddr_range_list_ :=
                [{ vaddress_range_id_ := 0, is_active_ := true, address_ := 65536, size_ := 4096,
                   number_pages_ := 1, has_backing_hdd_file_ := true, hdd_file_offset_ := 0,
                   v2h_map_ := [V2HMapMetadata.zero], v2h_map_size_ := 1, hdd_file_fd_ := 3,
                   memory := [{ prot := PROT_NONE, data := 0 }] }],
              total_vaddr_ranges_ := 1, free_vaddr_ranges_ := 0, inuse_vaddr_ranges_ := 1,
              tree_ := [0] },
          disk := [{ st_size := 4096, content := [100] }] } 65536 = some s1 ∧
      s1.disk = [{ st_size := 4096, content := [100] }] := by
  obtain ⟨s1, h⟩ := Option.isSome_iff_exists.1
    (by decide : (System.hmem_free
        { number_hmem_instances_ := 0, hmem_instances_ := [],
          vaddr_range_group :=
            { vaddr_range_bitmap_ := [false],
              vaddr_range_list_ :=
                [{ vaddress_range_id_ := 0, is_active_ := true, address_ := 65536, size_ := 4096,
                   number_pages_ := 1, has_backing_hdd_file_ := true, hdd_file_offset_ := 0,
                   v2h_map_ := [V2HMapMetadata.zero], v2h_map_size_ := 1, hdd_file_fd_ := 3,
                   memory := [{ prot := PROT_NONE, data := 0 }] }],
              total_vaddr_ranges_ := 1, free_vaddr_ranges_ := 0, inuse_vaddr_ranges_ := 1,
              tree_ := [0] },
          disk := [{ st_size := 4096, content := [100] }] } 65536).isSome = true)
  exact ⟨s1, h, (C2_release_writes_nothing _ s1 65536 h).1⟩

end System

/-! ## The sort of GetSmallestEntryPositions -/

namespace PageStatsTableNode

theorem insertEntry_perm (ties : List Nat) (e : Nat × Nat) :
    ∀ l, (insertEntry ties e l).Perm (e :: l)
  | [] => List.Perm.refl _
  | x :: rest => by
    unfold insertEntry
    split
    · exact List.Perm.refl _
    · exact ((insertEntry_perm ties e rest).cons x).trans (List.Perm.swap e x rest)

theorem entryBefore_le (ties : List Nat) (e x : Nat × Nat) (h : entryBefore ties e x = true) :
    e.1 ≤ x.1 := by
  unfold entryBefore at h
  simp only [Bool.or_eq_true, Bool.and_eq_true, decide_eq_true_eq] at h
  omega

theorem entryBefore_ge (ties : List Nat) (e x : Nat × Nat) (h : ¬ entryBefore ties e x = true) :
    x.1 ≤ e.1 := by
  unfold entryBefore at h
  simp only [Bool.or_eq_true, Bool.and_eq_true, decide_eq_true_eq, not_or] at h
  omega

theorem insertEntry_sorted (ties : List Nat) (e : Nat × Nat) : ∀ l : List (Nat × Nat),
    l.Pairwise (fun a b => a.1 ≤ b.1) →
    (insertEntry ties e l).Pairwise (fun a b => a.1 ≤ b.1)
  | [], _ => by simp [insertEntry]
  | x :: rest, h => by
    unfold insertEntry
    rw [List.pairwise_cons] at h
    split
    · rename_i hlt
      have hle := entryBefore_le ties e x hlt
      refine List.pairwise_cons.2 ⟨?_, List.pairwise_cons.2 h⟩
      intro b hb
      rcases List.mem_cons.1 hb with rfl | hb
      · exact hle
      · have := h.1 b hb
        omega
    · rename_i hge
      have hle := entryBefore_ge ties e x hge
      refine List.pairwise_cons.2 ⟨?_, insertEntry_sorted ties e rest h.2⟩
      intro b hb
      rcases List.mem_cons.1 ((insertEntry_perm ties e rest).mem_iff.1 hb) with rfl | hb
      · exact hle
      · exact h.1 b hb

theorem sortEntries_perm (ties : List Nat) : ∀ l, (sortEntries ties l).Perm l
  | [] => List.Perm.refl _
  | x :: rest =>
    (insertEntry_perm ties x (sortEntries ties rest)).trans ((sortEntries_perm ties rest).cons x)

theorem sortEntries_sorted (ties : List Nat) :
    ∀ l, (sortEntries ties l).Pairwise (fun a b => a.1 ≤ b.1)
  | [] => List.Pairwise.nil
  | x :: rest => insertEntry_sorted ties x (sortEntries ties rest) (sortEntries_sorted ties rest)

theorem entryBefore_iff (ties : List Nat) (e x : Nat × Nat) :
    entryBefore ties e x = true ↔
      e.1 < x.1 ∨ (e.1 = x.1 ∧ ties.indexOf e.2 ≤ ties.indexOf x.2) := by
  unfold entryBefore
  simp only [Bool.or_eq_true, Bool.and_eq_true, decide_eq_true_eq]

theorem insertEntry_before (ties : List Nat) (e : Nat × Nat) : ∀ l : List (Nat × Nat),
    l.Pairwise (fun a b => entryBefore ties a b = true) →
    (insertEntry ties e l).Pairwise (fun a b => entryBefore ties a b = true)
  | [], _ => by simp [insertEntry]
  | x :: rest, h => by
    unfold insertEntry
    rw [List.pairwise_cons] at h
    split
    · rename_i hlt
      refine List.pairwise_cons.2 ⟨?_, List.pairwise_cons.2 h⟩
      intro b hb
      rcases List.mem_cons.1 hb with rfl | hb
      · exact hlt
      · have h1 := h.1 b hb
        rw [entryBefore_iff] at h1 hlt ⊢
        omega
    · rename_i hge
      refine List.pairwise_cons.2 ⟨?_, insertEntry_before ties e rest h.2⟩
      intro b hb
      rcases List.mem_cons.1 ((insertEntry_perm ties e rest).mem_iff.1 hb) with rfl | hb
      · rw [entryBefore_iff] at hge ⊢
        omega
      · exact h.1 b hb

theorem sortEntries_before (ties : List Nat) :
    ∀ l, (sortEntries ties l).Pairwise (fun a b => entryBefore ties a b = true)
  | [] => List.Pairwise.nil
  | x :: rest => insertEntry_before ties x (sortEntries ties rest) (sortEntries_before ties rest)

/-- Two lists with the same members, both in an order that no two different
members satisfy in both directions, are equal. -/
theorem eq_of_perm_of_pairwise {α : Type} (r : α → α → Prop) : ∀ (l1 l2 : List α),
    (∀ a ∈ l1, ∀ b ∈ l1, r a b → r b a → a = b) → l1.Perm l2 →
    l1.Pairwise r → l2.Pairwise r → l1 = l2
  | [], l2, _, hp, _, _ => (List.Perm.nil_eq hp)
  | a :: t1, [], _, hp, _, _ => absurd hp.symm (by simp)
  | a :: t1, b :: t2, ha, hp, h1, h2 => by
    rw [List.pairwise_cons] at h1 h2
    have hab : a = b := by
      by_contra hne
      have m1 : a ∈ b :: t2 := hp.mem_iff.1 (List.mem_cons_self _ _)
      have m2 : b ∈ a :: t1 := hp.mem_iff.2 (List.mem_cons_self _ _)
      have m1 : a ∈ t2 := by
        rcases List.mem_cons.1 m1 with k | k
        · exact absurd k hne
        · exact k
      have m3 : b ∈ t1 := by
        rcases List.mem_cons.1 m2 with k | k
        · exact absurd k.symm hne
        · exact k
      exact hne (ha a (List.mem_cons_self _ _) b m2 (h1.1 b m3) (h2.1 a m1))
    subst hab
    rw [eq_of_perm_of_pairwise r t1 t2
      (fun x hx y hy => ha x (List.mem_cons_of_mem _ hx) y (List.mem_cons_of_mem _ hy))
      (List.Perm.cons_inv hp) h1.2 h2.2]

theorem pairwise_indexOf : ∀ (m : List Nat), m.Nodup →
    m.Pairwise (fun x y => m.indexOf x ≤ m.indexOf y)
  | [], _ => List.Pairwise.nil
  | a :: t, hn => by
    rw [List.nodup_cons] at hn
    refine List.pairwise_cons.2 ⟨fun y _ => by simp, ?_⟩
    refine (pairwise_indexOf t hn.2).imp_of_mem ?_
    intro x y hx hy hxy
    have hxa : a ≠ x := fun k => hn.1 (k ▸ hx)
    have hya : a ≠ y := fun k => hn.1 (k ▸ hy)
    rw [List.indexOf_cons_ne _ hxa, List.indexOf_cons_ne _ hya]
    omega

/-- Every order that a sort of `l` by entry value can give is the order of
`sortEntries` for some `ties`: the list of the indexes in that order. -/
theorem sortEntries_complete (l out : List (Nat × Nat)) (hnd : (l.map (·.2)).Nodup)
    (hp : out.Perm l) (hs : out.Pairwise (fun a b => a.1 ≤ b.1)) :
    sortEntries (out.map (·.2)) l = out := by
  have hnd2 : (out.map (·.2)).Nodup := (hp.map (·.2)).nodup_iff.2 hnd
  have h2 : out.Pairwise (fun a b => entryBefore (out.map (·.2)) a b = true) := by
    have k := List.pairwise_map.1 (pairwise_indexOf _ hnd2)
    refine (hs.and k).imp ?_
    intro a b hab
    rw [entryBefore_iff]
    have := hab.1
    have := hab.2
    omega
  refine eq_of_perm_of_pairwise _ _ _ ?_ ((sortEntries_perm _ l).trans hp.symm)
    (sortEntries_before _ l) h2
  intro a ha b hb hab hba
  have ma : a ∈ out := hp.mem_iff.2 ((sortEntries_perm _ l).mem_iff.1 ha)
  have mb : b ∈ out := hp.mem_iff.2 ((sortEntries_perm _ l).mem_iff.1 hb)
  rw [entryBefore_iff] at hab hba
  have e1 : a.1 = b.1 := by omega
  have e2 : (out.map (·.2)).indexOf a.2 = (out.map (·.2)).indexOf b.2 := by omega
  have e3 : a.2 = b.2 :=
    (List.indexOf_inj (List.mem_map_of_mem _ ma) (List.mem_map_of_mem _ mb)).1 e2
  exact Prod.ext e1 e3

/-- What `GetSmallestEntryPositions` returns: `entries_wanted` distinct
positions of the node, none of them with a larger entry than a position that is
not returned. -/
theorem GetSmallestEntryPositions_spec (nd : PageStatsTableNode) (arr : List Nat) (k : Nat)
    (ties positions : List Nat) (h : nd.GetSmallestEntryPositions arr k ties = some positions) :
    k ≤ nd.number_entries_ ∧ nd.entries_ + nd.number_entries_ ≤ arr.length ∧
    positions.length = k ∧ positions.Nodup ∧
    (∀ pos ∈ positions, pos < nd.number_entries_) ∧
    ∀ pos ∈ positions, ∀ i, i < nd.number_entries_ → i ∉ positions →
      wordAt arr (nd.entries_ + pos) ≤ wordAt arr (nd.entries_ + i) := by
  unfold GetSmallestEntryPositions at h
  split at h
  · rename_i hc
    simp only [Option.some.injEq] at h
    generalize hce : (List.range nd.number_entries_).map
      (fun i => (wordAt arr (nd.entries_ + i), i)) = ce at h
    have hperm := sortEntries_perm ties ce
    have hsorted := sortEntries_sorted ties ce
    generalize sortEntries ties ce = s at h hperm hsorted
    have hmem : ∀ x, x ∈ s ↔ x.2 < nd.number_entries_ ∧ x.1 = wordAt arr (nd.entries_ + x.2) := by
      intro x
      rw [hperm.mem_iff, ← hce, List.mem_map]
      constructor
      · rintro ⟨i, hi, rfl⟩
        exact ⟨List.mem_range.1 hi, rfl⟩
      · rintro ⟨h1, h2⟩
        exact ⟨x.2, List.mem_range.2 h1, by rw [← h2]⟩
    have hsnd : (s.map (·.2)).Perm (List.range nd.number_entries_) := by
      have := hperm.map (·.2)
      rw [← hce, List.map_map] at this
      simpa [Function.comp_def] using this
    have hlen : s.length = nd.number_entries_ := by
      have := hsnd.length_eq
      simpa using this
    have hnd : (s.map (·.2)).Nodup := hsnd.nodup_iff.2 (List.nodup_range _)
    subst h
    refine ⟨hc.1, hc.2, ?_, ?_, ?_, ?_⟩
    · simp only [List.length_map, List.length_take]
      omega
    · rw [List.map_take]
      exact hnd.sublist (List.take_sublist _ _)
    · intro pos hp
      obtain ⟨x, hx, rfl⟩ := List.mem_map.1 hp
      exact ((hmem x).1 (List.mem_of_mem_take hx)).1
    · intro pos hp i hi hni
      obtain ⟨x, hx, rfl⟩ := List.mem_map.1 hp
      have hxs := (hmem x).1 (List.mem_of_mem_take hx)
      have hy : (wordAt arr (nd.entries_ + i), i) ∈ s := (hmem _).2 ⟨hi, rfl⟩
      rw [← List.take_append_drop k s] at hy hsorted
      rcases List.mem_append.1 hy with hy | hy
      · exact absurd (List.mem_map.2 ⟨_, hy, rfl⟩) hni
      · have := (List.pairwise_append.1 hsorted).2.2 x hx _ hy
        rw [hxs.2] at this
        exact this
  · exact absurd h (by simp)

end PageStatsTableNode

/-! ## FindPagesWithMinCount -/

namespace PageStatsTableNode

theorem shiftLoop_length (nd : PageStatsTableNode) : ∀ (todo i : Nat) (arr : List Nat),
    (shiftLoop nd todo i arr).length = arr.length
  | 0, _, _ => rfl
  | todo + 1, i, arr => by
    unfold shiftLoop
    rw [shiftLoop_length nd todo (i + 1)]
    simp

theorem increaseLoop_length (nd : PageStatsTableNode) (index delta : Nat) :
    ∀ (fuel : Nat) (arr : List Nat), (increaseLoop nd index delta fuel arr).length = arr.length
  | 0, _ => rfl
  | fuel + 1, arr => by
    unfold increaseLoop
    split
    · rw [increaseLoop_length nd index delta fuel]
      exact shiftLoop_length nd _ _ _
    · rfl

theorem Increase_length (w : Nat) (nd : PageStatsTableNode) (arr arr1 : List Nat)
    (index delta : Nat) (h : nd.Increase w arr index delta = some arr1) :
    arr1.length = arr.length := by
  unfold Increase at h
  split at h
  · simp only [Option.some.injEq] at h
    subst h
    simp [increaseLoop_length]
  · exact absurd h (by simp)

theorem Increase_isSome (w : Nat) (nd : PageStatsTableNode) (arr : List Nat) (index delta : Nat)
    (hi : index < nd.number_entries_) (hd : delta ≤ nd.entry_value_limit_)
    (hl : nd.entries_ + nd.number_entries_ ≤ arr.length) :
    ∃ arr1, nd.Increase w arr index delta = some arr1 ∧ arr1.length = arr.length := by
  unfold Increase
  rw [if_pos ⟨hi, hd, hl⟩]
  exact ⟨_, rfl, by simp [increaseLoop_length]⟩

end PageStatsTableNode

namespace PageStatsTable

/-- The page number that `FindPagesWithMinCount` makes of a position. -/
theorem page_number_eq (a b m pos : Nat) (hpos : pos < 4096) :
    (a <<< (m + 12)) ||| (((a <<< m) ||| b) <<< 12) ||| pos = ((a <<< m) ||| b) * 4096 + pos := by
  have e2 : (a <<< (m + 12)) ||| (((a <<< m) ||| b) <<< 12) = ((a <<< m) ||| b) <<< 12 := by
    apply Nat.eq_of_testBit_eq
    intro i
    simp only [Nat.testBit_or, Nat.testBit_shiftLeft]
    by_cases h1 : m + 12 ≤ i
    · have h2 : 12 ≤ i := by omega
      have h3 : m ≤ i - 12 := by omega
      have h4 : i - 12 - m = i - (m + 12) := by omega
      simp [h1, h2, h3, h4]
    · simp [h1]
  rw [e2, PageAllocationTable.shiftLeft_or_of_lt _ _ _ (by norm_num; exact hpos)]
  norm_num

theorem findPagesLoop_pages (t : PageStatsTable) (a b j : Nat) (pte pmd : PageStatsTableNode) :
    ∀ (positions pe en : List Nat) (r : List Nat × List Nat × List Nat),
    findPagesLoop t a b j pte pmd positions pe en = some r →
    r.1 = positions.map (fun pos =>
      (a <<< (t.pmd_bits_ + t.pte_bits_)) ||| (j <<< t.pte_bits_) ||| pos) ∧
    r.2.1.length = pe.length ∧ r.2.2.length = en.length
  | [], pe, en, r, h => by
    simp only [findPagesLoop, Option.some.injEq] at h
    subst h
    exact ⟨rfl, rfl, rfl⟩
  | pos :: rest, pe, en, r, h => by
    unfold findPagesLoop at h
    split at h
    · exact absurd h (by simp)
    · rename_i pe1 h1
      split at h
      · exact absurd h (by simp)
      · rename_i en1 h2
        split at h
        · exact absurd h (by simp)
        · rename_i en2 h3
          split at h
          · exact absurd h (by simp)
          · rename_i r1 h4
            obtain ⟨g1, g2, g3⟩ := findPagesLoop_pages t a b j pte pmd rest pe1 en2 r1 h4
            simp only [Option.some.injEq] at h
            subst h
            refine ⟨by simp [g1], ?_, ?_⟩
            · rw [g2]
              exact PageStatsTableNode.Increase_length _ _ _ _ _ _ h1
            · rw [g3, PageStatsTableNode.Increase_length _ _ _ _ _ _ h3]
              exact PageStatsTableNode.Increase_length _ _ _ _ _ _ h2

theorem findPagesLoop_isSome (t : PageStatsTable) (a b j : Nat) (pte pmd : PageStatsTableNode)
    (h1 : 1 ≤ pte.entry_value_limit_) (h2 : 1 ≤ pmd.entry_value_limit_)
    (h3 : 1 ≤ t.pgd_.entry_value_limit_) (hb : b < pmd.number_entries_)
    (ha : a < t.pgd_.number_entries_) :
    ∀ (positions pe en : List Nat), (∀ pos ∈ positions, pos < pte.number_entries_) →
    pte.entries_ + pte.number_entries_ ≤ pe.length →
    pmd.entries_ + pmd.number_entries_ ≤ en.length →
    t.pgd_.entries_ + t.pgd_.number_entries_ ≤ en.length →
    ∃ r, findPagesLoop t a b j pte pmd positions pe en = some r
  | [], pe, en, _, _, _, _ => ⟨_, rfl⟩
  | pos :: rest, pe, en, hp, l1, l2, l3 => by
    obtain ⟨pe1, e1, k1⟩ := PageStatsTableNode.Increase_isSome 8 pte pe pos 1
      (hp pos (List.mem_cons_self _ _)) h1 l1
    obtain ⟨en1, e2, k2⟩ := PageStatsTableNode.Increase_isSome 16 pmd en b 1 hb h2 l2
    obtain ⟨en2, e3, k3⟩ := PageStatsTableNode.Increase_isSome 16 t.pgd_ en1 a 1 ha h3
      (by rw [k2]; exact l3)
    obtain ⟨r, hr⟩ := findPagesLoop_isSome t a b j pte pmd h1 h2 h3 hb ha rest pe1 en2
      (fun p hpm => hp p (List.mem_cons_of_mem _ hpm)) (by rw [k1]; exact l1)
      (by rw [k3, k2]; exact l2) (by rw [k3, k2]; exact l3)
    unfold findPagesLoop
    rw [e1]
    simp only
    rw [e2]
    simp only
    rw [e3]
    simp only
    rw [hr]
    exact ⟨_, rfl⟩

/-- The steps of a call of `FindPagesWithMinCount` that returns. -/
theorem findPages_steps (t : PageStatsTable) (k n : Nat) (pages : List Nat)
    (t1 : PageStatsTable) (h : t.FindPagesWithMinCount k = some (n, pages, t1)) :
    ∃ a pmd b pte positions,
      t.pgd_.GetMinEntryIndex t.pgd_pmd_entries_ = some a ∧ t.pmds_[a]? = some pmd ∧
      pmd.GetMinEntryIndex t.pgd_pmd_entries_ = some b ∧
      t.ptes_[(a <<< t.pmd_bits_) ||| b]? = some pte ∧
      pte.GetSmallestEntryPositions t.pte_entries_ k (t.sort_ties_.headD []) =
        some positions ∧
      k ≤ 1 <<< t.pte_bits_ ∧ n = k ∧
      pages = positions.map (fun pos => (a <<< (t.pmd_bits_ + t.pte_bits_)) |||
        (((a <<< t.pmd_bits_) ||| b) <<< t.pte_bits_) ||| pos) ∧
      t1.pte_entries_.length = t.pte_entries_.length ∧
      t1.pgd_pmd_entries_.length = t.pgd_pmd_entries_.length ∧
      t1 = { t with pte_entries_ := t1.pte_entries_, pgd_pmd_entries_ := t1.pgd_pmd_entries_,
                    sort_ties_ := t.sort_ties_.tail } := by
  unfold FindPagesWithMinCount at h
  split at h
  · exact absurd h (by simp)
  · rename_i hk
    split at h
    · exact absurd h (by simp)
    · rename_i a ha
      split at h
      · exact absurd h (by simp)
      · rename_i pmd hpmd
        split at h
        · exact absurd h (by simp)
        · rename_i b hb
          simp only at h
          split at h
          · exact absurd h (by simp)
          · rename_i pte hpte
            split at h
            · exact absurd h (by simp)
            · rename_i positions hpos
              split at h
              · split at h
                · exact absurd h (by simp)
                · rename_i r hr
                  obtain ⟨g1, g2, g3⟩ := findPagesLoop_pages _ _ _ _ _ _ _ _ _ _ hr
                  simp only [Option.some.injEq, Prod.mk.injEq] at h
                  obtain ⟨e1, e2, e3⟩ := h
                  subst e3
                  refine ⟨a, pmd, b, pte, positions, ha, hpmd, hb, hpte, hpos, by omega, e1.symm,
                    ?_, g2, g3, rfl⟩
                  rw [← e2, g1]
              · exact absurd h (by simp)

end PageStatsTable

namespace PageStatsTable

theorem ofInit_lengths {N : Nat} {t : PageStatsTable} (h : OfInit N t) :
    t.ptes_.length = numberPteNodesOf N ∧ t.pmds_.length = numberPmdNodesOf N := by
  obtain ⟨_, _, _, _, _, _, _, _, f8, f9, _⟩ := ofInit_facts h
  constructor
  · rcases Nat.lt_trichotomy t.ptes_.length (numberPteNodesOf N) with hl | hl | hl
    · obtain ⟨nd, g, _⟩ := f8 _ hl
      rw [List.getElem?_eq_none (Nat.le_refl _)] at g
      exact absurd g (by simp)
    · exact hl
    · exfalso
      obtain ⟨name, t0, e, ht, _, _⟩ := h
      have hN : N ≠ 0 := by
        rintro rfl
        simp [Init] at e
      unfold Init at e
      rw [if_neg hN] at e
      simp only [Option.some.injEq] at e
      subst e
      have hpt : t.ptes_ = initNodes 8 (1 <<< PTE_BITS) (numberPteNodesOf N) 0 N :=
        congrArg (·.ptes_) ht
      rw [hpt, (initNodes_spec _ _ _ _ _).1] at hl
      omega
  · rcases Nat.lt_trichotomy t.pmds_.length (numberPmdNodesOf N) with hl | hl | hl
    · obtain ⟨nd, g, _⟩ := f9 _ hl
      rw [List.getElem?_eq_none (Nat.le_refl _)] at g
      exact absurd g (by simp)
    · exact hl
    · exfalso
      obtain ⟨name, t0, e, ht, _, _⟩ := h
      have hN : N ≠ 0 := by
        rintro rfl
        simp [Init] at e
      unfold Init at e
      rw [if_neg hN] at e
      simp only [Option.some.injEq] at e
      subst e
      have hpm : t.pmds_.length = numberPmdNodesOf N := by
        have := congrArg (fun x => x.pmds_.length) ht
        simp only at this
        rw [this]
        split
        · unfold setCompensation
          split
          · rw [List.length_set]
            exact (initNodes_spec _ _ _ _ _).1
          · exact (initNodes_spec _ _ _ _ _).1
        · exact (initNodes_spec _ _ _ _ _).1
      omega

/-- The PTE node `j` of a table over `N` pages. -/
theorem ofInit_pte_node {N : Nat} {t : PageStatsTable} (h : OfInit N t) (j : Nat)
    (pte : PageStatsTableNode) (hj : t.ptes_[j]? = some pte) :
    j < numberPteNodesOf N ∧ j * 4096 < N ∧ pte.entries_ = j * 4096 ∧
      pte.number_entries_ = min (N - j * 4096) 4096 ∧ pte.entry_value_limit_ = 2 ^ 8 - 1 := by
  obtain ⟨hN, _, _, _, _, _, _, _, f8, _⟩ := ofInit_facts h
  have hl := (ofInit_lengths h).1
  have hjl : j < numberPteNodesOf N := by
    rw [← hl]
    exact (List.getElem?_eq_some_iff.1 hj).1
  obtain ⟨nd, g1, g2, g3, g4⟩ := f8 j hjl
  rw [hj] at g1
  simp only [Option.some.injEq] at g1
  subst g1
  have hb := numberPteNodesOf_bounds N hN
  have : j * 4096 < N := by
    have : j ≤ numberPteNodesOf N - 1 := by omega
    have := Nat.mul_le_mul_left 4096 this
    omega
  exact ⟨hjl, this, by omega, g3, g4⟩

end PageStatsTable

namespace PageStatsTableNode

theorem minFold_lt (arr : List Nat) (e : Nat) : ∀ (l : List Nat) (acc : Nat × Nat) (m : Nat),
    (∀ i ∈ l, i < m) → acc.2 < m →
    (l.foldl (fun (acc : Nat × Nat) i =>
      if acc.1 > wordAt arr (e + i) then (wordAt arr (e + i), i) else acc) acc).2 < m
  | [], _, _, _, h => h
  | i :: rest, acc, m, hl, h => by
    rw [List.foldl_cons]
    apply minFold_lt arr e rest _ m (fun j hj => hl j (List.mem_cons_of_mem _ hj))
    split
    · exact hl i (List.mem_cons_self _ _)
    · exact h

/-- `GetMinEntryIndex` returns, with the index of an entry of the node, when the
node has an entry and lies inside the array. -/
theorem GetMinEntryIndex_isSome (nd : PageStatsTableNode) (arr : List Nat)
    (h1 : 1 ≤ nd.number_entries_) (h2 : nd.entries_ + nd.number_entries_ ≤ arr.length) :
    ∃ i, nd.GetMinEntryIndex arr = some i ∧ i < nd.number_entries_ := by
  unfold GetMinEntryIndex
  split
  · exact ⟨0, rfl, by omega⟩
  · rw [if_neg (by omega)]
    have hlt := minFold_lt arr nd.entries_ (List.range (nd.number_entries_ - 1))
      (nd.entry_value_limit_, 0) (nd.number_entries_ - 1)
      (fun i hi => List.mem_range.1 hi) (by omega)
    simp only
    split_ifs <;> exact ⟨_, rfl, by omega⟩

end PageStatsTableNode

namespace PageStatsTable

/-- A call of `FindPagesWithMinCount(k)` with `k ≤ 4096` on a table over `N`
pages: the descent selects a PMD node and a PTE node, and the call returns
exactly when the selected PTE node has at least `k` entries; otherwise the
assertion of `GetSmallestEntryPositions` fails. -/
theorem findPages_total {N : Nat} {t : PageStatsTable} (h : OfInit N t) (k : Nat)
    (hk : k ≤ 4096) :
    ∃ a pmd b pte, t.pgd_.GetMinEntryIndex t.pgd_pmd_entries_ = some a ∧
      t.pmds_[a]? = some pmd ∧ pmd.GetMinEntryIndex t.pgd_pmd_entries_ = some b ∧
      t.ptes_[(a <<< t.pmd_bits_) ||| b]? = some pte ∧
      (pte.number_entries_ < k → t.FindPagesWithMinCount k = none) ∧
      (k ≤ pte.number_entries_ → ∃ positions t1,
        pte.GetSmallestEntryPositions t.pte_entries_ k (t.sort_ties_.headD []) =
          some positions ∧
        t.FindPagesWithMinCount k = some (k, positions.map (fun pos =>
          (a <<< (t.pmd_bits_ + t.pte_bits_)) |||
            (((a <<< t.pmd_bits_) ||| b) <<< t.pte_bits_) ||| pos), t1)) := by
  obtain ⟨hN, f1, f2, f3, f4, f5, f6, f7, f8, f9, f10, f11, f12⟩ := ofInit_facts h
  obtain ⟨a, ha, ha2⟩ := PageStatsTableNode.GetMinEntryIndex_isSome t.pgd_ t.pgd_pmd_entries_
    (by rw [f11]; exact (numberPmdNodesOf_bounds N hN).2.2) (by rw [f10, f11, f7]; omega)
  rw [f11] at ha2
  obtain ⟨pmd, g1, g2, g3, g4⟩ := f9 a ha2
  obtain ⟨q1, q2, q3⟩ := numberPmdNodesOf_bounds N hN
  have hE : 0 < 1 <<< pmdBitsOf N := by
    rw [Nat.one_shiftLeft]
    exact Nat.two_pow_pos _
  have haE : a * (1 <<< pmdBitsOf N) < numberPteNodesOf N := by
    have : a ≤ numberPmdNodesOf N - 1 := by omega
    have := Nat.mul_le_mul_right (1 <<< pmdBitsOf N) this
    omega
  obtain ⟨b, hb, hb2⟩ := PageStatsTableNode.GetMinEntryIndex_isSome pmd t.pgd_pmd_entries_
    (by rw [g3]; omega) (by rw [g2, g3, f7]; omega)
  have hj : (a <<< t.pmd_bits_) ||| b = a * (1 <<< pmdBitsOf N) + b := by
    rw [f3, PageAllocationTable.shiftLeft_or_of_lt _ _ _ (by
      rw [g3, Nat.one_shiftLeft] at hb2; omega), Nat.one_shiftLeft]
  have hjl : a * (1 <<< pmdBitsOf N) + b < numberPteNodesOf N := by
    rw [g3] at hb2
    omega
  obtain ⟨pte, p1, p2, p3, p4⟩ := f8 _ hjl
  rw [← hj] at p1
  refine ⟨a, pmd, b, pte, ha, g1, hb, p1, ?_, ?_⟩
  · intro hlt
    unfold FindPagesWithMinCount
    rw [if_neg (by rw [f2]; norm_num; exact hk), ha]
    simp only
    rw [g1]
    simp only
    rw [hb]
    simp only
    rw [p1]
    simp only
    have : pte.GetSmallestEntryPositions t.pte_entries_ k (t.sort_ties_.headD []) = none := by
      unfold PageStatsTableNode.GetSmallestEntryPositions
      rw [if_neg (by omega)]
    rw [this]
  · intro hle
    have hlen : pte.entries_ + pte.number_entries_ ≤ t.pte_entries_.length := by
      obtain ⟨_, j2, j3, j4, _⟩ := ofInit_pte_node h _ pte p1
      rw [j3, j4, f6]
      omega
    have hpos : ∃ positions, pte.GetSmallestEntryPositions t.pte_entries_ k
        (t.sort_ties_.headD []) = some positions := by
      unfold PageStatsTableNode.GetSmallestEntryPositions
      rw [if_pos ⟨hle, hlen⟩]
      exact ⟨_, rfl⟩
    obtain ⟨positions, hpos⟩ := hpos
    obtain ⟨_, _, s3, s4, s5, s6⟩ :=
      PageStatsTableNode.GetSmallestEntryPositions_spec pte _ k _ positions hpos
    obtain ⟨r, hr⟩ := findPagesLoop_isSome t a b ((a <<< t.pmd_bits_) ||| b) pte pmd
      (by rw [p4]; norm_num) (by rw [g4]; norm_num) (by rw [f12]; norm_num) hb2
      (by rw [f11]; exact ha2) positions t.pte_entries_ t.pgd_pmd_entries_ s5 hlen
      (by rw [g2, g3, f7]; omega) (by rw [f10, f11, f7]; omega)
    obtain ⟨r1, _, _⟩ := findPagesLoop_pages _ _ _ _ _ _ _ _ _ _ hr
    refine ⟨positions,
      { t with pte_entries_ := r.2.1, pgd_pmd_entries_ := r.2.2,
               sort_ties_ := t.sort_ties_.tail }, hpos, ?_⟩
    unfold FindPagesWithMinCount
    rw [if_neg (by rw [f2]; norm_num; exact hk), ha]
    simp only
    rw [g1]
    simp only
    rw [hb]
    simp only
    rw [p1]
    simp only
    rw [hpos]
    simp only
    rw [if_pos s3, hr]
    simp only
    rw [r1]

end PageStatsTable

/-! ## Claims about the coldest pages -/

namespace PageStatsTable

/-- The table that `Init` returns for 4097 pages: two PTE nodes, of 4096
entries and of one entry, two PMD nodes of one entry each, and a PGD of two
entries. -/
theorem init_4097 (name : String) :
    ∃ t0, Init name 4097 = some t0 ∧ OfInit 4097 t0 ∧
      t0.pte_entries_ = List.replicate 4097 0 ∧ t0.pgd_pmd_entries_ = [0, 0, 0, 0] ∧
      t0.pmd_bits_ = 0 ∧ t0.pte_bits_ = 12 ∧
      t0.pgd_ = { entries_ := 0, number_entries_ := 2, entry_value_limit_ := 65535,
                  last_entry_needs_compensation_ := true,
                  last_entry_compensation_ :=
                    Binary64.div (Binary64.ofNat 4096) (Binary64.ofNat 1) } ∧
      t0.pmds_ = [{ entries_ := 2, number_entries_ := 1, entry_value_limit_ := 65535,
                    last_entry_needs_compensation_ := false,
                    last_entry_compensation_ := Binary64.ofNat 1 },
                  { entries_ := 3, number_entries_ := 1, entry_value_limit_ := 65535,
                    last_entry_needs_compensation_ := true,
                    last_entry_compensation_ :=
                    Binary64.div (Binary64.ofNat 4096) (Binary64.ofNat 1) }] ∧
      t0.ptes_ = [{ entries_ := 0, number_entries_ := 4096, entry_value_limit_ := 255,
                    last_entry_needs_compensation_ := false,
                    last_entry_compensation_ := Binary64.ofNat 1 },
                  { entries_ := 4096, number_entries_ := 1, entry_value_limit_ := 255,
                    last_entry_needs_compensation_ := false,
                    last_entry_compensation_ := Binary64.ofNat 1 }] := by
  have hN : ∀ N : Nat, N ≠ 0 → ∃ t0, Init name N = some t0 ∧ OfInit N t0 ∧
      t0.pte_entries_ = List.replicate N 0 ∧
      t0.pgd_pmd_entries_ = List.replicate (numberPmdNodesOf N + numberPteNodesOf N) 0 ∧
      t0.pmd_bits_ = pmdBitsOf N ∧ t0.pte_bits_ = 12 ∧
      t0.pgd_ = (if N % (1 <<< (PTE_BITS + pmdBitsOf N)) ≠ 0 then
          { PageStatsTableNode.Init 16 0 (numberPmdNodesOf N) with
            last_entry_needs_compensation_ := true,
            last_entry_compensation_ :=
              Binary64.div (Binary64.ofNat (1 <<< (PTE_BITS + pmdBitsOf N)))
                (Binary64.ofNat (N % (1 <<< (PTE_BITS + pmdBitsOf N)))) }
        else PageStatsTableNode.Init 16 0 (numberPmdNodesOf N)) ∧
      t0.pmds_ = (if N % (1 <<< PTE_BITS) ≠ 0 then
          setCompensation (initNodes 16 (1 <<< pmdBitsOf N) (numberPmdNodesOf N)
            (numberPmdNodesOf N) (numberPteNodesOf N)) (numberPmdNodesOf N - 1)
            (Binary64.div (Binary64.ofNat (1 <<< PTE_BITS)) (Binary64.ofNat (N % (1 <<< PTE_BITS))))
        else initNodes 16 (1 <<< pmdBitsOf N) (numberPmdNodesOf N) (numberPmdNodesOf N)
          (numberPteNodesOf N)) ∧
      t0.ptes_ = initNodes 8 (1 <<< PTE_BITS) (numberPteNodesOf N) 0 N := by
    intro N hN
    have e : ∃ t0, Init name N = some t0 := by
      cases h : Init name N with
      | none =>
        unfold Init at h
        rw [if_neg hN] at h
        exact absurd h (by simp)
      | some t0 => exact ⟨t0, rfl⟩
    obtain ⟨t0, e⟩ := e
    have ho : OfInit N t0 := ⟨name, t0, e, rfl, rfl, rfl⟩
    have e1 := e
    unfold Init at e1
    rw [if_neg hN] at e1
    simp only [Option.some.injEq] at e1
    subst e1
    exact ⟨_, e, ho, rfl, rfl, rfl, rfl, rfl, rfl, rfl⟩
  obtain ⟨t0, e, ho, h1, h2, h3, h4, h5, h6, h7⟩ := hN 4097 (by decide)
  have c1 : numberPmdNodesOf 4097 = 2 := by decide
  have c2 : numberPteNodesOf 4097 = 2 := by decide
  have c3 : pmdBitsOf 4097 = 0 := by decide
  refine ⟨t0, e, ho, h1, ?_, ?_, h4, ?_, ?_, ?_⟩
  · rw [h2, c1, c2]
    rfl
  · rw [h3, c3]
  · rw [h5, c1, c3]
    rfl
  · rw [h6, c1, c2, c3]
    rfl
  · rw [h7, c2]
    rfl

end PageStatsTable

namespace PageStatsTable

/-- C11 (as amended): in a page stats table over `N` pages (the table `Init`
returned, with any content of its counters, and whatever order the library
gives to equal entries in a sort), when `FindPagesWithMinCount(k)` returns, it
returns `k` different pages of the one PTE node that the descent through the
PGD and the PMD node selects, and with the leaf counters as they were before
the call the counter of each returned page is at most the counter of every
page of that PTE node that is not returned.  Pages of other PTE nodes are not
compared. -/
theorem C11_pst_coldest_in_leaf (N : Nat) (t : PageStatsTable) (k n : Nat) (pages : List Nat)
    (t1 : PageStatsTable) (h : OfInit N t)
    (hf : t.FindPagesWithMinCount k = some (n, pages, t1)) :
    ∃ a pmd b, t.pgd_.GetMinEntryIndex t.pgd_pmd_entries_ = some a ∧ t.pmds_[a]? = some pmd ∧
      pmd.GetMinEntryIndex t.pgd_pmd_entries_ = some b ∧
      n = k ∧ pages.length = k ∧ pages.Nodup ∧
      (∀ p ∈ pages, p < N ∧ p >>> t.pte_bits_ = (a <<< t.pmd_bits_) ||| b) ∧
      ∀ p ∈ pages, ∀ q, q < N → q >>> t.pte_bits_ = (a <<< t.pmd_bits_) ||| b → q ∉ pages →
        ∃ cp cq, t.AccessCount p = some cp ∧ t.AccessCount q = some cq ∧ cp ≤ cq := by
  obtain ⟨a, pmd, b, pte, positions, ha, hpmd, hb, hpte, hpos, _, hn, hpages, _⟩ :=
    findPages_steps t k n pages t1 hf
  obtain ⟨_, _, f3, _, _, _, f7, _⟩ := ofInit_facts h
  obtain ⟨_, j2, j3, j4, _⟩ := ofInit_pte_node h _ pte hpte
  obtain ⟨_, _, s3, s4, s5, s6⟩ :=
    PageStatsTableNode.GetSmallestEntryPositions_spec pte _ k _ positions hpos
  rw [f3] at hpages ⊢
  have hpg : ∀ pos, pos ∈ positions → pos < 4096 ∧
      ((a <<< t.pmd_bits_) ||| b) * 4096 + pos < N ∧
      (a <<< (t.pmd_bits_ + 12)) ||| (((a <<< t.pmd_bits_) ||| b) <<< 12) ||| pos =
        ((a <<< t.pmd_bits_) ||| b) * 4096 + pos := by
    intro pos hp
    have := s5 pos hp
    have h4 : pos < 4096 := by omega
    exact ⟨h4, by omega, page_number_eq a b t.pmd_bits_ pos h4⟩
  have hcount : ∀ p, p < N → t.AccessCount p = some (wordAt t.pte_entries_ p) := by
    intro p hp
    rw [accessCount_eq h p hp, wordAt_eq_getElem _ _ (by omega)]
    exact List.getElem?_eq_getElem (by omega)
  refine ⟨a, pmd, b, ha, hpmd, hb, hn, by rw [hpages, List.length_map, s3], ?_, ?_, ?_⟩
  · rw [hpages]
    refine List.Nodup.map_on ?_ s4
    intro x hx y hy hxy
    rw [(hpg x hx).2.2, (hpg y hy).2.2] at hxy
    omega
  · intro p hp
    rw [hpages] at hp
    obtain ⟨pos, hpos1, rfl⟩ := List.mem_map.1 hp
    obtain ⟨g1, g2, g3⟩ := hpg pos hpos1
    rw [g3, Nat.shiftRight_eq_div_pow]
    exact ⟨g2, by omega⟩
  · intro p hp q hq hqj hqn
    rw [hpages] at hp
    obtain ⟨pos, hpos1, rfl⟩ := List.mem_map.1 hp
    obtain ⟨g1, g2, g3⟩ := hpg pos hpos1
    rw [Nat.shiftRight_eq_div_pow] at hqj
    have hq1 : q = ((a <<< t.pmd_bits_) ||| b) * 4096 + q % 4096 := by omega
    have hq2 : q % 4096 < pte.number_entries_ := by omega
    have hq3 : q % 4096 ∉ positions := by
      intro hm
      apply hqn
      rw [hpages]
      refine List.mem_map.2 ⟨_, hm, ?_⟩
      rw [(hpg _ hm).2.2]
      exact hq1.symm
    have := s6 pos hpos1 _ hq2 hq3
    rw [j3, ← hq1] at this
    rw [g3]
    exact ⟨_, _, hcount _ g2, hcount q hq, this⟩

/-- C11 applies to the table over 3 pages whose counters are 5, 0 and 2: the
two pages returned are pages 1 and 2. -/
theorem C11_pst_coldest_in_leaf_witness :
    ∃ t t1, OfInit 3 t ∧ t.FindPagesWithMinCount 2 = some (2, [1, 2], t1) ∧
      ∀ p ∈ [1, 2], ∀ q, q < 3 → q >>> t.pte_bits_ = 0 → q ∉ [1, 2] →
        ∃ cp cq, t.AccessCount p = some cp ∧ t.AccessCount q = some cq ∧ cp ≤ cq := by
  have e : Init "pst" 3 = some
      { pgd_pmd_entries_ := [0, 0], pte_entries_ := [0, 0, 0], ready_ := true,
        pgd_bits_ := 0, pmd_bits_ := 0, pte_bits_ := 12, pgd_mask_ := 0, pmd_mask_ := 0,
        pte_mask_ := 4095,
        pgd_ := { entries_ := 0, number_entries_ := 1, entry_value_limit_ := 65535,
                  last_entry_needs_compensation_ := true,
                  last_entry_compensation_ :=
                    Binary64.div (Binary64.ofNat 4096) (Binary64.ofNat 3) },
        pmds_ := [{ entries_ := 1, number_entries_ := 1, entry_value_limit_ := 65535,
                    last_entry_needs_compensation_ := true,
                    last_entry_compensation_ :=
                    Binary64.div (Binary64.ofNat 4096) (Binary64.ofNat 3) }],
        number_pmd_nodes_ := 1, number_pgd_pmd_entries_ := 2,
        ptes_ := [{ entries_ := 0, number_entries_ := 3, entry_value_limit_ := 255,
                    last_entry_needs_compensation_ := false,
                    last_entry_compensation_ := Binary64.ofNat 1 }],
        number_pte_nodes_ := 1, total_pages_ := 3, name_ := "pst" } := by decide
  have ho : OfInit 3
      { pgd_pmd_entries_ := [7, 7], pte_entries_ := [5, 0, 2], ready_ := true,
        pgd_bits_ := 0, pmd_bits_ := 0, pte_bits_ := 12, pgd_mask_ := 0, pmd_mask_ := 0,
        pte_mask_ := 4095,
        pgd_ := { entries_ := 0, number_entries_ := 1, entry_value_limit_ := 65535,
                  last_entry_needs_compensation_ := true,
                  last_entry_compensation_ :=
                    Binary64.div (Binary64.ofNat 4096) (Binary64.ofNat 3) },
        pmds_ := [{ entries_ := 1, number_entries_ := 1, entry_value_limit_ := 65535,
                    last_entry_needs_compensation_ := true,
                    last_entry_compensation_ :=
                    Binary64.div (Binary64.ofNat 4096) (Binary64.ofNat 3) }],
        number_pmd_nodes_ := 1, number_pgd_pmd_entries_ := 2,
        ptes_ := [{ entries_ := 0, number_entries_ := 3, entry_value_limit_ := 255,
                    last_entry_needs_compensation_ := false,
                    last_entry_compensation_ := Binary64.ofNat 1 }],
        number_pte_nodes_ := 1, total_pages_ := 3, name_ := "pst" } :=
    ⟨"pst", _, e, rfl, rfl, rfl⟩
  have hf : PageStatsTable.FindPagesWithMinCount
      { pgd_pmd_entries_ := [7, 7], pte_entries_ := [5, 0, 2], ready_ := true,
        pgd_bits_ := 0, pmd_bits_ := 0, pte_bits_ := 12, pgd_mask_ := 0, pmd_mask_ := 0,
        pte_mask_ := 4095,
        pgd_ := { entries_ := 0, number_entries_ := 1, entry_value_limit_ := 65535,
                  last_entry_needs_compensation_ := true,
                  last_entry_compensation_ :=
                    Binary64.div (Binary64.ofNat 4096) (Binary64.ofNat 3) },
        pmds_ := [{ entries_ := 1, number_entries_ := 1, entry_value_limit_ := 65535,
                    last_entry_needs_compensation_ := true,
                    last_entry_compensation_ :=
                    Binary64.div (Binary64.ofNat 4096) (Binary64.ofNat 3) }],
        number_pmd_nodes_ := 1, number_pgd_pmd_entries_ := 2,
        ptes_ := [{ entries_ := 0, number_entries_ := 3, entry_value_limit_ := 255,
                    last_entry_needs_compensation_ := false,
                    last_entry_compensation_ := Binary64.ofNat 1 }],
        number_pte_nodes_ := 1, total_pages_ := 3, name_ := "pst" } 2 =
      some (2, [1, 2],
      { pgd_pmd_entries_ := [9, 9], pte_entries_ := [5, 1, 3], ready_ := true,
        pgd_bits_ := 0, pmd_bits_ := 0, pte_bits_ := 12, pgd_mask_ := 0, pmd_mask_ := 0,
        pte_mask_ := 4095,
        pgd_ := { entries_ := 0, number_entries_ := 1, entry_value_limit_ := 65535,
                  last_entry_needs_compensation_ := true,
                  last_entry_compensation_ :=
                    Binary64.div (Binary64.ofNat 4096) (Binary64.ofNat 3) },
        pmds_ := [{ entries_ := 1, number_entries_ := 1, entry_value_limit_ := 65535,
                    last_entry_needs_compensation_ := true,
                    last_entry_compensation_ :=
                    Binary64.div (Binary64.ofNat 4096) (Binary64.ofNat 3) }],
        number_pmd_nodes_ := 1, number_pgd_pmd_entries_ := 2,
        ptes_ := [{ entries_ := 0, number_entries_ := 3, entry_value_limit_ := 255,
                    last_entry_needs_compensation_ := false,
                    last_entry_compensation_ := Binary64.ofNat 1 }],
        number_pte_nodes_ := 1, total_pages_ := 3, name_ := "pst" }) := by decide
  obtain ⟨a, pmd, b, r1, r2, r3, _, _, _, _, r7⟩ :=
    C11_pst_coldest_in_leaf 3 _ 2 2 [1, 2] _ ho hf
  have ea : a = 0 := by
    have : some a = some 0 := r1.symm.trans (by decide)
    exact Option.some.inj this
  subst ea
  have eb : b = 0 := by
    have e1 : some pmd = some _ := r2.symm.trans (by decide : _ = some
      ({ entries_ := 1, number_entries_ := 1, entry_value_limit_ := 65535,
         last_entry_needs_compensation_ := true,
         last_entry_compensation_ :=
                    Binary64.div (Binary64.ofNat 4096) (Binary64.ofNat 3) } : PageStatsTableNode))
    have e2 := Option.some.inj e1
    subst e2
    have : some b = some 0 := r3.symm.trans (by decide)
    exact Option.some.inj this
  subst eb
  exact ⟨_, _, ho, hf, r7⟩

end PageStatsTable

namespace PageStatsTable

/-- C12 (failing input): in the table over 4097 pages, after one access to page
0, `FindPagesWithMinCount(2)` does not return, although `2 ≤ min(4097, 4096)`:
the descent selects the last PTE node, which has one entry, and the assertion
`entries_wanted <= number_entries_` of `GetSmallestEntryPositions` fails. -/
theorem C12_pst_find_pages_short_leaf :
    ∃ t0 t, Init "pg-stats-table" 4097 = some t0 ∧ t0.IncreaseAccessCount 0 1 = some t ∧
      2 ≤ min 4097 4096 ∧ t.FindPagesWithMinCount 2 = none := by
  obtain ⟨t0, e, ho, h1, h2, h3, h4, h5, h6, h7⟩ := init_4097 "pg-stats-table"
  have c1 : numberPmdNodesOf 4097 = 2 := by decide
  have c3 : pmdBitsOf 4097 = 0 := by decide
  have e1 := increase_eq ho 0 1 0 0 0 (by decide) (by decide)
    (by rw [h1, List.getElem?_replicate, if_pos (by decide)]) (by rw [h2, c1]; rfl)
    (by rw [h2, c3]; rfl)
    (by decide) (by decide) (by decide)
  rw [c1, c3, h2] at e1
  have ho1 := ofInit_update ho (t0.pte_entries_.set 0 (0 + 1)) [1, 0, 1, 0] (by simp)
    (by rw [h2]; rfl)
  refine ⟨t0, _, e, e1, by decide, ?_⟩
  obtain ⟨a, pmd, b, pte, r1, r2, r3, r4, r5, _⟩ := findPages_total ho1 2 (by decide)
  simp only at r1 r2 r3 r4
  rw [h5] at r1
  have ea : a = 1 := Option.some.inj (r1.symm.trans (by decide))
  subst ea
  rw [h6] at r2
  have ep := Option.some.inj (r2.symm.trans (by decide : _ = some
    ({ entries_ := 3, number_entries_ := 1, entry_value_limit_ := 65535,
       last_entry_needs_compensation_ := true,
       last_entry_compensation_ :=
                    Binary64.div (Binary64.ofNat 4096) (Binary64.ofNat 1) } : PageStatsTableNode)))
  subst ep
  have eb : b = 0 := Option.some.inj (r3.symm.trans (by decide))
  subst eb
  rw [h3, h7] at r4
  have et := Option.some.inj (r4.symm.trans (by decide : _ = some
    ({ entries_ := 4096, number_entries_ := 1, entry_value_limit_ := 255,
       last_entry_needs_compensation_ := false,
       last_entry_compensation_ := Binary64.ofNat 1 } : PageStatsTableNode)))
  subst et
  exact r5 (by decide)

end PageStatsTable

namespace PageStatsTable

/-- One access of weight 255 to page `n ≤ 16` of the table over 4097 pages, when
the pages from `n` on of the first PTE node have not been accessed. -/
theorem increase_4097 (t0 : PageStatsTable) (ho : OfInit 4097 t0) (pe : List Nat) (n : Nat)
    (hn : n ≤ 16) (hl : pe.length = t0.pte_entries_.length)
    (hz : ∀ i, n ≤ i → i < 4096 → pe[i]? = some 0) :
    ∃ pe1, PageStatsTable.IncreaseAccessCount
        { t0 with pte_entries_ := pe, pgd_pmd_entries_ := [255 * n, 1, 255 * n, 1] } n 255 =
        some { t0 with pte_entries_ := pe1,
                       pgd_pmd_entries_ := [255 * (n + 1), 1, 255 * (n + 1), 1] } ∧
      pe1.length = t0.pte_entries_.length ∧ pe1[4096]? = pe[4096]? ∧
      ∀ i, n + 1 ≤ i → i < 4096 → pe1[i]? = some 0 := by
  have c1 : numberPmdNodesOf 4097 = 2 := by decide
  have c3 : pmdBitsOf 4097 = 0 := by decide
  have hl2 : t0.pgd_pmd_entries_.length = 4 := by
    have := (ofInit_facts ho).2.2.2.2.2.2.2.1
    rw [this]
    rfl
  have ho1 := ofInit_update ho pe [255 * n, 1, 255 * n, 1] hl (by rw [hl2]; rfl)
  have n0 : n / 4096 = 0 := by omega
  have e1 := increase_eq ho1 n 255 0 (255 * n) (255 * n) (by omega) (by decide)
    (hz n (Nat.le_refl _) (by omega)) (by rw [c1, n0]; rfl) (by rw [c3, n0]; rfl)
    (by decide) (by omega) (by omega)
  rw [c1, c3, n0] at e1
  refine ⟨pe.set n (0 + 255), ?_, by rw [List.length_set]; exact hl, ?_, ?_⟩
  · rw [e1]
    simp only [Option.some.injEq]
    have : 255 * n + 255 = 255 * (n + 1) := by omega
    simp [this]
  · exact List.getElem?_set_ne (by omega)
  · intro i h1 h2
    rw [List.getElem?_set_ne (by omega)]
    exact hz i (by omega) h2

theorem increase_run_4097 (t0 : PageStatsTable) (ho : OfInit 4097 t0) :
    ∀ (m : Nat) (pe : List Nat), m ≤ 17 → pe.length = t0.pte_entries_.length →
    (∀ i, i < 4096 → pe[i]? = some 0) →
    ∃ pe1, (List.range m).foldl
        (fun o p => o.bind (fun s => PageStatsTable.IncreaseAccessCount s p 255))
        (some { t0 with pte_entries_ := pe, pgd_pmd_entries_ := [0, 1, 0, 1] }) =
        some { t0 with pte_entries_ := pe1,
                       pgd_pmd_entries_ := [255 * m, 1, 255 * m, 1] } ∧
      pe1.length = t0.pte_entries_.length ∧ pe1[4096]? = pe[4096]? ∧
      ∀ i, m ≤ i → i < 4096 → pe1[i]? = some 0
  | 0, pe, _, hl, hz => ⟨pe, rfl, hl, rfl, fun i _ h => hz i h⟩
  | m + 1, pe, hm, hl, hz => by
    obtain ⟨pe1, e1, l1, k1, z1⟩ := increase_run_4097 t0 ho m pe (by omega) hl hz
    obtain ⟨pe2, e2, l2, k2, z2⟩ := increase_4097 t0 ho pe1 m (by omega) l1 z1
    refine ⟨pe2, ?_, l2, k2.trans k1, z2⟩
    rw [List.range_succ, List.foldl_append, e1]
    exact e2

/-- C11 (counterexample): in the table over 4097 pages, after one access to
page 4096 and one access of weight 255 to each of the pages 0 to 16,
`FindPagesWithMinCount(1)` returns page 4096, whose counter is 1, while page 17,
which is not returned, has counter 0. -/
theorem C11_pst_coldest_not_global :
    ∃ t0 t t1, Init "pg-stats-table" 4097 = some t0 ∧
      (List.range 17).foldl
        (fun o p => o.bind (fun s => PageStatsTable.IncreaseAccessCount s p 255))
        (t0.IncreaseAccessCount 4096 1) = some t ∧
      t.FindPagesWithMinCount 1 = some (1, [4096], t1) ∧
      t.AccessCount 4096 = some 1 ∧ t.AccessCount 17 = some 0 := by
  obtain ⟨t0, e, ho, h1, h2, h3, h4, h5, h6, h7⟩ := init_4097 "pg-stats-table"
  have c1 : numberPmdNodesOf 4097 = 2 := by decide
  have c3 : pmdBitsOf 4097 = 0 := by decide
  have e1 := increase_eq ho 4096 1 0 0 0 (by decide) (by decide)
    (by rw [h1, List.getElem?_replicate, if_pos (by decide)]) (by rw [h2, c1]; rfl)
    (by rw [h2, c3]; rfl) (by decide) (by decide) (by decide)
  rw [c1, c3, h2] at e1
  obtain ⟨pe1, e2, l1, k1, z1⟩ := increase_run_4097 t0 ho 17 (t0.pte_entries_.set 4096 (0 + 1))
    (Nat.le_refl _) (by simp) (by
      intro i hi
      rw [List.getElem?_set_ne (by omega), h1, List.getElem?_replicate, if_pos (by omega)])
  have k2 : pe1[4096]? = some 1 := by
    rw [k1]
    exact List.getElem?_set_self (by rw [h1, List.length_replicate]; decide)
  have key : ∃ t, (List.range 17).foldl
        (fun o p => o.bind (fun s => PageStatsTable.IncreaseAccessCount s p 255))
        (t0.IncreaseAccessCount 4096 1) = some t ∧ OfInit 4097 t ∧
      t.pgd_pmd_entries_ = [255 * 17, 1, 255 * 17, 1] ∧ t.pte_entries_ = pe1 ∧
      t.pgd_ = t0.pgd_ ∧ t.pmds_ = t0.pmds_ ∧ t.ptes_ = t0.ptes_ ∧ t.pmd_bits_ = 0 ∧
      t.pte_bits_ = 12 :=
    ⟨_, by rw [e1]; exact e2,
      ofInit_update ho pe1 [255 * 17, 1, 255 * 17, 1] l1 (by rw [h2]; rfl),
      rfl, rfl, rfl, rfl, rfl, h3, h4⟩
  obtain ⟨t, q1, ho1, q2, q3, q4, q5, q6, q7, q8⟩ := key
  obtain ⟨a, pmd, b, pte, r1, r2, r3, r4, _, r6⟩ := findPages_total ho1 1 (by decide)
  rw [q4, h5, q2] at r1
  have ea : a = 1 := Option.some.inj (r1.symm.trans (by decide!))
  subst ea
  rw [q5, h6] at r2
  have ep := Option.some.inj (r2.symm.trans (by decide : _ = some
    ({ entries_ := 3, number_entries_ := 1, entry_value_limit_ := 65535,
       last_entry_needs_compensation_ := true,
       last_entry_compensation_ :=
                    Binary64.div (Binary64.ofNat 4096) (Binary64.ofNat 1) } : PageStatsTableNode)))
  subst ep
  rw [q2] at r3
  have eb : b = 0 := Option.some.inj (r3.symm.trans (by decide))
  subst eb
  rw [q7, q6, h7] at r4
  have et := Option.some.inj (r4.symm.trans (by decide : _ = some
    ({ entries_ := 4096, number_entries_ := 1, entry_value_limit_ := 255,
       last_entry_needs_compensation_ := false,
       last_entry_compensation_ := Binary64.ofNat 1 } : PageStatsTableNode)))
  subst et
  obtain ⟨positions, t1, p1, p2⟩ := r6 (by decide)
  obtain ⟨_, _, s3, _, s5, _⟩ :=
    PageStatsTableNode.GetSmallestEntryPositions_spec _ _ 1 _ positions p1
  have hp : positions = [0] := by
    match positions, s3, s5 with
    | [p], _, s5 =>
      have := s5 p (List.mem_singleton.2 rfl)
      simp only at this
      have : p = 0 := by omega
      rw [this]
  rw [hp, q7, q8] at p2
  refine ⟨t0, t, t1, e, q1, p2, ?_, ?_⟩
  · rw [accessCount_eq ho1 4096 (by decide), q3]
    exact k2
  · rw [accessCount_eq ho1 17 (by decide), q3]
    exact z1 17 (by decide) (by decide)

end PageStatsTable

/-! ## The hash table -/

namespace Containers
namespace HashTable

theorem keyOf_eq (mem : List HashObject) (obj : Nat) (o : HashObject)
    (h : mem[obj]? = some o) : keyOf mem obj = o.hash_key := by
  unfold keyOf
  rw [h]

theorem isChain_lt_length (mem : List HashObject) : ∀ (l : List Nat) (head : Option Nat),
    IsChain mem head l → ∀ p ∈ l, p < mem.length
  | [], _, _, p, hp => absurd hp (List.not_mem_nil p)
  | obj :: rest, head, h, p, hp => by
    unfold IsChain at h
    obtain ⟨_, h2⟩ := h
    cases ho : mem[obj]? with
    | none =>
      rw [ho] at h2
      exact absurd h2 id
    | some o =>
      rw [ho] at h2
      rcases List.mem_cons.1 hp with rfl | hp
      · exact (List.getElem?_eq_some_iff.1 ho).1
      · exact isChain_lt_length mem rest _ h2 p hp

theorem isChain_frame (mem mem1 : List HashObject) : ∀ (l : List Nat) (head : Option Nat),
    (∀ p ∈ l, mem1[p]? = mem[p]?) → IsChain mem head l → IsChain mem1 head l
  | [], _, _, h => h
  | obj :: rest, head, hf, h => by
    unfold IsChain at h ⊢
    obtain ⟨h1, h2⟩ := h
    refine ⟨h1, ?_⟩
    rw [hf obj (List.mem_cons_self _ _)]
    cases ho : mem[obj]? with
    | none =>
      rw [ho] at h2
      exact absurd h2 id
    | some o =>
      rw [ho] at h2
      exact isChain_frame mem mem1 rest _ (fun p hp => hf p (List.mem_cons_of_mem _ hp)) h2

theorem isChain_unique (mem : List HashObject) : ∀ (l1 l2 : List Nat) (head : Option Nat),
    IsChain mem head l1 → IsChain mem head l2 → l1 = l2
  | [], [], _, _, _ => rfl
  | [], _ :: _, _, h1, h2 => by
    unfold IsChain at h1 h2
    rw [h1] at h2
    exact absurd h2.1 (by simp)
  | _ :: _, [], _, h1, h2 => by
    unfold IsChain at h1 h2
    rw [h2] at h1
    exact absurd h1.1 (by simp)
  | a :: r1, b :: r2, head, h1, h2 => by
    unfold IsChain at h1 h2
    obtain ⟨e1, g1⟩ := h1
    obtain ⟨e2, g2⟩ := h2
    rw [e1] at e2
    have e3 := Option.some.inj e2
    subst e3
    cases ho : mem[a]? with
    | none =>
      rw [ho] at g1
      exact absurd g1 id
    | some o =>
      rw [ho] at g1 g2
      rw [isChain_unique mem r1 r2 _ g1 g2]

theorem length_le_of_nodup (l : List Nat) (n : Nat) (hn : l.Nodup) (hl : ∀ p ∈ l, p < n) :
    l.length ≤ n := by
  have h1 : l ⊆ List.range n := fun p hp => List.mem_range.2 (hl p hp)
  have h2 := (List.subperm_of_subset hn h1).length_le
  rwa [List.length_range] at h2

theorem chain_length_le (mem : List HashObject) (l : List Nat) (head : Option Nat)
    (h : IsChain mem head l) (hk : (l.map (keyOf mem)).Nodup) : l.length ≤ mem.length :=
  length_le_of_nodup l _ (List.Nodup.of_map _ hk) (isChain_lt_length mem l head h)

theorem lookupLoop_chain (mem : List HashObject) (key : Nat) :
    ∀ (l : List Nat) (head : Option Nat) (fuel : Nat), IsChain mem head l → l.length < fuel →
    lookupLoop mem key fuel head = some (l.find? (fun p => decide (keyOf mem p = key)))
  | [], head, fuel, h, hf => by
    unfold IsChain at h
    subst h
    cases fuel with
    | zero => omega
    | succ f => rfl
  | obj :: rest, head, fuel, h, hf => by
    unfold IsChain at h
    obtain ⟨h1, h2⟩ := h
    subst h1
    cases fuel with
    | zero => simp at hf
    | succ f =>
      unfold lookupLoop
      cases ho : mem[obj]? with
      | none =>
        rw [ho] at h2
        exact absurd h2 id
      | some o =>
        rw [ho] at h2
        simp only
        rw [List.find?_cons, keyOf_eq mem obj o ho]
        by_cases hk : o.hash_key = key
        · simp [hk]
        · simp only [hk, if_false, decide_False]
          exact lookupLoop_chain mem key rest _ f h2 (by simp at hf; omega)

theorem bucketIdx_lt (hash : Nat → Nat → Nat) (t : HashTable) (key key_size : Nat)
    (h : 0 < t.number_buckets_) :
    ∃ i, bucketIdx hash t key key_size = some i ∧ i < t.number_buckets_ := by
  unfold bucketIdx
  rw [if_neg (by omega)]
  refine ⟨_, rfl, ?_⟩
  exact Nat.lt_of_le_of_lt (Nat.mod_le _ _) (Nat.mod_lt _ h)

/-- `Lookup` on a well-formed table: the object of the chain of the bucket of
`key` that has this key. -/
theorem lookup_eq (hash : Nat → Nat → Nat) (ks : Nat) (t : HashTable) (mem : List HashObject)
    (chain : Nat → List Nat) (hw : WF hash ks t mem chain) (key i : Nat)
    (hi : bucketIdx hash t key ks = some i) :
    Lookup hash t mem key ks = some ((chain i).find? (fun p => decide (keyOf mem p = key))) := by
  obtain ⟨w1, w2, w3⟩ := hw
  obtain ⟨i', e, hlt⟩ := bucketIdx_lt hash t key ks w1
  rw [hi] at e
  have e' := Option.some.inj e
  subst e'
  obtain ⟨head, g1, g2, g3, g4⟩ := w3 i hlt
  unfold Lookup
  rw [hi]
  simp only
  rw [g1]
  simp only
  exact lookupLoop_chain mem key _ _ _ g2 (by
    have := chain_length_le mem _ _ g2 g4
    omega)

/-- `Lookup` finds every stored object by its key, and returns NULL for a key
that no stored object has. -/
theorem lookup_spec (hash : Nat → Nat → Nat) (ks : Nat) (t : HashTable) (mem : List HashObject)
    (chain : Nat → List Nat) (hw : WF hash ks t mem chain) :
    (∀ p, Stored t chain p → Lookup hash t mem (keyOf mem p) ks = some (some p)) ∧
    (∀ key, (∀ p, Stored t chain p → keyOf mem p ≠ key) →
      Lookup hash t mem key ks = some none) ∧
    ∀ key p, Lookup hash t mem key ks = some (some p) → Stored t chain p ∧ keyOf mem p = key := by
  have hw' := hw
  obtain ⟨w1, w2, w3⟩ := hw
  refine ⟨?_, ?_, ?_⟩
  · rintro p ⟨i, hi, hp⟩
    obtain ⟨head, g1, g2, g3, g4⟩ := w3 i hi
    rw [lookup_eq hash ks t mem chain hw' _ i (g3 p hp)]
    congr 1
    cases hf : (chain i).find? (fun q => decide (keyOf mem q = keyOf mem p)) with
    | none =>
      have := List.find?_eq_none.1 hf p hp
      simp at this
    | some q =>
      have hq := List.mem_of_find?_eq_some hf
      have hk := List.find?_some hf
      simp only [decide_eq_true_eq] at hk
      congr 1
      exact List.inj_on_of_nodup_map g4 hq hp hk
  · intro key hk
    obtain ⟨i, e, hlt⟩ := bucketIdx_lt hash t key ks w1
    rw [lookup_eq hash ks t mem chain hw' _ i e]
    congr 1
    apply List.find?_eq_none.2
    intro p hp
    simp only [decide_eq_true_eq]
    exact hk p ⟨i, hlt, hp⟩
  · intro key p h
    obtain ⟨i, e, hlt⟩ := bucketIdx_lt hash t key ks w1
    rw [lookup_eq hash ks t mem chain hw' _ i e] at h
    have hf := Option.some.inj h
    have hk := List.find?_some hf
    simp only [decide_eq_true_eq] at hk
    exact ⟨⟨i, hlt, List.mem_of_find?_eq_some hf⟩, hk⟩

end HashTable
end Containers

namespace Containers
namespace HashTable

theorem keyOf_set_next (mem : List HashObject) (obj : Nat) (o : HashObject) (v : Option Nat)
    (ho : mem[obj]? = some o) (p : Nat) :
    keyOf (mem.set obj { o with hash_next := v }) p = keyOf mem p := by
  unfold keyOf
  by_cases hp : obj = p
  · subst hp
    rw [List.getElem?_set_self (List.getElem?_eq_some_iff.1 ho).1, ho]
  · rw [List.getElem?_set_ne hp]

theorem bucketIdx_congr (hash : Nat → Nat → Nat) (t t1 : HashTable) (key ks : Nat)
    (h : t1.number_buckets_ = t.number_buckets_) :
    bucketIdx hash t1 key ks = bucketIdx hash t key ks := by
  unfold bucketIdx
  rw [h]

/-- `Insert` on a well-formed table. -/
theorem insert_spec (hash : Nat → Nat → Nat) (ks : Nat) (t : HashTable) (mem : List HashObject)
    (chain : Nat → List Nat) (obj : Nat) (o : HashObject) (hw : WF hash ks t mem chain)
    (ho : mem[obj]? = some o) :
    ∃ b t1 mem1, Insert hash t mem obj ks = some (b, t1, mem1) ∧
      (b = true ↔ ∀ p, Stored t chain p → keyOf mem p ≠ o.hash_key) ∧
      (b = true → ∃ chain1, WF hash ks t1 mem1 chain1 ∧
        (∀ p, Stored t1 chain1 p ↔ p = obj ∨ Stored t chain p) ∧
        (∀ p, keyOf mem1 p = keyOf mem p)) ∧
      (b = false → t1 = t ∧ mem1 = mem) := by
  obtain ⟨hs1, hs2, hs3⟩ := lookup_spec hash ks t mem chain hw
  have hw' := hw
  obtain ⟨w1, w2, w3⟩ := hw
  obtain ⟨i, hi, hlt⟩ := bucketIdx_lt hash t o.hash_key ks w1
  have hl := lookup_eq hash ks t mem chain hw' o.hash_key i hi
  unfold Insert
  rw [ho]
  simp only
  cases hf : (chain i).find? (fun p => decide (keyOf mem p = o.hash_key)) with
  | some q =>
    rw [hf] at hl
    rw [hl]
    refine ⟨false, t, mem, rfl, ?_, fun h => absurd h (by simp), fun _ => ⟨rfl, rfl⟩⟩
    constructor
    · intro h
      exact absurd h (by simp)
    · intro h
      obtain ⟨g1, g2⟩ := hs3 _ _ hl
      exact absurd g2 (h q g1)
  | none =>
    rw [hf] at hl
    rw [hl]
    simp only
    rw [hi]
    obtain ⟨head, g1, g2, g3, g4⟩ := w3 i hlt
    simp only
    rw [g1]
    have hns : ∀ p, Stored t chain p → keyOf mem p ≠ o.hash_key := by
      intro p hp hk
      have := hs1 p hp
      rw [hk, hl] at this
      exact absurd this (by simp)
    have hobj : ¬ Stored t chain obj := fun h => hns obj h (keyOf_eq mem obj o ho)
    refine ⟨true, _, _, rfl, ⟨fun _ => hns, fun _ => rfl⟩, ?_, fun h => absurd h (by simp)⟩
    intro _
    have hkey := keyOf_set_next mem obj o head ho
    have hframe : ∀ j, j < t.number_buckets_ → ∀ p ∈ chain j,
        (mem.set obj { o with hash_next := head })[p]? = mem[p]? := by
      intro j hj p hp
      apply List.getElem?_set_ne
      rintro rfl
      exact hobj ⟨j, hj, hp⟩
    refine ⟨Function.update chain i (obj :: chain i), ⟨w1, ?_, ?_⟩, ?_, hkey⟩
    · simp only [List.length_set]
      exact w2
    · intro j hj
      simp only at hj ⊢
      by_cases hji : j = i
      · subst hji
        refine ⟨some obj, List.getElem?_set_self (by omega), ?_, ?_, ?_⟩
        · rw [Function.update_same]
          unfold IsChain
          refine ⟨rfl, ?_⟩
          rw [List.getElem?_set_self (List.getElem?_eq_some_iff.1 ho).1]
          simp only
          exact isChain_frame mem _ _ _ (hframe j hlt) g2
        · rw [Function.update_same]
          intro p hp
          rw [hkey]
          refine (bucketIdx_congr hash t _ _ _ rfl).trans ?_
          rcases List.mem_cons.1 hp with rfl | hp
          · rw [keyOf_eq mem p o ho]
            exact hi
          · exact g3 p hp
        · rw [Function.update_same, List.map_cons, List.nodup_cons]
          have e : (chain j).map (keyOf (mem.set obj { o with hash_next := head })) =
              (chain j).map (keyOf mem) := List.map_congr_left (fun p _ => hkey p)
          rw [e, hkey]
          refine ⟨?_, g4⟩
          intro hm
          obtain ⟨p, hp, hk⟩ := List.mem_map.1 hm
          rw [keyOf_eq mem obj o ho] at hk
          exact hns p ⟨j, hlt, hp⟩ hk
      · obtain ⟨head', k1, k2, k3, k4⟩ := w3 j hj
        refine ⟨head', ?_, ?_, ?_, ?_⟩
        · rw [List.getElem?_set_ne (Ne.symm hji)]
          exact k1
        · rw [Function.update_noteq hji]
          exact isChain_frame mem _ _ _ (hframe j hj) k2
        · rw [Function.update_noteq hji]
          intro p hp
          rw [hkey]
          refine (bucketIdx_congr hash t _ _ _ rfl).trans ?_
          exact k3 p hp
        · rw [Function.update_noteq hji]
          have e : (chain j).map (keyOf (mem.set obj { o with hash_next := head })) =
              (chain j).map (keyOf mem) := List.map_congr_left (fun p _ => hkey p)
          rw [e]
          exact k4
    · intro p
      unfold Stored
      simp only
      constructor
      · rintro ⟨j, hj, hp⟩
        by_cases hji : j = i
        · subst hji
          rw [Function.update_same] at hp
          rcases List.mem_cons.1 hp with rfl | hp
          · exact Or.inl rfl
          · exact Or.inr ⟨j, hj, hp⟩
        · rw [Function.update_noteq hji] at hp
          exact Or.inr ⟨j, hj, hp⟩
      · rintro (rfl | ⟨j, hj, hp⟩)
        · exact ⟨i, hlt, by rw [Function.update_same]; exact List.mem_cons_self _ _⟩
        · by_cases hji : j = i
          · subst hji
            exact ⟨j, hj, by rw [Function.update_same]; exact List.mem_cons_of_mem _ hp⟩
          · exact ⟨j, hj, by rw [Function.update_noteq hji]; exact hp⟩

end HashTable
end Containers

namespace Containers
namespace HashTable

theorem deref_bucket (t : HashTable) (mem : List HashObject) (idx : Nat) :
    deref t mem (ObjPos.bucket idx) = t.buckets_[idx]? := rfl

theorem deref_next (t : HashTable) (mem : List HashObject) (q : Nat) :
    deref t mem (ObjPos.next q) = (mem[q]?).map (·.hash_next) := by
  show (match mem[q]? with
    | none => none
    | some o => some o.hash_next) = _
  cases mem[q]? <;> rfl

theorem assign_bucket (t : HashTable) (mem : List HashObject) (v : Option Nat) (idx : Nat)
    (h : idx < t.buckets_.length) :
    assign t mem v (ObjPos.bucket idx) = some ({ t with buckets_ := t.buckets_.set idx v }, mem) := by
  simp only [assign]
  rw [if_pos h]

theorem assign_next (t : HashTable) (mem : List HashObject) (v : Option Nat) (q : Nat)
    (oq : HashObject) (h : mem[q]? = some oq) :
    assign t mem v (ObjPos.next q) = some (t, mem.set q { oq with hash_next := v }) := by
  show (match mem[q]? with
    | none => none
    | some o => some (t, mem.set q { o with hash_next := v })) = _
  rw [h]

/-- The loop of `FindPrevObjPos` and the rest of `Remove` on a chain `l` that
starts at the place `pos`. -/
theorem unlink_chain (t : HashTable) (mem : List HashObject) (key : Nat) :
    ∀ (l : List Nat) (pos : ObjPos) (head : Option Nat) (fuel : Nat),
    deref t mem pos = some head → IsChain mem head l → (l.map (keyOf mem)).Nodup →
    l.length < fuel → (∀ q, pos = ObjPos.next q → q ∉ l) →
    ∃ pos1, findPrevLoop t mem key fuel pos = some pos1 ∧
      ((∀ p ∈ l, keyOf mem p ≠ key) → unlinkAt t mem pos1 = some (none, t, mem)) ∧
      ∀ target ∈ l, keyOf mem target = key →
        ∃ t1 mem1 head1, unlinkAt t mem pos1 = some (some target, t1, mem1) ∧
          t1 = { t with buckets_ := t1.buckets_ } ∧
          t1.buckets_.length = t.buckets_.length ∧
          (∀ idx, pos ≠ ObjPos.bucket idx → t1.buckets_[idx]? = t.buckets_[idx]?) ∧
          (∀ p, keyOf mem1 p = keyOf mem p) ∧
          (∀ p, p ∉ l → pos ≠ ObjPos.next p → mem1[p]? = mem[p]?) ∧
          (∃ o1, mem1[target]? = some o1 ∧ o1.hash_next = none) ∧
          deref t1 mem1 pos = some head1 ∧ IsChain mem1 head1 (l.erase target)
  | [], pos, head, fuel, hd, hc, _, hf, _ => by
    unfold IsChain at hc
    subst hc
    cases fuel with
    | zero => omega
    | succ f =>
      refine ⟨pos, ?_, ?_, fun target ht => absurd ht (List.not_mem_nil _)⟩
      · unfold findPrevLoop
        rw [hd]
      · intro _
        unfold unlinkAt
        rw [hd]
  | x :: rest, pos, head, fuel, hd, hc, hk, hf, hq => by
    unfold IsChain at hc
    obtain ⟨h1, h2⟩ := hc
    subst h1
    cases ho : mem[x]? with
    | none =>
      rw [ho] at h2
      exact absurd h2 id
    | some o =>
      rw [ho] at h2
      simp only at h2
      have hxl : x < mem.length := (List.getElem?_eq_some_iff.1 ho).1
      rw [List.map_cons, List.nodup_cons] at hk
      have hxr : x ∉ rest := fun hm => hk.1 (List.mem_map.2 ⟨x, hm, rfl⟩)
      cases fuel with
      | zero => omega
      | succ f =>
        by_cases hkey : o.hash_key = key
        · -- the object is the first of the chain
          refine ⟨pos, ?_, ?_, ?_⟩
          · unfold findPrevLoop
            rw [hd]
            simp only
            rw [ho]
            simp only
            rw [if_neg (by simp [hkey])]
          · intro hne
            exact absurd ((keyOf_eq mem x o ho).trans hkey) (hne x (List.mem_cons_self _ _))
          · intro target ht htk
            have e : target = x := by
              rcases List.mem_cons.1 ht with h | h
              · exact h
              · exfalso
                apply hk.1
                rw [keyOf_eq mem x o ho, hkey, ← htk]
                exact List.mem_map.2 ⟨target, h, rfl⟩
            subst e
            rw [List.erase_cons_head]
            unfold unlinkAt
            rw [hd]
            simp only
            rw [ho]
            simp only
            cases pos with
            | bucket idx =>
              have hidx : idx < t.buckets_.length := by
                rw [deref_bucket] at hd
                exact (List.getElem?_eq_some_iff.1 hd).1
              rw [assign_bucket t mem _ idx hidx]
              simp only
              rw [ho]
              simp only
              refine ⟨_, _, o.hash_next, rfl, rfl, by simp, ?_, ?_, ?_, ?_, ?_, ?_⟩
              · intro i hi
                exact List.getElem?_set_ne (fun h => hi (by rw [h]))
              · exact keyOf_set_next mem target o none ho
              · intro p hp _
                exact List.getElem?_set_ne (fun h => hp (by rw [h]; exact List.mem_cons_self _ _))
              · exact ⟨_, List.getElem?_set_self hxl, rfl⟩
              · rw [deref_bucket]
                exact List.getElem?_set_self hidx
              · exact isChain_frame mem _ _ _ (fun p hp =>
                  List.getElem?_set_ne (fun h => hxr (by rw [h]; exact hp))) h2
            | next q =>
              have hqx : q ≠ target := fun h => hq q rfl (by rw [h]; exact List.mem_cons_self _ _)
              have hqr : q ∉ rest := fun h => hq q rfl (List.mem_cons_of_mem _ h)
              rw [deref_next] at hd
              cases hoq : mem[q]? with
              | none =>
                rw [hoq] at hd
                exact absurd hd (by simp)
              | some oq =>
                have hql : q < mem.length := (List.getElem?_eq_some_iff.1 hoq).1
                rw [assign_next t mem _ q oq hoq]
                simp only
                rw [List.getElem?_set_ne hqx, ho]
                simp only
                refine ⟨_, _, o.hash_next, rfl, rfl, rfl, fun _ _ => rfl, ?_, ?_, ?_, ?_, ?_⟩
                · intro p
                  rw [keyOf_set_next _ target o none (by rw [List.getElem?_set_ne hqx]; exact ho)]
                  exact keyOf_set_next mem q oq _ hoq p
                · intro p hp hpq
                  rw [List.getElem?_set_ne
                    (fun h => hp (by rw [← h]; exact List.mem_cons_self _ _)),
                    List.getElem?_set_ne (fun h => hpq (by rw [h]))]
                · exact ⟨_, List.getElem?_set_self (by rw [List.length_set]; exact hxl), rfl⟩
                · rw [deref_next, List.getElem?_set_ne (Ne.symm hqx), List.getElem?_set_self hql]
                  rfl
                · exact isChain_frame mem _ _ _ (fun p hp => by
                    rw [List.getElem?_set_ne (fun h => hxr (by rw [h]; exact hp)),
                      List.getElem?_set_ne (fun h => hqr (by rw [h]; exact hp))]) h2
        · -- the walk goes on from the field `hash_next` of the first object
          have hd1 : deref t mem (ObjPos.next x) = some o.hash_next := by
            rw [deref_next, ho]
            rfl
          obtain ⟨pos1, r1, r2, r3⟩ := unlink_chain t mem key rest (ObjPos.next x) o.hash_next f
            hd1 h2 hk.2 (by simp at hf; omega) (by
              intro q hq1
              injection hq1 with hq1
              rw [← hq1]
              exact hxr)
          refine ⟨pos1, ?_, ?_, ?_⟩
          · unfold findPrevLoop
            rw [hd]
            simp only
            rw [ho]
            simp only
            rw [if_pos (by simpa using hkey)]
            exact r1
          · intro hne
            exact r2 (fun p hp => hne p (List.mem_cons_of_mem _ hp))
          · intro target ht htk
            have htx : target ≠ x := by
              rintro rfl
              exact hkey ((keyOf_eq mem target o ho).symm.trans htk)
            have htr : target ∈ rest := by
              rcases List.mem_cons.1 ht with h | h
              · exact absurd h htx
              · exact h
            obtain ⟨t1, mem1, head1, u1, u2, u3, u4, u5, u6, u7, u8, u9⟩ := r3 target htr htk
            have hposeq : deref t1 mem1 pos = deref t mem pos := by
              cases pos with
              | bucket idx =>
                rw [deref_bucket, deref_bucket]
                exact u4 idx (by simp)
              | next q =>
                rw [deref_next, deref_next]
                have hqx : q ≠ x := fun h => hq q rfl (by rw [h]; exact List.mem_cons_self _ _)
                have hqr : q ∉ rest := fun h => hq q rfl (List.mem_cons_of_mem _ h)
                rw [u6 q hqr (by
                  intro h
                  injection h with h
                  exact hqx h.symm)]
            rw [List.erase_cons_tail (by simpa using Ne.symm htx)]
            refine ⟨t1, mem1, some x, u1, u2, u3, ?_, u5, ?_, u7, hposeq.trans hd, ?_⟩
            · intro idx _
              exact u4 idx (by simp)
            · intro p hp hpp
              exact u6 p (fun h => hp (List.mem_cons_of_mem _ h)) (by
                intro h
                injection h with h
                exact hp (by rw [← h]; exact List.mem_cons_self _ _))
            · unfold IsChain
              refine ⟨rfl, ?_⟩
              rw [deref_next] at u8
              cases hx1 : mem1[x]? with
              | none =>
                rw [hx1] at u8
                exact absurd u8 (by simp)
              | some o1 =>
                rw [hx1] at u8
                simp only [Option.map_some', Option.some.injEq] at u8
                simp only
                rw [u8]
                exact u9

end HashTable
end Containers

namespace Containers
namespace HashTable

/-- `Remove` on a well-formed table. -/
theorem remove_spec (hash : Nat → Nat → Nat) (ks : Nat) (t : HashTable) (mem : List HashObject)
    (chain : Nat → List Nat) (key : Nat) (hw : WF hash ks t mem chain) :
    ∃ r t1 mem1, Remove hash t mem key ks = some (r, t1, mem1) ∧
      ((∀ p, Stored t chain p → keyOf mem p ≠ key) → r = none ∧ t1 = t ∧ mem1 = mem) ∧
      ∀ p, Stored t chain p → keyOf mem p = key →
        r = some p ∧ (∃ o1, mem1[p]? = some o1 ∧ o1.hash_next = none) ∧
        t1.number_objects_ = t.number_objects_ ∧
        ∃ chain1, WF hash ks t1 mem1 chain1 ∧
          (∀ q, Stored t1 chain1 q ↔ q ≠ p ∧ Stored t chain q) ∧
          (∀ q, keyOf mem1 q = keyOf mem q) := by
  obtain ⟨w1, w2, w3⟩ := hw
  obtain ⟨i, hi, hlt⟩ := bucketIdx_lt hash t key ks w1
  obtain ⟨head, g1, g2, g3, g4⟩ := w3 i hlt
  have hlen := chain_length_le mem _ _ g2 g4
  obtain ⟨pos1, r1, r2, r3⟩ := unlink_chain t mem key (chain i) (ObjPos.bucket i) head
    (mem.length + 1) (by rw [deref_bucket]; exact g1) g2 g4 (by omega) (by
      intro q hq
      exact absurd hq (by simp))
  have hstored : ∀ p, Stored t chain p → keyOf mem p = key → p ∈ chain i := by
    rintro p ⟨j, hj, hp⟩ hk
    obtain ⟨_, _, _, k3, _⟩ := w3 j hj
    have := k3 p hp
    rw [hk, hi] at this
    rw [Option.some.inj this]
    exact hp
  have hR : Remove hash t mem key ks = unlinkAt t mem pos1 := by
    unfold Remove FindPrevObjPos
    rw [hi]
    simp only
    rw [r1]
  rw [hR]
  by_cases hex : ∃ p ∈ chain i, keyOf mem p = key
  · obtain ⟨p, hp, hk⟩ := hex
    obtain ⟨t1, mem1, head1, u1, u2, u3, u4, u5, u6, u7, u8, u9⟩ := r3 p hp hk
    refine ⟨some p, t1, mem1, u1, ?_, ?_⟩
    · intro hne
      exact absurd hk (hne p ⟨i, hlt, hp⟩)
    · intro p' hp' hk'
      have hp'i := hstored p' hp' hk'
      have e : p' = p := List.inj_on_of_nodup_map g4 hp'i hp (hk'.trans hk.symm)
      subst e
      have hnb : t1.number_buckets_ = t.number_buckets_ := by rw [u2]
      refine ⟨rfl, u7, by rw [u2], Function.update chain i ((chain i).erase p'), ⟨?_, ?_, ?_⟩,
        ?_, u5⟩
      · rw [hnb]
        exact w1
      · rw [hnb, u3]
        exact w2
      · intro j hj
        rw [hnb] at hj
        by_cases hji : j = i
        · subst hji
          rw [deref_bucket] at u8
          refine ⟨head1, u8, ?_, ?_, ?_⟩
          · rw [Function.update_same]
            exact u9
          · rw [Function.update_same]
            intro q hq
            rw [u5]
            exact (bucketIdx_congr hash t _ _ _ hnb).trans (g3 q (List.mem_of_mem_erase hq))
          · rw [Function.update_same]
            have e : ((chain j).erase p').map (keyOf mem1) = ((chain j).erase p').map (keyOf mem) :=
              List.map_congr_left (fun q _ => u5 q)
            rw [e]
            exact g4.sublist ((List.erase_sublist _ _).map _)
        · obtain ⟨head', k1, k2, k3, k4⟩ := w3 j hj
          have hfr : ∀ q ∈ chain j, mem1[q]? = mem[q]? := by
            intro q hq
            apply u6 q _ (by simp)
            intro hqi
            have a1 := k3 q hq
            have a2 := g3 q hqi
            rw [a1] at a2
            exact hji (Option.some.inj a2)
          refine ⟨head', ?_, ?_, ?_, ?_⟩
          · rw [u4 j (by
              intro h
              injection h with h
              exact hji h.symm)]
            exact k1
          · rw [Function.update_noteq hji]
            exact isChain_frame mem mem1 _ _ hfr k2
          · rw [Function.update_noteq hji]
            intro q hq
            rw [u5]
            exact (bucketIdx_congr hash t _ _ _ hnb).trans (k3 q hq)
          · rw [Function.update_noteq hji]
            have e : (chain j).map (keyOf mem1) = (chain j).map (keyOf mem) :=
              List.map_congr_left (fun q _ => u5 q)
            rw [e]
            exact k4
      · intro q
        have hnd : (chain i).Nodup := List.Nodup.of_map _ g4
        unfold Stored
        rw [hnb]
        constructor
        · rintro ⟨j, hj, hq⟩
          by_cases hji : j = i
          · subst hji
            rw [Function.update_same] at hq
            have := (hnd.mem_erase_iff).1 hq
            exact ⟨this.1, j, hj, this.2⟩
          · rw [Function.update_noteq hji] at hq
            refine ⟨?_, j, hj, hq⟩
            rintro rfl
            obtain ⟨_, _, _, k3, _⟩ := w3 j hj
            have a1 := k3 q hq
            have a2 := g3 q hp
            rw [a1] at a2
            exact hji (Option.some.inj a2)
        · rintro ⟨hne, j, hj, hq⟩
          by_cases hji : j = i
          · subst hji
            exact ⟨j, hj, by rw [Function.update_same]; exact (hnd.mem_erase_iff).2 ⟨hne, hq⟩⟩
          · exact ⟨j, hj, by rw [Function.update_noteq hji]; exact hq⟩
  · have hne : ∀ p ∈ chain i, keyOf mem p ≠ key := fun p hp hk => hex ⟨p, hp, hk⟩
    refine ⟨none, t, mem, r2 hne, fun _ => ⟨rfl, rfl, rfl⟩, ?_⟩
    intro p hp hk
    exact absurd hk (hne p (hstored p hp hk))

/-- The table that `Init` makes is well-formed, with empty chains. -/
theorem init_wf (hash : Nat → Nat → Nat) (ks : Nat) (t : HashTable) (mem : List HashObject)
    (number_buckets : Nat) (h : 0 < number_buckets) :
    (t.Init number_buckets).1 = true ∧
      WF hash ks (t.Init number_buckets).2 mem (fun _ => []) ∧
      (t.Init number_buckets).2.GetNumberObjects = 0 ∧
      (t.Init number_buckets).2.GetNumberBuckets = number_buckets := by
  refine ⟨rfl, ⟨h, by simp [Init], ?_⟩, rfl, rfl⟩
  intro i hi
  refine ⟨none, ?_, rfl, fun obj ho => absurd ho (List.not_mem_nil _), List.nodup_nil⟩
  simp only [Init] at hi ⊢
  rw [List.getElem?_replicate, if_pos hi]

end HashTable
end Containers

/-! ## Claims about the hash table -/

namespace Containers
namespace HashTable

/-- C13: on a well-formed hash table with at least one bucket (chains `chain`,
any number of stored objects), for every object `obj` of the memory,
`Insert(obj)` returns, and it returns true exactly when no stored object has
the key of `obj`.  After a true result the table is well-formed again, the
stored objects are `obj` and those stored before, `Lookup` of the key of `obj`
returns `obj` and `Lookup` of the key of every object stored before still
returns that object.  After a false result the table and the memory are
unchanged. -/
theorem C13_hash_insert (hash : Nat → Nat → Nat) (ks : Nat) (t : HashTable)
    (mem : List HashObject) (chain : Nat → List Nat) (obj : Nat) (o : HashObject)
    (hw : WF hash ks t mem chain) (ho : mem[obj]? = some o) :
    ∃ b t1 mem1, Insert hash t mem obj ks = some (b, t1, mem1) ∧
      (b = true ↔ ∀ p, Stored t chain p → keyOf mem p ≠ o.hash_key) ∧
      (b = true → ∃ chain1, WF hash ks t1 mem1 chain1 ∧
        (∀ p, Stored t1 chain1 p ↔ p = obj ∨ Stored t chain p) ∧
        Lookup hash t1 mem1 o.hash_key ks = some (some obj) ∧
        ∀ p, Stored t chain p → Lookup hash t1 mem1 (keyOf mem p) ks = some (some p)) ∧
      (b = false → t1 = t ∧ mem1 = mem) := by
  obtain ⟨b, t1, mem1, h1, h2, h3, h4⟩ := insert_spec hash ks t mem chain obj o hw ho
  refine ⟨b, t1, mem1, h1, h2, ?_, h4⟩
  intro hb
  obtain ⟨chain1, g1, g2, g3⟩ := h3 hb
  obtain ⟨s1, _, _⟩ := lookup_spec hash ks t1 mem1 chain1 g1
  refine ⟨chain1, g1, g2, ?_, ?_⟩
  · have := s1 obj ((g2 obj).2 (Or.inl rfl))
    rw [g3, keyOf_eq mem obj o ho] at this
    exact this
  · intro p hp
    have := s1 p ((g2 p).2 (Or.inr hp))
    rw [g3] at this
    exact this

/-- C13 applies to the table of one bucket that `Init` makes: the insertion of
an object with key 5 returns true. -/
theorem C13_hash_insert_witness :
    ∃ b t1 mem1, Insert (fun k _ => k) (HashTable.new.Init 1).2
        [{ hash_next := none, hash_key := 5 }] 0 8 = some (b, t1, mem1) ∧ b = true ∧
      Lookup (fun k _ => k) t1 mem1 5 8 = some (some 0) := by
  obtain ⟨b, t1, mem1, h1, h2, h3, _⟩ := C13_hash_insert (fun k _ => k) 8
    (HashTable.new.Init 1).2 [{ hash_next := none, hash_key := 5 }] (fun _ => []) 0
    { hash_next := none, hash_key := 5 }
    (init_wf (fun k _ => k) 8 HashTable.new _ 1 (by decide)).2.1 rfl
  have hb : b = true := h2.2 (by
    rintro p ⟨i, _, hp⟩
    exact absurd hp (List.not_mem_nil _))
  obtain ⟨_, _, _, g3, _⟩ := h3 hb
  exact ⟨b, t1, mem1, h1, hb, g3⟩

/-- C14: on a well-formed hash table, `Remove(key)` returns.  When a stored
object `p` has the key, it returns `p` with `p->hash_next == NULL`, the table is
well-formed again, the stored objects are those stored before without `p`,
`Lookup(key)` returns NULL and `Lookup` of the key of every other stored object
still returns that object.  When no stored object has the key, it returns NULL
and the table and the memory are unchanged. -/
theorem C14_hash_remove (hash : Nat → Nat → Nat) (ks : Nat) (t : HashTable)
    (mem : List HashObject) (chain : Nat → List Nat) (key : Nat)
    (hw : WF hash ks t mem chain) :
    ∃ r t1 mem1, Remove hash t mem key ks = some (r, t1, mem1) ∧
      ((∀ p, Stored t chain p → keyOf mem p ≠ key) → r = none ∧ t1 = t ∧ mem1 = mem) ∧
      ∀ p, Stored t chain p → keyOf mem p = key →
        r = some p ∧ (∃ o1, mem1[p]? = some o1 ∧ o1.hash_next = none) ∧
        ∃ chain1, WF hash ks t1 mem1 chain1 ∧
          (∀ q, Stored t1 chain1 q ↔ q ≠ p ∧ Stored t chain q) ∧
          Lookup hash t1 mem1 key ks = some none ∧
          ∀ q, Stored t chain q → q ≠ p →
            Lookup hash t1 mem1 (keyOf mem q) ks = some (some q) := by
  obtain ⟨_, _, hs3⟩ := lookup_spec hash ks t mem chain hw
  obtain ⟨s1, _, _⟩ := lookup_spec hash ks t mem chain hw
  obtain ⟨r, t1, mem1, h1, h2, h3⟩ := remove_spec hash ks t mem chain key hw
  refine ⟨r, t1, mem1, h1, h2, ?_⟩
  intro p hp hk
  obtain ⟨g1, g2, _, chain1, g4, g5, g6⟩ := h3 p hp hk
  obtain ⟨k1, k2, _⟩ := lookup_spec hash ks t1 mem1 chain1 g4
  refine ⟨g1, g2, chain1, g4, g5, ?_, ?_⟩
  · apply k2
    intro q hq hqk
    obtain ⟨hne, hqs⟩ := (g5 q).1 hq
    rw [g6] at hqk
    apply hne
    have a1 := s1 q hqs
    have a2 := s1 p hp
    rw [hqk] at a1
    rw [hk] at a2
    rw [a1] at a2
    exact Option.some.inj (Option.some.inj a2)
  · intro q hq hne
    have := k1 q ((g5 q).2 ⟨hne, hq⟩)
    rw [g6] at this
    exact this

/-- C14 applies to a table of one bucket that stores one object with key 5:
`Remove(5)` returns the object and `Lookup(5)` returns NULL afterwards. -/
theorem C14_hash_remove_witness :
    ∃ t1 mem1, Remove (fun k _ => k)
        { ready_ := true, buckets_ := [some 0], number_buckets_ := 1, number_objects_ := 1 }
        [{ hash_next := none, hash_key := 5 }] 5 8 = some (some 0, t1, mem1) ∧
      Lookup (fun k _ => k) t1 mem1 5 8 = some none := by
  have hw : WF (fun k _ => k) 8
      { ready_ := true, buckets_ := [some 0], number_buckets_ := 1, number_objects_ := 1 }
      [{ hash_next := none, hash_key := 5 }] (fun _ => [0]) := by
    refine ⟨by decide, rfl, ?_⟩
    intro i hi
    have hi0 : i = 0 := by
      simp only at hi
      omega
    subst hi0
    refine ⟨some 0, rfl, ⟨rfl, rfl⟩, ?_, by simp⟩
    intro obj hobj
    rw [List.mem_singleton.1 hobj]
    decide
  obtain ⟨r, t1, mem1, h1, _, h3⟩ := C14_hash_remove (fun k _ => k) 8 _ _ _ 5 hw
  obtain ⟨g1, _, _, _, _, g6, _⟩ := h3 0 ⟨0, by decide, List.mem_singleton.2 rfl⟩ rfl
  subst g1
  exact ⟨t1, mem1, h1, g6⟩

/-- C15 (failing input): a table of 4 buckets, one object with key 7 inserted
and removed again.  `Remove` returns the object, every bucket is empty and
`Lookup(7)` returns NULL, but `GetNumberObjects()` is still 1: `Remove` does not
decrement `number_objects_`. -/
theorem C15_hash_count_after_remove :
    (Insert (fun k _ => k) (HashTable.new.Init 4).2 [{ hash_next := none, hash_key := 7 }] 0
      8).bind (fun r => (Remove (fun k _ => k) r.2.1 r.2.2 7 8).map (fun q =>
        (r.1, r.2.1.GetNumberObjects, q.1, q.2.1.GetNumberObjects, q.2.1.buckets_,
          Lookup (fun k _ => k) q.2.1 q.2.2 7 8))) =
      some (true, 1, some 0, 1, [none, none, none, none], some none) := by
  rfl

end HashTable
end Containers

/-! ## The free list -/

namespace Containers
namespace FreeList

theorem take_set_self (l : List Nat) (n x : Nat) : (l.set n x).take n = l.take n := by
  apply List.ext_getElem?
  intro i
  rw [List.getElem?_take, List.getElem?_take]
  split
  · rename_i h
    rw [List.getElem?_set_ne (by omega)]
  · rfl

theorem pool_avail (N : Nat) (fl : FreeList) (out : List Nat) (h : Pool N fl out) :
    fl.available_objects_ + out.length = N := by
  obtain ⟨_, h2, h3, h4⟩ := h
  have := h4.length_eq
  simp only [List.length_append, List.length_take, List.length_range] at this
  omega

theorem pool_new_spec (N : Nat) (fl : FreeList) (out : List Nat) (h : Pool N fl out)
    (hlt : out.length < N) :
    ∃ x fl1, fl.New = some (some x, fl1) ∧ x ∉ out ∧ x < N ∧ Pool N fl1 (x :: out) ∧
      fl1.available_objects_ + 1 = fl.available_objects_ := by
  have ha := pool_avail N fl out h
  obtain ⟨h1, h2, h3, h4⟩ := h
  have hpos : 0 < fl.available_objects_ := by omega
  have hidx : fl.available_objects_ - 1 < fl.list_.length := by omega
  have htake : fl.list_.take fl.available_objects_ =
      fl.list_.take (fl.available_objects_ - 1) ++ [fl.list_[fl.available_objects_ - 1]] := by
    have hsucc : fl.list_.take (fl.available_objects_ - 1 + 1) =
        fl.list_.take (fl.available_objects_ - 1) ++
          (fl.list_[fl.available_objects_ - 1]?).toList := List.take_succ
    rw [Nat.sub_add_cancel hpos, List.getElem?_eq_getElem hidx] at hsucc
    exact hsucc
  rw [htake] at h4
  have hnd : (fl.list_.take (fl.available_objects_ - 1) ++
      [fl.list_[fl.available_objects_ - 1]] ++ out).Nodup := h4.nodup_iff.2 (List.nodup_range N)
  refine ⟨fl.list_[fl.available_objects_ - 1],
    { fl with available_objects_ := fl.available_objects_ - 1 }, ?_, ?_, ?_, ⟨h1, h2, ?_, ?_⟩, ?_⟩
  · unfold New
    rw [if_neg (by omega), List.getElem?_eq_getElem hidx]
  · intro hm
    have := (List.nodup_append.1 hnd).2.2
    exact this (List.mem_append_right _ (List.mem_singleton.2 rfl)) hm
  · apply List.mem_range.1
    apply h4.subset
    exact List.mem_append_left _ (List.mem_append_right _ (List.mem_singleton.2 rfl))
  · simp only
    omega
  · simp only
    rw [List.append_assoc] at h4
    exact h4
  · simp only
    omega

theorem new_empty (N : Nat) (fl : FreeList) (out : List Nat) (h : Pool N fl out)
    (hlen : out.length = N) : fl.New = some (none, fl) := by
  have ha := pool_avail N fl out h
  unfold New
  rw [if_pos (by omega)]

theorem pool_free_spec (N : Nat) (fl : FreeList) (out : List Nat) (x : Nat) (h : Pool N fl out)
    (hx : x ∈ out) :
    ∃ fl1, fl.Free x = some fl1 ∧ Pool N fl1 (out.erase x) ∧
      fl1.available_objects_ = fl.available_objects_ + 1 ∧
      ∃ fl2, fl1.New = some (some x, fl2) ∧ Pool N fl2 out := by
  have ha := pool_avail N fl out h
  obtain ⟨h1, h2, h3, h4⟩ := h
  have hpos : 0 < out.length := List.length_pos_of_mem hx
  have hlt : fl.available_objects_ < fl.list_.length := by omega
  have htake : (fl.list_.set fl.available_objects_ x).take (fl.available_objects_ + 1) =
      fl.list_.take fl.available_objects_ ++ [x] := by
    rw [List.take_succ, List.getElem?_set_self hlt, take_set_self]
    rfl
  refine ⟨{ fl with list_ := fl.list_.set fl.available_objects_ x,
                    available_objects_ := fl.available_objects_ + 1 }, ?_, ⟨h1, ?_, ?_, ?_⟩, rfl, ?_⟩
  · unfold Free
    rw [if_pos hlt]
  · simp only [List.length_set]
    exact h2
  · simp only
    omega
  · simp only
    rw [htake, List.append_assoc]
    exact ((List.perm_cons_erase hx).symm.append_left _).trans h4
  · refine ⟨{ fl with list_ := fl.list_.set fl.available_objects_ x }, ?_, ⟨h1, ?_, h3, ?_⟩⟩
    · unfold New
      simp only
      rw [if_neg (by omega), Nat.add_sub_cancel, List.getElem?_set_self hlt]
    · simp only [List.length_set]
      exact h2
    · simp only
      rw [take_set_self]
      exact h4

theorem newLoop_spec (N : Nat) : ∀ (n : Nat) (fl : FreeList) (out : List Nat),
    Pool N fl out → n + out.length ≤ N →
    ∃ (xs : List Nat) (fl1 : FreeList), newLoop n fl = some (xs.map some, fl1) ∧ xs.length = n ∧
      Pool N fl1 (xs.reverse ++ out)
  | 0, fl, out, h, _ => ⟨[], fl, rfl, rfl, h⟩
  | n + 1, fl, out, h, hn => by
    obtain ⟨x, fl1, e1, _, _, p1, _⟩ := pool_new_spec N fl out h (by omega)
    obtain ⟨xs, fl2, e2, l2, p2⟩ := newLoop_spec N n fl1 (x :: out) p1 (by
      simp only [List.length_cons]
      omega)
    refine ⟨x :: xs, fl2, ?_, by simp [l2], ?_⟩
    · unfold newLoop
      rw [e1]
      simp only
      rw [e2]
      rfl
    · rw [List.reverse_cons, List.append_assoc]
      exact p2

theorem init_pool (N : Nat) (hN : N < 2 ^ 32) :
    ∃ fl0, FreeList.new.Init N = some (true, fl0) ∧ Pool N fl0 [] := by
  refine ⟨{ ready_ := true, list_ := List.range N, total_objects_ := N,
             available_objects_ := N }, ?_, rfl, by simp, Nat.le_refl _, ?_⟩
  · unfold Init
    rw [if_neg (by simp [new]), if_neg (by omega)]
  · simp only [List.append_nil]
    rw [List.take_of_length_le (by simp)]

/-- C16: a pool that `Init` makes of `N` objects (`N < 2^32`).  `N` calls of
`New` in a row return `N` objects, all different and all of the pool, and one
more call returns NULL.  In every state that `New`, and `Free` of an object that
is handed out, lead to (`out` are the objects handed out), `AvailObjects()` is
`N` minus the number of objects handed out; `New` returns NULL when all are
handed out and otherwise an object of the pool that was not handed out; and
`Free(x)` followed by `New()` returns `x`. -/
theorem C16_free_list (N : Nat) (hN : N < 2 ^ 32) :
    (∃ fl0, FreeList.new.Init N = some (true, fl0) ∧ Pool N fl0 [] ∧
      ∃ (xs : List Nat) (fl1 : FreeList), newLoop N fl0 = some (xs.map some, fl1) ∧ xs.length = N ∧ xs.Nodup ∧
        (∀ x ∈ xs, x < N) ∧ fl1.New = some (none, fl1)) ∧
    ∀ fl out, Pool N fl out →
      fl.AvailObjects = N - out.length ∧ out.length ≤ N ∧ fl.TotalObjects = N ∧
      (out.length = N → fl.New = some (none, fl)) ∧
      (out.length < N → ∃ x fl1, fl.New = some (some x, fl1) ∧ x ∉ out ∧ x < N ∧
        Pool N fl1 (x :: out)) ∧
      ∀ x ∈ out, ∃ fl1, fl.Free x = some fl1 ∧ Pool N fl1 (out.erase x) ∧
        ∃ fl2, fl1.New = some (some x, fl2) ∧ Pool N fl2 out := by
  constructor
  · obtain ⟨fl0, e0, p0⟩ := init_pool N hN
    obtain ⟨xs, fl1, e1, l1, p1⟩ := newLoop_spec N N fl0 [] p0 (by simp)
    rw [List.append_nil] at p1
    have hperm := p1.2.2.2
    have ha := pool_avail N fl1 _ p1
    rw [List.length_reverse, l1] at ha
    have h0 : fl1.available_objects_ = 0 := by omega
    rw [h0, List.take_zero, List.nil_append] at hperm
    refine ⟨fl0, e0, p0, xs, fl1, e1, l1, ?_, ?_, ?_⟩
    · exact List.nodup_reverse.1 (hperm.nodup_iff.2 (List.nodup_range N))
    · intro x hx
      exact List.mem_range.1 (hperm.subset (List.mem_reverse.2 hx))
    · exact new_empty N fl1 _ p1 (by rw [List.length_reverse, l1])
  · intro fl out h
    have ha := pool_avail N fl out h
    refine ⟨?_, by omega, h.1, new_empty N fl out h, ?_, ?_⟩
    · unfold AvailObjects
      omega
    · intro hlt
      obtain ⟨x, fl1, e, g1, g2, g3, _⟩ := pool_new_spec N fl out h hlt
      exact ⟨x, fl1, e, g1, g2, g3⟩
    · intro x hx
      obtain ⟨fl1, e, g1, _, g3⟩ := pool_free_spec N fl out x h hx
      exact ⟨fl1, e, g1, g3⟩

/-- C16 applies to a pool of 3 objects: the third call of `New` returns object 0
and the fourth NULL. -/
theorem C16_free_list_witness :
    3 < 2 ^ 32 ∧ ∃ (fl0 : FreeList) (xs : List Nat) (fl1 : FreeList), FreeList.new.Init 3 = some (true, fl0) ∧
      newLoop 3 fl0 = some (xs.map some, fl1) ∧ xs.length = 3 ∧ xs.Nodup ∧
      fl1.New = some (none, fl1) := by
  obtain ⟨⟨fl0, e0, _, xs, fl1, e1, l1, n1, _, z1⟩, _⟩ := C16_free_list 3 (by decide)
  exact ⟨by decide, fl0, xs, fl1, e0, e1, l1, n1, z1⟩

end FreeList
end Containers

/-! ## The LRU list -/

namespace Containers
namespace LRUList

theorem headOr_append (l1 l2 : List Nat) (n : Option Nat) :
    headOr (l1 ++ l2) n = headOr l1 (headOr l2 n) := by
  cases l1 <;> rfl

theorem lastOr_append : ∀ (l1 l2 : List Nat) (p : Option Nat),
    lastOr (l1 ++ l2) p = lastOr l2 (lastOr l1 p)
  | [], _, _ => rfl
  | y :: rest, l2, _ => by
    rw [List.cons_append]
    exact lastOr_append rest l2 (some y)

theorem lastOr_eq_getLast? : ∀ (l : List Nat) (p : Option Nat),
    lastOr l p = match l.getLast? with
      | none => p
      | some y => some y
  | [], _ => rfl
  | [y], _ => rfl
  | y :: z :: rest, _ => by
    rw [List.getLast?_cons_cons]
    exact lastOr_eq_getLast? (z :: rest) (some y)

theorem lastOr_none (l : List Nat) : lastOr l none = l.getLast? := by
  rw [lastOr_eq_getLast?]
  cases l.getLast? <;> rfl

theorem headOr_none (l : List Nat) : headOr l none = l.head? := by
  cases l <;> rfl

theorem linked_cons (mem : List LRUObject) (x : Nat) (rest : List Nat) (p n : Option Nat) :
    Linked mem p (x :: rest) n ↔
      mem[x]? = some { lru_prev := p, lru_next := headOr rest n } ∧
        Linked mem (some x) rest n := Iff.rfl

theorem linked_frame (mem mem1 : List LRUObject) : ∀ (l : List Nat) (p n : Option Nat),
    (∀ x ∈ l, mem1[x]? = mem[x]?) → Linked mem p l n → Linked mem1 p l n
  | [], _, _, _, _ => trivial
  | x :: rest, p, n, hf, h => by
    unfold Linked at h ⊢
    refine ⟨by rw [hf x (List.mem_cons_self _ _)]; exact h.1, ?_⟩
    exact linked_frame mem mem1 rest _ n (fun y hy => hf y (List.mem_cons_of_mem _ hy)) h.2

theorem linked_append (mem : List LRUObject) : ∀ (l1 l2 : List Nat) (p n : Option Nat),
    Linked mem p (l1 ++ l2) n ↔ Linked mem p l1 (headOr l2 n) ∧ Linked mem (lastOr l1 p) l2 n
  | [], l2, p, n => by
    simp [Linked, lastOr]
  | x :: rest, l2, p, n => by
    rw [List.cons_append, linked_cons, linked_cons, linked_append mem rest l2 (some x) n,
      headOr_append]
    simp only [lastOr, headOr]
    tauto

theorem linked_lt (mem : List LRUObject) : ∀ (l : List Nat) (p n : Option Nat),
    Linked mem p l n → ∀ x ∈ l, x < mem.length
  | [], _, _, _, x, hx => absurd hx (List.not_mem_nil x)
  | y :: rest, p, n, h, x, hx => by
    unfold Linked at h
    rcases List.mem_cons.1 hx with rfl | hx
    · exact (List.getElem?_eq_some_iff.1 h.1).1
    · exact linked_lt mem rest _ n h.2 x hx

theorem linked_single (mem : List LRUObject) (a : Nat) (p n : Option Nat) :
    Linked mem p [a] n ↔ mem[a]? = some { lru_prev := p, lru_next := n } := by
  simp [Linked, headOr]

/-- The field `lru_next` of the last object of a linked sequence is set. -/
theorem linked_set_next_last (mem : List LRUObject) (l : List Nat) (a : Nat)
    (p n n1 : Option Nat) (h : Linked mem p (l ++ [a]) n) (ha : a ∉ l) :
    ∃ mem1, setNext mem a n1 = some mem1 ∧ Linked mem1 p (l ++ [a]) n1 ∧
      mem1.length = mem.length ∧ ∀ y, y ≠ a → mem1[y]? = mem[y]? := by
  rw [linked_append, linked_single] at h
  obtain ⟨h1, h2⟩ := h
  have hl : a < mem.length := (List.getElem?_eq_some_iff.1 h2).1
  refine ⟨mem.set a { lru_prev := lastOr l p, lru_next := n1 }, ?_, ?_, by simp, ?_⟩
  · unfold setNext
    rw [h2]
  · rw [linked_append, linked_single]
    refine ⟨?_, List.getElem?_set_self hl⟩
    exact linked_frame mem _ l _ _ (fun y hy =>
      List.getElem?_set_ne (fun e => ha (by rw [e]; exact hy))) h1
  · intro y hy
    exact List.getElem?_set_ne (Ne.symm hy)

/-- The field `lru_prev` of the first object of a linked sequence is set. -/
theorem linked_set_prev_first (mem : List LRUObject) (l : List Nat) (b : Nat)
    (p p1 n : Option Nat) (h : Linked mem p (b :: l) n) (hb : b ∉ l) :
    ∃ mem1, setPrev mem b p1 = some mem1 ∧ Linked mem1 p1 (b :: l) n ∧
      mem1.length = mem.length ∧ ∀ y, y ≠ b → mem1[y]? = mem[y]? := by
  unfold Linked at h
  obtain ⟨h1, h2⟩ := h
  have hl : b < mem.length := (List.getElem?_eq_some_iff.1 h1).1
  refine ⟨mem.set b { lru_prev := p1, lru_next := headOr l n }, ?_, ?_, by simp, ?_⟩
  · unfold setPrev
    rw [h1]
  · unfold Linked
    refine ⟨List.getElem?_set_self hl, ?_⟩
    exact linked_frame mem _ l _ _ (fun y hy =>
      List.getElem?_set_ne (fun e => hb (by rw [e]; exact hy))) h2
  · intro y hy
    exact List.getElem?_set_ne (Ne.symm hy)

theorem length_le_of_nodup_lt (l : List Nat) (n : Nat) (hn : l.Nodup) (hl : ∀ p ∈ l, p < n) :
    l.length ≤ n := by
  have h1 : l ⊆ List.range n := fun p hp => List.mem_range.2 (hl p hp)
  have h2 := (List.subperm_of_subset hn h1).length_le
  rwa [List.length_range] at h2

theorem isLru_length_le (l : LRUList) (mem : List LRUObject) (seq : List Nat)
    (h : IsLru l mem seq) : seq.length ≤ mem.length :=
  length_le_of_nodup_lt seq _ h.2.2.2.1 (linked_lt mem seq _ _ h.2.2.2.2)

end LRUList
end Containers

namespace Containers
namespace LRUList

theorem headOr_of_ne_nil (l : List Nat) (n n1 : Option Nat) (h : l ≠ []) :
    headOr l n = headOr l n1 := by
  cases l with
  | nil => exact absurd rfl h
  | cons _ _ => rfl

theorem lastOr_of_ne_nil : ∀ (l : List Nat) (p p1 : Option Nat), l ≠ [] →
    lastOr l p = lastOr l p1
  | [], _, _, h => absurd rfl h
  | _ :: _, _, _, _ => rfl

theorem lastOr_concat (l : List Nat) (a : Nat) (p : Option Nat) :
    lastOr (l ++ [a]) p = some a := by
  rw [lastOr_append]
  rfl

/-- `Link` of an object that is not in the list. -/
theorem link_spec (l : LRUList) (mem : List LRUObject) (seq : List Nat) (x : Nat)
    (hm : mem.length < 2 ^ 64) (h : IsLru l mem seq) (hx : x ∉ seq) (hxl : x < mem.length) :
    ∃ l1 mem1, Link l mem x = some (l1, mem1) ∧ IsLru l1 mem1 (x :: seq) ∧
      mem1.length = mem.length := by
  obtain ⟨h1, h2, h3, h4, h5⟩ := h
  have hlen : (x :: seq).length ≤ mem.length :=
    length_le_of_nodup_lt _ _ (List.nodup_cons.2 ⟨hx, h4⟩) (by
      intro p hp
      rcases List.mem_cons.1 hp with rfl | hp
      · exact hxl
      · exact linked_lt mem seq _ _ h5 p hp)
  simp only [List.length_cons] at hlen
  have hnum : (l.number_objects_ + 1) % 2 ^ 64 = seq.length + 1 := by
    rw [h3]
    exact Nat.mod_eq_of_lt (by omega)
  obtain ⟨ox, hox⟩ : ∃ ox, mem[x]? = some ox := ⟨_, List.getElem?_eq_getElem hxl⟩
  cases seq with
  | nil =>
    simp only [List.head?_nil, List.getLast?_nil] at h1 h2
    refine ⟨{ head_ := some x, tail_ := some x,
              number_objects_ := (l.number_objects_ + 1) % 2 ^ 64 },
      (mem.set x { ox with lru_next := none }).set x { lru_prev := none, lru_next := none },
      ?_, ⟨rfl, rfl, hnum, List.nodup_cons.2 ⟨hx, h4⟩, ?_⟩, by simp⟩
    · unfold Link
      rw [h1]
      simp only
      rw [if_pos h2]
      unfold setNext
      rw [hox]
      simp only
      unfold setPrev
      rw [List.getElem?_set_self hxl]
    · rw [linked_single]
      exact List.getElem?_set_self (by simp; exact hxl)
  | cons hd rest =>
    simp only [List.head?_cons] at h1
    have hxh : x ≠ hd := fun e => hx (by rw [e]; exact List.mem_cons_self _ _)
    have hmem2 : ∀ y, y ≠ x →
        ((mem.set x { ox with lru_prev := none }).set x
          { lru_prev := none, lru_next := some hd })[y]? = mem[y]? := by
      intro y hy
      rw [List.getElem?_set_ne (Ne.symm hy), List.getElem?_set_ne (Ne.symm hy)]
    have hl2 : Linked ((mem.set x { ox with lru_prev := none }).set x
        { lru_prev := none, lru_next := some hd }) none (hd :: rest) none :=
      linked_frame mem _ _ _ _ (fun y hy => hmem2 y (fun e => hx (by rw [← e]; exact hy))) h5
    obtain ⟨mem3, e3, l3, len3, f3⟩ := linked_set_prev_first _ rest hd none (some x) none hl2
      (List.nodup_cons.1 h4).1
    refine ⟨{ l with head_ := some x, number_objects_ := (l.number_objects_ + 1) % 2 ^ 64 },
      mem3, ?_, ⟨rfl, ?_, hnum, List.nodup_cons.2 ⟨hx, h4⟩, ?_⟩, ?_⟩
    · unfold Link
      rw [h1]
      simp only
      unfold setPrev at e3 ⊢
      rw [hox]
      simp only
      unfold setNext
      rw [List.getElem?_set_self hxl]
      simp only
      rw [e3]
    · simp only
      rw [h2, List.getLast?_cons_cons]
    · rw [linked_cons]
      refine ⟨?_, l3⟩
      rw [f3 x hxh, List.getElem?_set_self (by simp; exact hxl)]
      rfl
    · rw [len3]
      simp

/-- `Unlink` of an object of the list. -/
theorem unlink_spec (l : LRUList) (mem : List LRUObject) (seq : List Nat) (x : Nat)
    (h : IsLru l mem seq) (hx : x ∈ seq) :
    ∃ l1 mem1, Unlink l mem x = some (l1, mem1) ∧ IsLru l1 mem1 (seq.erase x) ∧
      mem1.length = mem.length := by
  obtain ⟨h1, h2, h3, h4, h5⟩ := h
  rw [← headOr_none] at h1
  rw [← lastOr_none] at h2
  obtain ⟨l1, l2, rfl⟩ := List.append_of_mem hx
  have hx1 : x ∉ l1 := fun hm => (List.nodup_append.1 h4).2.2 hm (List.mem_cons_self _ _)
  have hx2 : x ∉ l2 := (List.nodup_cons.1 (List.nodup_append.1 h4).2.1).1
  have hnd1 : l1.Nodup := (List.nodup_append.1 h4).1
  have hnd2 : l2.Nodup := (List.nodup_cons.1 (List.nodup_append.1 h4).2.1).2
  have hdis : ∀ y, y ∈ l1 → y ∉ l2 := fun y hy1 hy2 =>
    (List.nodup_append.1 h4).2.2 hy1 (List.mem_cons_of_mem _ hy2)
  have herase : (l1 ++ x :: l2).erase x = l1 ++ l2 := by
    rw [List.erase_append_right _ hx1, List.erase_cons_head]
  have hnd : (l1 ++ l2).Nodup := by
    rw [← herase]
    exact h4.erase x
  rw [herase]
  rw [linked_append, linked_cons] at h5
  obtain ⟨k1, k2, k3⟩ := h5
  simp only [headOr] at k1
  rw [headOr_append] at h1
  simp only [headOr] at h1
  rw [lastOr_append] at h2
  simp only [lastOr] at h2
  have hpos : l.number_objects_ ≠ 0 := by
    rw [h3]
    simp
  have hnum : l.number_objects_ - 1 = (l1 ++ l2).length := by
    rw [h3]
    simp
  rcases List.eq_nil_or_concat l1 with rfl | ⟨l1', a, e⟩
  · cases l2 with
    | nil =>
      refine ⟨{ head_ := none, tail_ := none, number_objects_ := l.number_objects_ - 1 }, mem,
        ?_, ⟨rfl, rfl, hnum, hnd, trivial⟩, rfl⟩
      unfold Unlink
      rw [if_neg hpos, k2]
      rfl
    | cons b l2' =>
      obtain ⟨mem1, e1, g1, len1, _⟩ := linked_set_prev_first mem l2' b (some x) none none k3
        (List.nodup_cons.1 hnd2).1
      refine ⟨{ l with head_ := some b, number_objects_ := l.number_objects_ - 1 }, mem1,
        ?_, ⟨rfl, ?_, hnum, hnd, g1⟩, len1⟩
      · unfold Unlink
        rw [if_neg hpos, k2]
        simp only [lastOr, headOr]
        rw [e1]
      · simp only [List.nil_append]
        rw [← lastOr_none]
        simp only [lastOr] at h2 ⊢
        rw [h2]
  · rw [List.concat_eq_append] at e
    subst e
    have hal2 : a ∉ l2 := hdis a (List.mem_append_right _ (List.mem_singleton.2 rfl))
    have hal1 : a ∉ l1' := by
      intro hm
      have := (List.nodup_append.1 hnd1).2.2 hm (List.mem_singleton.2 rfl)
      exact this
    rw [lastOr_concat] at k2
    have hhead : l.head_ = (l1' ++ [a] ++ l2).head? := by
      rw [h1, ← headOr_none, headOr_append]
      exact headOr_of_ne_nil _ _ _ (by simp)
    cases l2 with
    | nil =>
      obtain ⟨mem1, e1, g1, len1, _⟩ := linked_set_next_last mem l1' a none (some x) none k1 hal1
      refine ⟨{ l with tail_ := some a, number_objects_ := l.number_objects_ - 1 }, mem1,
        ?_, ⟨hhead, ?_, hnum, hnd, ?_⟩, len1⟩
      · unfold Unlink
        rw [if_neg hpos, k2]
        simp only [headOr]
        rw [e1]
      · simp
      · rw [List.append_nil]
        exact g1
    | cons b l2' =>
      have hb1 : b ∉ l1' ++ [a] := fun hm => hdis b hm (List.mem_cons_self _ _)
      obtain ⟨mem1, e1, g1, len1, f1⟩ := linked_set_next_last mem l1' a none (some x) (some b)
        k1 hal1
      have k3' : Linked mem1 (some x) (b :: l2') none :=
        linked_frame mem mem1 _ _ _ (fun y hy => f1 y (fun e => hal2 (by rw [← e]; exact hy))) k3
      obtain ⟨mem2, e2, g2, len2, f2⟩ := linked_set_prev_first mem1 l2' b (some x) (some a) none
        k3' (List.nodup_cons.1 hnd2).1
      refine ⟨{ l with number_objects_ := l.number_objects_ - 1 }, mem2,
        ?_, ⟨hhead, ?_, hnum, hnd, ?_⟩, by rw [len2, len1]⟩
      · unfold Unlink
        rw [if_neg hpos, k2]
        simp only [headOr]
        rw [e1]
        simp only
        rw [e2]
      · simp only
        rw [h2, ← lastOr_none, lastOr_append]
        exact lastOr_of_ne_nil _ _ _ (by simp)
      · rw [linked_append]
        simp only [headOr]
        rw [lastOr_concat]
        exact ⟨linked_frame mem1 mem2 _ _ _
          (fun y hy => f2 y (fun e => hb1 (by rw [← e]; exact hy))) g1, g2⟩

/-- `Update` of an object of the list. -/
theorem update_spec (l : LRUList) (mem : List LRUObject) (seq : List Nat) (x : Nat)
    (hm : mem.length < 2 ^ 64) (h : IsLru l mem seq) (hx : x ∈ seq) :
    ∃ l1 mem1, Update l mem x = some (l1, mem1) ∧ IsLru l1 mem1 (x :: seq.erase x) ∧
      mem1.length = mem.length := by
  have hxl : x < mem.length := linked_lt mem seq _ _ h.2.2.2.2 x hx
  obtain ⟨l1, mem1, e1, g1, len1⟩ := unlink_spec l mem seq x h hx
  have hx1 : x ∉ seq.erase x := by
    intro hm1
    exact ((h.2.2.2.1.mem_erase_iff).1 hm1).1 rfl
  obtain ⟨l2, mem2, e2, g2, len2⟩ := link_spec l1 mem1 (seq.erase x) x (by rw [len1]; exact hm)
    g1 hx1 (by rw [len1]; exact hxl)
  refine ⟨l2, mem2, ?_, g2, by rw [len2, len1]⟩
  unfold Update
  rw [e1]
  exact e2

theorem walkNext_linked (mem : List LRUObject) : ∀ (l : List Nat) (p : Option Nat) (fuel : Nat),
    Linked mem p l none → l.length < fuel → walkNext mem fuel (headOr l none) = some l
  | [], _, fuel, _, hf => by
    cases fuel with
    | zero => simp at hf
    | succ f => rfl
  | x :: rest, p, fuel, h, hf => by
    cases fuel with
    | zero => simp at hf
    | succ f =>
      rw [linked_cons] at h
      simp only [headOr]
      unfold walkNext
      rw [h.1]
      simp only
      rw [walkNext_linked mem rest (some x) f h.2 (by simp at hf; omega)]

theorem walkPrev_linked (mem : List LRUObject) : ∀ (l : List Nat) (n : Option Nat) (fuel : Nat),
    Linked mem none l n → l.length < fuel → walkPrev mem fuel (lastOr l none) = some l.reverse := by
  intro l
  induction l using List.reverseRecOn with
  | nil =>
    intro n fuel _ hf
    cases fuel with
    | zero => simp at hf
    | succ f => rfl
  | append_singleton l' a ih =>
    intro n fuel h hf
    cases fuel with
    | zero => simp at hf
    | succ f =>
      rw [linked_append, linked_single] at h
      simp only [headOr] at h
      rw [lastOr_concat]
      unfold walkPrev
      rw [h.2]
      simp only
      rw [ih (some a) f h.1 (by simp at hf; omega)]
      simp

end LRUList
end Containers

/-! ## Claim about the LRU list -/

namespace Containers
namespace LRUList

/-- C17: an LRU list that holds the objects of `seq`, from `head()` to `tail()`,
in a memory of fewer than `2^64` objects.  `GetNumberObjects()` is the length of
`seq`, the walk from `head()` along `lru_next` gives `seq`, the walk from
`tail()` along `lru_prev` gives the reverse of `seq`, `head()->lru_prev` and
`tail()->lru_next` are NULL.  `Link(x)` of an object that is not in the list
gives the list of `x :: seq`; `Unlink(x)` of an object of the list gives the
list of `seq` without `x`; `Update(x)` of an object of the list gives the list
of `x` followed by `seq` without `x`.  The list that the constructor makes
holds no object. -/
theorem C17_lru_list (l : LRUList) (mem : List LRUObject) (seq : List Nat)
    (hm : mem.length < 2 ^ 64) (h : IsLru l mem seq) :
    IsLru LRUList.new mem [] ∧
    (l.GetNumberObjects = seq.length ∧ l.toList mem = some seq ∧
      l.toListBackward mem = some seq.reverse ∧
      (∀ hd, l.head = some hd → ∃ o, mem[hd]? = some o ∧ o.lru_prev = none) ∧
      (∀ tl, l.tail = some tl → ∃ o, mem[tl]? = some o ∧ o.lru_next = none)) ∧
    (∀ x, x ∉ seq → x < mem.length →
      ∃ l1 mem1, Link l mem x = some (l1, mem1) ∧ IsLru l1 mem1 (x :: seq) ∧
        mem1.length = mem.length) ∧
    (∀ x, x ∈ seq →
      ∃ l1 mem1, Unlink l mem x = some (l1, mem1) ∧ IsLru l1 mem1 (seq.erase x) ∧
        mem1.length = mem.length) ∧
    (∀ x, x ∈ seq →
      ∃ l1 mem1, Update l mem x = some (l1, mem1) ∧ IsLru l1 mem1 (x :: seq.erase x) ∧
        mem1.length = mem.length) := by
  have hlen := isLru_length_le l mem seq h
  refine ⟨⟨rfl, rfl, rfl, List.nodup_nil, trivial⟩, ?_,
    fun x hx hxl => link_spec l mem seq x hm h hx hxl,
    fun x hx => unlink_spec l mem seq x h hx,
    fun x hx => update_spec l mem seq x hm h hx⟩
  obtain ⟨h1, h2, h3, h4, h5⟩ := h
  refine ⟨h3, ?_, ?_, ?_, ?_⟩
  · unfold toList
    rw [h1, ← headOr_none]
    exact walkNext_linked mem seq none _ h5 (by omega)
  · unfold toListBackward
    rw [h2, ← lastOr_none]
    exact walkPrev_linked mem seq none _ h5 (by omega)
  · intro hd hhd
    unfold head at hhd
    rw [h1] at hhd
    cases seq with
    | nil => simp at hhd
    | cons y rest =>
      simp only [List.head?_cons, Option.some.injEq] at hhd
      subst hhd
      rw [linked_cons] at h5
      exact ⟨_, h5.1, rfl⟩
  · intro tl htl
    unfold tail at htl
    rw [h2] at htl
    rcases List.eq_nil_or_concat seq with rfl | ⟨l', a, e⟩
    · simp at htl
    · rw [List.concat_eq_append] at e
      subst e
      rw [← lastOr_none, lastOr_concat] at htl
      simp only [Option.some.injEq] at htl
      subst htl
      rw [linked_append, linked_single] at h5
      exact ⟨_, h5.2, rfl⟩

/-- C17 applies to the list of the two objects 1 and 0 of a memory of three
objects: `Update(0)` gives the list of 0 and 1. -/
theorem C17_lru_list_witness :
    ∃ l1 mem1, Update { head_ := some 1, tail_ := some 0, number_objects_ := 2 }
        [{ lru_prev := some 1, lru_next := none }, { lru_prev := none, lru_next := some 0 },
         { lru_prev := none, lru_next := none }] 0 = some (l1, mem1) ∧
      IsLru l1 mem1 [0, 1] := by
  have h : IsLru { head_ := some 1, tail_ := some 0, number_objects_ := 2 }
      [{ lru_prev := some 1, lru_next := none }, { lru_prev := none, lru_next := some 0 },
       { lru_prev := none, lru_next := none }] [1, 0] :=
    ⟨rfl, rfl, rfl, by decide, ⟨rfl, rfl, trivial⟩⟩
  obtain ⟨_, _, _, _, h5⟩ := C17_lru_list _ _ _ (by decide) h
  obtain ⟨l1, mem1, e, g, _⟩ := h5 0 (by decide)
  exact ⟨l1, mem1, e, g⟩

end LRUList
end Containers

/-! ## avl.cc: the tree after avl_insert and avl_delete, FindNode -/

namespace AVLNode

theorem toList_plug (p : AVLPlace) (child : AVLNode) :
    toList (p.plug child) =
      (if p.goes_left then [] else toList p.other ++ [(p.address, p.len, p.embedding_object)]) ++
        toList child ++
      (if p.goes_left then (p.address, p.len, p.embedding_object) :: toList p.other else []) := by
  unfold AVLPlace.plug
  cases p.goes_left <;> simp [toList]

theorem toList_plugAll : ∀ (stack : List AVLPlace) (child : AVLNode),
    toList (plugAll stack child) = beforeAll stack ++ toList child ++ afterAll stack
  | [], child => by simp [plugAll, beforeAll, afterAll]
  | p :: rest, child => by
    unfold plugAll
    rw [toList_plugAll rest (p.plug child), toList_plug]
    simp only [beforeAll, afterAll, List.append_assoc]

/-- A turn of the loop of `avl_rebalance` keeps the nodes and their order. -/
theorem rebalanceNode_toList (t nd : AVLNode) (brk : Bool)
    (h : rebalanceNode t = some (nd, brk)) : toList nd = toList t := by
  cases t with
  | empty => simp [rebalanceNode] at h
  | node l r hh a len o =>
    unfold rebalanceNode at h
    simp only at h
    split at h
    · cases l with
      | empty => simp at h
      | node ll lr lh la llen lo =>
        simp only at h
        split at h
        · simp only [Option.some.injEq, Prod.mk.injEq] at h
          rw [← h.1]
          simp [toList]
        · cases lr with
          | empty => simp at h
          | node lrl lrr lrh lra lrlen lro =>
            simp only [Option.some.injEq, Prod.mk.injEq] at h
            rw [← h.1]
            simp [toList]
    · split at h
      · cases r with
        | empty => simp at h
        | node rl rr rh ra rlen ro =>
          simp only at h
          split at h
          · simp only [Option.some.injEq, Prod.mk.injEq] at h
            rw [← h.1]
            simp [toList]
          · cases rl with
            | empty => simp at h
            | node rll rlr rlh rla rllen rlo =>
              simp only [Option.some.injEq, Prod.mk.injEq] at h
              rw [← h.1]
              simp [toList]
      · split_ifs at h <;>
        · simp only [Option.some.injEq, Prod.mk.injEq] at h
          rw [← h.1]
          try rfl

/-- `avl_rebalance` keeps the nodes and their order. -/
theorem avl_rebalance_toList : ∀ (stack : List AVLPlace) (child t : AVLNode),
    avl_rebalance stack child = some t → toList t = toList (plugAll stack child)
  | [], child, t, h => by
    simp only [avl_rebalance, Option.some.injEq] at h
    rw [← h]
    rfl
  | p :: rest, child, t, h => by
    unfold avl_rebalance at h
    cases hr : rebalanceNode (p.plug child) with
    | none =>
      rw [hr] at h
      exact absurd h (by simp)
    | some r =>
      obtain ⟨nd, brk⟩ := r
      rw [hr] at h
      have e := rebalanceNode_toList _ _ _ hr
      cases brk with
      | true =>
        simp only [Option.some.injEq] at h
        rw [← h, toList_plugAll, e]
        unfold plugAll
        rw [toList_plugAll]
      | false =>
        simp only at h
        rw [avl_rebalance_toList rest nd t h, toList_plugAll, e]
        unfold plugAll
        rw [toList_plugAll]

end AVLNode

namespace AVLNode

theorem heightof_eq_depth (t : AVLNode) (h : IsAvl t) : heightof t = depth t := by
  cases t with
  | empty => rfl
  | node l r hh a len o =>
    unfold IsAvl at h
    unfold heightof depth
    exact h.2.2.1

theorem isAvl_node (l r : AVLNode) (hh a len o : Nat) :
    IsAvl (node l r hh a len o) ↔
      IsAvl l ∧ IsAvl r ∧ hh = max (depth l) (depth r) + 1 ∧
        depth l ≤ depth r + 1 ∧ depth r ≤ depth l + 1 := Iff.rfl

theorem depth_node (l r : AVLNode) (hh a len o : Nat) :
    depth (node l r hh a len o) = max (depth l) (depth r) + 1 := rfl

/-- A turn of the loop of `avl_rebalance` on a node whose children are AVL trees
with depths that differ by at most 2. -/
theorem rebalanceNode_isAvl (l r : AVLNode) (hh a len o : Nat) (hl : IsAvl l) (hr : IsAvl r)
    (h1 : depth l ≤ depth r + 2) (h2 : depth r ≤ depth l + 2) :
    ∃ nd brk, rebalanceNode (node l r hh a len o) = some (nd, brk) ∧
      (brk = true → nd = node l r hh a len o ∧ IsAvl nd ∧ depth nd = hh) ∧
      (brk = false → IsAvl nd ∧
        ((depth l ≤ depth r + 1 ∧ depth r ≤ depth l + 1 ∧
            depth nd = max (depth l) (depth r) + 1) ∨
          ((depth l = depth r + 2 ∨ depth r = depth l + 2) ∧
            (depth nd = max (depth l) (depth r) ∨
              depth nd = max (depth l) (depth r) + 1)))) := by
  unfold rebalanceNode
  simp only
  rw [heightof_eq_depth l hl, heightof_eq_depth r hr]
  split
  · rename_i c1
    cases l with
    | empty =>
      simp only [depth] at c1
      omega
    | node ll lr lh la llen lo =>
      rw [isAvl_node] at hl
      obtain ⟨a1, a2, a3, a4, a5⟩ := hl
      rw [depth_node] at c1 h1 h2
      simp only
      rw [heightof_eq_depth ll a1, heightof_eq_depth lr a2]
      split
      · rename_i c2
        refine ⟨_, false, rfl, fun hb => absurd hb (by simp), fun _ => ⟨?_, ?_⟩⟩
        · rw [isAvl_node, isAvl_node]
          simp only [depth_node]
          refine ⟨a1, ⟨a2, hr, ?_, ?_, ?_⟩, ?_, ?_, ?_⟩ <;> omega
        · simp only [depth_node]
          right
          omega
      · rename_i c2
        cases lr with
        | empty =>
          simp only [depth] at c2
          omega
        | node lrl lrr lrh lra lrlen lro =>
          rw [isAvl_node] at a2
          obtain ⟨b1, b2, b3, b4, b5⟩ := a2
          rw [depth_node] at c2 a3 a4 a5 c1 h1 h2
          refine ⟨_, false, rfl, fun hb => absurd hb (by simp), fun _ => ⟨?_, ?_⟩⟩
          · rw [isAvl_node, isAvl_node, isAvl_node]
            simp only [depth_node]
            refine ⟨⟨a1, b1, ?_, ?_, ?_⟩, ⟨b2, hr, ?_, ?_, ?_⟩, ?_, ?_, ?_⟩ <;> omega
          · simp only [depth_node]
            right
            omega
  · rename_i c1
    split
    · rename_i c3
      cases r with
      | empty =>
        simp only [depth] at c3
        omega
      | node rl rr rh ra rlen ro =>
        rw [isAvl_node] at hr
        obtain ⟨a1, a2, a3, a4, a5⟩ := hr
        rw [depth_node] at c3 c1 h1 h2
        simp only
        rw [heightof_eq_depth rl a1, heightof_eq_depth rr a2]
        split
        · rename_i c2
          refine ⟨_, false, rfl, fun hb => absurd hb (by simp), fun _ => ⟨?_, ?_⟩⟩
          · rw [isAvl_node, isAvl_node]
            simp only [depth_node]
            refine ⟨⟨hl, a1, ?_, ?_, ?_⟩, a2, ?_, ?_, ?_⟩ <;> omega
          · simp only [depth_node]
            right
            omega
        · rename_i c2
          cases rl with
          | empty =>
            simp only [depth] at c2
            omega
          | node rll rlr rlh rla rllen rlo =>
            rw [isAvl_node] at a1
            obtain ⟨b1, b2, b3, b4, b5⟩ := a1
            rw [depth_node] at c2 a3 a4 a5 c3 c1 h1 h2
            refine ⟨_, false, rfl, fun hb => absurd hb (by simp), fun _ => ⟨?_, ?_⟩⟩
            · rw [isAvl_node, isAvl_node, isAvl_node]
              simp only [depth_node]
              refine ⟨⟨hl, b1, ?_, ?_, ?_⟩, ⟨b2, a2, ?_, ?_, ?_⟩, ?_, ?_, ?_⟩ <;> omega
            · simp only [depth_node]
              right
              omega
    · rename_i c3
      have hm : (if depth l < depth r then depth r else depth l) = max (depth l) (depth r) := by
        split_ifs <;> omega
      rw [hm]
      split
      · rename_i c4
        refine ⟨_, true, rfl, fun _ => ⟨rfl, ?_, ?_⟩, fun hb => absurd hb (by simp)⟩
        · rw [isAvl_node]
          refine ⟨hl, hr, ?_, ?_, ?_⟩ <;> omega
        · rw [depth_node]
          omega
      · rename_i c4
        refine ⟨_, false, rfl, fun hb => absurd hb (by simp), fun _ => ⟨?_, ?_⟩⟩
        · rw [isAvl_node]
          refine ⟨hl, hr, ?_, ?_, ?_⟩ <;> omega
        · rw [depth_node]
          left
          omega

end AVLNode

namespace AVLNode

theorem pathOK_cons (p : AVLPlace) (rest : List AVLPlace) (h : Nat) :
    PathOK (p :: rest) h ↔
      IsAvl p.other ∧ h ≤ depth p.other + 1 ∧ depth p.other ≤ h + 1 ∧
        p.height = max h (depth p.other) + 1 ∧ PathOK rest p.height := Iff.rfl

theorem plug_isAvl (p : AVLPlace) (t : AVLNode) (ho : IsAvl p.other) (ht : IsAvl t)
    (h1 : depth t ≤ depth p.other + 1) (h2 : depth p.other ≤ depth t + 1)
    (h3 : p.height = max (depth t) (depth p.other) + 1) :
    IsAvl (p.plug t) ∧ depth (p.plug t) = p.height := by
  unfold AVLPlace.plug
  cases p.goes_left
  · simp only [Bool.false_eq_true, if_false]
    rw [isAvl_node, depth_node]
    refine ⟨⟨ho, ht, ?_, ?_, ?_⟩, ?_⟩ <;> omega
  · simp only [if_true]
    rw [isAvl_node, depth_node]
    refine ⟨⟨ht, ho, ?_, ?_, ?_⟩, ?_⟩ <;> omega

theorem depth_plug (p : AVLPlace) (t : AVLNode) :
    depth (p.plug t) = max (depth t) (depth p.other) + 1 := by
  unfold AVLPlace.plug
  cases p.goes_left
  · simp only [Bool.false_eq_true, if_false]
    rw [depth_node]
    omega
  · simp only [if_true]
    rw [depth_node]

theorem plug_eq_node (p : AVLPlace) (t : AVLNode) :
    ∃ l r, p.plug t = node l r p.height p.address p.len p.embedding_object ∧
      ((l = t ∧ r = p.other) ∨ (l = p.other ∧ r = t)) := by
  unfold AVLPlace.plug
  cases p.goes_left
  · exact ⟨_, _, rfl, Or.inr ⟨rfl, rfl⟩⟩
  · exact ⟨_, _, rfl, Or.inl ⟨rfl, rfl⟩⟩

/-- The path closes again around a subtree of the depth that it was made for. -/
theorem plugAll_isAvl : ∀ (stack : List AVLPlace) (t : AVLNode) (h : Nat),
    PathOK stack h → IsAvl t → depth t = h →
    IsAvl (plugAll stack t) ∧ depth (plugAll stack t) = pathHeight stack h
  | [], t, h, _, ht, hd => ⟨ht, hd⟩
  | p :: rest, t, h, hp, ht, hd => by
    rw [pathOK_cons] at hp
    obtain ⟨a1, a2, a3, a4, a5⟩ := hp
    obtain ⟨b1, b2⟩ := plug_isAvl p t a1 ht (by omega) (by omega) (by rw [hd]; exact a4)
    exact plugAll_isAvl rest (p.plug t) p.height a5 b1 b2

/-- `avl_rebalance` along a path of an AVL tree, when the subtree at the end of
the path is an AVL tree whose depth differs by at most one from the depth that
the path was made for: the call returns an AVL tree. -/
theorem avl_rebalance_isAvl : ∀ (stack : List AVLPlace) (t : AVLNode) (h : Nat),
    PathOK stack h → IsAvl t → depth t ≤ h + 1 → h ≤ depth t + 1 →
    ∃ t1, avl_rebalance stack t = some t1 ∧ IsAvl t1
  | [], t, _, _, ht, _, _ => ⟨t, rfl, ht⟩
  | p :: rest, t, h, hp, ht, h1, h2 => by
    rw [pathOK_cons] at hp
    obtain ⟨a1, a2, a3, a4, a5⟩ := hp
    obtain ⟨l, r, e, hlr⟩ := plug_eq_node p t
    have hl : IsAvl l := by rcases hlr with ⟨rfl, rfl⟩ | ⟨rfl, rfl⟩ <;> assumption
    have hr : IsAvl r := by rcases hlr with ⟨rfl, rfl⟩ | ⟨rfl, rfl⟩ <;> assumption
    have hd : (depth l = depth t ∧ depth r = depth p.other) ∨
        (depth l = depth p.other ∧ depth r = depth t) := by
      rcases hlr with ⟨rfl, rfl⟩ | ⟨rfl, rfl⟩
      · exact Or.inl ⟨rfl, rfl⟩
      · exact Or.inr ⟨rfl, rfl⟩
    obtain ⟨nd, brk, e1, e2, e3⟩ := rebalanceNode_isAvl l r p.height p.address p.len
      p.embedding_object hl hr (by omega) (by omega)
    unfold avl_rebalance
    rw [e, e1]
    cases brk with
    | true =>
      obtain ⟨_, g2, g3⟩ := e2 rfl
      exact ⟨_, rfl, (plugAll_isAvl rest nd p.height a5 g2 g3).1⟩
    | false =>
      obtain ⟨g1, g2⟩ := e3 rfl
      exact avl_rebalance_isAvl rest nd p.height a5 g1 (by omega) (by omega)

theorem pathOK_append : ∀ (s1 s2 : List AVLPlace) (h : Nat),
    PathOK (s1 ++ s2) h ↔ PathOK s1 h ∧ PathOK s2 (pathHeight s1 h)
  | [], s2, h => by simp [PathOK, pathHeight]
  | p :: rest, s2, h => by
    rw [List.cons_append, pathOK_cons, pathOK_cons, pathOK_append rest s2 p.height]
    simp only [pathHeight]
    tauto

/-- The first loop of `avl_insert` ends when the stack is large enough for the
depth of the tree. -/
theorem insertPath_isSome (key : Nat) : ∀ (t : AVLNode) (stack : List AVLPlace),
    stack.length + depth t ≤ MAXHEIGHT → ∃ frames, insertPath key t stack = some frames
  | empty, stack, _ => ⟨stack, rfl⟩
  | node l r hh a len o, stack, h => by
    rw [depth_node] at h
    unfold insertPath
    rw [if_neg (by omega)]
    split
    · exact insertPath_isSome key l _ (by simp only [List.length_cons]; omega)
    · exact insertPath_isSome key r _ (by simp only [List.length_cons]; omega)

theorem insertPath_pathOK (key : Nat) : ∀ (t : AVLNode) (stack frames : List AVLPlace),
    IsAvl t → PathOK stack (depth t) → insertPath key t stack = some frames → PathOK frames 0
  | empty, stack, frames, _, hp, h => by
    simp only [insertPath, Option.some.injEq] at h
    rw [← h]
    exact hp
  | node l r hh a len o, stack, frames, ht, hp, h => by
    rw [isAvl_node] at ht
    obtain ⟨a1, a2, a3, a4, a5⟩ := ht
    rw [depth_node] at hp
    unfold insertPath at h
    split at h
    · exact absurd h (by simp)
    · split at h
      · refine insertPath_pathOK key l _ frames a1 ?_ h
        rw [pathOK_cons]
        refine ⟨a2, a4, a5, a3, ?_⟩
        simp only
        rw [a3]
        exact hp
      · refine insertPath_pathOK key r _ frames a2 ?_ h
        rw [pathOK_cons]
        refine ⟨a1, a5, a4, by simp only; omega, ?_⟩
        simp only
        rw [a3]
        exact hp

theorem ordered_node (l r : AVLNode) (hh a len o : Nat) (h : Ordered (node l r hh a len o)) :
    Ordered l ∧ Ordered r ∧ (∀ e ∈ toList l, e.1 + e.2.1 ≤ a) ∧
      (∀ e ∈ toList r, a + len ≤ e.1) := by
  unfold Ordered at h ⊢
  simp only [toList] at h
  rw [List.pairwise_append, List.pairwise_cons] at h
  obtain ⟨h1, ⟨h2, h3⟩, h4⟩ := h
  exact ⟨h1, h3, fun e he => h4 e he _ (List.mem_cons_self _ _), h2⟩

/-- The places that the first loop of `avl_insert` leaves on the stack: the
nodes to the left of the place found have addresses up to `key`, those to the
right have larger addresses. -/
theorem insertPath_split (key : Nat) : ∀ (t : AVLNode) (stack frames : List AVLPlace),
    Ordered t → insertPath key t stack = some frames →
    ∃ L R, toList t = L ++ R ∧ beforeAll frames = beforeAll stack ++ L ∧
      afterAll frames = R ++ afterAll stack ∧ (∀ e ∈ L, e.1 ≤ key) ∧ (∀ e ∈ R, key < e.1)
  | empty, stack, frames, _, h => by
    simp only [insertPath, Option.some.injEq] at h
    rw [← h]
    exact ⟨[], [], rfl, by simp, by simp, by simp, by simp⟩
  | node l r hh a len o, stack, frames, ho, h => by
    obtain ⟨o1, o2, o3, o4⟩ := ordered_node l r hh a len o ho
    unfold insertPath at h
    split at h
    · exact absurd h (by simp)
    · split at h
      · rename_i hk
        obtain ⟨L, R, e1, e2, e3, e4, e5⟩ := insertPath_split key l _ frames o1 h
        refine ⟨L, R ++ (a, len, o) :: toList r, ?_, ?_, ?_, e4, ?_⟩
        · simp only [toList]
          rw [e1, List.append_assoc]
        · rw [e2]
          simp [beforeAll]
        · rw [e3]
          simp [afterAll]
        · intro e he
          rcases List.mem_append.1 he with he | he
          · exact e5 e he
          · rcases List.mem_cons.1 he with rfl | he
            · exact hk
            · have := o4 e he
              omega
      · rename_i hk
        obtain ⟨L, R, e1, e2, e3, e4, e5⟩ := insertPath_split key r _ frames o2 h
        refine ⟨toList l ++ (a, len, o) :: L, R, ?_, ?_, ?_, ?_, e5⟩
        · simp only [toList]
          rw [e1]
          simp
        · rw [e2]
          simp [beforeAll]
        · rw [e3]
          simp [afterAll]
        · intro e he
          rcases List.mem_append.1 he with he | he
          · have := o3 e he
            omega
          · rcases List.mem_cons.1 he with rfl | he
            · simp only
              omega
            · exact e4 e he

end AVLNode

namespace AVLNode

/-- `avl_insert` of a node whose range is not empty and meets no range of the tree, into an AVL
tree of depth at most `MAXHEIGHT`: the call returns an AVL tree with the new
node at its place in the order. -/
theorem avl_insert_spec (t : AVLNode) (a len o : Nat) (hA : IsAvl t) (hO : Ordered t)
    (hd : depth t ≤ MAXHEIGHT) (hlen : 1 ≤ len)
    (hdis : ∀ e ∈ toList t, e.1 + e.2.1 ≤ a ∨ a + len ≤ e.1) :
    ∃ t1 L R, avl_insert a len o t = some t1 ∧ IsAvl t1 ∧ Ordered t1 ∧
      toList t = L ++ R ∧ toList t1 = L ++ (a, len, o) :: R := by
  obtain ⟨frames, e1⟩ := insertPath_isSome a t [] (by simpa using hd)
  have hp := insertPath_pathOK a t [] frames hA trivial e1
  obtain ⟨L, R, s1, s2, s3, s4, s5⟩ := insertPath_split a t [] frames hO e1
  simp only [beforeAll, afterAll, List.nil_append, List.append_nil] at s2 s3
  have hleaf : IsAvl (node empty empty 1 a len o) := by
    rw [isAvl_node]
    exact ⟨trivial, trivial, by simp [depth], by simp [depth], by simp [depth]⟩
  obtain ⟨t1, e2, g1⟩ := avl_rebalance_isAvl frames (node empty empty 1 a len o) 0 hp hleaf
    (by simp [depth]) (by simp)
  have hl : toList t1 = L ++ (a, len, o) :: R := by
    rw [avl_rebalance_toList frames _ t1 e2, toList_plugAll, s2, s3]
    simp [toList]
  refine ⟨t1, L, R, ?_, g1, ?_, s1, hl⟩
  · unfold avl_insert
    rw [e1]
    exact e2
  · unfold Ordered at hO ⊢
    rw [hl]
    rw [s1] at hO hdis
    rw [List.pairwise_append] at hO ⊢
    obtain ⟨p1, p2, p3⟩ := hO
    refine ⟨p1, List.pairwise_cons.2 ⟨?_, p2⟩, ?_⟩
    · intro e he
      have h1 := s5 e he
      rcases hdis e (List.mem_append_right _ he) with h2 | h2
      · omega
      · exact h2
    · intro e he e' he'
      rcases List.mem_cons.1 he' with rfl | he'
      · have h1 := s4 e he
        rcases hdis e (List.mem_append_left _ he) with h2 | h2
        · exact h2
        · simp only at h2 ⊢
          omega
      · exact p3 e he e' he'

/-- `FindNode` on an ordered tree: the first node, from left to right, whose
range holds `key`. -/
theorem findNode_eq_find? (key : Nat) : ∀ (t : AVLNode), Ordered t →
    (∀ e ∈ toList t, e.1 + e.2.1 < 2 ^ 64) →
    findNode t key = (toList t).find? (fun e => decide (e.1 ≤ key ∧ key < e.1 + e.2.1))
  | empty, _, _ => rfl
  | node l r hh a len o, ho, hb => by
    obtain ⟨o1, o2, o3, o4⟩ := ordered_node l r hh a len o ho
    have hb1 : ∀ e ∈ toList l, e.1 + e.2.1 < 2 ^ 64 := fun e he =>
      hb e (by simp only [toList]; exact List.mem_append_left _ he)
    have hb2 : ∀ e ∈ toList r, e.1 + e.2.1 < 2 ^ 64 := fun e he =>
      hb e (by simp only [toList]; exact List.mem_append_right _ (List.mem_cons_of_mem _ he))
    have hb3 : a + len < 2 ^ 64 :=
      hb (a, len, o) (by simp only [toList]; exact List.mem_append_right _ (List.mem_cons_self _ _))
    unfold findNode
    simp only [toList]
    rw [Nat.mod_eq_of_lt hb3, List.find?_append, List.find?_cons]
    split
    · rename_i hk
      rw [findNode_eq_find? key l o1 hb1]
      have h1 : decide (a ≤ key ∧ key < a + len) = false := by
        simp only [decide_eq_false_iff_not]
        omega
      have h2 : (toList r).find? (fun e => decide (e.1 ≤ key ∧ key < e.1 + e.2.1)) = none := by
        apply List.find?_eq_none.2
        intro e he
        have := o4 e he
        simp only [decide_eq_true_eq]
        omega
      simp only [h1, h2]
      simp
    · rename_i hk
      have h0 : (toList l).find? (fun e => decide (e.1 ≤ key ∧ key < e.1 + e.2.1)) = none := by
        apply List.find?_eq_none.2
        intro e he
        have := o3 e he
        simp only [decide_eq_true_eq]
        omega
      split
      · rename_i hk2
        rw [findNode_eq_find? key r o2 hb2]
        have h1 : decide (a ≤ key ∧ key < a + len) = false := by
          simp only [decide_eq_false_iff_not]
          omega
        simp only [h0, h1]
        simp
      · rename_i hk2
        have h1 : decide (a ≤ key ∧ key < a + len) = true := by
          simp only [decide_eq_true_eq]
          omega
        simp only [h0, h1]
        simp

/-- `FindNode` on an ordered tree returns the node whose range holds `key`, and
NULL when there is no such node. -/
theorem findNode_spec (t : AVLNode) (key : Nat) (ho : Ordered t)
    (hb : ∀ e ∈ toList t, e.1 + e.2.1 < 2 ^ 64) :
    (∀ e, findNode t key = some e ↔ e ∈ toList t ∧ e.1 ≤ key ∧ key < e.1 + e.2.1) ∧
    (findNode t key = none ↔ ∀ e ∈ toList t, ¬ (e.1 ≤ key ∧ key < e.1 + e.2.1)) := by
  rw [findNode_eq_find? key t ho hb]
  constructor
  · intro e
    constructor
    · intro h
      have h1 := List.find?_some h
      simp only [decide_eq_true_eq] at h1
      exact ⟨List.mem_of_find?_eq_some h, h1⟩
    · rintro ⟨h1, h2⟩
      cases hf : (toList t).find? (fun e => decide (e.1 ≤ key ∧ key < e.1 + e.2.1)) with
      | none =>
        have := List.find?_eq_none.1 hf e h1
        simp only [decide_eq_true_eq] at this
        exact absurd h2 this
      | some e' =>
        have g1 := List.find?_some hf
        simp only [decide_eq_true_eq] at g1
        have g2 := List.mem_of_find?_eq_some hf
        congr 1
        by_contra hne
        unfold Ordered at ho
        have hsym : ∀ x y : Nat × Nat × Nat, x ∈ toList t → y ∈ toList t → x ≠ y →
            x.1 + x.2.1 ≤ y.1 ∨ y.1 + y.2.1 ≤ x.1 := by
          intro x y hx hy hxy
          have hall : ∀ ⦃x : Nat × Nat × Nat⦄, x ∈ toList t → ∀ ⦃y : Nat × Nat × Nat⦄,
              y ∈ toList t → (x ≠ y → x.1 + x.2.1 ≤ y.1 ∨ y.1 + y.2.1 ≤ x.1) :=
            List.Pairwise.forall_of_forall_of_flip
              (fun x _ hxx => absurd rfl hxx)
              (ho.imp (fun hab _ => Or.inl hab))
              (ho.imp (fun hab _ => Or.inr hab))
          exact hall hx hy hxy
        rcases hsym e' e g2 h1 hne with h3 | h3 <;> omega
  · simp only [List.find?_eq_none, decide_eq_true_eq]

/-- An AVL tree of depth `d` has at least `2^(d/2) - 1` nodes. -/
theorem isAvl_size : ∀ (t : AVLNode), IsAvl t → 2 ^ (depth t / 2) ≤ (toList t).length + 1
  | empty, _ => by simp [depth, toList]
  | node l r hh a len o, h => by
    rw [isAvl_node] at h
    obtain ⟨h1, h2, _, h4, h5⟩ := h
    have i1 := isAvl_size l h1
    have i2 := isAvl_size r h2
    rw [depth_node]
    simp only [toList, List.length_append, List.length_cons]
    rcases Nat.lt_or_ge (max (depth l) (depth r)) 1 with hm | hm
    · have : (max (depth l) (depth r) + 1) / 2 = 0 := by omega
      rw [this]
      simp
    · have e : (max (depth l) (depth r) + 1) / 2 = (max (depth l) (depth r) - 1) / 2 + 1 := by
        omega
      rw [e, Nat.pow_succ]
      have m1 : 2 ^ ((max (depth l) (depth r) - 1) / 2) ≤ 2 ^ (depth l / 2) :=
        Nat.pow_le_pow_right (by decide) (by omega)
      have m2 : 2 ^ ((max (depth l) (depth r) - 1) / 2) ≤ 2 ^ (depth r / 2) :=
        Nat.pow_le_pow_right (by decide) (by omega)
      omega

/-- An AVL tree of at most 255 nodes has depth at most 17. -/
theorem isAvl_depth_le (t : AVLNode) (h : IsAvl t) (hs : (toList t).length ≤ 255) :
    depth t ≤ 17 := by
  have h1 := isAvl_size t h
  by_contra hc
  have h2 : 2 ^ 9 ≤ 2 ^ (depth t / 2) := Nat.pow_le_pow_right (by decide) (by omega)
  have h3 : (2 : Nat) ^ 9 = 512 := by decide
  omega

end AVLNode

namespace AVLNode

theorem plugAll_append : ∀ (s1 s2 : List AVLPlace) (t : AVLNode),
    plugAll (s1 ++ s2) t = plugAll s2 (plugAll s1 t)
  | [], _, _ => rfl
  | p :: rest, s2, t => by
    show plugAll (rest ++ s2) (p.plug t) = plugAll s2 (plugAll rest (p.plug t))
    exact plugAll_append rest s2 (p.plug t)

/-- The first loop of `avl_delete` for a node of the tree: it ends at that
node, with the path to it in `stack`. -/
theorem deletePath_spec (key obj : Nat) : ∀ (t : AVLNode) (stack : List AVLPlace),
    IsAvl t → Ordered t → (∀ e ∈ toList t, 1 ≤ e.2.1) → PathOK stack (depth t) →
    stack.length + depth t ≤ MAXHEIGHT → (∃ len, (key, len, obj) ∈ toList t) →
    ∃ l r hh len stack1, deletePath key obj t stack = some (some (l, r, hh, stack1)) ∧
      IsAvl (node l r hh key len obj) ∧ PathOK stack1 (depth (node l r hh key len obj)) ∧
      stack1.length + depth (node l r hh key len obj) ≤ MAXHEIGHT ∧
      plugAll stack1 (node l r hh key len obj) = plugAll stack t
  | empty, _, _, _, _, _, _, hm => by
    obtain ⟨len, hm⟩ := hm
    simp [toList] at hm
  | node l r hh a len o, stack, ht, ho, hpos, hp, hd, hm => by
    obtain ⟨o1, o2, o3, o4⟩ := ordered_node l r hh a len o ho
    have ht0 := ht
    rw [isAvl_node] at ht
    obtain ⟨a1, a2, a3, a4, a5⟩ := ht
    have hd0 := hd
    have hp0 := hp
    rw [depth_node] at hd hp
    obtain ⟨klen, hm⟩ := hm
    simp only [toList, List.mem_append, List.mem_cons] at hm
    have hpl : ∀ e ∈ toList l, 1 ≤ e.2.1 := fun e he =>
      hpos e (by simp only [toList]; exact List.mem_append_left _ he)
    have hpr : ∀ e ∈ toList r, 1 ≤ e.2.1 := fun e he =>
      hpos e (by simp only [toList]; exact List.mem_append_right _ (List.mem_cons_of_mem _ he))
    have hpn : 1 ≤ len :=
      hpos (a, len, o) (by simp only [toList]; exact List.mem_append_right _ (List.mem_cons_self _ _))
    unfold deletePath
    rw [if_neg (by omega)]
    by_cases hk : key = a
    · rw [if_pos hk]
      have hmid : (key, klen, obj) = (a, len, o) := by
        rcases hm with hm | hm | hm
        · have h1 := o3 _ hm
          have h2 := hpl _ hm
          simp only at h1 h2
          omega
        · exact hm
        · have h1 := o4 _ hm
          simp only at h1
          omega
      simp only [Prod.mk.injEq] at hmid
      obtain ⟨m1, m2, m3⟩ := hmid
      subst m1 m2 m3
      rw [if_neg (by simp)]
      exact ⟨l, r, hh, klen, stack, rfl, ht0, hp0, hd0, rfl⟩
    · rw [if_neg hk]
      by_cases hlt : key < a
      · rw [if_pos hlt]
        have hml : (key, klen, obj) ∈ toList l := by
          rcases hm with hm | hm | hm
          · exact hm
          · simp only [Prod.mk.injEq] at hm
            exact absurd hm.1 hk
          · have h1 := o4 _ hm
            simp only at h1
            omega
        exact deletePath_spec key obj l _ a1 o1 hpl
          (by
            rw [pathOK_cons]
            refine ⟨a2, a4, a5, a3, ?_⟩
            simp only
            rw [a3]
            exact hp)
          (by simp only [List.length_cons]; omega) ⟨klen, hml⟩
      · rw [if_neg hlt]
        have hmr : (key, klen, obj) ∈ toList r := by
          rcases hm with hm | hm | hm
          · have h1 := o3 _ hm
            have h2 := hpl _ hm
            simp only at h1 h2
            omega
          · simp only [Prod.mk.injEq] at hm
            exact absurd hm.1 hk
          · exact hm
        exact deletePath_spec key obj r _ a2 o2 hpr
          (by
            rw [pathOK_cons]
            refine ⟨a1, a5, a4, by simp only; omega, ?_⟩
            simp only
            rw [a3]
            exact hp)
          (by simp only [List.length_cons]; omega) ⟨klen, hmr⟩

/-- The second loop of `avl_delete`: it ends at the last node of the subtree,
with the path to it in `pushed`. -/
theorem maxPath_spec : ∀ (t : AVLNode) (count : Nat) (pushed : List AVLPlace),
    IsAvl t → 1 ≤ depth t → PathOK pushed (depth t) → count + depth t ≤ MAXHEIGHT →
    ∃ m child hm pushed1, maxPath t count pushed = some (m, child, pushed1) ∧
      IsAvl (node child empty hm m.1 m.2.1 m.2.2) ∧
      PathOK pushed1 (depth (node child empty hm m.1 m.2.1 m.2.2)) ∧
      pathHeight pushed1 (depth (node child empty hm m.1 m.2.1 m.2.2)) =
        pathHeight pushed (depth t) ∧
      plugAll pushed1 (node child empty hm m.1 m.2.1 m.2.2) = plugAll pushed t ∧
      afterAll pushed1 = afterAll pushed
  | empty, _, _, _, h1, _, _ => by simp [depth] at h1
  | node l r hh a len o, count, pushed, ht, _, hp, hd => by
    have ht0 := ht
    rw [isAvl_node] at ht
    obtain ⟨a1, a2, a3, a4, a5⟩ := ht
    cases r with
    | empty =>
      exact ⟨(a, len, o), l, hh, pushed, rfl, ht0, hp, rfl, rfl, rfl⟩
    | node rl rr rh ra rlen ro =>
      have hdr : 1 ≤ depth (node rl rr rh ra rlen ro) := by rw [depth_node]; omega
      rw [depth_node] at hd hp
      unfold maxPath
      simp only
      rw [if_neg (by omega)]
      obtain ⟨m, child, hm, pushed1, e1, e2, e3, e4, e5, e6⟩ :=
        maxPath_spec (node rl rr rh ra rlen ro) (count + 1)
          ({ goes_left := false, other := l, height := hh, address := a, len := len,
             embedding_object := o } :: pushed) a2 hdr
          (by
            rw [pathOK_cons]
            refine ⟨a1, a5, a4, by simp only; omega, ?_⟩
            simp only
            rw [a3]
            exact hp)
          (by omega)
      refine ⟨m, child, hm, pushed1, e1, e2, e3, ?_, ?_, ?_⟩
      · rw [e4]
        simp only [pathHeight]
        rw [a3]
        rfl
      · rw [e5]
        rfl
      · rw [e6]
        simp [afterAll]

end AVLNode

namespace AVLNode

/-- `avl_delete` of a node of an AVL tree of depth at most `MAXHEIGHT` whose
ranges are not empty: the call returns an AVL tree with the other nodes in
their order. -/
theorem avl_delete_spec (t : AVLNode) (a o : Nat) (hA : IsAvl t) (hO : Ordered t)
    (hpos : ∀ e ∈ toList t, 1 ≤ e.2.1) (hd : depth t ≤ MAXHEIGHT)
    (hm : ∃ len, (a, len, o) ∈ toList t) :
    ∃ t1 L R len, avl_delete a o t = some t1 ∧ IsAvl t1 ∧ Ordered t1 ∧
      toList t = L ++ (a, len, o) :: R ∧ toList t1 = L ++ R := by
  obtain ⟨l, r, hh, len, stack1, e1, g1, g2, g3, g4⟩ :=
    deletePath_spec a o t [] hA hO hpos trivial (by simpa using hd) hm
  have g4 : plugAll stack1 (node l r hh a len o) = t := g4
  have hl : toList t = beforeAll stack1 ++ (toList l ++ (a, len, o) :: toList r) ++
      afterAll stack1 := by
    rw [← g4, toList_plugAll]
    rfl
  rw [isAvl_node] at g1
  obtain ⟨b1, b2, b3, b4, b5⟩ := g1
  rw [depth_node] at g2 g3
  have hord : ∀ (t1 : AVLNode) (L R : List (Nat × Nat × Nat)),
      toList t = L ++ (a, len, o) :: R → toList t1 = L ++ R → Ordered t1 := by
    intro t1 L R h1 h2
    unfold Ordered at hO ⊢
    rw [h2]
    rw [h1] at hO
    exact hO.sublist
      (List.Sublist.append (List.Sublist.refl L) (List.sublist_cons_self _ R))
  unfold avl_delete
  rw [e1]
  simp only
  cases l with
  | empty =>
    simp only
    obtain ⟨t1, e2, i1⟩ := avl_rebalance_isAvl stack1 r _ g2 b2 (by omega)
      (by simp only [depth]; omega)
    have hl1 : toList t1 = beforeAll stack1 ++ (toList r ++ afterAll stack1) := by
      rw [avl_rebalance_toList stack1 r t1 e2, toList_plugAll, List.append_assoc]
    have hl0 : toList t = beforeAll stack1 ++ (a, len, o) :: (toList r ++ afterAll stack1) := by
      rw [hl]
      simp [toList]
    exact ⟨t1, _, _, len, e2, i1, hord t1 _ _ hl0 hl1, hl0, hl1⟩
  | node ll lr lh la llen lo =>
    simp only
    have hdl : 1 ≤ depth (node ll lr lh la llen lo) := by rw [depth_node]; omega
    rw [if_neg (by omega)]
    obtain ⟨m, child, hm, pushed1, f1, f2, f3, f4, f5, f6⟩ :=
      maxPath_spec (node ll lr lh la llen lo) (stack1.length + 1) [] b1 hdl trivial (by omega)
    rw [f1]
    simp only
    have f5 : plugAll pushed1 (node child empty hm m.1 m.2.1 m.2.2) = node ll lr lh la llen lo := f5
    have f4 : pathHeight pushed1 (depth (node child empty hm m.1 m.2.1 m.2.2)) =
        depth (node ll lr lh la llen lo) := f4
    have f6 : afterAll pushed1 = [] := f6
    rw [isAvl_node] at f2
    obtain ⟨c1, _, _, c4, c5⟩ := f2
    have hpath : PathOK
        (pushed1 ++
          { goes_left := true, other := r, height := hh, address := m.1, len := m.2.1,
            embedding_object := m.2.2 } :: stack1)
        (depth (node child empty hm m.1 m.2.1 m.2.2)) := by
      rw [pathOK_append]
      refine ⟨f3, ?_⟩
      rw [f4, pathOK_cons]
      refine ⟨b2, b4, b5, b3, ?_⟩
      simp only
      rw [b3]
      exact g2
    obtain ⟨t1, e2, i1⟩ := avl_rebalance_isAvl _ child _ hpath c1
      (by rw [depth_node]; omega) (by rw [depth_node]; simp only [depth] at c4 c5 ⊢; omega)
    have hll : toList (node ll lr lh la llen lo) =
        beforeAll pushed1 ++ toList child ++ [(m.1, m.2.1, m.2.2)] := by
      rw [← f5, toList_plugAll, f6]
      simp [toList]
    have hl1 : toList t1 = (beforeAll stack1 ++ (beforeAll pushed1 ++ toList child ++
        [(m.1, m.2.1, m.2.2)])) ++ (toList r ++ afterAll stack1) := by
      rw [avl_rebalance_toList _ child t1 e2, plugAll_append]
      show toList (plugAll stack1 (node (plugAll pushed1 child) r hh m.1 m.2.1 m.2.2)) = _
      rw [toList_plugAll]
      simp only [toList]
      rw [toList_plugAll, f6]
      simp
    have hl0 : toList t = (beforeAll stack1 ++ (beforeAll pushed1 ++ toList child ++
        [(m.1, m.2.1, m.2.2)])) ++ (a, len, o) :: (toList r ++ afterAll stack1) := by
      rw [hl, hll]
      simp
    exact ⟨t1, _, _, len, e2, i1, hord t1 _ _ hl0 hl1, hl0, hl1⟩

end AVLNode

/-! ## vaddr_range.cc: the group of ranges in every state that can be reached -/

namespace Registry
namespace VAddressRangeGroup

theorem countP_set_add {α : Type} (p : α → Bool) : ∀ (l : List α) (i : Nat) (r x : α),
    l[i]? = some r →
    List.countP p (l.set i x) + (if p r then 1 else 0) =
      List.countP p l + (if p x then 1 else 0)
  | [], i, r, x, h => by simp at h
  | a :: l, 0, r, x, h => by
    simp only [List.getElem?_cons_zero, Option.some.injEq] at h
    subst h
    simp only [List.set_cons_zero, List.countP_cons]
    omega
  | a :: l, i + 1, r, x, h => by
    simp only [List.getElem?_cons_succ] at h
    have := countP_set_add p l i r x h
    simp only [List.set_cons_succ, List.countP_cons]
    omega

/-- The ranges of an ordered tree with ranges that are not empty are all
different. -/
theorem ordered_nodup (t : AVLNode) (ho : AVLNode.Ordered t)
    (hpos : ∀ e ∈ AVLNode.toList t, 1 ≤ e.2.1) : (AVLNode.toList t).Nodup := by
  unfold AVLNode.Ordered at ho
  unfold List.Nodup
  refine List.Pairwise.imp_of_mem ?_ ho
  intro a b ha _ hab e
  have := hpos a ha
  rw [e] at hab this
  omega

theorem init_list (g : VAddressRangeGroup) : (Init g).2.vaddr_range_list_ =
    (List.range MAX_VIRTUAL_ADDRESS_RANGES).map
      (fun i => { VAddressRange.new with vaddress_range_id_ := i }) := by
  simp only [Init]

theorem init_bitmap (g : VAddressRangeGroup) : (Init g).2.vaddr_range_bitmap_ =
    List.replicate MAX_VIRTUAL_ADDRESS_RANGES true := by
  simp only [Init]

theorem init_fields (g : VAddressRangeGroup) :
    (Init g).2.tree_ = g.tree_ ∧ (Init g).2.total_vaddr_ranges_ = INVALID_VADDRESS_RANGE_ID ∧
      (Init g).2.free_vaddr_ranges_ = INVALID_VADDRESS_RANGE_ID ∧
      (Init g).2.inuse_vaddr_ranges_ = 0 := by
  simp only [Init]
  exact ⟨trivial, trivial, trivial, trivial⟩

theorem init_getElem? (i : Nat) (r : VAddressRange)
    (h : (Init new).2.vaddr_range_list_[i]? = some r) :
    i < MAX_VIRTUAL_ADDRESS_RANGES ∧ r = { VAddressRange.new with vaddress_range_id_ := i } := by
  rw [init_list new, List.getElem?_map] at h
  by_cases hi : i < MAX_VIRTUAL_ADDRESS_RANGES
  · rw [List.getElem?_range hi] at h
    simp only [Option.map_some', Option.some.injEq] at h
    exact ⟨hi, h.symm⟩
  · rw [List.getElem?_eq_none (by simpa using hi)] at h
    simp at h

theorem init_activeCount : (Init new).2.activeCount = 0 := by
  unfold activeCount
  rw [List.countP_eq_zero]
  intro r hr
  rw [init_list new, List.mem_map] at hr
  obtain ⟨i, _, rfl⟩ := hr
  simp [VAddressRange.new]

/-- The group after `Init`. -/
theorem init_inv : Inv (Init new).2 where
  list_length := by rw [init_list new, List.length_map, List.length_range]
  bitmap_length := by rw [init_bitmap new, List.length_replicate]
  total := (init_fields new).2.1
  ids := by
    intro i r h
    obtain ⟨hi, rfl⟩ := init_getElem? i r h
    refine ⟨rfl, ?_, ?_⟩
    · rw [init_bitmap new, List.getElem?_replicate, if_pos hi]
      rfl
    · intro hc
      simp [VAddressRange.new] at hc
  free := by rw [init_activeCount, (init_fields new).2.2.1]; rfl
  inuse := by rw [init_activeCount, (init_fields new).2.2.2]; rfl
  num_nodes := by rw [init_activeCount, (init_fields new).1]; rfl
  tree_length := by rw [init_activeCount, (init_fields new).1]; rfl
  isAvl := by rw [(init_fields new).1]; trivial
  ordered := by rw [(init_fields new).1]; exact List.Pairwise.nil
  nodes := by
    intro e
    rw [(init_fields new).1]
    constructor
    · intro h
      exact absurd h (List.not_mem_nil _)
    · rintro ⟨r, h1, h2, _⟩
      obtain ⟨_, rfl⟩ := init_getElem? _ r h1
      simp [VAddressRange.new] at h2

/-- Only ranges below `INVALID_VADDRESS_RANGE_ID` are active, so that their
number is at most 255. -/
theorem countP_active_le (l : List VAddressRange)
    (h : ∀ i r, l[i]? = some r → r.is_active_ = true → i < INVALID_VADDRESS_RANGE_ID) :
    l.countP (fun r => r.is_active_) =
        (l.take INVALID_VADDRESS_RANGE_ID).countP (fun r => r.is_active_) ∧
      l.countP (fun r => r.is_active_) ≤ INVALID_VADDRESS_RANGE_ID := by
  have e : l.countP (fun r => r.is_active_) =
      (l.take INVALID_VADDRESS_RANGE_ID).countP (fun r => r.is_active_) := by
    conv_lhs => rw [← List.take_append_drop INVALID_VADDRESS_RANGE_ID l]
    rw [List.countP_append]
    have : (l.drop INVALID_VADDRESS_RANGE_ID).countP (fun r => r.is_active_) = 0 := by
      rw [List.countP_eq_zero]
      intro r hr
      obtain ⟨j, hj⟩ := List.getElem?_of_mem hr
      rw [List.getElem?_drop] at hj
      intro hc
      have := h _ r hj hc
      omega
    omega
  refine ⟨e, ?_⟩
  rw [e]
  exact (List.countP_le_length _).trans (by simp)

theorem activeCount_le (g : VAddressRangeGroup) (h : Inv g) :
    g.activeCount = (g.vaddr_range_list_.take INVALID_VADDRESS_RANGE_ID).countP
      (fun r => r.is_active_) ∧ g.activeCount ≤ INVALID_VADDRESS_RANGE_ID :=
  countP_active_le g.vaddr_range_list_ (fun i r hr hc => ((h.ids i r hr).2.2 hc).1)

end VAddressRangeGroup
end Registry

namespace Registry
namespace VAddressRangeGroup

theorem find?_range_none (p : Nat → Bool) (n : Nat) (h : ∀ i < n, p i = false) :
    (List.range n).find? p = none := by
  rw [List.find?_eq_none]
  intro i hi
  rw [h i (List.mem_range.1 hi)]
  simp

theorem find?_range_some (p : Nat → Bool) : ∀ (n : Nat), (∃ i < n, p i = true) →
    ∃ i, (List.range n).find? p = some i ∧ i < n ∧ p i = true ∧ ∀ j < i, p j = false
  | 0, h => by
    obtain ⟨i, hi, _⟩ := h
    omega
  | n + 1, h => by
    rw [List.range_succ, List.find?_append]
    by_cases hn : ∃ i < n, p i = true
    · obtain ⟨i, e, h1, h2, h3⟩ := find?_range_some p n hn
      exact ⟨i, by rw [e]; rfl, by omega, h2, h3⟩
    · have hall : ∀ i < n, p i = false := by
        intro i hi
        cases hp : p i
        · rfl
        · exact absurd ⟨i, hi, hp⟩ hn
      obtain ⟨i, hi, hp⟩ := h
      have hin : i = n := by
        by_contra hne
        have := hall i (by omega)
        rw [hp] at this
        exact absurd this (by simp)
      subst hin
      rw [find?_range_none p i hall]
      refine ⟨i, ?_, by omega, hp, hall⟩
      simp [List.find?, hp]

/-- The bit of a range is set when the range is not active. -/
theorem bitmap_true_iff (g : VAddressRangeGroup) (h : Inv g) (i : Nat)
    (hi : i < MAX_VIRTUAL_ADDRESS_RANGES) :
    ∃ r, g.vaddr_range_list_[i]? = some r ∧
      ((g.vaddr_range_bitmap_[i]? == some true) = !r.is_active_) := by
  have hl : i < g.vaddr_range_list_.length := by rw [h.list_length]; exact hi
  refine ⟨g.vaddr_range_list_[i], List.getElem?_eq_getElem hl, ?_⟩
  rw [(h.ids i _ (List.getElem?_eq_getElem hl)).2.1]
  cases g.vaddr_range_list_[i].is_active_ <;> rfl

theorem bitmap_any (g : VAddressRangeGroup) (h : Inv g) :
    g.vaddr_range_bitmap_.any id = true := by
  obtain ⟨r, h1, _⟩ := bitmap_true_iff g h INVALID_VADDRESS_RANGE_ID (by decide)
  obtain ⟨_, h2, h3⟩ := h.ids _ r h1
  have hr : r.is_active_ = false := by
    cases hc : r.is_active_
    · rfl
    · exact absurd (h3 hc).1 (by decide)
  rw [hr] at h2
  rw [List.any_eq_true]
  exact ⟨true, List.mem_iff_getElem?.2 ⟨_, h2⟩, rfl⟩

/-- The loop of `AllocateVAddressRange` finds the first range that is not
active, when fewer than 255 ranges are active. -/
theorem firstFree_some (g : VAddressRangeGroup) (h : Inv g)
    (hc : g.activeCount < INVALID_VADDRESS_RANGE_ID) :
    ∃ i r, g.firstFree = some i ∧ i < INVALID_VADDRESS_RANGE_ID ∧
      g.vaddr_range_list_[i]? = some r ∧ r.is_active_ = false ∧
      ∀ j < i, ∃ rj, g.vaddr_range_list_[j]? = some rj ∧ rj.is_active_ = true := by
  obtain ⟨e, _⟩ := activeCount_le g h
  have hlen : (g.vaddr_range_list_.take INVALID_VADDRESS_RANGE_ID).length =
      INVALID_VADDRESS_RANGE_ID := by
    rw [List.length_take, h.list_length]
    decide
  have hex : ∃ i < g.total_vaddr_ranges_, (g.vaddr_range_bitmap_[i]? == some true) = true := by
    rw [h.total]
    by_contra hno
    have hall : ∀ r ∈ g.vaddr_range_list_.take INVALID_VADDRESS_RANGE_ID,
        (fun r : VAddressRange => r.is_active_) r = true := by
      intro r hr
      obtain ⟨j, hj⟩ := List.getElem?_of_mem hr
      have hjl : j < INVALID_VADDRESS_RANGE_ID := by
        have := (List.getElem?_eq_some_iff.1 hj).1
        rw [hlen] at this
        exact this
      rw [List.getElem?_take_of_lt hjl] at hj
      obtain ⟨r', h1, h2⟩ := bitmap_true_iff g h j (by
        have : INVALID_VADDRESS_RANGE_ID < MAX_VIRTUAL_ADDRESS_RANGES := by decide
        omega)
      rw [hj] at h1
      simp only [Option.some.injEq] at h1
      subst h1
      show r.is_active_ = true
      cases hb : r.is_active_
      · rw [hb] at h2
        exact absurd ⟨j, hjl, h2⟩ hno
      · rfl
    have := List.countP_eq_length.2 hall
    rw [← e, hlen] at this
    omega
  obtain ⟨i, e1, e2, e3, e4⟩ := find?_range_some _ _ hex
  rw [h.total] at e2
  have hM : INVALID_VADDRESS_RANGE_ID < MAX_VIRTUAL_ADDRESS_RANGES := by decide
  obtain ⟨r, h1, h2⟩ := bitmap_true_iff g h i (by omega)
  refine ⟨i, r, e1, e2, h1, ?_, ?_⟩
  · rw [e3] at h2
    cases hb : r.is_active_
    · rfl
    · rw [hb] at h2
      exact absurd h2 (by decide)
  · intro j hj
    obtain ⟨rj, k1, k2⟩ := bitmap_true_iff g h j (by omega)
    refine ⟨rj, k1, ?_⟩
    rw [e4 j hj] at k2
    cases hb : rj.is_active_
    · rw [hb] at k2
      exact absurd k2 (by decide)
    · rfl

theorem roundUp_eq (size : Nat) (h : size + 4095 < 2 ^ 64) :
    RoundUpToPageSize size = (size + 4095) / 4096 * 4096 := by
  unfold RoundUpToPageSize
  have hp : PAGE_SIZE = 4096 := by decide
  rw [hp, show size + 4096 - 1 = size + 4095 from rfl, Nat.mod_eq_of_lt h]

/-- `VAddressRange::Init(size)` when it returns true. -/
theorem range_init_true (r r1 : VAddressRange) (address size : Nat)
    (h : r.Init address size = some (true, r1)) :
    r.is_active_ = false ∧ PAGE_SIZE ≤ RoundUpToPageSize size ∧
      r1 = { r with
        size_ := RoundUpToPageSize size, address_ := address,
        memory := List.replicate (RoundUpToPageSize size >>> PAGE_BITS)
          { prot := PROT_NONE, data := 0 },
        number_pages_ := RoundUpToPageSize size >>> PAGE_BITS,
        v2h_map_size_ := RoundUpToPageSize size >>> PAGE_BITS,
        v2h_map_ := List.replicate (RoundUpToPageSize size >>> PAGE_BITS) V2HMapMetadata.zero,
        has_backing_hdd_file_ := false, is_active_ := true } := by
  unfold VAddressRange.Init at h
  split at h
  · exact absurd h (by simp)
  · rename_i ha
    split at h
    · simp at h
    · rename_i hs
      simp only [Option.some.injEq, Prod.mk.injEq, true_and] at h
      exact ⟨by simpa using ha, by omega, h.symm⟩

/-- `VAddressRange::Init(size)` on a range that is not active, for a size
from 1 to `2^64 - 4096`: the call returns true. -/
theorem range_init_isSome (r : VAddressRange) (address size : Nat)
    (hr : r.is_active_ = false) (h1 : 1 ≤ size) (h2 : size + 4095 < 2 ^ 64) :
    ∃ r1, r.Init address size = some (true, r1) := by
  unfold VAddressRange.Init
  rw [if_neg (by simp [hr])]
  have hp : PAGE_SIZE = 4096 := by decide
  rw [if_neg (by rw [roundUp_eq size h2, hp]; omega)]
  exact ⟨_, rfl⟩

end VAddressRangeGroup
end Registry

namespace Registry
namespace VAddressRangeGroup

/-- The tree of a group is never deeper than the stack of `avl_insert` and
`avl_delete`. -/
theorem tree_depth_le (g : VAddressRangeGroup) (h : Inv g) :
    AVLNode.depth g.tree_.tree ≤ MAXHEIGHT := by
  have h1 := AVLNode.isAvl_depth_le g.tree_.tree h.isAvl (by
    rw [h.tree_length]
    exact (activeCount_le g h).2)
  have : MAXHEIGHT = 41 := rfl
  omega

/-- The statements of `AllocateVAddressRange` after `Init` has made
`vaddr_range_list_[i]` an active range with a fresh block. -/
theorem linkRange_spec (g : VAddressRangeGroup) (h : Inv g) (i : Nat) (r r1 : VAddressRange)
    (hi : i < INVALID_VADDRESS_RANGE_ID) (hr : g.vaddr_range_list_[i]? = some r)
    (hra : r.is_active_ = false) (h1 : r1.is_active_ = true) (hid : r1.vaddress_range_id_ = i)
    (hs : 1 ≤ r1.size_) (ha : 0 < r1.address_) (hb : r1.address_ + r1.size_ < 2 ^ 64)
    (hfresh : ∀ r2 ∈ g.vaddr_range_list_, r2.is_active_ = true →
      r2.address_ + r2.size_ ≤ r1.address_ ∨ r1.address_ + r1.size_ ≤ r2.address_) :
    ∃ g1, g.linkRange i r1 = some (some i, g1) ∧ Inv g1 ∧
      g1.vaddr_range_list_ = g.vaddr_range_list_.set i r1 ∧
      g1.free_vaddr_ranges_ + 1 = g.free_vaddr_ranges_ ∧
      g1.activeCount = g.activeCount + 1 := by
  have hdis : ∀ e ∈ AVLNode.toList g.tree_.tree,
      e.1 + e.2.1 ≤ r1.address_ ∨ r1.address_ + r1.size_ ≤ e.1 := by
    intro e he
    obtain ⟨r2, k1, k2, k3, k4⟩ := (h.nodes e).1 he
    have := hfresh r2 (List.mem_iff_getElem?.2 ⟨_, k1⟩) k2
    rw [k3, k4] at this
    exact this
  obtain ⟨t1, L, R, e1, i1, i2, i3, i4⟩ := AVLNode.avl_insert_spec g.tree_.tree r1.address_
    r1.size_ i h.isAvl h.ordered (tree_depth_le g h) hs hdis
  have hcount : List.countP (fun r => r.is_active_) (g.vaddr_range_list_.set i r1) =
      g.activeCount + 1 := by
    have := countP_set_add (fun r : VAddressRange => r.is_active_) g.vaddr_range_list_ i r r1 hr
    simp only [hra, h1, Bool.false_eq_true, if_false, if_true] at this
    exact this
  have hids : ∀ j r2, (g.vaddr_range_list_.set i r1)[j]? = some r2 →
      r2.vaddress_range_id_ = j ∧ (g.vaddr_range_bitmap_.set i false)[j]? = some (!r2.is_active_) ∧
        (r2.is_active_ = true → j < INVALID_VADDRESS_RANGE_ID ∧ 1 ≤ r2.size_ ∧ 0 < r2.address_ ∧
          r2.address_ + r2.size_ < 2 ^ 64) := by
    intro j r2 hj
    by_cases hji : i = j
    · subst hji
      have hl : i < g.vaddr_range_list_.length := (List.getElem?_eq_some_iff.1 hr).1
      rw [List.getElem?_set_self hl] at hj
      simp only [Option.some.injEq] at hj
      subst hj
      refine ⟨hid, ?_, fun _ => ⟨hi, hs, ha, hb⟩⟩
      rw [List.getElem?_set_self (by rw [h.bitmap_length, ← h.list_length]; exact hl), h1]
      rfl
    · rw [List.getElem?_set_ne hji] at hj
      rw [List.getElem?_set_ne hji]
      exact h.ids j r2 hj
  have hle := (countP_active_le (g.vaddr_range_list_.set i r1)
    (fun j r2 hj hc => ((hids j r2 hj).2.2 hc).1)).2
  rw [hcount] at hle
  have hfree := h.free
  have hfree1 : (g.free_vaddr_ranges_ + 2 ^ 32 - 1) % 2 ^ 32 + 1 = g.free_vaddr_ranges_ := by
    have : INVALID_VADDRESS_RANGE_ID = 255 := rfl
    omega
  refine ⟨{ g with
      vaddr_range_list_ := g.vaddr_range_list_.set i r1,
      vaddr_range_bitmap_ := g.vaddr_range_bitmap_.set i false,
      free_vaddr_ranges_ := (g.free_vaddr_ranges_ + 2 ^ 32 - 1) % 2 ^ 32,
      inuse_vaddr_ranges_ := g.inuse_vaddr_ranges_ + 1,
      tree_ := { tree := t1, num_nodes := g.tree_.num_nodes + 1 } }, ?_, ?_, rfl, hfree1, hcount⟩
  · unfold linkRange InsertNode
    rw [if_neg (by omega), e1]
    simp only
    rw [if_neg (by rw [h.num_nodes, h.inuse]; simp)]
  · exact
      { list_length := by simp only [List.length_set]; exact h.list_length
        bitmap_length := by simp only [List.length_set]; exact h.bitmap_length
        total := h.total
        ids := hids
        free := by
          show (g.free_vaddr_ranges_ + 2 ^ 32 - 1) % 2 ^ 32 +
            List.countP (fun r => r.is_active_) (g.vaddr_range_list_.set i r1) = _
          rw [hcount]
          omega
        inuse := by
          show g.inuse_vaddr_ranges_ + 1 =
            ((List.countP (fun r => r.is_active_) (g.vaddr_range_list_.set i r1) : Nat) : Int)
          rw [hcount, h.inuse]
          simp
        num_nodes := by
          show g.tree_.num_nodes + 1 =
            ((List.countP (fun r => r.is_active_) (g.vaddr_range_list_.set i r1) : Nat) : Int)
          rw [hcount, h.num_nodes]
          simp
        tree_length := by
          show (AVLNode.toList t1).length =
            List.countP (fun r => r.is_active_) (g.vaddr_range_list_.set i r1)
          rw [hcount, i4, ← h.tree_length, i3]
          simp only [List.length_append, List.length_cons]
          omega
        isAvl := i1
        ordered := i2
        nodes := by
          intro e
          show e ∈ AVLNode.toList t1 ↔
            ∃ r2, (g.vaddr_range_list_.set i r1)[e.2.2]? = some r2 ∧ r2.is_active_ = true ∧
              r2.address_ = e.1 ∧ r2.size_ = e.2.1
          have hmem : e ∈ AVLNode.toList t1 ↔
              e = (r1.address_, r1.size_, i) ∨ e ∈ AVLNode.toList g.tree_.tree := by
            rw [i4, i3]
            simp only [List.mem_append, List.mem_cons]
            tauto
          rw [hmem, h.nodes e]
          have hl : i < g.vaddr_range_list_.length := (List.getElem?_eq_some_iff.1 hr).1
          by_cases hei : i = e.2.2
          · rw [← hei, List.getElem?_set_self hl, hr]
            constructor
            · rintro (rfl | ⟨r2, k1, k2, _⟩)
              · exact ⟨r1, rfl, h1, rfl, rfl⟩
              · simp only [Option.some.injEq] at k1
                subst k1
                rw [hra] at k2
                exact absurd k2 (by decide)
            · rintro ⟨r2, k1, _, k3, k4⟩
              simp only [Option.some.injEq] at k1
              subst k1
              left
              obtain ⟨e1, e2, e3⟩ := e
              simp only at hei k3 k4
              rw [k3, k4, hei]
          · rw [List.getElem?_set_ne hei]
            constructor
            · rintro (rfl | hh)
              · exact absurd rfl hei
              · exact hh
            · intro hh
              exact Or.inr hh }

end VAddressRangeGroup
end Registry

namespace Registry
namespace VAddressRangeGroup

/-- `VAddressRange::Init(size, hdd_filename, hdd_file_offset)` when it returns
true. -/
theorem range_initFile_true (r r1 : VAddressRange) (disk disk1 : List HddFile)
    (address size file off : Nat)
    (h : r.InitFile disk address size file off = some (true, r1, disk1)) :
    r.is_active_ = false ∧ PAGE_SIZE ≤ RoundUpToPageSize size ∧ r1.is_active_ = true ∧
      r1.address_ = address ∧ r1.size_ = RoundUpToPageSize size ∧
      r1.vaddress_range_id_ = r.vaddress_range_id_ := by
  unfold VAddressRange.InitFile at h
  split at h
  · exact absurd h (by simp)
  · rename_i ha
    split at h
    · exact absurd h (by simp)
    · split at h
      · simp at h
      · rename_i f hf
        simp only at h
        split at h
        · exact absurd h (by simp)
        · simp at h
        · rename_i r0 hi
          obtain ⟨_, k2, k3⟩ := range_init_true r r0 address size hi
          simp only [Option.some.injEq, Prod.mk.injEq, true_and] at h
          refine ⟨by simpa using ha, k2, ?_⟩
          rw [← h.1]
          split_ifs <;> (subst k3; exact ⟨rfl, rfl, rfl, rfl⟩)

/-- The overload for anonymous memory, on a group in a state that can be
reached: with 255 active ranges it returns NULL, and otherwise it goes on with
the first range that is not active. -/
theorem allocate_eq (g : VAddressRangeGroup) (h : Inv g) (address size : Nat) :
    (g.activeCount = INVALID_VADDRESS_RANGE_ID →
      g.AllocateVAddressRange address size = some (none, g)) ∧
    (g.activeCount < INVALID_VADDRESS_RANGE_ID →
      ∃ i r, i < INVALID_VADDRESS_RANGE_ID ∧ g.vaddr_range_list_[i]? = some r ∧
        r.is_active_ = false ∧
        (∀ j < i, ∃ rj, g.vaddr_range_list_[j]? = some rj ∧ rj.is_active_ = true) ∧
        g.AllocateVAddressRange address size =
          match r.Init address size with
          | some (true, r1) => g.linkRange i r1
          | _ => none) := by
  have hfree := h.free
  constructor
  · intro hc
    unfold AllocateVAddressRange
    rw [if_pos (by omega)]
  · intro hc
    obtain ⟨i, r, e1, e2, e3, e4, e5⟩ := firstFree_some g h hc
    refine ⟨i, r, e2, e3, e4, e5, ?_⟩
    unfold AllocateVAddressRange
    rw [if_neg (by omega), if_neg (by simp [bitmap_any g h]), e1]
    simp only
    rw [e3]

/-- The overload for a file, in the same way. -/
theorem allocateFile_eq (g : VAddressRangeGroup) (h : Inv g) (disk : List HddFile)
    (address size file off : Nat) :
    (g.activeCount = INVALID_VADDRESS_RANGE_ID →
      g.AllocateVAddressRangeFile disk address size file off = some (none, g, disk)) ∧
    (g.activeCount < INVALID_VADDRESS_RANGE_ID →
      ∃ i r, i < INVALID_VADDRESS_RANGE_ID ∧ g.vaddr_range_list_[i]? = some r ∧
        r.is_active_ = false ∧
        (∀ j < i, ∃ rj, g.vaddr_range_list_[j]? = some rj ∧ rj.is_active_ = true) ∧
        g.AllocateVAddressRangeFile disk address size file off =
          match r.InitFile disk address size file off with
          | some (true, r1, disk1) =>
            match g.linkRange i r1 with
            | none => none
            | some (p, g1) => some (p, g1, disk1)
          | _ => none) := by
  have hfree := h.free
  constructor
  · intro hc
    unfold AllocateVAddressRangeFile
    rw [if_pos (by omega)]
  · intro hc
    obtain ⟨i, r, e1, e2, e3, e4, e5⟩ := firstFree_some g h hc
    refine ⟨i, r, e2, e3, e4, e5, ?_⟩
    unfold AllocateVAddressRangeFile
    rw [if_neg (by omega), if_neg (by simp [bitmap_any g h]), e1]
    simp only
    rw [e3]

theorem page_size_pos : 1 ≤ PAGE_SIZE := by decide

/-- A call of `AllocateVAddressRange(size)` that returns, with a fresh block. -/
theorem allocate_inv (g g1 : VAddressRangeGroup) (h : Inv g) (address size : Nat)
    (p : Option Nat) (hf : Fresh g address size)
    (e : g.AllocateVAddressRange address size = some (p, g1)) : Inv g1 := by
  obtain ⟨c1, c2⟩ := allocate_eq g h address size
  rcases Nat.lt_or_ge g.activeCount INVALID_VADDRESS_RANGE_ID with hc | hc
  · obtain ⟨i, r, e2, e3, e4, _, e6⟩ := c2 hc
    rw [e6] at e
    split at e
    · rename_i r1 hi
      obtain ⟨_, k2, k3⟩ := range_init_true r r1 address size hi
      have hid := (h.ids i r e3).1
      obtain ⟨f1, f2, f3⟩ := hf
      have hp := page_size_pos
      obtain ⟨g2, l1, l2, _⟩ := linkRange_spec g h i r r1 e2 e3 e4 (by rw [k3])
        (by rw [k3]; exact hid) (by rw [k3]; simp only; omega) (by rw [k3]; exact f1)
        (by rw [k3]; exact f2) (by rw [k3]; exact f3)
      rw [l1] at e
      simp only [Option.some.injEq, Prod.mk.injEq] at e
      rw [← e.2]
      exact l2
    · exact absurd e (by simp)
  · have := c1 (le_antisymm (activeCount_le g h).2 hc)
    rw [this] at e
    simp only [Option.some.injEq, Prod.mk.injEq] at e
    rw [← e.2]
    exact h

/-- A call of `AllocateVAddressRange(size, hdd_filename, hdd_file_offset)` that
returns, with a fresh block. -/
theorem allocateFile_inv (g g1 : VAddressRangeGroup) (h : Inv g) (disk disk1 : List HddFile)
    (address size file off : Nat) (p : Option Nat) (hf : Fresh g address size)
    (e : g.AllocateVAddressRangeFile disk address size file off = some (p, g1, disk1)) :
    Inv g1 := by
  obtain ⟨c1, c2⟩ := allocateFile_eq g h disk address size file off
  rcases Nat.lt_or_ge g.activeCount INVALID_VADDRESS_RANGE_ID with hc | hc
  · obtain ⟨i, r, e2, e3, e4, _, e6⟩ := c2 hc
    rw [e6] at e
    split at e
    · rename_i r1 d1 hi
      obtain ⟨_, k2, k3, k4, k5, k6⟩ := range_initFile_true r r1 disk d1 address size file off hi
      have hid := (h.ids i r e3).1
      obtain ⟨f1, f2, f3⟩ := hf
      have hp := page_size_pos
      obtain ⟨g2, l1, l2, _⟩ := linkRange_spec g h i r r1 e2 e3 e4 k3
        (by rw [k6]; exact hid) (by rw [k5]; omega) (by rw [k4]; exact f1)
        (by rw [k4, k5]; exact f2) (by rw [k4, k5]; exact f3)
      rw [l1] at e
      simp only [Option.some.injEq, Prod.mk.injEq] at e
      rw [← e.2.1]
      exact l2
    · exact absurd e (by simp)
  · have := c1 (le_antisymm (activeCount_le g h).2 hc)
    rw [this] at e
    simp only [Option.some.injEq, Prod.mk.injEq] at e
    rw [← e.2.1]
    exact h

end VAddressRangeGroup
end Registry

namespace Registry
namespace VAddressRangeGroup

theorem tree_bounds (g : VAddressRangeGroup) (h : Inv g) :
    ∀ e ∈ AVLNode.toList g.tree_.tree, 1 ≤ e.2.1 ∧ 0 < e.1 ∧ e.1 + e.2.1 < 2 ^ 64 := by
  intro e he
  obtain ⟨r2, k1, k2, k3, k4⟩ := (h.nodes e).1 he
  have := ((h.ids _ r2 k1).2.2 k2).2
  rw [k3, k4] at this
  exact this

/-- `FindNode` on the tree of a group: the node of the active range that holds
`address`, if there is one. -/
theorem findNode_group (g : VAddressRangeGroup) (h : Inv g) (address : Nat) :
    (∀ (i : Nat) (r : VAddressRange), g.vaddr_range_list_[i]? = some r → r.is_active_ = true →
      r.address_ ≤ address → address < r.address_ + r.size_ →
      FindNode g.tree_ address = some (r.address_, r.size_, i)) ∧
    ((∀ (i : Nat) (r : VAddressRange), g.vaddr_range_list_[i]? = some r → r.is_active_ = true →
      ¬ (r.address_ ≤ address ∧ address < r.address_ + r.size_)) →
      FindNode g.tree_ address = none) := by
  obtain ⟨s1, s2⟩ := AVLNode.findNode_spec g.tree_.tree address h.ordered
    (fun e he => (tree_bounds g h e he).2.2)
  constructor
  · intro i r hr ha h1 h2
    exact (s1 (r.address_, r.size_, i)).2 ⟨(h.nodes _).2 ⟨r, hr, ha, rfl, rfl⟩, h1, h2⟩
  · intro hno
    refine s2.2 ?_
    intro e he
    obtain ⟨r2, k1, k2, k3, k4⟩ := (h.nodes e).1 he
    have := hno _ r2 k1 k2
    rw [k3, k4] at this
    exact this

/-- `ReleaseVAddressRange` on an active range. -/
theorem release_active (g : VAddressRangeGroup) (h : Inv g) (id : Nat) (r : VAddressRange)
    (hr : g.vaddr_range_list_[id]? = some r) (ha : r.is_active_ = true) :
    ∃ g1, g.ReleaseVAddressRange id = some (true, g1) ∧ Inv g1 ∧
      g1.vaddr_range_list_ = g.vaddr_range_list_.set id r.Release ∧
      g1.free_vaddr_ranges_ = g.free_vaddr_ranges_ + 1 ∧
      g1.activeCount + 1 = g.activeCount := by
  obtain ⟨hid, hbit, hact⟩ := h.ids id r hr
  obtain ⟨b1, b2, b3, b4⟩ := hact ha
  have hx : (r.address_, r.size_, id) ∈ AVLNode.toList g.tree_.tree :=
    (h.nodes _).2 ⟨r, hr, ha, rfl, rfl⟩
  have hfind := (findNode_group g h r.address_).1 id r hr ha (le_refl _) (by omega)
  obtain ⟨t1, L, R, len, e1, i1, i2, i3, i4⟩ := AVLNode.avl_delete_spec g.tree_.tree r.address_ id
    h.isAvl h.ordered (fun e he => (tree_bounds g h e he).1) (tree_depth_le g h) ⟨r.size_, hx⟩
  have hlen : len = r.size_ := by
    have hm : (r.address_, len, id) ∈ AVLNode.toList g.tree_.tree := by
      rw [i3]
      exact List.mem_append_right _ (List.mem_cons_self _ _)
    obtain ⟨r2, k1, _, _, k4⟩ := (h.nodes _).1 hm
    rw [hr] at k1
    simp only [Option.some.injEq] at k1
    subst k1
    exact k4.symm
  subst hlen
  have hrel : r.Release = { r with
      address_ := 0, memory := [], is_active_ := false, has_backing_hdd_file_ := false,
      v2h_map_ := [] } := by
    unfold VAddressRange.Release
    rw [if_pos ha]
  have hrel1 : r.Release.is_active_ = false := by rw [hrel]
  have hrel2 : r.Release.vaddress_range_id_ = id := by rw [hrel]; exact hid
  have hcount : List.countP (fun r => r.is_active_) (g.vaddr_range_list_.set id r.Release) + 1 =
      g.activeCount := by
    have := countP_set_add (fun r : VAddressRange => r.is_active_) g.vaddr_range_list_ id r
      r.Release hr
    simp only [ha, hrel1, Bool.false_eq_true, if_false, if_true] at this
    exact this
  have hfree := h.free
  have hI : INVALID_VADDRESS_RANGE_ID = 255 := rfl
  have hM : MAX_VIRTUAL_ADDRESS_RANGES = 1024 := rfl
  have hnd := ordered_nodup g.tree_.tree h.ordered (fun e he => (tree_bounds g h e he).1)
  rw [i3] at hnd
  have hxL : (r.address_, r.size_, id) ∉ L := by
    intro hc
    have := (List.nodup_append.1 hnd).2.2
    exact this hc (List.mem_cons_self _ _) 
  have hxR : (r.address_, r.size_, id) ∉ R := by
    have := (List.nodup_append.1 hnd).2.1
    exact (List.nodup_cons.1 this).1
  refine ⟨{ g with
      vaddr_range_list_ := g.vaddr_range_list_.set id r.Release,
      tree_ := { tree := t1, num_nodes := g.tree_.num_nodes - 1 },
      vaddr_range_bitmap_ := g.vaddr_range_bitmap_.set r.vaddress_range_id_ true,
      free_vaddr_ranges_ := (g.free_vaddr_ranges_ + 1) % 2 ^ 32,
      inuse_vaddr_ranges_ := g.inuse_vaddr_ranges_ - 1 }, ?_, ?_, rfl, ?_, hcount⟩
  · unfold ReleaseVAddressRange
    rw [hr]
    simp only
    rw [hfind]
    simp only
    rw [if_neg (by simp), if_neg (by rw [h.inuse]; omega)]
    unfold DeleteNode
    rw [e1]
    simp only
    rw [if_neg (by omega)]
  · exact
      { list_length := by simp only [List.length_set]; exact h.list_length
        bitmap_length := by simp only [List.length_set]; exact h.bitmap_length
        total := h.total
        ids := by
          intro j r2 hj
          show r2.vaddress_range_id_ = j ∧
            (g.vaddr_range_bitmap_.set r.vaddress_range_id_ true)[j]? = some (!r2.is_active_) ∧ _
          simp only at hj
          rw [hid]
          by_cases hji : id = j
          · subst hji
            have hl : id < g.vaddr_range_list_.length := (List.getElem?_eq_some_iff.1 hr).1
            rw [List.getElem?_set_self hl] at hj
            simp only [Option.some.injEq] at hj
            subst hj
            refine ⟨hrel2, ?_, ?_⟩
            · rw [List.getElem?_set_self (by rw [h.bitmap_length, ← h.list_length]; exact hl),
                hrel1]
              rfl
            · intro hc
              rw [hrel1] at hc
              exact absurd hc (by decide)
          · rw [List.getElem?_set_ne hji] at hj
            rw [List.getElem?_set_ne hji]
            exact h.ids j r2 hj
        free := by
          show (g.free_vaddr_ranges_ + 1) % 2 ^ 32 +
            List.countP (fun r => r.is_active_) (g.vaddr_range_list_.set id r.Release) = _
          omega
        inuse := by
          show g.inuse_vaddr_ranges_ - 1 =
            ((List.countP (fun r => r.is_active_) (g.vaddr_range_list_.set id r.Release) : Nat) :
              Int)
          rw [h.inuse]
          omega
        num_nodes := by
          show g.tree_.num_nodes - 1 =
            ((List.countP (fun r => r.is_active_) (g.vaddr_range_list_.set id r.Release) : Nat) :
              Int)
          rw [h.num_nodes]
          omega
        tree_length := by
          show (AVLNode.toList t1).length =
            List.countP (fun r => r.is_active_) (g.vaddr_range_list_.set id r.Release)
          have := h.tree_length
          rw [i3] at this
          rw [i4]
          simp only [List.length_append, List.length_cons] at this ⊢
          omega
        isAvl := i1
        ordered := i2
        nodes := by
          intro e
          show e ∈ AVLNode.toList t1 ↔
            ∃ r2, (g.vaddr_range_list_.set id r.Release)[e.2.2]? = some r2 ∧
              r2.is_active_ = true ∧ r2.address_ = e.1 ∧ r2.size_ = e.2.1
          have hmem : e ∈ AVLNode.toList t1 ↔
              e ∈ AVLNode.toList g.tree_.tree ∧ e ≠ (r.address_, r.size_, id) := by
            rw [i4, i3]
            simp only [List.mem_append, List.mem_cons]
            constructor
            · rintro (hh | hh)
              · exact ⟨Or.inl hh, fun hc => hxL (hc ▸ hh)⟩
              · exact ⟨Or.inr (Or.inr hh), fun hc => hxR (hc ▸ hh)⟩
            · rintro ⟨hh | hh | hh, hne⟩
              · exact Or.inl hh
              · exact absurd hh hne
              · exact Or.inr hh
          rw [hmem, h.nodes e]
          have hl : id < g.vaddr_range_list_.length := (List.getElem?_eq_some_iff.1 hr).1
          by_cases hei : id = e.2.2
          · rw [← hei, List.getElem?_set_self hl, hr]
            constructor
            · rintro ⟨⟨r2, k1, _, k3, k4⟩, hne⟩
              simp only [Option.some.injEq] at k1
              subst k1
              exfalso
              apply hne
              obtain ⟨e1, e2, e3⟩ := e
              simp only at hei k3 k4
              rw [k3, k4, hei]
            · rintro ⟨r2, k1, k2, _⟩
              simp only [Option.some.injEq] at k1
              subst k1
              rw [hrel1] at k2
              exact absurd k2 (by decide)
          · rw [List.getElem?_set_ne hei]
            constructor
            · rintro ⟨hh, _⟩
              exact hh
            · intro hh
              refine ⟨hh, ?_⟩
              intro hc
              rw [hc] at hei
              exact hei rfl }
  · show (g.free_vaddr_ranges_ + 1) % 2 ^ 32 = g.free_vaddr_ranges_ + 1
    omega

/-- A call of `ReleaseVAddressRange` that returns. -/
theorem release_inv (g g1 : VAddressRangeGroup) (h : Inv g) (id : Nat) (b : Bool)
    (e : g.ReleaseVAddressRange id = some (b, g1)) :
    Inv g1 ∧ (b = false → g1 = g) ∧
      (b = true → ∃ r, g.vaddr_range_list_[id]? = some r ∧ r.is_active_ = true) := by
  cases hr : g.vaddr_range_list_[id]? with
  | none =>
    unfold ReleaseVAddressRange at e
    rw [hr] at e
    exact absurd e (by simp)
  | some r =>
    cases ha : r.is_active_ with
    | true =>
      obtain ⟨g2, e2, i2, _⟩ := release_active g h id r hr ha
      rw [e2] at e
      simp only [Option.some.injEq, Prod.mk.injEq] at e
      rw [← e.2, ← e.1]
      exact ⟨i2, fun hc => absurd hc (by decide), fun _ => ⟨r, rfl, ha⟩⟩
    | false =>
      unfold ReleaseVAddressRange at e
      rw [hr] at e
      simp only at e
      cases hf : FindNode g.tree_ r.address_ with
      | none =>
        rw [hf] at e
        simp only [Option.some.injEq, Prod.mk.injEq] at e
        rw [← e.2, ← e.1]
        exact ⟨h, fun _ => rfl, fun hc => absurd hc (by decide)⟩
      | some x =>
        obtain ⟨a, len, obj⟩ := x
        rw [hf] at e
        simp only at e
        split at e
        · exact absurd e (by simp)
        · rename_i hobj
          have hobj : obj = id := by simpa using hobj
          subst hobj
          exfalso
          have hm := ((AVLNode.findNode_spec g.tree_.tree r.address_ h.ordered
            (fun e he => (tree_bounds g h e he).2.2)).1 (a, len, obj)).1 hf
          obtain ⟨r2, k1, k2, _⟩ := (h.nodes _).1 hm.1
          rw [hr] at k1
          simp only [Option.some.injEq] at k1
          subst k1
          rw [ha] at k2
          exact absurd k2 (by decide)

/-- The facts `Inv` hold in every state that can be reached. -/
theorem reachable_inv (g : VAddressRangeGroup) (h : Reachable g) : Inv g := by
  induction h with
  | init => exact init_inv
  | allocate g g1 address size p _ hf e ih => exact allocate_inv g g1 ih address size p hf e
  | allocateFile g g1 disk disk1 address size file off p _ hf e ih =>
    exact allocateFile_inv g g1 ih disk disk1 address size file off p hf e
  | release g g1 id b _ e ih => exact (release_inv g g1 ih id b e).1

end VAddressRangeGroup
end Registry

namespace Registry
namespace VAddressRangeGroup

/-- What `AllocateVAddressRange` returns after `Init` on the range: the range
`i`, now in the list of the group. -/
theorem linkRange_result (g g1 : VAddressRangeGroup) (i : Nat) (r1 : VAddressRange)
    (p : Option Nat) (e : g.linkRange i r1 = some (p, g1)) :
    p = some i ∧ g1.vaddr_range_list_ = g.vaddr_range_list_.set i r1 ∧
      g1.free_vaddr_ranges_ = (g.free_vaddr_ranges_ + 2 ^ 32 - 1) % 2 ^ 32 := by
  unfold linkRange at e
  simp only at e
  split at e
  · exact absurd e (by simp)
  · split at e
    · exact absurd e (by simp)
    · simp only [Option.some.injEq, Prod.mk.injEq] at e
      obtain ⟨e1, e2⟩ := e
      subst e1 e2
      exact ⟨rfl, rfl, rfl⟩

/-- A call of `AllocateVAddressRange(size)` that returns: NULL when 255 ranges
are active, and otherwise the first range that is not active. -/
theorem allocate_result (g g1 : VAddressRangeGroup) (h : Inv g) (address size : Nat)
    (p : Option Nat) (e : g.AllocateVAddressRange address size = some (p, g1)) :
    (p = none ↔ g.activeCount = INVALID_VADDRESS_RANGE_ID) ∧ (p = none → g1 = g) ∧
      ∀ i, p = some i → i < INVALID_VADDRESS_RANGE_ID ∧
        ∃ r r1, g.vaddr_range_list_[i]? = some r ∧ r.is_active_ = false ∧
          (∀ j < i, ∃ rj, g.vaddr_range_list_[j]? = some rj ∧ rj.is_active_ = true) ∧
          g1.vaddr_range_list_ = g.vaddr_range_list_.set i r1 ∧ r1.is_active_ = true ∧
          r1.vaddress_range_id_ = i ∧ r1.address_ = address ∧
          r1.size_ = RoundUpToPageSize size ∧
          g1.free_vaddr_ranges_ + 1 = g.free_vaddr_ranges_ := by
  obtain ⟨c1, c2⟩ := allocate_eq g h address size
  have hfree := h.free
  have hI : INVALID_VADDRESS_RANGE_ID = 255 := rfl
  rcases Nat.lt_or_ge g.activeCount INVALID_VADDRESS_RANGE_ID with hc | hc
  · obtain ⟨i, r, e2, e3, e4, e5, e6⟩ := c2 hc
    rw [e6] at e
    split at e
    · rename_i r1 hi
      obtain ⟨_, _, k3⟩ := range_init_true r r1 address size hi
      obtain ⟨l1, l2, l3⟩ := linkRange_result g g1 i r1 p e
      subst l1
      refine ⟨⟨fun hc2 => absurd hc2 (by simp), fun hc2 => by omega⟩,
        fun hc2 => absurd hc2 (by simp), ?_⟩
      intro i2 hi2
      simp only [Option.some.injEq] at hi2
      subst hi2
      refine ⟨e2, r, r1, e3, e4, e5, l2, by rw [k3], ?_, by rw [k3], by rw [k3], ?_⟩
      · rw [k3]
        exact (h.ids i r e3).1
      · rw [l3]
        omega
    · exact absurd e (by simp)
  · have := c1 (le_antisymm (activeCount_le g h).2 hc)
    rw [this] at e
    simp only [Option.some.injEq, Prod.mk.injEq] at e
    obtain ⟨e1, e2⟩ := e
    subst e1 e2
    exact ⟨⟨fun _ => le_antisymm (activeCount_le g h).2 hc, fun _ => rfl⟩, fun _ => rfl,
      fun i hi => absurd hi (by simp)⟩

/-- A call of `AllocateVAddressRange(size, hdd_filename, hdd_file_offset)` that
returns, in the same way. -/
theorem allocateFile_result (g g1 : VAddressRangeGroup) (h : Inv g) (disk disk1 : List HddFile)
    (address size file off : Nat) (p : Option Nat)
    (e : g.AllocateVAddressRangeFile disk address size file off = some (p, g1, disk1)) :
    (p = none ↔ g.activeCount = INVALID_VADDRESS_RANGE_ID) ∧ (p = none → g1 = g) ∧
      ∀ i, p = some i → i < INVALID_VADDRESS_RANGE_ID ∧
        ∃ r r1, g.vaddr_range_list_[i]? = some r ∧ r.is_active_ = false ∧
          (∀ j < i, ∃ rj, g.vaddr_range_list_[j]? = some rj ∧ rj.is_active_ = true) ∧
          g1.vaddr_range_list_ = g.vaddr_range_list_.set i r1 ∧ r1.is_active_ = true ∧
          r1.vaddress_range_id_ = i ∧ r1.address_ = address ∧
          r1.size_ = RoundUpToPageSize size ∧
          g1.free_vaddr_ranges_ + 1 = g.free_vaddr_ranges_ := by
  obtain ⟨c1, c2⟩ := allocateFile_eq g h disk address size file off
  have hfree := h.free
  have hI : INVALID_VADDRESS_RANGE_ID = 255 := rfl
  rcases Nat.lt_or_ge g.activeCount INVALID_VADDRESS_RANGE_ID with hc | hc
  · obtain ⟨i, r, e2, e3, e4, e5, e6⟩ := c2 hc
    rw [e6] at e
    split at e
    · rename_i r1 d1 hi
      obtain ⟨_, _, k3, k4, k5, k6⟩ := range_initFile_true r r1 disk d1 address size file off hi
      cases hl : g.linkRange i r1 with
      | none =>
        rw [hl] at e
        exact absurd e (by simp)
      | some x =>
        obtain ⟨p2, g2⟩ := x
        rw [hl] at e
        simp only [Option.some.injEq, Prod.mk.injEq] at e
        obtain ⟨e7, e8, _⟩ := e
        subst e7 e8
        obtain ⟨l1, l2, l3⟩ := linkRange_result g g2 i r1 p2 hl
        subst l1
        refine ⟨⟨fun hc2 => absurd hc2 (by simp), fun hc2 => by omega⟩,
          fun hc2 => absurd hc2 (by simp), ?_⟩
        intro i2 hi2
        simp only [Option.some.injEq] at hi2
        subst hi2
        refine ⟨e2, r, r1, e3, e4, e5, l2, k3, ?_, k4, k5, ?_⟩
        · rw [k6]
          exact (h.ids i r e3).1
        · rw [l3]
          omega
    · exact absurd e (by simp)
  · have := c1 (le_antisymm (activeCount_le g h).2 hc)
    rw [this] at e
    simp only [Option.some.injEq, Prod.mk.injEq] at e
    obtain ⟨e1, e2, _⟩ := e
    subst e1 e2
    exact ⟨⟨fun _ => le_antisymm (activeCount_le g h).2 hc, fun _ => rfl⟩, fun _ => rfl,
      fun i hi => absurd hi (by simp)⟩

/-- `AllocateVAddressRange(size)` for a size from 1 to `2^64 - 4096` and a
fresh block, when fewer than 255 ranges are active: the call returns a
range. -/
theorem allocate_some (g : VAddressRangeGroup) (h : Inv g) (address size : Nat)
    (hc : g.activeCount < INVALID_VADDRESS_RANGE_ID) (h1 : 1 ≤ size) (h2 : size + 4095 < 2 ^ 64)
    (hf : Fresh g address size) :
    ∃ i g1, g.AllocateVAddressRange address size = some (some i, g1) := by
  obtain ⟨i, r, e2, e3, e4, e5, e6⟩ := (allocate_eq g h address size).2 hc
  obtain ⟨r1, hi⟩ := range_init_isSome r address size e4 h1 h2
  obtain ⟨_, k2, k3⟩ := range_init_true r r1 address size hi
  have hid := (h.ids i r e3).1
  obtain ⟨f1, f2, f3⟩ := hf
  have hp := page_size_pos
  obtain ⟨g2, l1, _⟩ := linkRange_spec g h i r r1 e2 e3 e4 (by rw [k3])
    (by rw [k3]; exact hid) (by rw [k3]; simp only; omega) (by rw [k3]; exact f1)
    (by rw [k3]; exact f2) (by rw [k3]; exact f3)
  refine ⟨i, g2, ?_⟩
  rw [e6, hi]
  exact l1

theorem fresh_init : Fresh (Init new).2 8192 5000 := by
  refine ⟨by decide, by decide, ?_⟩
  intro r hr ha
  obtain ⟨j, hj⟩ := List.getElem?_of_mem hr
  obtain ⟨_, rfl⟩ := init_getElem? j r hj
  simp [VAddressRange.new] at ha

end VAddressRangeGroup
end Registry

/-! ## vaddr_range.cc: lookup by address, identifiers, the records of a mapped file -/

namespace Registry
namespace VAddressRangeGroup

/-- The group after `Init` and one call `AllocateVAddressRange(5000)` that got
the block at 8192: range 0 is active with the 8192 bytes from 8192 on, and no
other range is active. -/
theorem allocate_first :
    ∃ g1 r1, (Init new).2.AllocateVAddressRange 8192 5000 = some (some 0, g1) ∧ Reachable g1 ∧
      g1.vaddr_range_list_ = (Init new).2.vaddr_range_list_.set 0 r1 ∧ r1.is_active_ = true ∧
      r1.address_ = 8192 ∧ r1.size_ = 8192 := by
  have hc : (Init new).2.activeCount < INVALID_VADDRESS_RANGE_ID := by
    rw [init_activeCount]
    decide
  obtain ⟨i, g1, e⟩ := allocate_some (Init new).2 init_inv 8192 5000 hc (by decide) (by decide)
    fresh_init
  obtain ⟨_, _, k⟩ := allocate_result (Init new).2 g1 init_inv 8192 5000 (some i) e
  obtain ⟨_, r, r1, _, _, k3, k4, k5, _, k7, k8, _⟩ := k i rfl
  have hi : i = 0 := by
    by_contra hne
    obtain ⟨rj, m1, m2⟩ := k3 0 (by omega)
    obtain ⟨_, rfl⟩ := init_getElem? 0 rj m1
    simp [VAddressRange.new] at m2
  subst hi
  refine ⟨g1, r1, e, Reachable.allocate _ _ _ _ _ Reachable.init fresh_init e, k4, k5, k7, ?_⟩
  rw [k8]
  decide

/-- C18: in every state of a group of ranges that can be reached from `Init`
by calls of `AllocateVAddressRange` (both overloads, each with a block that
meets no block of an active range) and `ReleaseVAddressRange`,
`FindVAddressRange(address)` returns the active range whose bytes
`[address_, address_ + size_)` hold `address`, and NULL when no active range
holds it.  The tree of the group is an AVL tree with the nodes of the active
ranges in the order of their addresses, and `FindNode` returns the node of the
tree that holds `address`, or NULL. -/
theorem C18_find_vaddress_range (g : VAddressRangeGroup) (h : Reachable g) (address : Nat) :
    (∀ (i : Nat) (r : VAddressRange), g.vaddr_range_list_[i]? = some r → r.is_active_ = true →
      r.address_ ≤ address → address < r.address_ + r.size_ →
      g.FindVAddressRange address = some i) ∧
    ((∀ (i : Nat) (r : VAddressRange), g.vaddr_range_list_[i]? = some r → r.is_active_ = true →
      ¬ (r.address_ ≤ address ∧ address < r.address_ + r.size_)) →
      g.FindVAddressRange address = none) ∧
    AVLNode.IsAvl g.tree_.tree ∧ AVLNode.Ordered g.tree_.tree ∧
    (∀ e, e ∈ AVLNode.toList g.tree_.tree ↔
      ∃ r, g.vaddr_range_list_[e.2.2]? = some r ∧ r.is_active_ = true ∧ r.address_ = e.1 ∧
        r.size_ = e.2.1) ∧
    FindNode g.tree_ address =
      (AVLNode.toList g.tree_.tree).find?
        (fun e => decide (e.1 ≤ address ∧ address < e.1 + e.2.1)) := by
  have hi := reachable_inv g h
  obtain ⟨f1, f2⟩ := findNode_group g hi address
  refine ⟨?_, ?_, hi.isAvl, hi.ordered, hi.nodes, ?_⟩
  · intro i r hr ha h1 h2
    unfold FindVAddressRange
    rw [f1 i r hr ha h1 h2]
  · intro hno
    unfold FindVAddressRange
    rw [f2 hno]
  · exact AVLNode.findNode_eq_find? address g.tree_.tree hi.ordered
      (fun e he => (tree_bounds g hi e he).2.2)

theorem C18_find_vaddress_range_witness :
    ∃ g1, (Init new).2.AllocateVAddressRange 8192 5000 = some (some 0, g1) ∧
      g1.FindVAddressRange 12000 = some 0 ∧ g1.FindVAddressRange 4096 = none := by
  obtain ⟨g1, r1, e, hre, k1, k2, k3, k4⟩ := allocate_first
  have hl : 0 < (Init new).2.vaddr_range_list_.length := by
    rw [init_inv.list_length]
    decide
  have h0 : g1.vaddr_range_list_[0]? = some r1 := by
    rw [k1, List.getElem?_set_self hl]
  refine ⟨g1, e, (C18_find_vaddress_range g1 hre 12000).1 0 r1 h0 k2 (by omega) (by omega),
    (C18_find_vaddress_range g1 hre 4096).2.1 ?_⟩
  intro i r hr ha
  by_cases hi : 0 = i
  · subst hi
    rw [h0] at hr
    simp only [Option.some.injEq] at hr
    subst hr
    omega
  · rw [k1, List.getElem?_set_ne hi] at hr
    obtain ⟨_, rfl⟩ := init_getElem? i r hr
    simp [VAddressRange.new] at ha

/-- C19: after `VAddressRangeGroup::Init` the group has 255 free ranges, and
in every state that can be reached from there by calls of
`AllocateVAddressRange` (both overloads) and `ReleaseVAddressRange`: every
active range has its index in the list as identifier, which is below 255, and
no two ranges of the list have the same identifier;
`GetFreeVAddressRangeNumber()` is 255 less the number of active ranges; a call
of `AllocateVAddressRange` that returns gives NULL exactly when 255 ranges are
active, and otherwise the range with the lowest identifier that is not active,
which is active afterwards; with 255 active ranges the call returns NULL and
changes nothing, and with fewer, a size from 1 to `2^64 - 4096` and a fresh
block it returns a range; `ReleaseVAddressRange` on an active range returns
true and leaves the range not active, with one more free range, in a state in
which all of this holds again. -/
theorem C19_vrange_id_pool (g : VAddressRangeGroup) (h : Reachable g) :
    (Init new).2.GetFreeVAddressRangeNumber = 255 ∧
    (∀ (i : Nat) (r : VAddressRange), g.vaddr_range_list_[i]? = some r →
      r.vaddress_range_id_ = i ∧ (r.is_active_ = true → i < 255)) ∧
    g.GetFreeVAddressRangeNumber + g.activeCount = 255 ∧
    (∀ (address size : Nat) (p : Option Nat) (g1 : VAddressRangeGroup),
      g.AllocateVAddressRange address size = some (p, g1) →
      (p = none ↔ g.activeCount = 255) ∧ (p = none → g1 = g) ∧
      ∀ i, p = some i → i < 255 ∧
        ∃ r r1, g.vaddr_range_list_[i]? = some r ∧ r.is_active_ = false ∧
          (∀ j < i, ∃ rj, g.vaddr_range_list_[j]? = some rj ∧ rj.is_active_ = true) ∧
          g1.vaddr_range_list_ = g.vaddr_range_list_.set i r1 ∧ r1.is_active_ = true ∧
          r1.vaddress_range_id_ = i ∧
          g1.GetFreeVAddressRangeNumber + 1 = g.GetFreeVAddressRangeNumber) ∧
    (∀ (disk disk1 : List HddFile) (address size file off : Nat) (p : Option Nat)
      (g1 : VAddressRangeGroup),
      g.AllocateVAddressRangeFile disk address size file off = some (p, g1, disk1) →
      (p = none ↔ g.activeCount = 255) ∧ (p = none → g1 = g) ∧
      ∀ i, p = some i → i < 255 ∧
        ∃ r r1, g.vaddr_range_list_[i]? = some r ∧ r.is_active_ = false ∧
          (∀ j < i, ∃ rj, g.vaddr_range_list_[j]? = some rj ∧ rj.is_active_ = true) ∧
          g1.vaddr_range_list_ = g.vaddr_range_list_.set i r1 ∧ r1.is_active_ = true ∧
          r1.vaddress_range_id_ = i ∧
          g1.GetFreeVAddressRangeNumber + 1 = g.GetFreeVAddressRangeNumber) ∧
    (g.activeCount = 255 → ∀ address size,
      g.AllocateVAddressRange address size = some (none, g)) ∧
    (g.activeCount < 255 → ∀ address size, 1 ≤ size → size + 4095 < 2 ^ 64 →
      Fresh g address size →
      ∃ i g1, g.AllocateVAddressRange address size = some (some i, g1) ∧ Reachable g1) ∧
    (∀ (id : Nat) (r : VAddressRange), g.vaddr_range_list_[id]? = some r →
      r.is_active_ = true →
      ∃ g1, g.ReleaseVAddressRange id = some (true, g1) ∧
        g1.vaddr_range_list_ = g.vaddr_range_list_.set id r.Release ∧
        r.Release.is_active_ = false ∧ r.Release.vaddress_range_id_ = id ∧
        g1.GetFreeVAddressRangeNumber = g.GetFreeVAddressRangeNumber + 1 ∧
        g1.activeCount + 1 = g.activeCount ∧ Reachable g1) := by
  have hi := reachable_inv g h
  have hI : INVALID_VADDRESS_RANGE_ID = 255 := rfl
  refine ⟨(init_fields new).2.2.1, ?_, hi.free, ?_, ?_, ?_, ?_, ?_⟩
  · intro i r hr
    obtain ⟨k1, _, k3⟩ := hi.ids i r hr
    exact ⟨k1, fun ha => (k3 ha).1⟩
  · intro address size p g1 e
    obtain ⟨k1, k2, k3⟩ := allocate_result g g1 hi address size p e
    refine ⟨k1, k2, ?_⟩
    intro i hp
    obtain ⟨m1, r, r1, m2, m3, m4, m5, m6, m7, _, _, m8⟩ := k3 i hp
    exact ⟨m1, r, r1, m2, m3, m4, m5, m6, m7, m8⟩
  · intro disk disk1 address size file off p g1 e
    obtain ⟨k1, k2, k3⟩ := allocateFile_result g g1 hi disk disk1 address size file off p e
    refine ⟨k1, k2, ?_⟩
    intro i hp
    obtain ⟨m1, r, r1, m2, m3, m4, m5, m6, m7, _, _, m8⟩ := k3 i hp
    exact ⟨m1, r, r1, m2, m3, m4, m5, m6, m7, m8⟩
  · intro hc address size
    exact (allocate_eq g hi address size).1 hc
  · intro hc address size h1 h2 hf
    obtain ⟨i, g1, e⟩ := allocate_some g hi address size hc h1 h2 hf
    exact ⟨i, g1, e, Reachable.allocate _ _ _ _ _ h hf e⟩
  · intro id r hr ha
    obtain ⟨g1, e, _, k1, k2, k3⟩ := release_active g hi id r hr ha
    have hrel : r.Release = { r with
        address_ := 0, memory := [], is_active_ := false, has_backing_hdd_file_ := false,
        v2h_map_ := [] } := by
      unfold VAddressRange.Release
      rw [if_pos ha]
    refine ⟨g1, e, k1, by rw [hrel], ?_, k2, k3, Reachable.release _ _ _ _ h e⟩
    rw [hrel]
    exact (hi.ids id r hr).1

theorem C19_vrange_id_pool_witness :
    ∃ g1 g2, (Init new).2.AllocateVAddressRange 8192 5000 = some (some 0, g1) ∧
      g1.GetFreeVAddressRangeNumber = 254 ∧ g1.ReleaseVAddressRange 0 = some (true, g2) ∧
      g2.GetFreeVAddressRangeNumber = 255 := by
  obtain ⟨g1, r1, e, hre, k1, k2, _, _⟩ := allocate_first
  have hl : 0 < (Init new).2.vaddr_range_list_.length := by
    rw [init_inv.list_length]
    decide
  have h0 : g1.vaddr_range_list_[0]? = some r1 := by
    rw [k1, List.getElem?_set_self hl]
  have c0 := C19_vrange_id_pool (Init new).2 Reachable.init
  obtain ⟨_, _, _, c4, _⟩ := c0
  obtain ⟨_, _, c5⟩ := c4 8192 5000 (some 0) g1 e
  obtain ⟨_, _, _, _, _, _, _, _, _, c6⟩ := c5 0 rfl
  have c7 : (Init new).2.GetFreeVAddressRangeNumber = 255 := (init_fields new).2.2.1
  obtain ⟨_, _, _, _, _, _, _, c8⟩ := C19_vrange_id_pool g1 hre
  obtain ⟨g2, d1, _, _, _, d5, _⟩ := c8 0 r1 h0 k2
  refine ⟨g1, g2, e, by omega, d1, by omega⟩

end VAddressRangeGroup
end Registry

namespace VAddressRange

theorem getElem?_markHddFile (n R i : Nat) (hi : i < R) :
    (markHddFile n (List.replicate R V2HMapMetadata.zero))[i]? =
      some { V2HMapMetadata.zero with exist_hdd_file := decide (i < n) } := by
  unfold markHddFile
  rw [List.getElem?_map, List.length_replicate, List.getElem?_range hi]
  simp only [Option.map_some']
  rw [List.getElem?_replicate, if_pos hi]
  simp only
  by_cases hn : i < n
  · rw [if_pos hn]
    simp [hn]
  · rw [if_neg hn]
    simp [hn, V2HMapMetadata.zero]

theorem number_pages_eq (size : Nat) (h : size + 4095 < 2 ^ 64) :
    RoundUpToPageSize size >>> PAGE_BITS = (size + 4095) / 4096 := by
  rw [Registry.VAddressRangeGroup.roundUp_eq size h, Nat.shiftRight_eq_div_pow]
  have : (2 : Nat) ^ PAGE_BITS = 4096 := by decide
  rw [this, Nat.mul_div_cancel _ (by decide)]

/-- C20: `VAddressRange::Init(size, hdd_filename, hdd_file_offset)` on a range
that is not active, with an offset that is a multiple of the page size, a size
from 1 to `2^64 - 4096` and a file of `S = st_size` bytes, returns true and
leaves `R = ceil(size / 4096)` V2H records; record `i` has `exist_hdd_file = 1`
exactly when `S > hdd_file_offset` and
`i < min(ceil((S - hdd_file_offset) / 4096), R)`, and every other field of
every record is 0. -/
theorem C20_init_file_on_disk (r : VAddressRange) (disk : List HddFile)
    (address size file off : Nat) (f : HddFile) (hr : r.is_active_ = false)
    (ho : off % PAGE_SIZE = 0) (hf : disk[file]? = some f) (h1 : 1 ≤ size)
    (h2 : size + 4095 < 2 ^ 64) :
    ∃ r1 disk1, r.InitFile disk address size file off = some (true, r1, disk1) ∧
      r1.number_pages_ = (size + 4095) / 4096 ∧ r1.v2h_map_.length = (size + 4095) / 4096 ∧
      ∀ i, i < (size + 4095) / 4096 →
        r1.v2h_map_[i]? = some
          { exist_page_cache := false, exist_ram_cache := false, exist_flash_cache := false,
            exist_hdd_file := decide (f.st_size > off ∧
              i < min ((f.st_size - off + 4095) / 4096) ((size + 4095) / 4096)),
            dirty_page_cache := false, dirty_ram_cache := false, dirty_flash_cache := false,
            flash_page_offset := 0 } := by
  obtain ⟨r0, e0⟩ := Registry.VAddressRangeGroup.range_init_isSome r address size hr h1 h2
  obtain ⟨_, _, k3⟩ := Registry.VAddressRangeGroup.range_init_true r r0 address size e0
  have hn := number_pages_eq size h2
  have hp : PAGE_SIZE = 4096 := by decide
  unfold InitFile
  rw [if_neg (by simp [hr]), if_neg (by simp [ho]), hf]
  simp only
  rw [e0]
  simp only
  refine ⟨_, _, rfl, ?_, ?_, ?_⟩
  · subst k3
    split_ifs <;> exact hn
  · subst k3
    split_ifs
    · simp only [markHddFile, List.length_map, List.length_range, List.length_replicate]
      exact hn
    · simp only [List.length_replicate]
      exact hn
  · intro i hi
    subst k3
    simp only [hn]
    by_cases hS : f.st_size > off
    · rw [if_pos hS]
      simp only
      rw [getElem?_markHddFile _ _ _ hi, hp]
      simp only [hS, true_and, V2HMapMetadata.zero]
      rfl
    · rw [if_neg hS]
      simp only
      rw [List.getElem?_replicate, if_pos hi]
      simp [hS, V2HMapMetadata.zero]

theorem C20_init_file_on_disk_witness :
    ∃ r1 disk1, VAddressRange.new.InitFile [{ st_size := 5000, content := [] }] 8192 12288 0 4096 =
        some (true, r1, disk1) ∧
      r1.v2h_map_.length = 3 ∧
      r1.v2h_map_[0]? = some { V2HMapMetadata.zero with exist_hdd_file := true } ∧
      r1.v2h_map_[1]? = some V2HMapMetadata.zero ∧
      r1.v2h_map_[2]? = some V2HMapMetadata.zero := by
  obtain ⟨r1, disk1, e, _, k2, k3⟩ := C20_init_file_on_disk VAddressRange.new
    [{ st_size := 5000, content := [] }] 8192 12288 0 4096 { st_size := 5000, content := [] }
    rfl (by decide) rfl (by decide) (by decide)
  refine ⟨r1, disk1, e, k2, ?_, ?_, ?_⟩
  · rw [k3 0 (by decide)]
    rfl
  · rw [k3 1 (by decide)]
    rfl
  · rw [k3 2 (by decide)]
    rfl

end VAddressRange

/-! ## Routing, flash size and RAM cache lookup -/

namespace System

/-- C21: for every number `n` of instances from 1 on (a `uint32_t`) and every
byte offset `o` in a range, `GetHybridMemory(o)` returns instance
`((o >> 12) >> 4) mod n`.  The index is below `n`; every offset of the same
chunk of 16 pages (the same `o >> 16`) gets the same instance; and the offsets
of the next chunk get the instance after it, modulo `n`. -/
theorem C21_tier_routing (s : System) (o : Nat) (hn : 1 ≤ s.number_hmem_instances_)
    (hn32 : s.number_hmem_instances_ < 2 ^ 32) :
    s.GetHybridMemory o = some (((o >>> 12) >>> 4) % s.number_hmem_instances_) ∧
    ((o >>> 12) >>> 4) % s.number_hmem_instances_ < s.number_hmem_instances_ ∧
    (∀ o1, o1 >>> 16 = o >>> 16 → s.GetHybridMemory o1 = s.GetHybridMemory o) ∧
    (∀ o1, o1 >>> 16 = o >>> 16 + 1 →
      s.GetHybridMemory o1 =
        some ((((o >>> 12) >>> 4) % s.number_hmem_instances_ + 1) % s.number_hmem_instances_)) := by
  have key : ∀ x, s.GetHybridMemory x = some (((x >>> 12) >>> 4) % s.number_hmem_instances_) := by
    intro x
    unfold GetHybridMemory
    rw [if_neg (by omega)]
    have hlt : ((x >>> PAGE_BITS) >>> VADDRESS_CHUNK_BITS) % s.number_hmem_instances_ <
        s.number_hmem_instances_ := Nat.mod_lt _ (by omega)
    rw [Nat.mod_eq_of_lt (by omega)]
    rfl
  have h16 : ∀ x : Nat, (x >>> 12) >>> 4 = x >>> 16 := by
    intro x
    rw [← Nat.shiftRight_add]
  refine ⟨key o, Nat.mod_lt _ (by omega), ?_, ?_⟩
  · intro o1 h1
    rw [key o1, key o, h16, h16, h1]
  · intro o1 h1
    rw [key o1, h16, h16, h1, Nat.add_mod]
    congr 1
    rcases Nat.lt_or_ge 1 s.number_hmem_instances_ with h2 | h2
    · rw [Nat.mod_eq_of_lt h2]
    · have : s.number_hmem_instances_ = 1 := by omega
      rw [this]
      simp [Nat.mod_one]

theorem C21_tier_routing_witness :
    GetHybridMemory
        { number_hmem_instances_ := 3, hmem_instances_ := [],
          vaddr_range_group := VAddressRangeGroup.Init, disk := [] } 200000 = some 0 ∧
      GetHybridMemory
        { number_hmem_instances_ := 3, hmem_instances_ := [],
          vaddr_range_group := VAddressRangeGroup.Init, disk := [] } 265536 = some 1 := by
  have h := C21_tier_routing
    { number_hmem_instances_ := 3, hmem_instances_ := [],
      vaddr_range_group := VAddressRangeGroup.Init, disk := [] } 200000 (by decide) (by decide)
  exact ⟨h.1, h.2.2.2 265536 (by decide)⟩

end System

namespace HybridMemory

/-- What `HybridMemory::Init` gives to the flash cache: `ssd_buffer_size` as
passed, rounded up to whole pages, while `ssd_buffer_size_` is rounded down to
whole megabytes. -/
theorem init_flash_pages (p r m id : Nat) (hm : HybridMemory)
    (h : HybridMemory.Init p r m id = some hm) :
    hm.ssd_buffer_size_ = ((m >>> 20) <<< 20) % 2 ^ 64 ∧
      hm.flash_cache_.total_flash_pages_ = RoundUpToPageSize m / PAGE_SIZE ∧
      hm.flash_cache_.f2v_map_.length = RoundUpToPageSize m / PAGE_SIZE ∧
      hm.flash_cache_.flash_file.length = RoundUpToPageSize m / PAGE_SIZE ∧
      hm.flash_cache_.flash_file_size_ = RoundUpToPageSize m / PAGE_SIZE * PAGE_SIZE ∧
      PageAllocationTable.Init (RoundUpToPageSize m / PAGE_SIZE) =
        some hm.flash_cache_.page_allocate_table_ ∧
      PageStatsTable.Init "pg-stats-table" (RoundUpToPageSize m / PAGE_SIZE) =
        some hm.flash_cache_.page_stats_table_ := by
  unfold HybridMemory.Init at h
  simp only at h
  split at h
  · cases hpc : PageCache.Init p with
    | none => rw [hpc] at h; exact absurd h (by simp)
    | some pc =>
      cases hrc : RAMCache.Init r with
      | none => rw [hpc, hrc] at h; exact absurd h (by simp)
      | some rc =>
        cases hfc : FlashCache.Init m with
        | none => rw [hpc, hrc, hfc] at h; exact absurd h (by simp)
        | some fc =>
          rw [hpc, hrc, hfc] at h
          simp only [Option.some.injEq] at h
          subst h
          simp only
          unfold FlashCache.Init at hfc
          simp only at hfc
          cases hpat : PageAllocationTable.Init (RoundUpToPageSize m / PAGE_SIZE) with
          | none => rw [hpat] at hfc; exact absurd hfc (by simp)
          | some pat =>
            cases hpst : PageStatsTable.Init "pg-stats-table" (RoundUpToPageSize m / PAGE_SIZE) with
            | none => rw [hpat, hpst] at hfc; exact absurd hfc (by simp)
            | some pst =>
              rw [hpat, hpst] at hfc
              simp only [Option.some.injEq] at hfc
              subst hfc
              simp
  · exact absurd h (by simp)

/-- C22 (failing input): `HybridMemory::Init` with `ssd_buffer_size` of one
megabyte and one page.  `ssd_buffer_size_` is one megabyte, which is 256 pages,
but the flash cache is made with 257 pages: its F2V table, its page allocation
table, its page stats table and its file are over 257 pages. -/
theorem C22_flash_size_not_rounded :
    ∃ hm, HybridMemory.Init 4096 8192 (2 ^ 20 + 4096) 0 = some hm ∧
      hm.ssd_buffer_size_ = 2 ^ 20 ∧ (2 ^ 20 + 4096) / 2 ^ 20 * 2 ^ 20 / 4096 = 256 ∧
      hm.flash_cache_.total_flash_pages_ = 257 ∧ hm.flash_cache_.f2v_map_.length = 257 ∧
      hm.flash_cache_.flash_file_size_ = 257 * 4096 ∧
      hm.flash_cache_.page_allocate_table_.free_pages_ = 257 ∧
      hm.flash_cache_.page_stats_table_.total_pages_ = 257 := by
  have hr : RoundUpToPageSize (2 ^ 20 + 4096) / PAGE_SIZE = 257 := by decide
  have hsome : ∃ hm, HybridMemory.Init 4096 8192 (2 ^ 20 + 4096) 0 = some hm := by
    obtain ⟨pat, e1, _⟩ := PageAllocationTable.init_spec 257 (by decide)
    have e2 := System.flashInit_of (2 ^ 20 + 4096) 257 pat hr e1
    have e3 : ∃ pst, PageStatsTable.Init "pg-stats-table" 257 = some pst := by
      unfold PageStatsTable.Init
      rw [if_neg (by decide)]
      exact ⟨_, rfl⟩
    obtain ⟨pst, e3⟩ := e3
    rw [e3] at e2
    have e4 : ∃ pc, PageCache.Init 4096 = some pc := by
      unfold PageCache.Init
      simp only
      rw [if_pos (by decide)]
      exact ⟨_, rfl⟩
    have e5 : ∃ rc, RAMCache.Init 8192 = some rc := by
      unfold RAMCache.Init
      simp only
      rw [if_pos (by decide)]
      exact ⟨_, rfl⟩
    obtain ⟨pc, e4⟩ := e4
    obtain ⟨rc, e5⟩ := e5
    unfold HybridMemory.Init
    simp only
    rw [if_pos (by decide), e4, e5, e2]
    exact ⟨_, rfl⟩
  obtain ⟨hm, e⟩ := hsome
  obtain ⟨k1, k2, k3, _, k5, k6, k7⟩ := init_flash_pages _ _ _ _ hm e
  rw [hr] at k2 k3 k5 k6 k7
  obtain ⟨_, _, _, k8, _⟩ := PageAllocationTable.init_some k6
  have k9 : hm.flash_cache_.page_stats_table_.total_pages_ = 257 := by
    unfold PageStatsTable.Init at k7
    rw [if_neg (by decide)] at k7
    simp only [Option.some.injEq] at k7
    rw [← k7]
  refine ⟨hm, e, ?_, by decide, k2, k3, ?_, k8, k9⟩
  · rw [k1]
    decide
  · rw [k5]
    decide

end HybridMemory

namespace RAMCache

/-- `GetItem` for an address that `Lookup` does not find: the call does not
return, since `lru_list_.Update(item)` runs with `item == NULL`. -/
theorem getItem_of_miss (rc : RAMCache) (virtual_address : Nat)
    (h : rc.Lookup virtual_address = some none) : rc.GetItem virtual_address = none := by
  unfold GetItem
  cases hc : check (virtual_address % PAGE_SIZE == 0) with
  | none => rfl
  | some u =>
    show (rc.Lookup virtual_address).bind _ = none
    rw [h]
    rfl

/-- C23 (failing input): the RAM cache of two pages that `Init` makes holds no
page; `Lookup` of the address 4096 returns NULL, and `GetItem(4096)` does not
return NULL: it does not return. -/
theorem C23_get_item_miss :
    ∃ rc, RAMCache.Init 8192 = some rc ∧ rc.lru_list_ = [] ∧ rc.hash_table_.chain = [] ∧
      rc.Lookup 4096 = some none ∧ rc.GetItem 4096 = none := by
  have e : ∃ rc, RAMCache.Init 8192 = some rc ∧ rc.lru_list_ = [] ∧ rc.hash_table_.chain = [] ∧
      rc.hash_table_.number_buckets_ = 1 := by
    unfold RAMCache.Init
    simp only
    rw [if_pos (by decide)]
    exact ⟨_, rfl, rfl, rfl, by decide⟩
  obtain ⟨rc, e1, e2, e3, e4⟩ := e
  have hl : rc.Lookup 4096 = some none := by
    unfold Lookup
    rw [if_neg (by omega), e3]
    rfl
  exact ⟨rc, e1, e2, e3, hl, getItem_of_miss rc 4096 hl⟩

end RAMCache

/-! ## Decay of the counters of a node -/

namespace PageStatsTableNode

/-- The loop of `ShiftRight` halves the entries `i .. i + todo - 1` of the node
and leaves every other cell of the array. -/
theorem shiftLoop_wordAt (nd : PageStatsTableNode) : ∀ (todo i : Nat) (arr : List Nat),
    nd.entries_ + i + todo ≤ arr.length →
    ∀ x, wordAt (shiftLoop nd todo i arr) x =
      if nd.entries_ + i ≤ x ∧ x < nd.entries_ + i + todo then wordAt arr x >>> 1
      else wordAt arr x
  | 0, i, arr, _, x => by
    rw [if_neg (by omega)]
    rfl
  | todo + 1, i, arr, h, x => by
    unfold shiftLoop
    rw [shiftLoop_wordAt nd todo (i + 1) _ (by simp only [List.length_set]; omega) x]
    by_cases hx : x = nd.entries_ + i
    · subst hx
      rw [if_neg (by omega), if_pos (by omega), wordAt_set_eq _ _ _ (by omega)]
    · rw [wordAt_set_ne _ _ _ _ (fun e => hx e.symm)]
      by_cases h1 : nd.entries_ + (i + 1) ≤ x ∧ x < nd.entries_ + (i + 1) + todo
      · rw [if_pos h1, if_pos (by omega)]
      · rw [if_neg h1, if_neg (by omega)]

theorem ShiftRight_wordAt (nd : PageStatsTableNode) (arr : List Nat) (bits : Nat)
    (h : nd.entries_ + nd.number_entries_ ≤ arr.length) (x : Nat) :
    wordAt (nd.ShiftRight arr bits) x =
      if nd.entries_ ≤ x ∧ x < nd.entries_ + nd.number_entries_ then wordAt arr x >>> 1
      else wordAt arr x := by
  unfold ShiftRight
  rw [shiftLoop_wordAt nd _ 0 arr (by omega) x]
  simp only [Nat.add_zero]

/-- The loop of `Increase`: the node is halved `k` times, where `k` is the
least number of halvings after which the entry and `delta` fit. -/
theorem increaseLoop_spec (nd : PageStatsTableNode) (index delta : Nat)
    (hi : index < nd.number_entries_) (hd : delta ≤ nd.entry_value_limit_) :
    ∀ (fuel : Nat) (arr : List Nat), nd.entries_ + nd.number_entries_ ≤ arr.length →
    wordAt arr (nd.entries_ + index) < 2 ^ fuel →
    ∃ k, k ≤ fuel ∧ (wordAt arr (nd.entries_ + index) >>> k) + delta ≤ nd.entry_value_limit_ ∧
      (∀ j < k, (wordAt arr (nd.entries_ + index) >>> j) + delta > nd.entry_value_limit_) ∧
      ∀ x, wordAt (increaseLoop nd index delta (fuel + 1) arr) x =
        if nd.entries_ ≤ x ∧ x < nd.entries_ + nd.number_entries_ then wordAt arr x >>> k
        else wordAt arr x
  | 0, arr, _, hlt => by
    have h0 : wordAt arr (nd.entries_ + index) = 0 := by
      simp only [Nat.pow_zero] at hlt
      omega
    refine ⟨0, le_refl _, by rw [h0]; simpa using hd, fun j hj => absurd hj (by omega), ?_⟩
    intro x
    unfold increaseLoop
    rw [if_neg (by rw [h0]; omega)]
    simp
  | fuel + 1, arr, hlen, hlt => by
    unfold increaseLoop
    by_cases hov : wordAt arr (nd.entries_ + index) + delta > nd.entry_value_limit_
    · rw [if_pos hov]
      have hs := ShiftRight_wordAt nd arr 1 hlen
      have hlen1 : nd.entries_ + nd.number_entries_ ≤ (nd.ShiftRight arr 1).length := by
        unfold ShiftRight
        rw [shiftLoop_length]
        exact hlen
      have hidx : wordAt (nd.ShiftRight arr 1) (nd.entries_ + index) =
          wordAt arr (nd.entries_ + index) >>> 1 := by
        rw [hs, if_pos (by omega)]
      obtain ⟨k, k1, k2, k3, k4⟩ := increaseLoop_spec nd index delta hi hd fuel
        (nd.ShiftRight arr 1) hlen1 (by
          rw [hidx, Nat.shiftRight_eq_div_pow]
          rw [Nat.pow_succ] at hlt
          omega)
      rw [hidx, ← Nat.shiftRight_add] at k2
      refine ⟨k + 1, by omega, by rw [Nat.add_comm k 1]; exact k2, ?_, ?_⟩
      · intro j hj
        cases j with
        | zero => simpa using hov
        | succ j =>
          have := k3 j (by omega)
          rw [hidx, ← Nat.shiftRight_add] at this
          rw [Nat.add_comm j 1]
          exact this
      · intro x
        rw [k4 x, hs x]
        by_cases hx : nd.entries_ ≤ x ∧ x < nd.entries_ + nd.number_entries_
        · rw [if_pos hx, if_pos hx, if_pos hx, ← Nat.shiftRight_add, Nat.add_comm 1 k]
        · rw [if_neg hx, if_neg hx, if_neg hx]
    · rw [if_neg hov]
      refine ⟨0, by omega, by simpa using Nat.le_of_not_gt hov,
        fun j hj => absurd hj (by omega), ?_⟩
      intro x
      simp

/-- C29 (as amended): `Increase(index, delta)` on a node of counters of `w`
bits (limit `2^w - 1`: 255 at the leaves, 65535 above) whose entry at `index`
would exceed the limit with `delta`.  The call returns; every counter of the
node is halved `k` times (rounding down), where `k ≥ 1` is the least number of
halvings after which the entry at `index` and `delta` fit, and then `delta` is
added to the entry at `index`: it holds `floor(old / 2^k) + delta`, every other
entry of the node holds `floor(old / 2^k)`, and no cell outside the node
changes.  When `delta ≤ 2^(w-1)` (the callers pass 1), `k = 1`. -/
theorem C29_increase_decay (w : Nat) (nd : PageStatsTableNode) (arr : List Nat)
    (index delta : Nat) (hw : 1 ≤ w) (hlim : nd.entry_value_limit_ = 2 ^ w - 1)
    (hi : index < nd.number_entries_) (hlen : nd.entries_ + nd.number_entries_ ≤ arr.length)
    (hd : delta ≤ 2 ^ w - 1)
    (hold : ∀ i < nd.number_entries_, wordAt arr (nd.entries_ + i) ≤ 2 ^ w - 1)
    (hov : wordAt arr (nd.entries_ + index) + delta > 2 ^ w - 1) :
    ∃ k arr1, nd.Increase w arr index delta = some arr1 ∧ 1 ≤ k ∧ k ≤ w ∧
      (wordAt arr (nd.entries_ + index) >>> k) + delta ≤ 2 ^ w - 1 ∧
      (∀ j < k, (wordAt arr (nd.entries_ + index) >>> j) + delta > 2 ^ w - 1) ∧
      arr1.length = arr.length ∧
      wordAt arr1 (nd.entries_ + index) = wordAt arr (nd.entries_ + index) / 2 ^ k + delta ∧
      (∀ i < nd.number_entries_, i ≠ index →
        wordAt arr1 (nd.entries_ + i) = wordAt arr (nd.entries_ + i) / 2 ^ k) ∧
      (∀ x, x < nd.entries_ ∨ nd.entries_ + nd.number_entries_ ≤ x →
        wordAt arr1 x = wordAt arr x) ∧
      (delta ≤ 2 ^ (w - 1) → k = 1) := by
  have hpos : 0 < 2 ^ w := Nat.two_pow_pos w
  have hd1 : delta ≤ nd.entry_value_limit_ := by rw [hlim]; exact hd
  obtain ⟨k, k1, k2, k3, k4⟩ := increaseLoop_spec nd index delta hi hd1 w arr hlen
    (by have := hold index hi; omega)
  rw [hlim] at k2 k3
  have hk : 1 ≤ k := by
    rcases Nat.eq_zero_or_pos k with h0 | h0
    · subst h0
      simp only [Nat.shiftRight_zero] at k2
      omega
    · exact h0
  have hl1 : (increaseLoop nd index delta (w + 1) arr).length = arr.length :=
    increaseLoop_length nd index delta _ arr
  have hidx : wordAt (increaseLoop nd index delta (w + 1) arr) (nd.entries_ + index) =
      wordAt arr (nd.entries_ + index) >>> k := by
    rw [k4, if_pos (by omega)]
  refine ⟨k, (increaseLoop nd index delta (w + 1) arr).set (nd.entries_ + index)
    ((wordAt (increaseLoop nd index delta (w + 1) arr) (nd.entries_ + index) + delta) % 2 ^ w),
    ?_, hk, k1, k2, k3, ?_, ?_, ?_, ?_, ?_⟩
  · unfold Increase
    rw [if_pos ⟨hi, hd1, hlen⟩]
  · simp only [List.length_set]
    exact hl1
  · rw [wordAt_set_eq _ _ _ (by rw [hl1]; omega), hidx, Nat.mod_eq_of_lt (by omega),
      Nat.shiftRight_eq_div_pow]
  · intro i hi2 hne
    rw [wordAt_set_ne _ _ _ _ (by omega), k4, if_pos (by omega), Nat.shiftRight_eq_div_pow]
  · intro x hx
    rw [wordAt_set_ne _ _ _ _ (by omega), k4, if_neg (by omega)]
  · intro hd2
    by_contra hne
    have h1 := k3 1 (by omega)
    have h2 := hold index hi
    have h3 : 2 ^ w = 2 * 2 ^ (w - 1) := by
      rw [← Nat.pow_succ']
      congr 1
      omega
    rw [Nat.shiftRight_eq_div_pow] at h1
    simp only [Nat.pow_one] at h1
    omega

theorem C29_increase_decay_witness :
    ∃ arr1, Increase 8 (PageStatsTableNode.Init 8 0 2) [255, 100] 0 1 = some arr1 ∧
      wordAt arr1 0 = 128 ∧ wordAt arr1 1 = 50 := by
  obtain ⟨k, arr1, e, _, _, _, _, _, r1, r2, _, r3⟩ :=
    C29_increase_decay 8 (PageStatsTableNode.Init 8 0 2) [255, 100] 0 1 (by decide) (by decide)
      (by decide) (by decide) (by decide)
      (by
        intro i hi
        have hi2 : i < 2 := hi
        interval_cases i <;> decide)
      (by decide)
  have hk := r3 (by decide)
  subst hk
  exact ⟨arr1, e, r1.trans (by decide), (r2 1 (by decide) (by decide)).trans (by decide)⟩

/-- C29 (counterexample): a leaf node of two counters that hold 255 and 100,
and `Increase(0, 200)`.  One halving gives 127, and `127 + 200` exceeds 255, so
the node is halved three times: the counters are `31 + 200 = 231` and 12
afterwards, not `127 + 200` and 50. -/
theorem C29_increase_halves_thrice :
    Increase 8 (PageStatsTableNode.Init 8 0 2) [255, 100] 0 200 = some [231, 12] ∧
      255 / 2 + 200 > 255 ∧ 100 / 2 = 50 := by
  decide

end PageStatsTableNode

/-! ## The interior counters as sums -/

namespace PageStatsTable

theorem sum_map_set (pe : List Nat) (p d : Nat) : ∀ (l : List Nat), l.Nodup → p < pe.length →
    (l.map (fun q => wordAt (pe.set p (wordAt pe p + d)) q)).sum =
      (l.map (fun q => wordAt pe q)).sum + (if p ∈ l then d else 0)
  | [], _, _ => by simp
  | x :: rest, hn, hp => by
    have ih := sum_map_set pe p d rest (List.nodup_cons.1 hn).2 hp
    rw [List.map_cons, List.sum_cons, List.map_cons, List.sum_cons, ih]
    by_cases hx : x = p
    · subst hx
      have hnot : x ∉ rest := (List.nodup_cons.1 hn).1
      rw [wordAt_set_eq _ _ _ hp, if_neg hnot, if_pos (List.mem_cons_self _ _)]
      omega
    · rw [wordAt_set_ne _ _ _ _ (Ne.symm hx)]
      by_cases hm : p ∈ rest
      · rw [if_pos hm, if_pos (List.mem_cons_of_mem _ hm)]
        omega
      · rw [if_neg hm, if_neg (by
          intro hc
          rcases List.mem_cons.1 hc with hc | hc
          · exact hx hc.symm
          · exact hm hc)]
        omega

/-- The sum of the selected leaf counters after one leaf counter has grown. -/
theorem sumCounts_set (t : PageStatsTable) (keep : Nat → Bool) (p d : Nat)
    (hp : p < t.total_pages_) (hl : p < t.pte_entries_.length) :
    sumCounts { t with pte_entries_ := t.pte_entries_.set p (wordAt t.pte_entries_ p + d) } keep =
      t.sumCounts keep + (if keep p then d else 0) := by
  unfold sumCounts
  show (((List.range t.total_pages_).filter keep).map
    (fun q => wordAt (t.pte_entries_.set p (wordAt t.pte_entries_ p + d)) q)).sum = _
  rw [sum_map_set _ _ _ _ (List.Nodup.filter _ (List.nodup_range _)) hl]
  congr 1
  by_cases hk : keep p = true
  · rw [if_pos hk, if_pos (List.mem_filter.2 ⟨List.mem_range.2 hp, hk⟩)]
  · rw [if_neg hk, if_neg (fun hc => hk (List.mem_filter.1 hc).2)]

/-- The sums do not look at the interior counters. -/
theorem sumCounts_entries (t : PageStatsTable) (keep : Nat → Bool) (en : List Nat) :
    sumCounts { t with pgd_pmd_entries_ := en } keep = t.sumCounts keep := rfl

end PageStatsTable

namespace PageStatsTable

theorem getElem?_wordAt (l : List Nat) (i : Nat) (h : i < l.length) :
    l[i]? = some (wordAt l i) := by
  rw [wordAt_eq_getElem _ _ h]
  exact List.getElem?_eq_getElem h

/-- One access without decay keeps the interior counters equal to the sums. -/
theorem sums_bump {N : Nat} {t : PageStatsTable} (h : OfInit N t) (hs : EntriesAreSums t)
    (p d : Nat) (hp : p < N) :
    EntriesAreSums { t with
      pte_entries_ := t.pte_entries_.set p (wordAt t.pte_entries_ p + d),
      pgd_pmd_entries_ :=
        (t.pgd_pmd_entries_.set (numberPmdNodesOf N + p / 4096)
          (wordAt t.pgd_pmd_entries_ (numberPmdNodesOf N + p / 4096) + d)).set
          (p / 4096 / (1 <<< pmdBitsOf N))
          (wordAt t.pgd_pmd_entries_ (p / 4096 / (1 <<< pmdBitsOf N)) + d) } := by
  obtain ⟨_, f1, f2, f3, _, _, f6, f7, _⟩ := ofInit_facts h
  have h1 := ofInit_update h (t.pte_entries_.set p (wordAt t.pte_entries_ p + d))
    ((t.pgd_pmd_entries_.set (numberPmdNodesOf N + p / 4096)
          (wordAt t.pgd_pmd_entries_ (numberPmdNodesOf N + p / 4096) + d)).set
          (p / 4096 / (1 <<< pmdBitsOf N))
          (wordAt t.pgd_pmd_entries_ (p / 4096 / (1 <<< pmdBitsOf N)) + d)) (by simp) (by simp)
  intro q hq
  have hq1 : q < N := by rw [← f1]; exact hq
  obtain ⟨a1, a2⟩ := hs q hq
  rw [pmdAccessCount_eq h q hq1] at a1
  rw [pgdAccessCount_eq h q hq1] at a2
  obtain ⟨i1, _, _, i4, _⟩ := page_index_facts N p hp
  obtain ⟨j1, _, _, j4, _⟩ := page_index_facts N q hq1
  obtain ⟨s1, _, s3, _⟩ := shift_facts N p
  obtain ⟨r1, _, r3, _⟩ := shift_facts N q
  have hne : numberPmdNodesOf N + p / 4096 ≠ p / 4096 / (1 <<< pmdBitsOf N) := by omega
  have hne2 : p / 4096 / (1 <<< pmdBitsOf N) ≠ numberPmdNodesOf N + q / 4096 := by omega
  have hne3 : numberPmdNodesOf N + p / 4096 ≠ q / 4096 / (1 <<< pmdBitsOf N) := by omega
  rw [pmdAccessCount_eq h1 q hq1, pgdAccessCount_eq h1 q hq1]
  have hp1 : p < t.total_pages_ := by rw [f1]; exact hp
  have hp2 : p < t.pte_entries_.length := by rw [f6]; exact hp
  have e1 : ∀ keep, sumCounts { t with
      pte_entries_ := t.pte_entries_.set p (wordAt t.pte_entries_ p + d),
      pgd_pmd_entries_ :=
        (t.pgd_pmd_entries_.set (numberPmdNodesOf N + p / 4096)
          (wordAt t.pgd_pmd_entries_ (numberPmdNodesOf N + p / 4096) + d)).set
          (p / 4096 / (1 <<< pmdBitsOf N))
          (wordAt t.pgd_pmd_entries_ (p / 4096 / (1 <<< pmdBitsOf N)) + d) } keep =
      t.sumCounts keep + (if keep p then d else 0) :=
    fun keep => sumCounts_set t keep p d hp1 hp2
  rw [e1, e1]
  show ((t.pgd_pmd_entries_.set (numberPmdNodesOf N + p / 4096)
          (wordAt t.pgd_pmd_entries_ (numberPmdNodesOf N + p / 4096) + d)).set
          (p / 4096 / (1 <<< pmdBitsOf N))
          (wordAt t.pgd_pmd_entries_ (p / 4096 / (1 <<< pmdBitsOf N)) + d))[
            numberPmdNodesOf N + q / 4096]? = _ ∧
    ((t.pgd_pmd_entries_.set (numberPmdNodesOf N + p / 4096)
          (wordAt t.pgd_pmd_entries_ (numberPmdNodesOf N + p / 4096) + d)).set
          (p / 4096 / (1 <<< pmdBitsOf N))
          (wordAt t.pgd_pmd_entries_ (p / 4096 / (1 <<< pmdBitsOf N)) + d))[
            q / 4096 / (1 <<< pmdBitsOf N)]? = _
  rw [List.getElem?_set_ne hne2]
  have l1 : numberPmdNodesOf N + q / 4096 < t.pgd_pmd_entries_.length := by omega
  have l2 : q / 4096 / (1 <<< pmdBitsOf N) < t.pgd_pmd_entries_.length := by omega
  have l3 : numberPmdNodesOf N + p / 4096 < t.pgd_pmd_entries_.length := by omega
  have l4 : p / 4096 / (1 <<< pmdBitsOf N) < t.pgd_pmd_entries_.length := by omega
  constructor
  · by_cases hc : q / 4096 = p / 4096
    · rw [hc, List.getElem?_set_self l3]
      rw [hc, getElem?_wordAt _ _ l3] at a1
      have a3 := Option.some.inj a1
      rw [a3, f2, s1, r1, hc]
      simp
    · rw [List.getElem?_set_ne (by omega), a1, f2, s1, r1]
      have : ¬ (p / 4096 = q / 4096) := fun hx => hc hx.symm
      simp [this]
  · by_cases hc : q / 4096 / (1 <<< pmdBitsOf N) = p / 4096 / (1 <<< pmdBitsOf N)
    · rw [hc, List.getElem?_set_self (by rw [List.length_set]; exact l4)]
      rw [hc, getElem?_wordAt _ _ l4] at a2
      have a3 := Option.some.inj a2
      rw [a3, f2, f3, s3, r3, hc]
      simp
    · rw [List.getElem?_set_ne (fun hx => hc hx.symm), List.getElem?_set_ne hne3, a2, f2, f3,
        s3, r3]
      have : ¬ (p / 4096 / (1 <<< pmdBitsOf N) = q / 4096 / (1 <<< pmdBitsOf N)) :=
        fun hx => hc hx.symm
      simp [this]

end PageStatsTable

namespace PageStatsTable

theorem sumCounts_zero (t : PageStatsTable) (keep : Nat → Bool)
    (h : ∀ q, wordAt t.pte_entries_ q = 0) : t.sumCounts keep = 0 := by
  unfold sumCounts
  apply List.sum_eq_zero
  intro x hx
  obtain ⟨q, _, rfl⟩ := List.mem_map.1 hx
  exact h q

theorem wordAt_replicate_zero (n q : Nat) : wordAt (List.replicate n 0) q = 0 := by
  unfold wordAt
  rw [List.getD_eq_getElem?_getD]
  by_cases hq : q < n
  · rw [List.getElem?_replicate, if_pos hq]
    rfl
  · rw [List.getElem?_eq_none (by simpa using hq)]
    rfl

theorem init_arrays (name : String) (N : Nat) (t : PageStatsTable) (h : Init name N = some t) :
    t.pte_entries_ = List.replicate N 0 ∧
      t.pgd_pmd_entries_ = List.replicate (numberPmdNodesOf N + numberPteNodesOf N) 0 := by
  unfold Init at h
  split at h
  · exact absurd h (by simp)
  · simp only [Option.some.injEq] at h
    subst h
    exact ⟨rfl, rfl⟩

/-- The table that `Init` returns has every counter at 0. -/
theorem init_sums (name : String) (N : Nat) (t : PageStatsTable) (h : Init name N = some t) :
    OfInit N t ∧ EntriesAreSums t := by
  have ho : OfInit N t := ⟨name, t, h, rfl, rfl, rfl⟩
  refine ⟨ho, ?_⟩
  obtain ⟨e1, e2⟩ := init_arrays name N t h
  obtain ⟨_, f1, _, _, _, _, _, f7, _⟩ := ofInit_facts ho
  intro q hq
  have hq1 : q < N := by rw [← f1]; exact hq
  obtain ⟨j1, _, _, j4, _⟩ := page_index_facts N q hq1
  have hz : ∀ q, wordAt t.pte_entries_ q = 0 := by
    intro q
    rw [e1]
    exact wordAt_replicate_zero _ _
  rw [pmdAccessCount_eq ho q hq1, pgdAccessCount_eq ho q hq1, sumCounts_zero _ _ hz,
    sumCounts_zero _ _ hz, getElem?_wordAt _ _ (by omega), getElem?_wordAt _ _ (by omega), e2,
    wordAt_replicate_zero, wordAt_replicate_zero]
  exact ⟨rfl, rfl⟩

/-- `IncreaseAccessCount` without decay keeps the interior counters equal to
the sums. -/
theorem increase_sums {N : Nat} {t t1 : PageStatsTable} (h : OfInit N t) (hs : EntriesAreSums t)
    (p delta a m g : Nat) (hd : delta ≤ 255) (ha : t.AccessCount p = some a)
    (hm : t.PMDAccessCount p = some m) (hg : t.PGDAccessCount p = some g)
    (h1 : a + delta ≤ 255) (h2 : m + delta ≤ 65535) (h3 : g + delta ≤ 65535)
    (hi : t.IncreaseAccessCount p delta = some t1) : OfInit N t1 ∧ EntriesAreSums t1 := by
  obtain ⟨_, f1, _, _, _, _, f6, f7, _⟩ := ofInit_facts h
  have hp : p < N := by
    unfold AccessCount at ha
    split at ha
    · exact absurd ha (by simp)
    · omega
  obtain ⟨j1, _, _, j4, _⟩ := page_index_facts N p hp
  rw [accessCount_eq h p hp] at ha
  rw [pmdAccessCount_eq h p hp] at hm
  rw [pgdAccessCount_eq h p hp] at hg
  have e := increase_eq h p delta a m g hp hd ha hm hg h1 h2 h3
  rw [e] at hi
  have wa : a = wordAt t.pte_entries_ p := by
    rw [getElem?_wordAt _ _ (by omega)] at ha
    exact (Option.some.inj ha).symm
  have wm : m = wordAt t.pgd_pmd_entries_ (numberPmdNodesOf N + p / 4096) := by
    rw [getElem?_wordAt _ _ (by omega)] at hm
    exact (Option.some.inj hm).symm
  have wg : g = wordAt t.pgd_pmd_entries_ (p / 4096 / (1 <<< pmdBitsOf N)) := by
    rw [getElem?_wordAt _ _ (by omega)] at hg
    exact (Option.some.inj hg).symm
  have e1 := Option.some.inj hi
  subst e1
  rw [wa, wm, wg]
  exact ⟨ofInit_update h _ _ (by simp) (by simp), sums_bump h hs p delta hp⟩

end PageStatsTable

namespace PageStatsTable

/-- The loop of `FindPagesWithMinCount` without decay keeps the interior
counters equal to the sums. -/
theorem findLoop_sums {N : Nat} {t : PageStatsTable} (h : OfInit N t) (a b jj : Nat)
    (pte pmd : PageStatsTableNode) (hpmd : t.pmds_[a]? = some pmd)
    (hb : b < pmd.number_entries_)
    (hpte : t.ptes_[a * (1 <<< pmdBitsOf N) + b]? = some pte) :
    ∀ (positions pe en : List Nat) (r : List Nat × List Nat × List Nat),
    positions.Nodup → (∀ pos ∈ positions, pos < pte.number_entries_) →
    pe.length = t.pte_entries_.length → en.length = t.pgd_pmd_entries_.length →
    (∀ pos ∈ positions, wordAt pe ((a * (1 <<< pmdBitsOf N) + b) * 4096 + pos) + 1 ≤ 255) →
    wordAt en (numberPmdNodesOf N + (a * (1 <<< pmdBitsOf N) + b)) + positions.length ≤ 65535 →
    wordAt en a + positions.length ≤ 65535 →
    EntriesAreSums { t with pte_entries_ := pe, pgd_pmd_entries_ := en } →
    findPagesLoop t a b jj pte pmd positions pe en = some r →
    EntriesAreSums { t with pte_entries_ := r.2.1, pgd_pmd_entries_ := r.2.2 }
  | [], pe, en, r, _, _, _, _, _, _, _, hs, hr => by
    simp only [findPagesLoop, Option.some.injEq] at hr
    subst hr
    exact hs
  | pos :: rest, pe, en, r, hn, hlt, l1, l2, c1, c2, c3, hs, hr => by
    obtain ⟨_, f1, _, _, _, _, f6, f7, _, f9, f10, f11, f12⟩ := ofInit_facts h
    obtain ⟨n1, n2⟩ := ofInit_lengths h
    have ha : a < numberPmdNodesOf N := by
      rw [← n2]
      exact (List.getElem?_eq_some_iff.1 hpmd).1
    obtain ⟨pmd1, k1, k2, k3, k4⟩ := f9 a ha
    rw [hpmd] at k1
    have k1 := Option.some.inj k1
    subst k1
    obtain ⟨j1, j2, j3, j4, j5⟩ := ofInit_pte_node h _ pte hpte
    have hE : 0 < 1 <<< pmdBitsOf N := by
      rw [Nat.one_shiftLeft]
      exact Nat.two_pow_pos _
    generalize hEE : 1 <<< pmdBitsOf N = E at *
    generalize hj : a * E + b = j at *
    have hpos := hlt pos (List.mem_cons_self _ _)
    have hbE : b < E := by omega
    have hjE : j / E = a := by
      rw [← hj, Nat.add_comm, Nat.add_mul_div_right _ _ hE, Nat.div_eq_of_lt hbE, Nat.zero_add]
    have hmin : min (numberPteNodesOf N) (a * E) = a * E := by omega
    have hp : j * 4096 + pos < N := by omega
    have hp4 : (j * 4096 + pos) / 4096 = j := by omega
    have i1 : pte.Increase 8 pe pos 1 =
        some (pe.set (j * 4096 + pos) (wordAt pe (j * 4096 + pos) + 1)) := by
      rw [PageStatsTableNode.Increase_of_le 8 pte pe pos 1 j5 hpos (by omega)
        (by rw [j3]; exact c1 pos (List.mem_cons_self _ _)), j3]
    have i2 : pmd.Increase 16 en b 1 =
        some (en.set (numberPmdNodesOf N + j) (wordAt en (numberPmdNodesOf N + j) + 1)) := by
      have e : pmd.entries_ + b = numberPmdNodesOf N + j := by omega
      rw [PageStatsTableNode.Increase_of_le 16 pmd en b 1 k4 hb (by omega)
        (by rw [e]; simp only [List.length_cons] at c2; omega), e]
    have hne : numberPmdNodesOf N + j ≠ a := by omega
    have i3 : t.pgd_.Increase 16
        (en.set (numberPmdNodesOf N + j) (wordAt en (numberPmdNodesOf N + j) + 1)) a 1 =
        some ((en.set (numberPmdNodesOf N + j) (wordAt en (numberPmdNodesOf N + j) + 1)).set a
          (wordAt en a + 1)) := by
      rw [PageStatsTableNode.Increase_of_le 16 t.pgd_ _ a 1 f12 (by omega)
        (by rw [List.length_set]; omega)
        (by rw [f10, Nat.zero_add, wordAt_set_ne _ _ _ _ hne]
            simp only [List.length_cons] at c3; omega), f10, Nat.zero_add,
        wordAt_set_ne _ _ _ _ hne]
    unfold findPagesLoop at hr
    rw [i1] at hr
    simp only at hr
    rw [i2] at hr
    simp only at hr
    rw [i3] at hr
    simp only at hr
    split at hr
    · exact absurd hr (by simp)
    · rename_i r1 hr1
      have e := Option.some.inj hr
      subst e
      have ho := ofInit_update h pe en l1 l2
      have hb1 := sums_bump ho hs (j * 4096 + pos) 1 hp
      rw [hp4, hEE, hjE] at hb1
      have hb2 : EntriesAreSums { t with
          pte_entries_ := pe.set (j * 4096 + pos) (wordAt pe (j * 4096 + pos) + 1),
          pgd_pmd_entries_ :=
            (en.set (numberPmdNodesOf N + j) (wordAt en (numberPmdNodesOf N + j) + 1)).set a
              (wordAt en a + 1) } := hb1
      clear hb1
      have ih := findLoop_sums h a b jj pte pmd hpmd hb (by rw [hEE, hj]; exact hpte) rest
        (pe.set (j * 4096 + pos) (wordAt pe (j * 4096 + pos) + 1))
        ((en.set (numberPmdNodesOf N + j) (wordAt en (numberPmdNodesOf N + j) + 1)).set a
          (wordAt en a + 1)) r1
        (List.nodup_cons.1 hn).2 (fun p hpm => hlt p (List.mem_cons_of_mem _ hpm))
        (by rw [List.length_set]; exact l1) (by rw [List.length_set, List.length_set]; exact l2)
        (by
          intro p hpm
          have hne1 : p ≠ pos := by
            intro hx
            subst hx
            exact (List.nodup_cons.1 hn).1 hpm
          rw [hEE, hj, wordAt_set_ne _ _ _ _ (by omega)]
          exact c1 p (List.mem_cons_of_mem _ hpm))
        (by
          rw [hEE, hj, wordAt_set_ne _ _ _ _ (Ne.symm hne),
            wordAt_set_eq _ _ _ (by omega)]
          simp only [List.length_cons] at c2
          omega)
        (by
          rw [wordAt_set_eq _ _ _ (by rw [List.length_set]; omega)]
          simp only [List.length_cons] at c3
          omega)
        hb2 hr1
      exact ih

end PageStatsTable

namespace PageStatsTable

theorem getMin_lt (nd : PageStatsTableNode) (arr : List Nat) (b : Nat)
    (h : nd.GetMinEntryIndex arr = some b) : b < nd.number_entries_ := by
  by_cases h1 : nd.number_entries_ = 1
  · unfold PageStatsTableNode.GetMinEntryIndex at h
    rw [if_pos h1] at h
    have := Option.some.inj h
    omega
  · have h0 := h
    unfold PageStatsTableNode.GetMinEntryIndex at h
    rw [if_neg h1] at h
    split at h
    · exact absurd h (by simp)
    · rename_i hc
      obtain ⟨i, e, hi⟩ := PageStatsTableNode.GetMinEntryIndex_isSome nd arr (by omega) (by omega)
      rw [h0] at e
      have := Option.some.inj e
      omega

/-- `FindPagesWithMinCount` without decay keeps the interior counters equal to
the sums. -/
theorem find_sums {N : Nat} {t t1 : PageStatsTable} (h : OfInit N t) (hs : EntriesAreSums t)
    (k n : Nat) (pages : List Nat) (h1 : ∀ i, wordAt t.pte_entries_ i + 1 ≤ 255)
    (h2 : ∀ i, wordAt t.pgd_pmd_entries_ i + k ≤ 65535)
    (hf : t.FindPagesWithMinCount k = some (n, pages, t1)) :
    OfInit N t1 ∧ EntriesAreSums t1 := by
  obtain ⟨_, f1, f2, f3, _, _, f6, f7, _, f9, f10, f11, f12⟩ := ofInit_facts h
  obtain ⟨n1, n2⟩ := ofInit_lengths h
  unfold FindPagesWithMinCount at hf
  split at hf
  · exact absurd hf (by simp)
  · split at hf
    · exact absurd hf (by simp)
    · rename_i a ha
      split at hf
      · exact absurd hf (by simp)
      · rename_i pmd hpmd
        split at hf
        · exact absurd hf (by simp)
        · rename_i b hb
          simp only at hf
          split at hf
          · exact absurd hf (by simp)
          · rename_i pte hpte
            split at hf
            · exact absurd hf (by simp)
            · rename_i positions hpos
              split at hf
              · rename_i hlen
                split at hf
                · exact absurd hf (by simp)
                · rename_i r hr
                  obtain ⟨_, g2, g3⟩ := findPagesLoop_pages _ _ _ _ _ _ _ _ _ _ hr
                  simp only [Option.some.injEq, Prod.mk.injEq] at hf
                  obtain ⟨_, _, e3⟩ := hf
                  subst e3
                  have hbl := getMin_lt pmd _ b hb
                  have hal : a < numberPmdNodesOf N := by
                    rw [← n2]
                    exact (List.getElem?_eq_some_iff.1 hpmd).1
                  obtain ⟨pmd1, k1, _, k3, _⟩ := f9 a hal
                  rw [hpmd] at k1
                  have k1 := Option.some.inj k1
                  subst k1
                  have hbE : b < 2 ^ pmdBitsOf N := by
                    rw [k3, Nat.one_shiftLeft] at hbl
                    omega
                  have hj : (a <<< t.pmd_bits_) ||| b = a * (1 <<< pmdBitsOf N) + b := by
                    rw [f3, PageAllocationTable.shiftLeft_or_of_lt _ _ _ hbE, Nat.one_shiftLeft]
                  rw [hj] at hpte
                  obtain ⟨_, _, s3, s4, s5, _⟩ :=
                    PageStatsTableNode.GetSmallestEntryPositions_spec pte _ k _ positions hpos
                  refine ⟨ofInit_ties (ofInit_update h _ _ g2 g3) _, ?_⟩
                  have hs0 : EntriesAreSums { t with
                      pte_entries_ := t.pte_entries_,
                      pgd_pmd_entries_ := t.pgd_pmd_entries_ } := hs
                  have hs1 := findLoop_sums h a b _ pte pmd hpmd hbl hpte positions _ _ r s4 s5
                    rfl rfl (fun pos _ => h1 _) (by rw [s3]; exact h2 _) (by rw [s3]; exact h2 _)
                    hs0 hr
                  exact hs1
              · exact absurd hf (by simp)

/-- C30 (as amended): in every state that calls of `IncreaseAccessCount` and of
`FindPagesWithMinCount` lead to from `PageStatsTable::Init` without a counter
reaching its limit (so that `ShiftRight` never runs), for every page the PMD
entry that encloses it equals the sum of the leaf counters of the pages of its
PTE node, and the PGD entry that encloses it equals the sum of the leaf
counters of the pages of its PMD node. -/
theorem C30_pst_sums_without_decay (N : Nat) (t : PageStatsTable)
    (h : NoDecayReachable N t) : OfInit N t ∧ t.EntriesAreSums := by
  induction h with
  | init name t h => exact init_sums name N t h
  | increase t t1 p delta a m g _ hd ha hm hg h1 h2 h3 hs ih =>
    exact increase_sums ih.1 ih.2 p delta a m g hd ha hm hg h1 h2 h3 hs
  | find t t1 k n pages _ h1 h2 hs ih => exact find_sums ih.1 ih.2 k n pages h1 h2 hs

/-- C30 (counterexample): in the table over 3 pages, after
`IncreaseAccessCount(0, 255)` and `IncreaseAccessCount(0, 1)` the leaf counters
are 128, 0 and 0 (the PTE node was halved), while the PMD entry and the PGD
entry are both 256: interior entries are not the sums of the leaf counters. -/
theorem C30_pst_entries_not_sums :
    ∃ t0 t1 t2, Init "pg-stats-table" 3 = some t0 ∧ t0.IncreaseAccessCount 0 255 = some t1 ∧
      t1.IncreaseAccessCount 0 1 = some t2 ∧
      t2.AccessCount 0 = some 128 ∧ t2.AccessCount 1 = some 0 ∧ t2.AccessCount 2 = some 0 ∧
      t2.PMDAccessCount 0 = some 256 ∧ t2.PGDAccessCount 0 = some 256 ∧
      t2.sumCounts (fun q => q >>> t2.pte_bits_ == 0 >>> t2.pte_bits_) = 128 ∧
      ¬ t2.EntriesAreSums := by
  refine ⟨table3 [0, 0, 0] [0, 0], table3 [255, 0, 0] [255, 255], table3 [128, 0, 0] [256, 256],
    by decide, by decide, by decide, by decide, by decide, by decide, by decide, by decide,
    by decide, ?_⟩
  intro hc
  exact absurd (hc 0 (by decide)).1 (by decide)

/-- C30 applies to the table over 3 pages after `IncreaseAccessCount(2, 200)`:
the PMD entry and the PGD entry are 200, the sum of the leaf counters 0, 0 and
200. -/
theorem C30_pst_sums_without_decay_witness :
    ∃ t0 t, Init "pg-stats-table" 3 = some t0 ∧ t0.IncreaseAccessCount 2 200 = some t ∧
      t.PMDAccessCount 2 = some 200 ∧ NoDecayReachable 3 t ∧ OfInit 3 t ∧ t.EntriesAreSums := by
  have e : Init "pg-stats-table" 3 = some (table3 [0, 0, 0] [0, 0]) := by decide
  have hr : NoDecayReachable 3 (table3 [0, 0, 200] [200, 200]) :=
    NoDecayReachable.increase _ _ 2 200 0 0 0 (NoDecayReachable.init _ _ e) (by decide)
      (by decide) (by decide) (by decide) (by decide) (by decide) (by decide) (by decide)
  exact ⟨_, _, e, by decide, by decide, hr, C30_pst_sums_without_decay 3 _ hr⟩

end PageStatsTable

/-! ## A page that the page cache drops -/

namespace System

set_option maxRecDepth 100000 in
set_option synthInstance.maxSize 2000 in
set_option synthInstance.maxHeartbeats 400000 in
/-- C38 (failing input): one tier with a page cache of 3 pages, a RAM cache of
2 pages and a flash cache of 256 pages serves a range of 8 pages mapped on a
file whose pages hold 100 .. 107.  The program writes 1 .. 7 to the pages
0 .. 6 and reads the pages 4 and 5.  Page 6 is then the oldest entry of the
page cache, dirty, with no copy in the RAM cache, and both items of the RAM
cache belong to the pages 4 and 5, which are in the page cache.  In this state
`RAMCache::AddPage` for page 6 returns false (`EvictItems` finds nothing to
evict), and `PageCache::EvictItems` returns 3 and leaves page 6 with
`exist_page_cache = 0`, `exist_ram_cache = 0` and `exist_flash_cache = 0`, its
memory discarded (content 0, no access), no item of the RAM cache with its
address as key, and the file still holding 106 for it: the 7 written is
lost. -/
theorem C38_evict_drops_only_copy :
    ((InitHybridMemory
        [{ st_size := 8 * 4096, content := [100, 101, 102, 103, 104, 105, 106, 107] }]
        (3 * 4096) (2 * 4096) (1 <<< 20) 1).bind (fun s0 =>
      (s0.hmem_map 65536 (8 * 4096) 0 0).bind (fun r =>
        (run [Access.write 65536 1, Access.write (65536 + 4096) 2,
              Access.write (65536 + 2 * 4096) 3, Access.write (65536 + 3 * 4096) 4,
              Access.write (65536 + 4 * 4096) 5, Access.write (65536 + 5 * 4096) 6,
              Access.write (65536 + 6 * 4096) 7, Access.read (65536 + 4 * 4096),
              Access.read (65536 + 5 * 4096)] r.2).bind (fun q =>
          (RAMCache.AddPage q.2 0 (65536 + 6 * 4096) 4096 true (0, 6) 0).bind (fun a =>
            (PageCache.EvictItems q.2 0).map (fun e =>
              (q.2.v2h (0, 6),
               (q.2.hmem 0).map (fun hm => hm.page_cache_.queue_.map
                 (fun i => (hm.page_cache_.items[i]?).map (·.page))),
               a.1, e.1, e.2.v2h (0, 6),
               (e.2.hmem 0).map (fun hm => hm.ram_cache_.items.map (·.hash_key)),
               (e.2.vaddr_range_group.vaddr_range_list_[0]?).map (fun r => r.memory[6]?),
               e.2.disk.map (·.content)))))))) =
      some
        (some { exist_page_cache := true, exist_ram_cache := false, exist_flash_cache := false,
                exist_hdd_file := true, dirty_page_cache := true, dirty_ram_cache := false,
                dirty_flash_cache := false, flash_page_offset := 0 },
         some [some (65536 + 6 * 4096), some (65536 + 4 * 4096), some (65536 + 5 * 4096)],
         false, 3,
         some { exist_page_cache := false, exist_ram_cache := false, exist_flash_cache := false,
                exist_hdd_file := true, dirty_page_cache := false, dirty_ram_cache := false,
                dirty_flash_cache := false, flash_page_offset := 0 },
         some [65536 + 5 * 4096, 65536 + 4 * 4096],
         some (some { prot := PROT_NONE, data := 0 }),
         [[100, 101, 102, 103, 104, 105, 106, 107]]) := by
  rw [init_of _ _ _ _ (by decide),
    flashInit_of (1 <<< 20) 256 _ (by decide) PageAllocationTable.Init_256]
  decide!

end System

/-! ## The descriptor of a range for anonymous memory -/

namespace VAddressRange

/-- `Init(size, hdd_filename, hdd_file_offset)` stores the descriptor that
`open` returned. -/
theorem initFile_fd (r r1 : VAddressRange) (disk disk1 : List HddFile)
    (address size file off : Nat)
    (h : r.InitFile disk address size file off = some (true, r1, disk1)) :
    r1.hdd_file_fd_ = (file : Int) + 3 ∧ r1.has_backing_hdd_file_ = true := by
  unfold InitFile at h
  split at h
  · exact absurd h (by simp)
  · split at h
    · exact absurd h (by simp)
    · split at h
      · simp at h
      · split at h
        · exact absurd h (by simp)
        · simp at h
        · simp only [Option.some.injEq, Prod.mk.injEq, true_and] at h
          obtain ⟨h1, _⟩ := h
          subst h1
          split <;> exact ⟨rfl, rfl⟩

/-- `Release` leaves `hdd_file_fd_` as it is. -/
theorem release_fd (r : VAddressRange) :
    r.Release.hdd_file_fd_ = r.hdd_file_fd_ ∧
      r.Release.vaddress_range_id_ = r.vaddress_range_id_ ∧
      (r.is_active_ = true → r.Release.is_active_ = false) := by
  unfold Release
  split
  · exact ⟨rfl, rfl, fun _ => rfl⟩
  · rename_i h
    exact ⟨rfl, rfl, fun hc => absurd hc h⟩

end VAddressRange

namespace Registry
namespace VAddressRangeGroup

theorem init_no_active (r : VAddressRange) (h : r ∈ (Init new).2.vaddr_range_list_) :
    r.is_active_ = false := by
  obtain ⟨i, hi⟩ := List.mem_iff_getElem?.1 h
  obtain ⟨_, rfl⟩ := init_getElem? i r hi
  rfl

/-- C39 (failing input): after `VAddressRangeGroup::Init`, the file of 8192
bytes is mapped (`AllocateVAddressRange(5000, file, 0)` returns range 0, with
descriptor 3), the range is released, and `AllocateVAddressRange(5000)`
returns range 0 again, now for anonymous memory.  The range is active with
`has_backing_hdd_file_ == false`, and `hdd_file_fd()` is still 3, which is
greater than 0: neither `Release` nor `Init(size)` resets the field. -/
theorem C39_anonymous_range_keeps_fd :
    ∃ g1 g2 g3 disk1 r3,
      (Init new).2.AllocateVAddressRangeFile [{ st_size := 8192, content := [100, 101] }]
        8192 5000 0 0 = some (some 0, g1, disk1) ∧
      g1.ReleaseVAddressRange 0 = some (true, g2) ∧
      g2.AllocateVAddressRange 16384 5000 = some (some 0, g3) ∧
      g3.vaddr_range_list_[0]? = some r3 ∧ r3.is_active_ = true ∧
      r3.has_backing_hdd_file_ = false ∧ r3.hdd_file_fd_ = 3 ∧ r3.hdd_file_fd_ > 0 := by
  have hc0 : (Init new).2.activeCount < INVALID_VADDRESS_RANGE_ID := by
    rw [init_activeCount]
    decide
  obtain ⟨i, r, hi, hr, hra, hlow, e1⟩ :=
    (allocateFile_eq (Init new).2 init_inv [{ st_size := 8192, content := [100, 101] }]
      8192 5000 0 0).2 hc0
  have hi0 : i = 0 := by
    by_contra hne
    obtain ⟨rj, m1, m2⟩ := hlow 0 (by omega)
    obtain ⟨_, rfl⟩ := init_getElem? 0 rj m1
    simp [VAddressRange.new] at m2
  subst hi0
  obtain ⟨_, hr0⟩ := init_getElem? 0 r hr
  obtain ⟨r1, disk1, hI⟩ : ∃ r1 disk1,
      r.InitFile [{ st_size := 8192, content := [100, 101] }] 8192 5000 0 0 =
        some (true, r1, disk1) := by
    subst hr0
    exact ⟨_, _, rfl⟩
  obtain ⟨_, _, a3, a4, a5, a6⟩ := range_initFile_true _ _ _ _ _ _ _ _ hI
  obtain ⟨b1, _⟩ := VAddressRange.initFile_fd _ _ _ _ _ _ _ _ hI
  have hsz : RoundUpToPageSize 5000 = 8192 := by decide
  have hid : r1.vaddress_range_id_ = 0 := by
    rw [a6, hr0]
  obtain ⟨g1, l1, inv1, l3, _, l5⟩ := linkRange_spec (Init new).2 init_inv 0 r r1 (by decide) hr
    hra a3 hid (by rw [a5, hsz]; decide) (by rw [a4]; decide) (by rw [a4, a5, hsz]; decide)
    (fun r2 hm ha => absurd ha (by rw [init_no_active r2 hm]; decide))
  rw [hI] at e1
  simp only [l1] at e1
  have h10 : g1.vaddr_range_list_[0]? = some r1 := by
    rw [l3, List.getElem?_set_self (by rw [init_inv.list_length]; decide)]
  obtain ⟨g2, m1, inv2, m3, _, m5⟩ := release_active g1 inv1 0 r1 h10 a3
  obtain ⟨c1, c2, c3⟩ := VAddressRange.release_fd r1
  have h20 : g2.vaddr_range_list_[0]? = some r1.Release := by
    rw [m3, List.getElem?_set_self (by rw [inv1.list_length]; decide)]
  have hno2 : ∀ r2 ∈ g2.vaddr_range_list_, r2.is_active_ = false := by
    intro r2 hm
    rw [m3, l3, List.set_set] at hm
    rcases List.mem_or_eq_of_mem_set hm with hm | hm
    · exact init_no_active r2 hm
    · rw [hm]
      exact c3 a3
  have hc2 : g2.activeCount < INVALID_VADDRESS_RANGE_ID := by
    rw [init_activeCount] at l5
    have : g2.activeCount = 0 := by omega
    rw [this]
    decide
  obtain ⟨j, q, hj, hq, hqa, hlow2, e3⟩ := (allocate_eq g2 inv2 16384 5000).2 hc2
  have hj0 : j = 0 := by
    by_contra hne
    obtain ⟨rj, n1, n2⟩ := hlow2 0 (by omega)
    rw [h20] at n1
    have := Option.some.inj n1
    subst this
    rw [c3 a3] at n2
    exact absurd n2 (by decide)
  subst hj0
  rw [h20] at hq
  have hq := (Option.some.inj hq).symm
  subst hq
  obtain ⟨r3, hI3⟩ := range_init_isSome r1.Release 16384 5000 hqa (by decide) (by decide)
  obtain ⟨_, _, d3⟩ := range_init_true _ _ _ _ hI3
  have f1 : r3.is_active_ = true := by rw [d3]
  have f2 : r3.has_backing_hdd_file_ = false := by rw [d3]
  have f3 : r3.hdd_file_fd_ = 3 := by
    rw [d3]
    show r1.Release.hdd_file_fd_ = 3
    rw [c1, b1]
    rfl
  have f4 : r3.vaddress_range_id_ = 0 := by
    rw [d3]
    show r1.Release.vaddress_range_id_ = 0
    rw [c2, hid]
  have f5 : r3.address_ = 16384 := by rw [d3]
  have f6 : r3.size_ = 8192 := by
    rw [d3]
    exact hsz
  obtain ⟨g3, k1, _, k3, _⟩ := linkRange_spec g2 inv2 0 r1.Release r3 (by decide) h20 hqa f1 f4
    (by rw [f6]; decide) (by rw [f5]; decide) (by rw [f5, f6]; decide)
    (fun r2 hm ha => absurd ha (by rw [hno2 r2 hm]; decide))
  rw [hI3] at e3
  simp only [k1] at e3
  refine ⟨g1, g2, g3, disk1, r3, e1, m1, e3, ?_, f1, f2, f3, by rw [f3]; decide⟩
  rw [k3, List.getElem?_set_self (by rw [inv2.list_length]; decide)]

end VAddressRangeGroup
end Registry

/-! ## The assertions of the construction of the page allocation table -/

namespace PageAllocationTable

theorem wordAt_map_length (pmds : List PageAllocationTableNode) (i : Nat) :
    wordAt (pmds.map (fun nd => nd.entries_.length)) i =
      pmdField (fun nd => nd.entries_.length) pmds i := by
  unfold wordAt pmdField
  rw [List.getD_eq_getElem?_getD, List.getElem?_map]
  cases pmds[i]? <;> rfl

/-- The entries of the nodes of a well-formed table fill the array of
`number_all_pat_entries_` cells exactly. -/
theorem Inv.entries_total {N : Nat} {t : PageAllocationTable} (h : Inv N t) :
    t.pgd_.entries_.length + (t.pmds_.map (fun nd => nd.entries_.length)).sum =
      t.number_all_pat_entries_ := by
  rw [h.number_all]
  rcases levelsOf_cases N with hl | hl | hl
  · obtain ⟨e1, e2⟩ := h.level1 hl
    rw [e1, e2, if_pos hl]
    rfl
  · obtain ⟨e1, e2, _⟩ := h.level2 hl
    rw [e2, e1.length_entries, if_neg (by omega), if_pos hl]
    rfl
  · obtain ⟨e1, e2, _, e4, _⟩ := h.level3 hl
    rw [e4, if_neg (by omega), if_neg (by omega)]
    have hE := entriesPerPmdOf_pos N
    obtain ⟨c1, _, _⟩ := ceil_div_bounds (numberBitmapsOf N) (entriesPerPmdOf N) hE
    have hnp : numberPmdNodesOf N =
        (numberBitmapsOf N + (entriesPerPmdOf N - 1)) / entriesPerPmdOf N := rfl
    rw [← hnp] at c1
    have hl : (t.pmds_.map (fun nd => nd.entries_.length)) =
        (List.range (numberPmdNodesOf N)).map
          (fun i => min (entriesPerPmdOf N) (numberBitmapsOf N - i * entriesPerPmdOf N)) := by
      have := list_eq_map_range (t.pmds_.map (fun nd => nd.entries_.length))
        (fun i => min (entriesPerPmdOf N) (numberBitmapsOf N - i * entriesPerPmdOf N))
        (by
          intro j hj
          rw [List.length_map, e1] at hj
          obtain ⟨nd, k1, k2⟩ := e2 j hj
          rw [wordAt_map_length, pmdField_of_getElem? _ _ _ _ k1]
          exact k2.length_entries)
      rw [List.length_map, e1] at this
      exact this
    rw [hl, sum_range_min]
    omega

/-- C40: for every `N` from 1 to `2^24`, `PageAllocationTable::Init(N)`
returns: no assertion on its way fails.  The two assertions of
`PageAllocationTableNode::Init` hold for the PGD (with two levels and with
three) and for every PMD node; the count of set bits of each bitmap is what
the check at its level compares it with; `SanityCheck` passes; the total count
of set bits is `N`; and the entries of the PGD and of the PMD nodes together
fill exactly the `number_all_pat_entries_` cells of the array of interior
entries. -/
theorem C40_pat_init_never_aborts (N : Nat) (h1 : 1 ≤ N) (_h2 : N ≤ 2 ^ 24) :
    ∃ t, Init N = some t ∧
      (levelsOf N = 2 →
        ∃ nd, PageAllocationTableNode.Init (numberBitmapsOf N) PAGES_PER_BITMAP N = some nd) ∧
      (levelsOf N = 3 →
        (∃ nd, PageAllocationTableNode.Init (numberPmdNodesOf N)
          (entriesPerPmdOf N * PAGES_PER_BITMAP) N = some nd) ∧
        (∃ pmds, initPmds (entriesPerPmdOf N) PAGES_PER_BITMAP (numberPmdNodesOf N)
          (numberBitmapsOf N) N = some pmds ∧ pmds.length = numberPmdNodesOf N) ∧
        ∀ i, i < numberPmdNodesOf N →
          PAGES_PER_BITMAP *
              (min (entriesPerPmdOf N) (numberBitmapsOf N - i * entriesPerPmdOf N) - 1) <
            min (entriesPerPmdOf N * PAGES_PER_BITMAP)
              (N - i * (entriesPerPmdOf N * PAGES_PER_BITMAP)) ∧
          min (entriesPerPmdOf N * PAGES_PER_BITMAP)
              (N - i * (entriesPerPmdOf N * PAGES_PER_BITMAP)) ≤
            PAGES_PER_BITMAP *
              min (entriesPerPmdOf N) (numberBitmapsOf N - i * entriesPerPmdOf N)) ∧
      (levelsOf N = 1 → bitmapCount t.bitmaps_ 0 = N) ∧
      (levelsOf N = 2 → ∀ i, i < t.number_bitmaps_ →
        wordAt t.pgd_.entries_ i = bitmapCount t.bitmaps_ i) ∧
      SanityCheck t = some true ∧
      ((List.range t.number_bitmaps_).map (bitmapCount t.bitmaps_)).sum = N ∧
      t.pgd_.entries_.length + (t.pmds_.map (fun nd => nd.entries_.length)).sum =
        t.number_all_pat_entries_ := by
  have hN : 0 < N := h1
  obtain ⟨t, e, hinv, hs, _, _⟩ := init_spec N hN
  have hb := numberBitmapsOf_bounds N hN
  have hsum := sum_counts_full t.bitmaps_ N hN hinv.bitmaps_length hs
  refine ⟨t, e, ?_, ?_, ?_, ?_, sanity_of_inv hinv, by rw [hinv.number_bitmaps]; exact hsum,
    hinv.entries_total⟩
  · intro _
    rw [PAGES_PER_BITMAP_eq, PageAllocationTableNode.Init_eq _ _ _ hb.2.1 hb.2.2]
    exact ⟨_, rfl⟩
  · intro _
    have hE := entriesPerPmdOf_pos N
    obtain ⟨c1, c2, c3⟩ := ceil_div_bounds (numberBitmapsOf N) (entriesPerPmdOf N) hE
    have c2' := c2 hb.1
    have hnp : numberPmdNodesOf N =
        (numberBitmapsOf N + (entriesPerPmdOf N - 1)) / entriesPerPmdOf N := rfl
    rw [← hnp] at c1 c2'
    have a1 : entriesPerPmdOf N * 4096 * (numberPmdNodesOf N - 1) < N := by
      have e : entriesPerPmdOf N * 4096 * (numberPmdNodesOf N - 1) =
          4096 * ((numberPmdNodesOf N - 1) * entriesPerPmdOf N) := by ring
      omega
    have a2 : N ≤ entriesPerPmdOf N * 4096 * numberPmdNodesOf N := by
      have e : entriesPerPmdOf N * 4096 * numberPmdNodesOf N =
          4096 * (numberPmdNodesOf N * entriesPerPmdOf N) := by ring
      omega
    obtain ⟨pmds, p1, p2, _⟩ := initPmds_spec N hN (numberPmdNodesOf N) 0 (by omega)
    simp only [Nat.zero_mul, Nat.sub_zero] at p1
    rw [PAGES_PER_BITMAP_eq, PageAllocationTableNode.Init_eq _ _ _ a1 a2]
    exact ⟨⟨_, rfl⟩, ⟨pmds, p1, p2⟩, fun i hi => level3_node_assert N hN i hi⟩
  · intro hl
    obtain ⟨_, k2, _⟩ := level1_facts N hN hl
    rw [k2] at hsum
    simpa using hsum
  · intro hl i hi
    obtain ⟨k1, _, _⟩ := hinv.level2 hl
    rw [hinv.number_bitmaps] at hi
    have := k1.entry i hi
    rw [Nat.zero_add] at this
    exact this

/-- C40 applies to `N = 256`: `Init(256)` returns a table with one level. -/
theorem C40_pat_init_never_aborts_witness :
    1 ≤ 256 ∧ 256 ≤ 2 ^ 24 ∧ ∃ t, Init 256 = some t ∧ SanityCheck t = some true ∧
      ((List.range t.number_bitmaps_).map (bitmapCount t.bitmaps_)).sum = 256 := by
  obtain ⟨t, e, _, _, _, _, k1, k2, _⟩ :=
    C40_pat_init_never_aborts 256 (by decide) (by decide)
  exact ⟨by decide, by decide, t, e, k1, k2⟩

end PageAllocationTable

/-! ## The lowest free page first -/

namespace PageAllocationTableNode

theorem findFirst_min (e : List Nat) (w : Nat) : ∀ (todo i k : Nat),
    findFirst e w todo i = some k → ∀ j, i ≤ j → j < k → wordAt e j < w
  | 0, i, k, h => by simp [findFirst] at h
  | todo + 1, i, k, h => by
    unfold findFirst at h
    split at h
    · have := Option.some.inj h
      intro j h1 h2
      omega
    · rename_i hlt
      intro j h1 h2
      by_cases hj : j = i
      · subst hj
        omega
      · exact findFirst_min e w todo (i + 1) k h j (by omega) h2

theorem findFirst_none (e : List Nat) (w : Nat) : ∀ (todo i : Nat),
    findFirst e w todo i = none → ∀ j, i ≤ j → j < i + todo → wordAt e j < w
  | 0, i, _ => by
    intro j h1 h2
    omega
  | todo + 1, i, h => by
    unfold findFirst at h
    split at h
    · exact absurd h (by simp)
    · rename_i hlt
      intro j h1 h2
      by_cases hj : j = i
      · subst hj
        omega
      · exact findFirst_none e w todo (i + 1) h j (by omega) (by omega)

theorem sum_eq_zero_of_wordAt (e : List Nat) (h : ∀ j, j < e.length → wordAt e j = 0) :
    e.sum = 0 := by
  apply List.sum_eq_zero
  intro x hx
  obtain ⟨j, hj, rfl⟩ := List.mem_iff_getElem.1 hx
  rw [← wordAt_eq_getElem e j hj]
  exact h j hj

theorem wordAt_zero_of_sum (e : List Nat) (h : e.sum = 0) (j : Nat) : wordAt e j = 0 := by
  have := wordAt_le_sum e j
  omega

/-- `GetPages(1)` on a node with a free page: the first child that has a free
page gives it. -/
theorem getPages_one (nd : PageAllocationTableNode)
    (hn : nd.number_entries_ = nd.entries_.length)
    (hf : nd.number_free_pages_ = nd.entries_.sum) (hw : 1 ≤ nd.number_free_pages_) :
    ∃ i, i < nd.entries_.length ∧ 1 ≤ wordAt nd.entries_ i ∧
      (∀ j, j < i → wordAt nd.entries_ j = 0) ∧
      nd.GetPages 1 = some (true, [(i, 1)],
        { nd with
          entries_ := nd.entries_.set i (wordAt nd.entries_ i - 1),
          number_free_pages_ := nd.number_free_pages_ - 1,
          number_used_pages_ := nd.number_used_pages_ + 1 }) := by
  unfold GetPages
  rw [if_neg (by decide), if_neg (by omega)]
  cases hff : findFirst nd.entries_ 1 nd.number_entries_ 0 with
  | none =>
    exfalso
    have h0 := findFirst_none nd.entries_ 1 nd.number_entries_ 0 hff
    have : nd.entries_.sum = 0 := sum_eq_zero_of_wordAt _ (fun j hj => by
      have := h0 j (by omega) (by omega)
      omega)
    omega
  | some i =>
    obtain ⟨_, a2, a3⟩ := findFirst_spec nd.entries_ 1 nd.number_entries_ 0 i hff
    have a4 := findFirst_min nd.entries_ 1 nd.number_entries_ 0 i hff
    refine ⟨i, by omega, a3, fun j hj => ?_, rfl⟩
    have := a4 j (by omega) hj
    omega

end PageAllocationTableNode

namespace PageAllocationTable

theorem takePages_one (mk : Nat → Nat) (bm : LeafBitmap) (h : (bm.ffs true).1 > 0) :
    takePages mk 1 bm = some ([mk (bm.ffs true).1], (bm.ffs true).2) := by
  unfold takePages
  rw [if_pos h]
  unfold takePages
  rfl

/-- A bitmap with a set bit: `ffs` finds the first one. -/
theorem ffs_of_count (bm : LeafBitmap) (h : 1 ≤ bm.number_of_set_bits) :
    1 ≤ (bm.ffs true).1 ∧ (bm.ffs true).1 ≤ 4096 ∧
      ∀ q, 1 ≤ q → q < (bm.ffs true).1 → bm.getRaw q = 0 := by
  rcases Bitmap.ffs_spec bm true with ⟨_, _, h0⟩ | ⟨h1, h2, _, h4, _⟩
  · have := Bitmap.number_of_set_bits_eq_zero bm h0
    omega
  · exact ⟨h1, h2, h4⟩

/-- A bitmap with no set bit among its positions. -/
theorem getRaw_of_count_zero (bm : LeafBitmap) (h : bm.number_of_set_bits = 0) (q : Nat)
    (h1 : 1 ≤ q) (h2 : q ≤ 4096) : bm.getRaw q = 0 := by
  unfold Bitmap.number_of_set_bits at h
  rw [List.countP_eq_zero] at h
  have := h (q - 1) (List.mem_range.2 (by omega))
  rw [show q - 1 + 1 = q by omega] at this
  rcases Bitmap.getRaw_zero_or_one bm q with h0 | h0
  · exact h0
  · rw [h0] at this
    simp at this

theorem slotBit_of_count_zero (bms : List LeafBitmap) (k : Nat) (h : bitmapCount bms k = 0)
    (q : Nat) (hq : q / 4096 = k) : slotBit bms q = 0 := by
  unfold slotBit
  unfold bitmapCount at h
  rw [hq]
  cases hb : bms[k]? with
  | none => rfl
  | some bm =>
    rw [hb] at h
    exact getRaw_of_count_zero bm h _ (by omega) (by have := Nat.mod_lt q (show 0 < 4096 by decide); omega)

end PageAllocationTable

namespace PageAllocationTable

/-- `AllocatePages(1)` on a well-formed table with a free page: no page below
the page handed out is free. -/
theorem allocate_one_min {N : Nat} {t : PageAllocationTable} (h : Inv N t)
    (hf : 0 < t.free_pages_) :
    ∃ p, (t.AllocatePages 1 []).map (fun r => r.2.1) = some [p] ∧
      ∀ q, q < p → slotBit t.bitmaps_ q = 0 := by
  have hb := numberBitmapsOf_bounds N h.pos
  have hnot : ¬ t.free_pages_ < 1 := by omega
  have hfree := h.free
  rcases levelsOf_cases N with h1 | h2 | h3
  · -- one level
    obtain ⟨a1, a2, _, _⟩ := level1_facts N h.pos h1
    obtain ⟨bm, hbm⟩ := getElem?_of_lt t.bitmaps_ 0 (by rw [h.bitmaps_length]; omega)
    have hlist : t.bitmaps_ = [bm] := by
      apply List.ext_getElem?
      intro n
      cases n with
      | zero => simpa using hbm
      | succ m =>
        rw [List.getElem?_eq_none (by rw [h.bitmaps_length, a2]; omega)]
        simp
    have hcnt : t.free_pages_ = bm.number_of_set_bits := by
      rw [hfree, hlist]
      simp
    obtain ⟨f1, f2, f3⟩ := ffs_of_count bm (by omega)
    refine ⟨(bm.ffs true).1 - 1, ?_, ?_⟩
    · simp only [AllocatePages, hnot, if_false, h.levels, h1, if_true, hbm,
        takePages_one _ bm f1, Option.map_some']
    · intro q hq
      have := slotBit_of_getElem? t.bitmaps_ 0 bm hbm (q + 1) (by omega) (by omega)
      simp only [Nat.zero_mul, Nat.zero_add, Nat.add_sub_cancel] at this
      rw [this]
      exact f3 (q + 1) (by omega) (by omega)
  · -- two levels
    obtain ⟨hn, hpm, hpf⟩ := h.level2 h2
    obtain ⟨i, g1, g2, g3, g4⟩ := PageAllocationTableNode.getPages_one t.pgd_
      (by rw [hn.number_entries, hn.length_entries]) hn.free (by omega)
    rw [hn.length_entries] at g1
    have hcounts := hn.counts (by rw [h.bitmaps_length]; omega)
    obtain ⟨bm, hbm, hc⟩ := hcounts i g1
    rw [Nat.zero_add] at hbm
    obtain ⟨f1, f2, f3⟩ := ffs_of_count bm (by omega)
    have hl1 : ¬ (2 = 1) := by decide
    have hp := level2_page_eq N i (bm.ffs true).1 h2 f1 f2
    refine ⟨(0 + i) * 4096 + ((bm.ffs true).1 - 1), ?_, ?_⟩
    · simp only [AllocatePages, hnot, if_false, h.levels, h2, hl1, if_true, g4,
        h.bitmap_bits, takeFromBitmaps, Nat.zero_or, hbm, takePages_one _ bm f1, hp,
        List.append_nil, Option.map_some']
    · intro q hq
      by_cases hqi : q / 4096 < i
      · have hz := g3 _ hqi
        have := hn.entry (q / 4096) (by omega)
        rw [Nat.zero_add] at this
        exact slotBit_of_count_zero _ _ (by omega) q rfl
      · have hqe : q / 4096 = i := by omega
        have := slotBit_of_getElem? t.bitmaps_ i bm hbm (q % 4096 + 1) (by omega)
          (by have := Nat.mod_lt q (show 0 < 4096 by decide); omega)
        have hq2 : i * 4096 + (q % 4096 + 1 - 1) = q := by omega
        rw [hq2] at this
        rw [this]
        exact f3 _ (by omega) (by omega)
  · -- three levels
    obtain ⟨b1, b2, b3, b4, b5, b6, b7, b8, b9⟩ := h.level3 h3
    obtain ⟨a, g1, g2, g3, g4⟩ := PageAllocationTableNode.getPages_one t.pgd_
      (by rw [b3, b4]) b6 (by omega)
    rw [b4] at g1
    obtain ⟨nd, k1, k2⟩ := b2 a g1
    have ka : nd.number_free_pages_ = wordAt t.pgd_.entries_ a := by
      rw [b5 a g1, pmdField_of_getElem? _ _ _ _ k1]
    have hE := entriesPerPmdOf_pos N
    have hinside := level3_node_inside N a
    obtain ⟨j, m1, m2, m3, m4⟩ := PageAllocationTableNode.getPages_one nd
      (by rw [k2.number_entries, k2.length_entries]) k2.free (by omega)
    rw [k2.length_entries] at m1
    have hcounts := k2.counts (by rw [h.bitmaps_length]; omega)
    obtain ⟨bm, hbm, hc⟩ := hcounts j m1
    obtain ⟨f1, f2, f3⟩ := ffs_of_count bm (by omega)
    have hjE : j < entriesPerPmdOf N := by omega
    have hidx := level3_bitmap_index_eq N a j hjE
    have hfirst := level3_first_eq N a
    have hp := level3_page_eq N a j (bm.ffs true).1 h3 hjE f1 f2
    rw [hfirst] at hidx hp
    have hl1 : ¬ (3 = 1) := by decide
    have hl2 : ¬ (3 = 2) := by decide
    refine ⟨(a * entriesPerPmdOf N + j) * 4096 + ((bm.ffs true).1 - 1), ?_, ?_⟩
    · simp only [AllocatePages, hnot, if_false, h.levels, h3, hl1, hl2, g4,
        h.bitmap_bits, h.pmd_bits, takeFromPmds, k1, m4, takeFromBitmaps, hfirst, hidx, hbm,
        takePages_one _ bm f1, hp, List.append_nil, Option.map_some']
    · intro q hq
      by_cases hqN : q < N
      · obtain ⟨n1, n2, n3⟩ := level3_node_facts N h.pos q hqN
        generalize hE1 : entriesPerPmdOf N = E at *
        generalize ha1 : q / 4096 / E = a1 at *
        generalize hj1 : q / 4096 % E = j1 at *
        have hqb : q / 4096 ≤ a * E + j := by omega
        have ha1le : a1 ≤ a := by
          by_contra hc1
          have : (a + 1) * E ≤ a1 * E := Nat.mul_le_mul_right E (by omega)
          have e2 : (a + 1) * E = a * E + E := by ring
          omega
        obtain ⟨nd1, p1, p2⟩ := b2 a1 n1
        have hins1 := level3_node_inside N a1
        rw [hE1] at hins1
        have hcounts1 := p2.counts (by rw [h.bitmaps_length]; omega)
        obtain ⟨bm1, q1, q2⟩ := hcounts1 j1 n2
        rw [n3] at q1
        have hz : wordAt nd1.entries_ j1 = 0 ∨ (a1 = a ∧ j1 = j) := by
          by_cases hlt : a1 < a
          · left
            have hz1 := g3 a1 hlt
            rw [b5 a1 n1, pmdField_of_getElem? _ _ _ _ p1] at hz1
            exact PageAllocationTableNode.wordAt_zero_of_sum _ (by rw [← p2.free]; exact hz1) _
          · have hae : a1 = a := by omega
            subst hae
            rw [k1] at p1
            have := Option.some.inj p1
            subst this
            by_cases hjl : j1 < j
            · left
              exact m3 j1 hjl
            · right
              exact ⟨rfl, by omega⟩
        rcases hz with hz | ⟨hz1, hz2⟩
        · apply slotBit_of_count_zero _ (q / 4096) _ q rfl
          unfold bitmapCount
          rw [q1]
          show bm1.number_of_set_bits = 0
          omega
        · subst hz1
          subst hz2
          rw [n3] at hbm
          rw [hbm] at q1
          have := Option.some.inj q1
          subst this
          have := slotBit_of_getElem? t.bitmaps_ (q / 4096) bm hbm (q % 4096 + 1) (by omega)
            (by have := Nat.mod_lt q (show 0 < 4096 by decide); omega)
          have hq2 : q / 4096 * 4096 + (q % 4096 + 1 - 1) = q := by omega
          rw [hq2] at this
          rw [this]
          exact f3 _ (by omega) (by omega)
      · exact h.beyond q (by omega)

end PageAllocationTable

namespace PageAllocationTable

/-- C37: in every state of a table over `N` pages that can be reached from
`Init(N)`, at every number of levels, when at least one page is free
`AllocateOnePage` returns true with the smallest page `p` for which
`IsPageFree(p)` held before the call: `p < N`, `IsPageFree(p)` was true, and
`IsPageFree(q)` was false for every `q < p`. -/
theorem C37_pat_lowest_free_first (N : Nat) (t : PageAllocationTable) (page : Nat)
    (h : Reachable N t) (hf : 0 < t.free_pages_) :
    ∃ p t1, t.AllocateOnePage page = some (true, p, t1) ∧ p < N ∧
      t.IsPageFree p = some true ∧ ∀ q, q < p → t.IsPageFree q = some false := by
  have hinv := inv_of_reachable h
  obtain ⟨p, t1, e1, e2, _, e4, _, _⟩ := allocateOne_spec hinv page hf
  obtain ⟨p1, m1, m2⟩ := allocate_one_min hinv hf
  rw [e2] at m1
  simp only [Option.map_some', Option.some.injEq, List.cons.injEq, and_true] at m1
  subst m1
  have hfree := e4.was_free p (List.mem_singleton.2 rfl)
  have hp : p < N := by
    by_contra hc
    have := hinv.beyond p (by omega)
    omega
  refine ⟨p, t1, e1, hp, ?_, ?_⟩
  · rw [isPageFree_spec hinv p hp, hfree]
    rfl
  · intro q hq
    rw [isPageFree_spec hinv q (by omega), m2 q hq]
    rfl

/-- C37 applies to the table that `Init(256)` returns: the first page handed
out is page 0. -/
theorem C37_pat_lowest_free_first_witness :
    ∃ t p t1, Init 256 = some t ∧ 0 < t.free_pages_ ∧
      t.AllocateOnePage 0 = some (true, p, t1) ∧ p < 256 ∧ t.IsPageFree p = some true ∧
      ∀ q, q < p → t.IsPageFree q = some false := by
  obtain ⟨t, e, _, _, hfree, _⟩ := init_spec 256 (by decide)
  have hf : 0 < t.free_pages_ := by
    rw [hfree]
    decide
  obtain ⟨p, t1, k⟩ := C37_pat_lowest_free_first 256 t 0 (Reachable.init e) hf
  exact ⟨t, p, t1, e, hf, k⟩

end PageAllocationTable

/-! ## What a call into the tiers leaves unchanged -/

theorem OptRel.optRefl {α : Type} {R : α → α → Prop} (h : ∀ a, R a a) (o : Option α) :
    OptRel R o o := by
  cases o with
  | none => exact True.intro
  | some a => exact h a

theorem OptRel.optTrans {α : Type} {R : α → α → Prop} (h : ∀ a b c, R a b → R b c → R a c)
    {x y z : Option α} (h1 : OptRel R x y) (h2 : OptRel R y z) : OptRel R x z := by
  cases x <;> cases y <;> cases z <;> simp only [OptRel] at h1 h2 ⊢
  exact h _ _ _ h1 h2

theorem OptRel.some_left {α : Type} {R : α → α → Prop} {a : α} {y : Option α}
    (h : OptRel R (some a) y) : ∃ b, y = some b ∧ R a b := by
  cases y with
  | none => exact absurd h (by simp [OptRel])
  | some b => exact ⟨b, rfl, h⟩

theorem OptRel.optMono {α : Type} {R S : α → α → Prop} (h : ∀ a b, R a b → S a b)
    {x y : Option α} (h1 : OptRel R x y) : OptRel S x y := by
  cases x <;> cases y <;> simp only [OptRel] at h1 ⊢
  exact h _ _ h1

/-- A change of one cell of an array. -/
theorem OptRel.set {α : Type} {R : α → α → Prop} (hr : ∀ a, R a a) (l : List α) (i : Nat)
    (a b : α) (ha : l[i]? = some a) (hab : R a b) (k : Nat) :
    OptRel R l[k]? (l.set i b)[k]? := by
  rw [List.getElem?_set']
  by_cases hik : i = k
  · subst hik
    rw [if_pos rfl, ha]
    exact hab
  · rw [if_neg hik]
    exact OptRel.optRefl hr _

theorem OptRel.length_eq {α : Type} {R : α → α → Prop} {l l1 : List α}
    (h : ∀ k : Nat, OptRel R l[k]? l1[k]?) : l1.length = l.length := by
  have h1 := h l.length
  have h2 := h l1.length
  rw [List.getElem?_eq_none (Nat.le_refl _)] at h1
  rw [List.getElem?_eq_none (l := l1) (Nat.le_refl _)] at h2
  have a1 : l1.length ≤ l.length := by
    by_contra hc
    rw [List.getElem?_eq_getElem (by omega)] at h1
    exact h1
  have a2 : l.length ≤ l1.length := by
    by_contra hc
    rw [List.getElem?_eq_getElem (by omega)] at h2
    exact h2
  omega

namespace VAddressRange

theorem Rel.rangeRefl {R : V2HMapMetadata → V2HMapMetadata → Prop} (h : ∀ a, R a a)
    (r : VAddressRange) : Rel R r r :=
  ⟨rfl, rfl, fun _ => OptRel.optRefl h _⟩

theorem Rel.rangeTrans {R : V2HMapMetadata → V2HMapMetadata → Prop}
    (h : ∀ a b c, R a b → R b c → R a c) (a b c : VAddressRange)
    (h1 : Rel R a b) (h2 : Rel R b c) : Rel R a c := by
  obtain ⟨e1, l1, r1⟩ := h1
  obtain ⟨e2, l2, r2⟩ := h2
  refine ⟨?_, by rw [l2, l1], fun j => OptRel.optTrans h (r1 j) (r2 j)⟩
  rw [e2, e1]

theorem Rel.id_eq {R : V2HMapMetadata → V2HMapMetadata → Prop} {a b : VAddressRange}
    (h : Rel R a b) : b.vaddress_range_id_ = a.vaddress_range_id_ ∧ b.is_active_ = a.is_active_ ∧
      b.address_ = a.address_ ∧ b.size_ = a.size_ ∧ b.hdd_file_fd_ = a.hdd_file_fd_ ∧
      b.hdd_file_offset_ = a.hdd_file_offset_ ∧ b.number_pages_ = a.number_pages_ ∧
      b.has_backing_hdd_file_ = a.has_backing_hdd_file_ := by
  obtain ⟨e1, _, _⟩ := h
  rw [e1]
  exact ⟨rfl, rfl, rfl, rfl, rfl, rfl, rfl, rfl⟩

end VAddressRange

namespace System

variable {R : V2HMapMetadata → V2HMapMetadata → Prop} {H : HybridMemory → HybridMemory → Prop}

theorem Frame.frameRefl (hr : ∀ v, R v v) (hh : ∀ hm, H hm hm) (s : System) : Frame R H s s :=
  ⟨rfl, fun _ => OptRel.optRefl hh _, rfl, fun _ => OptRel.optRefl (VAddressRange.Rel.rangeRefl hr) _⟩

theorem Frame.frameTrans (hr : ∀ a b c, R a b → R b c → R a c) (hh : ∀ a b c, H a b → H b c → H a c)
    {s s1 s2 : System} (h1 : Frame R H s s1) (h2 : Frame R H s1 s2) : Frame R H s s2 := by
  refine ⟨by rw [h2.number, h1.number], fun k => OptRel.optTrans hh (h1.tiers k) (h2.tiers k), ?_,
    fun i => OptRel.optTrans (VAddressRange.Rel.rangeTrans hr) (h1.ranges i) (h2.ranges i)⟩
  rw [h2.group, h1.group]

theorem Frame.wellIndexed {s s1 : System} (h : Frame R H s s1) (hw : s.WellIndexed) :
    s1.WellIndexed := by
  intro i r1 hr1
  have := h.ranges i
  rw [hr1] at this
  cases hr : s.vaddr_range_group.vaddr_range_list_[i]? with
  | none =>
    rw [hr] at this
    exact absurd this (by simp [OptRel])
  | some r =>
    rw [hr] at this
    rw [(VAddressRange.Rel.id_eq this).1]
    exact hw i r hr

/-- A record after a call. -/
theorem Frame.v2h {s s1 : System} (h : Frame R H s s1) (ref : Nat × Nat) (v : V2HMapMetadata)
    (hv : s.v2h ref = some v) : ∃ v1, s1.v2h ref = some v1 ∧ R v v1 := by
  unfold System.v2h at hv ⊢
  have := h.ranges ref.1
  cases hr : s.vaddr_range_group.vaddr_range_list_[ref.1]? with
  | none =>
    rw [hr] at hv
    exact absurd hv (by simp)
  | some r =>
    rw [hr] at hv this
    obtain ⟨r1, e1, k⟩ := OptRel.some_left this
    rw [e1]
    have k2 := k.2.2 ref.2
    simp only at hv ⊢
    rw [hv] at k2
    exact OptRel.some_left k2

/-- A tier after a call. -/
theorem Frame.hmem {s s1 : System} (h : Frame R H s s1) (k : Nat) (hm : HybridMemory)
    (hk : s.hmem k = some hm) : ∃ hm1, s1.hmem k = some hm1 ∧ H hm hm1 := by
  unfold System.hmem at hk ⊢
  have := h.tiers k
  rw [hk] at this
  exact OptRel.some_left this

/-- A range after a call. -/
theorem Frame.range {s s1 : System} (h : Frame R H s s1) (i : Nat) (r : VAddressRange)
    (hr : s.vaddr_range_group.vaddr_range_list_[i]? = some r) :
    ∃ r1, s1.vaddr_range_group.vaddr_range_list_[i]? = some r1 ∧ VAddressRange.Rel R r r1 := by
  have := h.ranges i
  rw [hr] at this
  exact OptRel.some_left this

theorem Frame.frameMono {R S : V2HMapMetadata → V2HMapMetadata → Prop}
    {H K : HybridMemory → HybridMemory → Prop} (hr : ∀ a b, R a b → S a b)
    (hh : ∀ a b, H a b → K a b) {s s1 : System} (h : Frame R H s s1) : Frame S K s s1 :=
  ⟨h.number, fun k => OptRel.optMono hh (h.tiers k), h.group,
    fun i => OptRel.optMono (fun _ _ hab => ⟨hab.1, hab.2.1, fun j => OptRel.optMono hr (hab.2.2 j)⟩)
      (h.ranges i)⟩

theorem v2h_setHmem (s : System) (h : Nat) (hm : HybridMemory) (ref : Nat × Nat) :
    (s.setHmem h hm).v2h ref = s.v2h ref := rfl

theorem hmem_setHmem (s : System) (h : Nat) (hm hm1 : HybridMemory) (hh : s.hmem h = some hm) :
    (s.setHmem h hm1).hmem h = some hm1 := by
  unfold System.hmem at hh ⊢
  unfold System.setHmem
  simp only
  rw [List.getElem?_set_self]
  exact (List.getElem?_eq_some_iff.1 hh).1

/-- `setHmem` changes one tier. -/
theorem frame_setHmem (hr : ∀ v, R v v) (hh : ∀ hm, H hm hm) (s : System) (h : Nat)
    (hm hm1 : HybridMemory) (h1 : s.hmem h = some hm) (h2 : H hm hm1) :
    Frame R H s (s.setHmem h hm1) :=
  ⟨rfl, fun k => OptRel.set hh _ _ _ _ h1 h2 k, rfl,
    fun _ => OptRel.optRefl (VAddressRange.Rel.rangeRefl hr) _⟩

/-- A change of the files. -/
theorem frame_disk (hr : ∀ v, R v v) (hh : ∀ hm, H hm hm) (s : System) (d : List HddFile) :
    Frame R H s { s with disk := d } :=
  ⟨rfl, fun _ => OptRel.optRefl hh _, rfl, fun _ => OptRel.optRefl (VAddressRange.Rel.rangeRefl hr) _⟩

/-- `setV2h` changes one record. -/
theorem frame_setV2h (hr : ∀ v, R v v) (hh : ∀ hm, H hm hm) (s s1 : System) (ref : Nat × Nat)
    (f : V2HMapMetadata → V2HMapMetadata) (h : s.setV2h ref f = some s1)
    (hf : ∀ v, s.v2h ref = some v → R v (f v)) : Frame R H s s1 := by
  unfold System.setV2h at h
  unfold System.v2h at hf
  split at h
  · rename_i r hr1
    rw [hr1] at hf
    simp only at hf
    split at h
    · rename_i v hv
      have e := Option.some.inj h
      subst e
      refine ⟨rfl, fun _ => OptRel.optRefl hh _, rfl, fun i => ?_⟩
      apply OptRel.set (VAddressRange.Rel.rangeRefl hr) _ _ _ _ hr1
      exact ⟨rfl, rfl, fun j => OptRel.set hr _ _ _ _ hv (hf v hv) j⟩
    · exact absurd h (by simp)
  · exact absurd h (by simp)

theorem setV2h_other (s s1 : System) (ref : Nat × Nat)
    (f : V2HMapMetadata → V2HMapMetadata) (h : s.setV2h ref f = some s1) :
    s1.hmem_instances_ = s.hmem_instances_ ∧ s1.disk = s.disk ∧
      s1.number_hmem_instances_ = s.number_hmem_instances_ := by
  unfold System.setV2h at h
  split at h
  · split at h
    · have e := Option.some.inj h
      subst e
      exact ⟨rfl, rfl, rfl⟩
    · exact absurd h (by simp)
  · exact absurd h (by simp)

/-- The record that `setV2h` writes. -/
theorem setV2h_v2h (s s1 : System) (ref : Nat × Nat)
    (f : V2HMapMetadata → V2HMapMetadata) (h : s.setV2h ref f = some s1) :
    ∃ v, s.v2h ref = some v ∧ s1.v2h ref = some (f v) ∧
      ∀ ref1, ref1 ≠ ref → s1.v2h ref1 = s.v2h ref1 := by
  unfold System.setV2h at h
  unfold System.v2h
  split at h
  · rename_i r hr1
    split at h
    · rename_i v hv
      have e := Option.some.inj h
      subst e
      have hl := (List.getElem?_eq_some_iff.1 hr1).1
      have hl2 := (List.getElem?_eq_some_iff.1 hv).1
      refine ⟨v, hv, ?_, ?_⟩
      · simp only
        rw [List.getElem?_set_self hl]
        simp only
        rw [List.getElem?_set_self hl2]
      · intro ref1 hne
        simp only
        by_cases h1 : ref.1 = ref1.1
        · rw [← h1, List.getElem?_set_self hl, hr1]
          simp only
          have h2 : ref.2 ≠ ref1.2 := by
            intro hc
            exact hne (Prod.ext h1.symm hc.symm)
          rw [List.getElem?_set_ne h2]
        · rw [List.getElem?_set_ne h1]
    · exact absurd h (by simp)
  · exact absurd h (by simp)

theorem findPage_mem (s : System) (address : Nat) (r : VAddressRange) (i : Nat)
    (h : s.findPage address = some (r, i)) : r ∈ s.vaddr_range_group.vaddr_range_list_ := by
  unfold System.findPage at h
  split at h
  · rename_i r1 hf
    simp only [Option.some.injEq, Prod.mk.injEq] at h
    rw [← h.1]
    exact List.mem_of_find?_eq_some hf
  · exact absurd h (by simp)

/-- `setPage` changes one page of a range. -/
theorem frame_setPage (hr : ∀ v, R v v) (hh : ∀ hm, H hm hm) (s s1 : System) (address : Nat)
    (f : VPage → VPage) (hw : s.WellIndexed) (h : s.setPage address f = some s1) :
    Frame R H s s1 ∧ s1.hmem_instances_ = s.hmem_instances_ ∧ s1.disk = s.disk ∧
      ∀ ref, s1.v2h ref = s.v2h ref := by
  unfold System.setPage at h
  split at h
  · rename_i r i hf
    split at h
    · rename_i pg hpg
      have e := Option.some.inj h
      subst e
      obtain ⟨k, hk⟩ := List.mem_iff_getElem?.1 (findPage_mem s address r i hf)
      have hid := hw k r hk
      subst hid
      have hl := (List.getElem?_eq_some_iff.1 hk).1
      refine ⟨⟨rfl, fun _ => OptRel.optRefl hh _, rfl, fun j => ?_⟩, rfl, rfl, fun ref => ?_⟩
      · apply OptRel.set (VAddressRange.Rel.rangeRefl hr) _ _ _ _ hk
        exact ⟨rfl, by simp, fun j => OptRel.optRefl hr _⟩
      · unfold System.v2h
        simp only
        by_cases h1 : r.vaddress_range_id_ = ref.1
        · rw [← h1, List.getElem?_set_self hl, hk]
        · rw [List.getElem?_set_ne h1]
    · exact absurd h (by simp)
  · exact absurd h (by simp)

theorem check_some (b : Bool) (u : Unit) (h : check b = some u) : b = true := by
  unfold check at h
  split at h
  · assumption
  · exact absurd h (by simp)

end System

namespace FlashCache
open System

variable {R : V2HMapMetadata → V2HMapMetadata → Prop} {H : HybridMemory → HybridMemory → Prop}

theorem getItem_update (rc rc1 : RAMCache) (a item : Nat)
    (h : rc.GetItem a = some (item, rc1)) : rc.Update item = some rc1 := by
  unfold RAMCache.GetItem at h
  simp only [bind, Option.bind_eq_some] at h
  obtain ⟨_, _, o, _, h⟩ := h
  cases o with
  | none => exact absurd h (by simp)
  | some it =>
    simp only [Option.bind_eq_some] at h
    obtain ⟨_, _, _, _, rc2, h1, h2⟩ := h
    simp only [Option.some.injEq, Prod.mk.injEq] at h2
    rw [← h2.1, ← h2.2]
    exact h1

/-- One turn of the loop of `MigrateToHDD`. -/
theorem migrateOne_frame (ok : FlashOK R H) (s s1 : System) (h p : Nat)
    (e : migrateOne s h p = some s1) : Frame R H s s1 := by
  unfold migrateOne at e
  simp only [bind, Option.bind_eq_some] at e
  obtain ⟨hm, hhm, f2v, hf2v, vr, hvr, idx, hidx, v, hv, e⟩ := e
  split at e
  · simp only [Option.bind_eq_some] at e
    obtain ⟨_, _, e⟩ := e
    rw [← Option.some.inj e]
    exact Frame.frameRefl ok.r_refl ok.h_refl s
  · split at e
    · simp only [Option.bind_eq_some] at e
      obtain ⟨_, _, ⟨item, rc1⟩, hg, it, _, _, _, _, _, e⟩ := e
      rw [← Option.some.inj e]
      exact frame_setHmem ok.r_refl ok.h_refl s h hm _ hhm
        (ok.h_lru hm item rc1 (getItem_update _ _ _ _ hg))
    · split at e
      · simp only [Option.bind_eq_some] at e
        obtain ⟨_, _, _, _, d, _, ⟨file, f⟩, _, e⟩ := e
        exact Frame.frameTrans ok.r_trans ok.h_trans (frame_disk ok.r_refl ok.h_refl s _)
          (frame_setV2h ok.r_refl ok.h_refl _ _ _ _ e (fun v _ => ok.r_migrate v))
      · rw [← Option.some.inj e]
        exact Frame.frameRefl ok.r_refl ok.h_refl s

theorem migrateLoop_frame (ok : FlashOK R H) (h : Nat) : ∀ (l : List Nat) (s s1 : System),
    migrateLoop h l s = some s1 → Frame R H s s1
  | [], s, s1, e => by
    simp only [migrateLoop, Option.some.injEq] at e
    subst e
    exact Frame.frameRefl ok.r_refl ok.h_refl s
  | p :: rest, s, s1, e => by
    unfold migrateLoop at e
    split at e
    · rename_i s2 h2
      exact Frame.frameTrans ok.r_trans ok.h_trans (migrateOne_frame ok s s2 h p h2)
        (migrateLoop_frame ok h rest s2 s1 e)
    · exact absurd e (by simp)

theorem MigrateToHDD_frame (ok : FlashOK R H) (s s1 : System) (h n : Nat) (l : List Nat)
    (e : MigrateToHDD s h l = some (n, s1)) : Frame R H s s1 := by
  unfold MigrateToHDD at e
  simp only [bind, Option.bind_eq_some] at e
  obtain ⟨_, _, s2, h2, e⟩ := e
  simp only [Option.some.injEq, Prod.mk.injEq] at e
  rw [← e.2]
  exact migrateLoop_frame ok h l s s2 h2

theorem freeLoop_frame (ok : FlashOK R H) (h : Nat) : ∀ (l : List Nat) (s s1 : System),
    freeLoop h l s = some s1 → Frame R H s s1
  | [], s, s1, e => by
    simp only [freeLoop, Option.some.injEq] at e
    subst e
    exact Frame.frameRefl ok.r_refl ok.h_refl s
  | p :: rest, s, s1, e => by
    unfold freeLoop at e
    split at e
    · rename_i s2 h2
      refine Frame.frameTrans ok.r_trans ok.h_trans ?_ (freeLoop_frame ok h rest s2 s1 e)
      simp only [bind, Option.bind_eq_some] at h2
      obtain ⟨hm, _, b, _, _, _, f2v, _, _, _, pat, _, vr, _, idx, _, s3, h3, hm1, hhm1, h4⟩ := h2
      rw [← Option.some.inj h4]
      exact Frame.frameTrans ok.r_trans ok.h_trans
        (frame_setV2h ok.r_refl ok.h_refl _ _ _ _ h3 (fun v _ => ok.r_flash_clear v))
        (frame_setHmem ok.r_refl ok.h_refl s3 h hm1 _ hhm1 (ok.h_flash _ _))
    · exact absurd e (by simp)

/-- `FlashCache::EvictItems`. -/
theorem flashEvictItems_frame (ok : FlashOK R H) (s s1 : System) (h k n : Nat)
    (e : EvictItems s h k = some (n, s1)) : Frame R H s s1 := by
  unfold EvictItems at e
  simp only [bind, Option.bind_eq_some] at e
  obtain ⟨hm, hhm, ⟨ev, pages, pst⟩, _, _, _, l, _, e⟩ := e
  have f0 := @frame_setHmem R H ok.r_refl ok.h_refl s h hm
    { hm with flash_cache_ := { hm.flash_cache_ with page_stats_table_ := pst } } hhm
    (ok.h_flash _ _)
  split at e
  · simp only [Option.bind_eq_some, Option.map_eq_some'] at e
    obtain ⟨s2, ⟨⟨n1, s4⟩, h4, h5⟩, s3, h3, e⟩ := e
    simp only [Option.some.injEq, Prod.mk.injEq] at e
    simp only at h5
    subst h5
    rw [← e.2]
    exact Frame.frameTrans ok.r_trans ok.h_trans
      (Frame.frameTrans ok.r_trans ok.h_trans f0 (MigrateToHDD_frame ok _ _ h n1 l h4))
      (freeLoop_frame ok h _ _ s3 h3)
  · simp only [Option.bind_eq_some] at e
    obtain ⟨s2, h2, s3, h3, e⟩ := e
    simp only [Option.some.injEq, Prod.mk.injEq] at e
    rw [← e.2]
    rw [← Option.some.inj h2] at h3
    exact Frame.frameTrans ok.r_trans ok.h_trans f0 (freeLoop_frame ok h _ _ s3 h3)

end FlashCache

namespace FlashCache
open System

variable {R : V2HMapMetadata → V2HMapMetadata → Prop} {H : HybridMemory → HybridMemory → Prop}

/-- The statements of `AddPage` that follow the choice of the flash page. -/
theorem addTail_frame (ok : FlashOK R H) (s1 s3 : System) (h : Nat) (hm1 : HybridMemory)
    (fc : FlashCache) (ref : Nat × Nat) (b : Bool) (n : Nat) (hhm1 : s1.hmem h = some hm1)
    (e : (s1.setHmem h { hm1 with flash_cache_ := fc }).setV2h ref (fun v =>
      { v with exist_flash_cache := true, dirty_flash_cache := b, flash_page_offset := n }) =
        some s3) : Frame R H s1 s3 :=
  Frame.frameTrans ok.r_trans ok.h_trans
    (frame_setHmem ok.r_refl ok.h_refl s1 h hm1 _ hhm1 (ok.h_flash _ _))
    (frame_setV2h ok.r_refl ok.h_refl _ _ _ _ e (fun v _ => ok.r_flash_add v b n))

/-- `FlashCache::AddPage`. -/
theorem flashAddPage_frame (ok : FlashOK R H) (s s1 : System) (h d sz : Nat) (b b1 : Bool)
    (ref : Nat × Nat) (id va : Nat) (e : AddPage s h d sz b ref id va = some (b1, s1)) :
    Frame R H s s1 := by
  unfold AddPage at e
  simp only [bind, Option.bind_eq_some] at e
  obtain ⟨_, _, _, _, off, hoff, ref1, href1, _, _, v, hv, hm, hhm, e⟩ := e
  by_cases hx : v.exist_flash_cache = true
  · rw [if_pos hx] at e
    simp only [Option.bind_eq_some, Option.some_bind] at e
    obtain ⟨_, _, f2v, _, _, _, _, _, hm1, hhm1, v1, _, _, _, pst, _, s3, h3, e⟩ := e
    simp only [Option.some.injEq, Prod.mk.injEq] at e
    rw [← e.2]
    exact addTail_frame ok s s3 h hm1 _ ref b _ hhm1 h3
  · rw [if_neg hx] at e
    simp only [Option.bind_eq_some] at e
    obtain ⟨⟨ok1, p, pat⟩, ha, e⟩ := e
    split at e
    · rename_i p1 pat1 heq
      simp only [Option.bind_eq_some, Option.some_bind] at e
      obtain ⟨_, _, hm0, hhm0, f2v, _, _, _, hm1, hhm1, v1, _, _, _, pst, _, s3, h3, e⟩ := e
      simp only [Option.some.injEq, Prod.mk.injEq] at e
      rw [← e.2]
      exact Frame.frameTrans ok.r_trans ok.h_trans
        (frame_setHmem ok.r_refl ok.h_refl s h hm _ hhm (ok.h_flash _ _))
        (addTail_frame ok _ s3 h hm1 _ ref b _ hhm1 h3)
    · rename_i p1 pat1 heq
      simp only [Option.bind_eq_some, Option.some_bind] at e
      obtain ⟨⟨n2, s2⟩, he, hm2, hhm2, ⟨ok3, p3, pat3⟩, ha3, _, _, hm0, hhm0, f2v, _, _, _, hm1,
        hhm1, v1, _, _, _, pst, _, s3, h3, e⟩ := e
      simp only [Option.some.injEq, Prod.mk.injEq] at e
      rw [← e.2]
      exact Frame.frameTrans ok.r_trans ok.h_trans (flashEvictItems_frame ok s s2 h 16 n2 he)
        (Frame.frameTrans ok.r_trans ok.h_trans
          (frame_setHmem ok.r_refl ok.h_refl s2 h hm2 _ hhm2 (ok.h_flash _ _))
          (addTail_frame ok _ s3 h hm1 _ ref b _ hhm1 h3))

end FlashCache

namespace System

variable {R : V2HMapMetadata → V2HMapMetadata → Prop} {H : HybridMemory → HybridMemory → Prop}

/-- `fillPage` is a change of one page of memory. -/
theorem fillPage_setPage (s s1 : System) (address data : Nat)
    (e : s.fillPage address data = some s1) :
    s.setPage address (fun p => { p with data := data }) = some s1 := by
  unfold fillPage at e
  split at e
  · split at e
    · split at e
      · exact e
      · cases e
    · cases e
  · cases e

theorem frame_fillPage (hr : ∀ v, R v v) (hh : ∀ hm, H hm hm) (s s1 : System) (address data : Nat)
    (hw : s.WellIndexed) (e : s.fillPage address data = some s1) : Frame R H s s1 :=
  (frame_setPage hr hh s s1 address _ hw (fillPage_setPage s s1 address data e)).1

theorem frame_mprotect (hr : ∀ v, R v v) (hh : ∀ hm, H hm hm) (s s1 : System) (page prot : Nat)
    (hw : s.WellIndexed) (e : s.mprotect page prot = some s1) : Frame R H s s1 :=
  (frame_setPage hr hh s s1 page _ hw e).1

theorem frame_madvise (hr : ∀ v, R v v) (hh : ∀ hm, H hm hm) (s s1 : System) (page : Nat)
    (hw : s.WellIndexed) (e : s.madvise page = some s1) : Frame R H s s1 :=
  (frame_setPage hr hh s s1 page _ hw e).1

end System

namespace FlashCache
open System

variable {R : V2HMapMetadata → V2HMapMetadata → Prop} {H : HybridMemory → HybridMemory → Prop}

/-- `FlashCache::LoadPage`. -/
theorem LoadPage_frame (ok : FlashOK R H) (s s1 : System) (h d sz p id off : Nat) (b1 : Bool)
    (hw : s.WellIndexed) (e : LoadPage s h d sz p id off = some (b1, s1)) : Frame R H s s1 := by
  unfold LoadPage at e
  simp only [bind, Option.bind_eq_some, Option.some.injEq, Prod.mk.injEq] at e
  obtain ⟨hm, hhm, f2v, _, _, _, _, _, _, _, _, _, dd, _, s2, h2, pst, _, hm1, hhm1, _, e⟩ := e
  rw [← e]
  exact Frame.frameTrans ok.r_trans ok.h_trans (frame_fillPage ok.r_refl ok.h_refl s s2 d dd hw h2)
    (frame_setHmem ok.r_refl ok.h_refl s2 h hm1 _ hhm1 (ok.h_flash _ _))

/-- `FlashCache::LoadFromHDDFile`. -/
theorem LoadFromHDDFile_frame (hr : ∀ v, R v v) (hh : ∀ hm, H hm hm) (s s1 : System)
    (r : VAddressRange) (page : Nat) (b1 : Bool)
    (hw : s.WellIndexed) (e : LoadFromHDDFile s r page = some (b1, s1)) : Frame R H s s1 := by
  unfold LoadFromHDDFile at e
  split at e
  · simp only [Option.some.injEq, Prod.mk.injEq] at e
    rw [← e.2]
    exact Frame.frameRefl hr hh s
  · dsimp only at e
    split at e
    · simp only [Option.some.injEq, Prod.mk.injEq] at e
      rw [← e.2]
      exact Frame.frameRefl hr hh s
    · simp only [bind, Option.bind_eq_some, Option.some.injEq, Prod.mk.injEq] at e
      obtain ⟨s2, h2, _, e⟩ := e
      rw [← e]
      exact frame_fillPage hr hh s s2 page _ hw h2

end FlashCache

namespace RAMCache
open System

variable {R : V2HMapMetadata → V2HMapMetadata → Prop} {H : HybridMemory → HybridMemory → Prop}

/-- The second loop of `RAMCache::EvictItems`. -/
theorem ramEvictLoop_frame (ok : RamOK R H) (h : Nat) (items : List Nat) (s s1 : System)
    (e : evictLoop h items s = some s1) : Frame R H s s1 := by
  induction items generalizing s with
  | nil =>
    unfold evictLoop at e
    simp only [Option.some.injEq] at e
    rw [← e]
    exact Frame.frameRefl ok.r_refl ok.h_refl s
  | cons item rest ih =>
    unfold evictLoop at e
    split at e
    · rename_i s2 heq
      refine Frame.frameTrans ok.r_trans ok.h_trans ?_ (ih s2 e)
      simp only [bind, Option.bind_eq_some] at heq
      obtain ⟨hm, hhm, it, hit, ref, href, v, hv, heq⟩ := heq
      have tail : ∀ sa sb : System, ∀ hm1 : HybridMemory, ∀ rc : RAMCache, sa.hmem h = some hm1 →
          (sa.setHmem h { hm1 with ram_cache_ := rc }).setV2h ref (fun v =>
            { v with exist_ram_cache := false, dirty_ram_cache := false }) = some sb →
          Frame R H sa sb := fun sa sb hm1 rc h1 h2 =>
        Frame.frameTrans ok.r_trans ok.h_trans
          (frame_setHmem ok.r_refl ok.h_refl sa h hm1 _ h1 (ok.h_ram _ _))
          (frame_setV2h ok.r_refl ok.h_refl _ _ _ _ h2 (fun v _ => ok.r_ram_clear v))
      split at heq
      · simp only [Option.bind_eq_some, Option.map_eq_some'] at heq
        obtain ⟨sa, ⟨⟨b1, sa1⟩, hadd, hsa⟩, hm1, hhm1, rc1, _, ⟨o, rc2⟩, _, sb, hsb, hm2, hhm2, it3,
          _, heq⟩ := heq
        simp only [Option.some.injEq] at heq
        rw [← heq]
        simp only at hsa
        subst hsa
        exact Frame.frameTrans ok.r_trans ok.h_trans
          (FlashCache.flashAddPage_frame ok.toFlashOK s sa1 h _ _ _ b1 ref _ _ hadd)
          (Frame.frameTrans ok.r_trans ok.h_trans (tail sa1 sb hm1 rc2 hhm1 hsb)
            (frame_setHmem ok.r_refl ok.h_refl sb h hm2 _ hhm2 (ok.h_ram _ _)))
      · simp only [Option.bind_eq_some, Option.some_bind] at heq
        obtain ⟨hm1, hhm1, rc1, _, ⟨o, rc2⟩, _, sb, hsb, hm2, hhm2, it3, _, heq⟩ := heq
        simp only [Option.some.injEq] at heq
        rw [← heq]
        exact Frame.frameTrans ok.r_trans ok.h_trans (tail s sb hm1 rc2 hhm1 hsb)
          (frame_setHmem ok.r_refl ok.h_refl sb h hm2 _ hhm2 (ok.h_ram _ _))
    · cases e

/-- `RAMCache::EvictItems`. -/
theorem ramEvictItems_frame (ok : RamOK R H) (s s1 : System) (h n : Nat)
    (e : EvictItems s h = some (n, s1)) : Frame R H s s1 := by
  unfold EvictItems at e
  simp only [bind, Option.bind_eq_some, Option.some.injEq, Prod.mk.injEq] at e
  obtain ⟨hm, _, items, _, s2, h2, _, e⟩ := e
  rw [← e]
  exact ramEvictLoop_frame ok h items s s2 h2

/-- The loop of `RAMCache::AddPage` that takes an item. -/
theorem newItem_frame (ok : RamOK R H) (h fuel : Nat) (s s1 : System) (o : Option Nat)
    (e : newItem h fuel s = some (o, s1)) : Frame R H s s1 := by
  induction fuel generalizing s with
  | zero => simp [newItem] at e
  | succ fuel ih =>
    unfold newItem at e
    split at e
    · cases e
    · rename_i hm hhm
      split at e
      · simp only [Option.some.injEq, Prod.mk.injEq] at e
        rw [← e.2]
        exact frame_setHmem ok.r_refl ok.h_refl s h hm _ hhm (ok.h_ram _ _)
      · split at e
        · cases e
        · rename_i n s2 he
          have f1 := ramEvictItems_frame ok s s2 h n he
          split at e
          · simp only [Option.some.injEq, Prod.mk.injEq] at e
            rw [← e.2]
            exact f1
          · exact Frame.frameTrans ok.r_trans ok.h_trans f1 (ih s2 e)

end RAMCache

namespace RAMCache
open System

variable {R : V2HMapMetadata → V2HMapMetadata → Prop} {H : HybridMemory → HybridMemory → Prop}

/-- `RAMCache::AddPage`. -/
theorem ramAddPage_frame (ok : RamOK R H) (s s1 : System) (h page sz : Nat) (b b1 : Bool)
    (ref : Nat × Nat) (id : Nat) (e : AddPage s h page sz b ref id = some (b1, s1)) :
    Frame R H s s1 := by
  unfold AddPage at e
  simp only [bind, Option.bind_eq_some] at e
  obtain ⟨_, _, _, _, hm, hhm, o, ho, e⟩ := e
  split at e
  · rename_i item
    simp only [Option.bind_eq_some] at e
    obtain ⟨it, hit, _, _, _, _, v, hv, u, hc, e⟩ := e
    have hex := check_some _ u hc
    by_cases hb : b = true
    · rw [if_pos hb] at e
      simp only [Option.bind_eq_some, Option.some.injEq, Prod.mk.injEq] at e
      obtain ⟨d, _, sa, hsa, hm1, hhm1, rc1, hrc1, _, e⟩ := e
      rw [← e]
      exact Frame.frameTrans ok.r_trans ok.h_trans
        (Frame.frameTrans ok.r_trans ok.h_trans
          (frame_setHmem ok.r_refl ok.h_refl s h hm _ hhm (ok.h_ram _ _))
          (frame_setV2h ok.r_refl ok.h_refl _ _ _ _ hsa (fun v1 h1 => by
            rw [v2h_setHmem, hv] at h1
            cases h1
            exact ok.r_ram_dirty v hex)))
        (frame_setHmem ok.r_refl ok.h_refl sa h hm1 _ hhm1 (ok.h_ram _ _))
    · rw [if_neg hb] at e
      simp only [Option.bind_eq_some, Option.some_bind, Option.some.injEq, Prod.mk.injEq] at e
      obtain ⟨hm1, hhm1, rc1, hrc1, _, e⟩ := e
      rw [← e]
      exact frame_setHmem ok.r_refl ok.h_refl s h hm1 _ hhm1 (ok.h_ram _ _)
  · simp only [Option.bind_eq_some] at e
    obtain ⟨⟨o1, sa⟩, hnew, e⟩ := e
    have f1 := newItem_frame ok h 2 s sa o1 hnew
    split at e
    · simp only [Option.some.injEq, Prod.mk.injEq] at e
      rw [← e.2]
      rename_i heq
      cases heq
      exact f1
    · rename_i item sa1 heq
      cases heq
      simp only [Option.bind_eq_some, Option.some.injEq, Prod.mk.injEq] at e
      obtain ⟨d, _, hm1, hhm1, it, _, sb, hsb, hm2, hhm2, ⟨o2, rc2⟩, _, _, e⟩ := e
      rw [← e]
      exact Frame.frameTrans ok.r_trans ok.h_trans f1
        (Frame.frameTrans ok.r_trans ok.h_trans
          (Frame.frameTrans ok.r_trans ok.h_trans
            (frame_setHmem ok.r_refl ok.h_refl sa h hm1 _ hhm1 (ok.h_ram _ _))
            (frame_setV2h ok.r_refl ok.h_refl _ _ _ _ hsb (fun v _ => ok.r_ram_add v b)))
          (frame_setHmem ok.r_refl ok.h_refl sb h hm2 _ hhm2 (ok.h_ram _ _)))

/-- `RAMCache::Remove`. -/
theorem Remove_frame (ok : RamOK R H) (s s1 : System) (h item : Nat)
    (e : Remove s h item = some s1) : Frame R H s s1 := by
  unfold Remove at e
  simp only [bind, Option.bind_eq_some, Option.some.injEq] at e
  obtain ⟨hm, hhm, it, _, rc1, _, ⟨o, rc2⟩, _, ref, _, sb, hsb, hm2, hhm2, it3, _, e⟩ := e
  rw [← e]
  exact Frame.frameTrans ok.r_trans ok.h_trans
    (Frame.frameTrans ok.r_trans ok.h_trans
      (frame_setHmem ok.r_refl ok.h_refl s h hm _ hhm (ok.h_ram _ _))
      (frame_setV2h ok.r_refl ok.h_refl _ _ _ _ hsb (fun v _ => ok.r_ram_clear v)))
    (frame_setHmem ok.r_refl ok.h_refl sb h hm2 _ hhm2 (ok.h_ram _ _))

end RAMCache

namespace PageCache
open System

variable {R : V2HMapMetadata → V2HMapMetadata → Prop} {H : HybridMemory → HybridMemory → Prop}

/-- The loop of `PageCache::EvictItems`. -/
theorem pageEvictLoop_frame (ok : RamOK R H)
    (hc : ∀ v : V2HMapMetadata, R v { v with exist_page_cache := false, dirty_page_cache := false })
    (hp : ∀ (hm : HybridMemory) (pc : PageCache), H hm { hm with page_cache_ := pc })
    (h todo released n : Nat) (s s1 : System)
    (hw : s.WellIndexed) (e : evictLoop h todo released s = some (n, s1)) : Frame R H s s1 := by
  induction todo generalizing s released with
  | zero =>
    unfold evictLoop at e
    simp only [Option.some.injEq, Prod.mk.injEq] at e
    rw [← e.2]
    exact Frame.frameRefl ok.r_refl ok.h_refl s
  | succ todo ih =>
    unfold evictLoop at e
    split at e
    · cases e
    · rename_i hm hhm
      split at e
      · simp only [Option.some.injEq, Prod.mk.injEq] at e
        rw [← e.2]
        exact Frame.frameRefl ok.r_refl ok.h_refl s
      · rename_i front rest hq
        split at e
        · rename_i s2 heq
          simp only [bind, Option.bind_eq_some, Option.some.injEq] at heq
          obtain ⟨olditem, _, v, _, ⟨b2, sa⟩, hadd, sb, hsb, sc, hsc, sd, hsd, hm5, hhm5, heq⟩ := heq
          have f0 := frame_setHmem ok.r_refl ok.h_refl s h hm
            { hm with page_cache_ := { hm.page_cache_ with queue_ := rest } } hhm (hp _ _)
          have f1 := Frame.frameTrans ok.r_trans ok.h_trans f0
            (RAMCache.ramAddPage_frame ok _ sa h _ _ _ b2 _ _ hadd)
          have f2 := Frame.frameTrans ok.r_trans ok.h_trans f1
            (frame_setV2h ok.r_refl ok.h_refl _ _ _ _ hsb (fun v _ => hc v))
          have f3 := Frame.frameTrans ok.r_trans ok.h_trans f2
            (frame_madvise ok.r_refl ok.h_refl sb sc _ (f2.wellIndexed hw) hsc)
          have f4 := Frame.frameTrans ok.r_trans ok.h_trans f3
            (frame_mprotect ok.r_refl ok.h_refl sc sd _ _ (f3.wellIndexed hw) hsd)
          have f5 : Frame R H s s2 := by
            rw [← heq]
            exact Frame.frameTrans ok.r_trans ok.h_trans f4
              (frame_setHmem ok.r_refl ok.h_refl sd h hm5 _ hhm5 (hp _ _))
          exact Frame.frameTrans ok.r_trans ok.h_trans f5 (ih _ s2 (f5.wellIndexed hw) e)
        · cases e

/-- `PageCache::EvictItems`. -/
theorem pageEvictItems_frame (ok : PageOK R H) (h n : Nat) (s s1 : System)
    (hw : s.WellIndexed) (e : EvictItems s h = some (n, s1)) : Frame R H s s1 :=
  pageEvictLoop_frame ok.toRamOK ok.r_page_clear ok.h_page h 10 0 n s s1 hw e

/-- `PageCache::AddPage`. -/
theorem pageAddPage_frame (ok : PageOK R H) (s s1 : System) (h page sz : Nat) (b b1 : Bool)
    (ref : Nat × Nat) (id : Nat) (hw : s.WellIndexed)
    (e : AddPage s h page sz b ref id = some (b1, s1)) : Frame R H s s1 := by
  unfold AddPage at e
  simp only [bind, Option.bind_eq_some] at e
  obtain ⟨hm, hhm, e⟩ := e
  have tail : ∀ (sa sb : System) (hm1 hm2 : HybridMemory) (pc pc2 : PageCache),
      sa.hmem h = some hm1 →
      (sa.setHmem h { hm1 with page_cache_ := pc }).setV2h ref (fun v =>
        { v with exist_page_cache := true, dirty_page_cache := b }) = some sb →
      sb.hmem h = some hm2 →
      Frame R H sa (sb.setHmem h { hm2 with page_cache_ := pc2 }) :=
    fun sa sb hm1 hm2 pc pc2 hhm1 hsb hhm2 =>
    Frame.frameTrans ok.r_trans ok.h_trans
      (Frame.frameTrans ok.r_trans ok.h_trans
        (frame_setHmem ok.r_refl ok.h_refl sa h hm1 _ hhm1 (ok.h_page _ _))
        (frame_setV2h ok.r_refl ok.h_refl _ _ _ _ hsb (fun v _ => ok.r_page_add v b)))
      (frame_setHmem ok.r_refl ok.h_refl sb h hm2 _ hhm2 (ok.h_page _ _))
  split at e
  · simp only [Option.some_bind, Option.bind_eq_some, Option.some.injEq, Prod.mk.injEq] at e
    obtain ⟨hm1, hhm1, _, _, sb, hsb, hm2, hhm2, _, e⟩ := e
    rw [← e]
    exact Frame.frameTrans ok.r_trans ok.h_trans
      (frame_setHmem ok.r_refl ok.h_refl s h hm _ hhm (ok.h_page _ _))
      (tail _ sb hm1 hm2 _ _ hhm1 hsb hhm2)
  · simp only [Option.bind_eq_some] at e
    obtain ⟨⟨n, sc⟩, hev, _, _, hmc, hhmc, e⟩ := e
    have f1 := pageEvictItems_frame ok h n s sc hw hev
    split at e
    · simp only [Option.some_bind, Option.bind_eq_some, Option.some.injEq, Prod.mk.injEq] at e
      obtain ⟨hm1, hhm1, _, _, sb, hsb, hm2, hhm2, _, e⟩ := e
      rw [← e]
      exact Frame.frameTrans ok.r_trans ok.h_trans f1
        (Frame.frameTrans ok.r_trans ok.h_trans
          (frame_setHmem ok.r_refl ok.h_refl sc h hmc _ hhmc (ok.h_page _ _))
          (tail _ sb hm1 hm2 _ _ hhm1 hsb hhm2))
    · simp at e

end PageCache

namespace System

variable {R : V2HMapMetadata → V2HMapMetadata → Prop} {H : HybridMemory → HybridMemory → Prop}

/-- `LoadDataFromHybridMemory`. -/
theorem LoadDataFromHybridMemory_frame (ok : RamOK R H) (s s1 : System) (h page : Nat)
    (r : VAddressRange) (ref : Nat × Nat) (b1 : Bool) (hw : s.WellIndexed)
    (e : LoadDataFromHybridMemory s h page r ref = some (b1, s1)) : Frame R H s s1 := by
  unfold LoadDataFromHybridMemory at e
  simp only [bind, Option.bind_eq_some] at e
  obtain ⟨v, hv, _, _, e⟩ := e
  split at e
  · simp only [Option.bind_eq_some, Option.some.injEq, Prod.mk.injEq] at e
    obtain ⟨hm, hhm, ⟨item, rc1⟩, _, it, _, sa, hsa, _, e⟩ := e
    rw [← e]
    have f1 := frame_setHmem ok.r_refl ok.h_refl s h hm { hm with ram_cache_ := rc1 } hhm
      (ok.h_ram _ _)
    exact Frame.frameTrans ok.r_trans ok.h_trans f1
      (frame_fillPage ok.r_refl ok.h_refl _ sa page _ (f1.wellIndexed hw) hsa)
  · split at e
    · simp only [Option.bind_eq_some] at e
      obtain ⟨⟨b2, sa⟩, hl, e⟩ := e
      split at e
      · cases e
      · rename_i sb heq
        cases heq
        simp only [Option.some.injEq, Prod.mk.injEq] at e
        rw [← e.2]
        exact FlashCache.LoadPage_frame ok.toFlashOK s _ h _ _ _ _ _ _ hw hl
    · split at e
      · simp only [Option.bind_eq_some] at e
        obtain ⟨_, _, ⟨b2, sa⟩, hl, e⟩ := e
        split at e
        · cases e
        · rename_i sb heq
          cases heq
          simp only [Option.some.injEq, Prod.mk.injEq] at e
          rw [← e.2]
          exact FlashCache.LoadFromHDDFile_frame ok.r_refl ok.h_refl s _ r page _ hw hl
      · simp only [Option.some.injEq, Prod.mk.injEq] at e
        rw [← e.2]
        exact Frame.frameRefl ok.r_refl ok.h_refl s

/-- `SigSegvAction`. -/
theorem SigSegvAction_frame (ok : PageOK R H) (s s1 : System) (address : Nat) (rw_ : Bool)
    (hw : s.WellIndexed) (e : SigSegvAction s address rw_ = some s1) : Frame R H s s1 := by
  unfold SigSegvAction at e
  simp only [bind, Option.bind_eq_some] at e
  obtain ⟨_, _, r, hr, h, hh, idx, hidx, v, hv, e⟩ := e
  split at e
  · rename_i hex
    split at e
    · simp only [Option.some.injEq] at e
      rw [← e]
      exact Frame.frameRefl ok.r_refl ok.h_refl s
    · simp only [Option.bind_eq_some] at e
      obtain ⟨sa, hsa, e⟩ := e
      have fa := frame_setPage (R := R) (H := H) ok.r_refl ok.h_refl s sa _ _ hw hsa
      exact Frame.frameTrans ok.r_trans ok.h_trans fa.1
        (frame_setV2h ok.r_refl ok.h_refl sa s1 _ _ e (fun v1 h1 => by
          rw [fa.2.2.2, hv] at h1
          cases h1
          exact ok.r_page_dirty v hex))
  · simp only [Option.bind_eq_some] at e
    obtain ⟨sa, hsa, ⟨b2, sb⟩, hl, e⟩ := e
    have f1 := frame_mprotect (R := R) (H := H) ok.r_refl ok.h_refl s sa _ _ hw hsa
    have f2 := Frame.frameTrans ok.r_trans ok.h_trans f1
      (LoadDataFromHybridMemory_frame ok.toRamOK sa sb h _ r _ b2 (f1.wellIndexed hw) hl)
    split at e
    · simp only [Option.bind_eq_some, Option.some.injEq] at e
      obtain ⟨sc, hsc, ⟨b3, sd⟩, hadd, e⟩ := e
      rw [← e]
      have f3 := Frame.frameTrans ok.r_trans ok.h_trans f2
        (frame_mprotect ok.r_refl ok.h_refl sb sc _ _ (f2.wellIndexed hw) hsc)
      exact Frame.frameTrans ok.r_trans ok.h_trans f3
        (PageCache.pageAddPage_frame ok sc sd h _ _ _ b3 _ _ (f3.wellIndexed hw) hadd)
    · simp only [Option.bind_eq_some, Option.some_bind, Option.some.injEq] at e
      obtain ⟨⟨b3, sd⟩, hadd, e⟩ := e
      rw [← e]
      exact Frame.frameTrans ok.r_trans ok.h_trans f2
        (PageCache.pageAddPage_frame ok sb sd h _ _ _ b3 _ _ (f2.wellIndexed hw) hadd)

end System

/-! ## The states that the library reaches -/

/-! ## The states that the library reaches -/

namespace System

variable {R : V2HMapMetadata → V2HMapMetadata → Prop} {H : HybridMemory → HybridMemory → Prop}

theorem OptRel.some_right {α : Type} {R : α → α → Prop} {b : α} {x : Option α}
    (h : OptRel R x (some b)) : ∃ a, x = some a ∧ R a b := by
  cases x with
  | none => exact h.elim
  | some a => exact ⟨a, rfl, h⟩

/-- A record of the state after a call is a record of the state before. -/
theorem Frame.v2h_back {s s1 : System} (h : Frame R H s s1) (ref : Nat × Nat)
    (v1 : V2HMapMetadata) (hv : s1.v2h ref = some v1) : ∃ v, s.v2h ref = some v ∧ R v v1 := by
  unfold System.v2h at hv ⊢
  have := h.ranges ref.1
  cases hr1 : s1.vaddr_range_group.vaddr_range_list_[ref.1]? with
  | none => rw [hr1] at hv; cases hv
  | some r1 =>
    rw [hr1] at hv this
    obtain ⟨r, hr, hrel⟩ := OptRel.some_right this
    rw [hr]
    simp only at hv ⊢
    have k := hrel.2.2 ref.2
    rw [hv] at k
    exact OptRel.some_right k

/-- Every call of the handler and of the caches is within the frame. -/
theorem TierStep.frame (ok : PageOK R H) {s s1 : System} (hw : s.WellIndexed)
    (h : TierStep s s1) : Frame R H s s1 := by
  cases h with
  | fault address rw_ e => exact SigSegvAction_frame ok s s1 address rw_ hw e
  | pageAdd h page size d ref id b e => exact PageCache.pageAddPage_frame ok s s1 h page size d b ref id hw e
  | pageEvict h n e => exact PageCache.pageEvictItems_frame ok h n s s1 hw e
  | ramAdd h page size d ref id b e =>
    exact RAMCache.ramAddPage_frame ok.toRamOK s s1 h page size d b ref id e
  | ramRemove h item e => exact RAMCache.Remove_frame ok.toRamOK s s1 h item e
  | ramEvict h n e => exact RAMCache.ramEvictItems_frame ok.toRamOK s s1 h n e
  | flashAdd h data size d ref id off b e =>
    exact FlashCache.flashAddPage_frame ok.toFlashOK s s1 h data size d b ref id off e
  | flashEvict h k n e => exact FlashCache.flashEvictItems_frame ok.toFlashOK s s1 h k n e
  | migrate h l n e => exact FlashCache.MigrateToHDD_frame ok.toFlashOK s s1 h n l e
  | sortTies h hm ties e e1 =>
    rw [e1]
    exact frame_setHmem ok.r_refl ok.h_refl s h hm _ e (ok.h_flash hm _)

theorem init_group (disk : List HddFile) (p r m n : Nat) (s : System)
    (e : InitHybridMemory disk p r m n = some s) :
    s.vaddr_range_group = VAddressRangeGroup.Init := by
  unfold InitHybridMemory at e
  split at e
  · split at e
    · cases e
    · cases e
      rfl
  · cases e

set_option maxRecDepth 100000 in
theorem group_init_getElem? (i : Nat) (r : VAddressRange)
    (h : VAddressRangeGroup.Init.vaddr_range_list_[i]? = some r) :
    r = { VAddressRange.new with vaddress_range_id_ := i } := by
  have h2 : ((List.range MAX_VIRTUAL_ADDRESS_RANGES).map
      (fun i => { VAddressRange.new with vaddress_range_id_ := i }))[i]? = some r := h
  rw [List.getElem?_map] at h2
  cases hj : (List.range MAX_VIRTUAL_ADDRESS_RANGES)[i]? with
  | none => rw [hj] at h2; cases h2
  | some j =>
    rw [hj] at h2
    obtain ⟨hlt, hj3⟩ := List.getElem?_eq_some_iff.mp hj
    rw [List.getElem_range] at hj3
    subst hj3
    simp only [Option.map_some', Option.some.injEq] at h2
    exact h2.symm

/-- The state after `InitHybridMemory`: ranges well indexed, no record. -/
theorem init_records (disk : List HddFile) (p r m n : Nat) (s : System)
    (e : InitHybridMemory disk p r m n = some s) :
    s.WellIndexed ∧ ∀ ref, s.v2h ref = none := by
  have hg := init_group disk p r m n s e
  constructor
  · intro i r hr
    rw [hg] at hr
    rw [group_init_getElem? i r hr]
  · intro ref
    unfold System.v2h
    rw [hg]
    cases hr : VAddressRangeGroup.Init.vaddr_range_list_[ref.1]? with
    | none => rfl
    | some r =>
      rw [group_init_getElem? _ r hr]
      rfl

end System

namespace VAddressRange

theorem markHddFile_mem (n R j : Nat) (v : V2HMapMetadata)
    (h : (markHddFile n (List.replicate R V2HMapMetadata.zero))[j]? = some v) :
    v = V2HMapMetadata.zero ∨ v = { V2HMapMetadata.zero with exist_hdd_file := true } := by
  have hj : j < R := by
    have := (List.getElem?_eq_some_iff.mp h).1
    simpa [markHddFile] using this
  rw [getElem?_markHddFile n R j hj] at h
  cases h
  by_cases hn : j < n
  · right
    simp [hn]
  · left
    simp [hn, V2HMapMetadata.zero]

/-- The range that `Init(size, hdd_filename, hdd_file_offset)` leaves: the same
identifier, and records that are zero apart from `exist_hdd_file`. -/
theorem initFile_records (r r1 : VAddressRange) (disk disk1 : List HddFile)
    (address size file off : Nat) (b : Bool)
    (e : r.InitFile disk address size file off = some (b, r1, disk1)) :
    r1.vaddress_range_id_ = r.vaddress_range_id_ ∧
      ∀ (j : Nat) (v : V2HMapMetadata), r1.v2h_map_[j]? = some v → r.v2h_map_[j]? = some v ∨
        v = V2HMapMetadata.zero ∨ v = { V2HMapMetadata.zero with exist_hdd_file := true } := by
  unfold InitFile at e
  split at e
  · cases e
  · split at e
    · cases e
    · split at e
      · cases e
        exact ⟨rfl, fun j v h => Or.inl h⟩
      · simp only at e
        split at e
        · cases e
        · rename_i r0 h0
          cases e
          unfold VAddressRange.Init at h0
          split at h0
          · cases h0
          · split at h0
            · cases h0
              exact ⟨rfl, fun j v h => Or.inl h⟩
            · cases h0
        · rename_i r0 h0
          unfold VAddressRange.Init at h0
          split at h0
          · cases h0
          · split at h0
            · cases h0
            · simp only [Option.some.injEq, Prod.mk.injEq, true_and] at h0
              subst h0
              simp only [Option.some.injEq, Prod.mk.injEq] at e
              obtain ⟨_, e, _⟩ := e
              subst e
              refine ⟨by split_ifs <;> rfl, ?_⟩
              intro j v hv
              right
              split_ifs at hv
              · exact markHddFile_mem _ _ j v hv
              · left
                simp only [List.getElem?_replicate] at hv
                split_ifs at hv
                cases hv
                rfl

end VAddressRange

namespace System

/-- What `hmem_map` leaves: ranges well indexed, the records that were there,
and the zeroed records of the new range. -/
theorem hmem_map_records (s s1 : System) (address size file off a : Nat) (hw : s.WellIndexed)
    (e : s.hmem_map address size file off = some (a, s1)) :
    s1.WellIndexed ∧ ∀ (ref : Nat × Nat) (v1 : V2HMapMetadata), s1.v2h ref = some v1 →
      s.v2h ref = some v1 ∨ v1 = V2HMapMetadata.zero ∨
        v1 = { V2HMapMetadata.zero with exist_hdd_file := true } := by
  unfold hmem_map at e
  simp only [bind, Option.bind_eq_some, Option.some.injEq, Prod.mk.injEq] at e
  obtain ⟨_, _, i, _, r, hr, ⟨ok, r1, disk⟩, hi, _, _, _, e⟩ := e
  obtain ⟨hid, hrec⟩ := VAddressRange.initFile_records r r1 s.disk disk address size file off ok hi
  have hri := hw i r hr
  have hlt : i < s.vaddr_range_group.vaddr_range_list_.length :=
    (List.getElem?_eq_some_iff.mp hr).1
  subst e
  constructor
  · intro k x hx
    simp only at hx
    by_cases hk : i = k
    · subst hk
      rw [List.getElem?_set_self hlt] at hx
      cases hx
      rw [hid, hri]
    · rw [List.getElem?_set_ne hk] at hx
      exact hw k x hx
  · intro ref v1 hv
    unfold System.v2h at hv ⊢
    simp only at hv
    by_cases hk : i = ref.1
    · rw [← hk, List.getElem?_set_self hlt] at hv
      simp only at hv
      rw [← hk, hr]
      exact hrec ref.2 v1 hv
    · rw [List.getElem?_set_ne hk] at hv
      exact Or.inl hv

/-- The writes of the handler and of the caches keep P2 of the specification
in each record. -/
theorem dirtyOK_pageOK :
    PageOK (fun v v1 => v.DirtyOK → v1.DirtyOK) (fun _ _ => True) where
  r_refl := fun _ h => h
  r_trans := fun _ _ _ h1 h2 h => h2 (h1 h)
  h_refl := fun _ => trivial
  h_trans := fun _ _ _ _ _ => trivial
  r_flash_add := fun v b n h => ⟨h.1, h.2.1, fun _ => rfl⟩
  r_flash_clear := fun v h => ⟨h.1, h.2.1, (fun k => by cases k)⟩
  r_migrate := fun v h => ⟨h.1, h.2.1, (fun k => by cases k)⟩
  h_flash := fun _ _ => trivial
  h_lru := fun _ _ _ _ => trivial
  r_ram_add := fun v b h => ⟨h.1, fun _ => rfl, h.2.2⟩
  r_ram_clear := fun v h => ⟨h.1, (fun k => by cases k), h.2.2⟩
  r_ram_dirty := fun v hx h => ⟨h.1, fun _ => hx, h.2.2⟩
  h_ram := fun _ _ => trivial
  r_page_add := fun v b h => ⟨fun _ => rfl, h.2.1, h.2.2⟩
  r_page_clear := fun v h => ⟨(fun k => by cases k), h.2.1, h.2.2⟩
  r_page_dirty := fun v hx h => ⟨fun _ => hx, h.2.1, h.2.2⟩
  h_page := fun _ _ => trivial

/-- The ranges of a state that the library reaches are well indexed. -/
theorem reachable_wellIndexed (s : System) (h : TierReachable s) : s.WellIndexed := by
  induction h with
  | init disk p r m n s e => exact (init_records disk p r m n s e).1
  | map s s1 address size file off a _ e ih =>
    exact (hmem_map_records s s1 address size file off a ih e).1
  | step s s1 _ hs ih => exact (TierStep.frame dirtyOK_pageOK ih hs).wellIndexed ih

/-- P2 of the specification holds of every record of a state that the library
reaches. -/
theorem reachable_dirtyOK (s : System) (h : TierReachable s) (ref : Nat × Nat)
    (v : V2HMapMetadata) (hv : s.v2h ref = some v) : v.DirtyOK := by
  induction h generalizing ref v with
  | init disk p r m n s e =>
    rw [(init_records disk p r m n s e).2 ref] at hv
    cases hv
  | map s s1 address size file off a hs e ih =>
    rcases (hmem_map_records s s1 address size file off a (reachable_wellIndexed s hs) e).2
      ref v hv with h1 | h1 | h1
    · exact ih ref v h1
    · subst h1
      exact ⟨(fun k => by cases k), (fun k => by cases k), (fun k => by cases k)⟩
    · subst h1
      exact ⟨(fun k => by cases k), (fun k => by cases k), (fun k => by cases k)⟩
  | step s s1 hs hstep ih =>
    obtain ⟨v0, hv0, hR⟩ :=
      (TierStep.frame dirtyOK_pageOK (reachable_wellIndexed s hs) hstep).v2h_back ref v hv
    exact hR (ih ref v0 hv0)

/-- C24: in every state that the library reaches from `InitHybridMemory` by
`hmem_map` (which zeroes the V2H records of the new range), the fault handler,
`PageCache::AddPage` / `EvictItems`, `RAMCache::AddPage` / `Remove` /
`EvictItems` and `FlashCache::AddPage` / `EvictItems` / `MigrateToHDD`
(synchronous path), every V2H record has `dirty_page_cache = 1` only with
`exist_page_cache = 1`, `dirty_ram_cache = 1` only with `exist_ram_cache = 1`,
and `dirty_flash_cache = 1` only with `exist_flash_cache = 1`. -/
theorem C24_dirty_implies_present (s : System) (h : TierReachable s) (ref : Nat × Nat)
    (v : V2HMapMetadata) (hv : s.v2h ref = some v) :
    (v.dirty_page_cache = true → v.exist_page_cache = true) ∧
      (v.dirty_ram_cache = true → v.exist_ram_cache = true) ∧
      (v.dirty_flash_cache = true → v.exist_flash_cache = true) :=
  reachable_dirtyOK s h ref v hv

set_option maxRecDepth 100000 in
/-- C24 applies to the state after a write fault on the first page of a range
of 8 pages: the record of the page is dirty in the page cache, and present. -/
theorem C24_dirty_implies_present_witness :
    ∃ (s : System) (v : V2HMapMetadata), TierReachable s ∧ s.v2h (0, 0) = some v ∧
      v.dirty_page_cache = true ∧ v.exist_page_cache = true := by
  have e : ((InitHybridMemory
        [{ st_size := 8 * 4096, content := [100, 101, 102, 103, 104, 105, 106, 107] }]
        (3 * 4096) (2 * 4096) (1 <<< 20) 1).bind (fun s0 =>
      (s0.hmem_map 65536 (8 * 4096) 0 0).bind (fun r =>
        (r.2.SigSegvAction 65536 true).bind (fun s =>
          (s.v2h (0, 0)).bind (fun v => some v.dirty_page_cache))))) = some true := by
    rw [init_of _ _ _ _ (by decide),
      flashInit_of (1 <<< 20) 256 _ (by decide) PageAllocationTable.Init_256]
    decide!
  simp only [Option.bind_eq_some] at e
  obtain ⟨s0, h0, ⟨a, s1⟩, h1, s, h2, v, hv, hd⟩ := e
  simp only [Option.some.injEq] at hd
  have hr : TierReachable s :=
    TierReachable.step s1 s (TierReachable.map s0 s1 _ _ _ _ a (TierReachable.init _ _ _ _ _ s0 h0) h1)
      (TierStep.fault s1 s _ _ h2)
  exact ⟨s, v, hr, hv, hd, (C24_dirty_implies_present s hr (0, 0) v hv).1 hd⟩

end System

/-! ## The presence flags -/

namespace PageCache
open System

/-- The record of the page after `PageCache::AddPage`. -/
theorem AddPage_record (s s1 : System) (h page sz : Nat) (b b1 : Bool) (ref : Nat × Nat)
    (id : Nat) (e : AddPage s h page sz b ref id = some (b1, s1)) :
    ∃ v1, s1.v2h ref = some v1 ∧ v1.exist_page_cache = true ∧ v1.dirty_page_cache = b := by
  unfold AddPage at e
  simp only [bind, Option.bind_eq_some] at e
  obtain ⟨hm, hhm, e⟩ := e
  have tail : ∀ (sa sb : System) (hm2 : HybridMemory),
      sa.setV2h ref (fun v =>
        { v with exist_page_cache := true, dirty_page_cache := b }) = some sb →
      ∃ v1, (sb.setHmem h hm2).v2h ref = some v1 ∧ v1.exist_page_cache = true ∧
        v1.dirty_page_cache = b := fun sa sb hm2 hsb => by
    obtain ⟨v, _, hv1, _⟩ := setV2h_v2h sa sb ref _ hsb
    exact ⟨_, hv1, rfl, rfl⟩
  split at e
  · simp only [Option.some_bind, Option.bind_eq_some, Option.some.injEq, Prod.mk.injEq] at e
    obtain ⟨hm1, hhm1, _, _, sb, hsb, hm2, hhm2, _, e⟩ := e
    rw [← e]
    exact tail _ sb _ hsb
  · simp only [Option.bind_eq_some] at e
    obtain ⟨⟨n, sc⟩, hev, _, _, hmc, hhmc, e⟩ := e
    split at e
    · simp only [Option.some_bind, Option.bind_eq_some, Option.some.injEq, Prod.mk.injEq] at e
      obtain ⟨hm1, hhm1, _, _, sb, hsb, hm2, hhm2, _, e⟩ := e
      rw [← e]
      exact tail _ sb _ hsb
    · simp at e

end PageCache

namespace System

/-- The record of the page of the fault when `SigSegvAction` returns. -/
theorem SigSegvAction_record (s s1 : System) (address : Nat) (rw_ : Bool) (hw : s.WellIndexed)
    (e : SigSegvAction s address rw_ = some s1) :
    ∃ (r : VAddressRange) (idx : Nat) (v1 : V2HMapMetadata),
      s.vaddr_range_group.FindVAddressRange (address / PAGE_SIZE * PAGE_SIZE) = some r ∧
      r.GetV2HMapMetadata (address - r.address_) = some idx ∧
      s1.v2h (r.vaddress_range_id_, idx) = some v1 ∧ v1.exist_page_cache = true := by
  unfold SigSegvAction at e
  simp only [bind, Option.bind_eq_some] at e
  obtain ⟨_, _, r, hr, h, hh, idx, hidx, v, hv, e⟩ := e
  refine ⟨r, idx, ?_⟩
  split at e
  · rename_i hex
    split at e
    · simp only [Option.some.injEq] at e
      rw [← e]
      exact ⟨v, hr, hidx, hv, hex⟩
    · simp only [Option.bind_eq_some] at e
      obtain ⟨sa, hsa, e⟩ := e
      have fa := frame_setPage (R := fun _ _ => True) (H := fun _ _ => True)
        (fun _ => trivial) (fun _ => trivial) s sa _ _ hw hsa
      obtain ⟨v0, hv0, hv1, _⟩ := setV2h_v2h sa s1 _ _ e
      rw [fa.2.2.2, hv] at hv0
      cases hv0
      exact ⟨_, hr, hidx, hv1, hex⟩
  · simp only [Option.bind_eq_some] at e
    obtain ⟨sa, hsa, ⟨b2, sb⟩, hl, e⟩ := e
    split at e
    · simp only [Option.bind_eq_some, Option.some.injEq] at e
      obtain ⟨sc, hsc, ⟨b3, sd⟩, hadd, e⟩ := e
      rw [← e]
      obtain ⟨v1, h1, h2, _⟩ := PageCache.AddPage_record sc sd h _ _ _ b3 _ _ hadd
      exact ⟨v1, hr, hidx, h1, h2⟩
    · simp only [Option.bind_eq_some, Option.some_bind, Option.some.injEq] at e
      obtain ⟨⟨b3, sd⟩, hadd, e⟩ := e
      rw [← e]
      obtain ⟨v1, h1, h2, _⟩ := PageCache.AddPage_record sb sd h _ _ _ b3 _ _ hadd
      exact ⟨v1, hr, hidx, h1, h2⟩

/-- No write of the handler or of the caches clears `exist_hdd_file`. -/
theorem hddOK_pageOK :
    PageOK (fun v v1 => v.exist_hdd_file = true → v1.exist_hdd_file = true) (fun _ _ => True) where
  r_refl := fun _ h => h
  r_trans := fun _ _ _ h1 h2 h => h2 (h1 h)
  h_refl := fun _ => trivial
  h_trans := fun _ _ _ _ _ => trivial
  r_flash_add := fun _ _ _ h => h
  r_flash_clear := fun _ h => h
  r_migrate := fun _ _ => rfl
  h_flash := fun _ _ => trivial
  h_lru := fun _ _ _ _ => trivial
  r_ram_add := fun _ _ h => h
  r_ram_clear := fun _ h => h
  r_ram_dirty := fun _ _ h => h
  h_ram := fun _ _ => trivial
  r_page_add := fun _ _ h => h
  r_page_clear := fun _ h => h
  r_page_dirty := fun _ _ h => h
  h_page := fun _ _ => trivial

/-- In a state that the library reaches, a call of the fault handler or of an
operation of the caches that returns keeps every V2H record and never clears
`exist_hdd_file`; and when the call is the fault handler, the page of the fault
has `exist_page_cache = 1` when it returns. -/
theorem presence_after_fault (s s1 : System) (hr : TierReachable s) (hs : TierStep s s1) :
    (∀ (ref : Nat × Nat) (v : V2HMapMetadata), s.v2h ref = some v →
        ∃ v1, s1.v2h ref = some v1 ∧ (v.exist_hdd_file = true → v1.exist_hdd_file = true)) ∧
      ∀ (address : Nat) (rwerror : Bool), s.SigSegvAction address rwerror = some s1 →
        ∃ (r : VAddressRange) (idx : Nat) (v1 : V2HMapMetadata),
          s.vaddr_range_group.FindVAddressRange (address / PAGE_SIZE * PAGE_SIZE) = some r ∧
          r.GetV2HMapMetadata (address - r.address_) = some idx ∧
          s1.v2h (r.vaddress_range_id_, idx) = some v1 ∧ v1.exist_page_cache = true :=
  ⟨fun ref v hv => (TierStep.frame hddOK_pageOK (reachable_wellIndexed s hr) hs).v2h ref v hv,
    fun address rwerror e => SigSegvAction_record s s1 address rwerror (reachable_wellIndexed s hr) e⟩

end System

/-! ## What the fault handler loads -/

namespace System

end System

namespace System

end System

/-! ## The queue of the page cache -/

/-! ## The queue of the page cache -/

namespace System

variable {R : V2HMapMetadata → V2HMapMetadata → Prop} {H : HybridMemory → HybridMemory → Prop}

theorem hmem_setHmem_ne (s : System) (h k : Nat) (hm1 : HybridMemory) (hk : h ≠ k) :
    (s.setHmem h hm1).hmem k = s.hmem k := by
  unfold System.hmem System.setHmem
  simp only
  rw [List.getElem?_set_ne hk]

/-- A tier of the state after a call is a tier of the state before. -/
theorem Frame.hmem_back {s s1 : System} (h : Frame R H s s1) (k : Nat) (hm1 : HybridMemory)
    (hk : s1.hmem k = some hm1) : ∃ hm, s.hmem k = some hm ∧ H hm hm1 := by
  unfold System.hmem at hk ⊢
  have := h.tiers k
  rw [hk] at this
  exact OptRel.some_right this

/-- The operations of the RAM cache and of the flash cache leave the page cache
of every tier, and the clean state of the page-cache flags of every record, as
they are. -/
theorem pageSame_ramOK :
    RamOK (fun v v1 => v1.exist_page_cache = v.exist_page_cache ∧
        v1.dirty_page_cache = v.dirty_page_cache)
      (fun hm hm1 => hm1.page_cache_ = hm.page_cache_ ∧
        hm1.page_buffer_size_ = hm.page_buffer_size_) where
  r_refl := fun _ => ⟨rfl, rfl⟩
  r_trans := fun _ _ _ h1 h2 => ⟨h2.1.trans h1.1, h2.2.trans h1.2⟩
  h_refl := fun _ => ⟨rfl, rfl⟩
  h_trans := fun _ _ _ h1 h2 => ⟨h2.1.trans h1.1, h2.2.trans h1.2⟩
  r_flash_add := fun _ _ _ => ⟨rfl, rfl⟩
  r_flash_clear := fun _ => ⟨rfl, rfl⟩
  r_migrate := fun _ => ⟨rfl, rfl⟩
  h_flash := fun _ _ => ⟨rfl, rfl⟩
  h_lru := fun _ _ _ _ => ⟨rfl, rfl⟩
  r_ram_add := fun _ _ => ⟨rfl, rfl⟩
  r_ram_clear := fun _ => ⟨rfl, rfl⟩
  r_ram_dirty := fun _ _ => ⟨rfl, rfl⟩
  h_ram := fun _ _ => ⟨rfl, rfl⟩

end System

namespace PageCache
open System

/-- One turn of the loop of `PageCache::EvictItems`: the oldest entry goes to
`RAMCache::AddPage` with the dirty bit of its record, the record loses
`exist_page_cache` and `dirty_page_cache`, and the entry goes to the end of the
free list. -/
theorem evictLoop_turn (h todo released n : Nat) (s s1 : System) (hm : HybridMemory)
    (front : Nat) (rest : List Nat) (hw : s.WellIndexed) (hhm : s.hmem h = some hm)
    (hq : hm.page_cache_.queue_ = front :: rest)
    (e : evictLoop h (todo + 1) released s = some (n, s1)) :
    ∃ (olditem : PageCacheItem) (v v2 : V2HMapMetadata) (b : Bool) (sa s2 : System)
        (hm2 : HybridMemory),
      hm.page_cache_.items[front]? = some olditem ∧ s.v2h olditem.v2hmap = some v ∧
      RAMCache.AddPage
        (s.setHmem h { hm with page_cache_ := { hm.page_cache_ with queue_ := rest } }) h
        olditem.page olditem.size v.dirty_page_cache olditem.v2hmap olditem.vaddr_range_id =
          some (b, sa) ∧
      evictLoop h todo (released + 1) s2 = some (n, s1) ∧ s2.WellIndexed ∧
      s2.hmem h = some hm2 ∧
      hm2.page_cache_ = { hm.page_cache_ with
        queue_ := rest, item_list_ := hm.page_cache_.item_list_.Free front } ∧
      hm2.page_buffer_size_ = hm.page_buffer_size_ ∧
      (∀ (k : Nat) (hmk : HybridMemory), k ≠ h → s.hmem k = some hmk →
        ∃ hmk2, s2.hmem k = some hmk2 ∧ hmk2.page_cache_ = hmk.page_cache_ ∧
          hmk2.page_buffer_size_ = hmk.page_buffer_size_) ∧
      s2.v2h olditem.v2hmap = some v2 ∧ v2.exist_page_cache = false ∧
      v2.dirty_page_cache = false := by
  unfold evictLoop at e
  rw [hhm] at e
  simp only at e
  rw [hq] at e
  simp only at e
  split at e
  · rename_i s2 heq
    simp only [bind, Option.bind_eq_some, Option.some.injEq] at heq
    obtain ⟨olditem, hit, v, hv, ⟨b2, sa⟩, hadd, sb, hsb, sc, hsc, sd, hsd, hm5, hhm5, heq⟩ := heq
    have f0 := frame_setHmem (R := fun v v1 => v1.exist_page_cache = v.exist_page_cache ∧
        v1.dirty_page_cache = v.dirty_page_cache) (H := fun _ _ => True)
      (fun _ => ⟨rfl, rfl⟩) (fun _ => trivial) s h hm
      { hm with page_cache_ := { hm.page_cache_ with queue_ := rest } } hhm trivial
    have hw0 := f0.wellIndexed hw
    have f1 := RAMCache.ramAddPage_frame pageSame_ramOK _ sa h _ _ _ b2 _ _ hadd
    have hw1 := f1.wellIndexed hw0
    have g2 := frame_setV2h (R := fun _ _ => True) (H := fun _ _ => True) (fun _ => trivial)
      (fun _ => trivial) sa sb _ _ hsb (fun _ _ => trivial)
    have hw2 := g2.wellIndexed hw1
    have g3 := frame_setPage (R := fun _ _ => True) (H := fun _ _ => True) (fun _ => trivial)
      (fun _ => trivial) sb sc _ _ hw2 hsc
    have hw3 := g3.1.wellIndexed hw2
    have g4 := frame_setPage (R := fun _ _ => True) (H := fun _ _ => True) (fun _ => trivial)
      (fun _ => trivial) sc sd _ _ hw3 hsd
    have hw4 := g4.1.wellIndexed hw3
    have o2 := setV2h_other sa sb _ _ hsb
    -- the tiers of `sd` are those of `sa`
    have hinst : sd.hmem_instances_ = sa.hmem_instances_ := by
      rw [g4.2.1, g3.2.1, o2.1]
    have hsdh : ∀ k, sd.hmem k = sa.hmem k := fun k => by
      unfold System.hmem
      rw [hinst]
    obtain ⟨va, _, hv2, _⟩ := setV2h_v2h sa sb _ _ hsb
    have hw5 : s2.WellIndexed := by
      rw [← heq]
      exact (frame_setHmem (R := fun _ _ => True) (H := fun _ _ => True) (fun _ => trivial)
        (fun _ => trivial) sd h hm5 _ hhm5 trivial).wellIndexed hw4
    have hh0 : (s.setHmem h
        { hm with page_cache_ := { hm.page_cache_ with queue_ := rest } }).hmem h = some
        { hm with page_cache_ := { hm.page_cache_ with queue_ := rest } } :=
      hmem_setHmem s h hm _ hhm
    obtain ⟨hma, hhma, hpa⟩ := f1.hmem h _ hh0
    have hhm5a := hhm5
    rw [hsdh, hhma] at hhm5a
    have h5 : hma = hm5 := Option.some.inj hhm5a
    subst h5
    refine ⟨olditem, v, { va with exist_page_cache := false, dirty_page_cache := false }, b2, sa,
      s2, { hma with page_cache_ := { hma.page_cache_ with
        item_list_ := hma.page_cache_.item_list_.Free front } }, hit, ?_, hadd, e, hw5, ?_, ?_, ?_, ?_, ?_, rfl, rfl⟩
    · rw [← hv]
      rfl
    · rw [← heq]
      exact hmem_setHmem sd h hma _ hhm5
    · simp only
      rw [hpa.1]
    · exact hpa.2
    · intro k hmk hk hhmk
      have hk0 : (s.setHmem h
          { hm with page_cache_ := { hm.page_cache_ with queue_ := rest } }).hmem k = some hmk := by
        rw [hmem_setHmem_ne s h k _ (Ne.symm hk), hhmk]
      obtain ⟨hmk1, hhmk1, hpk⟩ := f1.hmem k _ hk0
      refine ⟨hmk1, ?_, hpk⟩
      rw [← heq, hmem_setHmem_ne sd h k _ (Ne.symm hk), hsdh, hhmk1]
    · rw [← heq, v2h_setHmem, g4.2.2.2, g3.2.2.2]
      exact hv2
  · cases e

end PageCache

namespace System

/-- The operations of the RAM cache and of the flash cache, and the turns of
`PageCache::EvictItems`, leave a record that has neither `exist_page_cache` nor
`dirty_page_cache` without them. -/
theorem pageClear_ramOK :
    RamOK (fun v v1 => (v.exist_page_cache = false ∧ v.dirty_page_cache = false) →
        (v1.exist_page_cache = false ∧ v1.dirty_page_cache = false)) (fun _ _ => True) where
  r_refl := fun _ h => h
  r_trans := fun _ _ _ h1 h2 h => h2 (h1 h)
  h_refl := fun _ => trivial
  h_trans := fun _ _ _ _ _ => trivial
  r_flash_add := fun _ _ _ h => h
  r_flash_clear := fun _ h => h
  r_migrate := fun _ h => h
  h_flash := fun _ _ => trivial
  h_lru := fun _ _ _ _ => trivial
  r_ram_add := fun _ _ h => h
  r_ram_clear := fun _ h => h
  r_ram_dirty := fun _ _ h => h
  h_ram := fun _ _ => trivial

end System

namespace PageCache
open System

theorem pc_eta (pc : PageCache) (hq : pc.queue_ = []) (m : Nat) :
    pc = { pc with
      queue_ := pc.queue_.drop m,
      item_list_ := { pc.item_list_ with list_ := pc.item_list_.list_ ++ pc.queue_.take m } } := by
  cases pc with
  | mk r q il its mx =>
    cases il with
    | mk l t =>
      simp only at hq
      subst hq
      simp

theorem evictLoop_zero (h released : Nat) (s : System) :
    evictLoop h 0 released s = some (released, s) := by
  unfold evictLoop
  rfl

/-- A turn of the loop of `PageCache::EvictItems` fails, or finds the queue
empty, or goes on in a state that depends on neither counter. -/
theorem evictLoop_step (h : Nat) (s : System) :
    (∀ t r, evictLoop h (t + 1) r s = none) ∨ (∀ t r, evictLoop h t r s = some (r, s)) ∨
      ∃ s2, ∀ t r, evictLoop h (t + 1) r s = evictLoop h t (r + 1) s2 := by
  cases hh : s.hmem h with
  | none =>
    left
    intro t r
    unfold evictLoop
    rw [hh]
  | some hm =>
    cases hq : hm.page_cache_.queue_ with
    | nil =>
      right
      left
      intro t r
      cases t with
      | zero => exact evictLoop_zero h r s
      | succ t =>
        unfold evictLoop
        rw [hh]
        simp only
        rw [hq]
    | cons front rest =>
      have key : ∃ X : Option System, ∀ t r, evictLoop h (t + 1) r s =
          match X with
          | some s1 => evictLoop h t (r + 1) s1
          | none => none := by
        refine ⟨evictTurn h front rest s hm, fun t r => ?_⟩
        conv_lhs => unfold evictLoop
        rw [hh]
        simp only
        rw [hq]
        rfl
      obtain ⟨X, hX⟩ := key
      cases X with
      | none =>
        left
        intro t r
        rw [hX]
      | some s2 =>
        right
        right
        exact ⟨s2, fun t r => by rw [hX]⟩

/-- The loop of `PageCache::EvictItems` in two parts. -/
theorem evictLoop_add (h : Nat) (a b : Nat) : ∀ (released : Nat) (s : System),
    evictLoop h (a + b) released s =
      (evictLoop h a released s).bind (fun p => evictLoop h b p.1 p.2) := by
  induction a with
  | zero =>
    intro released s
    rw [Nat.zero_add, evictLoop_zero]
    rfl
  | succ a ih =>
    intro released s
    rw [Nat.succ_add]
    rcases evictLoop_step h s with h1 | h1 | ⟨s2, h1⟩
    · rw [h1, h1]
      rfl
    · rw [h1, h1]
      simp only [Option.some_bind]
      rw [h1]
    · rw [h1, h1, ih]

/-- What the loop of `PageCache::EvictItems` leaves. -/
theorem evictLoop_queue (h : Nat) : ∀ (todo released n : Nat) (s s1 : System)
    (hm : HybridMemory), s.WellIndexed → s.hmem h = some hm →
    evictLoop h todo released s = some (n, s1) →
    n = released + min todo hm.page_cache_.queue_.length ∧ s1.WellIndexed ∧
      (∃ hm1, s1.hmem h = some hm1 ∧
        hm1.page_cache_ = { hm.page_cache_ with
          queue_ := hm.page_cache_.queue_.drop (min todo hm.page_cache_.queue_.length),
          item_list_ := { hm.page_cache_.item_list_ with
            list_ := hm.page_cache_.item_list_.list_ ++
              hm.page_cache_.queue_.take (min todo hm.page_cache_.queue_.length) } } ∧
        hm1.page_buffer_size_ = hm.page_buffer_size_) ∧
      (∀ (k : Nat) (hmk : HybridMemory), k ≠ h → s.hmem k = some hmk →
        ∃ hmk2, s1.hmem k = some hmk2 ∧ hmk2.page_cache_ = hmk.page_cache_ ∧
          hmk2.page_buffer_size_ = hmk.page_buffer_size_) ∧
      (∀ (i : Nat) (it : PageCacheItem),
        i ∈ hm.page_cache_.queue_.take (min todo hm.page_cache_.queue_.length) →
        hm.page_cache_.items[i]? = some it →
        ∃ v1, s1.v2h it.v2hmap = some v1 ∧ v1.exist_page_cache = false ∧
          v1.dirty_page_cache = false) := by
  intro todo
  induction todo with
  | zero =>
    intro released n s s1 hm hw hhm e
    rw [evictLoop_zero] at e
    simp only [Option.some.injEq, Prod.mk.injEq] at e
    obtain ⟨e1, e2⟩ := e
    subst e1 e2
    refine ⟨by simp, hw, ⟨hm, hhm, by simp, rfl⟩, fun k hmk _ hk => ⟨hmk, hk, rfl, rfl⟩, ?_⟩
    intro i it hi
    simp at hi
  | succ todo ih =>
    intro released n s s1 hm hw hhm e
    cases hq : hm.page_cache_.queue_ with
    | nil =>
      unfold evictLoop at e
      rw [hhm] at e
      simp only at e
      rw [hq] at e
      simp only [Option.some.injEq, Prod.mk.injEq] at e
      obtain ⟨e1, e2⟩ := e
      subst e1 e2
      refine ⟨by simp, hw, ⟨hm, hhm, ?_, rfl⟩, fun k hmk _ hk => ⟨hmk, hk, rfl, rfl⟩, ?_⟩
      · rw [← hq]
        exact pc_eta hm.page_cache_ hq _
      · intro i it hi
        simp at hi
    | cons front rest =>
      obtain ⟨olditem, v, v2, b, sa, s2, hm2, hit, hv, hadd, e2, hw2, hhm2, hpc2, hbs2, hoth2, hv2,
        hx2, hd2⟩ := evictLoop_turn h todo released n s s1 hm front rest hw hhm hq e
      obtain ⟨hn, hw1, ⟨hm1, hhm1, hpc1, hbs1⟩, hoth1, hrec1⟩ :=
        ih (released + 1) n s2 s1 hm2 hw2 hhm2 e2
      have hq2 : hm2.page_cache_.queue_ = rest := by rw [hpc2]
      have hmin : min (todo + 1) (front :: rest).length = min todo rest.length + 1 := by
        simp only [List.length_cons]
        omega
      rw [hq2] at hn hpc1 hrec1
      rw [hmin]
      refine ⟨by omega, hw1, ⟨hm1, hhm1, ?_, hbs1.trans hbs2⟩, ?_, ?_⟩
      · rw [hpc1, hpc2]
        simp only [FreeList.Free, List.drop_succ_cons, List.take_succ_cons, List.append_assoc,
          List.singleton_append]
      · intro k hmk hk hhmk
        obtain ⟨hmk2, hk2, hp2⟩ := hoth2 k hmk hk hhmk
        obtain ⟨hmk1, hk1, hp1⟩ := hoth1 k hmk2 hk hk2
        exact ⟨hmk1, hk1, hp1.1.trans hp2.1, hp1.2.trans hp2.2⟩
      · intro i it hi hit1
        rw [List.take_succ_cons, List.mem_cons] at hi
        rcases hi with hi | hi
        · subst hi
          rw [hit] at hit1
          cases hit1
          have fr := pageEvictLoop_frame pageClear_ramOK (fun _ _ => ⟨rfl, rfl⟩)
            (fun _ _ => trivial) h todo (released + 1) n s2 s1 hw2 e2
          obtain ⟨v1, hv1, hR⟩ := fr.v2h _ v2 hv2
          exact ⟨v1, hv1, hR ⟨hx2, hd2⟩⟩
        · apply hrec1 i it hi
          rw [hpc2]
          exact hit1

end PageCache

namespace FreeList

theorem new_some (fl fl1 : FreeList) (x : Nat) (h : fl.New = (some x, fl1)) :
    fl1.list_.length + 1 = fl.list_.length := by
  unfold New at h
  split at h
  · cases h
  · rename_i y hy
    cases h
    simp only [List.length_dropLast]
    have : fl.list_ ≠ [] := by
      intro k
      rw [k] at hy
      cases hy
    have := List.length_pos.mpr this
    omega

theorem new_none (fl fl1 : FreeList) (h : fl.New = (none, fl1)) : fl.list_ = [] := by
  unfold New at h
  split at h
  · rename_i hy
    exact List.getLast?_eq_none_iff.mp hy
  · cases h

end FreeList

namespace PageCache
open System

/-- `PageCache::AddPage` keeps, in every tier, the sum of the length of the
queue and of the number of free entries. -/
theorem AddPage_count (s s1 : System) (h page sz : Nat) (b b1 : Bool) (ref : Nat × Nat)
    (id : Nat) (hw : s.WellIndexed) (e : AddPage s h page sz b ref id = some (b1, s1))
    (k : Nat) (hmk : HybridMemory) (hk : s.hmem k = some hmk) :
    ∃ hmk1, s1.hmem k = some hmk1 ∧
      hmk1.page_cache_.queue_.length + hmk1.page_cache_.item_list_.list_.length =
        hmk.page_cache_.queue_.length + hmk.page_cache_.item_list_.list_.length ∧
      hmk1.page_cache_.max_cache_size_ = hmk.page_cache_.max_cache_size_ ∧
      hmk1.page_buffer_size_ = hmk.page_buffer_size_ := by
  unfold AddPage at e
  simp only [bind, Option.bind_eq_some] at e
  obtain ⟨hm, hhm, e⟩ := e
  -- the statements that follow the choice of the entry
  have tail : ∀ (sa sb : System) (hma hm1 hm2 : HybridMemory) (item : Nat)
      (its : List PageCacheItem) (fl : FreeList),
      sa.hmem h = some hma →
      (sa.setHmem h { hma with page_cache_ := { hma.page_cache_ with item_list_ := fl } }).hmem h
        = some hm1 →
      ((sa.setHmem h { hma with page_cache_ := { hma.page_cache_ with item_list_ := fl } }).setHmem
        h { hm1 with page_cache_ := { hm1.page_cache_ with items := its } }).setV2h ref (fun v =>
          { v with exist_page_cache := true, dirty_page_cache := b }) = some sb →
      sb.hmem h = some hm2 →
      (∃ hmh, (sb.setHmem h { hm2 with page_cache_ := { hm2.page_cache_ with
          queue_ := hm2.page_cache_.queue_ ++ [item] } }).hmem h = some hmh ∧
        hmh.page_cache_.queue_ = hma.page_cache_.queue_ ++ [item] ∧
        hmh.page_cache_.item_list_ = fl ∧
        hmh.page_cache_.max_cache_size_ = hma.page_cache_.max_cache_size_ ∧
        hmh.page_buffer_size_ = hma.page_buffer_size_) ∧
      ∀ j, j ≠ h → (sb.setHmem h { hm2 with page_cache_ := { hm2.page_cache_ with
          queue_ := hm2.page_cache_.queue_ ++ [item] } }).hmem j = sa.hmem j := by
    intro sa sb hma hm1 hm2 item its fl hhma hhm1 hsb hhm2
    rw [hmem_setHmem sa h hma _ hhma] at hhm1
    cases hhm1
    have o := setV2h_other _ sb _ _ hsb
    have hsbh : ∀ j, sb.hmem j = ((sa.setHmem h { hma with page_cache_ :=
        { hma.page_cache_ with item_list_ := fl } }).setHmem h
        { hma with page_cache_ := { hma.page_cache_ with item_list_ := fl, items := its } }).hmem
          j := fun j => by
      unfold System.hmem
      rw [o.1]
    have h1 := hmem_setHmem sa h hma { hma with page_cache_ :=
        { hma.page_cache_ with item_list_ := fl } } hhma
    have h2 := hmem_setHmem _ h _ { hma with page_cache_ :=
        { hma.page_cache_ with item_list_ := fl, items := its } } h1
    rw [hsbh, h2] at hhm2
    cases hhm2
    constructor
    · exact ⟨_, hmem_setHmem sb h _ _ (by rw [hsbh, h2]), rfl, rfl, rfl, rfl⟩
    · intro j hj
      rw [hmem_setHmem_ne _ h j _ (Ne.symm hj), hsbh, hmem_setHmem_ne _ h j _ (Ne.symm hj),
        hmem_setHmem_ne _ h j _ (Ne.symm hj)]
  split at e
  · rename_i item fl hnew
    simp only [Option.some_bind, Option.bind_eq_some, Option.some.injEq, Prod.mk.injEq] at e
    obtain ⟨hm1, hhm1, _, _, sb, hsb, hm2, hhm2, _, e⟩ := e
    subst e
    obtain ⟨⟨hmh, hh1, hq, hfl, hmx, hbs⟩, hoth⟩ :=
      tail s sb hm hm1 hm2 item _ fl hhm hhm1 hsb hhm2
    by_cases hkh : k = h
    · subst hkh
      rw [hhm] at hk
      cases hk
      refine ⟨hmh, hh1, ?_, hmx, hbs⟩
      rw [hq, hfl, List.length_append, List.length_singleton]
      have := FreeList.new_some _ _ _ hnew
      omega
    · exact ⟨hmk, by rw [hoth k hkh, hk], rfl, rfl, rfl⟩
  · rename_i fl0 hnew0
    simp only [Option.bind_eq_some] at e
    obtain ⟨⟨n, sc⟩, hev, u, hn, hmc, hhmc, e⟩ := e
    have hn0 : n > 0 := by
      have := check_some _ u hn
      simpa using this
    obtain ⟨hn1, hwc, ⟨hmc1, hhmc1, hpc, hbsc⟩, hothc, _⟩ := evictLoop_queue h 10 0 n s sc hm hw hhm hev
    rw [hhmc] at hhmc1
    cases hhmc1
    split at e
    · rename_i item fl hnew
      simp only [Option.some_bind, Option.bind_eq_some, Option.some.injEq, Prod.mk.injEq] at e
      obtain ⟨hm1, hhm1, _, _, sb, hsb, hm2, hhm2, _, e⟩ := e
      subst e
      obtain ⟨⟨hmh, hh1, hq, hfl, hmx, hbs⟩, hoth⟩ :=
        tail sc sb hmc hm1 hm2 item _ fl hhmc hhm1 hsb hhm2
      by_cases hkh : k = h
      · subst hkh
        rw [hhm] at hk
        cases hk
        refine ⟨hmh, hh1, ?_, ?_, hbs.trans hbsc⟩
        · rw [hq, hfl, List.length_append, List.length_singleton]
          have h3 := FreeList.new_some _ _ _ hnew
          rw [hpc] at h3 ⊢
          simp only [List.length_append, List.length_drop, List.length_take] at h3 ⊢
          omega
        · rw [hmx, hpc]
      · obtain ⟨hmk2, hk2, hp2⟩ := hothc k hmk hkh hk
        refine ⟨hmk2, by rw [hoth k hkh, hk2], ?_, ?_, hp2.2⟩
        · rw [hp2.1]
        · rw [hp2.1]
    · simp at e

end PageCache

namespace System

theorem sameCount_refl (hm : HybridMemory) : hm.SameCount hm := ⟨rfl, rfl, rfl⟩

theorem sameCount_trans {a b c : HybridMemory} (h1 : a.SameCount b) (h2 : b.SameCount c) :
    a.SameCount c :=
  ⟨h2.1.trans h1.1, h2.2.1.trans h1.2.1, h2.2.2.trans h1.2.2⟩

/-- A call that changes no tier. -/
theorem sameCount_of_instances (s s1 : System) (h : s1.hmem_instances_ = s.hmem_instances_)
    (k : Nat) (hmk : HybridMemory) (hk : s.hmem k = some hmk) :
    ∃ hmk1, s1.hmem k = some hmk1 ∧ hmk.SameCount hmk1 := by
  refine ⟨hmk, ?_, sameCount_refl hmk⟩
  unfold System.hmem at hk ⊢
  rw [h, hk]

/-- A call of the RAM cache or of the flash cache. -/
theorem sameCount_of_frame (s s1 : System)
    (f : Frame (fun v v1 => v1.exist_page_cache = v.exist_page_cache ∧
        v1.dirty_page_cache = v.dirty_page_cache)
      (fun hm hm1 => hm1.page_cache_ = hm.page_cache_ ∧
        hm1.page_buffer_size_ = hm.page_buffer_size_) s s1)
    (k : Nat) (hmk : HybridMemory) (hk : s.hmem k = some hmk) :
    ∃ hmk1, s1.hmem k = some hmk1 ∧ hmk.SameCount hmk1 := by
  obtain ⟨hmk1, h1, h2⟩ := f.hmem k hmk hk
  exact ⟨hmk1, h1, by rw [HybridMemory.SameCount, h2.1, h2.2]; exact ⟨rfl, rfl, rfl⟩⟩

/-- `PageCache::EvictItems`. -/
theorem sameCount_of_evict (s s1 : System) (h n : Nat) (hw : s.WellIndexed)
    (e : PageCache.EvictItems s h = some (n, s1))
    (k : Nat) (hmk : HybridMemory) (hk : s.hmem k = some hmk) :
    ∃ hmk1, s1.hmem k = some hmk1 ∧ hmk.SameCount hmk1 := by
  by_cases hkh : k = h
  · subst hkh
    obtain ⟨_, _, ⟨hm1, hhm1, hpc, hbs⟩, _, _⟩ := PageCache.evictLoop_queue k 10 0 n s s1 hmk hw hk e
    refine ⟨hm1, hhm1, ?_, ?_, hbs⟩
    · rw [hpc]
      simp only [List.length_append, List.length_drop, List.length_take]
      omega
    · rw [hpc]
  · cases hh : s.hmem h with
    | none =>
      unfold PageCache.EvictItems PageCache.evictLoop at e
      rw [hh] at e
      cases e
    | some hm =>
      obtain ⟨_, _, _, hoth, _⟩ := PageCache.evictLoop_queue h 10 0 n s s1 hm hw hh e
      obtain ⟨hmk2, h1, h2⟩ := hoth k hmk hkh hk
      exact ⟨hmk2, h1, by rw [HybridMemory.SameCount, h2.1, h2.2]; exact ⟨rfl, rfl, rfl⟩⟩

/-- `SigSegvAction`. -/
theorem sameCount_of_fault (s s1 : System) (address : Nat) (rw_ : Bool) (hw : s.WellIndexed)
    (e : SigSegvAction s address rw_ = some s1)
    (k : Nat) (hmk : HybridMemory) (hk : s.hmem k = some hmk) :
    ∃ hmk1, s1.hmem k = some hmk1 ∧ hmk.SameCount hmk1 := by
  unfold SigSegvAction at e
  simp only [bind, Option.bind_eq_some] at e
  obtain ⟨_, _, r, hr, h, hh, idx, hidx, v, hv, e⟩ := e
  split at e
  · split at e
    · simp only [Option.some.injEq] at e
      rw [← e]
      exact ⟨hmk, hk, sameCount_refl hmk⟩
    · simp only [Option.bind_eq_some] at e
      obtain ⟨sa, hsa, e⟩ := e
      have fa := frame_setPage (R := fun _ _ => True) (H := fun _ _ => True)
        (fun _ => trivial) (fun _ => trivial) s sa _ _ hw hsa
      have o := setV2h_other sa s1 _ _ e
      exact sameCount_of_instances s s1 (by rw [o.1, fa.2.1]) k hmk hk
  · simp only [Option.bind_eq_some] at e
    obtain ⟨sa, hsa, ⟨b2, sb⟩, hl, e⟩ := e
    have fa := frame_setPage (R := fun _ _ => True) (H := fun _ _ => True)
      (fun _ => trivial) (fun _ => trivial) s sa _ _ hw hsa
    have hwa := fa.1.wellIndexed hw
    obtain ⟨hma, hka, hca⟩ := sameCount_of_instances s sa fa.2.1 k hmk hk
    have fb := LoadDataFromHybridMemory_frame pageSame_ramOK sa sb h _ r _ b2 hwa hl
    have hwb := fb.wellIndexed hwa
    obtain ⟨hmb, hkb, hcb⟩ := sameCount_of_frame sa sb fb k hma hka
    have hab := sameCount_trans hca hcb
    split at e
    · simp only [Option.bind_eq_some, Option.some.injEq] at e
      obtain ⟨sc, hsc, ⟨b3, sd⟩, hadd, e⟩ := e
      rw [← e]
      have fc := frame_setPage (R := fun _ _ => True) (H := fun _ _ => True)
        (fun _ => trivial) (fun _ => trivial) sb sc _ _ hwb hsc
      obtain ⟨hmc, hkc, hcc⟩ := sameCount_of_instances sb sc fc.2.1 k hmb hkb
      obtain ⟨hmd, hkd, hcd⟩ := PageCache.AddPage_count sc sd h _ _ _ b3 _ _
        (fc.1.wellIndexed hwb) hadd k hmc hkc
      exact ⟨hmd, hkd, sameCount_trans hab (sameCount_trans hcc hcd)⟩
    · simp only [Option.bind_eq_some, Option.some_bind, Option.some.injEq] at e
      obtain ⟨⟨b3, sd⟩, hadd, e⟩ := e
      rw [← e]
      obtain ⟨hmd, hkd, hcd⟩ := PageCache.AddPage_count sb sd h _ _ _ b3 _ _ hwb hadd k hmb hkb
      exact ⟨hmd, hkd, sameCount_trans hab hcd⟩

/-- Every call of the handler and of the caches keeps, in every tier, the size
of the page cache and the number of entries in its queue and free list. -/
theorem TierStep.sameCount {s s1 : System} (hw : s.WellIndexed) (h : TierStep s s1)
    (k : Nat) (hmk : HybridMemory) (hk : s.hmem k = some hmk) :
    ∃ hmk1, s1.hmem k = some hmk1 ∧ hmk.SameCount hmk1 := by
  cases h with
  | fault address rw_ e => exact sameCount_of_fault s s1 address rw_ hw e k hmk hk
  | pageAdd h page size d ref id b e =>
    exact PageCache.AddPage_count s s1 h page size d b ref id hw e k hmk hk
  | pageEvict h n e => exact sameCount_of_evict s s1 h n hw e k hmk hk
  | ramAdd h page size d ref id b e =>
    exact sameCount_of_frame s s1
      (RAMCache.ramAddPage_frame pageSame_ramOK s s1 h page size d b ref id e) k hmk hk
  | ramRemove h item e =>
    exact sameCount_of_frame s s1 (RAMCache.Remove_frame pageSame_ramOK s s1 h item e) k hmk hk
  | ramEvict h n e =>
    exact sameCount_of_frame s s1 (RAMCache.ramEvictItems_frame pageSame_ramOK s s1 h n e)
      k hmk hk
  | flashAdd h data size d ref id off b e =>
    exact sameCount_of_frame s s1
      (FlashCache.flashAddPage_frame pageSame_ramOK.toFlashOK s s1 h data size d b ref id off e)
      k hmk hk
  | flashEvict h j n e =>
    exact sameCount_of_frame s s1
      (FlashCache.flashEvictItems_frame pageSame_ramOK.toFlashOK s s1 h j n e) k hmk hk
  | migrate h l n e =>
    exact sameCount_of_frame s s1
      (FlashCache.MigrateToHDD_frame pageSame_ramOK.toFlashOK s s1 h n l e) k hmk hk
  | sortTies h hm ties e e1 =>
    rw [e1]
    exact sameCount_of_frame s _
      (frame_setHmem pageSame_ramOK.r_refl pageSame_ramOK.h_refl s h hm _ e
        (pageSame_ramOK.h_flash hm _)) k hmk hk

end System

namespace System

theorem page_shift (x : Nat) : x >>> PAGE_BITS = x / PAGE_SIZE := by
  rw [Nat.shiftRight_eq_div_pow]
  rfl

theorem pageInit_fields (x : Nat) (pc : PageCache) (h : PageCache.Init x = some pc) :
    pc.queue_ = [] ∧ pc.item_list_.list_.length = RoundUpToPageSize x / PAGE_SIZE ∧
      pc.max_cache_size_ = RoundUpToPageSize x := by
  unfold PageCache.Init at h
  simp only at h
  split at h
  · cases h
    refine ⟨rfl, ?_, rfl⟩
    simp only [FreeList.Init, List.length_range]
    exact page_shift _
  · cases h

theorem hmemInit_fields (p r m i : Nat) (hm : HybridMemory)
    (h : HybridMemory.Init p r m i = some hm) :
    hm.page_buffer_size_ = p ∧ PageCache.Init p = some hm.page_cache_ := by
  unfold HybridMemory.Init at h
  simp only at h
  split at h
  · split at h
    · cases h
    · rename_i pc hpc
      split at h
      · cases h
      · split at h
        · cases h
        · cases h
          exact ⟨rfl, hpc⟩
  · cases h

theorem initInstances_mem (p r m n : Nat) : ∀ (todo i : Nat) (l : List HybridMemory),
    initInstances p r m n todo i = some l → ∀ hm ∈ l,
      ∃ j, HybridMemory.Init (p / n) (r / n) (m / n) j = some hm := by
  intro todo
  induction todo with
  | zero =>
    intro i l h hm hmem
    simp only [initInstances, Option.some.injEq] at h
    subst h
    cases hmem
  | succ todo ih =>
    intro i l h hm hmem
    simp only [initInstances] at h
    split at h
    · cases h
    · rename_i hm0 h0
      split at h
      · cases h
      · rename_i rest hrest
        cases h
        rcases List.mem_cons.mp hmem with k | k
        · subst k
          exact ⟨i, h0⟩
        · exact ih (i + 1) rest hrest hm k

/-- The page cache of every tier after `InitHybridMemory`. -/
theorem init_pageCache (disk : List HddFile) (p r m n : Nat) (s : System)
    (e : InitHybridMemory disk p r m n = some s) (k : Nat) (hm : HybridMemory)
    (hk : s.hmem k = some hm) :
    hm.page_cache_.queue_ = [] ∧
      hm.page_cache_.item_list_.list_.length = RoundUpToPageSize hm.page_buffer_size_ / PAGE_SIZE ∧
      hm.page_cache_.max_cache_size_ = RoundUpToPageSize hm.page_buffer_size_ := by
  unfold InitHybridMemory at e
  split at e
  · split at e
    · cases e
    · rename_i l hl
      cases e
      have hmem : hm ∈ l := List.mem_iff_getElem?.mpr ⟨k, hk⟩
      obtain ⟨j, hj⟩ := initInstances_mem p r m n n 0 l hl hm hmem
      obtain ⟨h1, h2⟩ := hmemInit_fields _ _ _ _ hm hj
      rw [h1]
      exact pageInit_fields _ _ h2
  · cases e

theorem hmem_map_instances (s s1 : System) (address size file off a : Nat)
    (e : s.hmem_map address size file off = some (a, s1)) :
    s1.hmem_instances_ = s.hmem_instances_ := by
  unfold hmem_map at e
  simp only [bind, Option.bind_eq_some, Option.some.injEq, Prod.mk.injEq] at e
  obtain ⟨_, _, i, _, r, hr, ⟨ok, r1, disk⟩, hi, _, _, _, e⟩ := e
  subst e
  rfl

/-- In a state that the library reaches, the queue and the free list of the
page cache of a tier hold `RoundUpToPageSize(page_buffer_size_) / PAGE_SIZE`
entries together. -/
theorem reachable_pageCount (s : System) (hr : TierReachable s) (k : Nat) (hm : HybridMemory)
    (hk : s.hmem k = some hm) :
    hm.page_cache_.queue_.length + hm.page_cache_.item_list_.list_.length =
        RoundUpToPageSize hm.page_buffer_size_ / PAGE_SIZE ∧
      hm.page_cache_.max_cache_size_ = RoundUpToPageSize hm.page_buffer_size_ := by
  induction hr generalizing k hm with
  | init disk p r m n s e =>
    obtain ⟨h1, h2, h3⟩ := init_pageCache disk p r m n s e k hm hk
    rw [h1, h2]
    exact ⟨by simp, h3⟩
  | map s s1 address size file off a _ e ih =>
    apply ih k hm
    unfold System.hmem at hk ⊢
    rw [← hmem_map_instances s s1 address size file off a e]
    exact hk
  | step s s1 hs hstep ih =>
    have hw := reachable_wellIndexed s hs
    obtain ⟨hm0, hk0, _⟩ := (TierStep.frame dirtyOK_pageOK hw hstep).hmem_back k hm hk
    obtain ⟨hm1, hk1, hc⟩ := TierStep.sameCount hw hstep k hm0 hk0
    rw [hk] at hk1
    cases hk1
    obtain ⟨i1, i2⟩ := ih k hm0 hk0
    rw [hc.1, hc.2.1, hc.2.2]
    exact ⟨i1, i2⟩

end System

namespace PageCache
open System

/-- The turn of `PageCache::EvictItems` for the entry `k` of the queue. -/
theorem evictItems_handover (s s1 : System) (h n : Nat) (hm : HybridMemory)
    (hw : s.WellIndexed) (hhm : s.hmem h = some hm) (e : EvictItems s h = some (n, s1))
    (k : Nat) (hk : k < n) :
    ∃ (sk sa : System) (hmk : HybridMemory) (front : Nat) (olditem : PageCacheItem)
        (v : V2HMapMetadata) (b : Bool),
      evictLoop h k 0 s = some (k, sk) ∧ sk.hmem h = some hmk ∧
      hm.page_cache_.queue_[k]? = some front ∧
      hm.page_cache_.items[front]? = some olditem ∧ sk.v2h olditem.v2hmap = some v ∧
      RAMCache.AddPage
        (sk.setHmem h { hmk with page_cache_ := { hmk.page_cache_ with
          queue_ := hm.page_cache_.queue_.drop (k + 1) } }) h
        olditem.page olditem.size v.dirty_page_cache olditem.v2hmap olditem.vaddr_range_id =
          some (b, sa) := by
  obtain ⟨hn, _, _, _, _⟩ := evictLoop_queue h 10 0 n s s1 hm hw hhm e
  have hk10 : k < 10 := by omega
  have hkq : k < hm.page_cache_.queue_.length := by omega
  have e2 : evictLoop h (k + ((9 - k) + 1)) 0 s = some (n, s1) := by
    have : k + ((9 - k) + 1) = 10 := by omega
    rw [this]
    exact e
  rw [evictLoop_add] at e2
  simp only [Option.bind_eq_some] at e2
  obtain ⟨⟨rk, sk⟩, h1, h2⟩ := e2
  obtain ⟨hrk, hwk, ⟨hmk, hhmk, hpck, _⟩, _, _⟩ := evictLoop_queue h k 0 rk s sk hm hw hhm h1
  have hmin : min k hm.page_cache_.queue_.length = k := by omega
  rw [hmin] at hrk hpck
  have hrk2 : rk = k := by omega
  rw [hrk2] at h1 h2
  have hqk : hmk.page_cache_.queue_ =
      hm.page_cache_.queue_[k] :: hm.page_cache_.queue_.drop (k + 1) := by
    rw [hpck]
    exact List.drop_eq_getElem_cons hkq
  obtain ⟨olditem, v, _, b, sa, _, _, hit, hv, hadd, _⟩ :=
    evictLoop_turn h (9 - k) k n sk s1 hmk _ _ hwk hhmk hqk h2
  refine ⟨sk, sa, hmk, _, olditem, v, b, h1, hhmk, List.getElem?_eq_getElem hkq, ?_, hv, hadd⟩
  rw [← hit, hpck]

end PageCache

namespace PageCache
open System

/-- C33: in a state that the library reaches, the queue and the free list of
the page cache of a tier hold `M1 = RoundUpToPageSize(page_buffer_size_) / 4096`
entries together (`page_buffer_size_` is the size given to `PageCache::Init`),
so that the queue never holds more than `M1`.  And when `PageCache::EvictItems`
returns `n`, with `q` the queue before: `n = min(10, length q)`; the queue is
`q` without its first `n` entries, which went to the end of the free list in
the order of the queue; the record of each of these entries has
`exist_page_cache = 0` and `dirty_page_cache = 0`; and the turn of the loop for
entry `k < n` called `RAMCache::AddPage` with the page, the size and the range
of the entry and with `dirty_page_cache` of its record as the dirty flag. -/
theorem C33_page_cache_eviction (s : System) (hr : TierReachable s) (h : Nat)
    (hm : HybridMemory) (hhm : s.hmem h = some hm) :
    (hm.page_cache_.max_cache_size_ = RoundUpToPageSize hm.page_buffer_size_ ∧
      hm.page_cache_.queue_.length + hm.page_cache_.item_list_.list_.length =
        RoundUpToPageSize hm.page_buffer_size_ / 4096 ∧
      hm.page_cache_.queue_.length ≤ RoundUpToPageSize hm.page_buffer_size_ / 4096) ∧
    ∀ (n : Nat) (s1 : System), EvictItems s h = some (n, s1) →
      n = min 10 hm.page_cache_.queue_.length ∧
      (∃ hm1, s1.hmem h = some hm1 ∧
        hm1.page_cache_.queue_ = hm.page_cache_.queue_.drop n ∧
        hm1.page_cache_.item_list_.list_ =
          hm.page_cache_.item_list_.list_ ++ hm.page_cache_.queue_.take n ∧
        hm1.page_cache_.items = hm.page_cache_.items) ∧
      (∀ (i : Nat) (it : PageCacheItem), i ∈ hm.page_cache_.queue_.take n →
        hm.page_cache_.items[i]? = some it →
        ∃ v1, s1.v2h it.v2hmap = some v1 ∧ v1.exist_page_cache = false ∧
          v1.dirty_page_cache = false) ∧
      ∀ k : Nat, k < n →
        ∃ (sk sa : System) (hmk : HybridMemory) (front : Nat) (olditem : PageCacheItem)
            (v : V2HMapMetadata) (b : Bool),
          evictLoop h k 0 s = some (k, sk) ∧ sk.hmem h = some hmk ∧
          hm.page_cache_.queue_[k]? = some front ∧
          hm.page_cache_.items[front]? = some olditem ∧ sk.v2h olditem.v2hmap = some v ∧
          RAMCache.AddPage
            (sk.setHmem h { hmk with page_cache_ := { hmk.page_cache_ with
              queue_ := hm.page_cache_.queue_.drop (k + 1) } }) h
            olditem.page olditem.size v.dirty_page_cache olditem.v2hmap
            olditem.vaddr_range_id = some (b, sa) := by
  have hw := reachable_wellIndexed s hr
  obtain ⟨c1, c2⟩ := reachable_pageCount s hr h hm hhm
  have hp : PAGE_SIZE = 4096 := rfl
  rw [hp] at c1
  refine ⟨⟨c2, c1, by omega⟩, ?_⟩
  intro n s1 e
  obtain ⟨hn, _, ⟨hm1, hhm1, hpc, _⟩, _, hrec⟩ := evictLoop_queue h 10 0 n s s1 hm hw hhm e
  have hn2 : n = min 10 hm.page_cache_.queue_.length := by omega
  rw [← hn2] at hpc hrec
  refine ⟨hn2, ⟨hm1, hhm1, ?_, ?_, ?_⟩, hrec, ?_⟩
  · rw [hpc]
  · rw [hpc]
  · rw [hpc]
  · intro k hk
    exact evictItems_handover s s1 h n hm hw hhm e k hk

set_option maxRecDepth 100000 in
/-- C33 applies to the state after a write fault on the first page of a range:
the queue of the page cache of 3 pages holds one entry and the free list two,
and `PageCache::EvictItems` returns 1. -/
theorem C33_page_cache_eviction_witness :
    ∃ (s s1 : System) (hm : HybridMemory), TierReachable s ∧ s.hmem 0 = some hm ∧
      hm.page_cache_.queue_.length = 1 ∧ hm.page_cache_.item_list_.list_.length = 2 ∧
      RoundUpToPageSize hm.page_buffer_size_ / 4096 = 3 ∧ EvictItems s 0 = some (1, s1) := by
  have e : ((InitHybridMemory
        [{ st_size := 8 * 4096, content := [100, 101, 102, 103, 104, 105, 106, 107] }]
        (3 * 4096) (2 * 4096) (1 <<< 20) 1).bind (fun s0 =>
      (s0.hmem_map 65536 (8 * 4096) 0 0).bind (fun r =>
        (r.2.SigSegvAction 65536 true).bind (fun s =>
          (s.hmem 0).bind (fun hm =>
            (EvictItems s 0).bind (fun q => some (hm.page_cache_.queue_.length,
              hm.page_cache_.item_list_.list_.length, hm.page_buffer_size_))))))) =
      some (1, 2, 12288) := by
    rw [init_of _ _ _ _ (by decide),
      flashInit_of (1 <<< 20) 256 _ (by decide) PageAllocationTable.Init_256]
    decide!
  simp only [Option.bind_eq_some] at e
  obtain ⟨s0, h0, ⟨a, sm⟩, h1, s, h2, hm, hhm, ⟨n, s1⟩, he, e⟩ := e
  simp only [Option.some.injEq, Prod.mk.injEq] at e
  obtain ⟨e1, e2, e3⟩ := e
  have hr : TierReachable s :=
    TierReachable.step sm s (TierReachable.map s0 sm _ _ _ _ a (TierReachable.init _ _ _ _ _ s0 h0) h1)
      (TierStep.fault sm s _ _ h2)
  obtain ⟨⟨_, hc, _⟩, hev⟩ := C33_page_cache_eviction s hr 0 hm hhm
  have hn := (hev n s1 he).1
  rw [e1] at hn
  have hn1 : n = 1 := by omega
  subst hn1
  refine ⟨s, s1, hm, hr, hhm, e1, e2, ?_, he⟩
  rw [← hc, e1, e2]

end PageCache

/-! ## From the flash cache to the files -/

namespace System

/-- The flash cache leaves the flags of the page cache and of the RAM cache in
every record, the page cache of every tier, and the RAM cache of every tier up
to the order of its LRU list. -/
theorem upperSame_flashOK :
    FlashOK (fun v v1 => v1.exist_page_cache = v.exist_page_cache ∧
        v1.dirty_page_cache = v.dirty_page_cache ∧ v1.exist_ram_cache = v.exist_ram_cache ∧
        v1.dirty_ram_cache = v.dirty_ram_cache)
      (fun hm hm1 => hm1.page_cache_ = hm.page_cache_ ∧
        hm.ram_cache_.SameItems hm1.ram_cache_) where
  r_refl := fun _ => ⟨rfl, rfl, rfl, rfl⟩
  r_trans := fun _ _ _ h1 h2 =>
    ⟨h2.1.trans h1.1, h2.2.1.trans h1.2.1, h2.2.2.1.trans h1.2.2.1, h2.2.2.2.trans h1.2.2.2⟩
  h_refl := fun _ => ⟨rfl, rfl⟩
  h_trans := fun a b c h1 h2 => ⟨h2.1.trans h1.1, by
    have k1 := h1.2
    have k2 := h2.2
    unfold RAMCache.SameItems at *
    rw [k2, k1]⟩
  r_flash_add := fun _ _ _ => ⟨rfl, rfl, rfl, rfl⟩
  r_flash_clear := fun _ => ⟨rfl, rfl, rfl, rfl⟩
  r_migrate := fun _ => ⟨rfl, rfl, rfl, rfl⟩
  h_flash := fun _ _ => ⟨rfl, rfl⟩
  h_lru := fun hm x rc1 h => ⟨rfl, by
    unfold RAMCache.Update at h
    simp only [bind, Option.bind_eq_some, Option.some.injEq] at h
    obtain ⟨rc2, h2, h3⟩ := h
    unfold RAMCache.Unlink at h2
    split at h2
    · cases h2
      subst h3
      rfl
    · cases h2⟩

end System

namespace FlashCache
open System

/-- The pages that the first loop of `FlashCache::EvictItems` keeps for
`MigrateToHDD`: those of `pages` whose record has `dirty_flash_cache` and whose
range has a file descriptor. -/
theorem collectDirty_spec (s : System) (h : Nat) : ∀ (pages l : List Nat),
    collectDirty s h pages = some l →
    l.Sublist pages ∧ ∀ p ∈ pages,
      ∃ (hm : HybridMemory) (f2v : F2VMapItem) (r : VAddressRange) (idx : Nat)
          (v : V2HMapMetadata),
        s.hmem h = some hm ∧ hm.flash_cache_.f2v_map_[p]? = some f2v ∧
        s.VAddressRangeFromId f2v.vaddress_range_id = some r ∧
        r.GetV2HMapMetadata (f2v.vaddress_page_offset <<< PAGE_BITS) = some idx ∧
        s.v2h (f2v.vaddress_range_id, idx) = some v ∧
        (p ∈ l ↔ (v.dirty_flash_cache = true ∧ r.hdd_file_fd_ > 0)) := by
  intro pages
  induction pages with
  | nil =>
    intro l e
    unfold collectDirty at e
    cases e
    exact ⟨List.Sublist.refl _, fun p hp => by cases hp⟩
  | cons p0 rest ih =>
    intro l e
    unfold collectDirty at e
    simp only [bind, Option.bind_eq_some] at e
    obtain ⟨hm, hhm, f2v, hf, _, _, r, hr, idx, hidx, v, hv, more, hmore, e⟩ := e
    obtain ⟨hsub, hall⟩ := ih more hmore
    have hcond : (v.dirty_flash_cache && decide (r.hdd_file_fd_ > 0)) = true ↔
        (v.dirty_flash_cache = true ∧ r.hdd_file_fd_ > 0) := by
      simp
    by_cases hc : (v.dirty_flash_cache && decide (r.hdd_file_fd_ > 0)) = true
    · rw [if_pos hc] at e
      cases e
      refine ⟨hsub.cons₂ p0, ?_⟩
      intro p hp
      by_cases hp0 : p = p0
      · subst hp0
        exact ⟨hm, f2v, r, idx, v, hhm, hf, hr, hidx, hv,
          ⟨fun _ => hcond.mp hc, fun _ => List.mem_cons_self _ _⟩⟩
      · have hpr : p ∈ rest := by
          rcases List.mem_cons.mp hp with k | k
          · exact absurd k hp0
          · exact k
        obtain ⟨hm1, f1, r1, i1, v1, a1, a2, a3, a4, a5, a6⟩ := hall p hpr
        refine ⟨hm1, f1, r1, i1, v1, a1, a2, a3, a4, a5, ?_⟩
        rw [← a6, List.mem_cons]
        constructor
        · rintro (k | k)
          · exact absurd k hp0
          · exact k
        · exact Or.inr
    · rw [if_neg hc] at e
      cases e
      refine ⟨hsub.cons p0, ?_⟩
      intro p hp
      by_cases hp0 : p = p0
      · subst hp0
        refine ⟨hm, f2v, r, idx, v, hhm, hf, hr, hidx, hv, ?_⟩
        constructor
        · intro hin
          have hpr := hsub.subset hin
          obtain ⟨hm1, f1, r1, i1, v1, a1, a2, a3, a4, a5, a6⟩ := hall p hpr
          rw [hhm] at a1
          cases a1
          rw [hf] at a2
          cases a2
          rw [hr] at a3
          cases a3
          rw [hidx] at a4
          cases a4
          rw [hv] at a5
          cases a5
          exact a6.mp hin
        · intro k
          exact absurd (hcond.mpr k) hc
      · have hpr : p ∈ rest := by
          rcases List.mem_cons.mp hp with k | k
          · exact absurd k hp0
          · exact k
        exact hall p hpr

end FlashCache

namespace FlashCache
open System

end FlashCache

namespace FlashCache
open System

set_option maxRecDepth 100000 in
set_option synthInstance.maxSize 2000 in
set_option synthInstance.maxHeartbeats 400000 in
/-- C36 (failing input): one tier with a page cache of 3 pages, a RAM cache of
2 pages and a flash cache of 256 pages.  `hmem_map` maps a file of 8 pages
(range 0, descriptor 3), `hmem_free` releases the range, and `hmem_alloc` gives
range 0 again, now for memory without a file.  The program writes 1 .. 4 to the
pages 0 .. 3 of the range, which moves page 0 to the flash page 0.  Then the
range has `has_backing_hdd_file_ == false` and `hdd_file_fd() == 3`, the record
of page 0 has `dirty_flash_cache` and neither `dirty_page_cache` nor
`dirty_ram_cache`, and the first loop of `FlashCache::EvictItems` over the
flash page 0 puts it on the list `flash_pages_writeto_hdd`, for `MigrateToHDD`
to write it with `pwrite` to the descriptor 3: a page whose range has no
backing file is scheduled for a write to a file. -/
theorem C36_migration_without_backing_file :
    ((InitHybridMemory
        [{ st_size := 8 * 4096, content := [100, 101, 102, 103, 104, 105, 106, 107] }]
        (3 * 4096) (2 * 4096) (1 <<< 20) 1).bind (fun s0 =>
      (s0.hmem_map 65536 (8 * 4096) 0 0).bind (fun r =>
        (r.2.hmem_free 65536).bind (fun s2 =>
          (s2.hmem_alloc 65536 (8 * 4096)).bind (fun a =>
            (run [Access.write 65536 1, Access.write (65536 + 4096) 2,
                  Access.write (65536 + 2 * 4096) 3, Access.write (65536 + 3 * 4096) 4]
                a.2).map (fun q =>
              ((r.2.vaddr_range_group.vaddr_range_list_[0]?).map
                 (fun x => (x.is_active_, x.has_backing_hdd_file_, x.hdd_file_fd_)),
               (q.2.vaddr_range_group.vaddr_range_list_[0]?).map
                 (fun x => (x.is_active_, x.has_backing_hdd_file_, x.hdd_file_fd_)),
               q.2.v2h (0, 0),
               (q.2.hmem 0).map (fun hm => hm.flash_cache_.f2v_map_[0]?),
               collectDirty q.2 0 [0])))))) =
      some
        (some (true, true, 3),
         some (true, false, 3),
         some { exist_page_cache := false, exist_ram_cache := false, exist_flash_cache := true,
                exist_hdd_file := false, dirty_page_cache := false, dirty_ram_cache := false,
                dirty_flash_cache := true, flash_page_offset := 0 },
         some (some { vaddress_range_id := 0, vaddress_page_offset := 0 }),
         some [0])) := by
  rw [init_of _ _ _ _ (by decide),
    flashInit_of (1 <<< 20) 256 _ (by decide) PageAllocationTable.Init_256]
  decide!

end FlashCache

/-! ## Failing inputs of the flash cache and of the presence flags -/

namespace PageStatsTable

/-- One access more to page `n < 4096` of the table over 4097 pages, after one
access to each of the pages before it. -/
theorem fill_step_4097 (t0 : PageStatsTable) (ho : OfInit 4097 t0) (pe : List Nat) (n : Nat)
    (hn : n < 4096) (hl : pe.length = t0.pte_entries_.length)
    (h1 : ∀ i, i < n → pe[i]? = some 1)
    (hz : ∀ i, n ≤ i → i < 4097 → pe[i]? = some 0) :
    ∃ pe1, PageStatsTable.IncreaseAccessCount
        { t0 with pte_entries_ := pe, pgd_pmd_entries_ := [n, 0, n, 0] } n 1 =
        some { t0 with pte_entries_ := pe1, pgd_pmd_entries_ := [n + 1, 0, n + 1, 0] } ∧
      pe1.length = t0.pte_entries_.length ∧
      (∀ i, i < n + 1 → pe1[i]? = some 1) ∧
      ∀ i, n + 1 ≤ i → i < 4097 → pe1[i]? = some 0 := by
  have c1 : numberPmdNodesOf 4097 = 2 := by decide
  have c3 : pmdBitsOf 4097 = 0 := by decide
  have hl2 : t0.pgd_pmd_entries_.length = 4 := by
    have := (ofInit_facts ho).2.2.2.2.2.2.2.1
    rw [this]
    rfl
  have hl1 : t0.pte_entries_.length = 4097 := (ofInit_facts ho).2.2.2.2.2.2.1
  have ho1 := ofInit_update ho pe [n, 0, n, 0] hl (by rw [hl2]; rfl)
  have n0 : n / 4096 = 0 := by omega
  have e1 := increase_eq ho1 n 1 0 n n (by omega) (by decide)
    (hz n (Nat.le_refl _) (by omega)) (by rw [c1, n0]; rfl) (by rw [c3, n0]; rfl)
    (by decide) (by omega) (by omega)
  rw [c1, c3, n0] at e1
  refine ⟨pe.set n (0 + 1), ?_, by rw [List.length_set]; exact hl, ?_, ?_⟩
  · rw [e1]
    rfl
  · intro i hi
    by_cases hin : i = n
    · subst hin
      rw [List.getElem?_set_self (by omega)]
    · rw [List.getElem?_set_ne (by omega)]
      exact h1 i (by omega)
  · intro i h2 h3
    rw [List.getElem?_set_ne (by omega)]
    exact hz i (by omega) h3

theorem fill_run_4097 (t0 : PageStatsTable) (ho : OfInit 4097 t0)
    (hp : t0.pte_entries_ = List.replicate 4097 0) (hg : t0.pgd_pmd_entries_ = [0, 0, 0, 0]) :
    ∀ (m : Nat), m ≤ 4096 →
    ∃ pe1, (List.range m).foldl
        (fun o p => o.bind (fun s => PageStatsTable.IncreaseAccessCount s p 1)) (some t0) =
        some { t0 with pte_entries_ := pe1, pgd_pmd_entries_ := [m, 0, m, 0] } ∧
      pe1.length = t0.pte_entries_.length ∧
      (∀ i, i < m → pe1[i]? = some 1) ∧
      ∀ i, m ≤ i → i < 4097 → pe1[i]? = some 0
  | 0, _ => by
    refine ⟨t0.pte_entries_, ?_, rfl, fun i hi => absurd hi (by omega), ?_⟩
    · simp only [List.range_zero, List.foldl_nil, Option.some.injEq]
      cases t0
      simp only at hg
      subst hg
      rfl
    · intro i _ hi
      rw [hp, List.getElem?_replicate, if_pos hi]
  | m + 1, hm => by
    obtain ⟨pe1, e1, l1, k1, z1⟩ := fill_run_4097 t0 ho hp hg m (by omega)
    obtain ⟨pe2, e2, l2, k2, z2⟩ := fill_step_4097 t0 ho pe1 m (by omega) l1 k1 z1
    refine ⟨pe2, ?_, l2, k2, z2⟩
    rw [List.range_succ, List.foldl_append, e1]
    exact e2

end PageStatsTable

namespace FlashCache
open System PageStatsTable

/-- C35 (failing input): the page stats table of a flash cache of 4097 pages,
all of them in use: each flash page has been given to one page by `AddPage`
(one access to each of the flash pages 0 .. 4096), and the flash page 0 has
been read back once by `LoadPage` (one more access).  The aggregated counter of
the first PTE node is then 4097, and that of the last PTE node, which has the
single flash page 4096, counts as `(uint64_t)(4096.0 * 1) = 4096`: the descent
selects the last PTE node, so that `FindPagesWithMinCount(16)` fails the
assertion `entries_wanted <= number_entries_`, and so does
`FlashCache::EvictItems(16)` in every state whose flash cache has this table:
it does not return 16. -/
theorem C35_evict_items_short_leaf :
    ∃ t0 t, PageStatsTable.Init "pg-stats-table" 4097 = some t0 ∧
      ((List.range 4097).foldl
        (fun o p => o.bind (fun x => PageStatsTable.IncreaseAccessCount x p 1)) (some t0)).bind
          (fun x => x.IncreaseAccessCount 0 1) = some t ∧
      (∀ p, p < 4097 → ∃ c, t.AccessCount p = some c ∧ 1 ≤ c) ∧
      t.FindPagesWithMinCount 16 = none ∧
      ∀ (s : System) (h : Nat) (hm : HybridMemory), s.hmem h = some hm →
        hm.flash_cache_.page_stats_table_ = t → EvictItems s h 16 = none := by
  obtain ⟨t0, e, ho, h1, h2, h3, h4, h5, h6, h7⟩ := init_4097 "pg-stats-table"
  have c1 : numberPmdNodesOf 4097 = 2 := by decide
  have c3 : pmdBitsOf 4097 = 0 := by decide
  have hl1 : t0.pte_entries_.length = 4097 := by rw [h1, List.length_replicate]
  obtain ⟨pe1, e1, l1, k1, z1⟩ := fill_run_4097 t0 ho h1 h2 4096 (Nat.le_refl _)
  -- the access to the flash page 4096
  have ho1 := ofInit_update ho pe1 [4096, 0, 4096, 0] l1 (by rw [h2]; rfl)
  have e2 := increase_eq ho1 4096 1 0 0 0 (by decide) (by decide)
    (z1 4096 (Nat.le_refl _) (by decide)) (by rw [c1]; rfl) (by rw [c3]; rfl)
    (by decide) (by decide) (by decide)
  rw [c1, c3] at e2
  -- the second access to the flash page 0
  have ho2 := ofInit_update ho (pe1.set 4096 (0 + 1)) [4096, 1, 4096, 1]
    (by rw [List.length_set]; exact l1) (by rw [h2]; rfl)
  have e3 := increase_eq ho2 0 1 1 4096 4096 (by decide) (by decide)
    (by
      show (pe1.set 4096 (0 + 1))[0]? = some 1
      rw [List.getElem?_set_ne (by decide)]
      exact k1 0 (by decide))
    (by rw [c1]; rfl) (by rw [c3]; rfl) (by decide) (by decide) (by decide)
  rw [c1, c3] at e3
  have ho3 := ofInit_update ho ((pe1.set 4096 (0 + 1)).set 0 (1 + 1)) [4097, 1, 4097, 1]
    (by rw [List.length_set, List.length_set]; exact l1) (by rw [h2]; rfl)
  have hrun : ((List.range 4097).foldl
        (fun o p => o.bind (fun x => PageStatsTable.IncreaseAccessCount x p 1)) (some t0)).bind
          (fun x => x.IncreaseAccessCount 0 1) =
      some { t0 with pte_entries_ := (pe1.set 4096 (0 + 1)).set 0 (1 + 1),
                     pgd_pmd_entries_ := [4097, 1, 4097, 1] } := by
    rw [List.range_succ, List.foldl_append, e1]
    simp only [List.foldl_cons, List.foldl_nil, Option.some_bind]
    rw [e2]
    simp only [Option.some_bind]
    exact e3
  have hfind : PageStatsTable.FindPagesWithMinCount
      { t0 with pte_entries_ := (pe1.set 4096 (0 + 1)).set 0 (1 + 1),
                pgd_pmd_entries_ := [4097, 1, 4097, 1] } 16 = none := by
    obtain ⟨a, pmd, b, pte, r1, r2, r3, r4, r5, _⟩ := findPages_total ho3 16 (by decide)
    simp only at r1 r2 r3 r4
    rw [h5] at r1
    have ea : a = 1 := Option.some.inj (r1.symm.trans (by decide!))
    subst ea
    rw [h6] at r2
    have ep := Option.some.inj (r2.symm.trans (by decide : _ = some
      ({ entries_ := 3, number_entries_ := 1, entry_value_limit_ := 65535,
         last_entry_needs_compensation_ := true,
         last_entry_compensation_ :=
           Binary64.div (Binary64.ofNat 4096) (Binary64.ofNat 1) } : PageStatsTableNode)))
    subst ep
    have eb : b = 0 := Option.some.inj (r3.symm.trans (by decide))
    subst eb
    rw [h3, h7] at r4
    have et := Option.some.inj (r4.symm.trans (by decide : _ = some
      ({ entries_ := 4096, number_entries_ := 1, entry_value_limit_ := 255,
         last_entry_needs_compensation_ := false,
         last_entry_compensation_ := Binary64.ofNat 1 } : PageStatsTableNode)))
    subst et
    exact r5 (by decide)
  refine ⟨t0, _, e, hrun, ?_, hfind, ?_⟩
  · intro p hp
    rw [accessCount_eq ho3 p hp]
    show ∃ c, ((pe1.set 4096 (0 + 1)).set 0 (1 + 1))[p]? = some c ∧ 1 ≤ c
    by_cases hp0 : p = 0
    · subst hp0
      exact ⟨2, by rw [List.getElem?_set_self (by rw [List.length_set, l1, hl1]; decide)], by decide⟩
    · rw [List.getElem?_set_ne (by omega)]
      by_cases hp1 : p = 4096
      · subst hp1
        exact ⟨1, by rw [List.getElem?_set_self (by rw [l1, hl1]; decide)], by decide⟩
      · rw [List.getElem?_set_ne (by omega)]
        exact ⟨1, k1 p (by omega), by decide⟩
  · intro s h hm hhm hpst
    unfold EvictItems
    simp only [bind, Option.bind]
    rw [hhm]
    simp only
    rw [hpst, hfind]

end FlashCache

namespace System

set_option maxRecDepth 100000 in
set_option synthInstance.maxSize 2000 in
set_option synthInstance.maxHeartbeats 400000 in
/-- C28 (failing input): one tier with a page cache of 3 pages, a RAM cache of
2 pages and a flash cache of 256 pages serves a range of 8 pages that
`hmem_alloc` returned.  The program reads the pages 0 .. 6, then the pages 4
and 5 again, then page 7.  The last read finds the page cache full, and
`PageCache::EvictItems` hands its oldest page, page 6, to `RAMCache::AddPage`,
which returns false because both items of the RAM cache belong to the pages 4
and 5, which are in the page cache; `EvictItems` clears `exist_page_cache` all
the same.  Page 6 has been read, and its record now has none of the flags
`exist_page_cache`, `exist_ram_cache`, `exist_flash_cache`, `exist_hdd_file`;
no item of the RAM cache has its address as key, and its memory is
discarded. -/
theorem C28_read_page_without_flag :
    ((InitHybridMemory [] (3 * 4096) (2 * 4096) (1 <<< 20) 1).bind (fun s0 =>
      (s0.hmem_alloc 65536 (8 * 4096)).bind (fun r =>
        (run [Access.read 65536, Access.read (65536 + 4096),
              Access.read (65536 + 2 * 4096), Access.read (65536 + 3 * 4096),
              Access.read (65536 + 4 * 4096), Access.read (65536 + 5 * 4096),
              Access.read (65536 + 6 * 4096), Access.read (65536 + 4 * 4096),
              Access.read (65536 + 5 * 4096)] r.2).bind (fun q =>
          (run [Access.read (65536 + 7 * 4096)] q.2).map (fun e =>
            (q.2.v2h (0, 6),
             e.2.v2h (0, 6),
             (e.2.hmem 0).map (fun hm => hm.page_cache_.queue_.map
               (fun i => (hm.page_cache_.items[i]?).map (·.page))),
             (e.2.hmem 0).map (fun hm => hm.ram_cache_.items.map (·.hash_key)),
             (e.2.vaddr_range_group.vaddr_range_list_[0]?).map (fun x => x.memory[6]?)))))) =
      some
        (some { exist_page_cache := true, exist_ram_cache := false, exist_flash_cache := false,
                exist_hdd_file := false, dirty_page_cache := false, dirty_ram_cache := false,
                dirty_flash_cache := false, flash_page_offset := 0 },
         some { exist_page_cache := false, exist_ram_cache := false, exist_flash_cache := false,
                exist_hdd_file := false, dirty_page_cache := false, dirty_ram_cache := false,
                dirty_flash_cache := false, flash_page_offset := 0 },
         some [some (65536 + 7 * 4096)],
         some [65536 + 5 * 4096, 65536 + 4 * 4096],
         some (some { prot := PROT_NONE, data := 0 }))) := by
  rw [init_of _ _ _ _ (by decide),
    flashInit_of (1 <<< 20) 256 _ (by decide) PageAllocationTable.Init_256]
  decide!

end System

/-! ## FlashCache::AddPage -/

namespace FlashCache
open System

variable {R : V2HMapMetadata → V2HMapMetadata → Prop} {H : HybridMemory → HybridMemory → Prop}

end FlashCache

namespace PageStatsTable

end PageStatsTable

namespace PageAllocationTable

end PageAllocationTable

namespace FlashCache
open System

end FlashCache

namespace FlashCache
open System

end FlashCache

namespace FlashCache
open System

end FlashCache

namespace System

end System

namespace FlashCache
open System

end FlashCache

/-! ## RAMCache::EvictItems -/

/-! ## The structure of the RAM cache is kept -/

namespace RAMCache

theorem sameLru_refl (rc : RAMCache) : rc.SameLru rc := ⟨rfl, List.Perm.refl _⟩

theorem sameLru_trans {a b c : RAMCache} (h1 : a.SameLru b) (h2 : b.SameLru c) : a.SameLru c := by
  refine ⟨?_, h2.2.trans h1.2⟩
  have k1 := h1.1
  have k2 := h2.1
  rw [k2, k1]

theorem SameLru.fields {rc rc1 : RAMCache} (h : rc.SameLru rc1) :
    rc1.hash_table_ = rc.hash_table_ ∧ rc1.items = rc.items ∧ rc1.free_list_ = rc.free_list_ ∧
      rc1.max_cache_size_ = rc.max_cache_size_ := by
  have k := h.1
  refine ⟨?_, ?_, ?_, ?_⟩ <;> rw [k]

theorem SameLru.wellFormed {rc rc1 : RAMCache} (h : rc.SameLru rc1) (wf : rc.WellFormed) :
    rc1.WellFormed := by
  obtain ⟨e1, e2, e3, _⟩ := h.fields
  have p := h.2
  refine ⟨p.nodup_iff.2 wf.lru_nodup, ?_, ?_, ?_, ?_, ?_, ?_⟩
  · rw [e1]
    exact wf.chain_nodup
  · intro i
    rw [e1, p.mem_iff]
    exact wf.chain_lru i
  · rw [e3]
    exact wf.free_nodup
  · intro i
    rw [e3, e2, p.mem_iff]
    exact wf.free_lru i
  · intro i
    rw [e2, p.mem_iff]
    exact wf.lru_bound i
  · intro i j it jt
    rw [e1, e2]
    exact wf.keys i j it jt

theorem update_sameLru (rc rc1 : RAMCache) (x : Nat) (h : rc.Update x = some rc1) :
    rc.SameLru rc1 := by
  unfold Update at h
  simp only [bind, Option.bind_eq_some, Option.some.injEq] at h
  obtain ⟨rc2, h2, h3⟩ := h
  unfold Unlink at h2
  split at h2
  · rename_i hx
    cases h2
    subst h3
    exact ⟨rfl, (List.perm_cons_erase hx).symm⟩
  · cases h2

theorem lookup_sameLru {rc rc1 : RAMCache} (h : rc.SameLru rc1) (key : Nat) :
    rc1.Lookup key = rc.Lookup key := by
  obtain ⟨e1, e2, _, _⟩ := h.fields
  unfold Lookup
  rw [e1, e2]

/-- The hash table finds an entry under its own key. -/
theorem WellFormed.lookup {rc : RAMCache} (wf : rc.WellFormed) (i : Nat) (it : RAMCacheItem)
    (hi : i ∈ rc.hash_table_.chain) (hit : rc.items[i]? = some it) (o : Option Nat)
    (hl : rc.Lookup it.hash_key = some o) : o = some i := by
  unfold Lookup at hl
  split at hl
  · cases hl
  · simp only [Option.some.injEq] at hl
    cases o with
    | none =>
      have := List.find?_eq_none.1 hl i hi
      simp only [hit, beq_self_eq_true, not_true_eq_false] at this
    | some j =>
      have hj := List.mem_of_find?_eq_some hl
      have hp := List.find?_some hl
      cases hjt : rc.items[j]? with
      | none => simp [hjt] at hp
      | some jt =>
        simp only [hjt, beq_iff_eq] at hp
        rw [wf.keys j i jt it hj hi hjt hit hp]

/-- The structure is kept when an entry leaves the cache. -/
theorem WellFormed.releaseEntry {rc : RAMCache} (wf : rc.WellFormed) (item : Nat) (it : RAMCacheItem)
    (hi : item ∈ rc.lru_list_) : (rc.release item it).WellFormed := by
  have hb := wf.lru_bound item hi
  refine ⟨wf.lru_nodup.erase _, wf.chain_nodup.erase _, ?_, ?_, ?_, ?_, ?_⟩
  · intro i
    show i ∈ rc.hash_table_.chain.erase item ↔ i ∈ rc.lru_list_.erase item
    rw [wf.chain_nodup.mem_erase_iff, wf.lru_nodup.mem_erase_iff, wf.chain_lru]
  · show (rc.free_list_.list_ ++ [item]).Nodup
    rw [List.nodup_append]
    refine ⟨wf.free_nodup, List.nodup_singleton _, ?_⟩
    intro a ha hb
    rw [List.mem_singleton] at hb
    subst hb
    exact ((wf.free_lru a).1 ha).2 hi
  · intro i
    show i ∈ rc.free_list_.list_ ++ [item] ↔
      i < (rc.items.set item { it with v2hmap := none, hash_key := 0 }).length ∧
        i ∉ rc.lru_list_.erase item
    rw [List.length_set, List.mem_append, List.mem_singleton, wf.lru_nodup.mem_erase_iff,
      wf.free_lru]
    by_cases h1 : i = item
    · subst h1
      simp [hb]
    · simp [h1]
  · intro i hi1
    show i < (rc.items.set item { it with v2hmap := none, hash_key := 0 }).length
    rw [List.length_set]
    exact wf.lru_bound i (List.mem_of_mem_erase hi1)
  · intro i j a b hi1 hj1 ha hb1 hk
    have hi2 : i ∈ rc.hash_table_.chain.erase item := hi1
    have hj2 : j ∈ rc.hash_table_.chain.erase item := hj1
    rw [wf.chain_nodup.mem_erase_iff] at hi2 hj2
    have ha2 : rc.items[i]? = some a := by
      have : (rc.items.set item { it with v2hmap := none, hash_key := 0 })[i]? = some a := ha
      rwa [List.getElem?_set_ne (Ne.symm hi2.1)] at this
    have hb2 : rc.items[j]? = some b := by
      have : (rc.items.set item { it with v2hmap := none, hash_key := 0 })[j]? = some b := hb1
      rwa [List.getElem?_set_ne (Ne.symm hj2.1)] at this
    exact wf.keys i j a b hi2.2 hj2.2 ha2 hb2 hk

end RAMCache

namespace System

theorem setHmem_setHmem (s : System) (h : Nat) (a b : HybridMemory) :
    (s.setHmem h a).setHmem h b = s.setHmem h b := by
  unfold setHmem
  simp only [List.set_set]

/-- A write to a record and a change of a tier may be done in either order. -/
theorem setV2h_setHmem (s sb : System) (h : Nat) (hm : HybridMemory) (ref : Nat × Nat)
    (f : V2HMapMetadata → V2HMapMetadata) (e : (s.setHmem h hm).setV2h ref f = some sb) :
    ∃ s2, s.setV2h ref f = some s2 ∧ sb = s2.setHmem h hm := by
  unfold setV2h at e ⊢
  unfold setHmem at e ⊢
  simp only at e ⊢
  split at e
  · rename_i r hr
    split at e
    · rename_i v hv
      simp only [Option.some.injEq] at e
      exact ⟨_, rfl, e.symm⟩
    · cases e
  · cases e

theorem hmem_setV2h (s s1 : System) (ref : Nat × Nat) (f : V2HMapMetadata → V2HMapMetadata)
    (e : s.setV2h ref f = some s1) (h : Nat) : s1.hmem h = s.hmem h := by
  unfold hmem
  rw [(setV2h_other s s1 ref f e).1]

end System

namespace RAMCache
open System

/-- `RAMCache::Remove` on a cache with the structure of P4: the entry is in the
LRU list, its record loses the two flags of the RAM cache, and the cache
releases the entry. -/
theorem Remove_spec (s s1 : System) (h item : Nat) (hm : HybridMemory)
    (hhm : s.hmem h = some hm) (wf : hm.ram_cache_.WellFormed)
    (e : Remove s h item = some s1) :
    item ∈ hm.ram_cache_.lru_list_ ∧ ∃ (it : RAMCacheItem) (ref : Nat × Nat) (s2 : System),
      hm.ram_cache_.items[item]? = some it ∧ it.v2hmap = some ref ∧
      s.setV2h ref (fun v => { v with exist_ram_cache := false, dirty_ram_cache := false }) =
        some s2 ∧
      s1 = s2.setHmem h { hm with ram_cache_ := hm.ram_cache_.release item it } := by
  unfold Remove at e
  simp only [bind, Option.bind_eq_some, Option.some.injEq] at e
  obtain ⟨hm0, hhm0, it, hit, rc1, hrc1, ⟨o, rc2⟩, hrc2, ref, href, sb, hsb, hm2, hhm2, it3,
    hit3, e⟩ := e
  rw [hhm] at hhm0
  cases hhm0
  unfold Unlink at hrc1
  split at hrc1
  · rename_i hmem
    simp only [Option.some.injEq] at hrc1
    subst hrc1
    refine ⟨hmem, it, ref, ?_⟩
    unfold hashRemove at hrc2
    simp only [bind, Option.bind_eq_some] at hrc2
    obtain ⟨o1, ho1, hrc2⟩ := hrc2
    have hl : hm.ram_cache_.Lookup it.hash_key = some o1 := ho1
    have ho := wf.lookup item it ((wf.chain_lru item).2 hmem) hit o1 hl
    subst ho
    simp only [Option.some.injEq, Prod.mk.injEq] at hrc2
    obtain ⟨_, hrc2⟩ := hrc2
    subst hrc2
    obtain ⟨s2, hs2, hsb2⟩ := setV2h_setHmem s sb h _ ref _ hsb
    subst hsb2
    rw [hmem_setHmem _ _ hm _ (by rw [hmem_setV2h s s2 ref _ hs2]; exact hhm)] at hhm2
    cases hhm2
    simp only at hit3
    rw [hit] at hit3
    cases hit3
    refine ⟨s2, hit, href, hs2, ?_⟩
    rw [← e, setHmem_setHmem]
    rfl
  · cases hrc1

end RAMCache

namespace System

/-- The flash cache leaves the flags of the page cache and of the RAM cache in
every record, the page cache of every tier, and the RAM cache of every tier up
to the order of its LRU list. -/
theorem sameUpper_flashOK : FlashOK V2HMapMetadata.SameUpper HybridMemory.SameUpper where
  r_refl := fun _ => ⟨rfl, rfl, rfl, rfl⟩
  r_trans := fun _ _ _ h1 h2 =>
    ⟨h2.1.trans h1.1, h2.2.1.trans h1.2.1, h2.2.2.1.trans h1.2.2.1, h2.2.2.2.trans h1.2.2.2⟩
  h_refl := fun _ => ⟨rfl, RAMCache.sameLru_refl _⟩
  h_trans := fun _ _ _ h1 h2 => ⟨h2.1.trans h1.1, RAMCache.sameLru_trans h1.2 h2.2⟩
  r_flash_add := fun _ _ _ => ⟨rfl, rfl, rfl, rfl⟩
  r_flash_clear := fun _ => ⟨rfl, rfl, rfl, rfl⟩
  r_migrate := fun _ => ⟨rfl, rfl, rfl, rfl⟩
  h_flash := fun _ _ => ⟨rfl, RAMCache.sameLru_refl _⟩
  h_lru := fun _ _ _ h => ⟨rfl, RAMCache.update_sameLru _ _ _ h⟩

end System

namespace RAMCache
open System

theorem evictLoop_nil (h : Nat) (s : System) : evictLoop h [] s = some s := by
  unfold evictLoop
  rfl

theorem evictLoop_cons (h item : Nat) (rest : List Nat) (s : System) :
    evictLoop h (item :: rest) s = (evictTurn h item s).bind (evictLoop h rest) := by
  conv_lhs => unfold evictLoop
  show (match evictTurn h item s with
    | some s1 => evictLoop h rest s1
    | none => none) = _
  cases evictTurn h item s <;> rfl

/-- A turn of the second loop of `RAMCache::EvictItems` is a call of
`FlashCache::AddPage`, when the record of the entry has `dirty_ram_cache` or
has not `exist_flash_cache`, and then the statements of `RAMCache::Remove`. -/
theorem evictTurn_remove (s s1 : System) (h item : Nat) (hm : HybridMemory)
    (hhm : s.hmem h = some hm) (e : evictTurn h item s = some s1) :
    ∃ (it : RAMCacheItem) (ref : Nat × Nat) (v : V2HMapMetadata) (sa : System),
      hm.ram_cache_.items[item]? = some it ∧ it.v2hmap = some ref ∧ s.v2h ref = some v ∧
      ((!v.exist_flash_cache || v.dirty_ram_cache) = true →
        ∃ b, FlashCache.AddPage s h it.data PAGE_SIZE v.dirty_ram_cache ref
          it.vaddress_range_id it.hash_key = some (b, sa)) ∧
      ((!v.exist_flash_cache || v.dirty_ram_cache) = false → sa = s) ∧
      Frame V2HMapMetadata.SameUpper HybridMemory.SameUpper s sa ∧
      Remove sa h item = some s1 := by
  unfold evictTurn at e
  simp only [bind, Option.bind_eq_some] at e
  obtain ⟨hm0, hhm0, it, hit, ref, href, v, hv, e⟩ := e
  rw [hhm] at hhm0
  cases hhm0
  have tail : ∀ sa : System, Frame V2HMapMetadata.SameUpper HybridMemory.SameUpper s sa →
      ((sa.hmem h).bind fun hm1 =>
        (hm1.ram_cache_.Unlink item).bind fun rc1 =>
          (rc1.hashRemove it.hash_key).bind fun a_3 =>
            ((sa.setHmem h { hm1 with ram_cache_ := a_3.2 }).setV2h ref fun v =>
              { v with exist_ram_cache := false, dirty_ram_cache := false }).bind fun s2 =>
              (s2.hmem h).bind fun hm2 =>
                hm2.ram_cache_.items[item]?.bind fun it3 =>
                  some (s2.setHmem h { hm2 with
                    ram_cache_ := { hm2.ram_cache_ with
                      items := hm2.ram_cache_.items.set item
                        { it3 with v2hmap := none, hash_key := 0 },
                      free_list_ := hm2.ram_cache_.free_list_.Free item } })) = some s1 →
      Remove sa h item = some s1 := by
    intro sa hfr e
    simp only [Option.bind_eq_some] at e
    obtain ⟨hm1, hhm1, rc1, hrc1, ⟨o, rc2⟩, hrc2, s2, hs2, hm2, hhm2, it3, hit3, e⟩ := e
    obtain ⟨hma, hhma, hsame⟩ := hfr.hmem h hm hhm
    have hx : hm1 = hma := by
      rw [hhma] at hhm1
      exact (Option.some.inj hhm1).symm
    subst hx
    have hitems := hsame.2.fields.2.1
    unfold Remove
    simp only [bind, Option.bind_eq_some]
    exact ⟨hm1, hhma, it, by rw [hitems]; exact hit, rc1, hrc1, (o, rc2), hrc2, ref, href, s2, hs2,
      hm2, hhm2, it3, hit3, e⟩
  split at e
  · rename_i hc
    simp only [Option.bind_eq_some, Option.map_eq_some'] at e
    obtain ⟨sa, ⟨⟨b, sa1⟩, hadd, hsa1⟩, e⟩ := e
    simp only at hsa1
    subst hsa1
    have hfr := FlashCache.flashAddPage_frame sameUpper_flashOK s sa1 h _ _ _ b ref _ _ hadd
    refine ⟨it, ref, v, sa1, hit, href, hv, fun _ => ⟨b, hadd⟩, fun hn => ?_, hfr, ?_⟩
    · rw [hc] at hn
      cases hn
    · exact tail sa1 hfr (by simpa only [Option.bind_eq_some] using e)
  · rename_i hc
    simp only [Option.some_bind] at e
    have hfr := Frame.frameRefl sameUpper_flashOK.r_refl sameUpper_flashOK.h_refl s
    exact ⟨it, ref, v, s, hit, href, hv, fun hp => absurd hp hc, fun _ => rfl, hfr, tail s hfr e⟩

/-- A turn of the second loop of `RAMCache::EvictItems` on a cache with the
structure of P4. -/
theorem evictTurn_spec (s s1 : System) (h item : Nat) (hm : HybridMemory)
    (hhm : s.hmem h = some hm) (wf : hm.ram_cache_.WellFormed)
    (e : evictTurn h item s = some s1) :
    item ∈ hm.ram_cache_.lru_list_ ∧
    ∃ (it : RAMCacheItem) (ref : Nat × Nat) (v : V2HMapMetadata) (sa s2 : System)
        (hma : HybridMemory),
      hm.ram_cache_.items[item]? = some it ∧ it.v2hmap = some ref ∧ s.v2h ref = some v ∧
      ((!v.exist_flash_cache || v.dirty_ram_cache) = true →
        ∃ b, FlashCache.AddPage s h it.data PAGE_SIZE v.dirty_ram_cache ref
          it.vaddress_range_id it.hash_key = some (b, sa)) ∧
      ((!v.exist_flash_cache || v.dirty_ram_cache) = false → sa = s) ∧
      Frame V2HMapMetadata.SameUpper HybridMemory.SameUpper s sa ∧
      sa.hmem h = some hma ∧ hm.SameUpper hma ∧
      sa.setV2h ref (fun v => { v with exist_ram_cache := false, dirty_ram_cache := false }) =
        some s2 ∧
      s1 = s2.setHmem h { hma with ram_cache_ := hma.ram_cache_.release item it } := by
  obtain ⟨it, ref, v, sa, hit, href, hv, hadd, hno, hfr, hrem⟩ :=
    evictTurn_remove s s1 h item hm hhm e
  obtain ⟨hma, hhma, hsame⟩ := hfr.hmem h hm hhm
  obtain ⟨hmem, it1, ref1, s2, hit1, href1, hs2, hs1⟩ :=
    Remove_spec sa s1 h item hma hhma (hsame.2.wellFormed wf) hrem
  rw [hsame.2.fields.2.1, hit] at hit1
  cases hit1
  rw [href] at href1
  cases href1
  refine ⟨(hsame.2.2.mem_iff).1 hmem, it, ref, v, sa, s2, hma, hit, href, hv, hadd, hno, hfr, hhma,
    hsame, hs2, hs1⟩

end RAMCache

namespace V2HMapMetadata

theorem ramDropped_refl (v : V2HMapMetadata) : v.RamDropped v := ⟨rfl, rfl, Or.inl ⟨rfl, rfl⟩⟩

theorem ramDropped_trans (a b c : V2HMapMetadata) (h1 : a.RamDropped b) (h2 : b.RamDropped c) :
    a.RamDropped c := by
  refine ⟨h2.1.trans h1.1, h2.2.1.trans h1.2.1, ?_⟩
  rcases h2.2.2 with k | k
  · rcases h1.2.2 with j | j
    · exact Or.inl ⟨k.1.trans j.1, k.2.trans j.2⟩
    · exact Or.inr ⟨k.1.trans j.1, k.2.trans j.2⟩
  · exact Or.inr k

theorem SameUpper.ramDropped {a b : V2HMapMetadata} (h : a.SameUpper b) : a.RamDropped b :=
  ⟨h.1, h.2.1, Or.inl ⟨h.2.2.1, h.2.2.2⟩⟩

end V2HMapMetadata

namespace HybridMemory

theorem ramKept_refl (hm : HybridMemory) : hm.RamKept hm := id

theorem ramKept_trans (a b c : HybridMemory) (h1 : a.RamKept b) (h2 : b.RamKept c) :
    a.RamKept c := fun w => h2 (h1 w)

theorem SameUpper.ramKept {a b : HybridMemory} (h : a.SameUpper b) : a.RamKept b :=
  h.2.wellFormed

end HybridMemory

namespace RAMCache
open System

/-- The first loop of `RAMCache::EvictItems` collects the entries whose record
has `exist_page_cache == 0`, in the order of the walk, until it has 16. -/
theorem scanLru_spec (s : System) (rc : RAMCache) : ∀ (l found out : List Nat),
    scanLru s rc l found = some out → found.length ≤ 16 →
    out = found ++ (l.filter (notInPageCache s rc)).take (16 - found.length) := by
  intro l
  induction l with
  | nil =>
    intro found out e _
    unfold scanLru at e
    simp only [Option.some.injEq] at e
    simp [e]
  | cons item rest ih =>
    intro found out e hlen
    unfold scanLru at e
    split at e
    · rename_i hlt
      simp only [bind, Option.bind_eq_some] at e
      obtain ⟨it, hit, ref, href, v, hv, _, _, e⟩ := e
      have hn : notInPageCache s rc item = !v.exist_page_cache := by
        unfold notInPageCache
        rw [hit]
        simp only [href, hv]
      cases hp : v.exist_page_cache with
      | true =>
        rw [hp] at e hn
        simp only [if_true] at e
        rw [ih found out e hlen, List.filter_cons, hn]
        rfl
      | false =>
        rw [hp] at e hn
        simp only [Bool.false_eq_true, if_false] at e
        have := ih (found ++ [item]) out e (by rw [List.length_append]; simp; omega)
        rw [this, List.filter_cons, hn]
        simp only [Bool.not_false, if_true, List.length_append, List.length_singleton,
          List.append_assoc, List.singleton_append]
        have h16 : 16 - found.length = (16 - (found.length + 1)) + 1 := by omega
        rw [h16, List.take_succ_cons]
    · simp only [Option.some.injEq] at e
      have h0 : 16 - found.length = 0 := by omega
      rw [h0, List.take_zero, List.append_nil, e]

/-- The second loop of `RAMCache::EvictItems` on a cache with the structure of
P4: the entries of `items` are distinct entries of the LRU list; they leave the
LRU list and go to the end of the free list in their order, the other items are
as before, and the records of the entries have lost the flags of the RAM
cache. -/
theorem evictLoop_spec (h : Nat) : ∀ (items : List Nat) (s s1 : System) (hm : HybridMemory),
    s.WellIndexed → s.hmem h = some hm → hm.ram_cache_.WellFormed →
    evictLoop h items s = some s1 →
    s1.WellIndexed ∧ items.Nodup ∧ (∀ i, i ∈ items → i ∈ hm.ram_cache_.lru_list_) ∧
    Frame V2HMapMetadata.RamDropped HybridMemory.RamKept s s1 ∧
    ∃ hm1, s1.hmem h = some hm1 ∧ hm1.ram_cache_.WellFormed ∧
      (∀ i, i ∈ hm1.ram_cache_.lru_list_ ↔ i ∈ hm.ram_cache_.lru_list_ ∧ i ∉ items) ∧
      hm1.ram_cache_.free_list_.list_ = hm.ram_cache_.free_list_.list_ ++ items ∧
      hm1.ram_cache_.hash_table_.number_buckets_ = hm.ram_cache_.hash_table_.number_buckets_ ∧
      (∀ i, i ∉ items → hm1.ram_cache_.items[i]? = hm.ram_cache_.items[i]?) ∧
      ∀ (i : Nat) (it : RAMCacheItem) (ref : Nat × Nat), i ∈ items →
        hm.ram_cache_.items[i]? = some it → it.v2hmap = some ref →
        ∃ v1, s1.v2h ref = some v1 ∧ v1.exist_ram_cache = false ∧ v1.dirty_ram_cache = false := by
  intro items
  induction items with
  | nil =>
    intro s s1 hm hw hhm wf e
    rw [evictLoop_nil] at e
    cases e
    refine ⟨hw, List.nodup_nil, (fun i hi => by cases hi),
      Frame.frameRefl V2HMapMetadata.ramDropped_refl HybridMemory.ramKept_refl s, hm, hhm, wf,
      (fun i => by simp), (by simp), rfl, (fun _ _ => rfl), (fun i _ _ hi => by cases hi)⟩
  | cons item rest ih =>
    intro s s1 hm hw hhm wf e
    rw [evictLoop_cons] at e
    simp only [Option.bind_eq_some] at e
    obtain ⟨sm, hturn, e⟩ := e
    obtain ⟨hmem, it, ref, v, sa, s2, hma, hit, href, hv, _, _, hfr, hhma, hsame, hs2, hsm⟩ :=
      evictTurn_spec s sm h item hm hhm wf hturn
    have hwa := hfr.wellIndexed hw
    have hf2 : Frame V2HMapMetadata.RamDropped HybridMemory.RamKept sa s2 :=
      frame_setV2h V2HMapMetadata.ramDropped_refl HybridMemory.ramKept_refl sa s2 ref _ hs2
        (fun v _ => ⟨rfl, rfl, Or.inr ⟨rfl, rfl⟩⟩)
    have hw2 := hf2.wellIndexed hwa
    have hhm2 : s2.hmem h = some hma := by rw [hmem_setV2h sa s2 ref _ hs2]; exact hhma
    have wfa := hsame.2.wellFormed wf
    have hmema : item ∈ hma.ram_cache_.lru_list_ := (hsame.2.2.mem_iff).2 hmem
    have wfm := wfa.releaseEntry item it hmema
    have hf3 : Frame V2HMapMetadata.RamDropped HybridMemory.RamKept s2 sm := by
      rw [hsm]
      exact frame_setHmem V2HMapMetadata.ramDropped_refl HybridMemory.ramKept_refl s2 h hma _ hhm2
        (fun _ => wfm)
    have hwm := hf3.wellIndexed hw2
    have hhmm : sm.hmem h = some { hma with ram_cache_ := hma.ram_cache_.release item it } := by
      rw [hsm]
      exact hmem_setHmem s2 h hma _ hhm2
    obtain ⟨hw1, hnd, hsub, hfr1, hm1, hhm1, wf1, hlru, hfree, hnb, hitems, hclr⟩ :=
      ih sm s1 _ hwm hhmm wfm e
    have hfa : Frame V2HMapMetadata.RamDropped HybridMemory.RamKept s sa :=
      Frame.frameMono (fun _ _ k => k.ramDropped) (fun _ _ k => k.ramKept) hfr
    have hfm : Frame V2HMapMetadata.RamDropped HybridMemory.RamKept s sm :=
      Frame.frameTrans V2HMapMetadata.ramDropped_trans HybridMemory.ramKept_trans
        (Frame.frameTrans V2HMapMetadata.ramDropped_trans HybridMemory.ramKept_trans hfa hf2) hf3
    obtain ⟨ef1, ef2, ef3, _⟩ := hsame.2.fields
    have hrel : ∀ i, i ∈ (hma.ram_cache_.release item it).lru_list_ ↔
        i ≠ item ∧ i ∈ hm.ram_cache_.lru_list_ := by
      intro i
      show i ∈ hma.ram_cache_.lru_list_.erase item ↔ _
      rw [wfa.lru_nodup.mem_erase_iff, hsame.2.2.mem_iff]
    have hnot : item ∉ rest := fun hi => ((hrel item).1 (hsub item hi)).1 rfl
    refine ⟨hw1, List.nodup_cons.2 ⟨hnot, hnd⟩, ?_,
      Frame.frameTrans V2HMapMetadata.ramDropped_trans HybridMemory.ramKept_trans hfm hfr1,
      hm1, hhm1, wf1, ?_, ?_, ?_, ?_, ?_⟩
    · intro i hi
      rcases List.mem_cons.1 hi with h1 | h1
      · rw [h1]
        exact hmem
      · exact ((hrel i).1 (hsub i h1)).2
    · intro i
      rw [hlru, hrel, List.mem_cons]
      constructor
      · rintro ⟨⟨h1, h2⟩, h3⟩
        exact ⟨h2, fun hc => hc.elim h1 h3⟩
      · rintro ⟨h1, h2⟩
        exact ⟨⟨fun hc => h2 (Or.inl hc), h1⟩, fun hc => h2 (Or.inr hc)⟩
    · rw [hfree]
      show (hma.ram_cache_.free_list_.list_ ++ [item]) ++ rest = _
      rw [ef3, List.append_assoc, List.singleton_append]
    · rw [hnb]
      show hma.ram_cache_.hash_table_.number_buckets_ = _
      rw [ef1]
    · intro i hi
      rw [List.mem_cons, not_or] at hi
      rw [hitems i hi.2]
      show (hma.ram_cache_.items.set item _)[i]? = _
      rw [List.getElem?_set_ne (Ne.symm hi.1), ef2]
    · intro i it1 ref1 hi hit1 href1
      rcases List.mem_cons.1 hi with h1 | h1
      · subst h1
        rw [hit] at hit1
        cases hit1
        rw [href] at href1
        cases href1
        obtain ⟨v0, _, hv2, _⟩ := setV2h_v2h sa s2 ref _ hs2
        have hvm : sm.v2h ref = some { v0 with exist_ram_cache := false, dirty_ram_cache := false } := by
          rw [hsm, v2h_setHmem]
          exact hv2
        obtain ⟨v1, hv1, hR⟩ := hfr1.v2h ref _ hvm
        refine ⟨v1, hv1, ?_⟩
        rcases hR.2.2 with k | k
        · exact k
        · exact k
      · have hne : i ≠ item := fun hc => hnot (hc ▸ h1)
        refine hclr i it1 ref1 h1 ?_ href1
        show (hma.ram_cache_.items.set item _)[i]? = _
        rw [List.getElem?_set_ne (Ne.symm hne), ef2]
        exact hit1

end RAMCache

namespace RAMCache
open System

theorem shrunk_refl (rc : RAMCache) : rc.Shrunk rc := ⟨rfl, fun _ h => ⟨h, rfl⟩⟩

theorem shrunk_trans {a b c : RAMCache} (h1 : a.Shrunk b) (h2 : b.Shrunk c) : a.Shrunk c :=
  ⟨h2.1.trans h1.1, fun i hi =>
    ⟨(h1.2 i (h2.2 i hi).1).1, (h2.2 i hi).2.trans (h1.2 i (h2.2 i hi).1).2⟩⟩

/-- A key that the hash table has not is not there after evictions. -/
theorem Shrunk.lookup_none {rc rc1 : RAMCache} (h : rc.Shrunk rc1) (key : Nat)
    (hl : rc.Lookup key = some none) : rc1.Lookup key = some none := by
  unfold Lookup at hl ⊢
  rw [h.1]
  split at hl
  · cases hl
  · rename_i hb
    rw [if_neg hb]
    simp only [Option.some.injEq] at hl ⊢
    rw [List.find?_eq_none] at hl ⊢
    intro i hi
    have := hl i (h.2 i hi).1
    rw [(h.2 i hi).2]
    exact this

/-- `RAMCache::EvictItems` on a cache with the structure of P4. -/
theorem ramEvictItems_kept (s s1 : System) (h n : Nat) (hm : HybridMemory)
    (hw : s.WellIndexed) (hhm : s.hmem h = some hm) (wf : hm.ram_cache_.WellFormed)
    (e : EvictItems s h = some (n, s1)) :
    Frame V2HMapMetadata.RamDropped HybridMemory.RamKept s s1 ∧
    ∃ hm1, s1.hmem h = some hm1 ∧ hm1.ram_cache_.WellFormed ∧ hm.ram_cache_.Shrunk hm1.ram_cache_ := by
  unfold EvictItems at e
  simp only [bind, Option.bind_eq_some, Option.some.injEq, Prod.mk.injEq] at e
  obtain ⟨hm0, hhm0, items, _, s2, h2, _, e⟩ := e
  subst e
  obtain ⟨_, _, _, hfr, hm1, hhm1, wf1, hlru, _, hnb, hitems, _⟩ :=
    evictLoop_spec h items s s2 hm hw hhm wf h2
  refine ⟨hfr, hm1, hhm1, wf1, hnb, fun i hi => ?_⟩
  have h1 := (hlru i).1 ((wf1.chain_lru i).1 hi)
  exact ⟨(wf.chain_lru i).2 h1.1, hitems i h1.2⟩

/-- The loop of `RAMCache::AddPage` that takes an item, on a cache with the
structure of P4: after evictions, in a state `s0` where the structure holds,
either there is no item or the last item of the free list is taken. -/
theorem newItem_spec (h : Nat) : ∀ (fuel : Nat) (s s1 : System) (o : Option Nat)
    (hm : HybridMemory), s.WellIndexed → s.hmem h = some hm → hm.ram_cache_.WellFormed →
    newItem h fuel s = some (o, s1) →
    ∃ (s0 : System) (hm0 : HybridMemory),
      Frame V2HMapMetadata.RamDropped HybridMemory.RamKept s s0 ∧ s0.hmem h = some hm0 ∧
      hm0.ram_cache_.WellFormed ∧ hm.ram_cache_.Shrunk hm0.ram_cache_ ∧
      ((o = none ∧ s1 = s0) ∨ ∃ item, o = some item ∧
        hm0.ram_cache_.free_list_.list_.getLast? = some item ∧
        s1 = s0.setHmem h { hm0 with
          ram_cache_ := { hm0.ram_cache_ with
            free_list_ := { hm0.ram_cache_.free_list_ with
              list_ := hm0.ram_cache_.free_list_.list_.dropLast } } }) := by
  intro fuel
  induction fuel with
  | zero =>
    intro s s1 o hm _ _ _ e
    simp [newItem] at e
  | succ fuel ih =>
    intro s s1 o hm hw hhm wf e
    unfold newItem at e
    rw [hhm] at e
    simp only at e
    unfold FreeList.New at e
    cases hl : hm.ram_cache_.free_list_.list_.getLast? with
    | some item =>
      rw [hl] at e
      simp only [Option.some.injEq, Prod.mk.injEq] at e
      refine ⟨s, hm, Frame.frameRefl V2HMapMetadata.ramDropped_refl HybridMemory.ramKept_refl s,
        hhm, wf, shrunk_refl _, Or.inr ⟨item, e.1.symm, hl, e.2.symm⟩⟩
    | none =>
      rw [hl] at e
      simp only at e
      split at e
      · cases e
      · rename_i n s2 he
        obtain ⟨hfr, hm2, hhm2, wf2, hsh⟩ := ramEvictItems_kept s s2 h n hm hw hhm wf he
        split at e
        · simp only [Option.some.injEq, Prod.mk.injEq] at e
          exact ⟨s2, hm2, hfr, hhm2, wf2, hsh, Or.inl ⟨e.1.symm, e.2.symm⟩⟩
        · obtain ⟨s0, hm0, hfr0, hhm0, wf0, hsh0, hcase⟩ :=
            ih s2 s1 o hm2 (hfr.wellIndexed hw) hhm2 wf2 e
          exact ⟨s0, hm0,
            Frame.frameTrans V2HMapMetadata.ramDropped_trans HybridMemory.ramKept_trans hfr hfr0,
            hhm0, wf0, shrunk_trans hsh hsh0, hcase⟩

/-- The structure is kept when the content of an entry changes. -/
theorem WellFormed.setData {rc : RAMCache} (wf : rc.WellFormed) (item d : Nat)
    (it : RAMCacheItem) (hit : rc.items[item]? = some it) :
    ({ rc with items := rc.items.set item { it with data := d } } : RAMCache).WellFormed := by
  have hlen : (rc.items.set item { it with data := d }).length = rc.items.length :=
    List.length_set _ _ _
  have hkey : ∀ (i : Nat) (a : RAMCacheItem),
      (rc.items.set item { it with data := d })[i]? = some a →
      ∃ a0, rc.items[i]? = some a0 ∧ a0.hash_key = a.hash_key := by
    intro i a ha
    by_cases hi : item = i
    · subst hi
      rw [List.getElem?_set_self (List.getElem?_eq_some_iff.1 hit).1] at ha
      cases ha
      exact ⟨it, hit, rfl⟩
    · rw [List.getElem?_set_ne hi] at ha
      exact ⟨a, ha, rfl⟩
  refine ⟨wf.lru_nodup, wf.chain_nodup, wf.chain_lru, wf.free_nodup, ?_, ?_, ?_⟩
  · intro i
    show _ ↔ i < (rc.items.set item { it with data := d }).length ∧ _
    rw [hlen]
    exact wf.free_lru i
  · intro i hi
    show i < (rc.items.set item { it with data := d }).length
    rw [hlen]
    exact wf.lru_bound i hi
  · intro i j a b hi hj ha hb hk
    obtain ⟨a0, ha0, ka⟩ := hkey i a ha
    obtain ⟨b0, hb0, kb⟩ := hkey j b hb
    exact wf.keys i j a0 b0 hi hj ha0 hb0 (by rw [ka, kb, hk])

/-- The structure is kept when the last item of the free list enters the cache
under a key that the hash table has not. -/
theorem WellFormed.insert {rc : RAMCache} (wf : rc.WellFormed) (item n : Nat)
    (new : RAMCacheItem) (hl : rc.free_list_.list_.getLast? = some item)
    (hk : rc.Lookup new.hash_key = some none) :
    ({ rc with
        lru_list_ := item :: rc.lru_list_,
        hash_table_ := { rc.hash_table_ with
          chain := item :: rc.hash_table_.chain, number_objects_ := n },
        free_list_ := { rc.free_list_ with list_ := rc.free_list_.list_.dropLast },
        items := rc.items.set item new } : RAMCache).WellFormed := by
  have hfree : rc.free_list_.list_ = rc.free_list_.list_.dropLast ++ [item] := by
    rw [List.getLast?_eq_some_iff] at hl
    obtain ⟨ys, hys⟩ := hl
    rw [hys, List.dropLast_concat]
  have hmemf : item ∈ rc.free_list_.list_ := by
    rw [hfree]
    simp
  obtain ⟨hb, hnl⟩ := (wf.free_lru item).1 hmemf
  have hnc : item ∉ rc.hash_table_.chain := fun hc => hnl ((wf.chain_lru item).1 hc)
  have hnd := wf.free_nodup
  rw [hfree, List.nodup_append] at hnd
  have hnotin : item ∉ rc.free_list_.list_.dropLast := fun hc =>
    hnd.2.2 hc (List.mem_singleton.2 rfl)
  have hkeys : ∀ (j : Nat) (jt : RAMCacheItem), j ∈ rc.hash_table_.chain →
      rc.items[j]? = some jt → jt.hash_key ≠ new.hash_key := by
    intro j jt hj hjt
    unfold Lookup at hk
    split at hk
    · cases hk
    · simp only [Option.some.injEq] at hk
      have := List.find?_eq_none.1 hk j hj
      simp only [hjt, beq_iff_eq] at this
      exact this
  refine ⟨List.nodup_cons.2 ⟨hnl, wf.lru_nodup⟩, List.nodup_cons.2 ⟨hnc, wf.chain_nodup⟩, ?_,
    hnd.1, ?_, ?_, ?_⟩
  · intro i
    show i ∈ item :: rc.hash_table_.chain ↔ i ∈ item :: rc.lru_list_
    rw [List.mem_cons, List.mem_cons, wf.chain_lru]
  · intro i
    show i ∈ rc.free_list_.list_.dropLast ↔
      i < (rc.items.set item new).length ∧ i ∉ item :: rc.lru_list_
    rw [List.length_set, List.mem_cons, not_or]
    have := wf.free_lru i
    rw [hfree, List.mem_append, List.mem_singleton] at this
    constructor
    · intro hi
      have h1 := this.1 (Or.inl hi)
      exact ⟨h1.1, fun hc => hnotin (hc ▸ hi), h1.2⟩
    · rintro ⟨h1, h2, h3⟩
      rcases this.2 ⟨h1, h3⟩ with k | k
      · exact k
      · exact absurd k h2
  · intro i hi
    show i < (rc.items.set item new).length
    rw [List.length_set]
    rcases List.mem_cons.1 hi with k | k
    · rw [k]
      exact hb
    · exact wf.lru_bound i k
  · intro i j a b hi hj ha hb1 hkk
    have hi1 : i ∈ item :: rc.hash_table_.chain := hi
    have hj1 : j ∈ item :: rc.hash_table_.chain := hj
    have ha1 : (rc.items.set item new)[i]? = some a := ha
    have hb2 : (rc.items.set item new)[j]? = some b := hb1
    by_cases e1 : i = item
    · by_cases e2 : j = item
      · rw [e1, e2]
      · rcases List.mem_cons.1 hj1 with k | k
        · exact absurd k e2
        · rw [e1, List.getElem?_set_self hb] at ha1
          cases ha1
          rw [List.getElem?_set_ne (Ne.symm e2)] at hb2
          exact absurd hkk.symm (hkeys j b k hb2)
    · rcases List.mem_cons.1 hi1 with k | k
      · exact absurd k e1
      · rw [List.getElem?_set_ne (Ne.symm e1)] at ha1
        by_cases e2 : j = item
        · rw [e2, List.getElem?_set_self hb] at hb2
          cases hb2
          exact absurd hkk (hkeys i a k ha1)
        · rcases List.mem_cons.1 hj1 with k2 | k2
          · exact absurd k2 e2
          · rw [List.getElem?_set_ne (Ne.symm e2)] at hb2
            exact wf.keys i j a b k k2 ha1 hb2 hkk

end RAMCache

namespace HybridMemory

theorem ramKept_page (hm : HybridMemory) (pc : PageCache) :
    hm.RamKept { hm with page_cache_ := pc } := fun w => w

end HybridMemory

namespace System

theorem find?_congr_mem {α : Type} {p q : α → Bool} : ∀ (l : List α),
    (∀ x, x ∈ l → p x = q x) → l.find? p = l.find? q := by
  intro l
  induction l with
  | nil => intro _; rfl
  | cons a l ih =>
    intro h
    rw [List.find?_cons, List.find?_cons, h a (List.mem_cons_self a l),
      ih (fun x hx => h x (List.mem_cons_of_mem a hx))]

/-- The flash cache keeps the structure of the RAM cache of every tier. -/
theorem ramKept_flashOK : FlashOK V2HMapMetadata.AnyChange HybridMemory.RamKept where
  r_refl := fun _ => trivial
  r_trans := fun _ _ _ _ _ => trivial
  h_refl := HybridMemory.ramKept_refl
  h_trans := HybridMemory.ramKept_trans
  r_flash_add := fun _ _ _ => trivial
  r_flash_clear := fun _ => trivial
  r_migrate := fun _ => trivial
  h_flash := fun _ _ => id
  h_lru := fun _ _ _ h => (RAMCache.update_sameLru _ _ _ h).wellFormed

theorem Frame.ramWellFormed {R : V2HMapMetadata → V2HMapMetadata → Prop} {s s1 : System}
    (h : Frame R HybridMemory.RamKept s s1) (hp : s.RamWellFormed) : s1.RamWellFormed := by
  intro k hm1 hk
  unfold System.hmem at hk
  have := h.tiers k
  rw [hk] at this
  cases hs : s.hmem_instances_[k]? with
  | none =>
    rw [hs] at this
    exact absurd this (by simp [OptRel])
  | some hm =>
    rw [hs] at this
    exact this (hp k hm hs)

end System

namespace RAMCache
open System

/-- The hash table does not look at an item that is not one of its entries. -/
theorem lookup_set (rc : RAMCache) (item : Nat) (x : RAMCacheItem) (fl : FreeList)
    (hn : item ∉ rc.hash_table_.chain) (key : Nat) :
    ({ rc with items := rc.items.set item x, free_list_ := fl } : RAMCache).Lookup key =
      rc.Lookup key := by
  unfold Lookup
  simp only
  split
  · rfl
  · congr 1
    apply find?_congr_mem
    intro i hi
    have hne : item ≠ i := fun hc => hn (hc ▸ hi)
    rw [List.getElem?_set_ne hne]

/-- `RAMCache::AddPage` keeps the structure of the RAM caches. -/
theorem ramAddPage_kept (s s1 : System) (h page sz : Nat) (b b1 : Bool)
    (ref : Nat × Nat) (id : Nat) (hw : s.WellIndexed) (hp : s.RamWellFormed)
    (e : AddPage s h page sz b ref id = some (b1, s1)) :
    Frame V2HMapMetadata.AnyChange HybridMemory.RamKept s s1 := by
  have rr : ∀ v : V2HMapMetadata, V2HMapMetadata.AnyChange v v := fun _ => trivial
  have rt : ∀ a b c : V2HMapMetadata, V2HMapMetadata.AnyChange a b →
      V2HMapMetadata.AnyChange b c → V2HMapMetadata.AnyChange a c := fun _ _ _ _ _ => trivial
  unfold AddPage at e
  simp only [bind, Option.bind_eq_some] at e
  obtain ⟨_, _, _, _, hm, hhm, o, ho, e⟩ := e
  have wf := hp h hm hhm
  split at e
  · rename_i item
    simp only [Option.bind_eq_some] at e
    obtain ⟨it, hit, _, _, _, _, v, hv, u, hc, e⟩ := e
    by_cases hb : b = true
    · rw [if_pos hb] at e
      simp only [Option.bind_eq_some, Option.some.injEq, Prod.mk.injEq] at e
      obtain ⟨d, _, sa, hsa, hm1, hhm1, rc1, hrc1, _, e⟩ := e
      rw [← e]
      exact Frame.frameTrans rt HybridMemory.ramKept_trans
        (Frame.frameTrans rt HybridMemory.ramKept_trans
          (frame_setHmem rr HybridMemory.ramKept_refl s h hm _ hhm
            (fun w => w.setData item d it hit))
          (frame_setV2h rr HybridMemory.ramKept_refl _ _ _ _ hsa (fun _ _ => trivial)))
        (frame_setHmem rr HybridMemory.ramKept_refl sa h hm1 _ hhm1
          (update_sameLru _ _ _ hrc1).wellFormed)
    · rw [if_neg hb] at e
      simp only [Option.bind_eq_some, Option.some_bind, Option.some.injEq, Prod.mk.injEq] at e
      obtain ⟨hm1, hhm1, rc1, hrc1, _, e⟩ := e
      rw [← e]
      exact frame_setHmem rr HybridMemory.ramKept_refl s h hm1 _ hhm1
        (update_sameLru _ _ _ hrc1).wellFormed
  · simp only [Option.bind_eq_some] at e
    obtain ⟨⟨o1, sa⟩, hnew, e⟩ := e
    obtain ⟨s0, hm0, hfr0, hhm0, wf0, hsh, hcase⟩ := newItem_spec h 2 s sa o1 hm hw hhm wf hnew
    have f0 : Frame V2HMapMetadata.AnyChange HybridMemory.RamKept s s0 :=
      Frame.frameMono (fun _ _ _ => trivial) (fun _ _ k => k) hfr0
    split at e
    · rename_i heq
      cases heq
      simp only [Option.some.injEq, Prod.mk.injEq] at e
      rcases hcase with ⟨_, h2⟩ | ⟨item, h1, _⟩
      · rw [← e.2, h2]
        exact f0
      · cases h1
    · rename_i item sa1 heq
      cases heq
      rcases hcase with ⟨h1, _⟩ | ⟨item1, h1, hlast, hsa⟩
      · cases h1
      · cases h1
        simp only [Option.bind_eq_some, Option.some.injEq, Prod.mk.injEq] at e
        obtain ⟨d, _, hm1, hhm1, it, hit, sb, hsb, hm2, hhm2, ⟨o2, rc2⟩, hins, _, e⟩ := e
        refine Frame.frameTrans rt HybridMemory.ramKept_trans f0 ?_
        obtain ⟨s2, hs2, hsb2⟩ := setV2h_setHmem sa sb h _ ref _ hsb
        rw [hsa] at hs2
        obtain ⟨s3, hs3, hs23⟩ := setV2h_setHmem s0 s2 h _ ref _ hs2
        have hhm3 : s3.hmem h = some hm0 := by rw [hmem_setV2h s0 s3 ref _ hs3]; exact hhm0
        have hx : hm1 = { hm0 with
            ram_cache_ := { hm0.ram_cache_ with
              free_list_ := { hm0.ram_cache_.free_list_ with
                list_ := hm0.ram_cache_.free_list_.list_.dropLast } } } := by
          have := hmem_setHmem s0 h hm0
            { hm0 with
              ram_cache_ := { hm0.ram_cache_ with
                free_list_ := { hm0.ram_cache_.free_list_ with
                  list_ := hm0.ram_cache_.free_list_.list_.dropLast } } } hhm0
          rw [← hsa, hhm1] at this
          exact Option.some.inj this
        have hy : hm2 = { hm1 with
            ram_cache_ := { hm1.ram_cache_ with
              items := hm1.ram_cache_.items.set item
                { it with data := d, hash_key := page, vaddress_range_id := id % 2 ^ 16,
                          v2hmap := some ref } } } := by
          have h2 : s2.hmem h = some hm1 := by
            rw [hs23, hx]
            exact hmem_setHmem s3 h hm0 _ hhm3
          have := hmem_setHmem s2 h hm1
            { hm1 with
              ram_cache_ := { hm1.ram_cache_ with
                items := hm1.ram_cache_.items.set item
                  { it with data := d, hash_key := page, vaddress_range_id := id % 2 ^ 16,
                            v2hmap := some ref } } } h2
          rw [← hsb2, hhm2] at this
          exact Option.some.inj this
        have hs1 : s1 = s3.setHmem h { hm2 with ram_cache_ := rc2.Link item } := by
          rw [← e, hsb2, hs23, setHmem_setHmem, setHmem_setHmem]
        rw [hs1]
        refine Frame.frameTrans rt HybridMemory.ramKept_trans
          (frame_setV2h rr HybridMemory.ramKept_refl s0 s3 ref _ hs3 (fun _ _ => trivial))
          (frame_setHmem rr HybridMemory.ramKept_refl s3 h hm0 _ hhm3 (fun _ => ?_))
        have hfree : item ∈ hm0.ram_cache_.free_list_.list_ := List.mem_of_getLast?_eq_some hlast
        have hbnd := ((wf0.free_lru item).1 hfree).1
        have hnc : item ∉ hm0.ram_cache_.hash_table_.chain := fun hc =>
          ((wf0.free_lru item).1 hfree).2 ((wf0.chain_lru item).1 hc)
        have hlk0 := hsh.lookup_none page ho
        have hlk1 := lookup_set hm0.ram_cache_ item
          { it with data := d, hash_key := page, vaddress_range_id := id % 2 ^ 16,
                    v2hmap := some ref }
          { hm0.ram_cache_.free_list_ with list_ := hm0.ram_cache_.free_list_.list_.dropLast }
          hnc page
        subst hy
        subst hx
        unfold Insert at hins
        simp only [bind, Option.bind_eq_some] at hins
        obtain ⟨it1, hit1, o3, ho3, hins⟩ := hins
        rw [List.getElem?_set_self hbnd] at hit1
        cases hit1
        have ho4 : some o3 = some none := by
          rw [← ho3, ← hlk0, ← hlk1]
        cases ho4
        simp only [Option.some.injEq, Prod.mk.injEq] at hins
        rw [← hins.2]
        exact wf0.insert item _
          { it with data := d, hash_key := page, vaddress_range_id := id % 2 ^ 16,
                    v2hmap := some ref } hlast hlk0

/-- `RAMCache::Remove` keeps the structure of the RAM caches. -/
theorem Remove_kept (s s1 : System) (h item : Nat) (hp : s.RamWellFormed)
    (e : Remove s h item = some s1) :
    Frame V2HMapMetadata.RamDropped HybridMemory.RamKept s s1 := by
  have e0 := e
  unfold Remove at e0
  simp only [bind, Option.bind_eq_some] at e0
  obtain ⟨hm, hhm, _⟩ := e0
  obtain ⟨hmem, it, ref, s2, hit, href, hs2, hs1⟩ := Remove_spec s s1 h item hm hhm (hp h hm hhm) e
  rw [hs1]
  exact Frame.frameTrans V2HMapMetadata.ramDropped_trans HybridMemory.ramKept_trans
    (frame_setV2h V2HMapMetadata.ramDropped_refl HybridMemory.ramKept_refl s s2 ref _ hs2
      (fun v _ => ⟨rfl, rfl, Or.inr ⟨rfl, rfl⟩⟩))
    (frame_setHmem V2HMapMetadata.ramDropped_refl HybridMemory.ramKept_refl s2 h hm _
      (by rw [hmem_setV2h s s2 ref _ hs2]; exact hhm) (fun w => w.releaseEntry item it hmem))

end RAMCache

namespace PageCache
open System

/-- The loop of `PageCache::EvictItems` keeps the structure of the RAM
caches. -/
theorem pageEvictLoop_kept (h todo released n : Nat) (s s1 : System)
    (hw : s.WellIndexed) (hp : s.RamWellFormed)
    (e : evictLoop h todo released s = some (n, s1)) :
    Frame V2HMapMetadata.AnyChange HybridMemory.RamKept s s1 := by
  have rr : ∀ v : V2HMapMetadata, V2HMapMetadata.AnyChange v v := fun _ => trivial
  have rt : ∀ a b c : V2HMapMetadata, V2HMapMetadata.AnyChange a b →
      V2HMapMetadata.AnyChange b c → V2HMapMetadata.AnyChange a c := fun _ _ _ _ _ => trivial
  induction todo generalizing s released with
  | zero =>
    unfold evictLoop at e
    simp only [Option.some.injEq, Prod.mk.injEq] at e
    rw [← e.2]
    exact Frame.frameRefl rr HybridMemory.ramKept_refl s
  | succ todo ih =>
    unfold evictLoop at e
    split at e
    · cases e
    · rename_i hm hhm
      split at e
      · simp only [Option.some.injEq, Prod.mk.injEq] at e
        rw [← e.2]
        exact Frame.frameRefl rr HybridMemory.ramKept_refl s
      · rename_i front rest hq
        split at e
        · rename_i s2 heq
          simp only [bind, Option.bind_eq_some, Option.some.injEq] at heq
          obtain ⟨olditem, _, v, _, ⟨b2, sa⟩, hadd, sb, hsb, sc, hsc, sd, hsd, hm5, hhm5, heq⟩ := heq
          have f0 := frame_setHmem rr HybridMemory.ramKept_refl s h hm
            { hm with page_cache_ := { hm.page_cache_ with queue_ := rest } } hhm
            (HybridMemory.ramKept_page _ _)
          have f1 := Frame.frameTrans rt HybridMemory.ramKept_trans f0
            (RAMCache.ramAddPage_kept _ sa h _ _ _ b2 _ _ (f0.wellIndexed hw)
              (f0.ramWellFormed hp) hadd)
          have f2 := Frame.frameTrans rt HybridMemory.ramKept_trans f1
            (frame_setV2h rr HybridMemory.ramKept_refl _ _ _ _ hsb (fun _ _ => trivial))
          have f3 := Frame.frameTrans rt HybridMemory.ramKept_trans f2
            (frame_madvise rr HybridMemory.ramKept_refl sb sc _ (f2.wellIndexed hw) hsc)
          have f4 := Frame.frameTrans rt HybridMemory.ramKept_trans f3
            (frame_mprotect rr HybridMemory.ramKept_refl sc sd _ _ (f3.wellIndexed hw) hsd)
          have f5 : Frame V2HMapMetadata.AnyChange HybridMemory.RamKept s s2 := by
            rw [← heq]
            exact Frame.frameTrans rt HybridMemory.ramKept_trans f4
              (frame_setHmem rr HybridMemory.ramKept_refl sd h hm5 _ hhm5 (HybridMemory.ramKept_page _ _))
          exact Frame.frameTrans rt HybridMemory.ramKept_trans f5
            (ih _ s2 (f5.wellIndexed hw) (f5.ramWellFormed hp) e)
        · cases e

/-- `PageCache::AddPage` keeps the structure of the RAM caches. -/
theorem pageAddPage_kept (s s1 : System) (h page sz : Nat) (b b1 : Bool)
    (ref : Nat × Nat) (id : Nat) (hw : s.WellIndexed) (hp : s.RamWellFormed)
    (e : AddPage s h page sz b ref id = some (b1, s1)) :
    Frame V2HMapMetadata.AnyChange HybridMemory.RamKept s s1 := by
  have rr : ∀ v : V2HMapMetadata, V2HMapMetadata.AnyChange v v := fun _ => trivial
  have rt : ∀ a b c : V2HMapMetadata, V2HMapMetadata.AnyChange a b →
      V2HMapMetadata.AnyChange b c → V2HMapMetadata.AnyChange a c := fun _ _ _ _ _ => trivial
  unfold AddPage at e
  simp only [bind, Option.bind_eq_some] at e
  obtain ⟨hm, hhm, e⟩ := e
  have tail : ∀ (sa sb : System) (hm1 hm2 : HybridMemory) (pc pc2 : PageCache),
      sa.hmem h = some hm1 →
      (sa.setHmem h { hm1 with page_cache_ := pc }).setV2h ref (fun v =>
        { v with exist_page_cache := true, dirty_page_cache := b }) = some sb →
      sb.hmem h = some hm2 →
      Frame V2HMapMetadata.AnyChange HybridMemory.RamKept sa
        (sb.setHmem h { hm2 with page_cache_ := pc2 }) :=
    fun sa sb hm1 hm2 pc pc2 hhm1 hsb hhm2 =>
    Frame.frameTrans rt HybridMemory.ramKept_trans
      (Frame.frameTrans rt HybridMemory.ramKept_trans
        (frame_setHmem rr HybridMemory.ramKept_refl sa h hm1 _ hhm1 (HybridMemory.ramKept_page _ _))
        (frame_setV2h rr HybridMemory.ramKept_refl _ _ _ _ hsb (fun _ _ => trivial)))
      (frame_setHmem rr HybridMemory.ramKept_refl sb h hm2 _ hhm2 (HybridMemory.ramKept_page _ _))
  split at e
  · simp only [Option.some_bind, Option.bind_eq_some, Option.some.injEq, Prod.mk.injEq] at e
    obtain ⟨hm1, hhm1, _, _, sb, hsb, hm2, hhm2, _, e⟩ := e
    rw [← e]
    exact Frame.frameTrans rt HybridMemory.ramKept_trans
      (frame_setHmem rr HybridMemory.ramKept_refl s h hm _ hhm (HybridMemory.ramKept_page _ _))
      (tail _ sb hm1 hm2 _ _ hhm1 hsb hhm2)
  · simp only [Option.bind_eq_some] at e
    obtain ⟨⟨n, sc⟩, hev, _, _, hmc, hhmc, e⟩ := e
    have f1 := pageEvictLoop_kept h 10 0 n s sc hw hp hev
    split at e
    · simp only [Option.some_bind, Option.bind_eq_some, Option.some.injEq, Prod.mk.injEq] at e
      obtain ⟨hm1, hhm1, _, _, sb, hsb, hm2, hhm2, _, e⟩ := e
      rw [← e]
      exact Frame.frameTrans rt HybridMemory.ramKept_trans f1
        (Frame.frameTrans rt HybridMemory.ramKept_trans
          (frame_setHmem rr HybridMemory.ramKept_refl sc h hmc _ hhmc (HybridMemory.ramKept_page _ _))
          (tail _ sb hm1 hm2 _ _ hhm1 hsb hhm2))
    · simp at e

end PageCache

namespace System

/-- `LoadDataFromHybridMemory` keeps the structure of the RAM caches. -/
theorem LoadDataFromHybridMemory_kept (s s1 : System) (h page : Nat)
    (r : VAddressRange) (ref : Nat × Nat) (b1 : Bool) (hw : s.WellIndexed)
    (e : LoadDataFromHybridMemory s h page r ref = some (b1, s1)) :
    Frame V2HMapMetadata.AnyChange HybridMemory.RamKept s s1 := by
  have ok := ramKept_flashOK
  unfold LoadDataFromHybridMemory at e
  simp only [bind, Option.bind_eq_some] at e
  obtain ⟨v, hv, _, _, e⟩ := e
  split at e
  · simp only [Option.bind_eq_some, Option.some.injEq, Prod.mk.injEq] at e
    obtain ⟨hm, hhm, ⟨item, rc1⟩, hget, it, _, sa, hsa, _, e⟩ := e
    rw [← e]
    have f1 := frame_setHmem ok.r_refl ok.h_refl s h hm { hm with ram_cache_ := rc1 } hhm
      (ok.h_lru hm item rc1 (FlashCache.getItem_update _ _ _ _ hget))
    exact Frame.frameTrans ok.r_trans ok.h_trans f1
      (frame_fillPage ok.r_refl ok.h_refl _ sa page _ (f1.wellIndexed hw) hsa)
  · split at e
    · simp only [Option.bind_eq_some] at e
      obtain ⟨⟨b2, sa⟩, hl, e⟩ := e
      split at e
      · cases e
      · rename_i sb heq
        cases heq
        simp only [Option.some.injEq, Prod.mk.injEq] at e
        rw [← e.2]
        exact FlashCache.LoadPage_frame ok s _ h _ _ _ _ _ _ hw hl
    · split at e
      · simp only [Option.bind_eq_some] at e
        obtain ⟨_, _, ⟨b2, sa⟩, hl, e⟩ := e
        split at e
        · cases e
        · rename_i sb heq
          cases heq
          simp only [Option.some.injEq, Prod.mk.injEq] at e
          rw [← e.2]
          exact FlashCache.LoadFromHDDFile_frame ok.r_refl ok.h_refl s _ r page _ hw hl
      · simp only [Option.some.injEq, Prod.mk.injEq] at e
        rw [← e.2]
        exact Frame.frameRefl ok.r_refl ok.h_refl s

/-- `SigSegvAction` keeps the structure of the RAM caches. -/
theorem SigSegvAction_kept (s s1 : System) (address : Nat) (rw_ : Bool)
    (hw : s.WellIndexed) (hp : s.RamWellFormed) (e : SigSegvAction s address rw_ = some s1) :
    Frame V2HMapMetadata.AnyChange HybridMemory.RamKept s s1 := by
  have ok := ramKept_flashOK
  unfold SigSegvAction at e
  simp only [bind, Option.bind_eq_some] at e
  obtain ⟨_, _, r, hr, h, hh, idx, hidx, v, hv, e⟩ := e
  split at e
  · rename_i hex
    split at e
    · simp only [Option.some.injEq] at e
      rw [← e]
      exact Frame.frameRefl ok.r_refl ok.h_refl s
    · simp only [Option.bind_eq_some] at e
      obtain ⟨sa, hsa, e⟩ := e
      have fa := frame_setPage (R := V2HMapMetadata.AnyChange) (H := HybridMemory.RamKept) ok.r_refl
        ok.h_refl s sa _ _ hw hsa
      exact Frame.frameTrans ok.r_trans ok.h_trans fa.1
        (frame_setV2h ok.r_refl ok.h_refl sa s1 _ _ e (fun _ _ => trivial))
  · simp only [Option.bind_eq_some] at e
    obtain ⟨sa, hsa, ⟨b2, sb⟩, hl, e⟩ := e
    have f1 := frame_mprotect (R := V2HMapMetadata.AnyChange) (H := HybridMemory.RamKept) ok.r_refl
      ok.h_refl s sa _ _ hw hsa
    have f2 := Frame.frameTrans ok.r_trans ok.h_trans f1
      (LoadDataFromHybridMemory_kept sa sb h _ r _ b2 (f1.wellIndexed hw) hl)
    split at e
    · simp only [Option.bind_eq_some, Option.some.injEq] at e
      obtain ⟨sc, hsc, ⟨b3, sd⟩, hadd, e⟩ := e
      rw [← e]
      have f3 := Frame.frameTrans ok.r_trans ok.h_trans f2
        (frame_mprotect ok.r_refl ok.h_refl sb sc _ _ (f2.wellIndexed hw) hsc)
      exact Frame.frameTrans ok.r_trans ok.h_trans f3
        (PageCache.pageAddPage_kept sc sd h _ _ _ b3 _ _ (f3.wellIndexed hw)
          (f3.ramWellFormed hp) hadd)
    · simp only [Option.bind_eq_some, Option.some_bind, Option.some.injEq] at e
      obtain ⟨⟨b3, sd⟩, hadd, e⟩ := e
      rw [← e]
      exact Frame.frameTrans ok.r_trans ok.h_trans f2
        (PageCache.pageAddPage_kept sb sd h _ _ _ b3 _ _ (f2.wellIndexed hw)
          (f2.ramWellFormed hp) hadd)

/-- Every call of the handler and of the caches keeps the structure of the RAM
caches. -/
theorem TierStep.keepsRam {s s1 : System} (hw : s.WellIndexed) (hp : s.RamWellFormed)
    (h : TierStep s s1) : Frame V2HMapMetadata.AnyChange HybridMemory.RamKept s s1 := by
  have ok := ramKept_flashOK
  cases h with
  | fault address rw_ e => exact SigSegvAction_kept s s1 address rw_ hw hp e
  | pageAdd h page size d ref id b e =>
    exact PageCache.pageAddPage_kept s s1 h page size d b ref id hw hp e
  | pageEvict h n e => exact PageCache.pageEvictLoop_kept h 10 0 n s s1 hw hp e
  | ramAdd h page size d ref id b e =>
    exact RAMCache.ramAddPage_kept s s1 h page size d b ref id hw hp e
  | ramRemove h item e =>
    exact Frame.frameMono (fun _ _ _ => trivial) (fun _ _ k => k)
      (RAMCache.Remove_kept s s1 h item hp e)
  | ramEvict h n e =>
    have e0 := e
    unfold RAMCache.EvictItems at e0
    simp only [bind, Option.bind_eq_some] at e0
    obtain ⟨hm, hhm, _⟩ := e0
    exact Frame.frameMono (fun _ _ _ => trivial) (fun _ _ k => k)
      (RAMCache.ramEvictItems_kept s s1 h n hm hw hhm (hp h hm hhm) e).1
  | flashAdd h data size d ref id off b e =>
    exact FlashCache.flashAddPage_frame ok s s1 h data size d b ref id off e
  | flashEvict h k n e => exact FlashCache.flashEvictItems_frame ok s s1 h k n e
  | migrate h l n e => exact FlashCache.MigrateToHDD_frame ok s s1 h n l e
  | sortTies h hm ties e e1 =>
    rw [e1]
    exact frame_setHmem ok.r_refl ok.h_refl s h hm _ e (ok.h_flash hm _)

/-- The RAM cache that `RAMCache::Init` returns has the structure of P4. -/
theorem ramInit_wellFormed (x : Nat) (rc : RAMCache) (h : RAMCache.Init x = some rc) :
    rc.WellFormed := by
  unfold RAMCache.Init at h
  simp only at h
  split at h
  · cases h
    refine ⟨List.nodup_nil, List.nodup_nil, fun _ => Iff.rfl, ?_, ?_, ?_, ?_⟩
    · exact List.nodup_range _
    · intro i
      simp [FreeList.Init]
    · intro i hi
      cases hi
    · intro i j _ _ hi
      cases hi
  · cases h

theorem hmemInit_ram (p r m i : Nat) (hm : HybridMemory)
    (h : HybridMemory.Init p r m i = some hm) : RAMCache.Init r = some hm.ram_cache_ := by
  unfold HybridMemory.Init at h
  simp only at h
  split at h
  · split at h
    · cases h
    · split at h
      · cases h
      · rename_i rc hrc
        split at h
        · cases h
        · cases h
          exact hrc
  · cases h

/-- The RAM cache of every tier after `InitHybridMemory`. -/
theorem init_ramWellFormed (disk : List HddFile) (p r m n : Nat) (s : System)
    (e : InitHybridMemory disk p r m n = some s) : s.RamWellFormed := by
  intro k hm hk
  unfold InitHybridMemory at e
  split at e
  · split at e
    · cases e
    · rename_i l hl
      cases e
      have hmem : hm ∈ l := List.mem_iff_getElem?.mpr ⟨k, hk⟩
      obtain ⟨j, hj⟩ := initInstances_mem p r m n n 0 l hl hm hmem
      exact ramInit_wellFormed _ _ (hmemInit_ram _ _ _ _ hm hj)
  · cases e

/-- P4 of the specification, apart from the flags of the records: in a state
that the library reaches, the RAM cache of every tier has the structure of
P4. -/
theorem reachable_ramWellFormed (s : System) (hr : TierReachable s) : s.RamWellFormed := by
  induction hr with
  | init disk p r m n s e => exact init_ramWellFormed disk p r m n s e
  | map s s1 address size file off a _ e ih =>
    intro k hm hk
    apply ih k hm
    unfold System.hmem at hk ⊢
    rw [← hmem_map_instances s s1 address size file off a e]
    exact hk
  | step s s1 hs hstep ih =>
    exact (TierStep.keepsRam (reachable_wellIndexed s hs) ih hstep).ramWellFormed ih

end System

namespace RAMCache
open System

theorem evictLoop_append (h : Nat) : ∀ (a b : List Nat) (s : System),
    evictLoop h (a ++ b) s = (evictLoop h a s).bind (evictLoop h b) := by
  intro a
  induction a with
  | nil =>
    intro b s
    rw [evictLoop_nil]
    rfl
  | cons x a ih =>
    intro b s
    rw [List.cons_append, evictLoop_cons, evictLoop_cons]
    cases evictTurn h x s with
    | none => rfl
    | some s1 => exact ih b s1

/-- The turn of the second loop of `RAMCache::EvictItems` for the entry `k` of
`items`. -/
theorem evictLoop_handover (h : Nat) (items : List Nat) (s s1 : System) (hm : HybridMemory)
    (hw : s.WellIndexed) (hhm : s.hmem h = some hm) (wf : hm.ram_cache_.WellFormed)
    (e : evictLoop h items s = some s1) (k : Nat) (hk : k < items.length) :
    ∃ (sk sa : System) (item : Nat) (it : RAMCacheItem) (ref : Nat × Nat) (v : V2HMapMetadata),
      evictLoop h (items.take k) s = some sk ∧ items[k]? = some item ∧
      hm.ram_cache_.items[item]? = some it ∧ it.v2hmap = some ref ∧ sk.v2h ref = some v ∧
      ((!v.exist_flash_cache || v.dirty_ram_cache) = true →
        ∃ b, FlashCache.AddPage sk h it.data PAGE_SIZE v.dirty_ram_cache ref
          it.vaddress_range_id it.hash_key = some (b, sa)) ∧
      ((!v.exist_flash_cache || v.dirty_ram_cache) = false → sa = sk) ∧
      evictLoop h (items.take (k + 1)) s = Remove sa h item := by
  have hsplit : items = items.take k ++ (items[k] :: items.drop (k + 1)) := by
    rw [← List.drop_eq_getElem_cons hk, List.take_append_drop]
  have e1 := e
  rw [hsplit, evictLoop_append] at e1
  simp only [Option.bind_eq_some] at e1
  obtain ⟨sk, hsk, e2⟩ := e1
  rw [evictLoop_cons] at e2
  simp only [Option.bind_eq_some] at e2
  obtain ⟨sk1, hturn, _⟩ := e2
  obtain ⟨_, hnd, _, _, hmk, hhmk, _, _, _, _, hitems, _⟩ :=
    evictLoop_spec h (items.take k) s sk hm hw hhm wf hsk
  obtain ⟨_, hnd0, _⟩ := evictLoop_spec h items s s1 hm hw hhm wf e
  have hnot : items[k] ∉ items.take k := by
    rw [hsplit] at hnd0
    have := (List.nodup_append.1 hnd0).2.2
    intro hc
    exact this hc (List.mem_cons_self _ _)
  obtain ⟨it, ref, v, sa, hit, href, hv, hadd, hno, _, hrem⟩ :=
    evictTurn_remove sk sk1 h items[k] hmk hhmk hturn
  rw [hitems _ hnot] at hit
  refine ⟨sk, sa, items[k], it, ref, v, hsk, List.getElem?_eq_getElem hk, hit, href, hv, hadd, hno,
    ?_⟩
  rw [List.take_succ, List.getElem?_eq_getElem hk, evictLoop_append, hsk]
  simp only [Option.toList, Option.some_bind]
  rw [evictLoop_cons, hturn, hrem]
  rfl

end RAMCache

namespace RAMCache
open System

/-- C32: in a state that the library reaches, when `RAMCache::EvictItems`
returns `n` for a tier with the RAM cache `rc`: the entries `items` that it
removes are the first 16 entries (all of them, if there are fewer) of the LRU
list of `rc`, read from its tail, whose record has `exist_page_cache = 0`, and
`n` is their number, the least of 16 and of the number `m` of such entries;
after the call the RAM cache has the structure of P4, its LRU list and its hash
table hold the entries of before that are not in `items`, so that no entry with
`exist_page_cache = 1` is removed, the free list is the one of before followed
by `items`, and the record of each entry of `items` has `exist_ram_cache = 0`
and `dirty_ram_cache = 0`; and the turn of the loop for the entry `k < n`, in
the state `sk` that the turns before it leave, calls `FlashCache::AddPage` with
the buffer, the record, the range and the key of the entry and with
`dirty_ram_cache` of its record as the dirty flag exactly when the record has
not `exist_flash_cache` or has `dirty_ram_cache`, and then does to the entry
what `RAMCache::Remove` does. -/
theorem C32_ram_cache_eviction (s : System) (hr : TierReachable s) (h : Nat)
    (hm : HybridMemory) (hhm : s.hmem h = some hm) (n : Nat) (s1 : System)
    (e : EvictItems s h = some (n, s1)) :
    ∃ items : List Nat,
      items = (hm.ram_cache_.lru_list_.reverse.filter
        (notInPageCache s hm.ram_cache_)).take 16 ∧
      n = items.length ∧
      n = min 16 (hm.ram_cache_.lru_list_.filter (notInPageCache s hm.ram_cache_)).length ∧
      (∃ hm1, s1.hmem h = some hm1 ∧ hm1.ram_cache_.WellFormed ∧
        (∀ i, i ∈ hm1.ram_cache_.lru_list_ ↔ i ∈ hm.ram_cache_.lru_list_ ∧ i ∉ items) ∧
        (∀ i, i ∈ hm1.ram_cache_.hash_table_.chain ↔
          i ∈ hm.ram_cache_.hash_table_.chain ∧ i ∉ items) ∧
        (∀ i, i ∈ hm.ram_cache_.lru_list_ → notInPageCache s hm.ram_cache_ i = false →
          i ∈ hm1.ram_cache_.lru_list_) ∧
        hm1.ram_cache_.free_list_.list_ = hm.ram_cache_.free_list_.list_ ++ items) ∧
      (∀ i, i ∈ items → ∃ (it : RAMCacheItem) (ref : Nat × Nat) (v1 : V2HMapMetadata),
        hm.ram_cache_.items[i]? = some it ∧ it.v2hmap = some ref ∧ s1.v2h ref = some v1 ∧
        v1.exist_ram_cache = false ∧ v1.dirty_ram_cache = false) ∧
      ∀ k : Nat, k < n →
        ∃ (sk sa : System) (item : Nat) (it : RAMCacheItem) (ref : Nat × Nat)
            (v : V2HMapMetadata),
          evictLoop h (items.take k) s = some sk ∧ items[k]? = some item ∧
          hm.ram_cache_.items[item]? = some it ∧ it.v2hmap = some ref ∧
          sk.v2h ref = some v ∧
          ((!v.exist_flash_cache || v.dirty_ram_cache) = true →
            ∃ b, FlashCache.AddPage sk h it.data PAGE_SIZE v.dirty_ram_cache ref
              it.vaddress_range_id it.hash_key = some (b, sa)) ∧
          ((!v.exist_flash_cache || v.dirty_ram_cache) = false → sa = sk) ∧
          evictLoop h (items.take (k + 1)) s = Remove sa h item := by
  have hw := reachable_wellIndexed s hr
  have wf := reachable_ramWellFormed s hr h hm hhm
  unfold EvictItems at e
  simp only [bind, Option.bind_eq_some, Option.some.injEq, Prod.mk.injEq] at e
  obtain ⟨hm0, hhm0, items, hscan, s2, hloop, hn, hs2⟩ := e
  rw [hhm] at hhm0
  cases hhm0
  subst hs2
  have hitems := scanLru_spec s hm.ram_cache_ _ [] items hscan (by simp)
  simp only [List.nil_append, List.length_nil, Nat.sub_zero] at hitems
  obtain ⟨_, hnd, hsub, _, hm1, hhm1, wf1, hlru, hfree, _, hit, hclr⟩ :=
    evictLoop_spec h items s s2 hm hw hhm wf hloop
  refine ⟨items, hitems, hn.symm, ?_, ⟨hm1, hhm1, wf1, hlru, ?_, ?_, hfree⟩, ?_, ?_⟩
  · rw [← hn, hitems, List.length_take, List.filter_reverse, List.length_reverse]
  · intro i
    rw [wf1.chain_lru, wf.chain_lru]
    exact hlru i
  · intro i hi hp
    refine (hlru i).2 ⟨hi, fun hc => ?_⟩
    rw [hitems] at hc
    have := List.of_mem_filter (List.mem_of_mem_take hc)
    rw [hp] at this
    cases this
  · intro i hi
    have hb := wf.lru_bound i (hsub i hi)
    have hi0 : (hm.ram_cache_.lru_list_.reverse.filter (notInPageCache s hm.ram_cache_)).take 16 =
        items := hitems.symm
    have hp : notInPageCache s hm.ram_cache_ i = true := by
      rw [← hi0] at hi
      exact List.of_mem_filter (List.mem_of_mem_take hi)
    unfold notInPageCache at hp
    cases hit0 : hm.ram_cache_.items[i]? with
    | none => simp [hit0] at hp
    | some it =>
      rw [hit0] at hp
      simp only at hp
      cases href : it.v2hmap with
      | none => simp [href] at hp
      | some ref =>
        obtain ⟨v1, hv1, k1, k2⟩ := hclr i it ref hi hit0 href
        exact ⟨it, ref, v1, rfl, href, hv1, k1, k2⟩
  · intro k hk
    rw [← hn] at hk
    exact evictLoop_handover h items s s2 hm hw hhm wf hloop k hk

end RAMCache

namespace RAMCache
open System

set_option maxRecDepth 100000 in
/-- C32 applies to the state after a write fault on the first page of a range
and a call of `PageCache::EvictItems`, which moves the page to the RAM cache of
2 pages: `RAMCache::EvictItems` returns 1 and leaves the RAM cache with the
structure of P4. -/
theorem C32_ram_cache_eviction_witness :
    ∃ (s s1 : System) (hm hm1 : HybridMemory), TierReachable s ∧ s.hmem 0 = some hm ∧
      hm.ram_cache_.lru_list_ = [1] ∧ EvictItems s 0 = some (1, s1) ∧
      s1.hmem 0 = some hm1 ∧ hm1.ram_cache_.WellFormed ∧
      hm1.ram_cache_.free_list_.list_ = [0, 1] := by
  have e : ((InitHybridMemory
        [{ st_size := 8 * 4096, content := [100, 101, 102, 103, 104, 105, 106, 107] }]
        (3 * 4096) (2 * 4096) (1 <<< 20) 1).bind (fun s0 =>
      (s0.hmem_map 65536 (8 * 4096) 0 0).bind (fun r =>
        (r.2.SigSegvAction 65536 true).bind (fun sa =>
          (PageCache.EvictItems sa 0).bind (fun q =>
            (q.2.hmem 0).bind (fun hm =>
              (EvictItems q.2 0).bind (fun q2 => some (hm.ram_cache_.lru_list_,
                hm.ram_cache_.free_list_.list_, q2.1)))))))) =
      some ([1], [0], 1) := by
    rw [init_of _ _ _ _ (by decide),
      flashInit_of (1 <<< 20) 256 _ (by decide) PageAllocationTable.Init_256]
    decide!
  simp only [Option.bind_eq_some] at e
  obtain ⟨s0, h0, ⟨a, sm⟩, h1, sa, h2, ⟨n0, s⟩, h3, hm, hhm, ⟨n, s1⟩, he, e⟩ := e
  simp only [Option.some.injEq, Prod.mk.injEq] at e
  obtain ⟨e1, e2, e3⟩ := e
  simp only at e3 hhm he
  subst e3
  have hr : TierReachable s :=
    TierReachable.step sa s
      (TierReachable.step sm sa
        (TierReachable.map s0 sm _ _ _ _ a (TierReachable.init _ _ _ _ _ s0 h0) h1)
        (TierStep.fault sm sa _ _ h2))
      (TierStep.pageEvict sa s 0 n0 h3)
  obtain ⟨items, hdef, hn, _, ⟨hm1, hhm1, wf1, _, _, _, hfree⟩, _, _⟩ :=
    C32_ram_cache_eviction s hr 0 hm hhm 1 s1 he
  refine ⟨s, s1, hm, hm1, hr, hhm, e1, he, hhm1, wf1, ?_⟩
  rw [hfree, e2]
  have hsub : ∀ i, i ∈ items → i = 1 := by
    intro i hi
    rw [hdef, e1] at hi
    have := List.mem_of_mem_filter (List.mem_of_mem_take hi)
    simpa using this
  match items, hn, hsub with
  | [x], _, hsub =>
    rw [hsub x (List.mem_singleton.2 rfl)]
    rfl

end RAMCache

/-! ## The RAM cache, its lists and the records of its pages -/

namespace System

variable {R : V2HMapMetadata → V2HMapMetadata → Prop} {H : HybridMemory → HybridMemory → Prop}

/-- A range of the state after a call is a range of the state before. -/
theorem Frame.range_back {s s1 : System} (h : Frame R H s s1) (i : Nat) (r1 : VAddressRange)
    (hr : s1.vaddr_range_group.vaddr_range_list_[i]? = some r1) :
    ∃ r, s.vaddr_range_group.vaddr_range_list_[i]? = some r ∧ VAddressRange.Rel R r r1 := by
  have := h.ranges i
  rw [hr] at this
  exact OptRel.some_right this

theorem Frame.getHybridMemory {s s1 : System} (h : Frame R H s s1) (o : Nat) :
    s1.GetHybridMemory o = s.GetHybridMemory o := by
  unfold GetHybridMemory
  rw [h.number]

/-- The arguments for a page are the arguments for the page after a call. -/
theorem Frame.ownRecord {s s1 : System} (f : Frame R H s s1) (h page : Nat) (ref : Nat × Nat)
    (ho : s.OwnRecord h page ref) : s1.OwnRecord h page ref := by
  obtain ⟨r, hr, hp, hh⟩ := ho
  obtain ⟨r1, hr1, hrel⟩ := f.range ref.1 r hr
  refine ⟨r1, hr1, ?_, ?_⟩
  · rw [(VAddressRange.Rel.id_eq hrel).2.2.1]
    exact hp
  · rw [f.getHybridMemory]
    exact hh

theorem Frame.aligned {s s1 : System} (f : Frame R H s s1) (ha : s.Aligned) : s1.Aligned := by
  intro i r1 hr1
  obtain ⟨r, hr, hrel⟩ := f.range_back i r1 hr1
  rw [(VAddressRange.Rel.id_eq hrel).2.2.1]
  exact ha i r hr

theorem Frame.inactiveEmpty {s s1 : System} (f : Frame R H s s1) (ha : s.InactiveEmpty) :
    s1.InactiveEmpty := by
  intro i r1 hr1 hact
  obtain ⟨r, hr, hrel⟩ := f.range_back i r1 hr1
  rw [(VAddressRange.Rel.id_eq hrel).2.1] at hact
  have h0 := ha i r hr hact
  have hl := OptRel.length_eq hrel.2.2
  rw [h0] at hl
  exact List.eq_nil_of_length_eq_zero hl

/-- A call that leaves the flags of the RAM cache in every record and the RAM
cache of every tier, up to the order of its LRU list, leaves the agreement of
the RAM caches with the records. -/
theorem Frame.ramConsistent {s s1 : System}
    (f : Frame V2HMapMetadata.SameRam HybridMemory.SameRam s s1) (hc : s.RamConsistent) :
    s1.RamConsistent := by
  refine ⟨f.wellIndexed hc.wellIndexed, ?_, ?_, ?_, f.aligned hc.aligned,
    f.inactiveEmpty hc.inactive⟩
  · intro h hm1 hh1
    obtain ⟨hm, hh, hs⟩ := f.hmem_back h hm1 hh1
    exact RAMCache.SameLru.wellFormed hs (hc.wellFormed h hm hh)
  · intro h hm1 i hh1 hi
    obtain ⟨hm, hh, hs⟩ := f.hmem_back h hm1 hh1
    have hs2 : hm.ram_cache_.SameLru hm1.ram_cache_ := hs
    obtain ⟨it, ref, v, hit, href, ho, hv, hflag⟩ :=
      hc.entries h hm i hh ((hs2.2.mem_iff).1 hi)
    obtain ⟨v1, hv1, hr⟩ := f.v2h ref v hv
    refine ⟨it, ref, v1, ?_, href, f.ownRecord h _ ref ho, hv1, ?_⟩
    · rw [hs2.fields.2.1]
      exact hit
    · have hr2 : v1.exist_ram_cache = v.exist_ram_cache := hr
      rw [hr2]
      exact hflag
  · intro ref v1 hv1 hflag
    obtain ⟨v, hv, hr⟩ := f.v2h_back ref v1 hv1
    have hr2 : v1.exist_ram_cache = v.exist_ram_cache := hr
    rw [hr2] at hflag
    obtain ⟨h, hm, i, it, hh, hi, hit, href⟩ := hc.complete ref v hv hflag
    obtain ⟨hm1, hh1, hs⟩ := f.hmem h hm hh
    have hs2 : hm.ram_cache_.SameLru hm1.ram_cache_ := hs
    refine ⟨h, hm1, i, it, hh1, (hs2.2.mem_iff).2 hi, ?_, href⟩
    rw [hs2.fields.2.1]
    exact hit

/-- A call that leaves the items of the page cache of every tier, and puts no
entry in its queue, leaves the entries of the page caches with their own
records. -/
theorem Frame.pageEntries {s s1 : System}
    (f : Frame R HybridMemory.PageKept s s1) (hc : s.PageEntries) : s1.PageEntries := by
  intro h hm1 front hh1 hq
  obtain ⟨hm, hh, hs⟩ := f.hmem_back h hm1 hh1
  obtain ⟨olditem, v, hit, ho, hv⟩ := hc h hm front hh (hs.2 front hq)
  obtain ⟨v1, hv1, _⟩ := f.v2h _ v hv
  exact ⟨olditem, v1, by rw [hs.1]; exact hit, f.ownRecord h _ _ ho, hv1⟩

/-- The flash cache leaves the flags of the RAM cache and the RAM caches. -/
theorem sameRam_flashOK : FlashOK V2HMapMetadata.SameRam HybridMemory.SameRam where
  r_refl := fun _ => rfl
  r_trans := fun _ _ _ h1 h2 => Eq.trans h2 h1
  h_refl := fun _ => RAMCache.sameLru_refl _
  h_trans := fun _ _ _ h1 h2 => RAMCache.sameLru_trans h1 h2
  r_flash_add := fun _ _ _ => rfl
  r_flash_clear := fun _ => rfl
  r_migrate := fun _ => rfl
  h_flash := fun _ _ => RAMCache.sameLru_refl _
  h_lru := fun _ _ _ h => RAMCache.update_sameLru _ _ _ h

theorem HybridMemory.pageKept_refl (hm : HybridMemory) : hm.PageKept hm := ⟨rfl, fun _ h => h⟩

theorem HybridMemory.pageKept_trans (a b c : HybridMemory) (h1 : a.PageKept b)
    (h2 : b.PageKept c) : a.PageKept c :=
  ⟨h2.1.trans h1.1, fun x hx => h1.2 x (h2.2 x hx)⟩

/-- The RAM cache and the flash cache leave the page caches. -/
theorem pageKept_ramOK : RamOK V2HMapMetadata.AnyChange HybridMemory.PageKept where
  r_refl := fun _ => trivial
  r_trans := fun _ _ _ _ _ => trivial
  h_refl := HybridMemory.pageKept_refl
  h_trans := HybridMemory.pageKept_trans
  r_flash_add := fun _ _ _ => trivial
  r_flash_clear := fun _ => trivial
  r_migrate := fun _ => trivial
  h_flash := fun _ _ => ⟨rfl, fun _ h => h⟩
  h_lru := fun _ _ _ _ => ⟨rfl, fun _ h => h⟩
  r_ram_add := fun _ _ => trivial
  r_ram_clear := fun _ => trivial
  r_ram_dirty := fun _ _ => trivial
  h_ram := fun _ _ => ⟨rfl, fun _ h => h⟩

end System

namespace System

/-- The record of a page names the page: two pages with the same record, for
the same state, are the same page in the same tier. -/
theorem OwnRecord.unique {s : System} {h h1 page page1 : Nat} {ref : Nat × Nat}
    (a : s.OwnRecord h page ref) (b : s.OwnRecord h1 page1 ref) : h = h1 ∧ page = page1 := by
  obtain ⟨r, hr, hp, hh⟩ := a
  obtain ⟨r1, hr1, hp1, hh1⟩ := b
  rw [hr] at hr1
  cases hr1
  rw [hh] at hh1
  exact ⟨Option.some.inj hh1, by rw [hp, hp1]⟩

/-- No two entries of the RAM caches have the same record. -/
theorem RamConsistent.injective {s : System} (hc : s.RamConsistent) (h h1 i i1 : Nat)
    (hm hm1 : HybridMemory) (it it1 : RAMCacheItem) (ref : Nat × Nat)
    (hh : s.hmem h = some hm) (hh1 : s.hmem h1 = some hm1)
    (hi : i ∈ hm.ram_cache_.lru_list_) (hi1 : i1 ∈ hm1.ram_cache_.lru_list_)
    (hit : hm.ram_cache_.items[i]? = some it) (hit1 : hm1.ram_cache_.items[i1]? = some it1)
    (href : it.v2hmap = some ref) (href1 : it1.v2hmap = some ref) : h = h1 ∧ i = i1 := by
  obtain ⟨a, ra, _, ha, hra, hoa, _, _⟩ := hc.entries h hm i hh hi
  obtain ⟨b, rb, _, hb, hrb, hob, _, _⟩ := hc.entries h1 hm1 i1 hh1 hi1
  rw [hit] at ha
  cases ha
  rw [hit1] at hb
  cases hb
  rw [href] at hra
  cases hra
  rw [href1] at hrb
  cases hrb
  obtain ⟨e1, e2⟩ := hoa.unique hob
  subst e1
  rw [hh] at hh1
  cases hh1
  have wf := hc.wellFormed h hm hh
  exact ⟨rfl, wf.keys i i1 it it1 ((wf.chain_lru i).2 hi) ((wf.chain_lru i1).2 hi1) hit hit1 e2⟩

/-- The agreement of the RAM caches with the records is kept when an entry
leaves a RAM cache and its record loses the flags of the RAM cache. -/
theorem RamConsistent.dropEntry {sa s2 : System} (hc : sa.RamConsistent) (h item : Nat)
    (hma : HybridMemory) (it : RAMCacheItem) (ref : Nat × Nat)
    (hh : sa.hmem h = some hma) (hi : item ∈ hma.ram_cache_.lru_list_)
    (hit : hma.ram_cache_.items[item]? = some it) (href : it.v2hmap = some ref)
    (hs2 : sa.setV2h ref (fun v => { v with exist_ram_cache := false, dirty_ram_cache := false }) =
      some s2) :
    (s2.setHmem h { hma with ram_cache_ := hma.ram_cache_.release item it }).RamConsistent := by
  have wfa := hc.wellFormed h hma hh
  have hh2 : s2.hmem h = some hma := by rw [hmem_setV2h sa s2 ref _ hs2]; exact hh
  have f2 : Frame V2HMapMetadata.RamDropped HybridMemory.RamKept sa s2 :=
    frame_setV2h V2HMapMetadata.ramDropped_refl HybridMemory.ramKept_refl sa s2 ref _ hs2
      (fun v _ => ⟨rfl, rfl, Or.inr ⟨rfl, rfl⟩⟩)
  have f3 : Frame V2HMapMetadata.RamDropped HybridMemory.RamKept s2
      (s2.setHmem h { hma with ram_cache_ := hma.ram_cache_.release item it }) :=
    frame_setHmem V2HMapMetadata.ramDropped_refl HybridMemory.ramKept_refl s2 h hma _ hh2
      (fun w => w.releaseEntry item it hi)
  have f := Frame.frameTrans V2HMapMetadata.ramDropped_trans HybridMemory.ramKept_trans f2 f3
  obtain ⟨v0, hv0, hv2, hother⟩ := setV2h_v2h sa s2 ref _ hs2
  have hrel : ∀ i, i ∈ (hma.ram_cache_.release item it).lru_list_ ↔
      i ≠ item ∧ i ∈ hma.ram_cache_.lru_list_ := by
    intro i
    show i ∈ hma.ram_cache_.lru_list_.erase item ↔ _
    rw [wfa.lru_nodup.mem_erase_iff]
  have hitems : ∀ i, i ≠ item →
      (hma.ram_cache_.release item it).items[i]? = hma.ram_cache_.items[i]? := by
    intro i hne
    show (hma.ram_cache_.items.set item _)[i]? = _
    rw [List.getElem?_set_ne (Ne.symm hne)]
  have hhR := hmem_setHmem s2 h hma { hma with ram_cache_ := hma.ram_cache_.release item it } hh2
  refine ⟨f.wellIndexed hc.wellIndexed, f.ramWellFormed hc.wellFormed, ?_, ?_,
    f.aligned hc.aligned, f.inactiveEmpty hc.inactive⟩
  · intro k hmk i hk hik
    by_cases hkh : h = k
    · subst hkh
      rw [hhR] at hk
      cases hk
      obtain ⟨hne, hil⟩ := (hrel i).1 hik
      obtain ⟨a, ra, va, ha, hra, hoa, hva, hfa⟩ := hc.entries h hma i hh hil
      have hrne : ra ≠ ref := by
        intro hcn
        subst hcn
        exact hne (hc.injective h h i item hma hma a it ra hh hh hil hi ha hit hra href).2
      refine ⟨a, ra, va, ?_, hra, f.ownRecord h _ ra hoa, ?_, hfa⟩
      · rw [hitems i hne]
        exact ha
      · rw [v2h_setHmem, hother ra hrne]
        exact hva
    · rw [hmem_setHmem_ne s2 h k _ hkh, hmem_setV2h sa s2 ref _ hs2] at hk
      obtain ⟨a, ra, va, ha, hra, hoa, hva, hfa⟩ := hc.entries k hmk i hk hik
      have hrne : ra ≠ ref := by
        intro hcn
        subst hcn
        exact hkh (hc.injective k h i item hmk hma a it ra hk hh hik hi ha hit hra href).1.symm
      refine ⟨a, ra, va, ha, hra, f.ownRecord k _ ra hoa, ?_, hfa⟩
      rw [v2h_setHmem, hother ra hrne]
      exact hva
  · intro ref1 v1 hv1 hflag
    rw [v2h_setHmem] at hv1
    by_cases hr : ref1 = ref
    · subst hr
      rw [hv2] at hv1
      cases hv1
      cases hflag
    · rw [hother ref1 hr] at hv1
      obtain ⟨k, hmk, i, a, hk, hik, ha, hra⟩ := hc.complete ref1 v1 hv1 hflag
      by_cases hkh : h = k
      · subst hkh
        rw [hh] at hk
        cases hk
        have hne : i ≠ item := by
          intro hcn
          subst hcn
          rw [hit] at ha
          cases ha
          rw [href] at hra
          exact hr (Option.some.inj hra).symm
        exact ⟨h, _, i, a, hhR, (hrel i).2 ⟨hne, hik⟩, by rw [hitems i hne]; exact ha, hra⟩
      · refine ⟨k, hmk, i, a, ?_, hik, ha, hra⟩
        rw [hmem_setHmem_ne s2 h k _ hkh, hmem_setV2h sa s2 ref _ hs2]
        exact hk

end System

namespace RAMCache
open System

/-- A turn of the second loop of `RAMCache::EvictItems` keeps the agreement of
the RAM caches with the records. -/
theorem evictTurn_consistent (s s1 : System) (h item : Nat) (hc : s.RamConsistent)
    (e : evictTurn h item s = some s1) : s1.RamConsistent := by
  have e0 := e
  unfold evictTurn at e0
  simp only [bind, Option.bind_eq_some] at e0
  obtain ⟨hm, hhm, _⟩ := e0
  obtain ⟨hmem, it, ref, v, sa, s2, hma, hit, href, hv, _, _, hfr, hhma, hsame, hs2, hs1⟩ :=
    evictTurn_spec s s1 h item hm hhm (hc.wellFormed h hm hhm) e
  have hca : sa.RamConsistent :=
    Frame.ramConsistent (Frame.frameMono (fun _ _ k => k.2.2.1) (fun _ _ k => k.2) hfr) hc
  rw [hs1]
  refine hca.dropEntry h item hma it ref hhma ((hsame.2.2.mem_iff).2 hmem) ?_ href hs2
  rw [hsame.2.fields.2.1]
  exact hit

/-- The second loop of `RAMCache::EvictItems` keeps the agreement of the RAM
caches with the records. -/
theorem evictLoop_consistent (h : Nat) : ∀ (items : List Nat) (s s1 : System),
    s.RamConsistent → evictLoop h items s = some s1 → s1.RamConsistent := by
  intro items
  induction items with
  | nil =>
    intro s s1 hc e
    rw [evictLoop_nil] at e
    cases e
    exact hc
  | cons item rest ih =>
    intro s s1 hc e
    rw [evictLoop_cons] at e
    simp only [Option.bind_eq_some] at e
    obtain ⟨sm, hturn, e⟩ := e
    exact ih sm s1 (evictTurn_consistent s sm h item hc hturn) e

/-- `RAMCache::EvictItems` keeps the agreement of the RAM caches with the
records. -/
theorem ramEvictItems_consistent (s s1 : System) (h n : Nat) (hc : s.RamConsistent)
    (e : EvictItems s h = some (n, s1)) : s1.RamConsistent := by
  unfold EvictItems at e
  simp only [bind, Option.bind_eq_some, Option.some.injEq, Prod.mk.injEq] at e
  obtain ⟨hm0, hhm0, items, _, s2, h2, _, e⟩ := e
  subst e
  exact evictLoop_consistent h items s s2 hc h2

/-- `RAMCache::Remove` keeps the agreement of the RAM caches with the
records. -/
theorem Remove_consistent (s s1 : System) (h item : Nat) (hc : s.RamConsistent)
    (e : Remove s h item = some s1) : s1.RamConsistent := by
  have e0 := e
  unfold Remove at e0
  simp only [bind, Option.bind_eq_some] at e0
  obtain ⟨hm, hhm, _⟩ := e0
  obtain ⟨hmem, it, ref, s2, hit, href, hs2, hs1⟩ :=
    Remove_spec s s1 h item hm hhm (hc.wellFormed h hm hhm) e
  rw [hs1]
  exact hc.dropEntry h item hm it ref hhm hmem hit href hs2

end RAMCache

namespace RAMCache
open System

/-- The loop of `RAMCache::AddPage` that takes an item, with a property `P` of
the state that `RAMCache::EvictItems` keeps. -/
theorem newItem_inv (h : Nat) (P : System → Prop)
    (hP : ∀ (s s1 : System) (n : Nat), P s → EvictItems s h = some (n, s1) → P s1) :
    ∀ (fuel : Nat) (s s1 : System) (o : Option Nat) (hm : HybridMemory), P s →
    s.WellIndexed → s.hmem h = some hm → hm.ram_cache_.WellFormed →
    newItem h fuel s = some (o, s1) →
    ∃ (s0 : System) (hm0 : HybridMemory), P s0 ∧
      Frame V2HMapMetadata.RamDropped HybridMemory.RamKept s s0 ∧ s0.hmem h = some hm0 ∧
      hm0.ram_cache_.WellFormed ∧ hm.ram_cache_.Shrunk hm0.ram_cache_ ∧
      ((o = none ∧ s1 = s0) ∨ ∃ item, o = some item ∧
        hm0.ram_cache_.free_list_.list_.getLast? = some item ∧
        s1 = s0.setHmem h { hm0 with
          ram_cache_ := { hm0.ram_cache_ with
            free_list_ := { hm0.ram_cache_.free_list_ with
              list_ := hm0.ram_cache_.free_list_.list_.dropLast } } }) := by
  intro fuel
  induction fuel with
  | zero =>
    intro s s1 o hm _ _ _ _ e
    simp [newItem] at e
  | succ fuel ih =>
    intro s s1 o hm hp hw hhm wf e
    unfold newItem at e
    rw [hhm] at e
    simp only at e
    unfold FreeList.New at e
    cases hl : hm.ram_cache_.free_list_.list_.getLast? with
    | some item =>
      rw [hl] at e
      simp only [Option.some.injEq, Prod.mk.injEq] at e
      refine ⟨s, hm, hp,
        Frame.frameRefl V2HMapMetadata.ramDropped_refl HybridMemory.ramKept_refl s,
        hhm, wf, shrunk_refl _, Or.inr ⟨item, e.1.symm, hl, e.2.symm⟩⟩
    | none =>
      rw [hl] at e
      simp only at e
      split at e
      · cases e
      · rename_i n s2 he
        obtain ⟨hfr, hm2, hhm2, wf2, hsh⟩ := ramEvictItems_kept s s2 h n hm hw hhm wf he
        have hp2 := hP s s2 n hp he
        split at e
        · simp only [Option.some.injEq, Prod.mk.injEq] at e
          exact ⟨s2, hm2, hp2, hfr, hhm2, wf2, hsh, Or.inl ⟨e.1.symm, e.2.symm⟩⟩
        · obtain ⟨s0, hm0, hp0, hfr0, hhm0, wf0, hsh0, hcase⟩ :=
            ih s2 s1 o hm2 hp2 (hfr.wellIndexed hw) hhm2 wf2 e
          exact ⟨s0, hm0, hp0,
            Frame.frameTrans V2HMapMetadata.ramDropped_trans HybridMemory.ramKept_trans hfr hfr0,
            hhm0, wf0, shrunk_trans hsh hsh0, hcase⟩

/-- `RAMCache::AddPage` for a page that the hash table has: the entry gets the
content of the page and its record gets `dirty_ram_cache` when `is_dirty` is
set, and the entry goes to the head of the LRU list. -/
theorem ramAddPage_hit (s s1 : System) (h page sz : Nat) (b b1 : Bool) (ref : Nat × Nat)
    (id item : Nat) (hm : HybridMemory) (hhm : s.hmem h = some hm)
    (hl : hm.ram_cache_.Lookup page = some (some item))
    (e : AddPage s h page sz b ref id = some (b1, s1)) :
    ∃ (it : RAMCacheItem) (v : V2HMapMetadata) (sa : System) (hm1 : HybridMemory)
        (rc1 : RAMCache),
      hm.ram_cache_.items[item]? = some it ∧ it.v2hmap = some ref ∧ it.hash_key = page ∧
      s.v2h ref = some v ∧ v.exist_ram_cache = true ∧ b1 = true ∧
      ((b = true ∧ ∃ (d : Nat) (s2 : System),
          s.setV2h ref (fun v => { v with dirty_ram_cache := true }) = some s2 ∧
          sa = s2.setHmem h { hm with
            ram_cache_ := { hm.ram_cache_ with
              items := hm.ram_cache_.items.set item { it with data := d } } }) ∨
        (b = false ∧ sa = s)) ∧
      sa.hmem h = some hm1 ∧ hm1.ram_cache_.Update item = some rc1 ∧
      s1 = sa.setHmem h { hm1 with ram_cache_ := rc1 } := by
  unfold AddPage at e
  simp only [bind, Option.bind_eq_some] at e
  obtain ⟨_, _, _, _, hm0, hhm0, o, ho, e⟩ := e
  rw [hhm] at hhm0
  cases hhm0
  rw [hl] at ho
  cases ho
  simp only [Option.bind_eq_some] at e
  obtain ⟨it, hit, u1, hc1, u2, hc2, v, hv, u, hc, e⟩ := e
  have h1 := check_some _ u1 hc1
  have h2 := check_some _ u2 hc2
  have h3 := check_some _ u hc
  simp only [beq_iff_eq] at h1 h2
  by_cases hb : b = true
  · rw [if_pos hb] at e
    simp only [Option.bind_eq_some, Option.some.injEq, Prod.mk.injEq] at e
    obtain ⟨d, _, sa, hsa, hm1, hhm1, rc1, hrc1, hb1, e⟩ := e
    obtain ⟨s2, hs2, hsa2⟩ := setV2h_setHmem s sa h _ ref _ hsa
    exact ⟨it, v, sa, hm1, rc1, hit, h1, h2, hv, h3, hb1.symm, Or.inl ⟨hb, d, s2, hs2, hsa2⟩,
      hhm1, hrc1, e.symm⟩
  · rw [if_neg hb] at e
    simp only [Option.bind_eq_some, Option.some_bind, Option.some.injEq, Prod.mk.injEq] at e
    obtain ⟨hm1, hhm1, rc1, hrc1, hb1, e⟩ := e
    have hb0 : b = false := by
      cases b
      · rfl
      · exact absurd rfl hb
    exact ⟨it, v, s, hm1, rc1, hit, h1, h2, hv, h3, hb1.symm, Or.inr ⟨hb0, rfl⟩, hhm1, hrc1,
      e.symm⟩

/-- `RAMCache::AddPage` for a page that the hash table has not, with a property
`P` of the state that `RAMCache::EvictItems` keeps: after evictions, in a state
`s0`, either there is no item and the call returns false, or the last item of
the free list gets the page and its record gets `exist_ram_cache` and
`is_dirty` as `dirty_ram_cache`. -/
theorem ramAddPage_miss (P : System → Prop)
    (hP : ∀ (s s1 : System) (h n : Nat), P s → EvictItems s h = some (n, s1) → P s1)
    (s s1 : System) (h page sz : Nat) (b b1 : Bool) (ref : Nat × Nat) (id : Nat)
    (hm : HybridMemory) (hp : P s) (hw : s.WellIndexed) (hhm : s.hmem h = some hm)
    (wf : hm.ram_cache_.WellFormed) (hl : hm.ram_cache_.Lookup page = some none)
    (e : AddPage s h page sz b ref id = some (b1, s1)) :
    ∃ (s0 : System) (hm0 : HybridMemory), P s0 ∧
      Frame V2HMapMetadata.RamDropped HybridMemory.RamKept s s0 ∧ s0.hmem h = some hm0 ∧
      hm0.ram_cache_.WellFormed ∧ hm0.ram_cache_.Lookup page = some none ∧
      ((b1 = false ∧ s1 = s0) ∨ (b1 = true ∧
        ∃ (item : Nat) (it : RAMCacheItem) (d : Nat) (s3 : System),
          hm0.ram_cache_.free_list_.list_.getLast? = some item ∧
          hm0.ram_cache_.items[item]? = some it ∧
          s0.setV2h ref (fun v => { v with exist_ram_cache := true, dirty_ram_cache := b }) =
            some s3 ∧
          s1 = s3.setHmem h { hm0 with
            ram_cache_ := hm0.ram_cache_.enter item
              { it with data := d, hash_key := page, vaddress_range_id := id % 2 ^ 16,
                        v2hmap := some ref } })) := by
  unfold AddPage at e
  simp only [bind, Option.bind_eq_some] at e
  obtain ⟨_, _, _, _, hm0, hhm0, o, ho, e⟩ := e
  rw [hhm] at hhm0
  cases hhm0
  rw [hl] at ho
  cases ho
  simp only [Option.bind_eq_some] at e
  obtain ⟨⟨o1, sa⟩, hnew, e⟩ := e
  obtain ⟨s0, hm0, hp0, hfr0, hhm0, wf0, hsh, hcase⟩ :=
    newItem_inv h P (fun a b n => hP a b h n) 2 s sa o1 hm hp hw hhm wf hnew
  have hlk0 := hsh.lookup_none page hl
  refine ⟨s0, hm0, hp0, hfr0, hhm0, wf0, hlk0, ?_⟩
  split at e
  · rename_i heq
    cases heq
    simp only [Option.some.injEq, Prod.mk.injEq] at e
    rcases hcase with ⟨_, h2⟩ | ⟨item, h1, _⟩
    · exact Or.inl ⟨e.1.symm, by rw [← e.2, h2]⟩
    · cases h1
  · rename_i item sa1 heq
    cases heq
    rcases hcase with ⟨h1, _⟩ | ⟨item1, h1, hlast, hsa⟩
    · cases h1
    · cases h1
      simp only [Option.bind_eq_some, Option.some.injEq, Prod.mk.injEq] at e
      obtain ⟨d, _, hm1, hhm1, it, hit, sb, hsb, hm2, hhm2, ⟨o2, rc2⟩, hins, hb1, e⟩ := e
      obtain ⟨s2, hs2, hsb2⟩ := setV2h_setHmem sa sb h _ ref _ hsb
      rw [hsa] at hs2
      obtain ⟨s3, hs3, hs23⟩ := setV2h_setHmem s0 s2 h _ ref _ hs2
      have hhm3 : s3.hmem h = some hm0 := by rw [hmem_setV2h s0 s3 ref _ hs3]; exact hhm0
      have hx : hm1 = { hm0 with
          ram_cache_ := { hm0.ram_cache_ with
            free_list_ := { hm0.ram_cache_.free_list_ with
              list_ := hm0.ram_cache_.free_list_.list_.dropLast } } } := by
        have := hmem_setHmem s0 h hm0
          { hm0 with
            ram_cache_ := { hm0.ram_cache_ with
              free_list_ := { hm0.ram_cache_.free_list_ with
                list_ := hm0.ram_cache_.free_list_.list_.dropLast } } } hhm0
        rw [← hsa, hhm1] at this
        exact Option.some.inj this
      have hy : hm2 = { hm1 with
          ram_cache_ := { hm1.ram_cache_ with
            items := hm1.ram_cache_.items.set item
              { it with data := d, hash_key := page, vaddress_range_id := id % 2 ^ 16,
                        v2hmap := some ref } } } := by
        have h2 : s2.hmem h = some hm1 := by
          rw [hs23, hx]
          exact hmem_setHmem s3 h hm0 _ hhm3
        have := hmem_setHmem s2 h hm1
          { hm1 with
            ram_cache_ := { hm1.ram_cache_ with
              items := hm1.ram_cache_.items.set item
                { it with data := d, hash_key := page, vaddress_range_id := id % 2 ^ 16,
                          v2hmap := some ref } } } h2
        rw [← hsb2, hhm2] at this
        exact Option.some.inj this
      have hs1 : s1 = s3.setHmem h { hm2 with ram_cache_ := rc2.Link item } := by
        rw [← e, hsb2, hs23, setHmem_setHmem, setHmem_setHmem]
      have hfree : item ∈ hm0.ram_cache_.free_list_.list_ := List.mem_of_getLast?_eq_some hlast
      have hbnd := ((wf0.free_lru item).1 hfree).1
      have hnc : item ∉ hm0.ram_cache_.hash_table_.chain := fun hc =>
        ((wf0.free_lru item).1 hfree).2 ((wf0.chain_lru item).1 hc)
      have hlk1 := lookup_set hm0.ram_cache_ item
        { it with data := d, hash_key := page, vaddress_range_id := id % 2 ^ 16,
                  v2hmap := some ref }
        { hm0.ram_cache_.free_list_ with list_ := hm0.ram_cache_.free_list_.list_.dropLast }
        hnc page
      subst hy
      subst hx
      unfold Insert at hins
      simp only [bind, Option.bind_eq_some] at hins
      obtain ⟨it1, hit1, o3, ho3, hins⟩ := hins
      rw [List.getElem?_set_self hbnd] at hit1
      cases hit1
      have ho4 : some o3 = some none := by
        rw [← ho3, ← hlk0, ← hlk1]
      cases ho4
      simp only [Option.some.injEq, Prod.mk.injEq] at hins
      refine Or.inr ⟨hb1.symm, item, it, d, s3, hlast, hit, hs3, ?_⟩
      rw [hs1, ← hins.2]
      rfl

end RAMCache

namespace System

theorem anyFrame_setHmem (s : System) (h : Nat) (hm hm1 : HybridMemory)
    (hh : s.hmem h = some hm) :
    Frame V2HMapMetadata.AnyChange (fun _ _ => True) s (s.setHmem h hm1) :=
  frame_setHmem (fun _ => trivial) (fun _ => trivial) s h hm hm1 hh trivial

theorem anyFrame_setV2h (s s1 : System) (ref : Nat × Nat) (f : V2HMapMetadata → V2HMapMetadata)
    (e : s.setV2h ref f = some s1) :
    Frame V2HMapMetadata.AnyChange (fun _ _ => True) s s1 :=
  frame_setV2h (fun _ => trivial) (fun _ => trivial) s s1 ref f e (fun _ _ => trivial)

theorem anyFrame_trans {a b c : System}
    (h1 : Frame V2HMapMetadata.AnyChange (fun _ _ => True) a b)
    (h2 : Frame V2HMapMetadata.AnyChange (fun _ _ => True) b c) :
    Frame V2HMapMetadata.AnyChange (fun _ _ => True) a c :=
  Frame.frameTrans (fun _ _ _ _ _ => trivial) (fun _ _ _ _ _ => trivial) h1 h2

/-- The agreement of the RAM caches with the records is kept when the content
of an entry changes. -/
theorem RamConsistent.dataSet {s : System} (hc : s.RamConsistent) (h item d : Nat)
    (hm : HybridMemory) (it : RAMCacheItem) (hh : s.hmem h = some hm)
    (hit : hm.ram_cache_.items[item]? = some it) :
    (s.setHmem h { hm with
      ram_cache_ := { hm.ram_cache_ with
        items := hm.ram_cache_.items.set item { it with data := d } } }).RamConsistent := by
  have f := anyFrame_setHmem s h hm
    { hm with
      ram_cache_ := { hm.ram_cache_ with
        items := hm.ram_cache_.items.set item { it with data := d } } } hh
  have hhR := hmem_setHmem s h hm
    { hm with
      ram_cache_ := { hm.ram_cache_ with
        items := hm.ram_cache_.items.set item { it with data := d } } } hh
  have hb := (List.getElem?_eq_some_iff.1 hit).1
  have hitems : ∀ (i : Nat) (a : RAMCacheItem), hm.ram_cache_.items[i]? = some a →
      ∃ a1, (hm.ram_cache_.items.set item { it with data := d })[i]? = some a1 ∧
        a1.v2hmap = a.v2hmap ∧ a1.hash_key = a.hash_key := by
    intro i a ha
    by_cases hi : item = i
    · subst hi
      rw [hit] at ha
      cases ha
      exact ⟨_, List.getElem?_set_self hb, rfl, rfl⟩
    · exact ⟨a, by rw [List.getElem?_set_ne hi]; exact ha, rfl, rfl⟩
  refine ⟨f.wellIndexed hc.wellIndexed, ?_, ?_, ?_, f.aligned hc.aligned,
    f.inactiveEmpty hc.inactive⟩
  · intro k hmk hk
    by_cases hkh : h = k
    · subst hkh
      rw [hhR] at hk
      cases hk
      exact (hc.wellFormed h hm hh).setData item d it hit
    · rw [hmem_setHmem_ne s h k _ hkh] at hk
      exact hc.wellFormed k hmk hk
  · intro k hmk i hk hik
    by_cases hkh : h = k
    · subst hkh
      rw [hhR] at hk
      cases hk
      obtain ⟨a, ra, va, ha, hra, hoa, hva, hfa⟩ := hc.entries h hm i hh hik
      obtain ⟨a1, ha1, e1, e2⟩ := hitems i a ha
      refine ⟨a1, ra, va, ha1, by rw [e1]; exact hra, ?_, hva, hfa⟩
      rw [e2]
      exact f.ownRecord h _ ra hoa
    · rw [hmem_setHmem_ne s h k _ hkh] at hk
      obtain ⟨a, ra, va, ha, hra, hoa, hva, hfa⟩ := hc.entries k hmk i hk hik
      exact ⟨a, ra, va, ha, hra, f.ownRecord k _ ra hoa, hva, hfa⟩
  · intro ref1 v1 hv1 hflag
    rw [v2h_setHmem] at hv1
    obtain ⟨k, hmk, i, a, hk, hik, ha, hra⟩ := hc.complete ref1 v1 hv1 hflag
    by_cases hkh : h = k
    · subst hkh
      rw [hh] at hk
      cases hk
      obtain ⟨a1, ha1, e1, _⟩ := hitems i a ha
      exact ⟨h, _, i, a1, hhR, hik, ha1, by rw [e1]; exact hra⟩
    · refine ⟨k, hmk, i, a, ?_, hik, ha, hra⟩
      rw [hmem_setHmem_ne s h k _ hkh]
      exact hk

/-- The agreement of the RAM caches with the records is kept when a page with
its own record enters the RAM cache of its tier, under a key that the hash
table has not, and the record gets `exist_ram_cache`. -/
theorem RamConsistent.enter {s0 s3 : System} (hc : s0.RamConsistent) (h item page : Nat)
    (b : Bool) (hm0 : HybridMemory) (new : RAMCacheItem) (ref : Nat × Nat)
    (hh : s0.hmem h = some hm0)
    (hlast : hm0.ram_cache_.free_list_.list_.getLast? = some item)
    (hkey : new.hash_key = page) (href : new.v2hmap = some ref)
    (hlk : hm0.ram_cache_.Lookup page = some none) (ho : s0.OwnRecord h page ref)
    (hs3 : s0.setV2h ref (fun v => { v with exist_ram_cache := true, dirty_ram_cache := b }) =
      some s3) :
    (s3.setHmem h { hm0 with ram_cache_ := hm0.ram_cache_.enter item new }).RamConsistent := by
  have wf0 := hc.wellFormed h hm0 hh
  have hh3 : s3.hmem h = some hm0 := by rw [hmem_setV2h s0 s3 ref _ hs3]; exact hh
  have f := anyFrame_trans (anyFrame_setV2h s0 s3 ref _ hs3)
    (anyFrame_setHmem s3 h hm0 { hm0 with ram_cache_ := hm0.ram_cache_.enter item new } hh3)
  have hhR := hmem_setHmem s3 h hm0 { hm0 with ram_cache_ := hm0.ram_cache_.enter item new } hh3
  obtain ⟨v0, hv0, hv3, hother⟩ := setV2h_v2h s0 s3 ref _ hs3
  have hfree : item ∈ hm0.ram_cache_.free_list_.list_ := List.mem_of_getLast?_eq_some hlast
  obtain ⟨hbnd, hnl⟩ := (wf0.free_lru item).1 hfree
  have hnew : (hm0.ram_cache_.enter item new).items[item]? = some new := by
    show (hm0.ram_cache_.items.set item new)[item]? = some new
    exact List.getElem?_set_self hbnd
  have hold : ∀ i, i ∈ hm0.ram_cache_.lru_list_ →
      (hm0.ram_cache_.enter item new).items[i]? = hm0.ram_cache_.items[i]? := by
    intro i hi
    show (hm0.ram_cache_.items.set item new)[i]? = _
    have hne : item ≠ i := fun hcn => hnl (hcn ▸ hi)
    rw [List.getElem?_set_ne hne]
  have hrec : ∀ (ra : Nat × Nat) (va : V2HMapMetadata), s0.v2h ra = some va →
      va.exist_ram_cache = true →
      ∃ v1, s3.v2h ra = some v1 ∧ v1.exist_ram_cache = true := by
    intro ra va hva hfa
    by_cases hr : ra = ref
    · subst hr
      exact ⟨_, hv3, rfl⟩
    · exact ⟨va, by rw [hother ra hr]; exact hva, hfa⟩
  have hwfR : (hm0.ram_cache_.enter item new).WellFormed := by
    have hlk2 : hm0.ram_cache_.Lookup new.hash_key = some none := by rw [hkey]; exact hlk
    exact wf0.insert item _ new hlast hlk2
  refine ⟨f.wellIndexed hc.wellIndexed, ?_, ?_, ?_, f.aligned hc.aligned,
    f.inactiveEmpty hc.inactive⟩
  · intro k hmk hk
    by_cases hkh : h = k
    · subst hkh
      rw [hhR] at hk
      cases hk
      exact hwfR
    · rw [hmem_setHmem_ne s3 h k _ hkh, hmem_setV2h s0 s3 ref _ hs3] at hk
      exact hc.wellFormed k hmk hk
  · intro k hmk i hk hik
    by_cases hkh : h = k
    · subst hkh
      rw [hhR] at hk
      cases hk
      have hik2 : i ∈ item :: hm0.ram_cache_.lru_list_ := hik
      rcases List.mem_cons.1 hik2 with hi | hi
      · subst hi
        refine ⟨new, ref, _, hnew, href, ?_, by rw [v2h_setHmem]; exact hv3, rfl⟩
        rw [hkey]
        exact f.ownRecord h page ref ho
      · obtain ⟨a, ra, va, ha, hra, hoa, hva, hfa⟩ := hc.entries h hm0 i hh hi
        obtain ⟨v1, hv1, hf1⟩ := hrec ra va hva hfa
        exact ⟨a, ra, v1, by rw [hold i hi]; exact ha, hra, f.ownRecord h _ ra hoa,
          by rw [v2h_setHmem]; exact hv1, hf1⟩
    · rw [hmem_setHmem_ne s3 h k _ hkh, hmem_setV2h s0 s3 ref _ hs3] at hk
      obtain ⟨a, ra, va, ha, hra, hoa, hva, hfa⟩ := hc.entries k hmk i hk hik
      obtain ⟨v1, hv1, hf1⟩ := hrec ra va hva hfa
      exact ⟨a, ra, v1, ha, hra, f.ownRecord k _ ra hoa, by rw [v2h_setHmem]; exact hv1, hf1⟩
  · intro ref1 v1 hv1 hflag
    rw [v2h_setHmem] at hv1
    by_cases hr : ref1 = ref
    · subst hr
      exact ⟨h, _, item, new, hhR, List.mem_cons_self _ _, hnew, href⟩
    · rw [hother ref1 hr] at hv1
      obtain ⟨k, hmk, i, a, hk, hik, ha, hra⟩ := hc.complete ref1 v1 hv1 hflag
      by_cases hkh : h = k
      · subst hkh
        rw [hh] at hk
        cases hk
        exact ⟨h, _, i, a, hhR, List.mem_cons_of_mem _ hik, by rw [hold i hik]; exact ha, hra⟩
      · refine ⟨k, hmk, i, a, ?_, hik, ha, hra⟩
        rw [hmem_setHmem_ne s3 h k _ hkh, hmem_setV2h s0 s3 ref _ hs3]
        exact hk

/-- The agreement of the RAM caches with the records is kept when an entry
goes to the head of the LRU list. -/
theorem RamConsistent.update {s : System} (hc : s.RamConsistent) (h item : Nat)
    (hm : HybridMemory) (rc1 : RAMCache) (hh : s.hmem h = some hm)
    (hu : hm.ram_cache_.Update item = some rc1) :
    (s.setHmem h { hm with ram_cache_ := rc1 }).RamConsistent :=
  Frame.ramConsistent
    (frame_setHmem sameRam_flashOK.r_refl sameRam_flashOK.h_refl s h hm _ hh
      (RAMCache.update_sameLru _ _ _ hu)) hc

end System

namespace RAMCache
open System

/-- The hash table finds entries of its chain. -/
theorem lookup_mem (rc : RAMCache) (key item : Nat) (h : rc.Lookup key = some (some item)) :
    item ∈ rc.hash_table_.chain := by
  unfold Lookup at h
  split at h
  · cases h
  · simp only [Option.some.injEq] at h
    exact List.mem_of_find?_eq_some h

/-- `RAMCache::AddPage` for a page with its own record and tier keeps the
agreement of the RAM caches with the records. -/
theorem ramAddPage_consistent (s s1 : System) (h page sz : Nat) (b b1 : Bool)
    (ref : Nat × Nat) (id : Nat) (hc : s.RamConsistent) (ho : s.OwnRecord h page ref)
    (e : AddPage s h page sz b ref id = some (b1, s1)) : s1.RamConsistent := by
  have e0 := e
  unfold AddPage at e0
  simp only [bind, Option.bind_eq_some] at e0
  obtain ⟨_, _, _, _, hm, hhm, o, hl, _⟩ := e0
  cases o with
  | some item =>
    obtain ⟨it, v, sa, hm1, rc1, hit, href, hkey, hv, hflag, _, hcase, hhm1, hrc1, hs1⟩ :=
      ramAddPage_hit s s1 h page sz b b1 ref id item hm hhm hl e
    rw [hs1]
    refine RamConsistent.update ?_ h item hm1 rc1 hhm1 hrc1
    rcases hcase with ⟨_, d, s2, hs2, hsa⟩ | ⟨_, hsa⟩
    · rw [hsa]
      have hc2 : s2.RamConsistent :=
        Frame.ramConsistent
          (frame_setV2h sameRam_flashOK.r_refl sameRam_flashOK.h_refl s s2 ref _ hs2
            (fun _ _ => rfl)) hc
      exact hc2.dataSet h item d hm it (by rw [hmem_setV2h s s2 ref _ hs2]; exact hhm) hit
    · rw [hsa]
      exact hc
  | none =>
    obtain ⟨s0, hm0, hc0, hfr0, hhm0, wf0, hlk0, hcase⟩ :=
      ramAddPage_miss RamConsistent
        (fun a b k n hp he => ramEvictItems_consistent a b k n hp he)
        s s1 h page sz b b1 ref id hm hc hc.wellIndexed hhm (hc.wellFormed h hm hhm) hl e
    rcases hcase with ⟨_, hs1⟩ | ⟨_, item, it, d, s3, hlast, hit, hs3, hs1⟩
    · rw [hs1]
      exact hc0
    · rw [hs1]
      exact hc0.enter h item page b hm0 _ ref hhm0 hlast rfl rfl hlk0
        (hfr0.ownRecord h page ref ho) hs3

/-- `RAMCache::GetItem` keeps the agreement of the RAM caches with the
records. -/
theorem getItem_consistent (s : System) (h a item : Nat) (hm : HybridMemory) (rc1 : RAMCache)
    (hc : s.RamConsistent) (hh : s.hmem h = some hm)
    (e : hm.ram_cache_.GetItem a = some (item, rc1)) :
    (s.setHmem h { hm with ram_cache_ := rc1 }).RamConsistent :=
  hc.update h item hm rc1 hh (FlashCache.getItem_update _ _ _ _ e)

end RAMCache

namespace System

/-- A change of the page cache of a tier keeps the agreement of the RAM caches
with the records. -/
theorem RamConsistent.setPageCache {s : System} (hc : s.RamConsistent) (h : Nat)
    (hm : HybridMemory) (pc : PageCache) (hh : s.hmem h = some hm) :
    (s.setHmem h { hm with page_cache_ := pc }).RamConsistent :=
  Frame.ramConsistent
    (frame_setHmem sameRam_flashOK.r_refl sameRam_flashOK.h_refl s h hm _ hh
      (RAMCache.sameLru_refl _)) hc

/-- A write of the flags of the page cache in a record keeps the agreement of
the RAM caches with the records. -/
theorem RamConsistent.setPageFlags {s s1 : System} (hc : s.RamConsistent) (ref : Nat × Nat)
    (f : V2HMapMetadata → V2HMapMetadata) (e : s.setV2h ref f = some s1)
    (hf : ∀ v, (f v).exist_ram_cache = v.exist_ram_cache) : s1.RamConsistent :=
  Frame.ramConsistent
    (frame_setV2h sameRam_flashOK.r_refl sameRam_flashOK.h_refl s s1 ref f e
      (fun v _ => hf v)) hc

/-- A change of a page of memory keeps the agreement of the RAM caches with the
records. -/
theorem RamConsistent.setPage {s s1 : System} (hc : s.RamConsistent) (address : Nat)
    (f : VPage → VPage) (e : s.setPage address f = some s1) : s1.RamConsistent :=
  Frame.ramConsistent
    (frame_setPage sameRam_flashOK.r_refl sameRam_flashOK.h_refl s s1 address f
      hc.wellIndexed e).1 hc

theorem PageEntries.pageSet {s s1 : System} (hc : s.PageEntries) (hw : s.WellIndexed)
    (address : Nat) (f : VPage → VPage) (e : s.setPage address f = some s1) : s1.PageEntries :=
  Frame.pageEntries
    (frame_setPage pageKept_ramOK.r_refl pageKept_ramOK.h_refl s s1 address f hw e).1 hc

theorem PageEntries.setV2h {s s1 : System} (hc : s.PageEntries) (ref : Nat × Nat)
    (f : V2HMapMetadata → V2HMapMetadata) (e : s.setV2h ref f = some s1) : s1.PageEntries :=
  Frame.pageEntries
    (frame_setV2h pageKept_ramOK.r_refl pageKept_ramOK.h_refl s s1 ref f e
      (fun _ _ => trivial)) hc

/-- The entries of the page caches keep their own records when a tier gets a
page cache with the same items and no new entry in its queue. -/
theorem PageEntries.pageCacheSet {s : System} (hc : s.PageEntries) (h : Nat)
    (hm : HybridMemory) (pc : PageCache) (hh : s.hmem h = some hm)
    (hitems : pc.items = hm.page_cache_.items)
    (hq : ∀ x, x ∈ pc.queue_ → x ∈ hm.page_cache_.queue_) :
    (s.setHmem h { hm with page_cache_ := pc }).PageEntries :=
  Frame.pageEntries
    (frame_setHmem pageKept_ramOK.r_refl pageKept_ramOK.h_refl s h hm _ hh ⟨hitems, hq⟩) hc

end System

namespace PageCache
open System

/-- The loop of `PageCache::EvictItems` keeps the agreement of the RAM caches
with the records and the entries of the page caches with their own records. -/
theorem pageEvictLoop_consistent (h todo released n : Nat) (s s1 : System)
    (hc : s.RamConsistent) (hp : s.PageEntries)
    (e : evictLoop h todo released s = some (n, s1)) :
    s1.RamConsistent ∧ s1.PageEntries := by
  induction todo generalizing s released with
  | zero =>
    unfold evictLoop at e
    simp only [Option.some.injEq, Prod.mk.injEq] at e
    rw [← e.2]
    exact ⟨hc, hp⟩
  | succ todo ih =>
    unfold evictLoop at e
    split at e
    · cases e
    · rename_i hm hhm
      split at e
      · simp only [Option.some.injEq, Prod.mk.injEq] at e
        rw [← e.2]
        exact ⟨hc, hp⟩
      · rename_i front rest hq
        split at e
        · rename_i s2 heq
          simp only [bind, Option.bind_eq_some, Option.some.injEq] at heq
          obtain ⟨olditem, hold, v, hv, ⟨b2, sa⟩, hadd, sb, hsb, sc, hsc, sd, hsd, hm5, hhm5,
            heq⟩ := heq
          obtain ⟨olditem1, _, hold1, ho, _⟩ := hp h hm front hhm (by rw [hq]; simp)
          rw [hold] at hold1
          cases hold1
          have c0 := hc.setPageCache h hm { hm.page_cache_ with queue_ := rest } hhm
          have p0 := hp.pageCacheSet h hm { hm.page_cache_ with queue_ := rest } hhm rfl
            (fun x hx => by rw [hq]; exact List.mem_cons_of_mem _ hx)
          have f0 : Frame V2HMapMetadata.AnyChange HybridMemory.PageKept s
              (s.setHmem h { hm with page_cache_ := { hm.page_cache_ with queue_ := rest } }) :=
            frame_setHmem pageKept_ramOK.r_refl pageKept_ramOK.h_refl s h hm _ hhm
              ⟨rfl, fun x hx => by rw [hq]; exact List.mem_cons_of_mem _ hx⟩
          have c1 := RAMCache.ramAddPage_consistent _ sa h _ _ _ b2 _ _ c0
            (f0.ownRecord h _ _ ho) hadd
          have p1 := Frame.pageEntries
            (RAMCache.ramAddPage_frame pageKept_ramOK _ sa h _ _ _ b2 _ _ hadd) p0
          have c2 := c1.setPageFlags _ _ hsb (fun _ => rfl)
          have p2 := p1.setV2h _ _ hsb
          have c3 := c2.setPage _ _ hsc
          have p3 := p2.pageSet c2.wellIndexed _ _ hsc
          have c4 := c3.setPage _ _ hsd
          have p4 := p3.pageSet c3.wellIndexed _ _ hsd
          have c5 := c4.setPageCache h hm5
            { hm5.page_cache_ with item_list_ := hm5.page_cache_.item_list_.Free front } hhm5
          have p5 := p4.pageCacheSet h hm5
            { hm5.page_cache_ with item_list_ := hm5.page_cache_.item_list_.Free front } hhm5 rfl
            (fun _ hx => hx)
          rw [heq] at c5 p5
          exact ih _ s2 c5 p5 e
        · cases e

/-- `PageCache::AddPage` for a page with its own record and tier keeps the
agreement of the RAM caches with the records and the entries of the page
caches with their own records. -/
theorem pageAddPage_consistent (s s1 : System) (h page sz : Nat) (b b1 : Bool)
    (ref : Nat × Nat) (id : Nat) (hc : s.RamConsistent) (hp : s.PageEntries)
    (ho : s.OwnRecord h page ref) (e : AddPage s h page sz b ref id = some (b1, s1)) :
    s1.RamConsistent ∧ s1.PageEntries := by
  unfold AddPage at e
  simp only [bind, Option.bind_eq_some] at e
  obtain ⟨hm, hhm, e⟩ := e
  have tail : ∀ (sa sb : System) (hm1 hm2 : HybridMemory) (item : Nat),
      sa.RamConsistent → sa.PageEntries → sa.OwnRecord h page ref →
      sa.hmem h = some hm1 →
      (sa.setHmem h { hm1 with
        page_cache_ := { hm1.page_cache_ with
          items := hm1.page_cache_.items.set item
            { page := page, size := sz, vaddr_range_id := id, v2hmap := ref } } }).setV2h ref
        (fun v => { v with exist_page_cache := true, dirty_page_cache := b }) = some sb →
      item < hm1.page_cache_.items.length →
      sb.hmem h = some hm2 →
      (sb.setHmem h { hm2 with
        page_cache_ := { hm2.page_cache_ with
          queue_ := hm2.page_cache_.queue_ ++ [item] } }).RamConsistent ∧
      (sb.setHmem h { hm2 with
        page_cache_ := { hm2.page_cache_ with
          queue_ := hm2.page_cache_.queue_ ++ [item] } }).PageEntries := by
    intro sa sb hm1 hm2 item hca hpa hoa hhm1 hsb hlt hhm2
    have c1 := hca.setPageCache h hm1
      { hm1.page_cache_ with
        items := hm1.page_cache_.items.set item
          { page := page, size := sz, vaddr_range_id := id, v2hmap := ref } } hhm1
    have c2 := c1.setPageFlags _ _ hsb (fun _ => rfl)
    refine ⟨c2.setPageCache h hm2 _ hhm2, ?_⟩
    obtain ⟨s2, hs2, hsb2⟩ := setV2h_setHmem sa sb h _ ref _ hsb
    have hhmx : hm2 = { hm1 with
        page_cache_ := { hm1.page_cache_ with
          items := hm1.page_cache_.items.set item
            { page := page, size := sz, vaddr_range_id := id, v2hmap := ref } } } := by
      have h2 : s2.hmem h = some hm1 := by rw [hmem_setV2h sa s2 ref _ hs2]; exact hhm1
      have := hmem_setHmem s2 h hm1
        { hm1 with
          page_cache_ := { hm1.page_cache_ with
            items := hm1.page_cache_.items.set item
              { page := page, size := sz, vaddr_range_id := id, v2hmap := ref } } } h2
      rw [← hsb2, hhm2] at this
      exact Option.some.inj this
    have fa : Frame V2HMapMetadata.AnyChange (fun _ _ => True) sa
        (sb.setHmem h { hm2 with
          page_cache_ := { hm2.page_cache_ with
            queue_ := hm2.page_cache_.queue_ ++ [item] } }) :=
      anyFrame_trans
        (anyFrame_trans (anyFrame_setHmem sa h hm1 _ hhm1) (anyFrame_setV2h _ sb ref _ hsb))
        (anyFrame_setHmem sb h hm2 _ hhm2)
    obtain ⟨v0, hv0, hv2, hother⟩ := setV2h_v2h sa s2 ref _ hs2
    have hvb : ∀ r, sb.v2h r = s2.v2h r := by
      intro r
      rw [hsb2, v2h_setHmem]
    intro k hmk front hk hfront
    by_cases hkh : h = k
    · subst hkh
      rw [hmem_setHmem sb h hm2 _ hhm2] at hk
      cases hk
      have hfront2 : front ∈ hm2.page_cache_.queue_ ++ [item] := hfront
      by_cases hfi : front = item
      · subst hfi
        refine ⟨{ page := page, size := sz, vaddr_range_id := id, v2hmap := ref },
          { v0 with exist_page_cache := true, dirty_page_cache := b }, ?_,
          fa.ownRecord h page ref hoa, ?_⟩
        · show hm2.page_cache_.items[front]? = _
          rw [hhmx]
          exact List.getElem?_set_self hlt
        · rw [v2h_setHmem, hvb]
          exact hv2
      · rcases List.mem_append.1 hfront2 with hq | hq
        · have hq1 : front ∈ hm1.page_cache_.queue_ := by
            rw [hhmx] at hq
            exact hq
          obtain ⟨olditem, v, hit, hoo, hv⟩ := hpa h hm1 front hhm1 hq1
          obtain ⟨v1, hv1, _⟩ := fa.v2h _ v hv
          refine ⟨olditem, v1, ?_, fa.ownRecord h _ _ hoo, hv1⟩
          show hm2.page_cache_.items[front]? = _
          rw [hhmx]
          show (hm1.page_cache_.items.set item _)[front]? = _
          rw [List.getElem?_set_ne (Ne.symm hfi)]
          exact hit
        · exact absurd (List.mem_singleton.1 hq) hfi
    · rw [hmem_setHmem_ne sb h k _ hkh, hsb2, hmem_setHmem_ne s2 h k _ hkh,
        hmem_setV2h sa s2 ref _ hs2] at hk
      obtain ⟨olditem, v, hit, hoo, hv⟩ := hpa k hmk front hk hfront
      obtain ⟨v1, hv1, _⟩ := fa.v2h _ v hv
      exact ⟨olditem, v1, hit, fa.ownRecord k _ _ hoo, hv1⟩
  split at e
  · rename_i item fl hnew
    simp only [Option.some_bind, Option.bind_eq_some, Option.some.injEq, Prod.mk.injEq] at e
    obtain ⟨hm1, hhm1, u, hchk, sb, hsb, hm2, hhm2, _, e⟩ := e
    rw [← e]
    have c0 := hc.setPageCache h hm { hm.page_cache_ with item_list_ := fl } hhm
    have p0 := hp.pageCacheSet h hm { hm.page_cache_ with item_list_ := fl } hhm rfl
      (fun _ hx => hx)
    have f0 := anyFrame_setHmem s h hm
      { hm with page_cache_ := { hm.page_cache_ with item_list_ := fl } } hhm
    have hlt := check_some _ u hchk
    simp only [decide_eq_true_eq] at hlt
    exact tail _ sb hm1 hm2 item c0 p0 (f0.ownRecord h page ref ho) hhm1 hsb hlt hhm2
  · simp only [Option.bind_eq_some] at e
    obtain ⟨⟨n, sc⟩, hev, _, _, hmc, hhmc, e⟩ := e
    obtain ⟨cc, pc⟩ := pageEvictLoop_consistent h 10 0 n s sc hc hp hev
    have fev := pageEvictLoop_kept h 10 0 n s sc hc.wellIndexed hc.wellFormed hev
    split at e
    · rename_i item fl hnew
      simp only [Option.some_bind, Option.bind_eq_some, Option.some.injEq, Prod.mk.injEq] at e
      obtain ⟨hm1, hhm1, u, hchk, sb, hsb, hm2, hhm2, _, e⟩ := e
      rw [← e]
      have c0 := cc.setPageCache h hmc { hmc.page_cache_ with item_list_ := fl } hhmc
      have p0 := pc.pageCacheSet h hmc { hmc.page_cache_ with item_list_ := fl } hhmc rfl
        (fun _ hx => hx)
      have f0 := anyFrame_setHmem sc h hmc
        { hmc with page_cache_ := { hmc.page_cache_ with item_list_ := fl } } hhmc
      have hlt := check_some _ u hchk
      simp only [decide_eq_true_eq] at hlt
      exact tail _ sb hm1 hm2 item c0 p0 (f0.ownRecord h page ref (fev.ownRecord h page ref ho))
        hhm1 hsb hlt hhm2
    · simp at e

end PageCache

namespace System

variable {R : V2HMapMetadata → V2HMapMetadata → Prop} {H : HybridMemory → HybridMemory → Prop}

/-- `LoadDataFromHybridMemory` is within the frame of the flash cache. -/
theorem LoadDataFromHybridMemory_flash (ok : FlashOK R H) (s s1 : System) (h page : Nat)
    (r : VAddressRange) (ref : Nat × Nat) (b1 : Bool) (hw : s.WellIndexed)
    (e : LoadDataFromHybridMemory s h page r ref = some (b1, s1)) : Frame R H s s1 := by
  unfold LoadDataFromHybridMemory at e
  simp only [bind, Option.bind_eq_some] at e
  obtain ⟨v, hv, _, _, e⟩ := e
  split at e
  · simp only [Option.bind_eq_some, Option.some.injEq, Prod.mk.injEq] at e
    obtain ⟨hm, hhm, ⟨item, rc1⟩, hget, it, _, sa, hsa, _, e⟩ := e
    rw [← e]
    have f1 := frame_setHmem ok.r_refl ok.h_refl s h hm { hm with ram_cache_ := rc1 } hhm
      (ok.h_lru hm item rc1 (FlashCache.getItem_update _ _ _ _ hget))
    exact Frame.frameTrans ok.r_trans ok.h_trans f1
      (frame_fillPage ok.r_refl ok.h_refl _ sa page _ (f1.wellIndexed hw) hsa)
  · split at e
    · simp only [Option.bind_eq_some] at e
      obtain ⟨⟨b2, sa⟩, hl, e⟩ := e
      split at e
      · cases e
      · rename_i sb heq
        cases heq
        simp only [Option.some.injEq, Prod.mk.injEq] at e
        rw [← e.2]
        exact FlashCache.LoadPage_frame ok s _ h _ _ _ _ _ _ hw hl
    · split at e
      · simp only [Option.bind_eq_some] at e
        obtain ⟨_, _, ⟨b2, sa⟩, hl, e⟩ := e
        split at e
        · cases e
        · rename_i sb heq
          cases heq
          simp only [Option.some.injEq, Prod.mk.injEq] at e
          rw [← e.2]
          exact FlashCache.LoadFromHDDFile_frame ok.r_refl ok.h_refl s _ r page _ hw hl
      · simp only [Option.some.injEq, Prod.mk.injEq] at e
        rw [← e.2]
        exact Frame.frameRefl ok.r_refl ok.h_refl s

/-- The range, the record and the tier that `SigSegvAction` finds for an
address are the page's own. -/
theorem fault_ownRecord (s : System) (fault_address h idx : Nat) (r : VAddressRange)
    (hw : s.WellIndexed) (ha : s.Aligned)
    (hr : s.vaddr_range_group.FindVAddressRange (fault_address / PAGE_SIZE * PAGE_SIZE) = some r)
    (hh : s.GetHybridMemory (fault_address - r.address_) = some h)
    (hidx : r.GetV2HMapMetadata (fault_address - r.address_) = some idx) :
    s.OwnRecord h (fault_address / PAGE_SIZE * PAGE_SIZE) (r.vaddress_range_id_, idx) := by
  unfold VAddressRangeGroup.FindVAddressRange at hr
  split at hr
  · rename_i id hfind
    have hp := List.find?_some hfind
    rw [hr] at hp
    simp only [Bool.and_eq_true, decide_eq_true_eq] at hp
    have hid := hw id r hr
    have hal := ha id r hr
    unfold VAddressRange.GetV2HMapMetadata at hidx
    split at hidx
    · cases hidx
    · simp only [Option.some.injEq] at hidx
      have hshift : (fault_address - r.address_) >>> PAGE_BITS =
          (fault_address - r.address_) / 4096 := by
        rw [Nat.shiftRight_eq_div_pow]
        rfl
      rw [hshift] at hidx
      have hps : PAGE_SIZE = 4096 := rfl
      rw [hps] at hp hal ⊢
      refine ⟨r, by rw [hid]; exact hr, ?_, ?_⟩
      · show fault_address / 4096 * 4096 = r.address_ + idx * 4096
        omega
      · rw [← hh]
        unfold GetHybridMemory
        show (if s.number_hmem_instances_ = 0 then none
          else some (((idx * 4096) >>> PAGE_BITS) >>> VADDRESS_CHUNK_BITS %
            s.number_hmem_instances_ % 2 ^ 32)) = _
        have h1 : (idx * 4096) >>> PAGE_BITS = idx := by
          rw [Nat.shiftRight_eq_div_pow]
          show idx * 4096 / 4096 = idx
          omega
        have h2 : (fault_address - r.address_) >>> PAGE_BITS = idx := by
          rw [Nat.shiftRight_eq_div_pow]
          show (fault_address - r.address_) / 4096 = idx
          exact hidx
        rw [h1, h2]
  · cases hr

/-- `SigSegvAction` keeps the agreement of the RAM caches with the records and
the entries of the page caches with their own records. -/
theorem SigSegvAction_consistent (s s1 : System) (address : Nat) (rw_ : Bool)
    (hc : s.RamConsistent) (hp : s.PageEntries) (e : SigSegvAction s address rw_ = some s1) :
    s1.RamConsistent ∧ s1.PageEntries := by
  unfold SigSegvAction at e
  simp only [bind, Option.bind_eq_some] at e
  obtain ⟨_, _, r, hr, h, hh, idx, hidx, v, hv, e⟩ := e
  have ho := fault_ownRecord s address h idx r hc.wellIndexed hc.aligned hr hh hidx
  split at e
  · rename_i hex
    split at e
    · simp only [Option.some.injEq] at e
      rw [← e]
      exact ⟨hc, hp⟩
    · simp only [Option.bind_eq_some] at e
      obtain ⟨sa, hsa, e⟩ := e
      have ca := hc.setPage _ _ hsa
      have pa := hp.pageSet hc.wellIndexed _ _ hsa
      exact ⟨ca.setPageFlags _ _ e (fun _ => rfl), pa.setV2h _ _ e⟩
  · simp only [Option.bind_eq_some] at e
    obtain ⟨sa, hsa, ⟨b2, sb⟩, hl, e⟩ := e
    have ca := hc.setPage _ _ hsa
    have pa := hp.pageSet hc.wellIndexed _ _ hsa
    have fa := (frame_setPage sameRam_flashOK.r_refl sameRam_flashOK.h_refl s sa _ _
      hc.wellIndexed hsa).1
    have fb := LoadDataFromHybridMemory_flash sameRam_flashOK sa sb h _ r _ b2 ca.wellIndexed hl
    have cb := Frame.ramConsistent fb ca
    have pb := Frame.pageEntries
      (LoadDataFromHybridMemory_flash pageKept_ramOK.toFlashOK sa sb h _ r _ b2
        ca.wellIndexed hl) pa
    have hob := fb.ownRecord h _ _ (fa.ownRecord h _ _ ho)
    split at e
    · simp only [Option.bind_eq_some, Option.some.injEq] at e
      obtain ⟨sc, hsc, ⟨b3, sd⟩, hadd, e⟩ := e
      rw [← e]
      have cc := cb.setPage _ _ hsc
      have pc := pb.pageSet cb.wellIndexed _ _ hsc
      have fc := (frame_setPage sameRam_flashOK.r_refl sameRam_flashOK.h_refl sb sc _ _
        cb.wellIndexed hsc).1
      exact PageCache.pageAddPage_consistent sc sd h _ _ _ b3 _ _ cc pc
        (fc.ownRecord h _ _ hob) hadd
    · simp only [Option.bind_eq_some, Option.some_bind, Option.some.injEq] at e
      obtain ⟨⟨b3, sd⟩, hadd, e⟩ := e
      rw [← e]
      exact PageCache.pageAddPage_consistent sb sd h _ _ _ b3 _ _ cb pb hob hadd

end System

namespace VAddressRange

/-- The range that `Init(size, hdd_filename, hdd_file_offset)` makes active was
not active, and starts at the address given. -/
theorem initFile_active (r r1 : VAddressRange) (disk disk1 : List HddFile)
    (address size file off : Nat)
    (e : r.InitFile disk address size file off = some (true, r1, disk1)) :
    r.is_active_ = false ∧ r1.is_active_ = true ∧ r1.address_ = address := by
  unfold InitFile at e
  split at e
  · cases e
  · rename_i hna
    have hact : r.is_active_ = false := by
      cases hx : r.is_active_
      · rfl
      · exact absurd hx hna
    split at e
    · cases e
    · split at e
      · cases e
      · simp only at e
        split at e
        · cases e
        · cases e
        · rename_i r0 h0
          unfold VAddressRange.Init at h0
          split at h0
          · cases h0
          · split at h0
            · cases h0
            · simp only [Option.some.injEq, Prod.mk.injEq, true_and] at h0
              subst h0
              simp only [Option.some.injEq, Prod.mk.injEq, true_and] at e
              obtain ⟨e, _⟩ := e
              subst e
              refine ⟨hact, rfl, ?_⟩
              split_ifs <;> rfl

end VAddressRange

namespace System

/-- What `hmem_map` changes: one range that was not active. -/
theorem hmem_map_form (s s1 : System) (address size file off a : Nat)
    (e : s.hmem_map address size file off = some (a, s1)) :
    ∃ (i : Nat) (r r1 : VAddressRange),
      s.vaddr_range_group.vaddr_range_list_[i]? = some r ∧ r.is_active_ = false ∧
      r1.is_active_ = true ∧ r1.address_ = address ∧
      s1.vaddr_range_group.vaddr_range_list_ = s.vaddr_range_group.vaddr_range_list_.set i r1 ∧
      s1.hmem_instances_ = s.hmem_instances_ ∧
      s1.number_hmem_instances_ = s.number_hmem_instances_ := by
  unfold hmem_map at e
  simp only [bind, Option.bind_eq_some, Option.some.injEq, Prod.mk.injEq] at e
  obtain ⟨_, _, i, _, r, hr, ⟨ok, r1, disk⟩, hi, u, hok, _, e⟩ := e
  have hok2 := check_some _ u hok
  simp only at hok2
  subst hok2
  obtain ⟨h1, h2, h3⟩ := VAddressRange.initFile_active r r1 s.disk disk address size file off hi
  subst e
  exact ⟨i, r, r1, hr, h1, h2, h3, rfl, rfl, rfl⟩

/-- `hmem_map` for memory that starts at the start of a page keeps the
agreement of the RAM caches with the records and the entries of the page
caches with their own records. -/
theorem hmem_map_consistent (s s1 : System) (address size file off a : Nat)
    (hal : address % PAGE_SIZE = 0) (hc : s.RamConsistent) (hp : s.PageEntries)
    (e : s.hmem_map address size file off = some (a, s1)) :
    s1.RamConsistent ∧ s1.PageEntries := by
  obtain ⟨hw1, hrec⟩ := hmem_map_records s s1 address size file off a hc.wellIndexed e
  obtain ⟨i, r, r1, hr, hina, hact, haddr, hlist, hinst, hnum⟩ :=
    hmem_map_form s s1 address size file off a e
  have hlt : i < s.vaddr_range_group.vaddr_range_list_.length :=
    (List.getElem?_eq_some_iff.mp hr).1
  have hempty := hc.inactive i r hr hina
  have hne : ∀ (ref : Nat × Nat) (v : V2HMapMetadata), s.v2h ref = some v → i ≠ ref.1 := by
    intro ref v hv hcn
    unfold System.v2h at hv
    rw [← hcn, hr] at hv
    simp only [hempty, List.getElem?_nil] at hv
    cases hv
  have hkeep : ∀ (ref : Nat × Nat) (v : V2HMapMetadata), s.v2h ref = some v →
      s1.v2h ref = some v ∧ s1.vaddr_range_group.vaddr_range_list_[ref.1]? =
        s.vaddr_range_group.vaddr_range_list_[ref.1]? := by
    intro ref v hv
    have h1 := hne ref v hv
    have h2 : s1.vaddr_range_group.vaddr_range_list_[ref.1]? =
        s.vaddr_range_group.vaddr_range_list_[ref.1]? := by
      rw [hlist, List.getElem?_set_ne h1]
    refine ⟨?_, h2⟩
    unfold System.v2h at hv ⊢
    rw [h2]
    exact hv
  have hhm : ∀ k, s1.hmem k = s.hmem k := by
    intro k
    unfold System.hmem
    rw [hinst]
  have hown : ∀ (h page : Nat) (ref : Nat × Nat) (v : V2HMapMetadata), s.v2h ref = some v →
      s.OwnRecord h page ref → s1.OwnRecord h page ref := by
    intro h page ref v hv ho
    obtain ⟨r0, hr0, hp0, hh0⟩ := ho
    refine ⟨r0, by rw [(hkeep ref v hv).2]; exact hr0, hp0, ?_⟩
    unfold GetHybridMemory at hh0 ⊢
    rw [hnum]
    exact hh0
  refine ⟨⟨hw1, ?_, ?_, ?_, ?_, ?_⟩, ?_⟩
  · intro k hm hk
    rw [hhm] at hk
    exact hc.wellFormed k hm hk
  · intro k hm j hk hj
    rw [hhm] at hk
    obtain ⟨it, ref, v, hit, href, ho, hv, hflag⟩ := hc.entries k hm j hk hj
    exact ⟨it, ref, v, hit, href, hown k _ ref v hv ho, (hkeep ref v hv).1, hflag⟩
  · intro ref v1 hv1 hflag
    rcases hrec ref v1 hv1 with h1 | h1 | h1
    · obtain ⟨k, hm, j, it, hk, hj, hit, href⟩ := hc.complete ref v1 h1 hflag
      exact ⟨k, hm, j, it, by rw [hhm]; exact hk, hj, hit, href⟩
    · rw [h1] at hflag
      cases hflag
    · rw [h1] at hflag
      cases hflag
  · intro k x hx
    rw [hlist] at hx
    by_cases hk : i = k
    · subst hk
      rw [List.getElem?_set_self hlt] at hx
      cases hx
      rw [haddr]
      exact hal
    · rw [List.getElem?_set_ne hk] at hx
      exact hc.aligned k x hx
  · intro k x hx hxa
    rw [hlist] at hx
    by_cases hk : i = k
    · subst hk
      rw [List.getElem?_set_self hlt] at hx
      cases hx
      rw [hact] at hxa
      cases hxa
    · rw [List.getElem?_set_ne hk] at hx
      exact hc.inactive k x hx hxa
  · intro k hm front hk hfront
    rw [hhm] at hk
    obtain ⟨olditem, v, hit, ho, hv⟩ := hp k hm front hk hfront
    exact ⟨olditem, v, hit, hown k _ _ v hv ho, (hkeep _ v hv).1⟩

/-- The state after `InitHybridMemory`: no cache has an entry and no range has
a record. -/
theorem init_consistent (disk : List HddFile) (p r m n : Nat) (s : System)
    (e : InitHybridMemory disk p r m n = some s) : s.RamConsistent ∧ s.PageEntries := by
  obtain ⟨hw, hnone⟩ := init_records disk p r m n s e
  have hg := init_group disk p r m n s e
  have hram : ∀ (k : Nat) (hm : HybridMemory), s.hmem k = some hm →
      hm.ram_cache_.lru_list_ = [] := by
    intro k hm hk
    unfold InitHybridMemory at e
    split at e
    · split at e
      · cases e
      · rename_i l hl
        cases e
        have hmem : hm ∈ l := List.mem_iff_getElem?.mpr ⟨k, hk⟩
        obtain ⟨j, hj⟩ := initInstances_mem p r m n n 0 l hl hm hmem
        have hri := hmemInit_ram _ _ _ _ hm hj
        unfold RAMCache.Init at hri
        simp only at hri
        split at hri
        · simp only [Option.some.injEq] at hri
          rw [← hri]
        · cases hri
    · cases e
  have hrange : ∀ (i : Nat) (x : VAddressRange),
      s.vaddr_range_group.vaddr_range_list_[i]? = some x →
      x.address_ = 0 ∧ x.v2h_map_ = [] := by
    intro i x hx
    rw [hg] at hx
    rw [group_init_getElem? i x hx]
    exact ⟨rfl, rfl⟩
  refine ⟨⟨hw, init_ramWellFormed disk p r m n s e, ?_, ?_, ?_, ?_⟩, ?_⟩
  · intro k hm j hk hj
    rw [hram k hm hk] at hj
    cases hj
  · intro ref v hv
    rw [hnone ref] at hv
    cases hv
  · intro i x hx
    rw [(hrange i x hx).1]
    rfl
  · intro i x hx _
    exact (hrange i x hx).2
  · intro k hm front hk hfront
    obtain ⟨hq, _⟩ := init_pageCache disk p r m n s e k hm hk
    rw [hq] at hfront
    cases hfront

/-- In a state that the library reaches when the caches get the arguments that
the library gives them, the RAM caches agree with the records and the entries
of the page caches have their own records. -/
theorem callReachable_consistent (s : System) (hr : CallReachable s) :
    s.RamConsistent ∧ s.PageEntries := by
  induction hr with
  | init disk p r m n s e => exact init_consistent disk p r m n s e
  | map s s1 address size file off a _ hal e ih =>
    exact hmem_map_consistent s s1 address size file off a hal ih.1 ih.2 e
  | fault s s1 address rw_ _ e ih => exact SigSegvAction_consistent s s1 address rw_ ih.1 ih.2 e
  | pageEvict s s1 h n _ e ih => exact PageCache.pageEvictLoop_consistent h 10 0 n s s1 ih.1 ih.2 e
  | ramAdd s s1 h page sz d ref id b _ ho e ih =>
    exact ⟨RAMCache.ramAddPage_consistent s s1 h page sz d b ref id ih.1 ho e,
      Frame.pageEntries (RAMCache.ramAddPage_frame pageKept_ramOK s s1 h page sz d b ref id e)
        ih.2⟩
  | ramGet s h hm a item rc1 _ hh e ih =>
    exact ⟨RAMCache.getItem_consistent s h a item hm rc1 ih.1 hh e,
      Frame.pageEntries
        (frame_setHmem pageKept_ramOK.r_refl pageKept_ramOK.h_refl s h hm _ hh
          (pageKept_ramOK.h_ram hm rc1)) ih.2⟩
  | ramRemove s s1 h item _ e ih =>
    exact ⟨RAMCache.Remove_consistent s s1 h item ih.1 e,
      Frame.pageEntries (RAMCache.Remove_frame pageKept_ramOK s s1 h item e) ih.2⟩
  | ramEvict s s1 h n _ e ih =>
    exact ⟨RAMCache.ramEvictItems_consistent s s1 h n ih.1 e,
      Frame.pageEntries (RAMCache.ramEvictItems_frame pageKept_ramOK s s1 h n e) ih.2⟩
  | flashEvict s s1 h k n _ e ih =>
    exact ⟨Frame.ramConsistent (FlashCache.flashEvictItems_frame sameRam_flashOK s s1 h k n e)
        ih.1,
      Frame.pageEntries
        (FlashCache.flashEvictItems_frame pageKept_ramOK.toFlashOK s s1 h k n e) ih.2⟩
  | sortTies s h hm ties _ hh ih =>
    exact ⟨Frame.ramConsistent
        (frame_setHmem sameRam_flashOK.r_refl sameRam_flashOK.h_refl s h hm _ hh
          (sameRam_flashOK.h_flash hm _)) ih.1,
      Frame.pageEntries
        (frame_setHmem pageKept_ramOK.r_refl pageKept_ramOK.h_refl s h hm _ hh
          (pageKept_ramOK.h_flash hm _)) ih.2⟩

end System

namespace RAMCache
open System

/-- C26: in a state that the library reaches when the caches get the arguments
that the library gives them (`InitHybridMemory`, `hmem_map` for memory that
starts at the start of a page, the fault handler, `RAMCache::AddPage` for a
page with its own record and tier, `RAMCache::GetItem`, `RAMCache::Remove`,
`RAMCache::EvictItems`, and the evictions of the page cache and of the flash
cache), for the RAM cache of every tier: the entries of the hash table are the
entries of the LRU list; the items that are not in the free list are the
entries of the LRU list; the three lists have no repetition; and every entry
of the LRU list holds a page with its own record, in the tier of the page, and
this record has `exist_ram_cache = 1`. -/
theorem C26_ram_hash_lru_agreement (s : System) (hr : CallReachable s) (h : Nat)
    (hm : HybridMemory) (hhm : s.hmem h = some hm) :
    (∀ i, i ∈ hm.ram_cache_.hash_table_.chain ↔ i ∈ hm.ram_cache_.lru_list_) ∧
    (∀ i, i < hm.ram_cache_.items.length →
      (i ∉ hm.ram_cache_.free_list_.list_ ↔ i ∈ hm.ram_cache_.lru_list_)) ∧
    (∀ i, i ∈ hm.ram_cache_.free_list_.list_ → i < hm.ram_cache_.items.length) ∧
    hm.ram_cache_.hash_table_.chain.Nodup ∧ hm.ram_cache_.lru_list_.Nodup ∧
    hm.ram_cache_.free_list_.list_.Nodup ∧
    ∀ i, i ∈ hm.ram_cache_.lru_list_ →
      ∃ (it : RAMCacheItem) (ref : Nat × Nat) (v : V2HMapMetadata),
        hm.ram_cache_.items[i]? = some it ∧ it.v2hmap = some ref ∧
        s.OwnRecord h it.hash_key ref ∧ s.v2h ref = some v ∧ v.exist_ram_cache = true := by
  obtain ⟨hc, _⟩ := callReachable_consistent s hr
  have wf := hc.wellFormed h hm hhm
  refine ⟨wf.chain_lru, ?_, ?_, wf.chain_nodup, wf.lru_nodup, wf.free_nodup, ?_⟩
  · intro i hi
    rw [wf.free_lru i]
    constructor
    · intro hn
      by_contra hc2
      exact hn ⟨hi, hc2⟩
    · intro h1 h2
      exact h2.2 h1
  · intro i hi
    exact ((wf.free_lru i).1 hi).1
  · intro i hi
    exact hc.entries h hm i hhm hi

set_option maxRecDepth 100000 in
/-- C26 applies to the state after a write fault on the first page of a range
and a call of `PageCache::EvictItems`, which moves the page to the RAM cache of
2 pages: the LRU list and the hash table hold the item 1, the free list holds
the item 0, and the record of the page has `exist_ram_cache`. -/
theorem C26_ram_hash_lru_agreement_witness :
    ∃ (s : System) (hm : HybridMemory) (it : RAMCacheItem) (v : V2HMapMetadata),
      CallReachable s ∧ s.hmem 0 = some hm ∧
      hm.ram_cache_.lru_list_ = [1] ∧ hm.ram_cache_.hash_table_.chain = [1] ∧
      hm.ram_cache_.free_list_.list_ = [0] ∧ hm.ram_cache_.items[1]? = some it ∧
      it.hash_key = 65536 ∧ it.v2hmap = some (0, 0) ∧ s.v2h (0, 0) = some v ∧
      v.exist_ram_cache = true := by
  have e : ((InitHybridMemory
        [{ st_size := 8 * 4096, content := [100, 101, 102, 103, 104, 105, 106, 107] }]
        (3 * 4096) (2 * 4096) (1 <<< 20) 1).bind (fun s0 =>
      (s0.hmem_map 65536 (8 * 4096) 0 0).bind (fun r =>
        (r.2.SigSegvAction 65536 true).bind (fun sa =>
          (PageCache.EvictItems sa 0).bind (fun q =>
            (q.2.hmem 0).bind (fun hm =>
              (hm.ram_cache_.items[1]?).bind (fun it =>
                some (hm.ram_cache_.lru_list_, hm.ram_cache_.hash_table_.chain,
                  hm.ram_cache_.free_list_.list_, it.hash_key,
                  it.v2hmap == some (0, 0))))))))) =
      some ([1], [1], [0], 65536, true) := by
    rw [init_of _ _ _ _ (by decide),
      flashInit_of (1 <<< 20) 256 _ (by decide) PageAllocationTable.Init_256]
    decide!
  simp only [Option.bind_eq_some] at e
  obtain ⟨s0, h0, ⟨a, sm⟩, h1, sa, h2, ⟨n0, s⟩, h3, hm, hhm, it, hit, e⟩ := e
  simp only [Option.some.injEq, Prod.mk.injEq] at e
  obtain ⟨e1, e2, e3, e4, e5⟩ := e
  simp only [beq_iff_eq] at e5
  simp only at hhm
  have hr : CallReachable s :=
    CallReachable.pageEvict sa s 0 n0
      (CallReachable.fault sm sa _ _
        (CallReachable.map s0 sm _ _ _ _ a (CallReachable.init _ _ _ _ _ s0 h0) (by decide) h1)
        h2) h3
  obtain ⟨_, _, _, _, _, _, hent⟩ := C26_ram_hash_lru_agreement s hr 0 hm hhm
  obtain ⟨it1, ref, v, hit1, href, _, hv, hflag⟩ := hent 1 (by rw [e1]; simp)
  rw [hit] at hit1
  cases hit1
  rw [e5] at href
  cases href
  exact ⟨s, hm, it, v, hr, hhm, e1, e2, e3, hit, e4, e5, hv, hflag⟩

end RAMCache

/-! ## The dirty flag of a page that goes to the next cache -/

namespace System

/-- P2 of the specification holds of every record of a state that the library
reaches when the caches get the arguments that the library gives them. -/
theorem callReachable_dirtyOK (s : System) (hr : CallReachable s) (ref : Nat × Nat)
    (v : V2HMapMetadata) (hv : s.v2h ref = some v) : v.DirtyOK := by
  induction hr generalizing ref v with
  | init disk p r m n s e =>
    rw [(init_records disk p r m n s e).2 ref] at hv
    cases hv
  | map s s1 address size file off a hs _ e ih =>
    rcases (hmem_map_records s s1 address size file off a
      (callReachable_consistent s hs).1.wellIndexed e).2 ref v hv with h1 | h1 | h1
    · exact ih ref v h1
    · subst h1
      exact ⟨(fun k => by cases k), (fun k => by cases k), (fun k => by cases k)⟩
    · subst h1
      exact ⟨(fun k => by cases k), (fun k => by cases k), (fun k => by cases k)⟩
  | fault s s1 a rw_ hs e ih =>
    obtain ⟨v0, hv0, hR⟩ :=
      (TierStep.frame dirtyOK_pageOK (callReachable_consistent s hs).1.wellIndexed
        (TierStep.fault s s1 a rw_ e)).v2h_back ref v hv
    exact hR (ih ref v0 hv0)
  | pageEvict s s1 h n hs e ih =>
    obtain ⟨v0, hv0, hR⟩ :=
      (TierStep.frame dirtyOK_pageOK (callReachable_consistent s hs).1.wellIndexed
        (TierStep.pageEvict s s1 h n e)).v2h_back ref v hv
    exact hR (ih ref v0 hv0)
  | ramAdd s s1 h page sz d ref1 id b hs _ e ih =>
    obtain ⟨v0, hv0, hR⟩ :=
      (TierStep.frame dirtyOK_pageOK (callReachable_consistent s hs).1.wellIndexed
        (TierStep.ramAdd s s1 h page sz d ref1 id b e)).v2h_back ref v hv
    exact hR (ih ref v0 hv0)
  | ramGet s h hm va item rc1 hs _ _ ih =>
    rw [v2h_setHmem] at hv
    exact ih ref v hv
  | ramRemove s s1 h item hs e ih =>
    obtain ⟨v0, hv0, hR⟩ :=
      (TierStep.frame dirtyOK_pageOK (callReachable_consistent s hs).1.wellIndexed
        (TierStep.ramRemove s s1 h item e)).v2h_back ref v hv
    exact hR (ih ref v0 hv0)
  | ramEvict s s1 h n hs e ih =>
    obtain ⟨v0, hv0, hR⟩ :=
      (TierStep.frame dirtyOK_pageOK (callReachable_consistent s hs).1.wellIndexed
        (TierStep.ramEvict s s1 h n e)).v2h_back ref v hv
    exact hR (ih ref v0 hv0)
  | flashEvict s s1 h k n hs e ih =>
    obtain ⟨v0, hv0, hR⟩ :=
      (TierStep.frame dirtyOK_pageOK (callReachable_consistent s hs).1.wellIndexed
        (TierStep.flashEvict s s1 h k n e)).v2h_back ref v hv
    exact hR (ih ref v0 hv0)
  | sortTies s h hm ties hs _ ih =>
    rw [v2h_setHmem] at hv
    exact ih ref v hv

end System

namespace RAMCache
open System

/-- `RAMCache::AddPage` that accepts a page with its own record and tier: the
record has `exist_ram_cache` afterwards, and `dirty_ram_cache` is `is_dirty` or
the `dirty_ram_cache` of before. -/
theorem ramAddPage_dirty (s s1 : System) (h page sz : Nat) (b : Bool) (ref : Nat × Nat)
    (id : Nat) (v : V2HMapMetadata) (hc : s.RamConsistent) (ho : s.OwnRecord h page ref)
    (hv : s.v2h ref = some v) (hd : v.DirtyOK)
    (e : AddPage s h page sz b ref id = some (true, s1)) :
    ∃ va, s1.v2h ref = some va ∧ va.exist_ram_cache = true ∧
      va.dirty_ram_cache = (b || v.dirty_ram_cache) := by
  have e0 := e
  unfold AddPage at e0
  simp only [bind, Option.bind_eq_some] at e0
  obtain ⟨_, _, _, _, hm, hhm, o, hl, _⟩ := e0
  cases o with
  | some item =>
    obtain ⟨it, v0, sa, hm1, rc1, hit, href, hkey, hv0, hflag, _, hcase, hhm1, hrc1, hs1⟩ :=
      ramAddPage_hit s s1 h page sz b true ref id item hm hhm hl e
    rw [hv] at hv0
    cases hv0
    rw [hs1, v2h_setHmem]
    rcases hcase with ⟨hb, d, s2, hs2, hsa⟩ | ⟨hb, hsa⟩
    · obtain ⟨v2, hv2, hv3, _⟩ := setV2h_v2h s s2 ref _ hs2
      rw [hv] at hv2
      cases hv2
      rw [hsa, v2h_setHmem, hv3]
      exact ⟨_, rfl, hflag, by rw [hb]; rfl⟩
    · rw [hsa, hv]
      exact ⟨v, rfl, hflag, by rw [hb]; rfl⟩
  | none =>
    have hex : v.exist_ram_cache = false := by
      cases hx : v.exist_ram_cache with
      | false => rfl
      | true =>
        exfalso
        obtain ⟨k, hmk, i, it, hk, hi, hit, href⟩ := hc.complete ref v hv hx
        obtain ⟨it1, ref1, v1, hit1, href1, ho1, _, _⟩ := hc.entries k hmk i hk hi
        rw [hit] at hit1
        cases hit1
        rw [href] at href1
        cases href1
        obtain ⟨e1, e2⟩ := ho1.unique ho
        subst e1
        rw [hhm] at hk
        cases hk
        have wf := hc.wellFormed k hm hhm
        have := wf.lookup i it ((wf.chain_lru i).2 hi) hit none (by rw [e2]; exact hl)
        cases this
    have hdr : v.dirty_ram_cache = false := by
      cases hx : v.dirty_ram_cache with
      | false => rfl
      | true =>
        have := hd.2.1 hx
        rw [hex] at this
        cases this
    obtain ⟨s0, hm0, _, hfr0, hhm0, wf0, hlk0, hcase⟩ :=
      ramAddPage_miss (fun _ => True) (fun _ _ _ _ _ _ => trivial) s s1 h page sz b true ref id
        hm trivial hc.wellIndexed hhm (hc.wellFormed h hm hhm) hl e
    rcases hcase with ⟨hb, _⟩ | ⟨_, item, it, d, s3, _, _, hs3, hs1⟩
    · cases hb
    · obtain ⟨v3, _, hv3, _⟩ := setV2h_v2h s0 s3 ref _ hs3
      rw [hs1, v2h_setHmem, hv3]
      exact ⟨_, rfl, rfl, by rw [hdr, Bool.or_false]⟩

end RAMCache

namespace FlashCache
open System

/-- The record of the page after `FlashCache::AddPage` has `exist_flash_cache`,
and `is_dirty` as `dirty_flash_cache`. -/
theorem flashAddPage_flags (s s1 : System) (h d sz : Nat) (b b1 : Bool) (ref : Nat × Nat)
    (id va : Nat) (e : AddPage s h d sz b ref id va = some (b1, s1)) :
    ∃ v1, s1.v2h ref = some v1 ∧ v1.exist_flash_cache = true ∧ v1.dirty_flash_cache = b := by
  unfold AddPage at e
  simp only [bind, Option.bind_eq_some] at e
  obtain ⟨_, _, _, _, off, hoff, ref1, href1, _, _, v, hv, hm, hhm, e⟩ := e
  by_cases hx : v.exist_flash_cache = true
  · rw [if_pos hx] at e
    simp only [Option.bind_eq_some, Option.some_bind] at e
    obtain ⟨_, _, f2v, _, _, _, _, _, hm1, hhm1, v1, _, _, _, pst, _, s3, h3, e⟩ := e
    simp only [Option.some.injEq, Prod.mk.injEq] at e
    rw [← e.2]
    obtain ⟨v3, _, hv3, _⟩ := setV2h_v2h _ s3 ref _ h3
    exact ⟨_, hv3, rfl, rfl⟩
  · rw [if_neg hx] at e
    simp only [Option.bind_eq_some] at e
    obtain ⟨⟨ok1, p, pat⟩, ha, e⟩ := e
    split at e
    · rename_i p1 pat1 heq
      simp only [Option.bind_eq_some, Option.some_bind] at e
      obtain ⟨_, _, hm0, hhm0, f2v, _, _, _, hm1, hhm1, v1, _, _, _, pst, _, s3, h3, e⟩ := e
      simp only [Option.some.injEq, Prod.mk.injEq] at e
      rw [← e.2]
      obtain ⟨v3, _, hv3, _⟩ := setV2h_v2h _ s3 ref _ h3
      exact ⟨_, hv3, rfl, rfl⟩
    · rename_i p1 pat1 heq
      simp only [Option.bind_eq_some, Option.some_bind] at e
      obtain ⟨⟨n2, s2⟩, he, hm2, hhm2, ⟨ok3, p3, pat3⟩, ha3, _, _, hm0, hhm0, f2v, _, _, _, hm1,
        hhm1, v1, _, _, _, pst, _, s3, h3, e⟩ := e
      simp only [Option.some.injEq, Prod.mk.injEq] at e
      rw [← e.2]
      obtain ⟨v3, _, hv3, _⟩ := setV2h_v2h _ s3 ref _ h3
      exact ⟨_, hv3, rfl, rfl⟩

end FlashCache

namespace RAMCache
open System

/-- A turn of the second loop of `RAMCache::EvictItems`: the record of the
entry loses the flags of the RAM cache, has `exist_flash_cache` afterwards, and
`dirty_flash_cache` is the `dirty_ram_cache` or the `dirty_flash_cache` of
before. -/
theorem evictTurn_dirty (s s1 : System) (h item : Nat) (hm : HybridMemory)
    (hhm : s.hmem h = some hm) (wf : hm.ram_cache_.WellFormed)
    (e : evictTurn h item s = some s1)
    (hd : ∀ (ref : Nat × Nat) (v : V2HMapMetadata), s.v2h ref = some v → v.DirtyOK) :
    ∃ (it : RAMCacheItem) (ref : Nat × Nat) (v v1 : V2HMapMetadata),
      hm.ram_cache_.items[item]? = some it ∧ it.v2hmap = some ref ∧ s.v2h ref = some v ∧
      s1.v2h ref = some v1 ∧ v1.exist_ram_cache = false ∧ v1.dirty_ram_cache = false ∧
      v1.exist_flash_cache = true ∧
      v1.dirty_flash_cache = (v.dirty_ram_cache || v.dirty_flash_cache) := by
  obtain ⟨_, it, ref, v, sa, s2, hma, hit, href, hv, hadd, hno, _, _, _, hs2, hs1⟩ :=
    evictTurn_spec s s1 h item hm hhm wf e
  obtain ⟨va, hva, hv2, _⟩ := setV2h_v2h sa s2 ref _ hs2
  have hdv := (hd ref v hv).2.2
  refine ⟨it, ref, v, _, hit, href, hv, by rw [hs1, v2h_setHmem]; exact hv2, rfl, rfl, ?_, ?_⟩
  · show va.exist_flash_cache = true
    cases hcnd : (!v.exist_flash_cache || v.dirty_ram_cache) with
    | true =>
      obtain ⟨b, hb⟩ := hadd hcnd
      obtain ⟨vb, hvb, k1, _⟩ := FlashCache.flashAddPage_flags _ _ _ _ _ _ _ _ _ _ hb
      rw [hva] at hvb
      cases hvb
      exact k1
    | false =>
      have := hno hcnd
      subst this
      rw [hv] at hva
      cases hva
      cases hx : v.exist_flash_cache with
      | true => rfl
      | false => rw [hx] at hcnd; simp at hcnd
  · show va.dirty_flash_cache = (v.dirty_ram_cache || v.dirty_flash_cache)
    cases hcnd : (!v.exist_flash_cache || v.dirty_ram_cache) with
    | true =>
      obtain ⟨b, hb⟩ := hadd hcnd
      obtain ⟨vb, hvb, _, k2⟩ := FlashCache.flashAddPage_flags _ _ _ _ _ _ _ _ _ _ hb
      rw [hva] at hvb
      cases hvb
      rw [k2]
      cases hx : v.dirty_ram_cache with
      | true => rfl
      | false =>
        rw [hx] at hcnd
        simp only [Bool.or_false, Bool.not_eq_true'] at hcnd
        cases hy : v.dirty_flash_cache with
        | false => rfl
        | true =>
          have := hdv hy
          rw [hcnd] at this
          cases this
    | false =>
      have := hno hcnd
      subst this
      rw [hv] at hva
      cases hva
      cases hx : v.dirty_ram_cache with
      | false => rfl
      | true => rw [hx] at hcnd; simp at hcnd

end RAMCache

namespace System

/-- C27: in a state that the library reaches when the caches get the arguments
that the library gives them, for a tier `h`: (1) when `PageCache::EvictItems`
returns `n`, the turn of its loop for the entry `k < n` of the queue, in the
state `sk` that the turns before it leave, hands the page of the entry to
`RAMCache::AddPage` with `dirty_page_cache` of its record `v` as the dirty
flag, and when `RAMCache::AddPage` returns true, the record of the page has
`exist_ram_cache` afterwards and its `dirty_ram_cache` is `dirty_page_cache` or
`dirty_ram_cache` of `v`; (2) when `RAMCache::EvictItems` returns `n`, it
removes `n` entries `items`, and the turn of its second loop for the entry
`k < n`, which takes the state `sk` with the record `v` of the page of the
entry to the state `sk1`, leaves the record with `exist_flash_cache`, with
`dirty_ram_cache` or `dirty_flash_cache` of `v` as `dirty_flash_cache`, and
without `exist_ram_cache` and `dirty_ram_cache`. -/
theorem C27_dirty_carried_on_demotion (s : System) (hr : CallReachable s) (h : Nat)
    (hm : HybridMemory) (hhm : s.hmem h = some hm) :
    (∀ (n : Nat) (s1 : System), PageCache.EvictItems s h = some (n, s1) → ∀ k, k < n →
      ∃ (sk sa : System) (hmk : HybridMemory) (front : Nat) (olditem : PageCacheItem)
          (v : V2HMapMetadata) (b : Bool),
        PageCache.evictLoop h k 0 s = some (k, sk) ∧ sk.hmem h = some hmk ∧
        hm.page_cache_.queue_[k]? = some front ∧
        hm.page_cache_.items[front]? = some olditem ∧ sk.v2h olditem.v2hmap = some v ∧
        RAMCache.AddPage
          (sk.setHmem h { hmk with page_cache_ := { hmk.page_cache_ with
            queue_ := hm.page_cache_.queue_.drop (k + 1) } }) h
          olditem.page olditem.size v.dirty_page_cache olditem.v2hmap olditem.vaddr_range_id =
            some (b, sa) ∧
        (b = true → ∃ va, sa.v2h olditem.v2hmap = some va ∧ va.exist_ram_cache = true ∧
          va.dirty_ram_cache = (v.dirty_page_cache || v.dirty_ram_cache))) ∧
    (∀ (n : Nat) (s1 : System), RAMCache.EvictItems s h = some (n, s1) →
      ∃ items : List Nat,
        items = (hm.ram_cache_.lru_list_.reverse.filter
          (RAMCache.notInPageCache s hm.ram_cache_)).take 16 ∧
        n = items.length ∧ RAMCache.evictLoop h items s = some s1 ∧
        ∀ k, k < n →
          ∃ (sk sk1 : System) (hmk : HybridMemory) (item : Nat) (it : RAMCacheItem)
              (ref : Nat × Nat) (v v1 : V2HMapMetadata),
            RAMCache.evictLoop h (items.take k) s = some sk ∧ items[k]? = some item ∧
            sk.hmem h = some hmk ∧ hmk.ram_cache_.items[item]? = some it ∧
            it.v2hmap = some ref ∧ sk.v2h ref = some v ∧
            RAMCache.evictLoop h (items.take (k + 1)) s = some sk1 ∧
            sk1.v2h ref = some v1 ∧ v1.exist_ram_cache = false ∧ v1.dirty_ram_cache = false ∧
            v1.exist_flash_cache = true ∧
            v1.dirty_flash_cache = (v.dirty_ram_cache || v.dirty_flash_cache)) := by
  have hcp := callReachable_consistent s hr
  have hw := hcp.1.wellIndexed
  refine ⟨?_, ?_⟩
  · intro n s1 e k hk
    obtain ⟨sk, sa, hmk, front, olditem, v, b, h1, hhmk, hq, hit, hv, hadd⟩ :=
      PageCache.evictItems_handover s s1 h n hm hw hhm e k hk
    refine ⟨sk, sa, hmk, front, olditem, v, b, h1, hhmk, hq, hit, hv, hadd, ?_⟩
    intro hb
    subst hb
    obtain ⟨ck, pk⟩ := PageCache.pageEvictLoop_consistent h k 0 k s sk hcp.1 hcp.2 h1
    obtain ⟨_, _, ⟨hm1, hhm1, hpc, _⟩, _, _⟩ :=
      PageCache.evictLoop_queue h k 0 k s sk hm hw hhm h1
    rw [hhmk] at hhm1
    cases hhm1
    have hklen : k < hm.page_cache_.queue_.length := by
      by_contra hc
      rw [List.getElem?_eq_none (Nat.le_of_not_lt hc)] at hq
      cases hq
    have hmem : front ∈ hmk.page_cache_.queue_ := by
      rw [hpc]
      show front ∈ hm.page_cache_.queue_.drop (min k hm.page_cache_.queue_.length)
      rw [Nat.min_eq_left (Nat.le_of_lt hklen)]
      refine mem_of_getElem? _ 0 front ?_
      rw [List.getElem?_drop]
      exact hq
    obtain ⟨olditem1, v1, hit1, ho, _⟩ := pk h hmk front hhmk hmem
    have hitems : hmk.page_cache_.items = hm.page_cache_.items := by rw [hpc]
    rw [hitems, hit] at hit1
    cases hit1
    have c0 := ck.setPageCache h hmk
      { hmk.page_cache_ with queue_ := hm.page_cache_.queue_.drop (k + 1) } hhmk
    have ho0 := (anyFrame_setHmem sk h hmk
      { hmk with page_cache_ := { hmk.page_cache_ with
        queue_ := hm.page_cache_.queue_.drop (k + 1) } } hhmk).ownRecord h _ _ ho
    have hd : v.DirtyOK := by
      obtain ⟨v0, hv0, hR⟩ :=
        (PageCache.pageEvictLoop_frame dirtyOK_pageOK.toRamOK dirtyOK_pageOK.r_page_clear
          dirtyOK_pageOK.h_page h k 0 k s sk hw h1).v2h_back _ v hv
      exact hR (callReachable_dirtyOK s hr _ v0 hv0)
    exact RAMCache.ramAddPage_dirty _ sa h _ _ _ _ _ v c0 ho0
      (by rw [v2h_setHmem]; exact hv) hd hadd
  · intro n s1 e
    unfold RAMCache.EvictItems at e
    simp only [bind, Option.bind_eq_some, Option.some.injEq, Prod.mk.injEq] at e
    obtain ⟨hm0, hhm0, items, hscan, s2, hloop, hn, hs2⟩ := e
    rw [hhm] at hhm0
    cases hhm0
    subst hs2
    have hitems := RAMCache.scanLru_spec s hm.ram_cache_ _ [] items hscan (by simp)
    simp only [List.nil_append, List.length_nil, Nat.sub_zero] at hitems
    refine ⟨items, hitems, hn.symm, hloop, ?_⟩
    intro k hk
    rw [← hn] at hk
    have hsplit : items = items.take k ++ (items[k] :: items.drop (k + 1)) := by
      rw [← List.drop_eq_getElem_cons hk, List.take_append_drop]
    have e1 := hloop
    rw [hsplit, RAMCache.evictLoop_append] at e1
    simp only [Option.bind_eq_some] at e1
    obtain ⟨sk, hsk, e2⟩ := e1
    rw [RAMCache.evictLoop_cons] at e2
    simp only [Option.bind_eq_some] at e2
    obtain ⟨sk1, hturn, _⟩ := e2
    have ck := RAMCache.evictLoop_consistent h (items.take k) s sk hcp.1 hsk
    have hturn0 := hturn
    unfold RAMCache.evictTurn at hturn0
    simp only [bind, Option.bind_eq_some] at hturn0
    obtain ⟨hmk, hhmk, _⟩ := hturn0
    have hdk : ∀ (ref : Nat × Nat) (v : V2HMapMetadata), sk.v2h ref = some v → v.DirtyOK := by
      intro ref v hv
      obtain ⟨v0, hv0, hR⟩ :=
        (RAMCache.ramEvictLoop_frame dirtyOK_pageOK.toRamOK h (items.take k) s sk hsk).v2h_back
          ref v hv
      exact hR (callReachable_dirtyOK s hr ref v0 hv0)
    obtain ⟨it, ref, v, v1, hit, href, hv, hv1, k1, k2, k3, k4⟩ :=
      RAMCache.evictTurn_dirty sk sk1 h items[k] hmk hhmk (ck.wellFormed h hmk hhmk) hturn hdk
    refine ⟨sk, sk1, hmk, items[k], it, ref, v, v1, hsk, List.getElem?_eq_getElem hk, hhmk, hit,
      href, hv, ?_, hv1, k1, k2, k3, k4⟩
    rw [List.take_succ, List.getElem?_eq_getElem hk, RAMCache.evictLoop_append, hsk]
    simp only [Option.toList, Option.some_bind]
    rw [RAMCache.evictLoop_cons, hturn]
    rfl

end System

namespace System

set_option maxRecDepth 100000 in
/-- C27 applies to the state after a write fault on the first page of a range,
whose record has `dirty_page_cache` and has not `dirty_ram_cache`:
`PageCache::EvictItems` hands the page to `RAMCache::AddPage`, which returns
true and leaves the record with `dirty_ram_cache`; and `RAMCache::EvictItems`
in the state after `PageCache::EvictItems` removes the page and leaves its
record with `exist_flash_cache` and `dirty_flash_cache`. -/
theorem C27_dirty_carried_on_demotion_witness :
    ∃ (s sa s1 s2 : System) (hm : HybridMemory) (olditem : PageCacheItem)
        (v va v1 v2 : V2HMapMetadata),
      CallReachable s ∧ s.hmem 0 = some hm ∧ PageCache.EvictItems s 0 = some (1, s1) ∧
      olditem.v2hmap = (0, 0) ∧ s.v2h (0, 0) = some v ∧ v.dirty_page_cache = true ∧
      v.dirty_ram_cache = false ∧
      RAMCache.AddPage
        (s.setHmem 0 { hm with page_cache_ := { hm.page_cache_ with
          queue_ := hm.page_cache_.queue_.drop (0 + 1) } }) 0
        olditem.page olditem.size v.dirty_page_cache olditem.v2hmap olditem.vaddr_range_id =
          some (true, sa) ∧
      sa.v2h (0, 0) = some va ∧ va.dirty_ram_cache = true ∧
      RAMCache.EvictItems s1 0 = some (1, s2) ∧ s1.v2h (0, 0) = some v1 ∧
      v1.dirty_ram_cache = true ∧ s2.v2h (0, 0) = some v2 ∧ v2.exist_flash_cache = true ∧
      v2.dirty_flash_cache = true := by
  have e : ((InitHybridMemory
        [{ st_size := 8 * 4096, content := [100, 101, 102, 103, 104, 105, 106, 107] }]
        (3 * 4096) (2 * 4096) (1 <<< 20) 1).bind (fun s0 =>
      (s0.hmem_map 65536 (8 * 4096) 0 0).bind (fun r =>
        (r.2.SigSegvAction 65536 true).bind (fun s =>
          (s.hmem 0).bind (fun hm =>
            (hm.page_cache_.queue_[0]?).bind (fun front =>
              (hm.page_cache_.items[front]?).bind (fun olditem =>
                (s.v2h olditem.v2hmap).bind (fun v =>
                  (RAMCache.AddPage
                    (s.setHmem 0 { hm with page_cache_ := { hm.page_cache_ with
                      queue_ := hm.page_cache_.queue_.drop (0 + 1) } }) 0
                    olditem.page olditem.size v.dirty_page_cache olditem.v2hmap
                    olditem.vaddr_range_id).bind (fun ra =>
                    (PageCache.EvictItems s 0).bind (fun q =>
                      (q.2.hmem 0).bind (fun hm1 =>
                        (hm1.ram_cache_.items[1]?).bind (fun it =>
                          (q.2.v2h (0, 0)).bind (fun w =>
                            (RAMCache.EvictItems q.2 0).bind (fun q2 =>
                              some ((olditem.v2hmap == (0, 0) && v.dirty_page_cache &&
                                !v.dirty_ram_cache && ra.1 && q.1 == 1) &&
                                (hm1.ram_cache_.lru_list_ == [1] &&
                                it.v2hmap == some (0, 0) && w.dirty_ram_cache &&
                                q2.1 == 1)))))))))))))))) =
      some true := by
    rw [init_of _ _ _ _ (by decide),
      flashInit_of (1 <<< 20) 256 _ (by decide) PageAllocationTable.Init_256]
    decide!
  obtain ⟨s0, h0, e⟩ := Option.bind_eq_some.1 e
  obtain ⟨⟨a, sm⟩, hmap, e⟩ := Option.bind_eq_some.1 e
  obtain ⟨s, hfault, e⟩ := Option.bind_eq_some.1 e
  obtain ⟨hm, hhm, e⟩ := Option.bind_eq_some.1 e
  obtain ⟨front, hfront, e⟩ := Option.bind_eq_some.1 e
  obtain ⟨olditem, hold, e⟩ := Option.bind_eq_some.1 e
  obtain ⟨v, hv, e⟩ := Option.bind_eq_some.1 e
  obtain ⟨⟨b0, sa0⟩, hra, e⟩ := Option.bind_eq_some.1 e
  obtain ⟨⟨n0, s1⟩, he, e⟩ := Option.bind_eq_some.1 e
  obtain ⟨hm1, hhm1, e⟩ := Option.bind_eq_some.1 e
  obtain ⟨it, hit, e⟩ := Option.bind_eq_some.1 e
  obtain ⟨w, hw, e⟩ := Option.bind_eq_some.1 e
  obtain ⟨⟨n2, s2⟩, he2, e⟩ := Option.bind_eq_some.1 e
  simp only [Option.some.injEq, Bool.and_eq_true, beq_iff_eq, Bool.not_eq_true'] at e
  obtain ⟨⟨⟨⟨⟨e1, e2⟩, e3⟩, e4⟩, e5⟩, ⟨⟨e6, e7⟩, e8⟩, e9⟩ := e
  simp only at hfault hhm1 hw he he2 e4 e5 e9
  subst e4 e5 e9
  rw [e1] at hv
  have hr : CallReachable s :=
    CallReachable.fault sm s _ _
      (CallReachable.map s0 sm _ _ _ _ a (CallReachable.init _ _ _ _ _ s0 h0) (by decide) hmap)
      hfault
  have hr1 : CallReachable s1 := CallReachable.pageEvict s s1 0 1 hr he
  obtain ⟨sk, sa, hmk, front1, olditem1, vk, b, h1, hhmk, hq, hitk, hvk, hadd, himp⟩ :=
    (C27_dirty_carried_on_demotion s hr 0 hm hhm).1 1 s1 he 0 (by decide)
  rw [PageCache.evictLoop_zero] at h1
  simp only [Option.some.injEq, Prod.mk.injEq, true_and] at h1
  subst h1
  rw [hhm] at hhmk
  cases hhmk
  rw [hfront] at hq
  cases hq
  rw [hold] at hitk
  cases hitk
  rw [e1, hv] at hvk
  cases hvk
  rw [hra] at hadd
  simp only [Option.some.injEq, Prod.mk.injEq] at hadd
  obtain ⟨hb, hsa⟩ := hadd
  subst hb hsa
  obtain ⟨va, hva, _, hda⟩ := himp rfl
  rw [e1] at hva
  rw [e2] at hda
  obtain ⟨items, hdef, hn, hloop, hall⟩ :=
    (C27_dirty_carried_on_demotion s1 hr1 0 hm1 hhm1).2 1 s2 he2
  have hsub : ∀ i, i ∈ items → i = 1 := by
    intro i hi
    rw [hdef, e6] at hi
    have := List.mem_of_mem_filter (List.mem_of_mem_take hi)
    simpa using this
  obtain ⟨sk, sk1, hmk, item, itk, ref, vk, v2, hsk, hitem, hhmk, hitk, href, hvk, hsk1, hv2,
    _, _, k3, k4⟩ := hall 0 (by decide)
  match items, hn, hsub, hloop, hitem, hsk, hsk1 with
  | [x], _, hsub, hloop, hitem, hsk, hsk1 =>
    have hx := hsub x (List.mem_singleton.2 rfl)
    subst hx
    simp only [List.getElem?_cons_zero, Option.some.injEq] at hitem
    subst hitem
    simp only [List.take_zero, RAMCache.evictLoop_nil, Option.some.injEq] at hsk
    subst hsk
    have hx2 : sk1 = s2 := by
      have : List.take (0 + 1) [1] = [1] := rfl
      rw [this, hloop] at hsk1
      exact (Option.some.inj hsk1).symm
    subst hx2
    rw [hhm1] at hhmk
    cases hhmk
    rw [hit] at hitk
    cases hitk
    rw [e7] at href
    cases href
    rw [hw] at hvk
    cases hvk
    rw [e8] at k4
    exact ⟨s, sa0, s1, sk1, hm, olditem, v, va, w, v2, hr, hhm, he, e1, hv, e2, e3, hra, hva, hda,
      he2, hw, e8, hv2, k3, k4⟩

end System

/-! ## The reverse map of a flash cache and ranges of more than 2^24 pages -/

namespace FlashCache
open System

/-- `FlashCache::AddPage` returns for a page that is not in flash when the
allocation table gives a page `p`: the record of the page gets `p` (on 24
bits) and `f2v_map_[p]` gets the range (on 8 bits) and the offset of the page
in the range (on 24 bits). -/
theorem flashAddPage_returns (s : System) (h data : Nat) (d : Bool) (id idx va p : Nat)
    (r : VAddressRange) (v : V2HMapMetadata) (hm : HybridMemory) (pat1 : PageAllocationTable)
    (f2v : F2VMapItem) (pst1 : PageStatsTable)
    (hid : IsValidVAddressRangeId id = true)
    (hoff : s.GetPageOffsetInVAddressRange id va = some idx)
    (hmap : s.GetV2HMap id idx = some (id, idx))
    (hr : s.vaddr_range_group.vaddr_range_list_[id]? = some r)
    (hvr : r.v2h_map_[idx]? = some v) (hex : v.exist_flash_cache = false)
    (hhm : s.hmem h = some hm)
    (halloc : hm.flash_cache_.page_allocate_table_.AllocateOnePage 0 = some (true, p, pat1))
    (hf2v : hm.flash_cache_.f2v_map_[p]? = some f2v)
    (hinv : IsValidVAddressRangeId f2v.vaddress_range_id = false)
    (hlen : p < hm.flash_cache_.flash_file.length)
    (hinc : hm.flash_cache_.page_stats_table_.IncreaseAccessCount p 1 = some pst1) :
    ∃ (s1 : System) (hm1 : HybridMemory) (v1 : V2HMapMetadata),
      AddPage s h data PAGE_SIZE d (id, idx) id va = some (true, s1) ∧
      s1.v2h (id, idx) = some v1 ∧ v1.exist_flash_cache = true ∧
      v1.flash_page_offset = p % 2 ^ 24 ∧ s1.hmem h = some hm1 ∧
      hm1.flash_cache_.f2v_map_[p]? =
        some { vaddress_page_offset := idx % 2 ^ 24, vaddress_range_id := id % 2 ^ 8 } ∧
      ∀ ref, ref ≠ (id, idx) → s1.v2h ref = s.v2h ref := by
  have hv : s.v2h (id, idx) = some v := by
    unfold System.v2h
    simp only [hr, hvr]
  have hplen : p < hm.flash_cache_.f2v_map_.length := by
    by_contra hc
    rw [List.getElem?_eq_none (Nat.le_of_not_lt hc)] at hf2v
    cases hf2v
  let hmA : HybridMemory :=
    { hm with flash_cache_ := { hm.flash_cache_ with page_allocate_table_ := pat1 } }
  let hmB : HybridMemory :=
    { hmA with flash_cache_ := { hmA.flash_cache_ with
        flash_file := hmA.flash_cache_.flash_file.set p data,
        f2v_map_ := hmA.flash_cache_.f2v_map_.set p
          { vaddress_page_offset := idx % 2 ^ 24, vaddress_range_id := id % 2 ^ 8 },
        page_stats_table_ := pst1 } }
  have hA : (s.setHmem h hmA).hmem h = some hmA := hmem_setHmem s h hm hmA hhm
  have hB : ((s.setHmem h hmA).setHmem h hmB).hmem h = some hmB :=
    hmem_setHmem _ h hmA hmB hA
  obtain ⟨sC, hC⟩ : ∃ sC, ((s.setHmem h hmA).setHmem h hmB).setV2h (id, idx) (fun v =>
      { v with exist_flash_cache := true, dirty_flash_cache := d,
               flash_page_offset := p % 2 ^ 24 }) = some sC := by
    unfold System.setV2h
    show ∃ sC, (match s.vaddr_range_group.vaddr_range_list_[id]? with
      | some r => _
      | none => none) = some sC
    rw [hr]
    simp only [hvr]
    exact ⟨_, rfl⟩
  obtain ⟨v0, hv0, hvC, hother⟩ := setV2h_v2h _ sC _ _ hC
  rw [v2h_setHmem, v2h_setHmem, hv] at hv0
  cases hv0
  obtain ⟨hinst, _, _⟩ := setV2h_other _ _ _ _ hC
  refine ⟨sC, hmB, _, ?_, hvC, rfl, rfl, ?_, ?_, ?_⟩
  · unfold AddPage
    simp only [bind, hid, check, if_true, Option.some_bind, hoff, hmap, beq_self_eq_true, hv,
      hhm, hex, Bool.false_eq_true, if_false, halloc, hA, hf2v, hinv, Bool.not_false,
      v2h_setHmem, hlen, decide_True, Bool.true_or, hinc, Option.bind_some]
    exact Option.bind_eq_some.2 ⟨sC, hC, rfl⟩
  · unfold System.hmem
    rw [hinst]
    exact hB
  · exact List.getElem?_set_self hplen
  · intro ref hne
    rw [hother ref hne]
    rfl

end FlashCache

namespace System

/-- `hmem_alloc` returns when the group has a free range and the size is a page
at least: the first free range gets the address and zeroed records. -/
theorem hmem_alloc_returns (s : System) (address size i : Nat) (r : VAddressRange)
    (hfree : s.vaddr_range_group.free_vaddr_ranges_ ≠ 0)
    (hi : s.vaddr_range_group.firstFree = some i)
    (hr : s.vaddr_range_group.vaddr_range_list_[i]? = some r)
    (hact : r.is_active_ = false) (hsz : ¬ RoundUpToPageSize size < PAGE_SIZE) :
    ∃ (s1 : System) (r1 : VAddressRange), s.hmem_alloc address size = some (address, s1) ∧
      s1.hmem_instances_ = s.hmem_instances_ ∧
      s1.number_hmem_instances_ = s.number_hmem_instances_ ∧
      s1.vaddr_range_group.total_vaddr_ranges_ = s.vaddr_range_group.total_vaddr_ranges_ ∧
      s1.vaddr_range_group.vaddr_range_list_[i]? = some r1 ∧
      r1.address_ = address ∧ r1.size_ = RoundUpToPageSize size ∧
      r1.v2h_map_ =
        List.replicate (RoundUpToPageSize size >>> PAGE_BITS) V2HMapMetadata.zero := by
  have hlen : i < s.vaddr_range_group.vaddr_range_list_.length := by
    by_contra hc
    rw [List.getElem?_eq_none (Nat.le_of_not_lt hc)] at hr
    cases hr
  refine ⟨{ s with
      vaddr_range_group := { s.vaddr_range_group with
        vaddr_range_list_ := s.vaddr_range_group.vaddr_range_list_.set i
          { r with
            size_ := RoundUpToPageSize size, address_ := address,
            memory := List.replicate (RoundUpToPageSize size >>> PAGE_BITS)
              { prot := PROT_NONE, data := 0 },
            number_pages_ := RoundUpToPageSize size >>> PAGE_BITS,
            v2h_map_size_ := RoundUpToPageSize size >>> PAGE_BITS,
            v2h_map_ := List.replicate (RoundUpToPageSize size >>> PAGE_BITS) V2HMapMetadata.zero,
            has_backing_hdd_file_ := false, is_active_ := true },
        vaddr_range_bitmap_ := s.vaddr_range_group.vaddr_range_bitmap_.set i false,
        free_vaddr_ranges_ := s.vaddr_range_group.free_vaddr_ranges_ - 1,
        inuse_vaddr_ranges_ := s.vaddr_range_group.inuse_vaddr_ranges_ + 1,
        tree_ := s.vaddr_range_group.tree_ ++ [i] } },
    { r with
      size_ := RoundUpToPageSize size, address_ := address,
      memory := List.replicate (RoundUpToPageSize size >>> PAGE_BITS)
        { prot := PROT_NONE, data := 0 },
      number_pages_ := RoundUpToPageSize size >>> PAGE_BITS,
      v2h_map_size_ := RoundUpToPageSize size >>> PAGE_BITS,
      v2h_map_ := List.replicate (RoundUpToPageSize size >>> PAGE_BITS) V2HMapMetadata.zero,
      has_backing_hdd_file_ := false, is_active_ := true },
    ?_, rfl, rfl, rfl, List.getElem?_set_self hlen, rfl, rfl, rfl⟩
  unfold hmem_alloc
  simp only [bind, check, hfree, ne_eq, not_false_eq_true, decide_True, if_true,
    Option.some_bind, hi, hr, VAddressRange.Init, hact, Bool.false_eq_true, if_false, hsz]

end System

namespace FlashCache
open System

set_option maxRecDepth 100000 in
/-- C25 fails for a range of more than `2 ^ 24` pages: after `InitHybridMemory`
(one tier, flash cache of 256 pages) and `hmem_alloc` of `2 ^ 24 + 1` pages,
`FlashCache::AddPage` for the last page of the range, at the offset `2 ^ 24`,
returns true; the record of the page has `exist_flash_cache = 1` and
`flash_page_offset = 0`, and `f2v_map_[0]` holds the range 0 and the page offset
0, since its field `vaddress_page_offset` has 24 bits: it names the page 0 of
the range, whose record has `exist_flash_cache = 0`.  `FlashCache::LoadPage` for
the page at the offset `2 ^ 24` and the flash page 0 then fails on its assertion
`f2vmap->vaddress_page_offset == vaddress_page_offset`. -/
theorem C25_f2v_names_another_page :
    ∃ (s0 s1 s2 : System) (v v0 : V2HMapMetadata) (hm : HybridMemory),
      InitHybridMemory [] (3 * 4096) (2 * 4096) (1 <<< 20) 1 = some s0 ∧
      s0.hmem_alloc 65536 ((2 ^ 24 + 1) * 4096) = some (65536, s1) ∧
      AddPage s1 0 7 PAGE_SIZE true (0, 2 ^ 24) 0 (65536 + 2 ^ 24 * 4096) = some (true, s2) ∧
      s2.v2h (0, 2 ^ 24) = some v ∧ v.exist_flash_cache = true ∧ v.flash_page_offset = 0 ∧
      s2.hmem 0 = some hm ∧
      hm.flash_cache_.f2v_map_[0]? =
        some { vaddress_range_id := 0, vaddress_page_offset := 0 } ∧
      s2.v2h (0, 0) = some v0 ∧ v0.exist_flash_cache = false ∧
      LoadPage s2 0 (65536 + 2 ^ 24 * 4096) PAGE_SIZE 0 0 (2 ^ 24) = none := by
  have e0 := init_of [] (3 * 4096) (2 * 4096) (1 <<< 20) (by decide)
  rw [flashInit_of (1 <<< 20) 256 _ (by decide) PageAllocationTable.Init_256] at e0
  have hpc : (PageCache.Init (3 * 4096)).isSome = true := by decide
  have hrc : (RAMCache.Init (2 * 4096)).isSome = true := by decide
  have hps : ((PageStatsTable.Init "pg-stats-table" 256).bind
      (fun t => t.IncreaseAccessCount 0 1)).isSome = true := by decide!
  obtain ⟨pc, hpc⟩ := Option.isSome_iff_exists.1 hpc
  obtain ⟨rc, hrc⟩ := Option.isSome_iff_exists.1 hrc
  obtain ⟨pst1, hps⟩ := Option.isSome_iff_exists.1 hps
  obtain ⟨pst0, hpst0, hinc⟩ := Option.bind_eq_some.1 hps
  rw [hpc, hrc, hpst0] at e0
  simp only [Option.some_bind] at e0
  obtain ⟨s0, hm0, hs0, hgroup, hnum0, hhm0, hpat, hf2v, hfile, hpst⟩ :
      ∃ (s0 : System) (hm0 : HybridMemory),
        InitHybridMemory [] (3 * 4096) (2 * 4096) (1 <<< 20) 1 = some s0 ∧
        s0.vaddr_range_group = VAddressRangeGroup.Init ∧ s0.number_hmem_instances_ = 1 ∧
        s0.hmem 0 = some hm0 ∧
        PageAllocationTable.Init 256 = some hm0.flash_cache_.page_allocate_table_ ∧
        hm0.flash_cache_.f2v_map_ = List.replicate 256
          { vaddress_range_id := INVALID_VADDRESS_RANGE_ID, vaddress_page_offset := 0 } ∧
        hm0.flash_cache_.flash_file = List.replicate 256 0 ∧
        hm0.flash_cache_.page_stats_table_ = pst0 :=
    ⟨_, _, e0, rfl, rfl, rfl, PageAllocationTable.Init_256, rfl, rfl, rfl⟩
  have halloc : ((PageAllocationTable.Init 256).bind (fun t =>
      (t.AllocateOnePage 0).map (fun q => (q.1, q.2.1)))) = some (true, 0) := by
    rw [PageAllocationTable.Init_256]
    decide!
  rw [hpat, Option.some_bind] at halloc
  obtain ⟨⟨b, p, pat1⟩, halloc, hq⟩ := Option.map_eq_some'.1 halloc
  simp only [Option.some.injEq, Prod.mk.injEq] at hq
  obtain ⟨hb, hp⟩ := hq
  subst hb hp
  obtain ⟨s1, r1, h1, hinst, hnum, htot, hr1, haddr, hsize, hmap⟩ :=
    hmem_alloc_returns s0 65536 ((2 ^ 24 + 1) * 4096) 0
      { VAddressRange.new with vaddress_range_id_ := 0 }
      (by rw [hgroup]; decide)
      (by rw [hgroup]; decide!)
      (by rw [hgroup]; decide!)
      rfl (by decide)
  have hN : RoundUpToPageSize ((2 ^ 24 + 1) * 4096) = (2 ^ 24 + 1) * 4096 := by decide
  have hN2 : RoundUpToPageSize ((2 ^ 24 + 1) * 4096) >>> PAGE_BITS = 2 ^ 24 + 1 := by decide
  rw [hN] at hsize
  rw [hN2] at hmap
  have hhm1 : s1.hmem 0 = some hm0 := by
    unfold System.hmem at hhm0 ⊢
    rw [hinst]
    exact hhm0
  have hrange : s1.VAddressRangeFromId 0 = some r1 := by
    unfold System.VAddressRangeFromId
    rw [htot, hgroup, if_pos (by decide)]
    exact hr1
  obtain ⟨s2, hm2, v2, hadd, hv2, hex2, hslot, hhm2, hf2v2, hother⟩ :=
    flashAddPage_returns s1 0 7 true 0 (2 ^ 24) (65536 + 2 ^ 24 * 4096) 0 r1 V2HMapMetadata.zero
      hm0 pat1 { vaddress_range_id := INVALID_VADDRESS_RANGE_ID, vaddress_page_offset := 0 } pst1
      (by decide)
      (by
        unfold System.GetPageOffsetInVAddressRange
        rw [hrange]
        simp only [VAddressRange.GetPageOffset, haddr]
        decide)
      (by
        unfold System.GetV2HMap
        rw [hrange]
        simp only [VAddressRange.GetV2HMapMetadata, hsize]
        decide)
      hr1
      (by rw [hmap, List.getElem?_replicate, if_pos (by decide)])
      rfl hhm1 halloc
      (by rw [hf2v]; rfl)
      (by decide)
      (by rw [hfile]; decide)
      (by rw [hpst]; exact hinc)
  have hv0 : s2.v2h (0, 0) = some V2HMapMetadata.zero := by
    rw [hother (0, 0) (by decide)]
    unfold System.v2h
    simp only [hr1, hmap]
    rw [List.getElem?_replicate, if_pos (by decide)]
  refine ⟨s0, s1, s2, v2, V2HMapMetadata.zero, hm2, hs0, h1, hadd, hv2, hex2, hslot, hhm2,
    hf2v2, hv0, rfl, ?_⟩
  unfold LoadPage
  simp only [bind, hhm2, Option.some_bind, hf2v2]
  rfl

end FlashCache

end Hmem
